import Mathlib

/-!
# Search engine core: posting codec, index stream readers, ranker top-K

A shallow embedding of the C++ sources under `src/engine` together with
machine-checked statements about them.

Conventions of the embedding:

* `uint32_t` / `Location` / `FileOffset` values are natural numbers below
  `U32 = 2 ^ 32`; every C++ operation that can wrap is written with an explicit
  `% U32`.
* a byte buffer is a `List Nat` of values below 256; a pointer into a buffer is
  the offset from its first byte.
* an operation whose C++ execution would read or write outside its buffer, shift
  by 32 or more, or divide by zero returns `none`; so does a loop that exhausts
  the fuel it is given (each such loop is shown to finish within its fuel).
* `Post*` results are `Option`s: `none` is `nullptr`.
-/

namespace SearchEngine

/-- The modulus of `uint32_t` arithmetic. -/
def U32 : Nat := 4294967296

/-- `class WordPost` (Posts.hpp): a word occurrence and its attribute bits. -/
structure WordPost where
  startLocation : Nat
  flags : Nat
  deriving DecidableEq, Repr

/-- `class DocumentPost` (Posts.hpp): the Location range and id of a document. -/
structure DocumentPost where
  startLocation : Nat
  endLocation : Nat
  docId : Nat
  deriving DecidableEq, Repr

/-- `class Post` (Posts.hpp): the common base of both kinds of post. -/
inductive Post where
  | word (p : WordPost)
  | doc (p : DocumentPost)
  deriving DecidableEq, Repr

namespace Post

/-- `Post::GetStartLocation`. -/
def GetStartLocation : Post → Nat
  | word p => p.startLocation
  | doc p => p.startLocation

/-- `Post::GetEndLocation`: a word post ends where it starts. -/
def GetEndLocation : Post → Nat
  | word p => p.startLocation
  | doc p => p.endLocation

/-- `Post::GetID`: 0 for a word post. -/
def GetID : Post → Nat
  | word _ => 0
  | doc p => p.docId

end Post

namespace SerializedPost

/-- Loop of `EncodeVarLengthDelta`: `while (delta >= 0x80)` emits the low seven
bits with the continuation bit and shifts; the last byte is `delta` itself.
The first argument bounds the number of iterations. -/
def EncodeVarLengthDelta.loop : Nat → Nat → List Nat
  | 0, delta => [delta % 256]
  | fuel + 1, delta =>
    if delta ≥ 0x80 then
      (((delta &&& 0x7F) ||| 0x80) % 256) :: EncodeVarLengthDelta.loop fuel (delta >>> 7)
    else [delta % 256]

/-- `SerializedPost::EncodeVarLengthDelta`: the bytes written for a 32-bit
`delta`. A value below `2 ^ 32` leaves the loop after at most four rounds, so
five rounds of fuel are never used up. -/
def EncodeVarLengthDelta (delta : Nat) : List Nat :=
  EncodeVarLengthDelta.loop 5 delta

/-- Loop of `BytesRequiredForDelta`. -/
def BytesRequiredForDelta.loop : Nat → Nat → Nat → Nat
  | 0, _, bytes => bytes
  | fuel + 1, delta, bytes =>
    if delta ≥ 0x80 then BytesRequiredForDelta.loop fuel (delta >>> 7) (bytes + 1)
    else bytes

/-- `SerializedPost::BytesRequiredForDelta`. -/
def BytesRequiredForDelta (delta : Nat) : Nat :=
  BytesRequiredForDelta.loop 5 delta 1

/-- Loop of `DecodeVarLengthDelta` over the bytes from `buffer[i]` on:
`delta |= (byte & 0x7F) << shift; i++; if (!(byte & 0x80)) break; shift += 7`.
Running off the buffer and shifting an `int` by 32 or more are undefined. -/
def DecodeVarLengthDelta.loop : List Nat → Nat → Nat → Nat → Option (Nat × Nat)
  | [], _, _, _ => none
  | byte :: rest, delta, shift, i =>
    if shift ≥ 32 then none
    else
      let delta1 := (delta ||| ((byte &&& 0x7F) <<< shift)) % U32
      if byte &&& 0x80 = 0 then some (delta1, i + 1)
      else DecodeVarLengthDelta.loop rest delta1 (shift + 7) (i + 1)

/-- `SerializedPost::DecodeVarLengthDelta`: the decoded value and `*bytesRead`. -/
def DecodeVarLengthDelta (buffer : List Nat) : Option (Nat × Nat) :=
  DecodeVarLengthDelta.loop buffer 0 0 0

/-- `SerializedPost::BytesRequiredForWordPost`. -/
def BytesRequiredForWordPost (post : WordPost) (prevLocation : Nat) : Nat :=
  let delta := (post.startLocation + U32 - prevLocation) % U32
  BytesRequiredForDelta delta + 1

/-- `SerializedPost::SerializeWordPost`: the varint of the `uint32_t` difference
`startLocation - prevLocation`, then the flags byte. -/
def SerializeWordPost (post : WordPost) (prevLocation : Nat) : List Nat :=
  let delta := (post.startLocation + U32 - prevLocation) % U32
  EncodeVarLengthDelta delta ++ [post.flags]

/-- `SerializedPost::DeserializeWordPost`: the post, `*bytesRead` and the updated
`*currentLocation`. -/
def DeserializeWordPost (buffer : List Nat) (currentLocation : Nat) :
    Option (WordPost × Nat × Nat) :=
  match DecodeVarLengthDelta buffer with
  | none => none
  | some (delta, localBytes) =>
    let cur := (currentLocation + delta) % U32
    match buffer.get? localBytes with
    | none => none
    | some fl => some ({ startLocation := cur, flags := fl }, localBytes + 1, cur)

/-- `SerializedPost::BytesRequiredForDocumentPost`. -/
def BytesRequiredForDocumentPost (post : DocumentPost) (prevEndLocation : Nat) : Nat :=
  BytesRequiredForDelta ((post.startLocation + U32 - prevEndLocation) % U32)
    + BytesRequiredForDelta ((post.endLocation + U32 - post.startLocation) % U32)
    + BytesRequiredForDelta post.docId

/-- `SerializedPost::SerializeDocumentPost`: three varints, the start as a
difference from the previous end, the length, and the document id. -/
def SerializeDocumentPost (post : DocumentPost) (prevEndLocation : Nat) : List Nat :=
  EncodeVarLengthDelta ((post.startLocation + U32 - prevEndLocation) % U32)
    ++ EncodeVarLengthDelta ((post.endLocation + U32 - post.startLocation) % U32)
    ++ EncodeVarLengthDelta post.docId

/-- `SerializedPost::DeserializeDocumentPost`: the post, `*bytesRead` and the
updated `prevEndLocation`. -/
def DeserializeDocumentPost (buffer : List Nat) (prevEndLocation : Nat) :
    Option (DocumentPost × Nat × Nat) :=
  match DecodeVarLengthDelta buffer with
  | none => none
  | some (startDelta, b1) =>
    let startLoc := (prevEndLocation + startDelta) % U32
    match DecodeVarLengthDelta (buffer.drop b1) with
    | none => none
    | some (docLength, b2) =>
      match DecodeVarLengthDelta (buffer.drop (b1 + b2)) with
      | none => none
      | some (docId, b3) =>
        let endLoc := (startLoc + docLength) % U32
        some ({ startLocation := startLoc, endLocation := endLoc, docId := docId },
              b1 + b2 + b3, endLoc)

end SerializedPost

/-- `std::vector<uint8_t>::resize(n)`: truncate, or pad with zero bytes. -/
def vectorResize (v : List Nat) (n : Nat) : List Nat :=
  v.take n ++ List.replicate (n - v.length) 0

/-- Storing `bytes` at `buffer + off`; storing past the end of the buffer is
undefined. -/
def writeBytes (buffer : List Nat) (off : Nat) (bytes : List Nat) : Option (List Nat) :=
  if off + bytes.length ≤ buffer.length then
    some (buffer.take off ++ bytes ++ buffer.drop (off + bytes.length))
  else none

/-- `class PostingList` (Posts.hpp): the in-memory, append-only posting list. -/
structure PostingList where
  rawPostingData : List Nat
  postCount : Nat
  maxLocation : Nat
  deriving DecidableEq, Repr

namespace PostingList

/-- `PostingList::PostingList()`. -/
def empty : PostingList := { rawPostingData := [], postCount := 0, maxLocation := 0 }

/-- `PostingList::AddWordPost`. `oldSize`, `bytesNeeded` and their sum are
`uint32_t`; the vector is resized to the sum and the post is serialised at
`data() + oldSize`. -/
def AddWordPost (pl : PostingList) (post : WordPost) : Option PostingList :=
  let oldSize := pl.rawPostingData.length % U32
  let bytesNeeded := SerializedPost.BytesRequiredForWordPost post pl.maxLocation
  let resized := vectorResize pl.rawPostingData ((oldSize + bytesNeeded) % U32)
  match writeBytes resized oldSize (SerializedPost.SerializeWordPost post pl.maxLocation) with
  | none => none
  | some raw =>
    some { rawPostingData := raw
           postCount := (pl.postCount + 1) % U32
           maxLocation := post.startLocation }

/-- `PostingList::AddDocumentPost`. -/
def AddDocumentPost (pl : PostingList) (post : DocumentPost) : Option PostingList :=
  let bytesNeeded := SerializedPost.BytesRequiredForDocumentPost post pl.maxLocation
  let oldSize := pl.rawPostingData.length % U32
  let resized := vectorResize pl.rawPostingData ((oldSize + bytesNeeded) % U32)
  match writeBytes resized oldSize (SerializedPost.SerializeDocumentPost post pl.maxLocation) with
  | none => none
  | some raw =>
    some { rawPostingData := raw
           postCount := (pl.postCount + 1) % U32
           maxLocation := post.endLocation }

/-- Appending a sequence of word posts, in order, to a posting list. -/
def AddWordPosts (pl : PostingList) : List WordPost → Option PostingList
  | [] => some pl
  | post :: rest =>
    match pl.AddWordPost post with
    | none => none
    | some pl1 => AddWordPosts pl1 rest

/-- Appending a sequence of document posts, in order, to a posting list. -/
def AddDocumentPosts (pl : PostingList) : List DocumentPost → Option PostingList
  | [] => some pl
  | post :: rest =>
    match pl.AddDocumentPost post with
    | none => none
    | some pl1 => AddDocumentPosts pl1 rest

/-- Loop of the linear `PostingList::SeekWordPost(target)`: decode from `offset`
until a post with `currentLocation >= target`. -/
def SeekWordPost.loop (raw : List Nat) (target : Nat) : Nat → Nat → Nat → Option (Option WordPost)
  | 0, _, _ => none
  | fuel + 1, offset, currentLocation =>
    if offset < raw.length then
      match SerializedPost.DeserializeWordPost (raw.drop offset) currentLocation with
      | none => none
      | some (post, bytesRead, cur) =>
        if cur ≥ target then some (some post)
        else SeekWordPost.loop raw target fuel ((offset + bytesRead) % U32) cur
    else some none

/-- `PostingList::SeekWordPost`: the first post whose location is `>= target`.
Every round consumes at least two bytes, so `size() + 1` rounds suffice. -/
def SeekWordPost (pl : PostingList) (target : Nat) : Option (Option WordPost) :=
  SeekWordPost.loop pl.rawPostingData target (pl.rawPostingData.length + 1) 0 0

/-- Loop of the linear `PostingList::SeekDocumentPost(target)`. -/
def SeekDocumentPost.loop (raw : List Nat) (target : Nat) :
    Nat → Nat → Nat → Option (Option DocumentPost)
  | 0, _, _ => none
  | fuel + 1, offset, prevEndLocation =>
    if offset < raw.length then
      match SerializedPost.DeserializeDocumentPost (raw.drop offset) prevEndLocation with
      | none => none
      | some (post, bytesRead, _) =>
        if post.endLocation ≥ target then some (some post)
        else SeekDocumentPost.loop raw target fuel ((offset + bytesRead) % U32) post.endLocation
    else some none

/-- `PostingList::SeekDocumentPost`: the first document whose end is `>= target`. -/
def SeekDocumentPost (pl : PostingList) (target : Nat) : Option (Option DocumentPost) :=
  SeekDocumentPost.loop pl.rawPostingData target (pl.rawPostingData.length + 1) 0 0

end PostingList

/-- Sequential decoding of a whole buffer of word posts with
`DeserializeWordPost`, the running location starting at `currentLocation`:
the posts read and the number of bytes consumed. -/
def decodeWordPosts : Nat → List Nat → Nat → Option (List WordPost × Nat)
  | 0, _, _ => none
  | fuel + 1, buffer, currentLocation =>
    if buffer = [] then some ([], 0)
    else
      match SerializedPost.DeserializeWordPost buffer currentLocation with
      | none => none
      | some (post, bytesRead, cur) =>
        match decodeWordPosts fuel (buffer.drop bytesRead) cur with
        | none => none
        | some (posts, n) => some (post :: posts, bytesRead + n)

end SearchEngine

namespace SearchEngine

/-- `RoundUp(length, boundary)` (lib/algorithm.h) for a power-of-two boundary:
`(length + boundary - 1) & ~(boundary - 1)`. -/
def RoundUp (length boundary : Nat) : Nat :=
  (length + (boundary - 1)) / boundary * boundary

/-- `SerializedPostingList::SkipEntry`. -/
structure SkipEntry where
  Offset : Nat
  PostLocation : Nat
  deriving DecidableEq, Repr

/-- `class SerializedPostingList` (Posts.hpp): the four header words, then the
skip table (`GetSkipTable`), then the posting data (`GetPostingData`). Pointers
into the posting data are offsets from `GetPostingData()`. -/
structure SerializedPostingList where
  bytes : Nat
  postingDataSize : Nat
  skipCount : Nat
  postCount : Nat
  skipTable : List SkipEntry
  postingData : List Nat
  deriving DecidableEq, Repr

namespace SerializedPostingList

/-- `SerializedPostingList::ComputeSkipCount` with its default arguments
`postsPerSkip = 32`, `maxSkips = 256`. -/
def ComputeSkipCount (numPosts : Nat) : Nat :=
  let computed := if numPosts ≥ 32 then numPosts / 32 else 1
  if computed < 256 then computed else 256

/-- `SerializedPostingList::GetBucketIndex`, a `uint8_t`. The product and the
sum are `uint32_t`; the division is undefined when `maxLoc + 1` wraps to 0. -/
def GetBucketIndex (loc maxLoc skipTableSize : Nat) : Option Nat :=
  if maxLoc = 0 then some 0
  else if loc > maxLoc then some ((skipTableSize + U32 - 1) % U32 % 256)
  else if (maxLoc + 1) % U32 = 0 then none
  else some ((loc * skipTableSize) % U32 / ((maxLoc + 1) % U32) % 256)

/-- `SerializedPostingList::GetCurrentWord`: decode the post under `*ptr` and
step over it, or `nullptr` when `*ptr` is outside the posting data. Returns the
post, the new `*ptr` and the new `currentLocation`. -/
def GetCurrentWord (spl : SerializedPostingList) (ptr currentLocation : Nat) :
    Option (Option WordPost × Nat × Nat) :=
  if ptr < spl.postingDataSize then
    match SerializedPost.DeserializeWordPost (spl.postingData.drop ptr) currentLocation with
    | none => none
    | some (wp, bytesRead, cur) => some (some wp, ptr + bytesRead, cur)
  else some (none, ptr, currentLocation)

/-- `SerializedPostingList::GetCurrentDoc`. -/
def GetCurrentDoc (spl : SerializedPostingList) (ptr currentLocation : Nat) :
    Option (Option DocumentPost × Nat × Nat) :=
  if ptr < spl.postingDataSize then
    match SerializedPost.DeserializeDocumentPost (spl.postingData.drop ptr) currentLocation with
    | none => none
    | some (dp, bytesRead, cur) => some (some dp, ptr + bytesRead, cur)
  else some (none, ptr, currentLocation)

/-- `SerializedPostingList::FindBestSkipEntry`. The bucket is computed before
the test `target <= currentLocation`. -/
def FindBestSkipEntry (spl : SerializedPostingList) (target currentLocation maxLocation : Nat) :
    Option (Option SkipEntry) :=
  match GetBucketIndex target maxLocation spl.skipCount with
  | none => none
  | some targetBucket =>
    if target ≤ currentLocation then some none
    else if targetBucket < spl.skipCount then
      match spl.skipTable.get? targetBucket with
      | none => none
      | some entry =>
        if entry.PostLocation > currentLocation ∧ entry.PostLocation < target then
          some (some entry)
        else some none
    else some none

/-- The `maxLocation` that both seeks read from the last skip entry. -/
def tableMaxLocation (spl : SerializedPostingList) : Option Nat :=
  if spl.skipCount > 0 then
    match spl.skipTable.get? (spl.skipCount - 1) with
    | none => none
    | some e => some e.PostLocation
  else some 0

/-- Linear scan of `SeekWordPost(target, currentLocation, data)`. -/
def SeekWordPost.loop (spl : SerializedPostingList) (target : Nat) :
    Nat → Nat → Nat → Option (Option WordPost × Nat × Nat)
  | 0, _, _ => none
  | fuel + 1, currentLocation, data =>
    if data < spl.postingDataSize then
      match SerializedPost.DeserializeWordPost (spl.postingData.drop data) currentLocation with
      | none => none
      | some (post, bytesRead, cur) =>
        if cur ≥ target then some (some post, cur, data + bytesRead)
        else SeekWordPost.loop spl target fuel cur (data + bytesRead)
    else some (none, currentLocation, data)

/-- `SerializedPostingList::SeekWordPost(target, currentLocation, data)`: the
post found, the new `currentLocation` and the new `data`. The cursor restarts
from the beginning when `currentLocation >= target`; a skip entry strictly
between the cursor and the target is jumped to; then the scan is linear. Every
round of the scan consumes at least two bytes. -/
def SeekWordPost (spl : SerializedPostingList) (target currentLocation data : Nat) :
    Option (Option WordPost × Nat × Nat) :=
  let c0 : Nat × Nat := if currentLocation ≥ target then (0, 0) else (currentLocation, data)
  match spl.tableMaxLocation with
  | none => none
  | some maxLocation =>
    match spl.FindBestSkipEntry target c0.1 maxLocation with
    | none => none
    | some bestEntry =>
      let c1 : Nat × Nat :=
        match bestEntry with
        | some e => (e.PostLocation, e.Offset)
        | none => c0
      SeekWordPost.loop spl target (spl.postingDataSize + 1) c1.1 c1.2

/-- Linear scan of `SeekDocumentPost(target, prevEndLocation, data)`. -/
def SeekDocumentPost.loop (spl : SerializedPostingList) (target : Nat) :
    Nat → Nat → Nat → Option (Option DocumentPost × Nat × Nat)
  | 0, _, _ => none
  | fuel + 1, prevEndLocation, data =>
    if data < spl.postingDataSize then
      match SerializedPost.DeserializeDocumentPost (spl.postingData.drop data) prevEndLocation with
      | none => none
      | some (post, bytesRead, prevEnd) =>
        if post.endLocation ≥ target then some (some post, prevEnd, data + bytesRead)
        else SeekDocumentPost.loop spl target fuel prevEnd (data + bytesRead)
    else some (none, prevEndLocation, data)

/-- `SerializedPostingList::SeekDocumentPost(target, prevEndLocation, data)`. -/
def SeekDocumentPost (spl : SerializedPostingList) (target prevEndLocation data : Nat) :
    Option (Option DocumentPost × Nat × Nat) :=
  let c0 : Nat × Nat := if prevEndLocation ≥ target then (0, 0) else (prevEndLocation, data)
  match spl.tableMaxLocation with
  | none => none
  | some maxLocation =>
    match spl.FindBestSkipEntry target c0.1 maxLocation with
    | none => none
    | some bestEntry =>
      let c1 : Nat × Nat :=
        match bestEntry with
        | some e => (e.PostLocation, e.Offset)
        | none => c0
      SeekDocumentPost.loop spl target (spl.postingDataSize + 1) c1.1 c1.2

/-- The backward-compatible `SeekWordPost(target)`: a seek from a fresh cursor
(`currentLocation = 0`, `data = GetPostingData()`), keeping only the post. -/
def SeekWordPostFresh (spl : SerializedPostingList) (target : Nat) : Option (Option WordPost) :=
  match spl.SeekWordPost target 0 0 with
  | none => none
  | some (post, _, _) => some post

/-- The backward-compatible `SeekDocumentPost(target)`. -/
def SeekDocumentPostFresh (spl : SerializedPostingList) (target : Nat) :
    Option (Option DocumentPost) :=
  match spl.SeekDocumentPost target 0 0 with
  | none => none
  | some (post, _, _) => some post

/-- The inner `for` loops of the skip-table builders: entries `lo .. hi` (those
that exist) are overwritten with `e`; `i` is the index of the head of the list. -/
def fillEntries : List SkipEntry → Nat → Nat → Nat → SkipEntry → List SkipEntry
  | [], _, _, _, _ => []
  | x :: xs, i, lo, hi, e =>
    (if lo ≤ i ∧ i ≤ hi then e else x) :: fillEntries xs (i + 1) lo hi e

/-- Main loop of `BuildWordPostSkipTable`; the state is the table, `offsetInRaw`,
`currentLocation` and `lastBucket`. -/
def BuildWordPostSkipTable.loop (rawData : List Nat) (maxLocation dynamicSkipCount : Nat) :
    Nat → List SkipEntry → Nat → Nat → Nat → Option (List SkipEntry × Nat × Nat × Nat)
  | 0, _, _, _, _ => none
  | fuel + 1, skipEntries, offsetInRaw, currentLocation, lastBucket =>
    if offsetInRaw < rawData.length ∧ dynamicSkipCount > 0 then
      let oldLocation := currentLocation
      match SerializedPost.DeserializeWordPost (rawData.drop offsetInRaw) currentLocation with
      | none => none
      | some (_, bytesRead, cur) =>
        match GetBucketIndex cur maxLocation dynamicSkipCount with
        | none => none
        | some bucket =>
          if bucket > lastBucket ∧ bucket < dynamicSkipCount then
            BuildWordPostSkipTable.loop rawData maxLocation dynamicSkipCount fuel
              (fillEntries skipEntries 0 (lastBucket + 1) bucket
                { Offset := offsetInRaw, PostLocation := oldLocation })
              ((offsetInRaw + bytesRead) % U32) cur bucket
          else
            BuildWordPostSkipTable.loop rawData maxLocation dynamicSkipCount fuel
              skipEntries ((offsetInRaw + bytesRead) % U32) cur lastBucket
    else some (skipEntries, offsetInRaw, currentLocation, lastBucket)

/-- `SerializedPostingList::BuildWordPostSkipTable`. -/
def BuildWordPostSkipTable (rawData : List Nat) (maxLocation numPosts : Nat) :
    Option (List SkipEntry) :=
  let dynamicSkipCount := ComputeSkipCount numPosts
  let skipEntries := List.replicate dynamicSkipCount ({ Offset := 0, PostLocation := 0 } : SkipEntry)
  let skipEntries := skipEntries.set 0 { Offset := 0, PostLocation := 0 }
  match BuildWordPostSkipTable.loop rawData maxLocation dynamicSkipCount (rawData.length + 1)
      skipEntries 0 0 0 with
  | none => none
  | some (skipEntries, offsetInRaw, currentLocation, lastBucket) =>
    some (fillEntries skipEntries 0 (lastBucket + 1) dynamicSkipCount
      { Offset := offsetInRaw, PostLocation := currentLocation })

/-- Main loop of `BuildDocumentPostSkipTable`. -/
def BuildDocumentPostSkipTable.loop (rawData : List Nat) (maxLocation dynamicSkipCount : Nat) :
    Nat → List SkipEntry → Nat → Nat → Nat → Option (List SkipEntry × Nat × Nat × Nat)
  | 0, _, _, _, _ => none
  | fuel + 1, skipEntries, offsetInRaw, prevEndLocation, lastBucket =>
    if offsetInRaw < rawData.length ∧ dynamicSkipCount > 0 then
      let temp := prevEndLocation
      match SerializedPost.DeserializeDocumentPost (rawData.drop offsetInRaw) prevEndLocation with
      | none => none
      | some (post, bytesRead, _) =>
        match GetBucketIndex post.endLocation maxLocation dynamicSkipCount with
        | none => none
        | some bucket =>
          if bucket > lastBucket ∧ bucket < dynamicSkipCount then
            BuildDocumentPostSkipTable.loop rawData maxLocation dynamicSkipCount fuel
              (fillEntries skipEntries 0 (lastBucket + 1) bucket
                { Offset := offsetInRaw, PostLocation := temp })
              ((offsetInRaw + bytesRead) % U32) post.endLocation bucket
          else
            BuildDocumentPostSkipTable.loop rawData maxLocation dynamicSkipCount fuel
              skipEntries ((offsetInRaw + bytesRead) % U32) post.endLocation lastBucket
    else some (skipEntries, offsetInRaw, prevEndLocation, lastBucket)

/-- `SerializedPostingList::BuildDocumentPostSkipTable`. -/
def BuildDocumentPostSkipTable (rawData : List Nat) (maxLocation numPosts : Nat) :
    Option (List SkipEntry) :=
  let dynamicSkipCount := ComputeSkipCount numPosts
  let skipEntries := List.replicate dynamicSkipCount ({ Offset := 0, PostLocation := 0 } : SkipEntry)
  let skipEntries := skipEntries.set 0 { Offset := 0, PostLocation := 0 }
  match BuildDocumentPostSkipTable.loop rawData maxLocation dynamicSkipCount (rawData.length + 1)
      skipEntries 0 0 0 with
  | none => none
  | some (skipEntries, offsetInRaw, prevEndLocation, lastBucket) =>
    some (fillEntries skipEntries 0 (lastBucket + 1) dynamicSkipCount
      { Offset := offsetInRaw, PostLocation := prevEndLocation })

/-- First pass of `WriteWordPostingList`: the location of the last post. -/
def WriteWordPostingList.maxLoop (raw : List Nat) : Nat → Nat → Nat → Nat → Option Nat
  | 0, _, _, _ => none
  | fuel + 1, offset, currentLocation, maxLocation =>
    if offset < raw.length then
      match SerializedPost.DeserializeWordPost (raw.drop offset) currentLocation with
      | none => none
      | some (_, bytesRead, cur) =>
        WriteWordPostingList.maxLoop raw fuel ((offset + bytesRead) % U32) cur cur
    else some maxLocation

/-- `SerializedPostingList::WriteWordPostingList`. -/
def WriteWordPostingList (plist : PostingList) : Option SerializedPostingList :=
  match WriteWordPostingList.maxLoop plist.rawPostingData (plist.rawPostingData.length + 1) 0 0 0 with
  | none => none
  | some maxLocation =>
    let numPosts := plist.postCount
    let dynamicSkipCount := ComputeSkipCount numPosts
    let totalBytes := (4 * 4 + dynamicSkipCount * 8 + plist.rawPostingData.length) % U32
    match BuildWordPostSkipTable plist.rawPostingData maxLocation numPosts with
    | none => none
    | some skipEntries =>
      some { bytes := RoundUp totalBytes 4 % U32
             postingDataSize := plist.rawPostingData.length % U32
             skipCount := dynamicSkipCount
             postCount := numPosts
             skipTable := skipEntries
             postingData := plist.rawPostingData }

/-- First pass of `WriteDocumentPostingList`: the largest end location. -/
def WriteDocumentPostingList.maxLoop (raw : List Nat) : Nat → Nat → Nat → Nat → Option Nat
  | 0, _, _, _ => none
  | fuel + 1, offset, prevEndLocation, maxLocation =>
    if offset < raw.length then
      match SerializedPost.DeserializeDocumentPost (raw.drop offset) prevEndLocation with
      | none => none
      | some (post, bytesRead, _) =>
        WriteDocumentPostingList.maxLoop raw fuel ((offset + bytesRead) % U32) post.endLocation
          (max maxLocation post.endLocation)
    else some maxLocation

/-- `SerializedPostingList::WriteDocumentPostingList`. -/
def WriteDocumentPostingList (plist : PostingList) : Option SerializedPostingList :=
  match WriteDocumentPostingList.maxLoop plist.rawPostingData (plist.rawPostingData.length + 1)
      0 0 0 with
  | none => none
  | some maxLocation =>
    let numPosts := plist.postCount
    let dynamicSkipCount := ComputeSkipCount numPosts
    let totalBytes := (4 * 4 + dynamicSkipCount * 8 + plist.rawPostingData.length) % U32
    match BuildDocumentPostSkipTable plist.rawPostingData maxLocation numPosts with
    | none => none
    | some skipEntries =>
      some { bytes := RoundUp totalBytes 4 % U32
             postingDataSize := plist.rawPostingData.length % U32
             skipCount := dynamicSkipCount
             postCount := numPosts
             skipTable := skipEntries
             postingData := plist.rawPostingData }

end SerializedPostingList

/-! ### Reference encodings

The byte string that a sequence of posts is expected to produce, used to state
and prove the codec round trip. -/

/-- The concatenated encodings of `posts`, each relative to the previous
location, the first relative to `prevLocation`. -/
def encodeWordPosts : Nat → List WordPost → List Nat
  | _, [] => []
  | prevLocation, p :: ps =>
    SerializedPost.SerializeWordPost p prevLocation ++ encodeWordPosts p.startLocation ps

/-- The concatenated encodings of document posts, each start relative to the
previous end. -/
def encodeDocumentPosts : Nat → List DocumentPost → List Nat
  | _, [] => []
  | prevEnd, p :: ps =>
    SerializedPost.SerializeDocumentPost p prevEnd ++ encodeDocumentPosts p.endLocation ps

/-- The running location after decoding `posts`, starting from `prevLocation`. -/
def lastLocation : Nat → List WordPost → Nat
  | prevLocation, [] => prevLocation
  | _, p :: ps => lastLocation p.startLocation ps

/-- The running end location after decoding document posts. -/
def lastEndLocation : Nat → List DocumentPost → Nat
  | prevEnd, [] => prevEnd
  | _, p :: ps => lastEndLocation p.endLocation ps

/-- Byte offset of the boundary after the first `k` posts of `posts`. -/
def wordOffset (posts : List WordPost) (k : Nat) : Nat :=
  (encodeWordPosts 0 (posts.take k)).length

/-- Running location at the boundary after the first `k` posts (0 before the
first post). -/
def wordLocation (posts : List WordPost) (k : Nat) : Nat :=
  lastLocation 0 (posts.take k)

/-- Number of leading posts whose location is below `target`. -/
def countBelow (target : Nat) : List WordPost → Nat
  | [] => 0
  | p :: ps => if target ≤ p.startLocation then 0 else countBelow target ps + 1

/-- `decodeWordPosts` over a whole buffer, the running location starting at 0;
every post takes at least two bytes, so `length + 1` rounds suffice. -/
def decodeAllWordPosts (raw : List Nat) : Option (List WordPost × Nat) :=
  decodeWordPosts (raw.length + 1) raw 0

/-- Word posts with strictly increasing 32-bit Locations and flag bytes. -/
def WordPostsOK (posts : List WordPost) : Prop :=
  (posts.map WordPost.startLocation).Pairwise (· < ·)
    ∧ (∀ p ∈ posts, p.startLocation < U32) ∧ (∀ p ∈ posts, p.flags < 256)

/-- Byte offset of the boundary after the first `k` document posts. -/
def docOffset (docs : List DocumentPost) (k : Nat) : Nat :=
  (encodeDocumentPosts 0 (docs.take k)).length

/-- Running end location at the boundary after the first `k` document posts (0
before the first). -/
def docLocation (docs : List DocumentPost) (k : Nat) : Nat :=
  lastEndLocation 0 (docs.take k)

/-- Number of leading documents that end below `target`. -/
def countEndBelow (target : Nat) : List DocumentPost → Nat
  | [] => 0
  | d :: ds => if target ≤ d.endLocation then 0 else countEndBelow target ds + 1

/-- Document posts of a segment: every range is non-empty, the ranges are
disjoint and in ascending order, and Locations and ids are 32-bit. -/
def DocPostsOK (docs : List DocumentPost) : Prop :=
  docs.Pairwise (fun a b => a.endLocation < b.startLocation)
    ∧ (∀ d ∈ docs, d.startLocation ≤ d.endLocation)
    ∧ (∀ d ∈ docs, d.endLocation < U32) ∧ (∀ d ∈ docs, d.docId < U32)

instance (docs : List DocumentPost) : Decidable (DocPostsOK docs) := by
  unfold DocPostsOK; infer_instance

instance (posts : List WordPost) : Decidable (WordPostsOK posts) := by
  unfold WordPostsOK; infer_instance

/-- The serialised word posting list `spl` holds exactly `posts`: its posting
data is their reference encoding, every skip entry names a post boundary
together with the running location at that boundary, and no Location is the
largest `uint32_t`. -/
structure WordListOK (spl : SerializedPostingList) (posts : List WordPost) : Prop where
  sorted : WordPostsOK posts
  data : spl.postingData = encodeWordPosts 0 posts
  size : spl.postingDataSize = spl.postingData.length
  tableLen : spl.skipTable.length = spl.skipCount
  skipPos : 0 < spl.skipCount
  table : ∀ e ∈ spl.skipTable,
    ∃ k, e.Offset = wordOffset posts k ∧ e.PostLocation = wordLocation posts k
  noWrap : ∀ p ∈ posts, p.startLocation + 1 < U32

/-- The serialised document-end list `spl` holds exactly `docs`. -/
structure DocListOK (spl : SerializedPostingList) (docs : List DocumentPost) : Prop where
  sorted : DocPostsOK docs
  data : spl.postingData = encodeDocumentPosts 0 docs
  size : spl.postingDataSize = spl.postingData.length
  tableLen : spl.skipTable.length = spl.skipCount
  skipPos : 0 < spl.skipCount
  table : ∀ e ∈ spl.skipTable,
    ∃ k, e.Offset = docOffset docs k ∧ e.PostLocation = docLocation docs k
  noWrap : ∀ d ∈ docs, d.endLocation + 1 < U32

end SearchEngine

namespace SearchEngine

/-! ### Sample data -/

/-- Sixty-four word posts, enough for a skip table of two entries. -/
def samplePosts : List WordPost :=
  (List.range 64).map (fun i => { startLocation := 5 * i + 3, flags := i % 8 })

/-- The in-memory posting list of `samplePosts`. -/
def samplePostingList : PostingList :=
  (PostingList.empty.AddWordPosts samplePosts).getD PostingList.empty

/-- The serialised posting list of `samplePosts`. -/
def sampleSerializedList : SerializedPostingList :=
  (SerializedPostingList.WriteWordPostingList samplePostingList).getD
    { bytes := 0, postingDataSize := 0, skipCount := 0, postCount := 0,
      skipTable := [], postingData := [] }

end SearchEngine

namespace SearchEngine

/-! ### Ranker: the bounded, sorted result buffer -/

/-- `struct RankingResult` (Ranker.hpp). The score is a `double`; only its order
is used below, so it is taken from any linearly ordered type (finite doubles
are one). -/
structure RankingResult (S : Type) where
  url : String
  title : String
  score : S
  deriving DecidableEq, Repr

namespace Ranker

variable {S : Type} [LinearOrder S]

/-- The `while` loop of `Ranker::InsertResult`, entered with index `i`:
`while (i > 0 && results[i - 1].score < newResult.score) { results[i] =
results[i - 1]; i--; }` followed by `results[i] = newResult`. An index outside
the vector is undefined. -/
def InsertResult.loop (newResult : RankingResult S) :
    Nat → List (RankingResult S) → Option (List (RankingResult S))
  | 0, results => if 0 < results.length then some (results.set 0 newResult) else none
  | i + 1, results =>
    match results[i]? with
    | none => none
    | some prev =>
      if prev.score < newResult.score then
        if i + 1 < results.length then InsertResult.loop newResult i (results.set (i + 1) prev)
        else none
      else if i + 1 < results.length then some (results.set (i + 1) newResult) else none

/-- `Ranker::InsertResult(results, newResult)` for a ranker whose bound is
`maxResults`. `results.back()` of an empty vector is undefined. -/
def InsertResult (maxResults : Nat) (results : List (RankingResult S))
    (newResult : RankingResult S) : Option (List (RankingResult S)) :=
  if results.length < maxResults then
    let results1 := results ++ [newResult]
    InsertResult.loop newResult (results1.length - 1) results1
  else
    match results.getLast? with
    | none => none
    | some back =>
      if newResult.score ≤ back.score then some results
      else
        let results1 := results.set (results.length - 1) newResult
        InsertResult.loop newResult (results1.length - 1) results1

/-- The list the specification describes: `r` inserted immediately after all
entries whose score is `>= r.score`. -/
def insertAfterGE (r : RankingResult S) (results : List (RankingResult S)) :
    List (RankingResult S) :=
  results.filter (fun x => decide (r.score ≤ x.score))
    ++ r :: results.filter (fun x => decide (x.score < r.score))

/-- A results vector sorted by non-increasing score. -/
def SortedDesc (results : List (RankingResult S)) : Prop :=
  results.Pairwise (fun a b => b.score ≤ a.score)

instance (results : List (RankingResult S)) : Decidable (SortedDesc results) := by
  unfold SortedDesc; infer_instance

end Ranker

/-- Three results with scores 9, 7, 7 in a full buffer of size three. -/
def sampleResults : List (RankingResult Nat) :=
  [{ url := "u1", title := "a", score := 9 }, { url := "u2", title := "b", score := 7 },
   { url := "u3", title := "c", score := 7 }]

end SearchEngine

namespace SearchEngine

/-! ### The ISR layer (Indexer.hpp, csolver/isr.cpp)

`class ISR` is an abstract base with virtual methods; it is embedded as a type
class over the state of an iterator, and every concrete iterator is an
instance. A child pointer `ISR*` of a composite iterator is a state of any type
that has an instance, so iterator trees of any shape are covered. The methods
mutate the iterator, so each returns the new state next to its result. `Post*`
results are given by value. The first argument of each method is the fuel
granted to every `while (true)` loop that runs inside it. -/

/-- The virtual methods of `class ISR` that the query core calls. -/
class ISR (σ : Type) where
  GetPostCount : σ → Nat
  GetCurrentDoc : Nat → σ → Option (Option Post × σ)
  Next : Nat → σ → Option (Option Post × σ)
  NextInternal : Nat → σ → Option (Option Post × σ)
  Seek : Nat → Nat → σ → Option (Option Post × σ)
  GetStartLocation : σ → Nat
  GetEndLocation : σ → Nat
  GetCurrentPost : σ → Option Post

/-- `class ISRDoc`: the cursor over the document-end list. -/
structure ISRDoc where
  plist : SerializedPostingList
  data : Nat
  currLocation : Nat
  current : Option DocumentPost
  deriving DecidableEq, Repr

namespace ISRDoc

/-- `ISRDoc::GetStartLocation`. -/
def GetStartLocation (d : ISRDoc) : Nat :=
  match d.current with
  | some c => c.startLocation
  | none => 0

/-- `ISRDoc::GetEndLocation`. -/
def GetEndLocation (d : ISRDoc) : Nat :=
  match d.current with
  | some c => c.endLocation
  | none => 0

/-- `ISRDoc::GetCurrentPost`. -/
def GetCurrentPost (d : ISRDoc) : Option Post := d.current.map Post.doc

/-- `ISRDoc::Next`: decode the next document post. -/
def Next (d : ISRDoc) : Option (Option Post × ISRDoc) :=
  match d.plist.GetCurrentDoc d.data d.currLocation with
  | none => none
  | some (dp, data, cur) =>
    some (dp.map Post.doc, { d with data := data, currLocation := cur, current := dp })

/-- `ISRDoc::Seek`: the current document when it already ends at or after the
target, else `SeekDocumentPost` from the cursor. -/
def Seek (d : ISRDoc) (target : Nat) : Option (Option Post × ISRDoc) :=
  if d.current.isSome ∧ d.GetEndLocation ≥ target then some (d.current.map Post.doc, d)
  else
    match d.plist.SeekDocumentPost target d.currLocation d.data with
    | none => none
    | some (dp, cur, data) =>
      some (dp.map Post.doc, { d with data := data, currLocation := cur, current := dp })

end ISRDoc

instance instISRDoc : ISR ISRDoc where
  GetPostCount d := d.plist.postCount
  GetCurrentDoc _ d := some (d.GetCurrentPost, d)
  Next _ d := d.Next
  NextInternal _ d := d.Next
  Seek _ target d := d.Seek target
  GetStartLocation d := d.GetStartLocation
  GetEndLocation d := d.GetEndLocation
  GetCurrentPost d := d.GetCurrentPost

/-- The bytes of a C string: a `std::string` read through `c_str()` ends at its
first zero byte. -/
def c_str (s : List Nat) : List Nat := s.takeWhile (fun b => b ≠ 0)

/-- `class ISRWord`: the cursor over one word posting list, with its own
document iterator. -/
structure ISRWord where
  plist : SerializedPostingList
  data : Nat
  currLocation : Nat
  current : Option WordPost
  isr_doc : ISRDoc
  key : List Nat
  syn_word : Bool
  deriving DecidableEq, Repr

namespace ISRWord

/-- `ISRWord::GetStartLocation`. -/
def GetStartLocation (w : ISRWord) : Nat :=
  match w.current with
  | some c => c.startLocation
  | none => 0

/-- `ISRWord::GetEndLocation`. -/
def GetEndLocation (w : ISRWord) : Nat :=
  match w.current with
  | some c => c.startLocation
  | none => 0

/-- `ISRWord::GetCurrentPost`. -/
def GetCurrentPost (w : ISRWord) : Option Post := w.current.map Post.word

/-- `ISRWord::GetCurrentDoc`: seek the document iterator to the current post. -/
def GetCurrentDoc (w : ISRWord) : Option (Option Post × ISRWord) :=
  match w.current with
  | some c =>
    match w.isr_doc.Seek c.startLocation with
    | none => none
    | some (p, d) => some (p, { w with isr_doc := d })
  | none => some (none, w)

/-- `ISRWord::NextInternal`: decode the next word post. -/
def NextInternal (w : ISRWord) : Option (Option Post × ISRWord) :=
  match w.plist.GetCurrentWord w.data w.currLocation with
  | none => none
  | some (wp, data, cur) =>
    some (wp.map Post.word, { w with data := data, currLocation := cur, current := wp })

/-- `ISRWord::Seek`: the current post when it already lies at or after the
target, else `SeekWordPost` from the cursor. -/
def Seek (w : ISRWord) (target : Nat) : Option (Option Post × ISRWord) :=
  if w.current.isSome ∧ w.GetStartLocation ≥ target then some (w.current.map Post.word, w)
  else
    match w.plist.SeekWordPost target w.currLocation w.data with
    | none => none
    | some (wp, cur, data) =>
      some (wp.map Post.word, { w with data := data, currLocation := cur, current := wp })

/-- `ISRWord::Next`: seek to one past the end of the document that holds the
current post (to 0 when there is no current post or no such document). The
target is a `uint32_t`. -/
def Next (w : ISRWord) : Option (Option Post × ISRWord) :=
  match w.current with
  | some c =>
    match w.isr_doc.Seek c.startLocation with
    | none => none
    | some (post, d) =>
      let target :=
        match post with
        | some p => (p.GetEndLocation + 1) % U32
        | none => 0
      Seek { w with isr_doc := d } target
  | none => Seek w 0

end ISRWord

instance instISRWord : ISR ISRWord where
  GetPostCount w := w.plist.postCount
  GetCurrentDoc _ w := w.GetCurrentDoc
  Next _ w := w.Next
  NextInternal _ w := w.NextInternal
  Seek _ target w := w.Seek target
  GetStartLocation w := w.GetStartLocation
  GetEndLocation w := w.GetEndLocation
  GetCurrentPost w := w.GetCurrentPost

/-- `class ISRAbstract`: the iterator of a term that is not in the index; every
method returns 0 or `nullptr`. -/
structure ISRAbstract where
  syn_word : Bool
  deriving DecidableEq, Repr

instance instISRAbstract : ISR ISRAbstract where
  GetPostCount _ := 0
  GetCurrentDoc _ a := some (none, a)
  Next _ a := some (none, a)
  NextInternal _ a := some (none, a)
  Seek _ _ a := some (none, a)
  GetStartLocation _ := 0
  GetEndLocation _ := 0
  GetCurrentPost _ := none

/-- What `IndexBlob::OpenISRWord` returns: an `ISRWord`, or an `ISRAbstract` for
an absent term. -/
inductive ISRWordPtr where
  | word (w : ISRWord)
  | abstr (a : ISRAbstract)
  deriving DecidableEq, Repr

instance instISRWordPtr : ISR ISRWordPtr where
  GetPostCount
    | .word w => ISR.GetPostCount w
    | .abstr a => ISR.GetPostCount a
  GetCurrentDoc fuel
    | .word w => (ISR.GetCurrentDoc fuel w).map (fun r => (r.1, .word r.2))
    | .abstr a => (ISR.GetCurrentDoc fuel a).map (fun r => (r.1, .abstr r.2))
  Next fuel
    | .word w => (ISR.Next fuel w).map (fun r => (r.1, .word r.2))
    | .abstr a => (ISR.Next fuel a).map (fun r => (r.1, .abstr r.2))
  NextInternal fuel
    | .word w => (ISR.NextInternal fuel w).map (fun r => (r.1, .word r.2))
    | .abstr a => (ISR.NextInternal fuel a).map (fun r => (r.1, .abstr r.2))
  Seek fuel target
    | .word w => (ISR.Seek fuel target w).map (fun r => (r.1, .word r.2))
    | .abstr a => (ISR.Seek fuel target a).map (fun r => (r.1, .abstr r.2))
  GetStartLocation
    | .word w => ISR.GetStartLocation w
    | .abstr a => ISR.GetStartLocation a
  GetEndLocation
    | .word w => ISR.GetEndLocation w
    | .abstr a => ISR.GetEndLocation a
  GetCurrentPost
    | .word w => ISR.GetCurrentPost w
    | .abstr a => ISR.GetCurrentPost a

/-- `class IndexBlob`: the term dictionary and the document-end list of a
segment. The hash blob is represented by the association list of its records;
`Find` is the lookup by key. -/
structure IndexBlob where
  dictionary : List (List Nat × SerializedPostingList)
  docEnd : SerializedPostingList
  deriving DecidableEq, Repr

namespace IndexBlob

/-- `IndexBlob::Find`. -/
def Find (blob : IndexBlob) (key : List Nat) : Option SerializedPostingList :=
  match blob.dictionary.find? (fun e => decide (e.1 = key)) with
  | some e => some e.2
  | none => none

/-- `IndexBlob::OpenISREndDoc`: a fresh document iterator. -/
def OpenISREndDoc (blob : IndexBlob) : ISRDoc :=
  { plist := blob.docEnd, data := 0, currLocation := 0, current := none }

/-- `IndexBlob::OpenISRWord`: a fresh word iterator with its own fresh document
iterator, or an `ISRAbstract` when the term is absent. -/
def OpenISRWord (blob : IndexBlob) (word : List Nat) : ISRWordPtr :=
  match blob.Find word with
  | some list =>
    .word { plist := list, data := 0, currLocation := 0, current := none,
            isr_doc := blob.OpenISREndDoc, key := word, syn_word := false }
  | none => .abstr { syn_word := false }

end IndexBlob

end SearchEngine

namespace SearchEngine

/-! ### Composite iterators (csolver/isr.cpp)

Each constructor asserts that its children are not null, so the children are
plain states and the `if (!isr1 || !isr2)` tests of the methods cannot fire. -/

/-- `class ISROr`. `current` is the member inherited from `ISR`; no method of
`ISROr` assigns it. -/
structure ISROr (α β : Type) where
  isr1 : α
  isr2 : β
  current : Option Post
  nearestTerm : Int
  nearestStartLocation : Nat
  nearestEndLocation : Nat
  deriving DecidableEq, Repr

namespace ISROr

variable {α β : Type} [ISR α] [ISR β]

/-- `ISROr::ISROr`. -/
def new (isr1 : α) (isr2 : β) : ISROr α β :=
  { isr1 := isr1, isr2 := isr2, current := none, nearestTerm := -1,
    nearestStartLocation := 0, nearestEndLocation := 0 }

/-- `ISROr::FindNearest`: the child holding the smaller start, the left one on a
tie. -/
def FindNearest (o : ISROr α β) : Option Post × ISROr α β :=
  match ISR.GetCurrentPost o.isr1, ISR.GetCurrentPost o.isr2 with
  | none, none => (none, { o with nearestTerm := -1 })
  | some post1, none =>
    (some post1, { o with nearestTerm := 0, nearestStartLocation := post1.GetStartLocation,
                          nearestEndLocation := post1.GetEndLocation })
  | some post1, some post2 =>
    if post1.GetStartLocation ≤ post2.GetStartLocation then
      (some post1, { o with nearestTerm := 0, nearestStartLocation := post1.GetStartLocation,
                            nearestEndLocation := post1.GetEndLocation })
    else
      (some post2, { o with nearestTerm := 1, nearestStartLocation := post2.GetStartLocation,
                            nearestEndLocation := post2.GetEndLocation })
  | none, some post2 =>
    (some post2, { o with nearestTerm := 1, nearestStartLocation := post2.GetStartLocation,
                          nearestEndLocation := post2.GetEndLocation })

/-- `ISROr::GetCurrentPost`. -/
def GetCurrentPost (o : ISROr α β) : Option Post :=
  if o.nearestTerm = -1 then none
  else if o.nearestTerm = 0 then ISR.GetCurrentPost o.isr1 else ISR.GetCurrentPost o.isr2

/-- `ISROr::GetCurrentDoc`. -/
def GetCurrentDoc (fuel : Nat) (o : ISROr α β) : Option (Option Post × ISROr α β) :=
  if o.nearestTerm = -1 then some (none, o)
  else if o.nearestTerm = 0 then
    (ISR.GetCurrentDoc fuel o.isr1).map (fun r => (r.1, { o with isr1 := r.2 }))
  else (ISR.GetCurrentDoc fuel o.isr2).map (fun r => (r.1, { o with isr2 := r.2 }))

/-- `ISROr::NextInternal`. -/
def NextInternal (fuel : Nat) (o : ISROr α β) : Option (Option Post × ISROr α β) :=
  if o.nearestTerm = -1 then
    match ISR.NextInternal fuel o.isr1 with
    | none => none
    | some (_, a) =>
      match ISR.NextInternal fuel o.isr2 with
      | none => none
      | some (_, b) => some (FindNearest { o with isr1 := a, isr2 := b })
  else if o.nearestTerm = 0 then
    match ISR.NextInternal fuel o.isr1 with
    | none => none
    | some (_, a) => some (FindNearest { o with isr1 := a })
  else if o.nearestTerm = 1 then
    match ISR.NextInternal fuel o.isr2 with
    | none => none
    | some (_, b) => some (FindNearest { o with isr2 := b })
  else some (FindNearest o)

/-- `ISROr::Seek`: the guard reads the inherited `current`; otherwise both
children seek and the nearer is chosen. -/
def Seek (fuel : Nat) (target : Nat) (o : ISROr α β) : Option (Option Post × ISROr α β) :=
  if o.current.isSome ∧ o.nearestStartLocation ≥ target then some (o.current, o)
  else
    match ISR.Seek fuel target o.isr1 with
    | none => none
    | some (_, a) =>
      match ISR.Seek fuel target o.isr2 with
      | none => none
      | some (_, b) => some (FindNearest { o with isr1 := a, isr2 := b })

/-- `ISROr::Next`: the first call advances both children; later calls seek both
children past the end of the nearer child's document. `doc` is uninitialised
when `nearestTerm` is neither 0 nor 1. -/
def Next (fuel : Nat) (o : ISROr α β) : Option (Option Post × ISROr α β) :=
  if o.nearestTerm = -1 then
    match ISR.Next fuel o.isr1 with
    | none => none
    | some (_, a) =>
      match ISR.Next fuel o.isr2 with
      | none => none
      | some (_, b) => some (FindNearest { o with isr1 := a, isr2 := b })
  else
    match (if o.nearestTerm = 0 then
             (ISR.GetCurrentDoc fuel o.isr1).map (fun r => (r.1, { o with isr1 := r.2 }))
           else if o.nearestTerm = 1 then
             (ISR.GetCurrentDoc fuel o.isr2).map (fun r => (r.1, { o with isr2 := r.2 }))
           else none) with
    | none => none
    | some (none, o1) => some (none, o1)
    | some (some doc, o1) => Seek fuel ((doc.GetEndLocation + 1) % U32) o1

end ISROr

instance instISROr {α β : Type} [ISR α] [ISR β] : ISR (ISROr α β) where
  GetPostCount o := (ISR.GetPostCount o.isr1 + ISR.GetPostCount o.isr2) % U32
  GetCurrentDoc := ISROr.GetCurrentDoc
  Next := ISROr.Next
  NextInternal := ISROr.NextInternal
  Seek := ISROr.Seek
  GetStartLocation o := o.nearestStartLocation
  GetEndLocation o := o.nearestEndLocation
  GetCurrentPost := ISROr.GetCurrentPost

/-- Calling a method `n` times in a row, as the `for` loops of `ISRSynOr` do. -/
def repeatCall {σ : Type} (step : σ → Option (Option Post × σ)) : Nat → σ → Option σ
  | 0, s => some s
  | n + 1, s =>
    match step s with
    | none => none
    | some (_, s1) => repeatCall step n s1

/-- `class ISRSynOr`: an `ISROr` with the two step counts of a synonym node. -/
structure ISRSynOr (α β : Type) where
  isr1 : α
  isr2 : β
  current : Option Post
  nearestTerm : Int
  nearestStartLocation : Nat
  nearestEndLocation : Nat
  advanceRight : Int
  advanceLeft : Int
  deriving DecidableEq, Repr

namespace ISRSynOr

variable {α β : Type} [ISR α] [ISR β]

/-- `ISRSynOr::ISRSynOr`. -/
def new (isr1 : α) (isr2 : β) (advanceRightSteps advanceLeftSteps : Int) : ISRSynOr α β :=
  { isr1 := isr1, isr2 := isr2, current := none, nearestTerm := -1,
    nearestStartLocation := 0, nearestEndLocation := 0,
    advanceRight := advanceRightSteps, advanceLeft := advanceLeftSteps }

/-- `ISRSynOr::FindNearest`. -/
def FindNearest (o : ISRSynOr α β) : Option Post × ISRSynOr α β :=
  match ISR.GetCurrentPost o.isr1, ISR.GetCurrentPost o.isr2 with
  | none, none => (none, { o with nearestTerm := -1 })
  | some post1, none =>
    (some post1, { o with nearestTerm := 0, nearestStartLocation := post1.GetStartLocation,
                          nearestEndLocation := post1.GetEndLocation })
  | some post1, some post2 =>
    if post1.GetStartLocation ≤ post2.GetStartLocation then
      (some post1, { o with nearestTerm := 0, nearestStartLocation := post1.GetStartLocation,
                            nearestEndLocation := post1.GetEndLocation })
    else
      (some post2, { o with nearestTerm := 1, nearestStartLocation := post2.GetStartLocation,
                            nearestEndLocation := post2.GetEndLocation })
  | none, some post2 =>
    (some post2, { o with nearestTerm := 1, nearestStartLocation := post2.GetStartLocation,
                          nearestEndLocation := post2.GetEndLocation })

/-- `ISRSynOr::GetCurrentPost`. -/
def GetCurrentPost (o : ISRSynOr α β) : Option Post :=
  if o.nearestTerm = -1 then none
  else if o.nearestTerm = 0 then ISR.GetCurrentPost o.isr1 else ISR.GetCurrentPost o.isr2

/-- `ISRSynOr::GetCurrentDoc`. -/
def GetCurrentDoc (fuel : Nat) (o : ISRSynOr α β) : Option (Option Post × ISRSynOr α β) :=
  if o.nearestTerm = -1 then some (none, o)
  else if o.nearestTerm = 0 then
    (ISR.GetCurrentDoc fuel o.isr1).map (fun r => (r.1, { o with isr1 := r.2 }))
  else (ISR.GetCurrentDoc fuel o.isr2).map (fun r => (r.1, { o with isr2 := r.2 }))

/-- `ISRSynOr::NextInternal`: the nearer child steps `advanceLeft` (left) or
`advanceRight` (right) times. -/
def NextInternal (fuel : Nat) (o : ISRSynOr α β) : Option (Option Post × ISRSynOr α β) :=
  if o.nearestTerm = -1 then
    match ISR.NextInternal fuel o.isr1 with
    | none => none
    | some (_, a) =>
      match ISR.NextInternal fuel o.isr2 with
      | none => none
      | some (_, b) => some (FindNearest { o with isr1 := a, isr2 := b })
  else if o.nearestTerm = 0 then
    match repeatCall (ISR.NextInternal fuel) o.advanceLeft.toNat o.isr1 with
    | none => none
    | some a => some (FindNearest { o with isr1 := a })
  else
    match repeatCall (ISR.NextInternal fuel) o.advanceRight.toNat o.isr2 with
    | none => none
    | some b => some (FindNearest { o with isr2 := b })

/-- `ISRSynOr::Seek`. -/
def Seek (fuel : Nat) (target : Nat) (o : ISRSynOr α β) : Option (Option Post × ISRSynOr α β) :=
  if o.current.isSome ∧ o.nearestStartLocation ≥ target then some (o.current, o)
  else
    match ISR.Seek fuel target o.isr1 with
    | none => none
    | some (_, a) =>
      match ISR.Seek fuel target o.isr2 with
      | none => none
      | some (_, b) => some (FindNearest { o with isr1 := a, isr2 := b })

/-- `ISRSynOr::Next`: after the seek past the current document, the child that
is not the nearer one is advanced `advance - 1` more times. -/
def Next (fuel : Nat) (o : ISRSynOr α β) : Option (Option Post × ISRSynOr α β) :=
  if o.nearestTerm = -1 then
    match ISR.Next fuel o.isr1 with
    | none => none
    | some (_, a) =>
      match ISR.Next fuel o.isr2 with
      | none => none
      | some (_, b) => some (FindNearest { o with isr1 := a, isr2 := b })
  else
    match GetCurrentDoc fuel o with
    | none => none
    | some (none, o1) => some (none, o1)
    | some (some doc, o1) =>
      match Seek fuel ((doc.GetEndLocation + 1) % U32) o1 with
      | none => none
      | some (_, o2) =>
        if o2.nearestTerm = 0 then
          match repeatCall (ISR.Next fuel) (o2.advanceRight - 1).toNat o2.isr2 with
          | none => none
          | some b => some (FindNearest { o2 with isr2 := b })
        else
          match repeatCall (ISR.Next fuel) (o2.advanceLeft - 1).toNat o2.isr1 with
          | none => none
          | some a => some (FindNearest { o2 with isr1 := a })

end ISRSynOr

instance instISRSynOr {α β : Type} [ISR α] [ISR β] : ISR (ISRSynOr α β) where
  GetPostCount o := (ISR.GetPostCount o.isr1 + ISR.GetPostCount o.isr2) % U32
  GetCurrentDoc := ISRSynOr.GetCurrentDoc
  Next := ISRSynOr.Next
  NextInternal := ISRSynOr.NextInternal
  Seek := ISRSynOr.Seek
  GetStartLocation o := o.nearestStartLocation
  GetEndLocation o := o.nearestEndLocation
  GetCurrentPost := ISRSynOr.GetCurrentPost

/-- `class ISRAnd`; `current` is the member it declares itself. -/
structure ISRAnd (α β : Type) where
  isr1 : α
  isr2 : β
  current : Option Post
  nearestTerm : Int
  deriving DecidableEq, Repr

namespace ISRAnd

variable {α β : Type} [ISR α] [ISR β]

/-- `ISRAnd::ISRAnd`. -/
def new (isr1 : α) (isr2 : β) : ISRAnd α β :=
  { isr1 := isr1, isr2 := isr2, current := none, nearestTerm := -1 }

/-- `ISRAnd::GetStartLocation`. -/
def GetStartLocation (a : ISRAnd α β) : Nat :=
  match a.current with
  | some c => c.GetStartLocation
  | none => 0

/-- `ISRAnd::GetEndLocation`. -/
def GetEndLocation (a : ISRAnd α β) : Nat :=
  match a.current with
  | some c => c.GetEndLocation
  | none => 0

/-- `ISRAnd::AdvanceToMatch`; the second argument bounds the rounds of its
`while (true)`. In each round the child holding the smaller start is compared
with the document of the other child and, if it lies outside, sought to the
start of that document. -/
def AdvanceToMatch (f : Nat) : Nat → ISRAnd α β → Option (Option Post × ISRAnd α β)
  | 0, _ => none
  | fuel + 1, a =>
    match ISR.GetCurrentPost a.isr1, ISR.GetCurrentPost a.isr2 with
    | some l, some r =>
      let lStart := l.GetStartLocation
      let rStart := r.GetStartLocation
      if lStart ≤ rStart then
        match ISR.GetCurrentDoc f a.isr2 with
        | none => none
        | some (none, c2) => some (none, { a with isr2 := c2 })
        | some (some docEnd, c2) =>
          if lStart ≥ docEnd.GetStartLocation ∧ rStart ≤ docEnd.GetEndLocation
              ∧ lStart ≤ docEnd.GetEndLocation then
            some (some l, { a with isr2 := c2, nearestTerm := 0, current := some l })
          else
            match ISR.Seek f docEnd.GetStartLocation a.isr1 with
            | none => none
            | some (_, c1) => AdvanceToMatch f fuel { a with isr1 := c1, isr2 := c2 }
      else
        match ISR.GetCurrentDoc f a.isr1 with
        | none => none
        | some (none, c1) => some (none, { a with isr1 := c1 })
        | some (some docEnd, c1) =>
          if rStart ≥ docEnd.GetStartLocation ∧ rStart ≤ docEnd.GetEndLocation
              ∧ lStart ≤ docEnd.GetEndLocation then
            some (some r, { a with isr1 := c1, nearestTerm := 1, current := some r })
          else
            match ISR.Seek f docEnd.GetStartLocation a.isr2 with
            | none => none
            | some (_, c2) => AdvanceToMatch f fuel { a with isr1 := c1, isr2 := c2 }
    | _, _ => some (none, { a with nearestTerm := -1, current := none })

/-- `ISRAnd::Next`: both children move to their next document, then the match
loop runs. -/
def Next (fuel : Nat) (a : ISRAnd α β) : Option (Option Post × ISRAnd α β) :=
  match ISR.Next fuel a.isr1 with
  | none => none
  | some (_, c1) =>
    match ISR.Next fuel a.isr2 with
    | none => none
    | some (_, c2) => AdvanceToMatch fuel fuel { a with isr1 := c1, isr2 := c2 }

/-- `ISRAnd::NextInternal`. -/
def NextInternal (fuel : Nat) (a : ISRAnd α β) : Option (Option Post × ISRAnd α β) :=
  if a.current.isNone then
    match ISR.NextInternal fuel a.isr1 with
    | none => none
    | some (_, c1) =>
      match ISR.NextInternal fuel a.isr2 with
      | none => none
      | some (_, c2) => AdvanceToMatch fuel fuel { a with isr1 := c1, isr2 := c2 }
  else if a.nearestTerm = 0 then
    match ISR.NextInternal fuel a.isr1 with
    | none => none
    | some (_, c1) => AdvanceToMatch fuel fuel { a with isr1 := c1 }
  else
    match ISR.NextInternal fuel a.isr2 with
    | none => none
    | some (_, c2) => AdvanceToMatch fuel fuel { a with isr2 := c2 }

/-- `ISRAnd::Seek`. -/
def Seek (fuel : Nat) (target : Nat) (a : ISRAnd α β) : Option (Option Post × ISRAnd α β) :=
  if a.current.isSome ∧ a.GetStartLocation ≥ target then some (a.current, a)
  else
    match ISR.Seek fuel target a.isr1 with
    | none => none
    | some (_, c1) =>
      match ISR.Seek fuel target a.isr2 with
      | none => none
      | some (_, c2) => AdvanceToMatch fuel fuel { a with isr1 := c1, isr2 := c2 }

/-- `ISRAnd::GetCurrentDoc`. -/
def GetCurrentDoc (fuel : Nat) (a : ISRAnd α β) : Option (Option Post × ISRAnd α β) :=
  if a.current.isSome then
    (ISR.GetCurrentDoc fuel a.isr1).map (fun r => (r.1, { a with isr1 := r.2 }))
  else some (none, a)

end ISRAnd

instance instISRAnd {α β : Type} [ISR α] [ISR β] : ISR (ISRAnd α β) where
  GetPostCount a := ISR.GetPostCount a.isr1
  GetCurrentDoc := ISRAnd.GetCurrentDoc
  Next := ISRAnd.Next
  NextInternal := ISRAnd.NextInternal
  Seek := ISRAnd.Seek
  GetStartLocation := ISRAnd.GetStartLocation
  GetEndLocation := ISRAnd.GetEndLocation
  GetCurrentPost a := a.current

/-- `class ISRContainer` (the NOT operator): `isr1` is the included child,
`isr2` the excluded one. -/
structure ISRContainer (α β : Type) where
  isr1 : α
  isr2 : β
  current : Option Post
  deriving DecidableEq, Repr

namespace ISRContainer

variable {α β : Type} [ISR α] [ISR β]

/-- `ISRContainer::ISRContainer`. -/
def new (included : α) (excluded : β) : ISRContainer α β :=
  { isr1 := included, isr2 := excluded, current := none }

/-- `ISRContainer::GetStartLocation`. -/
def GetStartLocation (c : ISRContainer α β) : Nat :=
  match c.current with
  | some p => p.GetStartLocation
  | none => 0

/-- `ISRContainer::GetEndLocation`. -/
def GetEndLocation (c : ISRContainer α β) : Nat :=
  match c.current with
  | some p => p.GetEndLocation
  | none => 0

/-- `ISRContainer::AdvanceToMatch`; the second argument bounds the rounds of its
`while (true)`. The excluded child is sought to the start of the included
post's document; the included child moves on while the excluded post lies in
`[start, end)` of that document. -/
def AdvanceToMatch (f : Nat) : Nat → ISRContainer α β → Option (Option Post × ISRContainer α β)
  | 0, _ => none
  | fuel + 1, c =>
    match ISR.GetCurrentPost c.isr1 with
    | none => some (none, { c with current := none })
    | some includedPost =>
      match ISR.GetCurrentDoc f c.isr1 with
      | none => none
      | some (none, c1) => some (none, { c with isr1 := c1 })
      | some (some docEnd, c1) =>
        match ISR.Seek f docEnd.GetStartLocation c.isr2 with
        | none => none
        | some (_, c2) =>
          let skip : Bool :=
            match ISR.GetCurrentPost c2 with
            | some excludedPost =>
              decide (excludedPost.GetStartLocation ≥ docEnd.GetStartLocation
                ∧ excludedPost.GetStartLocation < docEnd.GetEndLocation)
            | none => false
          if skip then
            match ISR.Next f c1 with
            | none => none
            | some (_, c1n) => AdvanceToMatch f fuel { c with isr1 := c1n, isr2 := c2 }
          else some (some includedPost, { isr1 := c1, isr2 := c2, current := some includedPost })

/-- `ISRContainer::Next`. -/
def Next (fuel : Nat) (c : ISRContainer α β) : Option (Option Post × ISRContainer α β) :=
  if c.current.isNone then
    match ISR.Next fuel c.isr1 with
    | none => none
    | some (_, c1) =>
      match ISR.Next fuel c.isr2 with
      | none => none
      | some (_, c2) => AdvanceToMatch fuel fuel { c with isr1 := c1, isr2 := c2 }
  else
    match ISR.Next fuel c.isr1 with
    | none => none
    | some (_, c1) => AdvanceToMatch fuel fuel { c with isr1 := c1 }

/-- `ISRContainer::NextInternal`. -/
def NextInternal (fuel : Nat) (c : ISRContainer α β) :
    Option (Option Post × ISRContainer α β) :=
  if c.current.isNone then
    match ISR.NextInternal fuel c.isr1 with
    | none => none
    | some (_, c1) =>
      match ISR.NextInternal fuel c.isr2 with
      | none => none
      | some (_, c2) => AdvanceToMatch fuel fuel { c with isr1 := c1, isr2 := c2 }
  else
    match ISR.NextInternal fuel c.isr1 with
    | none => none
    | some (_, c1) => AdvanceToMatch fuel fuel { c with isr1 := c1 }

/-- `ISRContainer::Seek`. -/
def Seek (fuel : Nat) (target : Nat) (c : ISRContainer α β) :
    Option (Option Post × ISRContainer α β) :=
  if c.current.isSome ∧ c.GetStartLocation ≥ target then some (c.current, c)
  else
    match ISR.Seek fuel target c.isr1 with
    | none => none
    | some (_, c1) => AdvanceToMatch fuel fuel { c with isr1 := c1 }

end ISRContainer

instance instISRContainer {α β : Type} [ISR α] [ISR β] : ISR (ISRContainer α β) where
  GetPostCount c := ISR.GetPostCount c.isr1
  GetCurrentDoc fuel c := (ISR.GetCurrentDoc fuel c.isr1).map (fun r => (r.1, { c with isr1 := r.2 }))
  Next := ISRContainer.Next
  NextInternal := ISRContainer.NextInternal
  Seek := ISRContainer.Seek
  GetStartLocation := ISRContainer.GetStartLocation
  GetEndLocation := ISRContainer.GetEndLocation
  GetCurrentPost c := c.current

/-- `class ISRPhrase`: the word iterators of the terms, in order. -/
structure ISRPhrase (σ : Type) where
  terms : List σ
  current : Option Post
  deriving DecidableEq, Repr

namespace ISRPhrase

variable {σ : Type} [ISR σ]

/-- `ISRPhrase::ISRPhrase`. -/
def new (terms : List σ) : ISRPhrase σ := { terms := terms, current := none }

/-- `ISRPhrase::GetStartLocation`. -/
def GetStartLocation (p : ISRPhrase σ) : Nat :=
  match p.current with
  | some c => c.GetStartLocation
  | none => 0

/-- `ISRPhrase::GetEndLocation`. -/
def GetEndLocation (p : ISRPhrase σ) : Nat :=
  match p.current with
  | some c => c.GetEndLocation
  | none => 0

/-- The `for` loop of `ISRPhrase::AdvanceToMatch` over `terms[i], terms[i+1], …`:
each term is sought to `base + i` (a `Location`) and must stand exactly there;
the loop breaks at the first term that does not. Returns whether all aligned,
and the terms as the loop left them. -/
def alignTerms (f : Nat) (base : Nat) : Nat → List σ → Option (Bool × List σ)
  | _, [] => some (true, [])
  | i, t :: ts =>
    let expected := (base + i) % U32
    match ISR.Seek f expected t with
    | none => none
    | some (_, t1) =>
      let aligned : Bool :=
        match ISR.GetCurrentPost t1 with
        | some post => decide (post.GetStartLocation = expected)
        | none => false
      if aligned then
        match alignTerms f base (i + 1) ts with
        | none => none
        | some (m, ts1) => some (m, t1 :: ts1)
      else some (false, t1 :: ts)

/-- `ISRPhrase::AdvanceToMatch`; the second argument bounds the rounds of its
`while (true)`. `terms[0]` of an empty vector is undefined. -/
def AdvanceToMatch (f : Nat) : Nat → ISRPhrase σ → Option (Option Post × ISRPhrase σ)
  | 0, _ => none
  | fuel + 1, p =>
    match p.terms with
    | [] => none
    | t0 :: ts =>
      match ISR.GetCurrentPost t0 with
      | none => some (none, { p with current := none })
      | some first =>
        let base := first.GetStartLocation
        match alignTerms f base 1 ts with
        | none => none
        | some (true, ts1) =>
          some (ISR.GetCurrentPost t0, { terms := t0 :: ts1, current := ISR.GetCurrentPost t0 })
        | some (false, ts1) =>
          match ISR.Seek f ((base + 1) % U32) t0 with
          | none => none
          | some (_, t01) => AdvanceToMatch f fuel { p with terms := t01 :: ts1 }

/-- Calling one method on every term, in order (`for (auto& term : terms)`). -/
def forEachTerm (step : σ → Option (Option Post × σ)) : List σ → Option (List σ)
  | [] => some []
  | t :: ts =>
    match step t with
    | none => none
    | some (_, t1) =>
      match forEachTerm step ts with
      | none => none
      | some ts1 => some (t1 :: ts1)

/-- `ISRPhrase::Seek`. -/
def Seek (fuel : Nat) (target : Nat) (p : ISRPhrase σ) : Option (Option Post × ISRPhrase σ) :=
  if p.current.isSome ∧ p.GetStartLocation ≥ target then some (p.current, p)
  else
    match p.terms with
    | [] => some (none, { p with current := none })
    | t0 :: ts =>
      match ISR.Seek fuel target t0 with
      | none => none
      | some (_, t01) => AdvanceToMatch fuel fuel { p with terms := t01 :: ts }

/-- `ISRPhrase::NextInternal`. -/
def NextInternal (fuel : Nat) (p : ISRPhrase σ) : Option (Option Post × ISRPhrase σ) :=
  if p.terms.isEmpty then some (none, p)
  else
    match p.current with
    | none =>
      match forEachTerm (ISR.NextInternal fuel) p.terms with
      | none => none
      | some ts => AdvanceToMatch fuel fuel { p with terms := ts }
    | some c => Seek fuel ((c.GetStartLocation + 1) % U32) p

/-- `ISRPhrase::GetCurrentDoc`. -/
def GetCurrentDoc (fuel : Nat) (p : ISRPhrase σ) : Option (Option Post × ISRPhrase σ) :=
  match p.terms with
  | [] => some (none, p)
  | t0 :: ts =>
    if p.current.isSome then
      (ISR.GetCurrentDoc fuel t0).map (fun r => (r.1, { p with terms := r.2 :: ts }))
    else some (none, p)

/-- `ISRPhrase::Next`. -/
def Next (fuel : Nat) (p : ISRPhrase σ) : Option (Option Post × ISRPhrase σ) :=
  match p.terms with
  | [] => some (none, p)
  | t0 :: ts =>
    match p.current with
    | none =>
      match forEachTerm (ISR.Next fuel) p.terms with
      | none => none
      | some ts1 => AdvanceToMatch fuel fuel { p with terms := ts1 }
    | some _ =>
      match ISR.GetCurrentDoc fuel t0 with
      | none => none
      | some (none, t01) => some (none, { p with terms := t01 :: ts })
      | some (some doc, t01) =>
        Seek fuel ((doc.GetEndLocation + 1) % U32) { p with terms := t01 :: ts }

end ISRPhrase

instance instISRPhrase {σ : Type} [ISR σ] : ISR (ISRPhrase σ) where
  GetPostCount p :=
    match p.terms with
    | [] => 0
    | t :: _ => ISR.GetPostCount t
  GetCurrentDoc := ISRPhrase.GetCurrentDoc
  Next := ISRPhrase.Next
  NextInternal := ISRPhrase.NextInternal
  Seek := ISRPhrase.Seek
  GetStartLocation := ISRPhrase.GetStartLocation
  GetEndLocation := ISRPhrase.GetEndLocation
  GetCurrentPost p := p.current

/-- The posts returned by successive `Next` calls up to the first `nullptr`, at
most `n` of them, with the state after the last call. The result is `none`
when a call is undefined or when more than `n` posts come before the first
`nullptr`. -/
def nextUntilNone {σ : Type} [ISR σ] (fuel : Nat) : Nat → σ → Option (List Post × σ)
  | 0, s =>
    match ISR.Next fuel s with
    | some (none, s1) => some ([], s1)
    | _ => none
  | n + 1, s =>
    match ISR.Next fuel s with
    | none => none
    | some (none, s1) => some ([], s1)
    | some (some p, s1) =>
      match nextUntilNone fuel n s1 with
      | none => none
      | some (ps, s2) => some (p :: ps, s2)

/-- The calls a client makes on an iterator. -/
inductive Call where
  | next
  | nextInternal
  | seek (target : Nat)
  deriving DecidableEq, Repr

/-- One call through the `ISR` interface. -/
def Call.run {σ : Type} [ISR σ] (fuel : Nat) : Call → σ → Option (Option Post × σ)
  | .next, s => ISR.Next fuel s
  | .nextInternal, s => ISR.NextInternal fuel s
  | .seek target, s => ISR.Seek fuel target s

/-- The results of a sequence of calls made one after the other (`nullptr`
included), with the state after the last call. -/
def runCalls {σ : Type} [ISR σ] (fuel : Nat) : List Call → σ → Option (List (Option Post) × σ)
  | [], s => some ([], s)
  | c :: cs, s =>
    match c.run fuel s with
    | none => none
    | some (p, s1) =>
      match runCalls fuel cs s1 with
      | none => none
      | some (ps, s2) => some (p :: ps, s2)

/-- The start Locations of the posts in a list of results never decrease. -/
def StartsNonDecreasing (results : List (Option Post)) : Prop :=
  ((results.filterMap id).map Post.GetStartLocation).Pairwise (· ≤ ·)

instance (results : List (Option Post)) : Decidable (StartsNonDecreasing results) := by
  unfold StartsNonDecreasing; infer_instance

end SearchEngine

namespace SearchEngine

/-! ### The query deserialiser (csolver/ast.cpp)

The socket is the list of bytes still to be received. `recv` of one byte at the
end of the stream returns 0 and leaves its buffer untouched; socket errors are
not modelled. -/

/-- The outcome of a deserialiser routine. -/
inductive Outcome (α : Type) where
  /-- normal return -/
  | ok (a : α)
  /-- a `std::runtime_error` was thrown -/
  | throws
  /-- the routine read a variable that nothing had initialised -/
  | ub
  /-- the fuel ran out before the routine returned -/
  | outOfFuel
  deriving DecidableEq, Repr

/-- `Expr*` of `class Expr_AST`: a possibly null pointer to an expression node.
`Expr_Binary` holds `left` and `right`; `Expr_OR_SYN` adds its two `int` step
counts. -/
inductive Expr where
  | null
  | AND (left right : Expr)
  | OR (left right : Expr)
  | OR_SYN (left right : Expr) (advance_right advance_left : Int)
  | NOT (left right : Expr)
  | Leaf_Word (term : List Nat)
  | Leaf_Phrase (terms : List (List Nat))
  deriving DecidableEq, Repr

namespace Expr_AST

/-- `Query::Protocol::AND`, `'&'`. -/
def AND : Nat := 38
/-- `Query::Protocol::OR`, `'|'`. -/
def OR : Nat := 124
/-- `Query::Protocol::OR_SYN`, `'/'`. -/
def OR_SYN : Nat := 47
/-- `Query::Protocol::NOT`, `'-'`. -/
def NOT : Nat := 45
/-- `Query::Protocol::WORD_START`, `'{'`. -/
def WORD_START : Nat := 123
/-- `Query::Protocol::PHRASE_START`, `'<'`. -/
def PHRASE_START : Nat := 60
/-- `Query::Protocol::PHRASE_END`, `'>'`. -/
def PHRASE_END : Nat := 62
/-- `Query::Protocol::ESCAPE`, a backslash. -/
def ESCAPE : Nat := 92
/-- `Query::Protocol::STEP_DELIM`, `';'`. -/
def STEP_DELIM : Nat := 59
/-- `Query::Protocol::QUERY_END`, `'#'`. -/
def QUERY_END : Nat := 35

/-- `recv(sock, buf, 1, MSG_WAITALL)`: the byte received into `*buf` (its old
content at the end of the stream) and the rest of the stream. -/
def recv1 (sock : List Nat) (old : Nat) : Nat × List Nat :=
  match sock with
  | [] => (old, [])
  | b :: rest => (b, rest)

/-- `recv(sock, buf, 1, MSG_PEEK)`: the next byte without consuming it. -/
def peek1 (sock : List Nat) (old : Nat) : Nat :=
  match sock with
  | [] => old
  | b :: _ => b

/-- The `while (!exit)` loop of `read_to_cond<Aggregate, Ret>`; `w0`, `w1` are
`window[0]`, `window[1]` and `push` is `Aggregate::push_back`. -/
def read_to_cond.loop {A : Type} (push : A → Nat → A) :
    Nat → List Nat → Nat → Nat → A → Outcome (A × List Nat)
  | 0, _, _, _, _ => .outOfFuel
  | fuel + 1, sock, w0, w1, aggr =>
    let w1 := peek1 sock w1
    if w0 = ESCAPE then
      let r1 := recv1 sock w1
      let aggr := push aggr r1.1
      let r0 := recv1 r1.2 w0
      read_to_cond.loop push fuel r0.2 r0.1 r1.1 aggr
    else if w0 = PHRASE_END then .ok (aggr, sock)
    else
      let r1 := recv1 sock w1
      read_to_cond.loop push fuel r1.2 r1.1 r1.1 (push aggr w0)

/-- `Expr_AST::read_to_cond`: `window` starts as `{0, 0}` and its first byte is
received before the loop. -/
def read_to_cond {A : Type} (push : A → Nat → A) (init : A) (fuel : Nat) (sock : List Nat) :
    Outcome (A × List Nat) :=
  let r0 := recv1 sock 0
  read_to_cond.loop push fuel r0.2 r0.1 0 init

/-- `Expr_AST::read_to_word_end`: the aggregate is one string. -/
def read_to_word_end (fuel : Nat) (sock : List Nat) : Outcome (List Nat × List Nat) :=
  read_to_cond (fun (term : List Nat) ch => term ++ [ch]) [] fuel sock

/-- `Aggregate_Phrase::push_back`: a space starts a new term unless the last
term is still empty. The vector always holds at least one term. -/
def phrasePush (terms : List (List Nat)) (ch : Nat) : List (List Nat) :=
  if ch = 32 then
    if terms.getLast?.getD [] ≠ [] then terms ++ [[]] else terms
  else terms.dropLast ++ [terms.getLast?.getD [] ++ [ch]]

/-- `Expr_AST::read_to_phrase_end`: the aggregate starts as one empty term. -/
def read_to_phrase_end (fuel : Nat) (sock : List Nat) : Outcome (List (List Nat) × List Nat) :=
  read_to_cond phrasePush [[]] fuel sock

/-- The conversion of a `uint32_t` to `int`. -/
def toInt32 (v : Nat) : Int :=
  if v % U32 < 2147483648 then (v % U32 : Nat) else ((v % U32 : Nat) : Int) - 4294967296

/-- `Expr_AST::read_step`: four bytes of a big-endian `uint32_t`, then the
delimiter `';'`. A short read leaves `step` or `delim` uninitialised. -/
def read_step (sock : List Nat) : Outcome (Nat × List Nat) :=
  match sock with
  | b0 :: b1 :: b2 :: b3 :: delim :: rest =>
    if delim ≠ STEP_DELIM then .throws
    else .ok (((b0 * 256 + b1) * 256 + b2) * 256 + b3, rest)
  | _ => .ub

/-- `Expr_NOT::Expr_NOT(Expr* expr, Expr*)`: the base is built from
`{ expr, nullptr }`; the second argument is not used. -/
def Expr_NOT (expr _discard : Expr) : Expr := .NOT expr .null

/-- `Expr_AST::build`: one operator byte, then the operands; `'>'` in operator
position yields the null pointer. At the end of the stream `char_op` is never
written. -/
def build : Nat → List Nat → Outcome (Expr × List Nat)
  | 0, _ => .outOfFuel
  | fuel + 1, sock =>
    match sock with
    | [] => .ub
    | char_op :: sock =>
      if char_op = AND then
        match build fuel sock with
        | .ok (left, sock) =>
          match build fuel sock with
          | .ok (right, sock) => .ok (.AND left right, sock)
          | .throws => .throws
          | .ub => .ub
          | .outOfFuel => .outOfFuel
        | .throws => .throws
        | .ub => .ub
        | .outOfFuel => .outOfFuel
      else if char_op = OR then
        match build fuel sock with
        | .ok (left, sock) =>
          match build fuel sock with
          | .ok (right, sock) => .ok (.OR left right, sock)
          | .throws => .throws
          | .ub => .ub
          | .outOfFuel => .outOfFuel
        | .throws => .throws
        | .ub => .ub
        | .outOfFuel => .outOfFuel
      else if char_op = OR_SYN then
        match build fuel sock with
        | .ok (left, sock) =>
          match build fuel sock with
          | .ok (right, sock) =>
            match read_step sock with
            | .ok (advance_right, sock) =>
              match read_step sock with
              | .ok (advance_left, sock) =>
                if left = .null ∧ right = .null then .throws
                else if left = .null then .ok (right, sock)
                else if right = .null then .ok (left, sock)
                else .ok (.OR_SYN left right (toInt32 advance_right) (toInt32 advance_left), sock)
              | .throws => .throws
              | .ub => .ub
              | .outOfFuel => .outOfFuel
            | .throws => .throws
            | .ub => .ub
            | .outOfFuel => .outOfFuel
          | .throws => .throws
          | .ub => .ub
          | .outOfFuel => .outOfFuel
        | .throws => .throws
        | .ub => .ub
        | .outOfFuel => .outOfFuel
      else if char_op = NOT then
        match build fuel sock with
        | .ok (left, sock) =>
          match build fuel sock with
          | .ok (discard, sock) => .ok (Expr_NOT left discard, sock)
          | .throws => .throws
          | .ub => .ub
          | .outOfFuel => .outOfFuel
        | .throws => .throws
        | .ub => .ub
        | .outOfFuel => .outOfFuel
      else if char_op = WORD_START then
        match read_to_word_end fuel sock with
        | .ok (term, sock) => .ok (.Leaf_Word term, sock)
        | .throws => .throws
        | .ub => .ub
        | .outOfFuel => .outOfFuel
      else if char_op = PHRASE_START then
        match read_to_phrase_end fuel sock with
        | .ok (terms, sock) => .ok (.Leaf_Phrase terms, sock)
        | .throws => .throws
        | .ub => .ub
        | .outOfFuel => .outOfFuel
      else if char_op = PHRASE_END then .ok (.null, sock)
      else .throws

/-- `Expr_AST::Expr_AST(int sock)`: build the root, then require `QUERY_END`. -/
def new (fuel : Nat) (sock : List Nat) : Outcome (Expr × List Nat) :=
  match build fuel sock with
  | .ok (root, sock) =>
    match sock with
    | [] => .ub
    | end_marker :: sock => if end_marker ≠ QUERY_END then .throws else .ok (root, sock)
  | .throws => .throws
  | .ub => .ub
  | .outOfFuel => .outOfFuel

end Expr_AST

/-- An iterator of any concrete class behind an `ISR*`. -/
structure AnyISR where
  σ : Type
  inst : ISR σ
  state : σ

namespace AnyISR

/-- `ISR::Next` through the pointer. -/
def Next (fuel : Nat) (a : AnyISR) : Option (Option Post × AnyISR) :=
  match a.inst.Next fuel a.state with
  | none => none
  | some (p, s) => some (p, { a with state := s })

/-- `ISR::Seek` through the pointer. -/
def Seek (fuel : Nat) (target : Nat) (a : AnyISR) : Option (Option Post × AnyISR) :=
  match a.inst.Seek fuel target a.state with
  | none => none
  | some (p, s) => some (p, { a with state := s })

end AnyISR

/-- `ISR_Highlevel::get_ISRWord(str)`: `tree->get_ISRWord(str.c_str())`. -/
def get_ISRWord (blob : IndexBlob) (str : List Nat) : ISRWordPtr :=
  blob.OpenISRWord (c_str str)

/-- `Expr::to_ISR(tree)` through a possibly null `Expr*`, the way
`Expr_Binary::to_isr_pair` and `Expr_AST::to_ISR` call it. The outer `none` is
a failed `assert` of an iterator constructor (the process aborts); the inner
`none` is the null pointer. -/
def Expr.to_ISR (blob : IndexBlob) : Expr → Option (Option AnyISR)
  | .null => some none
  | .Leaf_Word term => some (some ⟨ISRWordPtr, inferInstance, get_ISRWord blob term⟩)
  | .Leaf_Phrase terms =>
    some (some ⟨ISRPhrase ISRWordPtr, inferInstance, ISRPhrase.new (terms.map (get_ISRWord blob))⟩)
  | .AND left right =>
    match Expr.to_ISR blob left, Expr.to_ISR blob right with
    | some (some l), some (some r) =>
      some (some ⟨ISRAnd l.σ r.σ, @instISRAnd l.σ r.σ l.inst r.inst, ISRAnd.new l.state r.state⟩)
    | _, _ => none
  | .OR left right =>
    match Expr.to_ISR blob left, Expr.to_ISR blob right with
    | some (some l), some (some r) =>
      some (some ⟨ISROr l.σ r.σ, @instISROr l.σ r.σ l.inst r.inst, ISROr.new l.state r.state⟩)
    | _, _ => none
  | .OR_SYN left right advance_right advance_left =>
    match Expr.to_ISR blob left, Expr.to_ISR blob right with
    | some (some l), some (some r) =>
      some (some ⟨ISRSynOr l.σ r.σ, @instISRSynOr l.σ r.σ l.inst r.inst,
        ISRSynOr.new l.state r.state advance_right advance_left⟩)
    | _, _ => none
  | .NOT left right =>
    match Expr.to_ISR blob left, Expr.to_ISR blob right with
    | some (some l), some (some r) =>
      some (some ⟨ISRContainer l.σ r.σ, @instISRContainer l.σ r.σ l.inst r.inst,
        ISRContainer.new l.state r.state⟩)
    | _, _ => none

end SearchEngine

namespace SearchEngine

/-! ### Sample segments

`Index::Insert` gives a document with `n` words the `n + 2` Locations
`[start, start + n + 1]`, `start` being one past the end of the previous
document (1 for the first), and its words the Locations `start, start + 1, …`.
The posting lists below are produced by the code's own `AddWordPost`,
`AddDocumentPost` and `Write…PostingList`. -/

/-- A posting list that could not be written. -/
def noList : SerializedPostingList :=
  { bytes := 0, postingDataSize := 0, skipCount := 0, postCount := 0,
    skipTable := [], postingData := [] }

/-- The serialised posting list of a word that occurs at `locations`. -/
def wordList (locations : List Nat) : SerializedPostingList :=
  match PostingList.empty.AddWordPosts
      (locations.map (fun l => { startLocation := l, flags := 0 })) with
  | some pl => (SerializedPostingList.WriteWordPostingList pl).getD noList
  | none => noList

/-- The serialised document-end list of `docs`. -/
def docList (docs : List DocumentPost) : SerializedPostingList :=
  match PostingList.empty.AddDocumentPosts docs with
  | some pl => (SerializedPostingList.WriteDocumentPostingList pl).getD noList
  | none => noList

/-- The bytes of an ASCII string. -/
def bytesOf (s : String) : List Nat := s.toList.map Char.toNat

/-- Scenario S1: `doc0 = "a b c"` on Locations `[1, 5]`, `doc1 = "b c d"` on
`[6, 10]`. -/
def segmentS1 : IndexBlob :=
  { dictionary := [(bytesOf "a", wordList [1]), (bytesOf "b", wordList [2, 6]),
                   (bytesOf "c", wordList [3, 7]), (bytesOf "d", wordList [8])]
    docEnd := docList [⟨1, 5, 0⟩, ⟨6, 10, 1⟩] }

/-- Scenario S5: ten one-word documents, document `i` on Locations
`[3 i + 1, 3 i + 3]`; `cat` is the word of documents 0, 4, 8, `feline` of
documents 1, 5, 9, and `x` of the others. -/
def segmentS5 : IndexBlob :=
  { dictionary := [(bytesOf "cat", wordList [1, 13, 25]),
                   (bytesOf "feline", wordList [4, 16, 28]),
                   (bytesOf "x", wordList [7, 10, 19, 22])]
    docEnd := docList ((List.range 10).map (fun i => ⟨3 * i + 1, 3 * i + 3, i⟩)) }

/-- Two four-word documents on `[1, 6]` and `[7, 12]`; `l` occurs once, at
Location 5, and `r` once, at Location 10. -/
def segmentLR : IndexBlob :=
  { dictionary := [(bytesOf "l", wordList [5]), (bytesOf "r", wordList [10])]
    docEnd := docList [⟨1, 6, 0⟩, ⟨7, 12, 1⟩] }

/-- The query `- {b> {d> #` of scenario S4. -/
def queryNotBD : List Nat := bytesOf "-\x7bb>\x7bd>#"

/-- The query `- {b> > #`, a NOT with the one operand the protocol gives it. -/
def queryNotB : List Nat := bytesOf "-\x7bb>>#"

/-- The start Locations of a list of results. -/
def startsOf (results : List (Option Post)) : List (Option Nat) :=
  results.map (fun r => r.map Post.GetStartLocation)

/-- The results of a sequence of calls, as start Locations. -/
def callStarts {σ : Type} [ISR σ] (fuel : Nat) (calls : List Call) (s : σ) :
    Option (List (Option Nat)) :=
  match runCalls fuel calls s with
  | some (results, _) => some (startsOf results)
  | none => none

end SearchEngine

namespace SearchEngine

/-! ### Segments as the code writes them, and cursors inside them -/

/-- `spl` is what `AddWordPost` and `WriteWordPostingList` produce from `posts`. -/
def WrittenWordList (spl : SerializedPostingList) (posts : List WordPost) : Prop :=
  WordPostsOK posts ∧ ∃ pl, PostingList.empty.AddWordPosts posts = some pl
    ∧ SerializedPostingList.WriteWordPostingList pl = some spl

/-- `spl` is what `AddDocumentPost` and `WriteDocumentPostingList` produce from
`docs`. -/
def WrittenDocList (spl : SerializedPostingList) (docs : List DocumentPost) : Prop :=
  DocPostsOK docs ∧ ∃ pl, PostingList.empty.AddDocumentPosts docs = some pl
    ∧ SerializedPostingList.WriteDocumentPostingList pl = some spl

/-- A document iterator as `IndexBlob::OpenISREndDoc` leaves it, over the
written list of `docs`. -/
def FreshDoc (d : ISRDoc) (docs : List DocumentPost) : Prop :=
  WrittenDocList d.plist docs ∧ d.data = 0 ∧ d.currLocation = 0 ∧ d.current = none

/-- A word iterator as `IndexBlob::OpenISRWord` leaves it, over the written
list of `posts`. -/
def FreshWord (w : ISRWord) (posts : List WordPost) : Prop :=
  WrittenWordList w.plist posts ∧ w.data = 0 ∧ w.currLocation = 0 ∧ w.current = none

/-- The first post at or after `target`. -/
def firstPostGE (target : Nat) (posts : List WordPost) : Option WordPost :=
  posts.find? (fun p => decide (target ≤ p.startLocation))

/-- The first document that ends at or after `target`. -/
def firstDocGE (target : Nat) (docs : List DocumentPost) : Option DocumentPost :=
  docs.find? (fun d => decide (target ≤ d.endLocation))

/-- The current post of a word iterator after `Seek(target)`. -/
def seekCurrent (target : Nat) (current : Option WordPost) (posts : List WordPost) :
    Option WordPost :=
  match current with
  | some c => if target ≤ c.startLocation then some c else firstPostGE target posts
  | none => firstPostGE target posts

/-- The current document of a document iterator after `Seek(target)`. -/
def seekCurrentDoc (target : Nat) (current : Option DocumentPost) (docs : List DocumentPost) :
    Option DocumentPost :=
  match current with
  | some c => if target ≤ c.endLocation then some c else firstDocGE target docs
  | none => firstDocGE target docs

/-- The cursor of a word iterator stands on a post boundary of the list it
reads, and its current post, if any, is the post just before that boundary. -/
structure WordCursorOK (w : ISRWord) (posts : List WordPost) : Prop where
  list : WordListOK w.plist posts
  cursor : ∃ k, k ≤ posts.length ∧ w.data = wordOffset posts k
    ∧ w.currLocation = wordLocation posts k
    ∧ (w.current = none ∨ (0 < k ∧ posts[k - 1]? = w.current))

/-- The cursor of a document iterator stands on a boundary of the list it reads,
and its current document, if any, is the one just before that boundary. -/
structure DocCursorOK (d : ISRDoc) (docs : List DocumentPost) : Prop where
  list : DocListOK d.plist docs
  cursor : ∃ k, k ≤ docs.length ∧ d.data = docOffset docs k
    ∧ d.currLocation = docLocation docs k
    ∧ (d.current = none ∨ (0 < k ∧ docs[k - 1]? = d.current))

/-- Every term `i` of a phrase has a post at exactly Location `L + i`. -/
def PhraseAligned (lists : List (List WordPost)) (L : Nat) : Prop :=
  ∀ i posts, lists[i]? = some posts → ∃ q ∈ posts, q.startLocation = L + i

/-- Scenario S2: scenario S1 plus `doc2 = "a b"` on Locations `[11, 14]`. -/
def segmentS2 : IndexBlob :=
  { dictionary := [(bytesOf "a", wordList [1, 11]), (bytesOf "b", wordList [2, 6, 12]),
                   (bytesOf "c", wordList [3, 7]), (bytesOf "d", wordList [8])]
    docEnd := docList [⟨1, 5, 0⟩, ⟨6, 10, 1⟩, ⟨11, 14, 2⟩] }

/-- A fresh word iterator over the posting list of a word at `locations`, in a
segment whose documents are `docs`. -/
def wordIterator (locations : List Nat) (docs : List DocumentPost) : ISRWord :=
  { plist := wordList locations, data := 0, currLocation := 0, current := none,
    isr_doc := { plist := docList docs, data := 0, currLocation := 0, current := none },
    key := [], syn_word := false }

/-- The word posts at `locations`, without flags. -/
def postsAt (locations : List Nat) : List WordPost :=
  locations.map (fun l => { startLocation := l, flags := 0 })

end SearchEngine

namespace SearchEngine

/-! ### Documents of a segment, as the query core sees them -/

/-- Location `loc` lies in the range of document `D`. -/
def inDoc (D : DocumentPost) (loc : Nat) : Prop :=
  D.startLocation ≤ loc ∧ loc ≤ D.endLocation

instance (D : DocumentPost) (loc : Nat) : Decidable (inDoc D loc) := by
  unfold inDoc; infer_instance

/-- Well-formed segment: every post of the list lies in a document range. -/
def InDocs (posts : List WordPost) (docs : List DocumentPost) : Prop :=
  ∀ p ∈ posts, ∃ D ∈ docs, inDoc D p.startLocation

instance (posts : List WordPost) (docs : List DocumentPost) : Decidable (InDocs posts docs) := by
  unfold InDocs; infer_instance

/-- Document `D` contains a post of the list. -/
def hasPostIn (posts : List WordPost) (D : DocumentPost) : Bool :=
  posts.any (fun p => decide (inDoc D p.startLocation))

/-- The documents that contain a post of each of the two lists. -/
def andDocs (A B : List WordPost) (docs : List DocumentPost) : List DocumentPost :=
  docs.filter (fun D => hasPostIn A D && hasPostIn B D)

/-- The documents that contain a post of at least one of the two lists. -/
def orDocs (A B : List WordPost) (docs : List DocumentPost) : List DocumentPost :=
  docs.filter (fun D => hasPostIn A D || hasPostIn B D)

/-- A word iterator between calls: its cursor and the cursor of its document
iterator stand on boundaries of their lists, and the document iterator is not
ahead of the current post. -/
structure WordSync (w : ISRWord) (posts : List WordPost) (docs : List DocumentPost) :
    Prop where
  word : WordCursorOK w posts
  doc : DocCursorOK w.isr_doc docs
  sync : ∀ d c, w.isr_doc.current = some d → w.current = some c →
    d.startLocation ≤ c.startLocation

/-- Post `p` is a post of one of the two word lists and lies in document `D`. -/
def PostOfIn (A B : List WordPost) (p : Post) (D : DocumentPost) : Prop :=
  (∃ q, p = Post.word q ∧ (q ∈ A ∨ q ∈ B)) ∧ inDoc D p.GetStartLocation

/-- The nearer of two current posts, the left one on a tie. -/
def minPost (a b : Option WordPost) : Option WordPost :=
  match a, b with
  | none, none => none
  | some l, none => some l
  | none, some r => some r
  | some l, some r => if l.startLocation ≤ r.startLocation then some l else some r

/-- An `ISROr` over two word iterators after a call that left both children on
their first post at or after `T`. -/
structure OrInv (A B : List WordPost) (docs : List DocumentPost) (T : Nat)
    (o : ISROr ISRWord ISRWord) : Prop where
  left : WordSync o.isr1 A docs
  right : WordSync o.isr2 B docs
  curL : o.isr1.current = firstPostGE T A
  curR : o.isr2.current = firstPostGE T B
  cur : o.current = none

/-- An `ISROr` over two word iterators whose next `Next` call will look for the
first post at or after `T`: a fresh one (`T = 0`), or one whose nearer child
stands in a document that ends at `T - 1`. -/
def OrReady (A B : List WordPost) (docs : List DocumentPost) (T : Nat)
    (o : ISROr ISRWord ISRWord) : Prop :=
  (T = 0 ∧ WordSync o.isr1 A docs ∧ WordSync o.isr2 B docs
    ∧ o.isr1.current = none ∧ o.isr1.isr_doc.current = none
    ∧ o.isr2.current = none ∧ o.isr2.isr_doc.current = none
    ∧ o.nearestTerm = -1 ∧ o.current = none)
  ∨ ∃ T0 D c, OrInv A B docs T0 o ∧ D ∈ docs ∧ inDoc D c.startLocation
      ∧ T = D.endLocation + 1
      ∧ ((o.nearestTerm = 0 ∧ o.isr1.current = some c)
          ∨ (o.nearestTerm = 1 ∧ o.isr2.current = some c))

/-- What one `Next` call does on an iterator that returns one post per selected
document: with threshold `T`, either no selected document starts at or after `T`
and the call returns `nullptr`, or it returns a post related to the first such
document `D` and leaves the iterator ready for threshold `D.end + 1`. -/
def SelectStep {σ : Type} (docs : List DocumentPost) (sel : DocumentPost → Bool)
    (R : Post → DocumentPost → Prop) (Ready : Nat → σ → Prop) (T : Nat)
    (res : Option Post) (s1 : σ) : Prop :=
  (res = none ∧ ∀ D ∈ docs, sel D = true → ¬ T ≤ D.startLocation)
  ∨ (∃ p D, res = some p ∧ D ∈ docs ∧ sel D = true ∧ T ≤ D.startLocation ∧ R p D
      ∧ (∀ E ∈ docs, sel E = true → T ≤ E.startLocation →
          D.startLocation ≤ E.startLocation)
      ∧ Ready (D.endLocation + 1) s1)

/-- An `ISRAnd` over two word iterators whose next `Next` call will look for the
first match at or after `T`: a fresh one (`T = 0`), or one whose children both
stand in a document that ends at `T - 1`. -/
def AndReady (A B : List WordPost) (docs : List DocumentPost) (T : Nat)
    (a : ISRAnd ISRWord ISRWord) : Prop :=
  WordSync a.isr1 A docs ∧ WordSync a.isr2 B docs
    ∧ ((T = 0 ∧ a.isr1.current = none ∧ a.isr1.isr_doc.current = none
          ∧ a.isr2.current = none ∧ a.isr2.isr_doc.current = none)
        ∨ ∃ D l r, D ∈ docs ∧ a.isr1.current = some l ∧ a.isr2.current = some r
            ∧ inDoc D l.startLocation ∧ inDoc D r.startLocation
            ∧ T = D.endLocation + 1)

/-- The results of a sequence of calls up to the first `nullptr`. -/
def untilNone (results : List (Option Post)) : List (Option Post) :=
  results.takeWhile Option.isSome

/-- The results of a sequence of calls (`nullptr` included); empty when a call
is undefined. -/
def callResults {σ : Type} [ISR σ] (fuel : Nat) (calls : List Call) (s : σ) :
    List (Option Post) :=
  match runCalls fuel calls s with
  | some (results, _) => results
  | none => []

/-- The word iterator has a current post, at or after Location `m`. -/
def WordGE (m : Nat) (w : ISRWord) : Prop :=
  ∃ c, w.current = some c ∧ m ≤ c.startLocation

/-- The current post of the word iterator, if any, is at or after `m`. -/
def WordGEN (m : Nat) (w : ISRWord) : Prop :=
  ∀ c, w.current = some c → m ≤ c.startLocation

/-- An `ISRAnd` over two word iterators between calls: the children read their
lists, and both stand at or after the current match. -/
def AndMonoInv (A B : List WordPost) (a : ISRAnd ISRWord ISRWord) : Prop :=
  WordCursorOK a.isr1 A ∧ WordCursorOK a.isr2 B
    ∧ ∀ q, a.current = some q →
        WordGE q.GetStartLocation a.isr1 ∧ WordGE q.GetStartLocation a.isr2

/-- An `ISRContainer` over two word iterators between calls: the children read
their lists, and the included child stands at or after the current match. -/
def ContainerMonoInv (A B : List WordPost) (c : ISRContainer ISRWord ISRWord) : Prop :=
  WordCursorOK c.isr1 A ∧ WordCursorOK c.isr2 B
    ∧ ∀ q, c.current = some q → WordGE q.GetStartLocation c.isr1

/-- An `ISRPhrase` over word iterators between calls: the terms read their
lists, and the first term stands at or after the current match. -/
def PhraseMonoInv (lists : List (List WordPost)) (p : ISRPhrase ISRWord) : Prop :=
  List.Forall₂ WordCursorOK p.terms lists
    ∧ ∀ q, p.current = some q →
        ∃ t0 ts, p.terms = t0 :: ts ∧ WordGE q.GetStartLocation t0

end SearchEngine

namespace SearchEngine

/-! ### The shard's merge of per-segment results (csolver/csolver.cpp) -/

namespace CSolver

variable {S : Type} [LinearOrder S]

/-- `MAX_RESULTS` (csolver.h). -/
def MAX_RESULTS : Nat := 10

/-- The `for (int i = 0; i < k; ++i)` loop of `mergeSortedArrays`, from index `i`
on, over `arrays[i], arrays[i+1], …` and `indices[i], indices[i+1], …`: the head
of a list that is not exhausted replaces the maximum when its score is strictly
greater. `minArray` is `none` for `-1`. -/
def mergeSortedArrays.scan :
    List (List (RankingResult S)) → List Nat → Nat → S → Option Nat → S × Option Nat
  | a :: arrays, j :: indices, i, maxVal, minArray =>
    match a[j]? with
    | some x =>
      if x.score > maxVal then mergeSortedArrays.scan arrays indices (i + 1) x.score (some i)
      else mergeSortedArrays.scan arrays indices (i + 1) maxVal minArray
    | none => mergeSortedArrays.scan arrays indices (i + 1) maxVal minArray
  | _, _, _, maxVal, minArray => (maxVal, minArray)

/-- The `while (result.size() < MAX_RESULTS)` loop of `mergeSortedArrays`; the
first argument is `MAX_RESULTS - result.size()`. `lowest` is
`std::numeric_limits<double>::lowest()`. -/
def mergeSortedArrays.loop (lowest : S) (arrays : List (List (RankingResult S))) :
    Nat → List Nat → List (RankingResult S) → Option (List (RankingResult S))
  | 0, _, result => some result
  | n + 1, indices, result =>
    match mergeSortedArrays.scan arrays indices 0 lowest none with
    | (_, none) => some result
    | (_, some minArray) =>
      match arrays[minArray]?, indices[minArray]? with
      | some a, some j =>
        match a[j]? with
        | some x =>
          mergeSortedArrays.loop lowest arrays n (indices.set minArray (j + 1)) (result ++ [x])
        | none => none
      | _, _ => none

/-- `mergeSortedArrays(arrays)`. -/
def mergeSortedArrays (lowest : S) (arrays : List (List (RankingResult S))) :
    Option (List (RankingResult S)) :=
  mergeSortedArrays.loop lowest arrays MAX_RESULTS (List.replicate arrays.length 0) []

/-- The results not yet merged: list `i` from position `indices[i]` on. -/
def remaining : List (List (RankingResult S)) → List Nat → List (RankingResult S)
  | a :: arrays, j :: indices => a.drop j ++ remaining arrays indices
  | _, _ => []

/-! The k-way merge in the words of the specification: repeatedly take the
greatest head among the lists, from the lowest-indexed list when several heads
tie. -/

/-- The choice between the head of the first list and the best head `later`
among the lists after it: a later head wins only with a strictly greater
score. -/
def pickHead (a : List (RankingResult S)) (later : Option (Nat × RankingResult S)) :
    Option (Nat × RankingResult S) :=
  match a, later with
  | [], none => none
  | [], some (i, y) => some (i + 1, y)
  | x :: _, none => some (0, x)
  | x :: _, some (i, y) => if y.score > x.score then some (i + 1, y) else some (0, x)

/-- The list to take from and its head: the greatest head score, the lowest
index on ties; `none` when every list is empty. -/
def bestHead : List (List (RankingResult S)) → Option (Nat × RankingResult S)
  | [] => none
  | a :: lists => pickHead a (bestHead lists)

/-- The lists after the head of list `i` has been taken. -/
def dropHead : Nat → List (List (RankingResult S)) → List (List (RankingResult S))
  | _, [] => []
  | 0, a :: lists => a.tail :: lists
  | i + 1, a :: lists => a :: dropHead i lists

/-- The first `n` elements of the k-way merge of `lists`, ties going to the
lower-indexed list. -/
def kWayMerge : Nat → List (List (RankingResult S)) → List (RankingResult S)
  | 0, _ => []
  | n + 1, lists =>
    match bestHead lists with
    | none => []
    | some (i, x) => x :: kWayMerge n (dropHead i lists)

/-- The lists not yet merged: list `i` from position `indices[i]` on. -/
def remainingLists : List (List (RankingResult S)) → List Nat → List (List (RankingResult S))
  | a :: arrays, j :: indices => a.drop j :: remainingLists arrays indices
  | _, _ => []

end CSolver

end SearchEngine

namespace SearchEngine

/-! ### Result framing (csolver/csolver.cpp, lib/algorithm.h)

The host is little-endian (`__BYTE_ORDER == __LITTLE_ENDIAN`): an integer lies
in memory with its low-order byte first, and `htonl` reverses the four bytes of
a `uint32_t`. -/

/-- The `n` bytes of an unsigned integer as they lie in memory, low-order byte
first. -/
def memBytes (n : Nat) (x : Nat) : List Nat :=
  (List.range n).map (fun i => x / 256 ^ i % 256)

/-- `htonl` on a little-endian host: the `uint32_t` with the bytes of its
argument in reverse order. -/
def htonl (x : Nat) : Nat :=
  (x % 256) * 16777216 + (x / 256 % 256) * 65536 + (x / 65536 % 256) * 256
    + x / 16777216 % 256

/-- `ntohl` on a little-endian host, the same reversal. -/
def ntohl (x : Nat) : Nat := htonl x

/-- `my_htonll(val)`:
`(((uint64_t) htonl(val & 0xFFFFFFFF)) << 32) | htonl(val >> 32)`. -/
def my_htonll (val : Nat) : Nat :=
  (((htonl ((val &&& 0xFFFFFFFF) % U32)) <<< 32) % 18446744073709551616)
    ||| htonl ((val >>> 32) % U32)

/-- `my_ntohll(val)`:
`(((uint64_t) ntohl(val & 0xFFFFFFFF)) << 32) | ntohl(val >> 32)`. -/
def my_ntohll (val : Nat) : Nat :=
  (((ntohl ((val &&& 0xFFFFFFFF) % U32)) <<< 32) % 18446744073709551616)
    ||| ntohl ((val >>> 32) % U32)

/-- The `strlen(s)` bytes of a `const char*` held as a string: the characters
are its bytes, up to the first zero byte. -/
def cBytes (s : String) : List Nat := c_str (s.toList.map Char.toNat)

namespace CSolver

/-- `CSolver::serialize_results`: the bytes handed to `send_looping_crashing`, in
order. The score of a result is given by the 64 bits that `std::memcpy(&bits,
&result.score, sizeof(bits))` copies out of the `double`. -/
def serialize_results (results : List (RankingResult Nat)) : List Nat :=
  let count_net := htonl (results.length % U32)
  results.foldl
    (fun sent result =>
      sent ++ cBytes result.url ++ [10] ++ cBytes result.title ++ [10]
        ++ memBytes 8 (my_htonll result.score))
    (memBytes 4 count_net)

end CSolver

/-- The four bytes of a 32-bit integer in big-endian order. -/
def be32 (x : Nat) : List Nat :=
  [x / 16777216 % 256, x / 65536 % 256, x / 256 % 256, x % 256]

/-- The eight bytes of a 64-bit integer in big-endian order. -/
def be64 (x : Nat) : List Nat :=
  [x / 72057594037927936 % 256, x / 281474976710656 % 256, x / 1099511627776 % 256,
   x / 4294967296 % 256, x / 16777216 % 256, x / 65536 % 256, x / 256 % 256, x % 256]

/-- The frame of one result on the wire: URL, newline, title, newline, and the
score bits in big-endian order. -/
def resultFrame (r : RankingResult Nat) : List Nat :=
  cBytes r.url ++ [10] ++ cBytes r.title ++ [10] ++ be64 r.score

end SearchEngine

namespace SearchEngine

/-! ### The query grammar on the wire -/

/-- Running one deserialiser routine after another: the second runs on what the
first returned; a throw, an uninitialised read or exhausted fuel ends both. -/
def Outcome.bind {α β : Type} (x : Outcome α) (g : α → Outcome β) : Outcome β :=
  match x with
  | .ok a => g a
  | .throws => .throws
  | .ub => .ub
  | .outOfFuel => .outOfFuel

namespace Expr_AST

/-- One byte of a stem as it stands on the wire: after a backslash (`escaped`)
or on its own. -/
structure StemByte where
  escaped : Bool
  byte : Nat
  deriving DecidableEq, Repr

/-- The wire bytes of one stem byte. -/
def StemByte.wire (t : StemByte) : List Nat :=
  if t.escaped then [ESCAPE, t.byte] else [t.byte]

/-- A byte that stands on its own is neither `'>'` nor a backslash. -/
def StemByte.Valid (t : StemByte) : Prop :=
  t.escaped = true ∨ (t.byte ≠ PHRASE_END ∧ t.byte ≠ ESCAPE)

instance (t : StemByte) : Decidable t.Valid := by
  unfold StemByte.Valid; infer_instance

/-- The wire bytes of a stem. -/
def stemWire (ts : List StemByte) : List Nat := (ts.map StemByte.wire).flatten

/-- The bytes a stem stands for. -/
def stemBytes (ts : List StemByte) : List Nat := ts.map StemByte.byte

/-- The escaping `esc` of a stem `s`: a backslash before every `'>'` and every
backslash of `s`, every other byte on its own. -/
def escapeStem (s : List Nat) : List StemByte :=
  s.map (fun b => { escaped := decide (b = PHRASE_END ∨ b = ESCAPE), byte := b })

/-- The escaping `esc` of a stem as bytes: a backslash before every `'>'` and
every backslash, every other byte unchanged. -/
def esc : List Nat → List Nat
  | [] => []
  | b :: s => if b = PHRASE_END ∨ b = ESCAPE then ESCAPE :: b :: esc s else b :: esc s

/-- The expressions of the query grammar: `AndExpr`, `OrExpr`, `SynOrExpr` with
its two step counts, `NotExpr`, `WordExpr` and `PhraseExpr`. -/
inductive QueryTree where
  | andExpr (left right : QueryTree)
  | orExpr (left right : QueryTree)
  | synOrExpr (left right : QueryTree) (advanceRight advanceLeft : Nat)
  | notExpr (left right : QueryTree)
  | wordExpr (stem : List StemByte)
  | phraseExpr (content : List StemByte)
  deriving Repr

namespace QueryTree

/-- The byte stream of an expression of the grammar. -/
def wire : QueryTree → List Nat
  | andExpr l r => AND :: (wire l ++ wire r)
  | orExpr l r => OR :: (wire l ++ wire r)
  | synOrExpr l r a b =>
    OR_SYN :: (wire l ++ (wire r ++ (be32 a ++ STEP_DELIM :: (be32 b ++ [STEP_DELIM]))))
  | notExpr l r => NOT :: (wire l ++ wire r)
  | wordExpr stem => WORD_START :: (stemWire stem ++ [PHRASE_END])
  | phraseExpr content => PHRASE_START :: (stemWire content ++ [PHRASE_END])

/-- Well-formed: every stem byte is valid and the step counts are 32-bit. -/
def Valid : QueryTree → Prop
  | andExpr l r => Valid l ∧ Valid r
  | orExpr l r => Valid l ∧ Valid r
  | synOrExpr l r a b => Valid l ∧ Valid r ∧ a < U32 ∧ b < U32
  | notExpr l r => Valid l ∧ Valid r
  | wordExpr stem => ∀ t ∈ stem, t.Valid
  | phraseExpr content => ∀ t ∈ content, t.Valid

/-- The expression tree the deserialiser builds for an expression of the
grammar. -/
def expr : QueryTree → Expr
  | andExpr l r => .AND (expr l) (expr r)
  | orExpr l r => .OR (expr l) (expr r)
  | synOrExpr l r a b => .OR_SYN (expr l) (expr r) (toInt32 a) (toInt32 b)
  | notExpr l _ => .NOT (expr l) .null
  | wordExpr stem => .Leaf_Word (stemBytes stem)
  | phraseExpr content => .Leaf_Phrase ((stemBytes content).foldl phrasePush [[]])

end QueryTree

/-- A sample query of the grammar: the synonym-or of `& {a> <a b>` and
`- {b> {\\>d>` with the step counts 2 and 1. -/
def sampleQuery : QueryTree :=
  .synOrExpr
    (.andExpr (.wordExpr [⟨false, 97⟩]) (.phraseExpr [⟨false, 97⟩, ⟨false, 32⟩, ⟨false, 98⟩]))
    (.notExpr (.wordExpr [⟨false, 98⟩]) (.wordExpr [⟨true, 62⟩, ⟨false, 100⟩]))
    2 1

/-- The bytes that `ch_to_op` accepts. -/
def operatorBytes : List Nat :=
  [AND, OR, OR_SYN, NOT, WORD_START, PHRASE_START, PHRASE_END]

/-- The operators that take two operand expressions. -/
def binaryOperators : List Nat := [AND, OR, OR_SYN, NOT]

/-- Parsing the stream reads, in operator position, a byte that is no operator:
at once, in the first operand of a binary operator, or in its second operand
after the first has been parsed. -/
inductive ReachesBadOperator : List Nat → Prop where
  | here (b : Nat) (rest : List Nat) : b ∉ operatorBytes → ReachesBadOperator (b :: rest)
  | first (op : Nat) (rest : List Nat) : op ∈ binaryOperators → ReachesBadOperator rest →
      ReachesBadOperator (op :: rest)
  | second (op : Nat) (rest : List Nat) (fuel : Nat) (e : Expr) (rest1 : List Nat) :
      op ∈ binaryOperators → build fuel rest = .ok (e, rest1) → ReachesBadOperator rest1 →
      ReachesBadOperator (op :: rest)

end Expr_AST

end SearchEngine

namespace SearchEngine

/-! ### Counting the occurrences of a word in a document (Indexer.hpp) -/

namespace ISRWord

/-- The `while (word && word->GetStartLocation() <= endLocation)` loop of
`ISRWord::GetOccurrencesInCurrDoc`; `count` is an `unsigned`. -/
def GetOccurrencesInCurrDoc.loop (endLocation : Nat) :
    Nat → Option Post → ISRWord → Nat → Option (Nat × ISRWord)
  | 0, _, _, _ => none
  | fuel + 1, word, w, count =>
    match word with
    | some p =>
      if p.GetStartLocation ≤ endLocation then
        match w.NextInternal with
        | none => none
        | some (word, w) => GetOccurrencesInCurrDoc.loop endLocation fuel word w ((count + 1) % U32)
      else some (count, w)
    | none => some (count, w)

/-- `ISRWord::GetOccurrencesInCurrDoc(startLocation, endLocation)`: the count of
posts in the range, with `data`, `currLocation` and `current` saved before the
scan and written back after it. -/
def GetOccurrencesInCurrDoc (fuel : Nat) (w : ISRWord) (startLocation endLocation : Nat) :
    Option (Nat × ISRWord) :=
  if w.current.isSome ∧ w.GetStartLocation > endLocation then some (0, w)
  else
    let savedData := w.data
    let savedLocation := w.currLocation
    let savedCurrent := w.current
    match ({ w with current := none } : ISRWord).Seek startLocation with
    | none => none
    | some (word, w1) =>
      match GetOccurrencesInCurrDoc.loop endLocation fuel word w1 0 with
      | none => none
      | some (count, w2) =>
        some (count, { w2 with data := savedData, currLocation := savedLocation,
                               current := savedCurrent })

end ISRWord

/-- The cursor of a word iterator stands on the boundary before post `k` of the
list it reads. -/
structure WordCursorAt (w : ISRWord) (posts : List WordPost) (k : Nat) : Prop where
  list : WordListOK w.plist posts
  le : k ≤ posts.length
  data : w.data = wordOffset posts k
  loc : w.currLocation = wordLocation posts k

/-- Two states of a word iterator that differ at most in the cursor fields
`data`, `currLocation` and `current`. -/
def ISRWord.SameButCursor (w1 w : ISRWord) : Prop :=
  w1.plist = w.plist ∧ w1.isr_doc = w.isr_doc ∧ w1.key = w.key ∧ w1.syn_word = w.syn_word

end SearchEngine

namespace SearchEngine

/-! ### Documents that contain a phrase -/

/-- Terms `i, i + 1, …` of a phrase each have a post at `L + i, L + i + 1, …`. -/
def alignedFrom : Nat → List (List WordPost) → Nat → Bool
  | _, [], _ => true
  | i, posts :: rest, L =>
    posts.any (fun q => decide (q.startLocation = L + i)) && alignedFrom (i + 1) rest L

/-- Document `D` contains the phrase: some post of the first term lies in `D`,
the other terms follow it at consecutive Locations, and the last of them still
lies in `D`. -/
def phraseIn (lists : List (List WordPost)) (D : DocumentPost) : Bool :=
  match lists with
  | [] => false
  | first :: _ =>
    first.any (fun p => decide (inDoc D p.startLocation) && alignedFrom 0 lists p.startLocation
      && decide (p.startLocation + (lists.length - 1) ≤ D.endLocation))

/-- The documents that contain the phrase, in the order of the segment. -/
def phraseDocs (lists : List (List WordPost)) (docs : List DocumentPost) : List DocumentPost :=
  docs.filter (phraseIn lists)

/-- Post `p` is a post of the first term at which the phrase stands, wholly
inside document `D`. -/
def PhraseMatchIn (lists : List (List WordPost)) (p : Post) (D : DocumentPost) : Prop :=
  ∃ q, p = Post.word q ∧ (∃ first, lists[0]? = some first ∧ q ∈ first)
    ∧ PhraseAligned lists q.startLocation
    ∧ inDoc D q.startLocation ∧ inDoc D (q.startLocation + (lists.length - 1))

/-- No post of the list stands on the last Location of a document
(`Index::Insert` leaves the last two Locations of every document unused). -/
def NoPostAtDocEnd (posts : List WordPost) (docs : List DocumentPost) : Prop :=
  ∀ p ∈ posts, ∀ D ∈ docs, p.startLocation ≠ D.endLocation

instance (posts : List WordPost) (docs : List DocumentPost) :
    Decidable (NoPostAtDocEnd posts docs) := by
  unfold NoPostAtDocEnd; infer_instance

/-- The terms `i, i + 1, …` of a phrase iterator between seeks: term `j` reads
its list and stands on the first post at or after some threshold that is at
most `B + j`. -/
def TermsBelow (B : Nat) : Nat → List ISRWord → List (List WordPost) → Prop
  | _, [], [] => True
  | i, t :: ts, l :: ls =>
    WordCursorOK t l ∧ (∃ Ti, Ti ≤ B + i ∧ t.current = firstPostGE Ti l)
      ∧ TermsBelow B (i + 1) ts ls
  | _, _, _ => False

/-- A phrase iterator over word iterators whose next `Next` call will look for
the first match at or after `T`: a fresh one (`T = 0`), or one that stands on a
match in a document that ends at `T - 1`. -/
def PhraseReady (l0 : List WordPost) (ls : List (List WordPost)) (docs : List DocumentPost)
    (T : Nat) (p : ISRPhrase ISRWord) : Prop :=
  ∃ t0 ts, p.terms = t0 :: ts ∧ WordSync t0 l0 docs
    ∧ ((T = 0 ∧ p.current = none ∧ t0.current = none ∧ t0.isr_doc.current = none
          ∧ List.Forall₂ (fun t l => WordCursorOK t l ∧ t.current = none) ts ls)
        ∨ ∃ D c, D ∈ docs ∧ p.current = some (Post.word c) ∧ t0.current = some c
            ∧ inDoc D c.startLocation ∧ T = D.endLocation + 1 ∧ TermsBelow T 1 ts ls)

end SearchEngine

namespace SearchEngine

/-! ### Collecting the terms of an iterator tree (csolver/isr.cpp, Indexer.hpp) -/

/-- `ISR::setSynonym` through an `ISRWord*`. -/
def ISRWordPtr.setSynonym (syn : Bool) : ISRWordPtr → ISRWordPtr
  | .word w => .word { w with syn_word := syn }
  | .abstr a => .abstr { a with syn_word := syn }

/-- `ISR::isSynonymWord` through an `ISRWord*`. -/
def ISRWordPtr.isSynonymWord : ISRWordPtr → Bool
  | .word w => w.syn_word
  | .abstr a => a.syn_word

/-- The nodes of an iterator tree by class, with their children. The
constructors of the binary classes assert that both children are non-null; the
terms of an `ISRPhrase` are what `get_ISRWord` returned. -/
inductive ISRNode where
  | word (w : ISRWord)
  | abstr (a : ISRAbstract)
  | doc (d : ISRDoc)
  | or (isr1 isr2 : ISRNode)
  | synOr (isr1 isr2 : ISRNode)
  | and (isr1 isr2 : ISRNode)
  | container (included excluded : ISRNode)
  | phrase (terms : List ISRWordPtr)

/-- `ISRWord::GetKey` through an `ISRWord*`; an `ISRAbstract` is built with the
empty key. -/
def ISRWordPtr.GetKey : ISRWordPtr → List Nat
  | .word w => w.key
  | .abstr _ => []

/-- The leaf node for what `get_ISRWord` returned. -/
def ISRNode.ofWordPtr : ISRWordPtr → ISRNode
  | .word w => .word w
  | .abstr a => .abstr a

/-- `ISRWord::collectTerms`: a key not yet in `terms_set` is inserted and a
fresh iterator for it is pushed; `ISRAbstract::collectTerms` does nothing. -/
def ISRWordPtr.collectTerms (index : IndexBlob) (t : ISRWordPtr)
    (acc : List ISRWordPtr × List (List Nat)) : List ISRWordPtr × List (List Nat) :=
  match t with
  | .word w =>
    if w.key ∈ acc.2 then acc
    else (acc.1 ++ [index.OpenISRWord w.key], w.key :: acc.2)
  | .abstr _ => acc

/-- The virtual `collectTerms(index, terms, terms_set)`; the pair is
`(terms, terms_set)`. `ISRSynOr` marks every term pushed while its right child
was visited; `ISRContainer` visits only the included child. -/
def ISRNode.collectTerms (index : IndexBlob) :
    ISRNode → List ISRWordPtr × List (List Nat) → List ISRWordPtr × List (List Nat)
  | .word w, acc => (ISRWordPtr.word w).collectTerms index acc
  | .abstr _, acc => acc
  | .doc _, acc => acc
  | .or isr1 isr2, acc => isr2.collectTerms index (isr1.collectTerms index acc)
  | .and isr1 isr2, acc => isr2.collectTerms index (isr1.collectTerms index acc)
  | .synOr isr1 isr2, acc =>
    let acc1 := isr1.collectTerms index acc
    let syn_index := acc1.1.length
    let acc2 := isr2.collectTerms index acc1
    (acc2.1.take syn_index ++ (acc2.1.drop syn_index).map (ISRWordPtr.setSynonym true), acc2.2)
  | .container included _, acc => included.collectTerms index acc
  | .phrase terms, acc => terms.foldl (fun a t => t.collectTerms index a) acc

/-- `ISR_Tree::getFlattenedTerms`. -/
def getFlattenedTerms (blob : IndexBlob) (root : Option ISRNode) : List ISRWordPtr :=
  match root with
  | some r => (r.collectTerms blob ([], [])).1
  | none => []

/-! The same in the words of the specification. -/

/-- The leaf keys reachable from a node, left to right, each with whether it
lies in the right subtree of some SynOr node (`syn` says so for the node
itself). Excluded subtrees of Container nodes and absent terms contribute
nothing. -/
def ISRNode.leafKeys (syn : Bool) : ISRNode → List (List Nat × Bool)
  | .word w => [(w.key, syn)]
  | .abstr _ => []
  | .doc _ => []
  | .or isr1 isr2 => isr1.leafKeys syn ++ isr2.leafKeys syn
  | .and isr1 isr2 => isr1.leafKeys syn ++ isr2.leafKeys syn
  | .synOr isr1 isr2 => isr1.leafKeys syn ++ isr2.leafKeys true
  | .container included _ => included.leafKeys syn
  | .phrase terms =>
    terms.filterMap (fun t =>
      match t with
      | .word w => some (w.key, syn)
      | .abstr _ => none)

/-- The first occurrence of every key that is not in `seen`, in order. -/
def firstOccurrences : List (List Nat) → List (List Nat × Bool) → List (List Nat × Bool)
  | _, [] => []
  | seen, e :: rest =>
    if e.1 ∈ seen then firstOccurrences seen rest
    else e :: firstOccurrences (e.1 :: seen) rest

/-- The keys seen after a list of occurrences. -/
def seenAfter : List (List Nat) → List (List Nat × Bool) → List (List Nat)
  | seen, [] => seen
  | seen, e :: rest => if e.1 ∈ seen then seenAfter seen rest else seenAfter (e.1 :: seen) rest

/-- A sample tree over scenario S1: the synonym-or of `a & <a b x>` and
`c - d`, where `x` is not in the index. -/
def sampleTree : ISRNode :=
  .synOr
    (.and (.ofWordPtr (get_ISRWord segmentS1 (bytesOf "a")))
      (.phrase [get_ISRWord segmentS1 (bytesOf "a"), get_ISRWord segmentS1 (bytesOf "b"),
                get_ISRWord segmentS1 (bytesOf "x")]))
    (.container (.ofWordPtr (get_ISRWord segmentS1 (bytesOf "c")))
      (.ofWordPtr (get_ISRWord segmentS1 (bytesOf "d"))))

end SearchEngine

namespace SearchEngine

/-! ### Ranker: spans and dynamic features (ranker/Ranker.cpp) -/

/-- `2 ^ 64`, the modulus of `size_t`. -/
def U64 : Nat := 18446744073709551616

/-- `isBold(post)`: bit 0 of the flags. -/
def isBold (post : WordPost) : Bool := post.flags &&& 1 != 0

/-- `isHeading(post)`: bit 1 of the flags. -/
def isHeading (post : WordPost) : Bool := post.flags &&& 2 != 0

namespace Ranker

/-- `struct Span`. -/
structure Span where
  termCount : Nat
  isExactPhrase : Bool
  isOrdered : Bool
  isClose : Bool
  isBoldHeading : Bool
  deriving DecidableEq, Repr

/-- `Ranker::CLOSE_THRESHOLD`, a `size_t`. -/
def CLOSE_THRESHOLD : Nat := 10

/-- `Ranker::TOP_POSITION_THRESHOLD`. -/
def TOP_POSITION_THRESHOLD : Nat := 100

/-- The `while (post && post->GetStartLocation() <= expected + CLOSE_THRESHOLD
&& post->GetStartLocation() <= docEnd)` loop of `Ranker::FindBestSpan` for one
term; returns the span, `prevLocation` and the term. -/
def FindBestSpan.scan (expected docEnd : Nat) :
    Nat → Option Post → ISRWord → Span → Nat → Option (Span × Nat × ISRWord)
  | 0, _, _, _, _ => none
  | fuel + 1, post, term, span, prevLocation =>
    match post with
    | some (Post.word wp) =>
      let pos := wp.startLocation
      if pos ≤ expected + CLOSE_THRESHOLD ∧ pos ≤ docEnd then
        let dist : Int := (pos : Int) - (expected : Int)
        let span := if isBold wp ∨ isHeading wp then { span with isBoldHeading := true } else span
        let ordered := decide (pos > prevLocation)
        let span := if ordered then { span with isOrdered := true } else span
        let prevLocation := if ordered then pos else prevLocation
        let span := if dist = 0 then { span with isExactPhrase := true } else span
        let span :=
          if dist.natAbs ≤ CLOSE_THRESHOLD ∧ span.isClose = false then
            { span with termCount := span.termCount + 1, isClose := true }
          else span
        match term.NextInternal with
        | none => none
        | some (post, term) => FindBestSpan.scan expected docEnd fuel post term span prevLocation
      else some (span, prevLocation, term)
    | some (Post.doc _) => none
    | none => some (span, prevLocation, term)

/-- The `for (size_t i = 0; i < otherTerms.size(); i++)` loop of
`Ranker::FindBestSpan`. `expected` is a `Location`; `expected - CLOSE_THRESHOLD`
is computed in `size_t` and converted to the `Location` that `Seek` takes. The
three flags are cleared at the top of every round. -/
def FindBestSpan.forTerms (fuel targetPos docEnd : Nat) :
    List ISRWord → List Nat → Span → Nat → Option (Span × List ISRWord)
  | [], _, span, _ => some (span, [])
  | _ :: _, [], _, _ => none
  | term :: terms, e :: es, span, prevLocation =>
    let prevLocation := if e = 1 then targetPos else prevLocation
    let expected := (targetPos + e) % U32
    match term.Seek ((expected + U64 - CLOSE_THRESHOLD) % U64 % U32) with
    | none => none
    | some (post, term) =>
      let span := { span with isExactPhrase := false, isOrdered := false, isClose := false }
      match FindBestSpan.scan expected docEnd fuel post term span prevLocation with
      | none => none
      | some (span, prevLocation, term) =>
        match FindBestSpan.forTerms fuel targetPos docEnd terms es span prevLocation with
        | none => none
        | some (span, terms) => some (span, term :: terms)

/-- `Ranker::FindBestSpan(rarestTerm, otherTerms, targetPos, expectedPositions)`;
returns the span and the other terms as the scan left them. -/
def FindBestSpan (fuel : Nat) (index : IndexBlob) (otherTerms : List ISRWord) (targetPos : Nat)
    (expectedPositions : List Nat) : Option (Span × List ISRWord) :=
  match index.OpenISREndDoc.Seek targetPos with
  | none => none
  | some (_, docIsr) =>
    FindBestSpan.forTerms fuel targetPos docIsr.GetEndLocation otherTerms expectedPositions
      { termCount := 1, isExactPhrase := true, isOrdered := true, isClose := true,
        isBoldHeading := false } 0

/-- `tolower` on a byte of an ASCII string. -/
def tolower (c : Nat) : Nat := if 65 ≤ c ∧ c ≤ 90 then c + 32 else c

/-- `std::string::find(str)`: the position of the first occurrence of `str`, or
`none` for `npos`. -/
def strFind : List Nat → List Nat → Option Nat
  | [], pat => if pat = [] then some 0 else none
  | c :: s, pat =>
    if pat.isPrefixOf (c :: s) then some 0
    else (strFind s pat).map (· + 1)

/-- `struct DynamicFeatures`, without `frequentTermCount`, which
`ExtractDynamicFeatures` never assigns. -/
structure DynamicFeatures where
  spans : List Span
  exactPhraseCount : Nat
  orderedCount : Nat
  closeCount : Nat
  doubleCount : Nat
  tripleCount : Nat
  boldHeadingCount : Nat
  termFrequencies : List Nat
  topPositionSpans : Nat
  firstSpanPosition : Nat
  hasUrlMatch : Bool
  deriving DecidableEq, Repr

/-- What the first loop of `ExtractDynamicFeatures` keeps. `minFreq` starts as
`static_cast<size_t>(-1)`; `rarestTermIndex` is `none` while `rarestTerm` is
null. -/
structure TermScan where
  termFrequencies : List Nat
  hasUrlMatch : Bool
  minFreq : Nat
  rarestTermIndex : Option Nat
  deriving DecidableEq, Repr

/-- The first loop of `Ranker::ExtractDynamicFeatures`, from index `i`: the
frequency of each term, the URL test on the key of the term as `GetKey` returns
it, and the rarest term. -/
def ExtractDynamicFeatures.scanTerms (fuel start end_ : Nat) (urlStr : List Nat) :
    List ISRWord → Nat → TermScan → Option (TermScan × List ISRWord)
  | [], _, st => some (st, [])
  | term :: terms, i, st =>
    match term.GetOccurrencesInCurrDoc fuel start end_ with
    | none => none
    | some (freq, term) =>
      let hasUrlMatch :=
        if st.hasUrlMatch = false ∧ urlStr ≠ [] then
          if (strFind urlStr ((c_str term.key).map tolower)).isSome then true
          else st.hasUrlMatch
        else st.hasUrlMatch
      let rarer := decide (freq > 0 ∧ freq < st.minFreq)
      let st : TermScan :=
        { termFrequencies := st.termFrequencies ++ [freq]
          hasUrlMatch := hasUrlMatch
          minFreq := if rarer then freq else st.minFreq
          rarestTermIndex := if rarer then some i else st.rarestTermIndex }
      match ExtractDynamicFeatures.scanTerms fuel start end_ urlStr terms (i + 1) st with
      | none => none
      | some (st, terms) => some (st, term :: terms)

/-- The relative positions of the other terms: `static_cast<int>(i) -
static_cast<int>(rarestTermIndex)` stored as a `Location`. -/
def expectedPositionsOf (n rarestTermIndex : Nat) : List Nat :=
  ((List.range n).filter (fun i => i != rarestTermIndex)).map
    (fun i => (i + U32 - rarestTermIndex) % U32)

/-- The counters that the span loop of `ExtractDynamicFeatures` updates for one
occurrence `wp` of the rarest term and its best span. -/
def countSpan (features : DynamicFeatures) (span : Span) (wp : WordPost) (nTerms : Nat) :
    DynamicFeatures :=
  let features :=
    if span.isBoldHeading ∨ isBold wp ∨ isHeading wp then
      { features with boldHeadingCount := features.boldHeadingCount + 1 }
    else features
  let features :=
    if span.isExactPhrase then
      { features with exactPhraseCount := features.exactPhraseCount + 1 }
    else if span.isOrdered then
      { features with orderedCount := features.orderedCount + 1 }
    else if span.isClose then
      { features with closeCount := features.closeCount + 1 }
    else features
  let features :=
    if span.termCount = 2 then { features with doubleCount := features.doubleCount + 1 }
    else if span.termCount ≥ 3 ∨ nTerms = 1 then
      { features with tripleCount := features.tripleCount + 1 }
    else features
  let features :=
    if wp.startLocation ≤ TOP_POSITION_THRESHOLD then
      { features with topPositionSpans := features.topPositionSpans + 1 }
    else features
  { features with spans := features.spans ++ [span] }

/-- The `while (post && post->GetStartLocation() <= end)` loop of
`Ranker::ExtractDynamicFeatures` over the occurrences of the rarest term. -/
def ExtractDynamicFeatures.spanLoop (fuel : Nat) (index : IndexBlob) (end_ nTerms : Nat)
    (expectedPositions : List Nat) :
    Nat → Option Post → ISRWord → List ISRWord → DynamicFeatures →
      Option (DynamicFeatures × ISRWord × List ISRWord)
  | 0, _, _, _, _ => none
  | k + 1, post, rarestTerm, otherTerms, features =>
    match post with
    | some (Post.word wp) =>
      if wp.startLocation ≤ end_ then
        let rarestTermPos := wp.startLocation
        let features :=
          if features.firstSpanPosition = U32 - 1 then
            { features with firstSpanPosition := rarestTermPos }
          else features
        match FindBestSpan fuel index otherTerms rarestTermPos expectedPositions with
        | none => none
        | some (span, otherTerms) =>
          let features := countSpan features span wp nTerms
          match rarestTerm.NextInternal with
          | none => none
          | some (post, rarestTerm) =>
            ExtractDynamicFeatures.spanLoop fuel index end_ nTerms expectedPositions k post
              rarestTerm otherTerms features
      else some (features, rarestTerm, otherTerms)
    | some (Post.doc _) => none
    | none => some (features, rarestTerm, otherTerms)

/-- The state of the first loop of `ExtractDynamicFeatures` before the first
term. -/
def scanStart : TermScan :=
  { termFrequencies := [], hasUrlMatch := false, minFreq := U64 - 1, rarestTermIndex := none }

/-- The lower-cased URL that `ExtractDynamicFeatures` compares the keys with. -/
def urlStrOf (url : Option (List Nat)) : List Nat :=
  match url with
  | some u => (c_str u).map tolower
  | none => []

/-- `Ranker::ExtractDynamicFeatures(start, end, queryTerms, url)`; `url` is
`none` for the null pointer (the default argument). Returns the features and
the query terms as the call left them. -/
def ExtractDynamicFeatures (fuel : Nat) (index : IndexBlob) (start end_ : Nat)
    (queryTerms : List ISRWord) (url : Option (List Nat)) :
    Option (DynamicFeatures × List ISRWord) :=
  let features : DynamicFeatures :=
    { spans := [], exactPhraseCount := 0, orderedCount := 0, closeCount := 0, doubleCount := 0,
      tripleCount := 0, boldHeadingCount := 0, termFrequencies := [], topPositionSpans := 0,
      firstSpanPosition := U32 - 1, hasUrlMatch := false }
  if queryTerms = [] then some (features, queryTerms)
  else
    let urlStr : List Nat := urlStrOf url
    match ExtractDynamicFeatures.scanTerms fuel start end_ urlStr queryTerms 0 scanStart with
    | none => none
    | some (st, queryTerms) =>
      let features :=
        { features with termFrequencies := st.termFrequencies, hasUrlMatch := st.hasUrlMatch }
      match st.rarestTermIndex with
      | none => some (features, queryTerms)
      | some rarestTermIndex =>
        match queryTerms[rarestTermIndex]? with
        | none => none
        | some rarestTerm =>
          let otherTerms := queryTerms.eraseIdx rarestTermIndex
          let expectedPositions := expectedPositionsOf queryTerms.length rarestTermIndex
          match rarestTerm.Seek start with
          | none => none
          | some (post, rarestTerm) =>
            match ExtractDynamicFeatures.spanLoop fuel index end_ queryTerms.length
                expectedPositions fuel post rarestTerm otherTerms features with
            | none => none
            | some (features, rarestTerm, otherTerms) =>
              some (features,
                otherTerms.take rarestTermIndex ++ rarestTerm :: otherTerms.drop rarestTermIndex)

end Ranker

end SearchEngine

namespace SearchEngine

/-! ### Ranker scenarios and the per-document step of the worker -/

/-- One document on Locations `[11, 40]` with the word `r` at 20, `x` at 25 and
`y` at 22. -/
def segmentSpan : IndexBlob :=
  { dictionary := [(bytesOf "r", wordList [20]), (bytesOf "x", wordList [25]),
                   (bytesOf "y", wordList [22])]
    docEnd := docList [⟨11, 40, 0⟩] }

/-- One document on Locations `[11, 20]` whose title holds `cat`: the title
word is stored under the key `@cat`. -/
def segmentTitle : IndexBlob :=
  { dictionary := [(bytesOf "@cat", wordList [11])]
    docEnd := docList [⟨11, 20, 0⟩] }

/-- The title-list iterator of `cat` over `segmentTitle`, as `OpenISRWord("@cat")`
returns it. -/
def titleTermCat : ISRWord :=
  { plist := wordList [11], data := 0, currLocation := 0, current := none,
    isr_doc := segmentTitle.OpenISREndDoc, key := bytesOf "@cat", syn_word := false }

namespace Ranker

variable {S : Type} [LinearOrderedField S]

/-- `Ranker::OPTIMAL_TITLE_LENGTH`. -/
def OPTIMAL_TITLE_LENGTH : S := 10
/-- `Ranker::STATIC_THRESHOLD`. -/
def STATIC_THRESHOLD : S := 0.25
/-- `Ranker::DYNAMIC_THRESHOLD`. -/
def DYNAMIC_THRESHOLD : S := 0.1
/-- `Ranker::SYN_WEIGHT`. -/
def SYN_WEIGHT : S := 0.4
/-- `Ranker::ORIGIN_WEIGHT`. -/
def ORIGIN_WEIGHT : S := 0.6
/-- `Ranker::MAX_DOCS`. -/
def MAX_DOCS : Nat := 100

/-- What the body of the loop of `Ranker::WorkerThread` computes for the
document it took from the root iterator, before it decides: the attributes it
reports, `static_features.titleLength`, the result of `CalculateStaticScore`,
and `TITLE_WEIGHT * titleScore + BODY_WEIGHT * bodyScore` for the original terms
(`dynamicScore`) and for the synonym terms (`newScore`). Scores are `double`s,
taken here from any linearly ordered field. -/
structure DocInputs (S : Type) where
  url : String
  title : String
  titleLength : Nat
  staticScore : S
  dynamicScore : S
  newScore : S

/-- The body of the `while (true)` loop of `Ranker::WorkerThread` after the
document has been taken: the two static cut-offs, the dynamic threshold with
its synonym pass, then `InsertResult` and the count of processed documents.
Returns the results, `processedDocs` and whether the loop breaks. -/
def WorkerThread.body (maxResults : Nat) (d : DocInputs S) (results : List (RankingResult S))
    (processedDocs : Nat) : Option (List (RankingResult S) × Nat × Bool) :=
  if (d.titleLength : S) > OPTIMAL_TITLE_LENGTH * 4 then some (results, processedDocs, false)
  else if d.staticScore < STATIC_THRESHOLD then some (results, processedDocs, false)
  else
    let dynamicScore :=
      if d.dynamicScore < DYNAMIC_THRESHOLD then
        d.newScore * SYN_WEIGHT + d.dynamicScore * ORIGIN_WEIGHT
      else d.dynamicScore
    if d.dynamicScore < DYNAMIC_THRESHOLD ∧ dynamicScore < DYNAMIC_THRESHOLD then
      some (results, processedDocs, false)
    else
      let finalScore := dynamicScore * 0.75 + d.staticScore * 0.25
      match InsertResult maxResults results
          { url := d.url, title := d.title, score := finalScore } with
      | none => none
      | some results =>
        let processedDocs := (processedDocs + 1) % U32
        some (results, processedDocs, decide (processedDocs ≥ MAX_DOCS))

/-- The loop of `Ranker::WorkerThread` over the documents the root iterator
yields, in the order in which their results are inserted. -/
def WorkerThread.loop (maxResults : Nat) :
    List (DocInputs S) → List (RankingResult S) → Nat → Option (List (RankingResult S) × Nat)
  | [], results, processedDocs => some (results, processedDocs)
  | d :: docs, results, processedDocs =>
    match WorkerThread.body maxResults d results processedDocs with
    | none => none
    | some (results, processedDocs, true) => some (results, processedDocs)
    | some (results, processedDocs, false) =>
      WorkerThread.loop maxResults docs results processedDocs

end Ranker

end SearchEngine

namespace SearchEngine

/-! ### Adding a parsed page to the in-memory index (Indexer.hpp, HashBlob.h)

The hash tables `urlsToID` and `dictionary` are represented by association
lists keyed by C strings, with `Find(k, v)` as find-or-insert. The `TLD` of a
document and the anchor links are left out. -/

/-- `struct DocumentAttributes` (without `TLD`). -/
structure DocumentAttributes where
  url : List Nat
  title : Option (List Nat)
  wordCount : Nat
  urlLength : Nat
  titleLength : Nat
  startLocation : Nat
  endLocation : Nat
  english : Bool
  deriving DecidableEq, Repr

/-- `DocumentAttributes(const char* url)`. -/
def DocumentAttributes.new (url : List Nat) : DocumentAttributes :=
  { url := c_str url, title := none, wordCount := 0, urlLength := 0, titleLength := 0,
    startLocation := 0, endLocation := 0, english := true }

/-- `struct URLTable`. -/
structure URLTable where
  urlsToID : List (List Nat × Nat)
  docAttributes : List DocumentAttributes
  deriving DecidableEq, Repr

namespace URLTable

/-- `URLTable::AddURL`: the id of the URL, a new one (the next index of
`docAttributes`) when the URL is not in `urlsToID` yet. -/
def AddURL (t : URLTable) (url : List Nat) : Nat × URLTable :=
  let id := t.docAttributes.length % U32
  match t.urlsToID.find? (fun e => decide (e.1 = c_str url)) with
  | some entry =>
    if entry.2 = id then
      (entry.2, { t with docAttributes := t.docAttributes ++ [DocumentAttributes.new url] })
    else (entry.2, t)
  | none =>
    (id, { urlsToID := t.urlsToID ++ [(c_str url, id)]
           docAttributes := t.docAttributes ++ [DocumentAttributes.new url] })

/-- The `else` branch of `URLTable::AddURL`: the table already has the URL under
another id, and `free((void*) url)` releases the caller's copy. -/
def AddURL.frees (t : URLTable) (url : List Nat) : Bool :=
  match t.urlsToID.find? (fun e => decide (e.1 = c_str url)) with
  | some entry => decide (entry.2 ≠ t.docAttributes.length % U32)
  | none => false

/-- `URLTable::SetDocumentAttributes`; every number is a `uint32_t`. -/
def SetDocumentAttributes (t : URLTable) (title : List Nat)
    (urlId wordCount urlLength titleLength startLocation endLocation : Nat) (english : Bool) :
    URLTable :=
  match t.docAttributes[urlId]? with
  | some attrs =>
    let attrs1 : DocumentAttributes :=
      { attrs with wordCount := wordCount, urlLength := urlLength, titleLength := titleLength,
                   title := some title, startLocation := startLocation,
                   endLocation := endLocation, english := english }
    { t with docAttributes := t.docAttributes.set urlId attrs1 }
  | none => t

end URLTable

/-- `struct WFs` of the parser: a word and its flags. -/
structure WFs where
  word : List Nat
  flags : Nat
  deriving DecidableEq, Repr

/-- The fields of `class HtmlParser` that `Index::Insert` reads. -/
structure HtmlParser where
  words_flags : List WFs
  titleWords : List (List Nat)
  title_chunk : List Nat
  pageURL : List Nat
  english : Bool
  deriving DecidableEq, Repr

/-- `struct Index`. -/
structure Index where
  WordsInIndex : Nat
  DocumentsInIndex : Nat
  LocationsInIndex : Nat
  MaximumLocation : Nat
  urlTable : URLTable
  dictionary : List (List Nat × PostingList)
  docEnd : PostingList
  deriving DecidableEq, Repr

namespace Index

/-- `Index::Index()`. -/
def new : Index :=
  { WordsInIndex := 0, DocumentsInIndex := 0, LocationsInIndex := 0, MaximumLocation := 0,
    urlTable := { urlsToID := [], docAttributes := [] }, dictionary := [],
    docEnd := PostingList.empty }

/-- The common body of `AddTitle` and `AddWord` after the post has been built:
find or create the posting list of `token`, append the post, count it. -/
def addPost (idx : Index) (token : List Nat) (post : WordPost) : Option Index :=
  match idx.dictionary.find? (fun e => decide (e.1 = c_str token)) with
  | none =>
    (PostingList.empty.AddWordPost post).map (fun list =>
      { idx with dictionary := idx.dictionary ++ [(c_str token, list)]
                 WordsInIndex := (idx.WordsInIndex + 1) % U32
                 LocationsInIndex := (idx.LocationsInIndex + 1) % U32 })
  | some entry =>
    (entry.2.AddWordPost post).map (fun list =>
      { idx with dictionary := idx.dictionary.map
                   (fun e => if e.1 = c_str token then (e.1, list) else e)
                 LocationsInIndex := (idx.LocationsInIndex + 1) % U32 })

/-- `Index::AddTitle(token, nextLocation)`: the key is `"@" + token`. -/
def AddTitle (idx : Index) (token : List Nat) (nextLocation : Nat) : Option (Index × Nat) :=
  (idx.addPost (64 :: token) { startLocation := nextLocation, flags := 0 }).map
    (fun idx1 => (idx1, (nextLocation + 1) % U32))

/-- `Index::AddWord(token, flags, nextLocation)`. -/
def AddWord (idx : Index) (token : List Nat) (flags : Nat) (nextLocation : Nat) :
    Option (Index × Nat) :=
  (idx.addPost token { startLocation := nextLocation, flags := flags }).map
    (fun idx1 => (idx1, (nextLocation + 1) % U32))

/-- The loop over `parsedURL->titleWords`; `stem` is `Stemmer::stem`. -/
def addTitles (stem : List Nat → List Nat) : Index → List (List Nat) → Nat → Option (Index × Nat)
  | idx, [], nextLocation => some (idx, nextLocation)
  | idx, token :: rest, nextLocation =>
    if stem token = [] then addTitles stem idx rest nextLocation
    else
      match idx.AddTitle (stem token) nextLocation with
      | none => none
      | some r => addTitles stem r.1 rest r.2

/-- The loop over `parsedURL->words_flags`. -/
def addWords (stem : List Nat → List Nat) : Index → List WFs → Nat → Option (Index × Nat)
  | idx, [], nextLocation => some (idx, nextLocation)
  | idx, token :: rest, nextLocation =>
    if stem token.word = [] then addWords stem idx rest nextLocation
    else
      match idx.AddWord (stem token.word) token.flags nextLocation with
      | none => none
      | some r => addWords stem r.1 rest r.2

/-- The part of `Insert` after the early return: the Locations of the document,
its attributes, its document post and its title and word posts.
`totalLocationsNeeded` is a `size_t`; the Locations are `uint32_t`. When
`AddURL` has freed `keyCopyURL` (the URL was in the table already), the
`strlen(keyCopyURL)` that follows reads freed memory: the call is undefined. -/
def insertDocument (stem : List Nat → List Nat) (idx : Index) (parsedURL : HtmlParser) :
    Option Index :=
  if URLTable.AddURL.frees idx.urlTable parsedURL.pageURL then none else
  let totalLocationsNeeded :=
    (parsedURL.titleWords.length + parsedURL.words_flags.length + 2) % U64
  let startLocation := (idx.MaximumLocation + 1) % U32
  let MaximumLocation := (idx.MaximumLocation + totalLocationsNeeded) % U32
  let endLocation := (startLocation + totalLocationsNeeded + U64 - 1) % U64 % U32
  let added := idx.urlTable.AddURL parsedURL.pageURL
  let id := added.1
  let urlTable := added.2.SetDocumentAttributes (c_str parsedURL.title_chunk) id
    ((parsedURL.words_flags.length + parsedURL.titleWords.length) % U32)
    ((c_str parsedURL.pageURL).length % U32) (parsedURL.titleWords.length % U32)
    startLocation endLocation parsedURL.english
  (idx.docEnd.AddDocumentPost
      { startLocation := startLocation, endLocation := endLocation, docId := id }).bind
    (fun docEnd =>
      (addTitles stem
          { idx with MaximumLocation := MaximumLocation, urlTable := urlTable, docEnd := docEnd
                     DocumentsInIndex := (idx.DocumentsInIndex + 1) % U32
                     LocationsInIndex := (idx.LocationsInIndex + 1) % U32 }
          parsedURL.titleWords startLocation).bind
        (fun r2 => (addWords stem r2.1 parsedURL.words_flags r2.2).map (fun r3 => r3.1)))

/-- `Index::Insert(parsedURL)`; `AddAnchor` is an empty placeholder in the source. -/
def Insert (stem : List Nat → List Nat) (idx : Index) (parsedURL : HtmlParser) : Option Index :=
  if parsedURL.titleWords.length ≥ 40 then some idx
  else insertDocument stem idx parsedURL

/-- A sequence of `Insert` calls. -/
def InsertAll (stem : List Nat → List Nat) : Index → List HtmlParser → Option Index
  | idx, [] => some idx
  | idx, page :: rest =>
    match idx.Insert stem page with
    | none => none
    | some idx1 => InsertAll stem idx1 rest

/-- What `Insert` records for a document: a range of `wordCount + 2` Locations,
where `wordCount` counts the title words too. -/
def DocRangeOK (a : DocumentAttributes) : Prop :=
  a.startLocation ≤ a.endLocation ∧ a.endLocation - a.startLocation + 1 = a.wordCount + 2 ∧
    a.titleLength ≤ a.wordCount ∧ a.titleLength < 40

/-- The Locations a sequence of pages asks for. -/
def locationsNeeded (pages : List HtmlParser) : Nat :=
  (pages.map (fun p => p.titleWords.length + p.words_flags.length + 2)).sum

/-- The invariant of the URL table kept by `Insert`. -/
structure TableOK (idx : Index) : Prop where
  ranges : ∀ a ∈ idx.urlTable.docAttributes, DocRangeOK a
  ids : ∀ e ∈ idx.urlTable.urlsToID, e.2 < idx.urlTable.docAttributes.length
  count : idx.urlTable.docAttributes.length ≤ idx.MaximumLocation

/-- Every post of the list lies in the range of a stored document. -/
def PostsInside (docs : List DocumentAttributes) (posts : List WordPost) : Prop :=
  ∀ q ∈ posts, ∃ a ∈ docs, a.startLocation ≤ q.startLocation ∧ q.startLocation ≤ a.endLocation

/-- Every post of the list lies in the range of a stored document, before its
last two Locations. -/
def PostsBeforeEnd (docs : List DocumentAttributes) (posts : List WordPost) : Prop :=
  ∀ q ∈ posts, ∃ a ∈ docs, a.startLocation ≤ q.startLocation ∧ q.startLocation + 2 ≤ a.endLocation

/-- The dictionary invariant of `Insert`: the keys are distinct and every posting
list was appended from strictly increasing posts below `next`, each inside a
stored document and before its last two Locations. -/
structure DictOK (dict : List (List Nat × PostingList)) (docs : List DocumentAttributes)
    (next : Nat) : Prop where
  keys : (dict.map Prod.fst).Nodup
  lists : ∀ e ∈ dict, ∃ posts, PostingList.empty.AddWordPosts posts = some e.2 ∧
    (posts.map WordPost.startLocation).Pairwise (· < ·) ∧
    (∀ q ∈ posts, q.startLocation < next) ∧ PostsBeforeEnd docs posts

/-- The document post that `Insert` appends for the document with these
attributes. -/
def DocPostOf (d : DocumentPost) (a : DocumentAttributes) : Prop :=
  d.startLocation = a.startLocation ∧ d.endLocation = a.endLocation ∧ d.docId < U32

/-- The invariant of the whole index kept by `Insert` for distinct URLs. -/
structure SegmentOK (idx : Index) : Prop where
  ids : ∀ e ∈ idx.urlTable.urlsToID, e.2 < idx.urlTable.docAttributes.length
  count : idx.urlTable.docAttributes.length ≤ idx.MaximumLocation
  ordered : idx.urlTable.docAttributes.Pairwise (fun a b => a.endLocation < b.startLocation)
  ranges : ∀ a ∈ idx.urlTable.docAttributes,
    0 < a.startLocation ∧ a.startLocation ≤ a.endLocation ∧ a.endLocation ≤ idx.MaximumLocation
  dict : DictOK idx.dictionary idx.urlTable.docAttributes (idx.MaximumLocation + 1)
  docEnd : ∃ docs, PostingList.empty.AddDocumentPosts docs = some idx.docEnd ∧
    List.Forall₂ DocPostOf docs idx.urlTable.docAttributes

/-- The posting list that the dictionary holds for `key`, the empty list when
it has none. -/
def listOf (idx : Index) (key : List Nat) : PostingList :=
  match idx.dictionary.find? (fun e => decide (e.1 = key)) with
  | some entry => entry.2
  | none => PostingList.empty

end Index

/-- A page with the three title words `a b c` and no body words. -/
def pageThreeTitleWords : HtmlParser :=
  { words_flags := [], titleWords := [bytesOf "a", bytesOf "b", bytesOf "c"],
    title_chunk := bytesOf "a b c", pageURL := bytesOf "http://x.org", english := true }

/-- A page with the title `a b` and the body `c d e`. -/
def pageTwoTitleWords : HtmlParser :=
  { words_flags := [⟨bytesOf "c", 0⟩, ⟨bytesOf "d", 1⟩, ⟨bytesOf "e", 0⟩],
    titleWords := [bytesOf "a", bytesOf "b"],
    title_chunk := bytesOf "a b", pageURL := bytesOf "http://y.org", english := true }

end SearchEngine

namespace SearchEngine

/-- Skip entry `a` is not after skip entry `b`, in offset and in location. -/
def SkipEntry.Before (a b : SkipEntry) : Prop :=
  a.Offset ≤ b.Offset ∧ a.PostLocation ≤ b.PostLocation

instance (a b : SkipEntry) : Decidable (SkipEntry.Before a b) := by
  unfold SkipEntry.Before; infer_instance

/-- Three documents of five, five and four Locations. -/
def sampleDocs : List DocumentPost := [⟨1, 5, 0⟩, ⟨6, 10, 1⟩, ⟨11, 14, 2⟩]

end SearchEngine

namespace SearchEngine

/-- The cursor of a word iterator stands on the boundary before post `k` of the
list it reads, and its current post, if any, is post `k - 1`. -/
structure WordCursorK (w : ISRWord) (posts : List WordPost) (k : Nat) : Prop where
  pos : WordCursorAt w posts k
  cur : w.current = none ∨ (0 < k ∧ posts[k - 1]? = w.current)

namespace Ranker

/-- What the span loop of `ExtractDynamicFeatures` adds to `topPositionSpans`
when it starts on the head of the list: the leading posts up to `end_` that lie
at or below `TOP_POSITION_THRESHOLD`. -/
def topCount (end_ : Nat) : List WordPost → Nat
  | [] => 0
  | p :: ps =>
    if p.startLocation ≤ end_ then
      (if p.startLocation ≤ TOP_POSITION_THRESHOLD then 1 else 0) + topCount end_ ps
    else 0

/-- The number of posts of the list inside `[start, end_]` whose Location is at
most `TOP_POSITION_THRESHOLD`. -/
def topOccurrences (start end_ : Nat) (posts : List WordPost) : Nat :=
  (posts.filter (fun p => decide (start ≤ p.startLocation ∧ p.startLocation ≤ end_
    ∧ p.startLocation ≤ TOP_POSITION_THRESHOLD))).length

/-- The cursor of the iterator has not passed a post at or after `start`: a
`Seek(start)` lands on the first such post of the list. -/
def NotPast (start : Nat) (w : ISRWord) (posts : List WordPost) : Prop :=
  seekCurrent start w.current posts = firstPostGE start posts

/-- The number of posts of the list inside `[start, end_]`. -/
def occurrences (start end_ : Nat) (posts : List WordPost) : Nat :=
  (posts.filter (fun p => decide (start ≤ p.startLocation ∧ p.startLocation ≤ end_))).length

/-- The number of leading posts of the list up to `end_`. -/
def leadCount (end_ : Nat) : List WordPost → Nat
  | [] => 0
  | p :: ps => if p.startLocation ≤ end_ then leadCount end_ ps + 1 else 0

/-- Term `r` is the rarest of the terms with these occurrence counts: its count
is the smallest count that is not zero, and it is the first term with that
count. -/
def IsRarest (counts : List Nat) (r : Nat) : Prop :=
  ∃ c, counts[r]? = some c ∧ 0 < c ∧ (∀ j cj : Nat, counts[j]? = some cj → cj = 0 ∨ c ≤ cj)
    ∧ (∀ j cj : Nat, j < r → counts[j]? = some cj → cj = 0 ∨ c < cj)

/-- What the first loop of `ExtractDynamicFeatures` holds after the terms with
these occurrence counts: no rarest term while every count is zero, else the
rarest term and its count. -/
def RarestSoFar (counts : List Nat) (st : TermScan) : Prop :=
  (∀ c ∈ counts, c < U32) ∧
    ((st.rarestTermIndex = none ∧ st.minFreq = U64 - 1 ∧ ∀ c ∈ counts, c = 0)
      ∨ ∃ r, st.rarestTermIndex = some r ∧ counts[r]? = some st.minFreq ∧ IsRarest counts r)

/-- `Ranker::SeekToDocStart(terms, docStart)`: every term is sought to the start
of the document. -/
def SeekToDocStart : List ISRWord → Nat → Option (List ISRWord)
  | [], _ => some []
  | term :: terms, docStart =>
    match term.Seek docStart with
    | none => none
    | some (_, term) => (SeekToDocStart terms docStart).map (fun ts => term :: ts)

end Ranker

end SearchEngine

namespace SearchEngine

/-! ### The static score (ranker/Ranker.cpp, lib/algorithm.h)

The `double`s are taken from any linearly ordered field. -/

/-- `enum class TLD` (HashBlob.h); `Io` is the enumerator `IO`. -/
inductive TLD where
  | UNKNOWN | GOV | EDU | ORG | COM | NET | Io | INFO | BIZ | XYZ | TOP | US | DEV
  deriving DecidableEq, Repr

section StaticScore

variable {S : Type} [LinearOrderedField S]

/-- `custom_exp` (lib/algorithm.h): clamped outside `[-20, 20]`, else the
degree-6 Horner polynomial of `|x|`, inverted for a negative `x`. -/
def custom_exp (x : S) : S :=
  if x > 20 then 485000000
  else if x < -20 then 206 / 100000000000
  else
    let negative := decide (x < 0)
    let x := if x < 0 then -x else x
    let result :=
      1 + x * (1 + x * (1 / 2 + x * (1 / 6 + x * (1 / 24 + x * (1 / 120 + x * (1 / 720))))))
    if negative then 1 / result else result

end StaticScore

namespace Ranker

variable {S : Type} [LinearOrderedField S]

/-- `struct StaticFeatures`. -/
structure StaticFeatures where
  wordCount : Nat
  urlLength : Nat
  tld : TLD
  titleLength : Nat
  english : Bool
  isUtilityPage : Bool
  deriving DecidableEq, Repr

/-- `struct QueryIntent`. -/
structure QueryIntent where
  isUtilityQuery : Bool
  mainTerm : List Nat
  modifiers : List (List Nat)
  deriving DecidableEq, Repr

/-- `Ranker::NON_ENGLISH_WEIGHT`. -/
def NON_ENGLISH_WEIGHT : S := 0.14
/-- `Ranker::UTILITY_PAGE_PENALTY`. -/
def UTILITY_PAGE_PENALTY : S := 0.15
/-- `Ranker::URL_LENGTH_WEIGHT`. -/
def URL_LENGTH_WEIGHT : S := 0.35
/-- `Ranker::TLD_WEIGHT`. -/
def TLD_WEIGHT : S := 0.35
/-- `Ranker::DOC_LENGTH_WEIGHT`. -/
def DOC_LENGTH_WEIGHT : S := 0.15
/-- `Ranker::TITLE_LENGTH_WEIGHT`. -/
def TITLE_LENGTH_WEIGHT : S := 0.15

/-- `Ranker::GetTLDScore`. -/
def GetTLDScore : TLD → S
  | TLD.GOV => 1
  | TLD.EDU => 0.95
  | TLD.ORG => 0.9
  | TLD.COM => 0.75
  | TLD.NET => 0.7
  | TLD.US => 0.7
  | TLD.Io => 0.6
  | TLD.DEV => 0.6
  | TLD.INFO => 0.4
  | TLD.BIZ => 0.3
  | TLD.XYZ => 0.2
  | TLD.TOP => 0.1
  | TLD.UNKNOWN => 0.05

/-- The `utilityTerms` of `Ranker::AnalyzeQueryIntent`. -/
def utilityTerms : List (List Nat) :=
  [bytesOf "privacy", bytesOf "terms", bytesOf "policy", bytesOf "legal", bytesOf "contact",
   bytesOf "about", bytesOf "cookies"]

/-- `Ranker::AnalyzeQueryIntent`: the first term is the main term, and the query
is a utility query when one of the other keys is a utility term. -/
def AnalyzeQueryIntent (queryTerms : List ISRWord) : QueryIntent :=
  match queryTerms with
  | [] => { isUtilityQuery := false, mainTerm := [], modifiers := [] }
  | t :: rest =>
    { isUtilityQuery := rest.any (fun m => utilityTerms.contains (c_str m.key))
      mainTerm := c_str t.key
      modifiers := rest.map (fun m => c_str m.key) }

/-- The `baseScore` of `Ranker::CalculateStaticScore` before the penalties. -/
def CalculateStaticScore.baseScore (features : StaticFeatures) : S :=
  let k_url : S := 0.02
  let urlScore : S := custom_exp (-k_url * (features.urlLength : S))
  let tldScore : S := GetTLDScore features.tld
  let optimalLength : S := 600
  let lengthDiff : S := (features.wordCount : S) - optimalLength
  let docLengthScore : S := 1 / (1 + (lengthDiff * lengthDiff) / 250000)
  let k_title : S := 0.08
  let titleDiff : S :=
    if (features.titleLength : S) > OPTIMAL_TITLE_LENGTH then
      (features.titleLength : S) - OPTIMAL_TITLE_LENGTH
    else 0
  let titleLengthScore : S := custom_exp (-k_title * titleDiff)
  (urlScore * URL_LENGTH_WEIGHT) + (tldScore * TLD_WEIGHT) + (docLengthScore * DOC_LENGTH_WEIGHT)
    + (titleLengthScore * TITLE_LENGTH_WEIGHT)

/-- `Ranker::CalculateStaticScore`. -/
def CalculateStaticScore (features : StaticFeatures) (queryTerms : List ISRWord) : S :=
  let baseScore : S := CalculateStaticScore.baseScore features
  let baseScore := if features.english = false then baseScore * NON_ENGLISH_WEIGHT else baseScore
  let queryIntent := AnalyzeQueryIntent queryTerms
  if features.isUtilityPage = true ∧ queryIntent.isUtilityQuery = false then
    baseScore * UTILITY_PAGE_PENALTY
  else baseScore

/-- A short non-English page on a `.gov` host. -/
def sampleStaticFeatures : StaticFeatures :=
  { wordCount := 600, urlLength := 0, tld := TLD.GOV, titleLength := 5, english := false,
    isUtilityPage := false }

end Ranker

end SearchEngine

namespace SearchEngine

/-! ### The query compiler's merge of per-shard results (query/query.cpp) -/

namespace Query

variable {S : Type} [LinearOrder S]

/-- `struct SearchResult` (query.h). -/
structure SearchResult (S : Type) where
  url : String
  title : String
  score : S
  deriving DecidableEq, Repr

/-- A results vector sorted by non-increasing score. -/
def SortedDesc (results : List (SearchResult S)) : Prop :=
  results.Pairwise (fun a b => b.score ≤ a.score)

instance (results : List (SearchResult S)) : Decidable (SortedDesc results) := by
  unfold SortedDesc; infer_instance

/-- The `for (int i = 0; i < k; ++i)` loop of `mergeSortedArrays`, from index `i`
on: the head of a list that is not exhausted replaces the minimum when its score
is strictly smaller. `minArray` is `none` for `-1`. -/
def mergeSortedArrays.scan :
    List (List (SearchResult S)) → List Nat → Nat → S → Option Nat → S × Option Nat
  | a :: arrays, j :: indices, i, minVal, minArray =>
    match a[j]? with
    | some x =>
      if x.score < minVal then mergeSortedArrays.scan arrays indices (i + 1) x.score (some i)
      else mergeSortedArrays.scan arrays indices (i + 1) minVal minArray
    | none => mergeSortedArrays.scan arrays indices (i + 1) minVal minArray
  | _, _, _, minVal, minArray => (minVal, minArray)

/-- The `while (true)` loop of `mergeSortedArrays`. `maxVal` is
`std::numeric_limits<double>::max()`; `urls` is the `unordered_set` of the URLs
already in `result`. -/
def mergeSortedArrays.loop (maxVal : S) (arrays : List (List (SearchResult S))) :
    Nat → List Nat → List (SearchResult S) → List String → Option (List (SearchResult S))
  | 0, _, _, _ => none
  | n + 1, indices, result, urls =>
    match mergeSortedArrays.scan arrays indices 0 maxVal none with
    | (_, none) => some result
    | (_, some minArray) =>
      match arrays[minArray]?, indices[minArray]? with
      | some a, some j =>
        match a[j]? with
        | some x =>
          if x.url ∈ urls then
            mergeSortedArrays.loop maxVal arrays n (indices.set minArray (j + 1)) result urls
          else
            mergeSortedArrays.loop maxVal arrays n (indices.set minArray (j + 1))
              (result ++ [x]) (x.url :: urls)
        | none => none
      | _, _ => none

/-- `mergeSortedArrays(arrays)`; every round consumes one element, so one round
more than there are elements is enough. -/
def mergeSortedArrays (maxVal : S) (arrays : List (List (SearchResult S))) :
    Option (List (SearchResult S)) :=
  mergeSortedArrays.loop maxVal arrays (arrays.flatten.length + 1)
    (List.replicate arrays.length 0) [] []

end Query

end SearchEngine

namespace SearchEngine

/-- The `ISRSynOr` with both step counts 1 that has the children and the fields
of an `ISROr`. -/
def ISROr.toSynOr {α β : Type} (o : ISROr α β) : ISRSynOr α β :=
  { isr1 := o.isr1, isr2 := o.isr2, current := o.current, nearestTerm := o.nearestTerm,
    nearestStartLocation := o.nearestStartLocation, nearestEndLocation := o.nearestEndLocation,
    advanceRight := 1, advanceLeft := 1 }

/-- The fields `FindNearest` writes when it chooses the child `t` and its post
`p`. -/
def ISROr.setNearest {α β : Type} (o : ISROr α β) (t : Int) (p : Post) : ISROr α β :=
  { o with nearestTerm := t, nearestStartLocation := p.GetStartLocation,
           nearestEndLocation := p.GetEndLocation }

/-- The states an `ISROr` can be in: no method assigns `current`, and
`FindNearest` leaves `nearestTerm` at -1, 0 or 1. -/
def ISROr.Reachable {α β : Type} (o : ISROr α β) : Prop :=
  o.current = none ∧ (o.nearestTerm = -1 ∨ o.nearestTerm = 0 ∨ o.nearestTerm = 1)

end SearchEngine

namespace SearchEngine

/-! ### Documents selected by a container (NOT) iterator -/

/-- Document `D` holds a post of the list at a Location in `[D.start, D.end)`. -/
def hasPostBeforeEnd (posts : List WordPost) (D : DocumentPost) : Bool :=
  posts.any (fun p =>
    decide (D.startLocation ≤ p.startLocation ∧ p.startLocation < D.endLocation))

/-- The documents that contain a post of the included list and no post of the
excluded list at a Location in `[D.start, D.end)`. -/
def containerDocs (A B : List WordPost) (docs : List DocumentPost) : List DocumentPost :=
  docs.filter (fun D => hasPostIn A D && !hasPostBeforeEnd B D)

/-- Post `p` is the first post of the list in document `D`. -/
def FirstPostIn (A : List WordPost) (p : Post) (D : DocumentPost) : Prop :=
  ∃ q, p = Post.word q ∧ firstPostGE D.startLocation A = some q
    ∧ inDoc D q.startLocation

/-- An `ISRContainer` over two word iterators whose next `Next` call will look
for the first match at or after `T`: a fresh one (`T = 0`), or one that stands
on a post of the included child in a document that ends at `T - 1`, with the
excluded child on its first post at or after some earlier Location. -/
def ContainerReady (A B : List WordPost) (docs : List DocumentPost) (T : Nat)
    (c : ISRContainer ISRWord ISRWord) : Prop :=
  WordSync c.isr1 A docs ∧ WordCursorOK c.isr2 B
    ∧ ((T = 0 ∧ c.current = none ∧ c.isr1.current = none
          ∧ c.isr1.isr_doc.current = none ∧ c.isr2.current = none)
        ∨ ∃ D l t2, D ∈ docs ∧ c.current = some (Post.word l) ∧ c.isr1.current = some l
            ∧ inDoc D l.startLocation ∧ T = D.endLocation + 1
            ∧ c.isr2.current = firstPostGE t2 B ∧ t2 ≤ T)

end SearchEngine

namespace SearchEngine

/-! ### Progress of the match loops -/

/-- Number of posts of the list at or after the current post of an iterator; 0
when the iterator has no current post. -/
def postsLeft (posts : List WordPost) (cur : Option WordPost) : Nat :=
  match cur with
  | none => 0
  | some c => (posts.filter (fun p => decide (c.startLocation ≤ p.startLocation))).length

/-- A word iterator of a written segment between calls: its cursor stands on a
post boundary of its list and the cursor of its document iterator on a boundary
of the document list. Nothing is assumed about how the two relate. -/
def WordReads (w : ISRWord) (posts : List WordPost) (docs : List DocumentPost) : Prop :=
  WordCursorOK w posts ∧ DocCursorOK w.isr_doc docs

/-- A phrase iterator between calls: it has a first term that reads `l0`, and
its other terms read the lists `ls`. -/
def PhraseReads (p : ISRPhrase ISRWord) (l0 : List WordPost) (ls : List (List WordPost)) :
    Prop :=
  ∃ t0 ts, p.terms = t0 :: ts ∧ WordCursorOK t0 l0 ∧ List.Forall₂ WordCursorOK ts ls

/-- The current post of `terms[0]`. -/
def firstTermCurrent (p : ISRPhrase ISRWord) : Option WordPost :=
  match p.terms with
  | [] => none
  | t0 :: _ => t0.current

/-- The iterator stood on a post and now stands on a strictly later post, or has
none left. -/
def MovedOn (before after : Option WordPost) : Prop :=
  ∃ c, before = some c ∧ ∀ c1, after = some c1 → c.startLocation < c1.startLocation

/-- The loop `adv` (its first argument bounds the rounds) returns from state
`s` in its first round. -/
def ReturnsNow {σ : Type} (adv : Nat → σ → Option (Option Post × σ)) (s : σ) : Prop :=
  ∃ r, ∀ k, adv (k + 1) s = some r

/-- The first round of the loop `adv` from state `s` ends in state `s1`, from
which the loop goes on. -/
def ContinuesWith {σ : Type} (adv : Nat → σ → Option (Option Post × σ)) (s s1 : σ) : Prop :=
  ∀ k, adv (k + 1) s = adv k s1

namespace ISRContainer

variable {α β : Type} [ISR α] [ISR β]

/-- One round of the `while (true)` of `ISRContainer::AdvanceToMatch`: nothing
when a child call does not return, the result (left) when the round returns,
the state for the next round (right) when the included child has been moved
on with `Next`. -/
def AdvanceToMatch.round (f : Nat) (c : ISRContainer α β) :
    Option (Sum (Option Post × ISRContainer α β) (ISRContainer α β)) :=
  match ISR.GetCurrentPost c.isr1 with
  | none => some (.inl (none, { c with current := none }))
  | some includedPost =>
    match ISR.GetCurrentDoc f c.isr1 with
    | none => none
    | some (none, c1) => some (.inl (none, { c with isr1 := c1 }))
    | some (some docEnd, c1) =>
      match ISR.Seek f docEnd.GetStartLocation c.isr2 with
      | none => none
      | some (_, c2) =>
        let skip : Bool :=
          match ISR.GetCurrentPost c2 with
          | some excludedPost =>
            decide (excludedPost.GetStartLocation ≥ docEnd.GetStartLocation
              ∧ excludedPost.GetStartLocation < docEnd.GetEndLocation)
          | none => false
        if skip then
          match ISR.Next f c1 with
          | none => none
          | some (_, c1n) => some (.inr { c with isr1 := c1n, isr2 := c2 })
        else
          some (.inl (some includedPost,
            { isr1 := c1, isr2 := c2, current := some includedPost }))

/-- The state after `n` rounds of the loop none of which returns; nothing when
one of them returns or a child call does not return. -/
def AdvanceToMatch.rounds (f : Nat) : Nat → ISRContainer α β → Option (ISRContainer α β)
  | 0, c => some c
  | n + 1, c =>
    match AdvanceToMatch.round f c with
    | some (.inr c1) => AdvanceToMatch.rounds f n c1
    | _ => none

/-- The state in which `ISRContainer::Next` on a container without a current
post enters `AdvanceToMatch`: both children have been moved with `Next`. -/
def entered (fuel : Nat) (c : ISRContainer α β) : Option (ISRContainer α β) :=
  match ISR.Next fuel c.isr1 with
  | none => none
  | some (_, c1) =>
    match ISR.Next fuel c.isr2 with
    | none => none
    | some (_, c2) => some { c with isr1 := c1, isr2 := c2 }

end ISRContainer

/-- Ten three-word documents, document `i` on Locations `[3i + 1, 3i + 3]`. -/
def tenDocs : List DocumentPost := (List.range 10).map (fun i => ⟨3 * i + 1, 3 * i + 3, i⟩)

/-- A container whose included child is the synonym node of `cat` (documents 0,
4, 8) and `feline` (documents 1, 5, 9) with step counts 1 and 2, and whose
excluded child is a word that occurs in every document. -/
def synOrContainer : ISRContainer (ISRSynOr ISRWord ISRWord) ISRWord :=
  ISRContainer.new
    (ISRSynOr.new (wordIterator [1, 13, 25] tenDocs) (wordIterator [4, 16, 28] tenDocs) 1 2)
    (wordIterator ((List.range 10).map (fun i => 3 * i + 2)) tenDocs)

end SearchEngine

namespace SearchEngine

/-! ### `lib/UnorderedSet.h` -/

/-- A `char` converted by `static_cast<uint32_t>`: `char` is signed on the
target, so bytes from 128 on are sign-extended. -/
def charToU32 (b : Nat) : Nat := if b < 128 then b else b + (U32 - 256)

/-- `SetBucket<Key>`: one node of a chain. The chain itself is a list, so the
`next` pointer is not a field. `key` is the caller's C string. -/
structure SetBucket where
  hashValue : Nat
  key : List Nat
  deriving DecidableEq, Repr

/-- `UnorderedSet<const char*>`. `buckets` is the bucket array, each bucket the
list of the nodes of its chain (`nullptr` is the empty list), and `capacity` is
its length. `size` is a `size_t` that counts allocated nodes, so it cannot wrap.
`maxLoadFactor` (a `double` in the source, 2.0 by default) is a whole number. -/
structure UnorderedSet where
  buckets : List (List SetBucket)
  size : Nat
  maxLoadFactor : Nat
  maxBucketSize : Nat
  bucketSizeExceeded : Bool
  deriving DecidableEq, Repr

namespace UnorderedSet

/-- The member `capacity`. -/
def capacity (s : UnorderedSet) : Nat := s.buckets.length

/-- `UnorderedSet::HashFunction`: FNV-1a over the bytes of the C string. -/
def HashFunction (k : List Nat) : Nat :=
  (c_str k).foldl (fun hash b => ((hash ^^^ charToU32 b) * 16777619) % U32) 2166136261

/-- `UnorderedSet::KeyCompare`: `strcmp(a, b) == 0`. -/
def KeyCompare (a b : List Nat) : Bool := decide (c_str a = c_str b)

/-- `UnorderedSet::UnorderedSet`. -/
def new (initialCapacity : Nat) (loadFactor : Nat) (maxDepth : Nat) : UnorderedSet :=
  { buckets := List.replicate initialCapacity [], size := 0, maxLoadFactor := loadFactor,
    maxBucketSize := maxDepth, bucketSizeExceeded := false }

/-- The body of the `while (cur)` loop of `Rehash`: the node is pushed on the
front of its new bucket. `% newCapacity` with `newCapacity = 0` is undefined. -/
def Rehash.move (newBuckets : Option (List (List SetBucket))) (cur : SetBucket) :
    Option (List (List SetBucket)) :=
  newBuckets.bind (fun nb =>
    if nb.length = 0 then none
    else
      let newIndex := cur.hashValue % nb.length
      some (nb.set newIndex (cur :: nb.getD newIndex [])))

/-- `UnorderedSet::Rehash` with the default growth factor 1.75: the buckets are
visited in order and each chain from its head. -/
def Rehash (s : UnorderedSet) : Option UnorderedSet :=
  let newCapacity := s.capacity * 7 / 4
  (s.buckets.flatten.foldl Rehash.move (some (List.replicate newCapacity []))).map
    (fun newBuckets => { s with buckets := newBuckets, bucketSizeExceeded := false })

/-- `UnorderedSet::OptimizeInternal`: `size / capacity > maxLoadFactor` on
doubles is `size > maxLoadFactor * capacity`. -/
def OptimizeInternal (s : UnorderedSet) : Option UnorderedSet :=
  if s.size > s.maxLoadFactor * s.capacity ∨ s.bucketSizeExceeded = true then Rehash s
  else some s

/-- The `while (true)` loop of `Insert` from node `cur` with the nodes after it:
`none` when the key is found, else the depth of the last node. -/
def Insert.loop (rawHash : Nat) (key : List Nat) :
    SetBucket → List SetBucket → Nat → Option Nat
  | cur, rest, depth =>
    if cur.hashValue = rawHash ∧ KeyCompare cur.key key = true then none
    else
      match rest with
      | [] => some depth
      | next :: rest1 => Insert.loop rawHash key next rest1 (depth + 1)

/-- `UnorderedSet::Insert`; undefined when `capacity` is 0. -/
def Insert (s : UnorderedSet) (key : List Nat) : Option (Bool × UnorderedSet) :=
  if s.capacity = 0 then none
  else
    let rawHash := HashFunction key
    let hashIndex := rawHash % s.capacity
    match s.buckets[hashIndex]? with
    | none => none
    | some [] =>
      (OptimizeInternal { s with buckets := s.buckets.set hashIndex [⟨rawHash, key⟩],
                                 size := s.size + 1 }).map (fun s1 => (true, s1))
    | some (cur :: rest) =>
      match Insert.loop rawHash key cur rest 0 with
      | none => some (false, s)
      | some depth =>
        let s1 : UnorderedSet :=
          { s with buckets := s.buckets.set hashIndex ((cur :: rest) ++ [⟨rawHash, key⟩]),
                   size := s.size + 1 }
        if depth > s.maxBucketSize then
          (OptimizeInternal { s1 with bucketSizeExceeded := true }).map (fun s2 => (true, s2))
        else some (true, s1)

/-- The `while (bucket)` loop of `Contains`. -/
def Contains.loop (rawHash : Nat) (key : List Nat) : List SetBucket → Bool
  | [] => false
  | bucket :: rest =>
    if bucket.hashValue = rawHash ∧ KeyCompare bucket.key key = true then true
    else Contains.loop rawHash key rest

/-- `UnorderedSet::Contains`; undefined when `capacity` is 0. -/
def Contains (s : UnorderedSet) (key : List Nat) : Option Bool :=
  if s.capacity = 0 then none
  else
    let rawHash := HashFunction key
    (s.buckets[rawHash % s.capacity]?).map (Contains.loop rawHash key)

/-- The `while (curr)` loop of `Erase`: the chain without the first node that
holds the key, or `none` when no node holds it. -/
def Erase.loop (rawHash : Nat) (key : List Nat) : List SetBucket → Option (List SetBucket)
  | [] => none
  | curr :: rest =>
    if curr.hashValue = rawHash ∧ KeyCompare curr.key key = true then some rest
    else (Erase.loop rawHash key rest).map (fun rest1 => curr :: rest1)

/-- `UnorderedSet::Erase`; undefined when `capacity` is 0. -/
def Erase (s : UnorderedSet) (key : List Nat) : Option (Bool × UnorderedSet) :=
  if s.capacity = 0 then none
  else
    let rawHash := HashFunction key
    let hashIndex := rawHash % s.capacity
    match s.buckets[hashIndex]? with
    | none => none
    | some chain =>
      match Erase.loop rawHash key chain with
      | none => some (false, s)
      | some chain1 =>
        some (true, { s with buckets := s.buckets.set hashIndex chain1, size := s.size - 1 })

/-- `UnorderedSet::Size`. -/
def Size (s : UnorderedSet) : Nat := s.size

end UnorderedSet

/-- A call a client makes on a set. -/
inductive SetCall where
  | insert (key : List Nat)
  | erase (key : List Nat)
  | contains (key : List Nat)
  | size
  deriving DecidableEq, Repr

/-- What a call returns: a `bool`, or the `size_t` of `Size`. -/
inductive SetAnswer where
  | bool (b : Bool)
  | count (n : Nat)
  deriving DecidableEq, Repr

namespace UnorderedSet

/-- One call on the set. -/
def call (s : UnorderedSet) : SetCall → Option (SetAnswer × UnorderedSet)
  | .insert key => (s.Insert key).map (fun r => (.bool r.1, r.2))
  | .erase key => (s.Erase key).map (fun r => (.bool r.1, r.2))
  | .contains key => (s.Contains key).map (fun b => (.bool b, s))
  | .size => some (.count s.Size, s)

/-- A sequence of calls, with what each returned. -/
def run : List SetCall → UnorderedSet → Option (List SetAnswer × UnorderedSet)
  | [], s => some ([], s)
  | c :: cs, s =>
    (s.call c).bind (fun r => (run cs r.2).map (fun rs => (r.1 :: rs.1, rs.2)))

/-- The strings held by the nodes of the set. -/
def keys (s : UnorderedSet) : List (List Nat) := s.buckets.flatten.map (fun b => c_str b.key)

/-- Representation invariant: there is a bucket, every node sits in the bucket
of its hash and carries the hash of its key, no string is held twice, and
`size` counts the nodes. -/
structure WF (s : UnorderedSet) : Prop where
  cap : 0 < s.buckets.length
  place : ∀ i chain, s.buckets[i]? = some chain → ∀ b ∈ chain,
    b.hashValue = HashFunction b.key ∧ b.hashValue % s.buckets.length = i
  nodup : s.keys.Nodup
  count : s.size = s.buckets.flatten.length

end UnorderedSet

/-! ### The mathematical set of strings the spec speaks of -/

namespace StringSet

/-- One call on a mathematical set of strings, as the spec words it: `Insert`
returns whether the string was absent and adds it, `Erase` returns whether it
was present and removes it, `Contains` tells membership, `Size` is the number
of distinct strings. -/
def call (S : Finset (List Nat)) : SetCall → SetAnswer × Finset (List Nat)
  | .insert key => (.bool (decide (c_str key ∉ S)), insert (c_str key) S)
  | .erase key => (.bool (decide (c_str key ∈ S)), S.erase (c_str key))
  | .contains key => (.bool (decide (c_str key ∈ S)), S)
  | .size => (.count S.card, S)

/-- A sequence of calls on a mathematical set of strings. -/
def run : List SetCall → Finset (List Nat) → List SetAnswer × Finset (List Nat)
  | [], S => ([], S)
  | c :: cs, S => ((call S c).1 :: (run cs (call S c).2).1, (run cs (call S c).2).2)

end StringSet

/-- The calls of `lib/testing/unordered_set.cpp` on "apple", "banana", "cherry"
and "date", preceded and followed by further insertions that fill the table. -/
def sampleSetCalls : List SetCall :=
  [.size, .insert [97, 112, 112, 108, 101], .insert [98, 97, 110, 97, 110, 97],
    .insert [99, 104, 101, 114, 114, 121], .insert [97, 112, 112, 108, 101], .size,
    .contains [97, 112, 112, 108, 101], .contains [100, 97, 116, 101],
    .erase [98, 97, 110, 97, 110, 97], .size, .contains [98, 97, 110, 97, 110, 97],
    .erase [98, 97, 110, 97, 110, 97], .insert [100, 97, 116, 101], .insert [101],
    .insert [102], .size]

end SearchEngine

namespace SearchEngine

/-! ### `lib/HashTable.h`: the in-memory dictionary -/

/-- `HashFunction(k)` (lib/HashTable.h): FNV-1a over the bytes of the C string;
each `char` is converted by `static_cast<uint32_t>`. -/
def HashFunction (k : List Nat) : Nat :=
  (c_str k).foldl (fun hash b => ((hash ^^^ charToU32 b) * 16777619) % U32) 2166136261

/-- `Bucket<const char*, PostingList*>`: one node of a chain, with its tuple.
The value is a pointer, so the posting list it points to may change while the
node stays. -/
structure Bucket where
  hashValue : Nat
  key : List Nat
  value : Nat
  deriving DecidableEq, Repr

/-- `HashTable<const char*, PostingList*>` (`Hash`). `buckets` is the bucket
array, each bucket the list of the nodes of its chain, and `capacity` is its
length. `size` counts allocated nodes. `maxLoadFactor` (a `double` in the
source, 2.0 by default) is a whole number. -/
structure HashTable where
  buckets : List (List Bucket)
  size : Nat
  maxLoadFactor : Nat
  maxBucketSize : Nat
  bucketSizeExceeded : Bool
  deriving DecidableEq, Repr

namespace HashTable

/-- The member `capacity`. -/
def capacity (ht : HashTable) : Nat := ht.buckets.length

/-- `HashTable::KeyCompare`: `strcmp(a, b) == 0`. -/
def KeyCompare (a b : List Nat) : Bool := decide (c_str a = c_str b)

/-- `HashTable::HashTable`. -/
def new (initialCapacity : Nat) (loadFactor : Nat) (maxDepth : Nat) : HashTable :=
  { buckets := List.replicate initialCapacity [], size := 0, maxLoadFactor := loadFactor,
    maxBucketSize := maxDepth, bucketSizeExceeded := false }

/-- The body of the `while (cur)` loop of `Rehash`: the node is pushed on the
front of its new bucket. `% newCapacity` with `newCapacity = 0` is undefined. -/
def Rehash.move (newBuckets : Option (List (List Bucket))) (cur : Bucket) :
    Option (List (List Bucket)) :=
  newBuckets.bind (fun nb =>
    if nb.length = 0 then none
    else
      let newIndex := cur.hashValue % nb.length
      some (nb.set newIndex (cur :: nb.getD newIndex [])))

/-- `HashTable::Rehash` with the default growth factor 1.75. -/
def Rehash (ht : HashTable) : Option HashTable :=
  let newCapacity := ht.capacity * 7 / 4
  (ht.buckets.flatten.foldl Rehash.move (some (List.replicate newCapacity []))).map
    (fun newBuckets => { ht with buckets := newBuckets, bucketSizeExceeded := false })

/-- `HashTable::OptimizeInternal`. -/
def OptimizeInternal (ht : HashTable) : Option HashTable :=
  if ht.size > ht.maxLoadFactor * ht.capacity ∨ ht.bucketSizeExceeded = true then Rehash ht
  else some ht

/-- The `while` loop of `Find(k, initialValue)` from node `cur` with the nodes
after it: the node that holds the key (or `none` when a node has to be
appended), and `bucketDepth`. -/
def Find.loop (rawHash : Nat) (key : List Nat) :
    Bucket → List Bucket → Nat → Option Bucket × Nat
  | cur, rest, bucketDepth =>
    if cur.hashValue ≠ rawHash ∨ KeyCompare cur.key key = false then
      match rest with
      | [] => (none, bucketDepth)
      | next :: rest1 => Find.loop rawHash key next rest1 (bucketDepth + 1)
    else (some cur, bucketDepth)

/-- `HashTable::Find(k, initialValue)`: find the tuple of the key, or insert one
with the initial value. Returns the tuple; undefined when `capacity` is 0. -/
def Find (ht : HashTable) (k : List Nat) (initialValue : Nat) :
    Option ((List Nat × Nat) × HashTable) :=
  if ht.capacity = 0 then none
  else
    let rawHash := HashFunction k
    let hashIndex := rawHash % ht.capacity
    match ht.buckets[hashIndex]? with
    | none => none
    | some [] =>
      (OptimizeInternal { ht with size := ht.size + 1,
                                  buckets := ht.buckets.set hashIndex [⟨rawHash, k, initialValue⟩] }).map
        (fun ht1 => ((k, initialValue), ht1))
    | some (cur :: rest) =>
      let found := Find.loop rawHash k cur rest 0
      let ht1 : HashTable :=
        match found.1 with
        | some _ => ht
        | none =>
          { ht with size := ht.size + 1,
                    buckets := ht.buckets.set hashIndex
                      ((cur :: rest) ++ [⟨rawHash, k, initialValue⟩]) }
      let result : List Nat × Nat :=
        match found.1 with
        | some b => (b.key, b.value)
        | none => (k, initialValue)
      if found.2 > ht.maxBucketSize then
        (OptimizeInternal { ht1 with bucketSizeExceeded := true }).map (fun ht2 => (result, ht2))
      else some (result, ht1)

/-- A sequence of `Find(k, initialValue)` calls, as `Index::AddWord` makes them
while it builds the dictionary. -/
def insertAll (ht : HashTable) : List (List Nat × Nat) → Option HashTable
  | [] => some ht
  | e :: rest => (ht.Find e.1 e.2).bind (fun r => insertAll r.2 rest)

/-- The strings held by the nodes of the table. -/
def keys (ht : HashTable) : List (List Nat) := ht.buckets.flatten.map (fun b => c_str b.key)

/-- Representation invariant: there is a bucket, every node sits in the bucket
of its hash and carries the hash of its key, no string is held twice, and
`size` counts the nodes. -/
structure WF (ht : HashTable) : Prop where
  cap : 0 < ht.buckets.length
  place : ∀ i chain, ht.buckets[i]? = some chain → ∀ b ∈ chain,
    b.hashValue = HashFunction b.key ∧ b.hashValue % ht.buckets.length = i
  nodup : ht.keys.Nodup
  count : ht.size = ht.buckets.flatten.length

end HashTable

/-! ### `indexer/HashBlob.h`: the serialised dictionary

The blob is the list of its bytes; a pointer into it is an offset from `hb`. -/

/-- A `uint32_t` read from memory at `off`; reading outside the blob is
undefined. -/
def readU32 (mem : List Nat) (off : Nat) : Option Nat :=
  match mem[off]?, mem[off + 1]?, mem[off + 2]?, mem[off + 3]? with
  | some b0, some b1, some b2, some b3 => some (b0 + 256 * b1 + 65536 * b2 + 16777216 * b3)
  | _, _, _, _ => none

/-- The C string that starts at `off`; undefined when no NUL follows inside the
blob. -/
def strAt (mem : List Nat) (off : Nat) : Option (List Nat) :=
  if 0 ∈ mem.drop off then some (c_str (mem.drop off)) else none

namespace SerializedPostingList

/-- `SerializedPostingList::BytesRequired`. -/
def BytesRequired (plist : PostingList) : Nat :=
  let numPosts := plist.postCount
  let dynamicSkipCount := ComputeSkipCount numPosts
  let headerSize := (4 * 4 + dynamicSkipCount * 8) % U32
  let dataSize := plist.rawPostingData.length % U32
  RoundUp ((headerSize + dataSize) % U32) 4 % U32

/-- The bytes that `WriteWordPostingList` and `WriteDocumentPostingList` store
at `out`: the four header words, `skipCount` skip entries, the posting data. -/
def image (spl : SerializedPostingList) : List Nat :=
  memBytes 4 spl.bytes ++ memBytes 4 spl.postingDataSize ++ memBytes 4 spl.skipCount
    ++ memBytes 4 spl.postCount
    ++ ((spl.skipTable.take spl.skipCount).map
        (fun e => memBytes 4 e.Offset ++ memBytes 4 e.PostLocation)).flatten
    ++ spl.postingData

/-- The stores of `WriteWordPostingList(out, plist)` once the list is built;
`memcpy` of `skipCount` entries out of a shorter vector is undefined. -/
def store (mem : List Nat) (out : Nat) (spl : SerializedPostingList) : Option (List Nat) :=
  if spl.skipTable.length < spl.skipCount then none else writeBytes mem out spl.image

end SerializedPostingList

namespace SerialTuple

/-- `SerialTuple::Write(buffer, b)`: the records of one chain, then the sentinel
whose `Length` is 0. `heap` gives the posting list a value points to. Returns
the memory and one past the last byte of the sentinel. -/
def Write (heap : Nat → PostingList) : List Nat → Nat → List Bucket → Option (List Nat × Nat)
  | mem, buffer, [] => (writeBytes mem buffer (memBytes 4 0)).map (fun m => (m, buffer + 12))
  | mem, buffer, node :: rest =>
    let keyLen := ((c_str node.key).length + 1) % U32
    let recordSize := (4 + 4 + 4 + keyLen) % U32
    let baseSize := RoundUp recordSize 4 % U32
    let totalSize :=
      RoundUp ((baseSize + SerializedPostingList.BytesRequired (heap node.value)) % U32) 4 % U32
    (writeBytes mem buffer (memBytes 4 totalSize)).bind (fun m1 =>
    (writeBytes m1 (buffer + 8) (memBytes 4 node.hashValue)).bind (fun m2 =>
    (writeBytes m2 (buffer + 12) ((c_str node.key ++ [0]).take keyLen)).bind (fun m3 =>
    (if keyLen = 0 then none else writeBytes m3 (buffer + 12 + (keyLen - 1)) [0]).bind (fun m4 =>
    (if keyLen > 1 then SerializedPostingList.WriteWordPostingList (heap node.value)
      else SerializedPostingList.WriteDocumentPostingList (heap node.value)).bind (fun spl =>
    (SerializedPostingList.store m4 (buffer + baseSize) spl).bind (fun m5 =>
    (writeBytes m5 (buffer + 4) (memBytes 4 baseSize)).bind (fun m6 =>
    Write heap m6 (buffer + totalSize) rest)))))))

end SerialTuple

namespace HashBlob

/-- The `for` loop of `HashBlob::Write` over the buckets from index `i`:
`base` is the address of `hb`, which `RoundUp` aligns the write pointer
against. -/
def Write.loop (heap : Nat → PostingList) (base : Nat) :
    List (List Bucket) → Nat → List Nat → Nat → Option (List Nat)
  | [], _, mem, _ => some mem
  | bucket :: rest, i, mem, writePtr =>
    if bucket = [] then Write.loop heap base rest (i + 1) mem writePtr
    else
      let aligned := RoundUp (base + writePtr) 4 - base
      (writeBytes mem (16 + 4 * i) (memBytes 4 (aligned % U32))).bind (fun m1 =>
      (SerialTuple.Write heap m1 aligned bucket).bind (fun r =>
      Write.loop heap base rest (i + 1) r.1 r.2))

/-- `HashBlob::Write(hb, bytes, hashTable)` into the buffer `mem` at address
`base`. -/
def Write (heap : Nat → PostingList) (base : Nat) (mem : List Nat) (bytes : Nat)
    (hashTable : HashTable) : Option (List Nat) :=
  let numBuckets := hashTable.capacity % U32
  (writeBytes mem 0 (memBytes 4 3735928559)).bind (fun m1 =>
  (writeBytes m1 4 (memBytes 4 1)).bind (fun m2 =>
  (writeBytes m2 8 (memBytes 4 (bytes % U32))).bind (fun m3 =>
  (writeBytes m3 12 (memBytes 4 numBuckets)).bind (fun m4 =>
  (writeBytes m4 16 (List.replicate (numBuckets * 4) 0)).bind (fun m5 =>
  let headerSize := ((4 + numBuckets) * 4) % U32
  Write.loop heap base (hashTable.buckets.take numBuckets) 0 m5 headerSize)))))

/-- The `while (st->Length != 0)` loop of `HashBlob::Find` from the record at
`ptr`; the first argument bounds its rounds. -/
def Find.walk (mem : List Nat) (key : List Nat) : Nat → Nat → Option (Option Nat)
  | 0, _ => none
  | fuel + 1, ptr =>
    match readU32 mem ptr with
    | none => none
    | some length =>
      if length = 0 then some none
      else
        match strAt mem (ptr + 12) with
        | none => none
        | some stKey =>
          if stKey = c_str key then some (some ptr)
          else Find.walk mem key fuel (ptr + length)

/-- `HashBlob::Find(key)`: the offset of the matching `SerialTuple`, or
`nullptr`. Every record is at least one byte long, so the walk takes fewer
rounds than the blob has bytes. -/
def Find (mem : List Nat) (key : List Nat) : Option (Option Nat) :=
  match readU32 mem 12 with
  | none => none
  | some numberOfBuckets =>
    if numberOfBuckets = 0 then none
    else
      let hash := HashFunction key % numberOfBuckets
      match readU32 mem (16 + 4 * hash) with
      | none => none
      | some offset =>
        if offset = 0 then some none
        else Find.walk mem key (mem.length + 1) offset

/-- The record at offset `st` of the blob is a record for the string `key`: its
`Length` is not 0, its `HashValue` is the hash of the key and its `Key` is the
key. -/
def RecordOf (mem : List Nat) (st : Nat) (key : List Nat) : Prop :=
  (∃ length, readU32 mem st = some length ∧ length ≠ 0)
    ∧ readU32 mem (st + 8) = some (HashFunction key)
    ∧ strAt mem (st + 12) = some (c_str key)

end HashBlob

/-- The blob holds the bytes `bs` at offset `off`. -/
def Holds (mem : List Nat) (off : Nat) (bs : List Nat) : Prop :=
  ∀ j, j < bs.length → mem[off + j]? = bs[j]?

/-- The records of the nodes of `chain` lie in the blob one after the other from
offset `off`, each with its `Length`, `HashValue` and `Key`, followed by the
sentinel, all below `lim`. -/
def ChainAt (mem : List Nat) : Nat → List Bucket → Nat → Prop
  | off, [], lim => Holds mem off (memBytes 4 0) ∧ off + 4 ≤ lim
  | off, node :: rest, lim =>
    ∃ length, 0 < length ∧ length < U32 ∧ Holds mem off (memBytes 4 length)
      ∧ Holds mem (off + 8) (memBytes 4 node.hashValue)
      ∧ Holds mem (off + 12) (c_str node.key ++ [0])
      ∧ 12 + (c_str node.key).length + 1 ≤ length
      ∧ ChainAt mem (off + length) rest lim

/-- Three dictionary entries, "a", "b" and "cat", each with a pointer. -/
def sampleEntries : List (List Nat × Nat) := [([97], 1), ([98], 2), ([99, 97, 116], 3)]

/-- The posting list pointer `p` of the sample leads to: two posts, at `p` and
at `p + 5`. -/
def sampleHeap (p : Nat) : PostingList :=
  (PostingList.empty.AddWordPosts (postsAt [p, p + 5])).getD PostingList.empty

/-- The dictionary built from the sample entries in a table of two buckets. -/
def sampleTable : HashTable :=
  ((HashTable.new 2 1 0).insertAll sampleEntries).getD (HashTable.new 2 1 0)

/-- The sample dictionary written into a zeroed buffer of 180 bytes. -/
def sampleBlob : List Nat :=
  (HashBlob.Write sampleHeap 0 (List.replicate 180 0) 180 sampleTable).getD []

end SearchEngine

namespace SearchEngine

/-! ### A synonym node over two word iterators, call by call -/

/-- A word iterator between calls: its cursor and the cursor of its document
iterator stand on boundaries of their lists, its current post is `cur` and the
current document of its document iterator is `dcur`. -/
def WordAt (w : ISRWord) (posts : List WordPost) (docs : List DocumentPost)
    (cur : Option WordPost) (dcur : Option DocumentPost) : Prop :=
  WordCursorOK w posts ∧ DocCursorOK w.isr_doc docs ∧ w.current = cur ∧ w.isr_doc.current = dcur

/-- The child that `FindNearest` names for these current posts: 0 for the left
child, 1 for the right child, -1 when neither has a post. -/
def nearestOf (a b : Option WordPost) : Int :=
  match a, b with
  | none, none => -1
  | some _, none => 0
  | none, some _ => 1
  | some l, some r => if l.startLocation ≤ r.startLocation then 0 else 1

/-- A synonym node with step counts 1 (right) and 2 (left) over two word
iterators between calls. -/
structure SynOrAt (o : ISRSynOr ISRWord ISRWord) (A B : List WordPost)
    (docs : List DocumentPost) (ca : Option WordPost) (da : Option DocumentPost)
    (cb : Option WordPost) (db : Option DocumentPost) (nt : Int) : Prop where
  left : WordAt o.isr1 A docs ca da
  right : WordAt o.isr2 B docs cb db
  cur : o.current = none
  near : o.nearestTerm = nt
  advR : o.advanceRight = 1
  advL : o.advanceLeft = 2

/-- The part of `ISRSynOr::Next` after the seek past the current document: the
child that is not the nearer one is moved with `Next` `advance - 1` times. -/
def ISRSynOr.Next.advance (fuel : Nat) (o2 : ISRSynOr ISRWord ISRWord) :
    Option (Option Post × ISRSynOr ISRWord ISRWord) :=
  if o2.nearestTerm = 0 then
    match repeatCall (ISR.Next fuel) (o2.advanceRight - 1).toNat o2.isr2 with
    | none => none
    | some b => some (ISRSynOr.FindNearest { o2 with isr2 := b })
  else
    match repeatCall (ISR.Next fuel) (o2.advanceLeft - 1).toNat o2.isr1 with
    | none => none
    | some a => some (ISRSynOr.FindNearest { o2 with isr1 := a })

end SearchEngine

namespace SearchEngine

/-! ## Bytes and seven-bit groups -/

theorem byte_low7_or (m : Nat) (h : m < 128) : ((m ||| 0x80) % 256) = m + 128 := by
  revert m; decide

theorem byte_cont_and7F (m : Nat) (h : m < 128) : ((m + 128) &&& 0x7F) = m := by
  revert m; decide

theorem byte_cont_and80 (m : Nat) (h : m < 128) : ((m + 128) &&& 0x80) ≠ 0 := by
  revert m; decide

theorem byte_last_and7F (m : Nat) (h : m < 128) : (m &&& 0x7F) = m := by
  revert m; decide

theorem byte_last_and80 (m : Nat) (h : m < 128) : (m &&& 0x80) = 0 := by
  revert m; decide

theorem and7F_eq_mod (d : Nat) : (d &&& 0x7F) = d % 128 :=
  Nat.and_pow_two_sub_one_eq_mod d 7

theorem or_shift_eq_add (acc m shift : Nat) (h : acc < 2 ^ shift) :
    (acc ||| (m <<< shift)) = acc + m * 2 ^ shift := by
  rw [Nat.shiftLeft_eq, Nat.or_comm, Nat.mul_comm m, ← Nat.mul_add_lt_is_or h m, Nat.add_comm]

namespace SerializedPost

/-- The continuation byte written for a value of at least 128. -/
theorem encode_cont_byte (d : Nat) : (((d &&& 0x7F) ||| 0x80) % 256) = d % 128 + 128 := by
  rw [and7F_eq_mod]
  exact byte_low7_or _ (Nat.mod_lt _ (by norm_num))

theorem encode_loop_length_pos (fuel d : Nat) : 0 < (EncodeVarLengthDelta.loop fuel d).length := by
  cases fuel with
  | zero => simp [EncodeVarLengthDelta.loop]
  | succ n =>
    unfold EncodeVarLengthDelta.loop
    split <;> simp

theorem encode_loop_length_le (fuel d : Nat) :
    (EncodeVarLengthDelta.loop fuel d).length ≤ fuel + 1 := by
  induction fuel generalizing d with
  | zero => simp [EncodeVarLengthDelta.loop]
  | succ n ih =>
    unfold EncodeVarLengthDelta.loop
    split
    · have := ih (d >>> 7)
      simp only [List.length_cons]; omega
    · simp

/-- Decoding what the encoder loop wrote, whatever follows it in the buffer. -/
theorem decode_encode_loop (fuel : Nat) : ∀ (d acc shift i : Nat) (rest : List Nat),
    d < 2 ^ (7 * fuel) → shift < 32 → acc < 2 ^ shift → acc + d * 2 ^ shift < U32 →
    DecodeVarLengthDelta.loop (EncodeVarLengthDelta.loop fuel d ++ rest) acc shift i
      = some (acc + d * 2 ^ shift, i + (EncodeVarLengthDelta.loop fuel d).length) := by
  induction fuel with
  | zero =>
    intro d acc shift i rest hd hs hacc hb
    have hd0 : d = 0 := by simpa using hd
    subst hd0
    have hlt : acc < U32 := by omega
    simp [EncodeVarLengthDelta.loop, DecodeVarLengthDelta.loop, Nat.not_le.mpr hs,
      Nat.mod_eq_of_lt hlt]
  | succ n ih =>
    intro d acc shift i rest hd hs hacc hb
    unfold EncodeVarLengthDelta.loop
    by_cases hge : d ≥ 0x80
    · rw [if_pos hge, encode_cont_byte, List.cons_append]
      unfold DecodeVarLengthDelta.loop
      have hm : d % 128 < 128 := Nat.mod_lt _ (by norm_num)
      have hdiv : d = 128 * (d / 128) + d % 128 := (Nat.div_add_mod d 128).symm
      have hpow : 2 ^ (shift + 7) = 2 ^ shift * 128 := by rw [Nat.pow_add]
      have hdpos : 1 ≤ d / 128 := by
        have : (128:Nat) ≤ d := hge
        omega
      have hsplit : acc + d * 2 ^ shift
          = acc + d % 128 * 2 ^ shift + d / 128 * 2 ^ (shift + 7) := by
        rw [hpow]
        conv_lhs => rw [hdiv]
        ring
      have hpos : 0 < 2 ^ shift := Nat.two_pow_pos shift
      have hs7 : shift + 7 < 32 := by
        by_contra hcon
        have h32 : 2 ^ 32 ≤ 2 ^ (shift + 7) := Nat.pow_le_pow_right (by norm_num) (by omega)
        have : 2 ^ (shift + 7) ≤ d / 128 * 2 ^ (shift + 7) := Nat.le_mul_of_pos_left _ hdpos
        have hU : U32 = 2 ^ 32 := by norm_num [U32]
        omega
      have hacc1 : acc + d % 128 * 2 ^ shift < 2 ^ (shift + 7) := by
        rw [hpow]
        have : d % 128 * 2 ^ shift ≤ 127 * 2 ^ shift := Nat.mul_le_mul_right _ (by omega)
        omega
      have hlt1 : acc + d % 128 * 2 ^ shift < U32 := by
        rw [hsplit] at hb; omega
      have hd1 : d >>> 7 < 2 ^ (7 * n) := by
        rw [Nat.shiftRight_eq_div_pow]
        have : 2 ^ (7 * (n + 1)) = 2 ^ (7 * n) * 2 ^ 7 := by rw [← Nat.pow_add]; ring_nf
        rw [this] at hd
        exact Nat.div_lt_of_lt_mul (by rw [Nat.mul_comm]; exact hd)
      have hshr : d >>> 7 = d / 128 := by rw [Nat.shiftRight_eq_div_pow]
      rw [if_neg (Nat.not_le.mpr hs), byte_cont_and7F _ hm, or_shift_eq_add _ _ _ hacc,
        Nat.mod_eq_of_lt hlt1]
      simp only [byte_cont_and80 _ hm, if_false]
      rw [ih (d >>> 7) _ (shift + 7) (i + 1) rest hd1 hs7 hacc1 (by rw [hshr, ← hsplit]; exact hb)]
      rw [hshr, ← hsplit]
      simp only [List.length_cons]
      congr 2
      omega
    · rw [if_neg hge]
      have hlt : d < 128 := by
        have : ¬ (128:Nat) ≤ d := hge
        omega
      have hd256 : d % 256 = d := Nat.mod_eq_of_lt (by omega)
      rw [hd256]
      simp only [List.singleton_append, List.length_singleton]
      unfold DecodeVarLengthDelta.loop
      rw [if_neg (Nat.not_le.mpr hs), byte_last_and7F _ hlt, or_shift_eq_add _ _ _ hacc,
        Nat.mod_eq_of_lt hb]
      simp [byte_last_and80 _ hlt]

/-- Round trip of the variable-length code for a 32-bit value. -/
theorem decode_encode (d : Nat) (rest : List Nat) (h : d < U32) :
    DecodeVarLengthDelta (EncodeVarLengthDelta d ++ rest)
      = some (d, (EncodeVarLengthDelta d).length) := by
  have hU : U32 = 2 ^ 32 := by norm_num [U32]
  have := decode_encode_loop 5 d 0 0 0 rest (by rw [hU] at h; omega) (by norm_num)
    (by norm_num) (by simpa using h)
  simpa [DecodeVarLengthDelta, EncodeVarLengthDelta] using this

theorem bytesRequired_loop_eq (fuel : Nat) : ∀ (d b : Nat),
    BytesRequiredForDelta.loop fuel d (b + 1) = b + (EncodeVarLengthDelta.loop fuel d).length := by
  induction fuel with
  | zero => intro d b; simp [BytesRequiredForDelta.loop, EncodeVarLengthDelta.loop]
  | succ n ih =>
    intro d b
    unfold BytesRequiredForDelta.loop EncodeVarLengthDelta.loop
    split
    · rw [ih]; simp only [List.length_cons]; omega
    · simp

theorem bytesRequired_eq_length (d : Nat) :
    BytesRequiredForDelta d = (EncodeVarLengthDelta d).length := by
  have := bytesRequired_loop_eq 5 d 0
  simpa [BytesRequiredForDelta, EncodeVarLengthDelta] using this

theorem encode_length_pos (d : Nat) : 0 < (EncodeVarLengthDelta d).length :=
  encode_loop_length_pos 5 d

theorem encode_length_le (d : Nat) : (EncodeVarLengthDelta d).length ≤ 6 :=
  encode_loop_length_le 5 d

end SerializedPost

end SearchEngine

namespace SearchEngine

open SerializedPost

/-! ## Word posts: one post, then a whole list -/

theorem u32_sub_add (a b : Nat) (ha : a < U32) (hb : b < U32) :
    (b + (a + U32 - b) % U32) % U32 = a := by
  unfold U32 at *
  omega

theorem serializeWordPost_length (p : WordPost) (prev : Nat) :
    (SerializeWordPost p prev).length
      = (EncodeVarLengthDelta ((p.startLocation + U32 - prev) % U32)).length + 1 := by
  simp [SerializeWordPost]

theorem serializeWordPost_length_ge (p : WordPost) (prev : Nat) :
    2 ≤ (SerializeWordPost p prev).length := by
  rw [serializeWordPost_length]
  have := encode_length_pos ((p.startLocation + U32 - prev) % U32)
  omega

theorem serializeWordPost_length_le (p : WordPost) (prev : Nat) :
    (SerializeWordPost p prev).length ≤ 7 := by
  rw [serializeWordPost_length]
  have := encode_length_le ((p.startLocation + U32 - prev) % U32)
  omega

theorem bytesRequiredForWordPost_eq (p : WordPost) (prev : Nat) :
    BytesRequiredForWordPost p prev = (SerializeWordPost p prev).length := by
  simp [BytesRequiredForWordPost, bytesRequired_eq_length, SerializeWordPost]

/-- `DeserializeWordPost` inverts `SerializeWordPost`, whatever follows in the
buffer. -/
theorem deserialize_serializeWordPost (p : WordPost) (prev : Nat) (rest : List Nat)
    (hp : p.startLocation < U32) (hprev : prev < U32) :
    DeserializeWordPost (SerializeWordPost p prev ++ rest) prev
      = some (p, (SerializeWordPost p prev).length, p.startLocation) := by
  have hd : (p.startLocation + U32 - prev) % U32 < U32 := Nat.mod_lt _ (by norm_num [U32])
  unfold DeserializeWordPost
  have henc : SerializeWordPost p prev ++ rest
      = EncodeVarLengthDelta ((p.startLocation + U32 - prev) % U32) ++ (p.flags :: rest) := by
    simp [SerializeWordPost]
  rw [henc, decode_encode _ _ hd]
  simp only [u32_sub_add _ _ hp hprev]
  rw [List.get?_eq_getElem?, List.getElem?_append_right (Nat.le_refl _)]
  simp [SerializeWordPost]

theorem encodeWordPosts_append (prev : Nat) (a b : List WordPost) :
    encodeWordPosts prev (a ++ b)
      = encodeWordPosts prev a ++ encodeWordPosts (lastLocation prev a) b := by
  induction a generalizing prev with
  | nil => simp [encodeWordPosts, lastLocation]
  | cons p ps ih => simp [encodeWordPosts, lastLocation, ih]

theorem lastLocation_append (prev : Nat) (a b : List WordPost) :
    lastLocation prev (a ++ b) = lastLocation (lastLocation prev a) b := by
  induction a generalizing prev with
  | nil => simp [lastLocation]
  | cons p ps ih => simp [lastLocation, ih]

theorem lastLocation_lt (prev : Nat) (a : List WordPost) (hprev : prev < U32)
    (h : ∀ p ∈ a, p.startLocation < U32) : lastLocation prev a < U32 := by
  induction a generalizing prev with
  | nil => simpa [lastLocation] using hprev
  | cons p ps ih =>
    simp only [lastLocation]
    exact ih _ (h p (List.mem_cons_self _ _)) (fun q hq => h q (List.mem_cons_of_mem _ hq))

theorem encodeWordPosts_length_ge (prev : Nat) (a : List WordPost) :
    2 * a.length ≤ (encodeWordPosts prev a).length := by
  induction a generalizing prev with
  | nil => simp [encodeWordPosts]
  | cons p ps ih =>
    have h1 := serializeWordPost_length_ge p prev
    have h2 := ih p.startLocation
    simp only [encodeWordPosts, List.length_append, List.length_cons]
    omega

theorem encodeWordPosts_length_le (prev : Nat) (a : List WordPost) :
    (encodeWordPosts prev a).length ≤ 7 * a.length := by
  induction a generalizing prev with
  | nil => simp [encodeWordPosts]
  | cons p ps ih =>
    have h1 := serializeWordPost_length_le p prev
    have h2 := ih p.startLocation
    simp only [encodeWordPosts, List.length_append, List.length_cons]
    omega

/-- Sequential decoding of a reference encoding gives the posts back and
consumes every byte. -/
theorem decodeWordPosts_encode (fuel : Nat) : ∀ (prev : Nat) (posts : List WordPost),
    posts.length < fuel → prev < U32 → (∀ p ∈ posts, p.startLocation < U32) →
    decodeWordPosts fuel (encodeWordPosts prev posts) prev
      = some (posts, (encodeWordPosts prev posts).length) := by
  induction fuel with
  | zero => intro prev posts h; omega
  | succ n ih =>
    intro prev posts hlen hprev hp
    cases posts with
    | nil => simp [decodeWordPosts, encodeWordPosts]
    | cons p ps =>
      have hp0 : p.startLocation < U32 := hp p (List.mem_cons_self _ _)
      have hne : encodeWordPosts prev (p :: ps) ≠ [] := by
        intro h
        have := serializeWordPost_length_ge p prev
        have h2 := congrArg List.length h
        simp only [encodeWordPosts, List.length_append, List.length_nil] at h2
        omega
      unfold decodeWordPosts
      rw [if_neg hne]
      simp only [encodeWordPosts]
      rw [deserialize_serializeWordPost p prev _ hp0 hprev]
      simp only [List.drop_left]
      rw [ih p.startLocation ps (by simpa using hlen) hp0
        (fun q hq => hp q (List.mem_cons_of_mem _ hq))]
      simp

/-! ## `PostingList::AddWordPost` -/

theorem vectorResize_grow (v : List Nat) (n : Nat) :
    vectorResize v (v.length + n) = v ++ List.replicate n 0 := by
  simp [vectorResize, List.take_of_length_le]

theorem writeBytes_at_end (v bytes : List Nat) :
    writeBytes (v ++ List.replicate bytes.length 0) v.length bytes = some (v ++ bytes) := by
  simp [writeBytes]

theorem writeBytes_some_le (buffer : List Nat) (off : Nat) (bytes out : List Nat)
    (h : writeBytes buffer off bytes = some out) : off + bytes.length ≤ buffer.length := by
  unfold writeBytes at h
  split at h
  · assumption
  · cases h

theorem vectorResize_length (v : List Nat) (n : Nat) : (vectorResize v n).length = n := by
  simp only [vectorResize, List.length_append, List.length_take, List.length_replicate]
  omega

/-- A defined `AddWordPost` on a list shorter than `2 ^ 32` bytes appends the
serialised post. -/
theorem addWordPost_eq (pl pl1 : PostingList) (post : WordPost)
    (hlen : pl.rawPostingData.length < U32) (h : pl.AddWordPost post = some pl1) :
    pl1.rawPostingData = pl.rawPostingData ++ SerializeWordPost post pl.maxLocation
      ∧ pl1.maxLocation = post.startLocation
      ∧ pl1.postCount = (pl.postCount + 1) % U32
      ∧ pl1.rawPostingData.length < U32 := by
  unfold PostingList.AddWordPost at h
  simp only [Nat.mod_eq_of_lt hlen, bytesRequiredForWordPost_eq] at h
  split at h
  · cases h
  · rename_i raw hw
    have hle := writeBytes_some_le _ _ _ _ hw
    rw [vectorResize_length] at hle
    have hmod : (pl.rawPostingData.length + (SerializeWordPost post pl.maxLocation).length) % U32
        = pl.rawPostingData.length + (SerializeWordPost post pl.maxLocation).length := by
      have := Nat.mod_le
        (pl.rawPostingData.length + (SerializeWordPost post pl.maxLocation).length) U32
      omega
    have hlt : pl.rawPostingData.length + (SerializeWordPost post pl.maxLocation).length < U32 := by
      rw [← hmod]; exact Nat.mod_lt _ (by norm_num [U32])
    rw [hmod, vectorResize_grow, writeBytes_at_end] at hw
    cases hw
    cases h
    refine ⟨rfl, rfl, rfl, ?_⟩
    simpa only [List.length_append] using hlt

/-- `AddWordPost` is defined as long as the grown vector stays below `2 ^ 32`
bytes. -/
theorem addWordPost_defined (pl : PostingList) (post : WordPost)
    (hlen : pl.rawPostingData.length + 7 < U32) :
    ∃ pl1, pl.AddWordPost post = some pl1 := by
  have h7 := serializeWordPost_length_le post pl.maxLocation
  have hlt : pl.rawPostingData.length + (SerializeWordPost post pl.maxLocation).length < U32 := by
    omega
  unfold PostingList.AddWordPost
  simp only [Nat.mod_eq_of_lt (show pl.rawPostingData.length < U32 by omega),
    bytesRequiredForWordPost_eq, Nat.mod_eq_of_lt hlt, vectorResize_grow, writeBytes_at_end]
  exact ⟨_, rfl⟩

theorem addWordPosts_eq (posts : List WordPost) : ∀ (pl pl1 : PostingList),
    pl.rawPostingData.length < U32 → pl.AddWordPosts posts = some pl1 →
    pl1.rawPostingData = pl.rawPostingData ++ encodeWordPosts pl.maxLocation posts
      ∧ pl1.maxLocation = lastLocation pl.maxLocation posts
      ∧ pl1.rawPostingData.length < U32 := by
  induction posts with
  | nil =>
    intro pl pl1 hlen h
    simp only [PostingList.AddWordPosts, Option.some.injEq] at h
    subst h
    simp [encodeWordPosts, lastLocation, hlen]
  | cons p ps ih =>
    intro pl pl1 hlen h
    unfold PostingList.AddWordPosts at h
    split at h
    · cases h
    · rename_i pl2 h2
      obtain ⟨hraw, hmax, _, hlen2⟩ := addWordPost_eq pl pl2 p hlen h2
      obtain ⟨hraw1, hmax1, hlen1⟩ := ih pl2 pl1 hlen2 h
      refine ⟨?_, ?_, hlen1⟩
      · rw [hraw1, hraw, hmax]; simp [encodeWordPosts]
      · rw [hmax1, hmax]; simp [lastLocation]

theorem addWordPosts_postCount (posts : List WordPost) : ∀ (pl pl1 : PostingList),
    pl.rawPostingData.length < U32 → pl.postCount + posts.length < U32 →
    pl.AddWordPosts posts = some pl1 → pl1.postCount = pl.postCount + posts.length := by
  induction posts with
  | nil =>
    intro pl pl1 _ _ h
    simp only [PostingList.AddWordPosts, Option.some.injEq] at h
    subst h; simp
  | cons p ps ih =>
    intro pl pl1 hlen hc h
    unfold PostingList.AddWordPosts at h
    split at h
    · cases h
    · rename_i pl2 h2
      obtain ⟨_, _, hcnt, hlen2⟩ := addWordPost_eq pl pl2 p hlen h2
      simp only [List.length_cons] at hc
      rw [Nat.mod_eq_of_lt (by omega)] at hcnt
      rw [ih pl2 pl1 hlen2 (by rw [hcnt]; omega) h, hcnt]
      simp only [List.length_cons]; omega

theorem addWordPosts_defined (posts : List WordPost) : ∀ (pl : PostingList),
    pl.rawPostingData.length + 7 * posts.length < U32 →
    ∃ pl1, pl.AddWordPosts posts = some pl1 := by
  induction posts with
  | nil => intro pl _; exact ⟨pl, rfl⟩
  | cons p ps ih =>
    intro pl hlen
    simp only [List.length_cons] at hlen
    obtain ⟨pl2, h2⟩ := addWordPost_defined pl p (by omega)
    obtain ⟨hraw, _, _, _⟩ := addWordPost_eq pl pl2 p (by omega) h2
    have h7 := serializeWordPost_length_le p pl.maxLocation
    obtain ⟨pl1, h1⟩ := ih pl2 (by rw [hraw, List.length_append]; omega)
    exact ⟨pl1, by simp [PostingList.AddWordPosts, h2, h1]⟩

end SearchEngine

namespace SearchEngine

open SerializedPost

/-! ## Post boundaries inside a reference encoding -/

theorem take_succ_of_getElem? {α : Type} (l : List α) (k : Nat) (p : α) (hp : l[k]? = some p) :
    l.take (k + 1) = l.take k ++ [p] := by
  rw [List.take_succ, hp]; rfl

theorem drop_of_getElem? {α : Type} (l : List α) (k : Nat) (p : α) (hp : l[k]? = some p) :
    l.drop k = p :: l.drop (k + 1) := by
  have hk : k < l.length := by
    rcases Nat.lt_or_ge k l.length with h | h
    · exact h
    · rw [List.getElem?_eq_none h] at hp; cases hp
  rw [List.getElem?_eq_getElem hk] at hp
  cases hp
  exact List.drop_eq_getElem_cons hk

theorem wordOffset_zero (posts : List WordPost) : wordOffset posts 0 = 0 := by
  simp [wordOffset, encodeWordPosts]

theorem wordLocation_zero (posts : List WordPost) : wordLocation posts 0 = 0 := by
  simp [wordLocation, lastLocation]

theorem wordLocation_succ (posts : List WordPost) (k : Nat) (p : WordPost)
    (hp : posts[k]? = some p) : wordLocation posts (k + 1) = p.startLocation := by
  simp [wordLocation, take_succ_of_getElem? posts k p hp, lastLocation_append, lastLocation]

theorem wordOffset_succ (posts : List WordPost) (k : Nat) (p : WordPost)
    (hp : posts[k]? = some p) :
    wordOffset posts (k + 1)
      = wordOffset posts k + (SerializeWordPost p (wordLocation posts k)).length := by
  simp [wordOffset, wordLocation, take_succ_of_getElem? posts k p hp, encodeWordPosts_append,
    encodeWordPosts]

theorem wordOffset_of_ge (posts : List WordPost) (k : Nat) (hk : posts.length ≤ k) :
    wordOffset posts k = (encodeWordPosts 0 posts).length := by
  simp [wordOffset, List.take_of_length_le hk]

theorem wordLocation_of_ge (posts : List WordPost) (k : Nat) (hk : posts.length ≤ k) :
    wordLocation posts k = lastLocation 0 posts := by
  simp [wordLocation, List.take_of_length_le hk]

theorem encode_split (posts : List WordPost) (k : Nat) :
    encodeWordPosts 0 posts
      = encodeWordPosts 0 (posts.take k) ++ encodeWordPosts (wordLocation posts k) (posts.drop k) := by
  conv_lhs => rw [← List.take_append_drop k posts]
  rw [encodeWordPosts_append]; rfl

theorem encode_drop (posts : List WordPost) (k : Nat) :
    (encodeWordPosts 0 posts).drop (wordOffset posts k)
      = encodeWordPosts (wordLocation posts k) (posts.drop k) := by
  conv_lhs => rw [encode_split posts k]
  exact List.drop_left _ _

theorem wordOffset_le (posts : List WordPost) (k : Nat) :
    wordOffset posts k ≤ (encodeWordPosts 0 posts).length := by
  have h := congrArg List.length (encode_split posts k)
  simp only [List.length_append] at h
  unfold wordOffset; omega

theorem wordOffset_lt (posts : List WordPost) (k : Nat) (hk : k < posts.length) :
    wordOffset posts k < (encodeWordPosts 0 posts).length := by
  have h := congrArg List.length (encode_split posts k)
  simp only [List.length_append] at h
  have h2 := encodeWordPosts_length_ge (wordLocation posts k) (posts.drop k)
  simp only [List.length_drop] at h2
  unfold wordOffset; omega

theorem wordLocation_lt (posts : List WordPost) (k : Nat)
    (h : ∀ p ∈ posts, p.startLocation < U32) : wordLocation posts k < U32 :=
  lastLocation_lt 0 _ (by norm_num [U32]) (fun p hp => h p (List.mem_of_mem_take hp))

/-- Decoding at the boundary before post `k` yields that post and the next
boundary. -/
theorem deserialize_at (posts : List WordPost) (k : Nat) (p : WordPost)
    (hp : posts[k]? = some p) (hloc : ∀ q ∈ posts, q.startLocation < U32) :
    DeserializeWordPost ((encodeWordPosts 0 posts).drop (wordOffset posts k))
        (wordLocation posts k)
      = some (p, wordOffset posts (k + 1) - wordOffset posts k, p.startLocation)
      ∧ wordOffset posts k + (wordOffset posts (k + 1) - wordOffset posts k)
          = wordOffset posts (k + 1) := by
  have hmem : p ∈ posts := List.getElem?_mem hp
  rw [encode_drop, drop_of_getElem? posts k p hp, wordOffset_succ posts k p hp]
  simp only [encodeWordPosts]
  rw [deserialize_serializeWordPost p _ _ (hloc p hmem) (wordLocation_lt posts k hloc)]
  simp

/-! ## Sorted posts and the first post at or after a target -/

theorem countBelow_le (T : Nat) (l : List WordPost) : countBelow T l ≤ l.length := by
  induction l with
  | nil => simp [countBelow]
  | cons p ps ih =>
    unfold countBelow
    split
    · simp
    · simp only [List.length_cons]; omega

theorem countBelow_all_below (T : Nat) (a b : List WordPost)
    (h : ∀ p ∈ a, p.startLocation < T) : countBelow T (a ++ b) = a.length + countBelow T b := by
  induction a with
  | nil => simp
  | cons p ps ih =>
    have hp : ¬ T ≤ p.startLocation := Nat.not_le.mpr (h p (List.mem_cons_self _ _))
    have ih1 := ih (fun q hq => h q (List.mem_cons_of_mem _ hq))
    rw [List.cons_append]
    simp only [countBelow, if_neg hp, List.length_cons]
    rw [ih1]
    omega

theorem countBelow_getElem? (T : Nat) (l : List WordPost) (p : WordPost)
    (h : l[countBelow T l]? = some p) : T ≤ p.startLocation := by
  induction l with
  | nil => simp at h
  | cons q qs ih =>
    unfold countBelow at h
    split at h
    · simp at h; subst h; assumption
    · simp at h; exact ih h

theorem countBelow_before (T : Nat) (l : List WordPost) (i : Nat) (p : WordPost)
    (hi : i < countBelow T l) (h : l[i]? = some p) : p.startLocation < T := by
  induction l generalizing i with
  | nil => simp at h
  | cons q qs ih =>
    unfold countBelow at hi
    split at hi
    · omega
    · cases i with
      | zero => simp at h; subst h; omega
      | succ j => simp at h; exact ih j (by omega) h

/-- In a sorted list every post before boundary `k` lies at or below the running
location of that boundary. -/
theorem le_wordLocation_of_mem_take (posts : List WordPost) (k : Nat)
    (hs : (posts.map WordPost.startLocation).Pairwise (· < ·)) :
    ∀ p ∈ posts.take k, p.startLocation ≤ wordLocation posts k := by
  induction k with
  | zero => intro p hp; simp at hp
  | succ n ih =>
    intro p hp
    rcases Nat.lt_or_ge n posts.length with hn | hn
    · have hq : posts[n]? = some posts[n] := List.getElem?_eq_getElem hn
      rw [take_succ_of_getElem? posts n _ hq] at hp
      rw [wordLocation_succ posts n _ hq]
      rcases List.mem_append.mp hp with h1 | h1
      · obtain ⟨i, hi, hpi⟩ := List.getElem_of_mem h1
        have hi' : i < n := by simpa using (show i < (posts.take n).length from hi) |>.trans_le (by simp)
        have hi2 : i < posts.length := by omega
        have hpi2 : posts[i] = p := by
          rw [← hpi, List.getElem_take]
        have := List.pairwise_iff_getElem.mp hs i n (by simpa using hi2) (by simpa using hn) hi'
        simp only [List.getElem_map] at this
        rw [← hpi2]; omega
      · simp at h1; subst h1; exact Nat.le_refl _
    · rw [List.take_of_length_le (by omega)] at hp
      have := ih p (by rw [List.take_of_length_le hn]; exact hp)
      rw [wordLocation_of_ge posts _ (by omega)]
      rw [wordLocation_of_ge posts _ hn] at this
      exact this

theorem countBelow_from_boundary (T : Nat) (posts : List WordPost) (k : Nat)
    (hs : (posts.map WordPost.startLocation).Pairwise (· < ·))
    (hk : k = 0 ∨ wordLocation posts k < T) (hkn : k ≤ posts.length) :
    countBelow T posts = k + countBelow T (posts.drop k) := by
  have hall : ∀ p ∈ posts.take k, p.startLocation < T := by
    intro p hp
    rcases hk with h0 | hlt
    · subst h0; simp at hp
    · exact Nat.lt_of_le_of_lt (le_wordLocation_of_mem_take posts k hs p hp) hlt
  conv_lhs => rw [← List.take_append_drop k posts]
  rw [countBelow_all_below T _ _ hall, List.length_take, Nat.min_eq_left hkn]

theorem find?_eq_getElem?_countBelow (T : Nat) (l : List WordPost) :
    l.find? (fun p => decide (T ≤ p.startLocation)) = l[countBelow T l]? := by
  induction l with
  | nil => simp [countBelow]
  | cons q qs ih =>
    unfold countBelow
    by_cases h : T ≤ q.startLocation
    · simp [h]
    · simp [h, ih]

end SearchEngine

namespace SearchEngine

open SerializedPost SerializedPostingList

/-! ## The linear scans -/

theorem wordLocation_cases (posts : List WordPost) (k : Nat) :
    wordLocation posts k = 0 ∨ ∃ p ∈ posts, wordLocation posts k = p.startLocation := by
  induction k with
  | zero => left; exact wordLocation_zero posts
  | succ n ih =>
    rcases Nat.lt_or_ge n posts.length with hn | hn
    · right
      have hq : posts[n]? = some posts[n] := List.getElem?_eq_getElem hn
      exact ⟨posts[n], List.getElem_mem hn, wordLocation_succ posts n _ hq⟩
    · rw [wordLocation_of_ge posts _ (by omega)]
      rw [wordLocation_of_ge posts _ hn] at ih
      exact ih

theorem wordLocation_noWrap (posts : List WordPost) (k : Nat)
    (h : ∀ p ∈ posts, p.startLocation + 1 < U32) : wordLocation posts k + 1 < U32 := by
  rcases wordLocation_cases posts k with h0 | ⟨p, hp, hk⟩
  · rw [h0]; norm_num [U32]
  · rw [hk]; exact h p hp

theorem cursor_min (posts : List WordPost) (k : Nat) :
    wordOffset posts k = wordOffset posts (min k posts.length)
      ∧ wordLocation posts k = wordLocation posts (min k posts.length) := by
  rcases Nat.le_total k posts.length with h | h
  · rw [Nat.min_eq_left h]; exact ⟨rfl, rfl⟩
  · rw [Nat.min_eq_right h, wordOffset_of_ge posts k h, wordLocation_of_ge posts k h,
      wordOffset_of_ge posts _ (Nat.le_refl _), wordLocation_of_ge posts _ (Nat.le_refl _)]
    exact ⟨rfl, rfl⟩

/-- The scan of `SerializedPostingList::SeekWordPost` from the boundary before
post `k` stops on the first post at or after the target, leaving the cursor just
behind it, or runs to the end of the data. -/
theorem seekLoop_spec (spl : SerializedPostingList) (posts : List WordPost)
    (h : WordListOK spl posts) (T : Nat) : ∀ (fuel k : Nat), k ≤ posts.length →
    posts.length - k < fuel →
    SeekWordPost.loop spl T fuel (wordLocation posts k) (wordOffset posts k)
      = some (posts[k + countBelow T (posts.drop k)]?,
          wordLocation posts (k + countBelow T (posts.drop k) + 1),
          wordOffset posts (k + countBelow T (posts.drop k) + 1)) := by
  intro fuel
  induction fuel with
  | zero => intro k _ hf; omega
  | succ n ih =>
    intro k hk hf
    unfold SeekWordPost.loop
    rw [h.size, h.data]
    rcases Nat.lt_or_ge k posts.length with hlt | hge
    · have hq : posts[k]? = some posts[k] := List.getElem?_eq_getElem hlt
      obtain ⟨hdes, hoff⟩ := deserialize_at posts k _ hq h.sorted.2.1
      rw [if_pos (wordOffset_lt posts k hlt), hdes]
      simp only []
      rw [hoff, drop_of_getElem? posts k _ hq]
      by_cases hT : T ≤ posts[k].startLocation
      · have : countBelow T (posts[k] :: List.drop (k + 1) posts) = 0 := by
          simp [countBelow, hT]
        simp only [this, if_pos hT, Nat.add_zero, hq, wordLocation_succ posts k _ hq]
      · have : countBelow T (posts[k] :: List.drop (k + 1) posts)
            = countBelow T (List.drop (k + 1) posts) + 1 := by
          simp [countBelow, hT]
        rw [this, if_neg hT]
        have := ih (k + 1) hlt (by omega)
        rw [wordLocation_succ posts k _ hq] at this
        rw [this]
        have e : k + 1 + countBelow T (List.drop (k + 1) posts)
            = k + (countBelow T (List.drop (k + 1) posts) + 1) := by omega
        rw [e]
    · have hkn : k = posts.length := by omega
      subst hkn
      have hoff := wordOffset_of_ge posts posts.length (Nat.le_refl _)
      rw [if_neg (by rw [hoff]; exact Nat.lt_irrefl _)]
      simp only [List.drop_length, countBelow, Nat.add_zero]
      rw [List.getElem?_eq_none (Nat.le_refl _)]
      rw [wordLocation_of_ge posts (posts.length + 1) (by omega),
        wordOffset_of_ge posts (posts.length + 1) (by omega),
        wordLocation_of_ge posts posts.length (Nat.le_refl _), hoff]

/-- The scan of the in-memory `PostingList::SeekWordPost`. -/
theorem linearLoop_spec (posts : List WordPost) (hloc : ∀ q ∈ posts, q.startLocation < U32)
    (hlen : (encodeWordPosts 0 posts).length < U32) (T : Nat) : ∀ (fuel k : Nat),
    k ≤ posts.length → posts.length - k < fuel →
    PostingList.SeekWordPost.loop (encodeWordPosts 0 posts) T fuel (wordOffset posts k)
        (wordLocation posts k)
      = some (posts[k + countBelow T (posts.drop k)]?) := by
  intro fuel
  induction fuel with
  | zero => intro k _ hf; omega
  | succ n ih =>
    intro k hk hf
    unfold PostingList.SeekWordPost.loop
    rcases Nat.lt_or_ge k posts.length with hlt | hge
    · have hq : posts[k]? = some posts[k] := List.getElem?_eq_getElem hlt
      obtain ⟨hdes, hoff⟩ := deserialize_at posts k _ hq hloc
      rw [if_pos (wordOffset_lt posts k hlt), hdes]
      simp only []
      rw [hoff, drop_of_getElem? posts k _ hq]
      by_cases hT : T ≤ posts[k].startLocation
      · have : countBelow T (posts[k] :: List.drop (k + 1) posts) = 0 := by
          simp [countBelow, hT]
        simp only [this, if_pos hT, Nat.add_zero, hq]
      · have : countBelow T (posts[k] :: List.drop (k + 1) posts)
            = countBelow T (List.drop (k + 1) posts) + 1 := by
          simp [countBelow, hT]
        rw [this, if_neg hT]
        have hmod : wordOffset posts (k + 1) % U32 = wordOffset posts (k + 1) :=
          Nat.mod_eq_of_lt (Nat.lt_of_le_of_lt (wordOffset_le posts (k + 1)) hlen)
        have := ih (k + 1) hlt (by omega)
        rw [wordLocation_succ posts k _ hq] at this
        rw [hmod, this]
        have e : k + 1 + countBelow T (List.drop (k + 1) posts)
            = k + (countBelow T (List.drop (k + 1) posts) + 1) := by omega
        rw [e]
    · have hkn : k = posts.length := by omega
      subst hkn
      have hoff := wordOffset_of_ge posts posts.length (Nat.le_refl _)
      rw [if_neg (by rw [hoff]; exact Nat.lt_irrefl _)]
      simp only [List.drop_length, countBelow, Nat.add_zero]
      rw [List.getElem?_eq_none (Nat.le_refl _)]

/-! ## Seeking with the skip table -/

theorem getBucketIndex_some (T M n : Nat) (hM : M + 1 < U32) :
    ∃ b, GetBucketIndex T M n = some b := by
  unfold GetBucketIndex
  split
  · exact ⟨_, rfl⟩
  · split
    · exact ⟨_, rfl⟩
    · rw [if_neg (by rw [Nat.mod_eq_of_lt hM]; omega)]
      exact ⟨_, rfl⟩

theorem tableMax_some (spl : SerializedPostingList) (posts : List WordPost)
    (h : WordListOK spl posts) : ∃ M, spl.tableMaxLocation = some M ∧ M + 1 < U32 := by
  unfold tableMaxLocation
  rw [if_pos h.skipPos]
  have hlt : spl.skipCount - 1 < spl.skipTable.length := by
    have := h.skipPos; have := h.tableLen; omega
  rw [List.get?_eq_getElem?, List.getElem?_eq_getElem hlt]
  refine ⟨_, rfl, ?_⟩
  obtain ⟨k, _, hk⟩ := h.table _ (List.getElem_mem hlt)
  rw [hk]
  exact wordLocation_noWrap posts k h.noWrap

theorem findBest_spec (spl : SerializedPostingList) (posts : List WordPost)
    (h : WordListOK spl posts) (T cur M : Nat) (hM : M + 1 < U32) :
    ∃ best, spl.FindBestSkipEntry T cur M = some best ∧
      (best = none ∨ ∃ e ∈ spl.skipTable, best = some e ∧ cur < e.PostLocation
        ∧ e.PostLocation < T) := by
  obtain ⟨b, hb⟩ := getBucketIndex_some T M spl.skipCount hM
  unfold FindBestSkipEntry
  rw [hb]
  simp only []
  split
  · exact ⟨none, rfl, Or.inl rfl⟩
  · split
    · rename_i hlt
      have hlt2 : b < spl.skipTable.length := by rw [h.tableLen]; exact hlt
      rw [List.get?_eq_getElem?, List.getElem?_eq_getElem hlt2]
      simp only []
      split
      · rename_i hc
        exact ⟨_, rfl, Or.inr ⟨_, List.getElem_mem hlt2, rfl, hc.1, hc.2⟩⟩
      · exact ⟨none, rfl, Or.inl rfl⟩
    · exact ⟨none, rfl, Or.inl rfl⟩

/-- `SerializedPostingList::SeekWordPost` from any post boundary: the result is
the first post of the whole list at or after the target, whatever the boundary
the cursor started from, and the cursor ends just behind that post (at the end
of the data when there is none). -/
theorem seekWordPost_spec (spl : SerializedPostingList) (posts : List WordPost)
    (h : WordListOK spl posts) (T k0 : Nat) :
    spl.SeekWordPost T (wordLocation posts k0) (wordOffset posts k0)
      = some (posts[countBelow T posts]?, wordLocation posts (countBelow T posts + 1),
          wordOffset posts (countBelow T posts + 1)) := by
  obtain ⟨M, hM, hMlt⟩ := tableMax_some spl posts h
  unfold SeekWordPost
  rw [hM]
  simp only []
  -- the cursor after the restart test
  have hc0 : ∃ k, k ≤ posts.length ∧ (k = 0 ∨ wordLocation posts k < T) ∧
      (if wordLocation posts k0 ≥ T then ((0 : Nat), (0 : Nat))
        else (wordLocation posts k0, wordOffset posts k0))
        = (wordLocation posts k, wordOffset posts k) := by
    by_cases hge : wordLocation posts k0 ≥ T
    · refine ⟨0, Nat.zero_le _, Or.inl rfl, ?_⟩
      rw [if_pos hge, wordLocation_zero, wordOffset_zero]
    · refine ⟨min k0 posts.length, Nat.min_le_right _ _, Or.inr ?_, ?_⟩
      · rw [← (cursor_min posts k0).2]; omega
      · rw [if_neg hge, ← (cursor_min posts k0).2, ← (cursor_min posts k0).1]
  obtain ⟨k, hkn, hkT, hk⟩ := hc0
  rw [hk]
  obtain ⟨best, hbest, hcases⟩ := findBest_spec spl posts h T (wordLocation posts k) M hMlt
  simp only [hbest]
  -- the cursor after the skip-table jump
  have hfuel : ∀ k1, posts.length - k1 < spl.postingDataSize + 1 := by
    intro k1
    have := encodeWordPosts_length_ge 0 posts
    rw [h.size, h.data]; omega
  rcases hcases with hnone | ⟨e, he, hsome, _, hlt⟩
  · subst hnone
    simp only []
    rw [seekLoop_spec spl posts h T _ k hkn (hfuel k),
      ← countBelow_from_boundary T posts k h.sorted.1 hkT hkn]
  · subst hsome
    obtain ⟨j, hoff, hloc⟩ := h.table e he
    simp only []
    rw [hoff, hloc, (cursor_min posts j).2, (cursor_min posts j).1]
    have hjT : wordLocation posts (min j posts.length) < T := by
      rw [← (cursor_min posts j).2, ← hloc]; exact hlt
    rw [seekLoop_spec spl posts h T _ _ (Nat.min_le_right _ _) (hfuel _),
      ← countBelow_from_boundary T posts _ h.sorted.1 (Or.inr hjT) (Nat.min_le_right _ _)]

end SearchEngine

namespace SearchEngine

open SerializedPost SerializedPostingList

/-! ## The skip table built by `BuildWordPostSkipTable` -/

theorem fillEntries_length (l : List SkipEntry) (i lo hi : Nat) (e : SkipEntry) :
    (fillEntries l i lo hi e).length = l.length := by
  induction l generalizing i with
  | nil => rfl
  | cons x xs ih => simp [fillEntries, ih]

theorem fillEntries_mem (l : List SkipEntry) (i lo hi : Nat) (e x : SkipEntry)
    (hx : x ∈ fillEntries l i lo hi e) : x = e ∨ x ∈ l := by
  induction l generalizing i with
  | nil => simp [fillEntries] at hx
  | cons y ys ih =>
    simp only [fillEntries, List.mem_cons] at hx
    rcases hx with h | h
    · by_cases hc : lo ≤ i ∧ i ≤ hi
      · rw [if_pos hc] at h; exact Or.inl h
      · rw [if_neg hc] at h; exact Or.inr (h ▸ List.mem_cons_self _ _)
    · rcases ih (i + 1) h with h1 | h1
      · exact Or.inl h1
      · exact Or.inr (List.mem_cons_of_mem _ h1)

theorem computeSkipCount_pos (numPosts : Nat) : 0 < ComputeSkipCount numPosts := by
  unfold ComputeSkipCount
  by_cases h32 : numPosts ≥ 32
  · have hd : 1 ≤ numPosts / 32 := (Nat.le_div_iff_mul_le (by norm_num)).mpr (by omega)
    simp only [if_pos h32]
    split <;> omega
  · simp [if_neg h32]

/-- What the main loop of `BuildWordPostSkipTable` leaves behind when it runs from
the boundary before post `k`: a table of the same length whose entries all name
post boundaries, the cursor at the end of the data, and a bucket computed for
every post it decoded. -/
theorem buildLoop_valid (posts : List WordPost) (hloc : ∀ q ∈ posts, q.startLocation < U32)
    (hlen : (encodeWordPosts 0 posts).length < U32) (M n : Nat) (hn : 0 < n) :
    ∀ (fuel k : Nat) (entries : List SkipEntry) (lb : Nat)
      (res : List SkipEntry × Nat × Nat × Nat),
    k ≤ posts.length →
    (∀ e ∈ entries, ∃ j, e.Offset = wordOffset posts j ∧ e.PostLocation = wordLocation posts j) →
    BuildWordPostSkipTable.loop (encodeWordPosts 0 posts) M n fuel entries
        (wordOffset posts k) (wordLocation posts k) lb = some res →
    res.1.length = entries.length
      ∧ (∀ e ∈ res.1, ∃ j, e.Offset = wordOffset posts j
          ∧ e.PostLocation = wordLocation posts j)
      ∧ res.2.1 = wordOffset posts posts.length
      ∧ res.2.2.1 = wordLocation posts posts.length
      ∧ (∀ i p, k ≤ i → posts[i]? = some p → ∃ b, GetBucketIndex p.startLocation M n = some b) := by
  intro fuel
  induction fuel with
  | zero =>
    intro k entries lb res _ _ h
    simp [BuildWordPostSkipTable.loop] at h
  | succ f ih =>
    intro k entries lb res hk hval h
    unfold BuildWordPostSkipTable.loop at h
    rcases Nat.lt_or_ge k posts.length with hlt | hge
    · have hq : posts[k]? = some posts[k] := List.getElem?_eq_getElem hlt
      obtain ⟨hdes, hoff⟩ := deserialize_at posts k _ hq hloc
      rw [if_pos ⟨wordOffset_lt posts k hlt, hn⟩] at h
      simp only [hdes] at h
      have hmod : wordOffset posts (k + 1) % U32 = wordOffset posts (k + 1) :=
        Nat.mod_eq_of_lt (Nat.lt_of_le_of_lt (wordOffset_le posts (k + 1)) hlen)
      rw [hoff, hmod, ← wordLocation_succ posts k _ hq] at h
      cases hb : GetBucketIndex (wordLocation posts (k + 1)) M n with
      | none => rw [hb] at h; simp at h
      | some bucket =>
        rw [hb] at h
        simp only [] at h
        have hbk : ∀ i p, k ≤ i → posts[i]? = some p →
            (∀ i p, k + 1 ≤ i → posts[i]? = some p →
              ∃ b, GetBucketIndex p.startLocation M n = some b) →
            ∃ b, GetBucketIndex p.startLocation M n = some b := by
          intro i p hi hp hrest
          rcases Nat.eq_or_lt_of_le hi with heq | hgt
          · subst heq
            rw [hq] at hp
            cases hp
            rw [← wordLocation_succ posts k _ hq]
            exact ⟨bucket, hb⟩
          · exact hrest i p hgt hp
        split at h
        · have hval2 : ∀ e ∈ fillEntries entries 0 (lb + 1) bucket
              { Offset := wordOffset posts k, PostLocation := wordLocation posts k },
              ∃ j, e.Offset = wordOffset posts j ∧ e.PostLocation = wordLocation posts j := by
            intro e he
            rcases fillEntries_mem _ _ _ _ _ _ he with h1 | h1
            · exact ⟨k, by rw [h1], by rw [h1]⟩
            · exact hval e h1
          obtain ⟨r1, r2, r3, r4, r5⟩ := ih (k + 1) _ bucket res hlt hval2 h
          rw [fillEntries_length] at r1
          exact ⟨r1, r2, r3, r4, fun i p hi hp => hbk i p hi hp r5⟩
        · obtain ⟨r1, r2, r3, r4, r5⟩ := ih (k + 1) _ lb res hlt hval h
          exact ⟨r1, r2, r3, r4, fun i p hi hp => hbk i p hi hp r5⟩
    · have hkn : k = posts.length := by omega
      subst hkn
      have hoff := wordOffset_of_ge posts posts.length (Nat.le_refl _)
      rw [if_neg (by rw [hoff]; intro hc; exact Nat.lt_irrefl _ hc.1)] at h
      cases h
      refine ⟨rfl, hval, rfl, rfl, ?_⟩
      intro i p hi hp
      rw [List.getElem?_eq_none hi] at hp
      cases hp

theorem buildWordPostSkipTable_valid (posts : List WordPost)
    (hloc : ∀ q ∈ posts, q.startLocation < U32)
    (hlen : (encodeWordPosts 0 posts).length < U32) (M numPosts : Nat)
    (table : List SkipEntry)
    (h : BuildWordPostSkipTable (encodeWordPosts 0 posts) M numPosts = some table) :
    table.length = ComputeSkipCount numPosts
      ∧ (∀ e ∈ table, ∃ j, e.Offset = wordOffset posts j
          ∧ e.PostLocation = wordLocation posts j)
      ∧ (∀ p ∈ posts, ∃ b, GetBucketIndex p.startLocation M (ComputeSkipCount numPosts) = some b) := by
  unfold BuildWordPostSkipTable at h
  simp only [] at h
  split at h
  · cases h
  · rename_i entries off cur lb hloop
    cases h
    have hinit : ∀ e ∈ (List.replicate (ComputeSkipCount numPosts)
          ({ Offset := 0, PostLocation := 0 } : SkipEntry)).set 0
          { Offset := 0, PostLocation := 0 },
        ∃ j, e.Offset = wordOffset posts j ∧ e.PostLocation = wordLocation posts j := by
      intro e he
      rcases List.mem_or_eq_of_mem_set he with h1 | h1
      · rw [List.eq_of_mem_replicate h1]
        exact ⟨0, (wordOffset_zero posts).symm, (wordLocation_zero posts).symm⟩
      · rw [h1]
        exact ⟨0, (wordOffset_zero posts).symm, (wordLocation_zero posts).symm⟩
    have h0 : BuildWordPostSkipTable.loop (encodeWordPosts 0 posts) M (ComputeSkipCount numPosts)
        ((encodeWordPosts 0 posts).length + 1)
        ((List.replicate (ComputeSkipCount numPosts)
          ({ Offset := 0, PostLocation := 0 } : SkipEntry)).set 0
          { Offset := 0, PostLocation := 0 })
        (wordOffset posts 0) (wordLocation posts 0) 0 = some (entries, off, cur, lb) := by
      rw [wordOffset_zero, wordLocation_zero]; exact hloop
    obtain ⟨r1, r2, r3, r4, r5⟩ := buildLoop_valid posts hloc hlen M _
      (computeSkipCount_pos numPosts) _ 0 _ 0 _ (Nat.zero_le _) hinit h0
    simp only at r1 r2 r3 r4
    refine ⟨?_, ?_, ?_⟩
    · rw [fillEntries_length, r1]; simp
    · intro e he
      rcases fillEntries_mem _ _ _ _ _ _ he with h1 | h1
      · exact ⟨posts.length, by rw [h1, r3], by rw [h1, r4]⟩
      · exact r2 e h1
    · intro p hp
      obtain ⟨i, hi, hpi⟩ := List.getElem_of_mem hp
      exact r5 i p (Nat.zero_le _) (by rw [List.getElem?_eq_getElem hi, hpi])

/-- The first pass of `WriteWordPostingList` returns the location of the last
post. -/
theorem maxLoop_spec (posts : List WordPost) (hloc : ∀ q ∈ posts, q.startLocation < U32)
    (hlen : (encodeWordPosts 0 posts).length < U32) : ∀ (fuel k : Nat),
    k ≤ posts.length → posts.length - k < fuel →
    WriteWordPostingList.maxLoop (encodeWordPosts 0 posts) fuel (wordOffset posts k)
        (wordLocation posts k) (wordLocation posts k)
      = some (wordLocation posts posts.length) := by
  intro fuel
  induction fuel with
  | zero => intro k _ hf; omega
  | succ f ih =>
    intro k hk hf
    unfold WriteWordPostingList.maxLoop
    rcases Nat.lt_or_ge k posts.length with hlt | hge
    · have hq : posts[k]? = some posts[k] := List.getElem?_eq_getElem hlt
      obtain ⟨hdes, hoff⟩ := deserialize_at posts k _ hq hloc
      have hmod : wordOffset posts (k + 1) % U32 = wordOffset posts (k + 1) :=
        Nat.mod_eq_of_lt (Nat.lt_of_le_of_lt (wordOffset_le posts (k + 1)) hlen)
      rw [if_pos (wordOffset_lt posts k hlt), hdes]
      simp only []
      rw [hoff, hmod, ← wordLocation_succ posts k _ hq]
      exact ih (k + 1) hlt (by omega)
    · have hkn : k = posts.length := by omega
      subst hkn
      have hoff := wordOffset_of_ge posts posts.length (Nat.le_refl _)
      rw [if_neg (by rw [hoff]; exact Nat.lt_irrefl _)]

/-- A posting list that appending and `WriteWordPostingList` produced from
`posts` holds exactly `posts`. -/
theorem writeWordPostingList_ok (posts : List WordPost) (pl : PostingList)
    (spl : SerializedPostingList) (hok : WordPostsOK posts)
    (hadd : PostingList.empty.AddWordPosts posts = some pl)
    (hw : WriteWordPostingList pl = some spl) : WordListOK spl posts := by
  obtain ⟨hraw, _, hlen⟩ := addWordPosts_eq posts PostingList.empty pl
    (by simp [PostingList.empty, U32]) hadd
  simp only [PostingList.empty, List.nil_append] at hraw
  rw [hraw] at hlen
  have hloc := hok.2.1
  unfold WriteWordPostingList at hw
  rw [hraw] at hw
  have hmax := maxLoop_spec posts hloc hlen ((encodeWordPosts 0 posts).length + 1) 0
    (Nat.zero_le _) (by have := encodeWordPosts_length_ge 0 posts; omega)
  rw [wordOffset_zero, wordLocation_zero] at hmax
  rw [hmax] at hw
  simp only [] at hw
  split at hw
  · cases hw
  · rename_i table htable
    cases hw
    obtain ⟨t1, t2, t3⟩ := buildWordPostSkipTable_valid posts hloc hlen _ _ table htable
    have hnoWrap : ∀ p ∈ posts, p.startLocation + 1 < U32 := by
      intro p hp
      have hple : p.startLocation ≤ wordLocation posts posts.length :=
        le_wordLocation_of_mem_take posts posts.length hok.1 p (by simpa using hp)
      have hMlt : wordLocation posts posts.length < U32 := wordLocation_lt posts _ hloc
      -- the bucket of the last post was computed with `maxLoc` equal to its own location
      rcases wordLocation_cases posts posts.length with h0 | ⟨q, hq, hqM⟩
      · rw [h0] at hple
        have : p.startLocation = 0 := by omega
        rw [this]; norm_num [U32]
      · obtain ⟨b, hb⟩ := t3 q hq
        rw [← hqM] at hb
        unfold GetBucketIndex at hb
        by_cases hM0 : wordLocation posts posts.length = 0
        · rw [hM0] at hple
          have : p.startLocation = 0 := by omega
          rw [this]; norm_num [U32]
        · rw [if_neg hM0, if_neg (Nat.lt_irrefl _)] at hb
          by_cases hz : (wordLocation posts posts.length + 1) % U32 = 0
          · rw [if_pos hz] at hb; cases hb
          · have : wordLocation posts posts.length + 1 < U32 := by
              unfold U32 at *; omega
            omega
    exact
      { sorted := hok
        data := rfl
        size := Nat.mod_eq_of_lt hlen
        tableLen := t1
        skipPos := computeSkipCount_pos _
        table := t2
        noWrap := hnoWrap }

end SearchEngine

namespace SearchEngine

open SerializedPost SerializedPostingList

/-! ## Codec round trip and seek equivalence -/

/-- The in-memory linear scan returns the first post at or after the target. -/
theorem linearSeek_spec (posts : List WordPost) (pl : PostingList) (T : Nat)
    (hok : WordPostsOK posts) (hadd : PostingList.empty.AddWordPosts posts = some pl) :
    pl.SeekWordPost T = some (posts.find? (fun p => decide (T ≤ p.startLocation))) := by
  obtain ⟨hraw, _, hlen⟩ := addWordPosts_eq posts PostingList.empty pl
    (by simp [PostingList.empty, U32]) hadd
  simp only [PostingList.empty, List.nil_append] at hraw
  rw [hraw] at hlen
  unfold PostingList.SeekWordPost
  rw [hraw]
  have h := linearLoop_spec posts hok.2.1 hlen T ((encodeWordPosts 0 posts).length + 1) 0
    (Nat.zero_le _) (by have := encodeWordPosts_length_ge 0 posts; omega)
  rw [wordOffset_zero, wordLocation_zero] at h
  rw [h, find?_eq_getElem?_countBelow]
  simp

/-- Claim C1. For every sequence of word posts with strictly increasing 32-bit
Locations and flag bytes: appending them in order with `PostingList::AddWordPost`
is defined whenever the vector stays within the `uint32_t` sizes the code uses
(in particular for fewer than `2 ^ 32 / 7` posts), and wherever it is defined,
decoding the raw bytes sequentially with `DeserializeWordPost` from running
location 0 yields exactly the original posts and consumes exactly all the bytes
written. -/
theorem addWordPosts_decode_round_trip (posts : List WordPost) (hok : WordPostsOK posts) :
    (7 * posts.length < U32 → ∃ pl, PostingList.empty.AddWordPosts posts = some pl)
      ∧ ∀ pl, PostingList.empty.AddWordPosts posts = some pl →
          decodeAllWordPosts pl.rawPostingData = some (posts, pl.rawPostingData.length) := by
  constructor
  · intro h
    exact addWordPosts_defined posts PostingList.empty (by simpa [PostingList.empty] using h)
  · intro pl hadd
    obtain ⟨hraw, _, _⟩ := addWordPosts_eq posts PostingList.empty pl
      (by simp [PostingList.empty, U32]) hadd
    simp only [PostingList.empty, List.nil_append] at hraw
    unfold decodeAllWordPosts
    rw [hraw]
    exact decodeWordPosts_encode _ 0 posts
      (by have := encodeWordPosts_length_ge 0 posts; omega) (by norm_num [U32]) hok.2.1

set_option maxRecDepth 100000 in
/-- Witness for claim C1 on the sixty-four sample posts. -/
theorem addWordPosts_decode_round_trip_witness :
    WordPostsOK samplePosts
      ∧ PostingList.empty.AddWordPosts samplePosts = some samplePostingList
      ∧ decodeAllWordPosts samplePostingList.rawPostingData
          = some (samplePosts, samplePostingList.rawPostingData.length) :=
  ⟨by decide, by decide,
    (addWordPosts_decode_round_trip samplePosts (by decide)).2 samplePostingList (by decide)⟩

/-- Claim C2. For every word posting list built from strictly increasing
Locations and written with its skip table by `WriteWordPostingList`, and every
target `T`, `SerializedPostingList::SeekWordPost(T)` from a fresh cursor returns
the same result as the linear scan `PostingList::SeekWordPost(T)`, namely the
first post whose location is `>= T`, or none when there is no such post. -/
theorem skipSeek_eq_linearSeek (posts : List WordPost) (pl : PostingList)
    (spl : SerializedPostingList) (T : Nat) (hok : WordPostsOK posts)
    (hadd : PostingList.empty.AddWordPosts posts = some pl)
    (hw : WriteWordPostingList pl = some spl) :
    spl.SeekWordPostFresh T = pl.SeekWordPost T
      ∧ pl.SeekWordPost T = some (posts.find? (fun p => decide (T ≤ p.startLocation))) := by
  have hlin := linearSeek_spec posts pl T hok hadd
  refine ⟨?_, hlin⟩
  have hwf := writeWordPostingList_ok posts pl spl hok hadd hw
  have hseek := seekWordPost_spec spl posts hwf T 0
  rw [wordLocation_zero, wordOffset_zero] at hseek
  unfold SeekWordPostFresh
  rw [hseek, hlin, find?_eq_getElem?_countBelow]

set_option maxRecDepth 100000 in
/-- Witness for claim C2: a seek to Location 200 in the sample list, whose skip
table has an entry strictly below the target. -/
theorem skipSeek_eq_linearSeek_witness :
    WordPostsOK samplePosts
      ∧ sampleSerializedList.SeekWordPostFresh 200 = samplePostingList.SeekWordPost 200
      ∧ samplePostingList.SeekWordPost 200
          = some (samplePosts.find? (fun p => decide (200 ≤ p.startLocation))) :=
  ⟨by decide,
    skipSeek_eq_linearSeek samplePosts samplePostingList sampleSerializedList 200
      (by decide) (by decide) (by decide)⟩

end SearchEngine

namespace SearchEngine

namespace Ranker

variable {S : Type} [LinearOrder S]

/-! ## `Ranker::InsertResult` -/

theorem set_length_append {α : Type} (A B : List α) (x y : α) :
    (A ++ x :: B).set A.length y = A ++ y :: B := by
  induction A with
  | nil => rfl
  | cons a as ih => simp [ih]

theorem getElem?_length_append {α : Type} (A B : List α) (x : α) :
    (A ++ x :: B)[A.length]? = some x := by
  induction A with
  | nil => simp
  | cons a as ih => simpa using ih

theorem filter_ge_of_all (r : RankingResult S) (A : List (RankingResult S))
    (h : ∀ x ∈ A, r.score ≤ x.score) :
    A.filter (fun x => decide (r.score ≤ x.score)) = A
      ∧ A.filter (fun x => decide (x.score < r.score)) = [] := by
  constructor
  · exact List.filter_eq_self.mpr (fun x hx => by simpa using h x hx)
  · exact List.filter_eq_nil_iff.mpr (fun x hx => by simpa using h x hx)

/-- The shifting loop, started just behind a sorted block `A`, puts the new
result behind the entries of `A` that score at least as much. -/
theorem insertLoop_spec (r : RankingResult S) (A : List (RankingResult S)) :
    ∀ (B : List (RankingResult S)) (x : RankingResult S), SortedDesc A →
    InsertResult.loop r A.length (A ++ x :: B)
      = some (A.filter (fun y => decide (r.score ≤ y.score))
          ++ r :: (A.filter (fun y => decide (y.score < r.score)) ++ B)) := by
  induction A using List.reverseRecOn with
  | nil =>
    intro B x _
    simp [InsertResult.loop]
  | append_singleton A a ih =>
    intro B x hs
    have hsA : SortedDesc A := (List.pairwise_append.mp hs).1
    have hle : ∀ y ∈ A, a.score ≤ y.score := fun y hy =>
      (List.pairwise_append.mp hs).2.2 y hy a (List.mem_singleton_self a)
    have hlen : (A ++ [a]).length = A.length + 1 := by simp
    have hL : A ++ [a] ++ x :: B = A ++ a :: (x :: B) := by simp
    rw [hlen]
    unfold InsertResult.loop
    rw [hL, getElem?_length_append]
    simp only []
    have hset : ∀ y, (A ++ a :: x :: B).set (A.length + 1) y = A ++ a :: y :: B := by
      intro y
      simp
    have hlt : A.length + 1 < (A ++ a :: x :: B).length := by simp
    by_cases hc : a.score < r.score
    · rw [if_pos hc, if_pos hlt, hset, ih (a :: B) a hsA]
      have hnot : ¬ r.score ≤ a.score := not_le.mpr hc
      simp [List.filter_append, hc, hnot]
    · rw [if_neg hc, if_pos hlt, hset]
      have hra : r.score ≤ a.score := not_lt.mp hc
      have hall : ∀ y ∈ A ++ [a], r.score ≤ y.score := by
        intro y hy
        rcases List.mem_append.mp hy with h1 | h1
        · exact le_trans hra (hle y h1)
        · simp at h1; rw [h1]; exact hra
      obtain ⟨h1, h2⟩ := filter_ge_of_all r (A ++ [a]) hall
      rw [h1, h2]
      simp

theorem filter_length_split (r : RankingResult S) (A : List (RankingResult S)) :
    (A.filter (fun y => decide (r.score ≤ y.score))).length
      + (A.filter (fun y => decide (y.score < r.score))).length = A.length := by
  induction A with
  | nil => rfl
  | cons a as ih =>
    by_cases hc : a.score < r.score
    · have hnot : ¬ r.score ≤ a.score := not_le.mpr hc
      simp only [List.filter_cons, hc, hnot, decide_True, decide_False, if_true,
        List.length_cons]
      simp only [Bool.false_eq_true, if_false]
      omega
    · have hra : r.score ≤ a.score := not_lt.mp hc
      simp only [List.filter_cons, hc, hra, decide_True, decide_False, if_true,
        List.length_cons]
      simp only [Bool.false_eq_true, if_false]
      omega

theorem insertAfterGE_length (r : RankingResult S) (A : List (RankingResult S)) :
    (insertAfterGE r A).length = A.length + 1 := by
  have := filter_length_split r A
  simp only [insertAfterGE, List.length_append, List.length_cons]
  omega

theorem insertAfterGE_sorted (r : RankingResult S) (A : List (RankingResult S))
    (hs : SortedDesc A) : SortedDesc (insertAfterGE r A) := by
  unfold insertAfterGE SortedDesc
  rw [List.pairwise_append]
  refine ⟨hs.sublist (List.filter_sublist _), ?_, ?_⟩
  · rw [List.pairwise_cons]
    refine ⟨?_, hs.sublist (List.filter_sublist _)⟩
    intro y hy
    have := (List.mem_filter.mp hy).2
    exact le_of_lt (by simpa using this)
  · intro y hy z hz
    have hy2 : r.score ≤ y.score := by simpa using (List.mem_filter.mp hy).2
    rcases List.mem_cons.mp hz with h1 | h1
    · rw [h1]; exact hy2
    · have : z.score < r.score := by simpa using (List.mem_filter.mp h1).2
      exact le_trans (le_of_lt this) hy2

/-- Claim C10. For `maxResults = K >= 1` and every results vector sorted by
non-increasing score with at most `K` entries, `Ranker::InsertResult(results, r)`
leaves `results` equal to the first `K` entries of the list obtained by inserting
`r` immediately after all entries whose score is `>= r.score`; that list is again
sorted by non-increasing score and has at most `K` entries. -/
theorem insertResult_spec (K : Nat) (results : List (RankingResult S)) (r : RankingResult S)
    (hK : 1 ≤ K) (hs : SortedDesc results) (hlen : results.length ≤ K) :
    InsertResult K results r = some ((insertAfterGE r results).take K)
      ∧ SortedDesc ((insertAfterGE r results).take K)
      ∧ ((insertAfterGE r results).take K).length ≤ K := by
  refine ⟨?_, (insertAfterGE_sorted r results hs).sublist (List.take_sublist _ _), ?_⟩
  · unfold InsertResult
    by_cases hlt : results.length < K
    · rw [if_pos hlt]
      simp only [List.length_append, List.length_singleton, Nat.add_sub_cancel]
      rw [insertLoop_spec r results [] r hs]
      rw [List.take_of_length_le (by rw [insertAfterGE_length]; omega)]
      simp [insertAfterGE]
    · rw [if_neg hlt]
      have hn : results.length = K := by omega
      have hne : results ≠ [] := by
        intro h; rw [h] at hn; simp at hn; omega
      obtain ⟨init, back, hres⟩ : ∃ init back, results = init ++ [back] :=
        ⟨results.dropLast, results.getLast hne, (List.dropLast_append_getLast hne).symm⟩
      subst hres
      have hsI : SortedDesc init := (List.pairwise_append.mp hs).1
      have hle : ∀ y ∈ init, back.score ≤ y.score := fun y hy =>
        (List.pairwise_append.mp hs).2.2 y hy back (List.mem_singleton_self back)
      have hlenI : init.length + 1 = K := by simpa using hn
      rw [List.getLast?_append_of_ne_nil _ (by simp), List.getLast?_singleton]
      simp only []
      by_cases hc : r.score ≤ back.score
      · rw [if_pos hc]
        have hall : ∀ y ∈ init ++ [back], r.score ≤ y.score := by
          intro y hy
          rcases List.mem_append.mp hy with h1 | h1
          · exact le_trans hc (hle y h1)
          · simp at h1; rw [h1]; exact hc
        obtain ⟨h1, h2⟩ := filter_ge_of_all r (init ++ [back]) hall
        unfold insertAfterGE
        rw [h1, h2, List.take_left' (by simpa using hlenI)]
      · rw [if_neg hc]
        have hbr : back.score < r.score := not_le.mp hc
        have hset : (init ++ [back]).set ((init ++ [back]).length - 1) r = init ++ [r] := by
          simp
        rw [hset]
        have hl1 : (init ++ [r]).length - 1 = init.length := by simp
        rw [hl1, insertLoop_spec r init [] r hsI]
        unfold insertAfterGE
        have hsplit := filter_length_split r init
        simp only [List.filter_append, List.filter_cons, List.filter_nil, hc, hbr,
          decide_True, decide_False, if_true]
        simp only [Bool.false_eq_true, if_false, List.append_nil]
        have hcat : List.filter (fun x => decide (r.score ≤ x.score)) init
              ++ r :: (List.filter (fun x => decide (x.score < r.score)) init ++ [back])
            = (List.filter (fun x => decide (r.score ≤ x.score)) init
              ++ r :: List.filter (fun x => decide (x.score < r.score)) init) ++ [back] := by
          simp
        rw [hcat, List.take_left' (by simp only [List.length_append, List.length_cons]; omega)]
  · rw [List.length_take]; exact Nat.min_le_left _ _

/-- Witness for claim C10: a result scoring 8 enters a full buffer of size three
behind the 9, and the last 7 is dropped. -/
theorem insertResult_spec_witness :
    (1 ≤ 3 ∧ SortedDesc sampleResults ∧ sampleResults.length ≤ 3)
      ∧ InsertResult 3 sampleResults { url := "n", title := "t", score := 8 }
          = some [{ url := "u1", title := "a", score := 9 },
                  { url := "n", title := "t", score := 8 },
                  { url := "u2", title := "b", score := 7 }] :=
  ⟨⟨by decide, by decide, by decide⟩,
    (insertResult_spec 3 sampleResults { url := "n", title := "t", score := 8 }
      (by decide) (by decide) (by decide)).1.trans (by decide)⟩

end Ranker

end SearchEngine

namespace SearchEngine

/-! ## Scenarios evaluated on the sample segments -/

set_option maxRecDepth 100000 in
/-- Claim C6 at its failing input. The stream `- {b> {d> #` is parsed into an
`Expr_NOT` whose right child is null (the second operand is read and
dropped), and `Expr_NOT::to_ISR` hands that null pointer to `ISRContainer`,
whose constructor asserts `excluded`: no iterator tree is built over scenario
S1, so none returns `doc0`. The same holds for every NOT node with a null
right child, whatever its left child. -/
theorem notQuery_builds_no_iterator :
    Expr_AST.new 9 queryNotBD = .ok (Expr.NOT (.Leaf_Word (bytesOf "b")) .null, [])
      ∧ (¬ ∃ it, Expr.to_ISR segmentS1 (Expr.NOT (.Leaf_Word (bytesOf "b")) .null)
            = some (some it))
      ∧ ∀ (blob : IndexBlob) (left : Expr), Expr.to_ISR blob (Expr.NOT left .null) = none := by
  have hall : ∀ (blob : IndexBlob) (left : Expr),
      Expr.to_ISR blob (Expr.NOT left .null) = none := by
    intro blob left
    rw [Expr.to_ISR]
    cases h : Expr.to_ISR blob left with
    | none => rfl
    | some l =>
      cases l with
      | none => rfl
      | some x => rfl
  refine ⟨by decide, ?_, hall⟩
  rintro ⟨it, h⟩
  rw [hall] at h
  cases h

set_option maxRecDepth 100000 in
/-- Counterexample for claim C7. On scenario S5 the first three `Next` calls of
the SynOr iterator with `advance_right = 1`, `advance_left = 2` do not return
a `cat` document, a `cat` document and a `feline` document: the second post
returned is the `feline` post at Location 4. -/
theorem synOr_not_cat_cat_feline :
    ¬ ∃ s1 s2 s3,
        callStarts 10 [.next, .next, .next]
            (ISRSynOr.new (get_ISRWord segmentS5 (bytesOf "cat"))
              (get_ISRWord segmentS5 (bytesOf "feline")) 1 2)
          = some [some s1, some s2, some s3]
        ∧ s1 ∈ [1, 13, 25] ∧ s2 ∈ [1, 13, 25] ∧ s3 ∈ [4, 16, 28] := by
  rintro ⟨s1, s2, s3, h, _, h2, _⟩
  have heval : callStarts 10 [.next, .next, .next]
      (ISRSynOr.new (get_ISRWord segmentS5 (bytesOf "cat"))
        (get_ISRWord segmentS5 (bytesOf "feline")) 1 2)
      = some [some 1, some 4, some 16] := by decide
  rw [heval] at h
  simp only [Option.some.injEq, List.cons.injEq, and_true] at h
  obtain ⟨_, h4, _⟩ := h
  subst h4
  simp at h2

set_option maxRecDepth 100000 in
/-- Scenario S5 through the iterators that the query path opens (`cat` in
documents 0, 4, 8 at Locations 1, 13, 25; `feline` in documents 1, 5, 9 at
Locations 4, 16, 28): successive `ISRSynOr::Next` calls with
`advance_right = 1`, `advance_left = 2` return `cat` (document 0), `feline`
(document 1), `feline` (document 5) and `cat` (document 8). -/
theorem synOr_next_sequence :
    callStarts 10 [.next, .next, .next, .next]
        (ISRSynOr.new (get_ISRWord segmentS5 (bytesOf "cat"))
          (get_ISRWord segmentS5 (bytesOf "feline")) 1 2)
      = some [some 1, some 4, some 16, some 25] := by
  decide

set_option maxRecDepth 100000 in
/-- Claim C9 at its failing input. Over the segment with `l` at Location 5 and
`r` at Location 10, `ISROr::Seek(7)` returns the post of `r` at 10; the
following `Seek(3)`, whose target is below that post, is not a no-op: it
returns the post of `l` at 5. -/
theorem or_seek_below_current_moves :
    callStarts 10 [.seek 7, .seek 3]
        (ISROr.new (get_ISRWord segmentLR (bytesOf "l")) (get_ISRWord segmentLR (bytesOf "r")))
      = some [some 10, some 5] := by
  decide

end SearchEngine

namespace SearchEngine

open SerializedPost SerializedPostingList

/-! ## Document posts: the same development for the document-end list -/

theorem serializeDocumentPost_length_ge (p : DocumentPost) (prev : Nat) :
    3 ≤ (SerializeDocumentPost p prev).length := by
  have h1 := encode_length_pos ((p.startLocation + U32 - prev) % U32)
  have h2 := encode_length_pos ((p.endLocation + U32 - p.startLocation) % U32)
  have h3 := encode_length_pos p.docId
  simp only [SerializeDocumentPost, List.length_append]
  omega

theorem serializeDocumentPost_length_le (p : DocumentPost) (prev : Nat) :
    (SerializeDocumentPost p prev).length ≤ 18 := by
  have h1 := encode_length_le ((p.startLocation + U32 - prev) % U32)
  have h2 := encode_length_le ((p.endLocation + U32 - p.startLocation) % U32)
  have h3 := encode_length_le p.docId
  simp only [SerializeDocumentPost, List.length_append]
  omega

theorem bytesRequiredForDocumentPost_eq (p : DocumentPost) (prev : Nat) :
    BytesRequiredForDocumentPost p prev = (SerializeDocumentPost p prev).length := by
  simp only [BytesRequiredForDocumentPost, bytesRequired_eq_length, SerializeDocumentPost,
    List.length_append]

/-- `DeserializeDocumentPost` inverts `SerializeDocumentPost`, whatever follows
in the buffer. -/
theorem deserialize_serializeDocumentPost (p : DocumentPost) (prev : Nat) (rest : List Nat)
    (hs : p.startLocation < U32) (he : p.endLocation < U32) (hid : p.docId < U32)
    (hprev : prev < U32) :
    DeserializeDocumentPost (SerializeDocumentPost p prev ++ rest) prev
      = some (p, (SerializeDocumentPost p prev).length, p.endLocation) := by
  have hU : 0 < U32 := by norm_num [U32]
  have hd1 : (p.startLocation + U32 - prev) % U32 < U32 := Nat.mod_lt _ hU
  have hd2 : (p.endLocation + U32 - p.startLocation) % U32 < U32 := Nat.mod_lt _ hU
  unfold DeserializeDocumentPost
  have e1 : SerializeDocumentPost p prev ++ rest
      = EncodeVarLengthDelta ((p.startLocation + U32 - prev) % U32)
        ++ (EncodeVarLengthDelta ((p.endLocation + U32 - p.startLocation) % U32)
          ++ (EncodeVarLengthDelta p.docId ++ rest)) := by
    simp [SerializeDocumentPost]
  rw [e1, decode_encode _ _ hd1]
  simp only [List.drop_left]
  rw [decode_encode _ _ hd2]
  simp only []
  have e2 : List.drop ((EncodeVarLengthDelta ((p.startLocation + U32 - prev) % U32)).length
        + (EncodeVarLengthDelta ((p.endLocation + U32 - p.startLocation) % U32)).length)
      (EncodeVarLengthDelta ((p.startLocation + U32 - prev) % U32)
        ++ (EncodeVarLengthDelta ((p.endLocation + U32 - p.startLocation) % U32)
          ++ (EncodeVarLengthDelta p.docId ++ rest)))
      = EncodeVarLengthDelta p.docId ++ rest := by
    rw [← List.drop_drop, List.drop_left, List.drop_left]
  rw [e2, decode_encode _ _ hid]
  simp only [u32_sub_add _ _ hs hprev, u32_sub_add _ _ he hs, SerializeDocumentPost,
    List.length_append]

theorem encodeDocumentPosts_append (prev : Nat) (a b : List DocumentPost) :
    encodeDocumentPosts prev (a ++ b)
      = encodeDocumentPosts prev a ++ encodeDocumentPosts (lastEndLocation prev a) b := by
  induction a generalizing prev with
  | nil => simp [encodeDocumentPosts, lastEndLocation]
  | cons p ps ih => simp [encodeDocumentPosts, lastEndLocation, ih]

theorem lastEndLocation_append (prev : Nat) (a b : List DocumentPost) :
    lastEndLocation prev (a ++ b) = lastEndLocation (lastEndLocation prev a) b := by
  induction a generalizing prev with
  | nil => simp [lastEndLocation]
  | cons p ps ih => simp [lastEndLocation, ih]

theorem lastEndLocation_lt (prev : Nat) (a : List DocumentPost) (hprev : prev < U32)
    (h : ∀ p ∈ a, p.endLocation < U32) : lastEndLocation prev a < U32 := by
  induction a generalizing prev with
  | nil => simpa [lastEndLocation] using hprev
  | cons p ps ih =>
    simp only [lastEndLocation]
    exact ih _ (h p (List.mem_cons_self _ _)) (fun q hq => h q (List.mem_cons_of_mem _ hq))

theorem encodeDocumentPosts_length_ge (prev : Nat) (a : List DocumentPost) :
    3 * a.length ≤ (encodeDocumentPosts prev a).length := by
  induction a generalizing prev with
  | nil => simp [encodeDocumentPosts]
  | cons p ps ih =>
    have h1 := serializeDocumentPost_length_ge p prev
    have h2 := ih p.endLocation
    simp only [encodeDocumentPosts, List.length_append, List.length_cons]
    omega

/-! ### `PostingList::AddDocumentPost` -/

theorem addDocumentPost_eq (pl pl1 : PostingList) (post : DocumentPost)
    (hlen : pl.rawPostingData.length < U32) (h : pl.AddDocumentPost post = some pl1) :
    pl1.rawPostingData = pl.rawPostingData ++ SerializeDocumentPost post pl.maxLocation
      ∧ pl1.maxLocation = post.endLocation
      ∧ pl1.rawPostingData.length < U32 := by
  unfold PostingList.AddDocumentPost at h
  simp only [Nat.mod_eq_of_lt hlen, bytesRequiredForDocumentPost_eq] at h
  split at h
  · cases h
  · rename_i raw hw
    have hle := writeBytes_some_le _ _ _ _ hw
    rw [vectorResize_length] at hle
    have hmod : (pl.rawPostingData.length
          + (SerializeDocumentPost post pl.maxLocation).length) % U32
        = pl.rawPostingData.length + (SerializeDocumentPost post pl.maxLocation).length := by
      have := Nat.mod_le
        (pl.rawPostingData.length + (SerializeDocumentPost post pl.maxLocation).length) U32
      omega
    have hlt : pl.rawPostingData.length
        + (SerializeDocumentPost post pl.maxLocation).length < U32 := by
      rw [← hmod]; exact Nat.mod_lt _ (by norm_num [U32])
    rw [hmod, vectorResize_grow, writeBytes_at_end] at hw
    cases hw
    cases h
    refine ⟨rfl, rfl, ?_⟩
    simpa only [List.length_append] using hlt

theorem addDocumentPosts_eq (docs : List DocumentPost) : ∀ (pl pl1 : PostingList),
    pl.rawPostingData.length < U32 → pl.AddDocumentPosts docs = some pl1 →
    pl1.rawPostingData = pl.rawPostingData ++ encodeDocumentPosts pl.maxLocation docs
      ∧ pl1.rawPostingData.length < U32 := by
  induction docs with
  | nil =>
    intro pl pl1 hlen h
    simp only [PostingList.AddDocumentPosts, Option.some.injEq] at h
    subst h
    simp [encodeDocumentPosts, hlen]
  | cons p ps ih =>
    intro pl pl1 hlen h
    unfold PostingList.AddDocumentPosts at h
    split at h
    · cases h
    · rename_i pl2 h2
      obtain ⟨hraw, hmax, hlen2⟩ := addDocumentPost_eq pl pl2 p hlen h2
      obtain ⟨hraw1, hlen1⟩ := ih pl2 pl1 hlen2 h
      refine ⟨?_, hlen1⟩
      rw [hraw1, hraw, hmax]; simp [encodeDocumentPosts]

/-! ### Document boundaries -/

theorem docOffset_zero (docs : List DocumentPost) : docOffset docs 0 = 0 := by
  simp [docOffset, encodeDocumentPosts]

theorem docLocation_zero (docs : List DocumentPost) : docLocation docs 0 = 0 := by
  simp [docLocation, lastEndLocation]

theorem docLocation_succ (docs : List DocumentPost) (k : Nat) (p : DocumentPost)
    (hp : docs[k]? = some p) : docLocation docs (k + 1) = p.endLocation := by
  simp [docLocation, take_succ_of_getElem? docs k p hp, lastEndLocation_append, lastEndLocation]

theorem docOffset_succ (docs : List DocumentPost) (k : Nat) (p : DocumentPost)
    (hp : docs[k]? = some p) :
    docOffset docs (k + 1)
      = docOffset docs k + (SerializeDocumentPost p (docLocation docs k)).length := by
  simp [docOffset, docLocation, take_succ_of_getElem? docs k p hp, encodeDocumentPosts_append,
    encodeDocumentPosts]

theorem docOffset_of_ge (docs : List DocumentPost) (k : Nat) (hk : docs.length ≤ k) :
    docOffset docs k = (encodeDocumentPosts 0 docs).length := by
  simp [docOffset, List.take_of_length_le hk]

theorem docLocation_of_ge (docs : List DocumentPost) (k : Nat) (hk : docs.length ≤ k) :
    docLocation docs k = lastEndLocation 0 docs := by
  simp [docLocation, List.take_of_length_le hk]

theorem encodeDoc_split (docs : List DocumentPost) (k : Nat) :
    encodeDocumentPosts 0 docs
      = encodeDocumentPosts 0 (docs.take k)
        ++ encodeDocumentPosts (docLocation docs k) (docs.drop k) := by
  conv_lhs => rw [← List.take_append_drop k docs]
  rw [encodeDocumentPosts_append]; rfl

theorem encodeDoc_drop (docs : List DocumentPost) (k : Nat) :
    (encodeDocumentPosts 0 docs).drop (docOffset docs k)
      = encodeDocumentPosts (docLocation docs k) (docs.drop k) := by
  conv_lhs => rw [encodeDoc_split docs k]
  exact List.drop_left _ _

theorem docOffset_le (docs : List DocumentPost) (k : Nat) :
    docOffset docs k ≤ (encodeDocumentPosts 0 docs).length := by
  have h := congrArg List.length (encodeDoc_split docs k)
  simp only [List.length_append] at h
  unfold docOffset; omega

theorem docOffset_lt (docs : List DocumentPost) (k : Nat) (hk : k < docs.length) :
    docOffset docs k < (encodeDocumentPosts 0 docs).length := by
  have h := congrArg List.length (encodeDoc_split docs k)
  simp only [List.length_append] at h
  have h2 := encodeDocumentPosts_length_ge (docLocation docs k) (docs.drop k)
  simp only [List.length_drop] at h2
  unfold docOffset; omega

theorem docLocation_lt (docs : List DocumentPost) (k : Nat)
    (h : ∀ p ∈ docs, p.endLocation < U32) : docLocation docs k < U32 :=
  lastEndLocation_lt 0 _ (by norm_num [U32]) (fun p hp => h p (List.mem_of_mem_take hp))

theorem docStart_lt (docs : List DocumentPost) (hok : DocPostsOK docs) :
    ∀ d ∈ docs, d.startLocation < U32 :=
  fun d hd => Nat.lt_of_le_of_lt (hok.2.1 d hd) (hok.2.2.1 d hd)

/-- Decoding at the boundary before document `k` yields that document and the
next boundary. -/
theorem deserializeDoc_at (docs : List DocumentPost) (k : Nat) (p : DocumentPost)
    (hp : docs[k]? = some p) (hok : DocPostsOK docs) :
    DeserializeDocumentPost ((encodeDocumentPosts 0 docs).drop (docOffset docs k))
        (docLocation docs k)
      = some (p, docOffset docs (k + 1) - docOffset docs k, p.endLocation)
      ∧ docOffset docs k + (docOffset docs (k + 1) - docOffset docs k)
          = docOffset docs (k + 1) := by
  have hmem : p ∈ docs := List.getElem?_mem hp
  rw [encodeDoc_drop, drop_of_getElem? docs k p hp, docOffset_succ docs k p hp]
  simp only [encodeDocumentPosts]
  rw [deserialize_serializeDocumentPost p _ _ (docStart_lt docs hok p hmem)
    (hok.2.2.1 p hmem) (hok.2.2.2 p hmem) (docLocation_lt docs k hok.2.2.1)]
  simp

theorem docLocation_cases (docs : List DocumentPost) (k : Nat) :
    docLocation docs k = 0 ∨ ∃ p ∈ docs, docLocation docs k = p.endLocation := by
  induction k with
  | zero => left; exact docLocation_zero docs
  | succ n ih =>
    rcases Nat.lt_or_ge n docs.length with hn | hn
    · right
      have hq : docs[n]? = some docs[n] := List.getElem?_eq_getElem hn
      exact ⟨docs[n], List.getElem_mem hn, docLocation_succ docs n _ hq⟩
    · rw [docLocation_of_ge docs _ (by omega)]
      rw [docLocation_of_ge docs _ hn] at ih
      exact ih

theorem docLocation_noWrap (docs : List DocumentPost) (k : Nat)
    (h : ∀ p ∈ docs, p.endLocation + 1 < U32) : docLocation docs k + 1 < U32 := by
  rcases docLocation_cases docs k with h0 | ⟨p, hp, hk⟩
  · rw [h0]; norm_num [U32]
  · rw [hk]; exact h p hp

theorem docCursor_min (docs : List DocumentPost) (k : Nat) :
    docOffset docs k = docOffset docs (min k docs.length)
      ∧ docLocation docs k = docLocation docs (min k docs.length) := by
  rcases Nat.le_total k docs.length with h | h
  · rw [Nat.min_eq_left h]; exact ⟨rfl, rfl⟩
  · rw [Nat.min_eq_right h, docOffset_of_ge docs k h, docLocation_of_ge docs k h,
      docOffset_of_ge docs _ (Nat.le_refl _), docLocation_of_ge docs _ (Nat.le_refl _)]
    exact ⟨rfl, rfl⟩

/-! ### Sorted documents and the first document ending at or after a target -/

theorem docEnds_increasing (docs : List DocumentPost) (hok : DocPostsOK docs) (i j : Nat)
    (p q : DocumentPost) (hij : i < j) (hp : docs[i]? = some p) (hq : docs[j]? = some q) :
    p.endLocation < q.startLocation := by
  have hj : j < docs.length := by
    rcases Nat.lt_or_ge j docs.length with h | h
    · exact h
    · rw [List.getElem?_eq_none h] at hq; cases hq
  have hi : i < docs.length := by omega
  rw [List.getElem?_eq_getElem hi] at hp
  rw [List.getElem?_eq_getElem hj] at hq
  cases hp; cases hq
  exact List.pairwise_iff_getElem.mp hok.1 i j hi hj hij

theorem countEndBelow_all_below (T : Nat) (a b : List DocumentPost)
    (h : ∀ p ∈ a, p.endLocation < T) :
    countEndBelow T (a ++ b) = a.length + countEndBelow T b := by
  induction a with
  | nil => simp
  | cons p ps ih =>
    have hp : ¬ T ≤ p.endLocation := Nat.not_le.mpr (h p (List.mem_cons_self _ _))
    have ih1 := ih (fun q hq => h q (List.mem_cons_of_mem _ hq))
    rw [List.cons_append]
    simp only [countEndBelow, if_neg hp, List.length_cons]
    rw [ih1]
    omega

theorem le_docLocation_of_mem_take (docs : List DocumentPost) (k : Nat)
    (hok : DocPostsOK docs) :
    ∀ p ∈ docs.take k, p.endLocation ≤ docLocation docs k := by
  induction k with
  | zero => intro p hp; simp at hp
  | succ n ih =>
    intro p hp
    rcases Nat.lt_or_ge n docs.length with hn | hn
    · have hq : docs[n]? = some docs[n] := List.getElem?_eq_getElem hn
      rw [take_succ_of_getElem? docs n _ hq] at hp
      rw [docLocation_succ docs n _ hq]
      rcases List.mem_append.mp hp with h1 | h1
      · obtain ⟨i, hi, hpi⟩ := List.getElem_of_mem h1
        have hi' : i < n := by
          have h2 : (docs.take n).length ≤ n := by simp
          omega
        have hi2 : i < docs.length := by omega
        have hpi2 : docs[i]? = some p := by
          rw [List.getElem?_eq_getElem hi2, ← hpi, List.getElem_take]
        have h3 := docEnds_increasing docs hok i n p docs[n] hi' hpi2 hq
        have h4 := hok.2.1 docs[n] (List.getElem_mem hn)
        omega
      · simp at h1; subst h1; exact Nat.le_refl _
    · rw [List.take_of_length_le (by omega)] at hp
      have := ih p (by rw [List.take_of_length_le hn]; exact hp)
      rw [docLocation_of_ge docs _ (by omega)]
      rw [docLocation_of_ge docs _ hn] at this
      exact this

theorem countEndBelow_from_boundary (T : Nat) (docs : List DocumentPost) (k : Nat)
    (hok : DocPostsOK docs) (hk : k = 0 ∨ docLocation docs k < T) (hkn : k ≤ docs.length) :
    countEndBelow T docs = k + countEndBelow T (docs.drop k) := by
  have hall : ∀ p ∈ docs.take k, p.endLocation < T := by
    intro p hp
    rcases hk with h0 | hlt
    · subst h0; simp at hp
    · exact Nat.lt_of_le_of_lt (le_docLocation_of_mem_take docs k hok p hp) hlt
  conv_lhs => rw [← List.take_append_drop k docs]
  rw [countEndBelow_all_below T _ _ hall, List.length_take, Nat.min_eq_left hkn]

theorem findDoc_eq_getElem? (T : Nat) (l : List DocumentPost) :
    l.find? (fun p => decide (T ≤ p.endLocation)) = l[countEndBelow T l]? := by
  induction l with
  | nil => simp [countEndBelow]
  | cons q qs ih =>
    unfold countEndBelow
    by_cases h : T ≤ q.endLocation
    · simp [h]
    · simp [h, ih]

/-! ### The scan and the seek over documents -/

theorem seekDocLoop_spec (spl : SerializedPostingList) (docs : List DocumentPost)
    (h : DocListOK spl docs) (T : Nat) : ∀ (fuel k : Nat), k ≤ docs.length →
    docs.length - k < fuel →
    SeekDocumentPost.loop spl T fuel (docLocation docs k) (docOffset docs k)
      = some (docs[k + countEndBelow T (docs.drop k)]?,
          docLocation docs (k + countEndBelow T (docs.drop k) + 1),
          docOffset docs (k + countEndBelow T (docs.drop k) + 1)) := by
  intro fuel
  induction fuel with
  | zero => intro k _ hf; omega
  | succ n ih =>
    intro k hk hf
    unfold SeekDocumentPost.loop
    rw [h.size, h.data]
    rcases Nat.lt_or_ge k docs.length with hlt | hge
    · have hq : docs[k]? = some docs[k] := List.getElem?_eq_getElem hlt
      obtain ⟨hdes, hoff⟩ := deserializeDoc_at docs k _ hq h.sorted
      rw [if_pos (docOffset_lt docs k hlt), hdes]
      simp only []
      rw [hoff, drop_of_getElem? docs k _ hq]
      by_cases hT : T ≤ docs[k].endLocation
      · have : countEndBelow T (docs[k] :: List.drop (k + 1) docs) = 0 := by
          simp [countEndBelow, hT]
        simp only [this, ge_iff_le, if_pos hT, Nat.add_zero, hq, docLocation_succ docs k _ hq]
      · have : countEndBelow T (docs[k] :: List.drop (k + 1) docs)
            = countEndBelow T (List.drop (k + 1) docs) + 1 := by
          simp [countEndBelow, hT]
        rw [this, if_neg hT]
        have := ih (k + 1) hlt (by omega)
        rw [docLocation_succ docs k _ hq] at this
        rw [this]
        have e : k + 1 + countEndBelow T (List.drop (k + 1) docs)
            = k + (countEndBelow T (List.drop (k + 1) docs) + 1) := by omega
        rw [e]
    · have hkn : k = docs.length := by omega
      subst hkn
      have hoff := docOffset_of_ge docs docs.length (Nat.le_refl _)
      rw [if_neg (by rw [hoff]; exact Nat.lt_irrefl _)]
      simp only [List.drop_length, countEndBelow, Nat.add_zero]
      rw [List.getElem?_eq_none (Nat.le_refl _)]
      rw [docLocation_of_ge docs (docs.length + 1) (by omega),
        docOffset_of_ge docs (docs.length + 1) (by omega),
        docLocation_of_ge docs docs.length (Nat.le_refl _), hoff]

theorem docTableMax_some (spl : SerializedPostingList) (docs : List DocumentPost)
    (h : DocListOK spl docs) : ∃ M, spl.tableMaxLocation = some M ∧ M + 1 < U32 := by
  unfold tableMaxLocation
  rw [if_pos h.skipPos]
  have hlt : spl.skipCount - 1 < spl.skipTable.length := by
    have := h.skipPos; have := h.tableLen; omega
  rw [List.get?_eq_getElem?, List.getElem?_eq_getElem hlt]
  refine ⟨_, rfl, ?_⟩
  obtain ⟨k, _, hk⟩ := h.table _ (List.getElem_mem hlt)
  rw [hk]
  exact docLocation_noWrap docs k h.noWrap

theorem docFindBest_spec (spl : SerializedPostingList) (docs : List DocumentPost)
    (h : DocListOK spl docs) (T cur M : Nat) (hM : M + 1 < U32) :
    ∃ best, spl.FindBestSkipEntry T cur M = some best ∧
      (best = none ∨ ∃ e ∈ spl.skipTable, best = some e ∧ cur < e.PostLocation
        ∧ e.PostLocation < T) := by
  obtain ⟨b, hb⟩ := getBucketIndex_some T M spl.skipCount hM
  unfold FindBestSkipEntry
  rw [hb]
  simp only []
  split
  · exact ⟨none, rfl, Or.inl rfl⟩
  · split
    · rename_i hlt
      have hlt2 : b < spl.skipTable.length := by rw [h.tableLen]; exact hlt
      rw [List.get?_eq_getElem?, List.getElem?_eq_getElem hlt2]
      simp only []
      split
      · rename_i hc
        exact ⟨_, rfl, Or.inr ⟨_, List.getElem_mem hlt2, rfl, hc.1, hc.2⟩⟩
      · exact ⟨none, rfl, Or.inl rfl⟩
    · exact ⟨none, rfl, Or.inl rfl⟩

/-- `SerializedPostingList::SeekDocumentPost` from any document boundary: the
first document of the whole list that ends at or after the target, with the
cursor just behind it. -/
theorem seekDocumentPost_spec (spl : SerializedPostingList) (docs : List DocumentPost)
    (h : DocListOK spl docs) (T k0 : Nat) :
    spl.SeekDocumentPost T (docLocation docs k0) (docOffset docs k0)
      = some (docs[countEndBelow T docs]?, docLocation docs (countEndBelow T docs + 1),
          docOffset docs (countEndBelow T docs + 1)) := by
  obtain ⟨M, hM, hMlt⟩ := docTableMax_some spl docs h
  unfold SeekDocumentPost
  rw [hM]
  simp only []
  have hc0 : ∃ k, k ≤ docs.length ∧ (k = 0 ∨ docLocation docs k < T) ∧
      (if docLocation docs k0 ≥ T then ((0 : Nat), (0 : Nat))
        else (docLocation docs k0, docOffset docs k0))
        = (docLocation docs k, docOffset docs k) := by
    by_cases hge : docLocation docs k0 ≥ T
    · refine ⟨0, Nat.zero_le _, Or.inl rfl, ?_⟩
      rw [if_pos hge, docLocation_zero, docOffset_zero]
    · refine ⟨min k0 docs.length, Nat.min_le_right _ _, Or.inr ?_, ?_⟩
      · rw [← (docCursor_min docs k0).2]; omega
      · rw [if_neg hge, ← (docCursor_min docs k0).2, ← (docCursor_min docs k0).1]
  obtain ⟨k, hkn, hkT, hk⟩ := hc0
  rw [hk]
  obtain ⟨best, hbest, hcases⟩ := docFindBest_spec spl docs h T (docLocation docs k) M hMlt
  simp only [hbest]
  have hfuel : ∀ k1, docs.length - k1 < spl.postingDataSize + 1 := by
    intro k1
    have := encodeDocumentPosts_length_ge 0 docs
    rw [h.size, h.data]; omega
  rcases hcases with hnone | ⟨e, he, hsome, _, hlt⟩
  · subst hnone
    simp only []
    rw [seekDocLoop_spec spl docs h T _ k hkn (hfuel k),
      ← countEndBelow_from_boundary T docs k h.sorted hkT hkn]
  · subst hsome
    obtain ⟨j, hoff, hloc⟩ := h.table e he
    simp only []
    rw [hoff, hloc, (docCursor_min docs j).2, (docCursor_min docs j).1]
    have hjT : docLocation docs (min j docs.length) < T := by
      rw [← (docCursor_min docs j).2, ← hloc]; exact hlt
    rw [seekDocLoop_spec spl docs h T _ _ (Nat.min_le_right _ _) (hfuel _),
      ← countEndBelow_from_boundary T docs _ h.sorted (Or.inr hjT) (Nat.min_le_right _ _)]

/-! ### The skip table built by `BuildDocumentPostSkipTable` -/

theorem buildDocLoop_valid (docs : List DocumentPost) (hok : DocPostsOK docs)
    (hlen : (encodeDocumentPosts 0 docs).length < U32) (M n : Nat) (hn : 0 < n) :
    ∀ (fuel k : Nat) (entries : List SkipEntry) (lb : Nat)
      (res : List SkipEntry × Nat × Nat × Nat),
    k ≤ docs.length →
    (∀ e ∈ entries, ∃ j, e.Offset = docOffset docs j ∧ e.PostLocation = docLocation docs j) →
    BuildDocumentPostSkipTable.loop (encodeDocumentPosts 0 docs) M n fuel entries
        (docOffset docs k) (docLocation docs k) lb = some res →
    res.1.length = entries.length
      ∧ (∀ e ∈ res.1, ∃ j, e.Offset = docOffset docs j
          ∧ e.PostLocation = docLocation docs j)
      ∧ res.2.1 = docOffset docs docs.length
      ∧ res.2.2.1 = docLocation docs docs.length
      ∧ (∀ i p, k ≤ i → docs[i]? = some p → ∃ b, GetBucketIndex p.endLocation M n = some b) := by
  intro fuel
  induction fuel with
  | zero =>
    intro k entries lb res _ _ h
    simp [BuildDocumentPostSkipTable.loop] at h
  | succ f ih =>
    intro k entries lb res hk hval h
    unfold BuildDocumentPostSkipTable.loop at h
    rcases Nat.lt_or_ge k docs.length with hlt | hge
    · have hq : docs[k]? = some docs[k] := List.getElem?_eq_getElem hlt
      obtain ⟨hdes, hoff⟩ := deserializeDoc_at docs k _ hq hok
      rw [if_pos ⟨docOffset_lt docs k hlt, hn⟩] at h
      simp only [hdes] at h
      have hmod : docOffset docs (k + 1) % U32 = docOffset docs (k + 1) :=
        Nat.mod_eq_of_lt (Nat.lt_of_le_of_lt (docOffset_le docs (k + 1)) hlen)
      rw [hoff, hmod, ← docLocation_succ docs k _ hq] at h
      cases hb : GetBucketIndex (docLocation docs (k + 1)) M n with
      | none => rw [hb] at h; simp at h
      | some bucket =>
        rw [hb] at h
        simp only [] at h
        have hbk : ∀ i p, k ≤ i → docs[i]? = some p →
            (∀ i p, k + 1 ≤ i → docs[i]? = some p →
              ∃ b, GetBucketIndex p.endLocation M n = some b) →
            ∃ b, GetBucketIndex p.endLocation M n = some b := by
          intro i p hi hp hrest
          rcases Nat.eq_or_lt_of_le hi with heq | hgt
          · subst heq
            rw [hq] at hp
            cases hp
            rw [← docLocation_succ docs k _ hq]
            exact ⟨bucket, hb⟩
          · exact hrest i p hgt hp
        split at h
        · have hval2 : ∀ e ∈ fillEntries entries 0 (lb + 1) bucket
              { Offset := docOffset docs k, PostLocation := docLocation docs k },
              ∃ j, e.Offset = docOffset docs j ∧ e.PostLocation = docLocation docs j := by
            intro e he
            rcases fillEntries_mem _ _ _ _ _ _ he with h1 | h1
            · exact ⟨k, by rw [h1], by rw [h1]⟩
            · exact hval e h1
          obtain ⟨r1, r2, r3, r4, r5⟩ := ih (k + 1) _ bucket res hlt hval2 h
          rw [fillEntries_length] at r1
          exact ⟨r1, r2, r3, r4, fun i p hi hp => hbk i p hi hp r5⟩
        · obtain ⟨r1, r2, r3, r4, r5⟩ := ih (k + 1) _ lb res hlt hval h
          exact ⟨r1, r2, r3, r4, fun i p hi hp => hbk i p hi hp r5⟩
    · have hkn : k = docs.length := by omega
      subst hkn
      have hoff := docOffset_of_ge docs docs.length (Nat.le_refl _)
      rw [if_neg (by rw [hoff]; intro hc; exact Nat.lt_irrefl _ hc.1)] at h
      cases h
      refine ⟨rfl, hval, rfl, rfl, ?_⟩
      intro i p hi hp
      rw [List.getElem?_eq_none hi] at hp
      cases hp

theorem buildDocumentPostSkipTable_valid (docs : List DocumentPost) (hok : DocPostsOK docs)
    (hlen : (encodeDocumentPosts 0 docs).length < U32) (M numPosts : Nat)
    (table : List SkipEntry)
    (h : BuildDocumentPostSkipTable (encodeDocumentPosts 0 docs) M numPosts = some table) :
    table.length = ComputeSkipCount numPosts
      ∧ (∀ e ∈ table, ∃ j, e.Offset = docOffset docs j
          ∧ e.PostLocation = docLocation docs j)
      ∧ (∀ p ∈ docs, ∃ b, GetBucketIndex p.endLocation M (ComputeSkipCount numPosts) = some b) := by
  unfold BuildDocumentPostSkipTable at h
  simp only [] at h
  split at h
  · cases h
  · rename_i entries off cur lb hloop
    cases h
    have hinit : ∀ e ∈ (List.replicate (ComputeSkipCount numPosts)
          ({ Offset := 0, PostLocation := 0 } : SkipEntry)).set 0
          { Offset := 0, PostLocation := 0 },
        ∃ j, e.Offset = docOffset docs j ∧ e.PostLocation = docLocation docs j := by
      intro e he
      rcases List.mem_or_eq_of_mem_set he with h1 | h1
      · rw [List.eq_of_mem_replicate h1]
        exact ⟨0, (docOffset_zero docs).symm, (docLocation_zero docs).symm⟩
      · rw [h1]
        exact ⟨0, (docOffset_zero docs).symm, (docLocation_zero docs).symm⟩
    have h0 : BuildDocumentPostSkipTable.loop (encodeDocumentPosts 0 docs) M
        (ComputeSkipCount numPosts) ((encodeDocumentPosts 0 docs).length + 1)
        ((List.replicate (ComputeSkipCount numPosts)
          ({ Offset := 0, PostLocation := 0 } : SkipEntry)).set 0
          { Offset := 0, PostLocation := 0 })
        (docOffset docs 0) (docLocation docs 0) 0 = some (entries, off, cur, lb) := by
      rw [docOffset_zero, docLocation_zero]; exact hloop
    obtain ⟨r1, r2, r3, r4, r5⟩ := buildDocLoop_valid docs hok hlen M _
      (computeSkipCount_pos numPosts) _ 0 _ 0 _ (Nat.zero_le _) hinit h0
    simp only at r1 r2 r3 r4
    refine ⟨?_, ?_, ?_⟩
    · rw [fillEntries_length, r1]; simp
    · intro e he
      rcases fillEntries_mem _ _ _ _ _ _ he with h1 | h1
      · exact ⟨docs.length, by rw [h1, r3], by rw [h1, r4]⟩
      · exact r2 e h1
    · intro p hp
      obtain ⟨i, hi, hpi⟩ := List.getElem_of_mem hp
      exact r5 i p (Nat.zero_le _) (by rw [List.getElem?_eq_getElem hi, hpi])

/-- The first pass of `WriteDocumentPostingList` returns a bound on every end
location that is itself 0 or an end location. -/
theorem docMaxLoop_spec (docs : List DocumentPost) (hok : DocPostsOK docs)
    (hlen : (encodeDocumentPosts 0 docs).length < U32) : ∀ (fuel k m : Nat),
    k ≤ docs.length → docs.length - k < fuel → m < U32 →
    ∃ M, WriteDocumentPostingList.maxLoop (encodeDocumentPosts 0 docs) fuel (docOffset docs k)
        (docLocation docs k) m = some M
      ∧ m ≤ M ∧ M < U32 ∧ ∀ i p, k ≤ i → docs[i]? = some p → p.endLocation ≤ M := by
  intro fuel
  induction fuel with
  | zero => intro k m _ hf; omega
  | succ f ih =>
    intro k m hk hf hm
    unfold WriteDocumentPostingList.maxLoop
    rcases Nat.lt_or_ge k docs.length with hlt | hge
    · have hq : docs[k]? = some docs[k] := List.getElem?_eq_getElem hlt
      obtain ⟨hdes, hoff⟩ := deserializeDoc_at docs k _ hq hok
      have hmod : docOffset docs (k + 1) % U32 = docOffset docs (k + 1) :=
        Nat.mod_eq_of_lt (Nat.lt_of_le_of_lt (docOffset_le docs (k + 1)) hlen)
      rw [if_pos (docOffset_lt docs k hlt), hdes]
      simp only []
      rw [hoff, hmod, ← docLocation_succ docs k _ hq]
      have hend : docs[k].endLocation < U32 := hok.2.2.1 _ (List.getElem_mem hlt)
      obtain ⟨M, h1, h2, h3, h4⟩ := ih (k + 1) (max m docs[k].endLocation) hlt (by omega)
        (by rw [Nat.max_lt]; exact ⟨hm, hend⟩)
      refine ⟨M, ?_, ?_, h3, ?_⟩
      · rw [docLocation_succ docs k _ hq] at h1 ⊢; exact h1
      · exact Nat.le_trans (Nat.le_max_left _ _) h2
      · intro i p hi hp
        rcases Nat.eq_or_lt_of_le hi with heq | hgt
        · subst heq
          rw [hq] at hp; cases hp
          exact Nat.le_trans (Nat.le_max_right _ _) h2
        · exact h4 i p hgt hp
    · have hkn : k = docs.length := by omega
      subst hkn
      have hoff := docOffset_of_ge docs docs.length (Nat.le_refl _)
      rw [if_neg (by rw [hoff]; exact Nat.lt_irrefl _)]
      refine ⟨m, rfl, Nat.le_refl _, hm, ?_⟩
      intro i p hi hp
      rw [List.getElem?_eq_none hi] at hp
      cases hp

/-- A document-end list that appending and `WriteDocumentPostingList` produced
from `docs` holds exactly `docs`. -/
theorem writeDocumentPostingList_ok (docs : List DocumentPost) (pl : PostingList)
    (spl : SerializedPostingList) (hok : DocPostsOK docs)
    (hadd : PostingList.empty.AddDocumentPosts docs = some pl)
    (hw : WriteDocumentPostingList pl = some spl) : DocListOK spl docs := by
  obtain ⟨hraw, hlen⟩ := addDocumentPosts_eq docs PostingList.empty pl
    (by simp [PostingList.empty, U32]) hadd
  simp only [PostingList.empty, List.nil_append] at hraw
  rw [hraw] at hlen
  unfold WriteDocumentPostingList at hw
  rw [hraw] at hw
  obtain ⟨M, hmax, _, hMlt, hMge⟩ := docMaxLoop_spec docs hok hlen
    ((encodeDocumentPosts 0 docs).length + 1) 0 0 (Nat.zero_le _)
    (by have := encodeDocumentPosts_length_ge 0 docs; omega) (by norm_num [U32])
  rw [docOffset_zero, docLocation_zero] at hmax
  rw [hmax] at hw
  simp only [] at hw
  split at hw
  · cases hw
  · rename_i table htable
    cases hw
    obtain ⟨t1, t2, t3⟩ := buildDocumentPostSkipTable_valid docs hok hlen _ _ table htable
    have hnoWrap : ∀ p ∈ docs, p.endLocation + 1 < U32 := by
      intro p hp
      obtain ⟨i, hi, hpi⟩ := List.getElem_of_mem hp
      have hple : p.endLocation ≤ M :=
        hMge i p (Nat.zero_le _) (by rw [List.getElem?_eq_getElem hi, hpi])
      obtain ⟨b, hb⟩ := t3 p hp
      unfold GetBucketIndex at hb
      by_cases hM0 : M = 0
      · have : p.endLocation = 0 := by omega
        rw [this]; norm_num [U32]
      · rw [if_neg hM0, if_neg (by omega)] at hb
        by_cases hz : (M + 1) % U32 = 0
        · rw [if_pos hz] at hb; cases hb
        · have : M + 1 < U32 := by
            unfold U32 at *; omega
          omega
    exact
      { sorted := hok
        data := rfl
        size := Nat.mod_eq_of_lt hlen
        tableLen := t1
        skipPos := computeSkipCount_pos _
        table := t2
        noWrap := hnoWrap }

end SearchEngine

namespace SearchEngine

open SerializedPost SerializedPostingList

/-! ## Word and document iterators on written lists -/

theorem writtenWordList_ok (spl : SerializedPostingList) (posts : List WordPost)
    (h : WrittenWordList spl posts) : WordListOK spl posts := by
  obtain ⟨hok, pl, hadd, hw⟩ := h
  exact writeWordPostingList_ok posts pl spl hok hadd hw

theorem writtenDocList_ok (spl : SerializedPostingList) (docs : List DocumentPost)
    (h : WrittenDocList spl docs) : DocListOK spl docs := by
  obtain ⟨hok, pl, hadd, hw⟩ := h
  exact writeDocumentPostingList_ok docs pl spl hok hadd hw

theorem freshWord_ok (w : ISRWord) (posts : List WordPost) (h : FreshWord w posts) :
    WordCursorOK w posts := by
  obtain ⟨hw, hd, hc, hcur⟩ := h
  exact
    { list := writtenWordList_ok _ _ hw
      cursor := ⟨0, Nat.zero_le _, by rw [hd, wordOffset_zero], by rw [hc, wordLocation_zero],
        Or.inl hcur⟩ }

theorem freshDoc_ok (d : ISRDoc) (docs : List DocumentPost) (h : FreshDoc d docs) :
    DocCursorOK d docs := by
  obtain ⟨hw, hd, hc, hcur⟩ := h
  exact
    { list := writtenDocList_ok _ _ hw
      cursor := ⟨0, Nat.zero_le _, by rw [hd, docOffset_zero], by rw [hc, docLocation_zero],
        Or.inl hcur⟩ }

theorem wordCursor_current_mem (w : ISRWord) (posts : List WordPost)
    (h : WordCursorOK w posts) (c : WordPost) (hc : w.current = some c) :
    c ∈ posts ∧ c.startLocation + 1 < U32 := by
  obtain ⟨k, _, _, _, hk⟩ := h.cursor
  rcases hk with h0 | ⟨_, h1⟩
  · rw [h0] at hc; cases hc
  · rw [hc] at h1
    have hm := List.getElem?_mem h1
    exact ⟨hm, h.list.noWrap c hm⟩

theorem docCursor_current_mem (d : ISRDoc) (docs : List DocumentPost)
    (h : DocCursorOK d docs) (c : DocumentPost) (hc : d.current = some c) : c ∈ docs := by
  obtain ⟨k, _, _, _, hk⟩ := h.cursor
  rcases hk with h0 | ⟨_, h1⟩
  · rw [h0] at hc; cases hc
  · rw [hc] at h1
    exact List.getElem?_mem h1

theorem firstPostGE_eq (T : Nat) (posts : List WordPost) :
    firstPostGE T posts = posts[countBelow T posts]? :=
  find?_eq_getElem?_countBelow T posts

theorem firstDocGE_eq (T : Nat) (docs : List DocumentPost) :
    firstDocGE T docs = docs[countEndBelow T docs]? :=
  findDoc_eq_getElem? T docs

/-- The state a word iterator is left in by a seek that ran `SeekWordPost`. -/
theorem wordCursor_after_seek (w : ISRWord) (posts : List WordPost) (j : Nat)
    (h : WordCursorOK w posts) :
    WordCursorOK { w with data := wordOffset posts (j + 1),
                          currLocation := wordLocation posts (j + 1),
                          current := posts[j]? } posts := by
  refine { list := h.list, cursor := ?_ }
  rcases Nat.lt_or_ge j posts.length with hj | hj
  · exact ⟨j + 1, hj, rfl, rfl, Or.inr ⟨Nat.succ_pos _, by simp⟩⟩
  · refine ⟨posts.length, Nat.le_refl _, ?_, ?_, Or.inl ?_⟩
    · show wordOffset posts (j + 1) = wordOffset posts posts.length
      rw [wordOffset_of_ge posts _ (by omega), wordOffset_of_ge posts _ (Nat.le_refl _)]
    · show wordLocation posts (j + 1) = wordLocation posts posts.length
      rw [wordLocation_of_ge posts _ (by omega), wordLocation_of_ge posts _ (Nat.le_refl _)]
    · exact List.getElem?_eq_none hj

/-- `ISRWord::Seek` on a written list: the current post stays when it already
lies at or after the target; otherwise it becomes the first post of the list at
or after the target. The document iterator is not touched. -/
theorem word_seek_spec (w : ISRWord) (posts : List WordPost) (h : WordCursorOK w posts)
    (T : Nat) :
    ∃ w1, w.Seek T = some (w1.current.map Post.word, w1) ∧ WordCursorOK w1 posts
      ∧ w1.isr_doc = w.isr_doc ∧ w1.plist = w.plist
      ∧ w1.current = seekCurrent T w.current posts := by
  obtain ⟨k, hk, hdata, hloc, hcur⟩ := h.cursor
  unfold ISRWord.Seek
  by_cases hg : w.current.isSome ∧ w.GetStartLocation ≥ T
  · rw [if_pos hg]
    refine ⟨w, rfl, h, rfl, rfl, ?_⟩
    obtain ⟨c, hc⟩ := Option.isSome_iff_exists.mp hg.1
    have hge : T ≤ c.startLocation := by
      have := hg.2
      simpa [ISRWord.GetStartLocation, hc] using this
    simp [seekCurrent, hc, hge]
  · rw [if_neg hg, hdata, hloc, seekWordPost_spec w.plist posts h.list T k]
    refine ⟨_, rfl, wordCursor_after_seek w posts _ h, rfl, rfl, ?_⟩
    show posts[countBelow T posts]? = seekCurrent T w.current posts
    rw [← firstPostGE_eq]
    cases hc : w.current with
    | none => rfl
    | some c =>
      have hlt : ¬ T ≤ c.startLocation := by
        intro hle
        apply hg
        refine ⟨by simp [hc], ?_⟩
        simpa [ISRWord.GetStartLocation, hc] using hle
      simp [seekCurrent, hlt]

/-- `ISRWord::NextInternal` on a written list: the next post of the list, later
than the current one. -/
theorem word_nextInternal_spec (w : ISRWord) (posts : List WordPost)
    (h : WordCursorOK w posts) :
    ∃ w1, w.NextInternal = some (w1.current.map Post.word, w1) ∧ WordCursorOK w1 posts
      ∧ w1.isr_doc = w.isr_doc ∧ w1.plist = w.plist
      ∧ ∀ c c1, w.current = some c → w1.current = some c1 →
          c.startLocation < c1.startLocation := by
  obtain ⟨k, hk, hdata, hloc, hcur⟩ := h.cursor
  unfold ISRWord.NextInternal GetCurrentWord
  rw [h.list.size, h.list.data, hdata, hloc]
  rcases Nat.lt_or_ge k posts.length with hlt | hge
  · have hq : posts[k]? = some posts[k] := List.getElem?_eq_getElem hlt
    obtain ⟨hdes, hoff⟩ := deserialize_at posts k _ hq h.list.sorted.2.1
    rw [if_pos (wordOffset_lt posts k hlt), hdes]
    simp only [hoff]
    have hst := wordCursor_after_seek w posts k h
    rw [hq, wordLocation_succ posts k _ hq] at hst
    refine ⟨_, rfl, hst, rfl, rfl, ?_⟩
    intro c c1 hc hc1
    simp only [Option.some.injEq] at hc1
    subst hc1
    rcases hcur with h0 | ⟨hpos, h1⟩
    · rw [h0] at hc; cases hc
    · rw [hc] at h1
      have hk1 : k - 1 < posts.length := by omega
      rw [List.getElem?_eq_getElem hk1] at h1
      cases h1
      have := List.pairwise_iff_getElem.mp h.list.sorted.1 (k - 1) k (by simpa using hk1)
        (by simpa using hlt) (by omega)
      simpa using this
  · have hkn : k = posts.length := by omega
    subst hkn
    have hoff := wordOffset_of_ge posts posts.length (Nat.le_refl _)
    rw [if_neg (by rw [hoff]; exact Nat.lt_irrefl _)]
    refine ⟨{ w with current := none }, ?_, ?_, rfl, rfl, ?_⟩
    · simp only [Option.map_none']
      congr 2
      cases w
      simp_all
    · exact { list := h.list, cursor := ⟨posts.length, Nat.le_refl _, hdata, hloc, Or.inl rfl⟩ }
    · intro c c1 _ hc1
      cases hc1

/-- The state a document iterator is left in by a seek that ran
`SeekDocumentPost`. -/
theorem docCursor_after_seek (d : ISRDoc) (docs : List DocumentPost) (j : Nat)
    (h : DocCursorOK d docs) :
    DocCursorOK { d with data := docOffset docs (j + 1),
                         currLocation := docLocation docs (j + 1),
                         current := docs[j]? } docs := by
  refine { list := h.list, cursor := ?_ }
  rcases Nat.lt_or_ge j docs.length with hj | hj
  · exact ⟨j + 1, hj, rfl, rfl, Or.inr ⟨Nat.succ_pos _, by simp⟩⟩
  · refine ⟨docs.length, Nat.le_refl _, ?_, ?_, Or.inl ?_⟩
    · show docOffset docs (j + 1) = docOffset docs docs.length
      rw [docOffset_of_ge docs _ (by omega), docOffset_of_ge docs _ (Nat.le_refl _)]
    · show docLocation docs (j + 1) = docLocation docs docs.length
      rw [docLocation_of_ge docs _ (by omega), docLocation_of_ge docs _ (Nat.le_refl _)]
    · exact List.getElem?_eq_none hj

/-- `ISRDoc::Seek` on a written list: the current document stays when it
already ends at or after the target; otherwise it becomes the first document of
the list that ends at or after the target. -/
theorem doc_seek_spec (d : ISRDoc) (docs : List DocumentPost) (h : DocCursorOK d docs)
    (T : Nat) :
    ∃ d1, d.Seek T = some (d1.current.map Post.doc, d1) ∧ DocCursorOK d1 docs
      ∧ d1.plist = d.plist ∧ d1.current = seekCurrentDoc T d.current docs := by
  obtain ⟨k, hk, hdata, hloc, hcur⟩ := h.cursor
  unfold ISRDoc.Seek
  by_cases hg : d.current.isSome ∧ d.GetEndLocation ≥ T
  · rw [if_pos hg]
    refine ⟨d, rfl, h, rfl, ?_⟩
    obtain ⟨c, hc⟩ := Option.isSome_iff_exists.mp hg.1
    have hge : T ≤ c.endLocation := by
      have := hg.2
      simpa [ISRDoc.GetEndLocation, hc] using this
    simp [seekCurrentDoc, hc, hge]
  · rw [if_neg hg, hdata, hloc, seekDocumentPost_spec d.plist docs h.list T k]
    refine ⟨_, rfl, docCursor_after_seek d docs _ h, rfl, ?_⟩
    show docs[countEndBelow T docs]? = seekCurrentDoc T d.current docs
    rw [← firstDocGE_eq]
    cases hc : d.current with
    | none => rfl
    | some c =>
      have hlt : ¬ T ≤ c.endLocation := by
        intro hle
        apply hg
        refine ⟨by simp [hc], ?_⟩
        simpa [ISRDoc.GetEndLocation, hc] using hle
      simp [seekCurrentDoc, hlt]

end SearchEngine

namespace SearchEngine

/-! ## Phrase iterators -/

/-- When both the in-memory and the serialised writer succeed, `wordList` is
the written list of its posts. -/
theorem wordList_written (locations : List Nat) (hok : WordPostsOK (postsAt locations))
    (hsome : ((PostingList.empty.AddWordPosts (postsAt locations)).bind
      SerializedPostingList.WriteWordPostingList).isSome = true) :
    WrittenWordList (wordList locations) (postsAt locations) := by
  refine ⟨hok, ?_⟩
  unfold wordList
  unfold postsAt at hsome ⊢
  cases h1 : PostingList.empty.AddWordPosts
      (locations.map (fun l => ({ startLocation := l, flags := 0 } : WordPost))) with
  | none => rw [h1] at hsome; simp at hsome
  | some pl =>
    rw [h1] at hsome
    simp only [Option.some_bind] at hsome
    cases h2 : SerializedPostingList.WriteWordPostingList pl with
    | none => rw [h2] at hsome; simp at hsome
    | some spl => exact ⟨pl, rfl, by simp [h2]⟩

theorem docList_written (docs : List DocumentPost) (hok : DocPostsOK docs)
    (hsome : ((PostingList.empty.AddDocumentPosts docs).bind
      SerializedPostingList.WriteDocumentPostingList).isSome = true) :
    WrittenDocList (docList docs) docs := by
  refine ⟨hok, ?_⟩
  unfold docList
  cases h1 : PostingList.empty.AddDocumentPosts docs with
  | none => rw [h1] at hsome; simp at hsome
  | some pl =>
    rw [h1] at hsome
    simp only [Option.some_bind] at hsome
    cases h2 : SerializedPostingList.WriteDocumentPostingList pl with
    | none => rw [h2] at hsome; simp at hsome
    | some spl => exact ⟨pl, rfl, by simp [h2]⟩

theorem wordIterator_fresh (locations : List Nat) (docs : List DocumentPost)
    (hok : WordPostsOK (postsAt locations))
    (hsome : ((PostingList.empty.AddWordPosts (postsAt locations)).bind
      SerializedPostingList.WriteWordPostingList).isSome = true) :
    FreshWord (wordIterator locations docs) (postsAt locations) :=
  ⟨wordList_written locations hok hsome, rfl, rfl, rfl⟩

theorem isr_word_seek (f T : Nat) (w : ISRWord) : ISR.Seek f T w = w.Seek T := rfl

theorem isr_word_next (f : Nat) (w : ISRWord) : ISR.Next f w = w.Next := rfl

theorem isr_word_nextInternal (f : Nat) (w : ISRWord) : ISR.NextInternal f w = w.NextInternal :=
  rfl

theorem isr_word_getCurrentDoc (f : Nat) (w : ISRWord) :
    ISR.GetCurrentDoc f w = w.GetCurrentDoc := rfl

theorem isr_word_getCurrentPost (w : ISRWord) :
    ISR.GetCurrentPost w = w.current.map Post.word := rfl

/-- The cursor invariant of a word iterator does not involve its document
iterator. -/
theorem wordCursor_with_doc (w : ISRWord) (posts : List WordPost) (d : ISRDoc)
    (h : WordCursorOK w posts) : WordCursorOK { w with isr_doc := d } posts :=
  { list := h.list, cursor := h.cursor }

/-- Whatever `ISRWord::Seek` returns is the new current post, and the cursor
stays on a post boundary. -/
theorem word_seek_keeps (w w1 : ISRWord) (posts : List WordPost) (T : Nat) (r : Option Post)
    (h : WordCursorOK w posts) (hs : w.Seek T = some (r, w1)) :
    WordCursorOK w1 posts ∧ r = w1.current.map Post.word
      ∧ w1.current = seekCurrent T w.current posts := by
  obtain ⟨w2, h2, hok, _, _, hcur⟩ := word_seek_spec w posts h T
  rw [h2] at hs
  simp only [Option.some.injEq, Prod.mk.injEq] at hs
  obtain ⟨hr, hw⟩ := hs
  subst hw
  exact ⟨hok, hr.symm, hcur⟩

theorem word_nextInternal_keeps (w w1 : ISRWord) (posts : List WordPost) (r : Option Post)
    (h : WordCursorOK w posts) (hs : w.NextInternal = some (r, w1)) :
    WordCursorOK w1 posts ∧ r = w1.current.map Post.word := by
  obtain ⟨w2, h2, hok, _, _, _⟩ := word_nextInternal_spec w posts h
  rw [h2] at hs
  simp only [Option.some.injEq, Prod.mk.injEq] at hs
  obtain ⟨hr, hw⟩ := hs
  subst hw
  exact ⟨hok, hr.symm⟩

theorem word_next_keeps (w w1 : ISRWord) (posts : List WordPost) (r : Option Post)
    (h : WordCursorOK w posts) (hs : w.Next = some (r, w1)) :
    WordCursorOK w1 posts ∧ r = w1.current.map Post.word := by
  unfold ISRWord.Next at hs
  split at hs
  · split at hs
    · cases hs
    · rename_i c _ post d _
      have := word_seek_keeps _ w1 posts _ r (wordCursor_with_doc w posts d h) hs
      exact ⟨this.1, this.2.1⟩
  · have := word_seek_keeps w w1 posts 0 r h hs
    exact ⟨this.1, this.2.1⟩

theorem word_getCurrentDoc_keeps (w w1 : ISRWord) (posts : List WordPost) (r : Option Post)
    (h : WordCursorOK w posts) (hs : w.GetCurrentDoc = some (r, w1)) :
    WordCursorOK w1 posts ∧ w1.current = w.current := by
  unfold ISRWord.GetCurrentDoc at hs
  split at hs
  · split at hs
    · cases hs
    · rename_i c _ post d _
      simp only [Option.some.injEq, Prod.mk.injEq] at hs
      obtain ⟨_, hw⟩ := hs
      subst hw
      exact ⟨wordCursor_with_doc w posts d h, rfl⟩
  · simp only [Option.some.injEq, Prod.mk.injEq] at hs
    obtain ⟨_, hw⟩ := hs
    subst hw
    exact ⟨h, rfl⟩

/-- The alignment loop keeps every term on a post boundary, and when it reports
a match each term it visited stands exactly where it was expected. -/
theorem alignTerms_spec (f base : Nat) : ∀ (ts : List ISRWord) (lists : List (List WordPost))
    (i : Nat) (m : Bool) (ts1 : List ISRWord),
    List.Forall₂ WordCursorOK ts lists → base + i < U32 →
    ISRPhrase.alignTerms f base i ts = some (m, ts1) →
    List.Forall₂ WordCursorOK ts1 lists
      ∧ (m = true → ∀ j posts, lists[j]? = some posts →
          ∃ q ∈ posts, q.startLocation = base + (i + j)) := by
  intro ts
  induction ts with
  | nil =>
    intro lists i m ts1 hall _ h
    cases hall
    simp only [ISRPhrase.alignTerms, Option.some.injEq, Prod.mk.injEq] at h
    obtain ⟨_, h2⟩ := h
    subst h2
    exact ⟨List.Forall₂.nil, fun _ j posts hj => by simp at hj⟩
  | cons t ts ih =>
    intro lists i m ts1 hall hb h
    cases hall with
    | cons ht hrest =>
      rename_i l ls
      unfold ISRPhrase.alignTerms at h
      simp only [isr_word_seek] at h
      obtain ⟨t1, hseek, hok1, _, _, _⟩ := word_seek_spec t l ht ((base + i) % U32)
      rw [hseek] at h
      simp only [isr_word_getCurrentPost] at h
      rw [Nat.mod_eq_of_lt hb] at h
      cases hc : t1.current with
      | none =>
        simp only [hc, Option.map_none', Bool.false_eq_true, if_false, Option.some.injEq,
          Prod.mk.injEq] at h
        obtain ⟨hm, hts⟩ := h
        subst hts
        exact ⟨List.Forall₂.cons hok1 hrest, fun hmt => by rw [← hm] at hmt; cases hmt⟩
      | some c =>
        simp only [hc, Option.map_some', Post.GetStartLocation] at h
        by_cases heq : c.startLocation = base + i
        · simp only [heq, decide_True, if_true] at h
          obtain ⟨hcm, hno⟩ := wordCursor_current_mem t1 l hok1 c hc
          split at h
          · cases h
          · rename_i m2 ts2 hrec
            simp only [Option.some.injEq, Prod.mk.injEq] at h
            obtain ⟨hm, hts⟩ := h
            subst hts
            obtain ⟨hall2, hal⟩ := ih ls (i + 1) m2 ts2 hrest (by omega) hrec
            refine ⟨List.Forall₂.cons hok1 hall2, ?_⟩
            intro hmt j posts hj
            cases j with
            | zero =>
              simp only [List.getElem?_cons_zero, Option.some.injEq] at hj
              subst hj
              exact ⟨c, hcm, by omega⟩
            | succ j =>
              simp only [List.getElem?_cons_succ] at hj
              obtain ⟨q, hq, hqs⟩ := hal (by rw [hm]; exact hmt) j posts hj
              exact ⟨q, hq, by omega⟩
        · simp only [heq, decide_False, Bool.false_eq_true, if_false, Option.some.injEq,
            Prod.mk.injEq] at h
          obtain ⟨hm, hts⟩ := h
          subst hts
          exact ⟨List.Forall₂.cons hok1 hrest, fun hmt => by rw [← hm] at hmt; cases hmt⟩

/-- `ISRPhrase::AdvanceToMatch` returns its new current post, and that post is
aligned with every term. -/
theorem phrase_advance_spec (lists : List (List WordPost)) (f : Nat) :
    ∀ (fuel : Nat) (p p1 : ISRPhrase ISRWord) (r : Option Post),
    List.Forall₂ WordCursorOK p.terms lists →
    ISRPhrase.AdvanceToMatch f fuel p = some (r, p1) →
    List.Forall₂ WordCursorOK p1.terms lists ∧ r = p1.current
      ∧ ∀ q, r = some q → PhraseAligned lists q.GetStartLocation := by
  intro fuel
  induction fuel with
  | zero => intro p p1 r _ h; simp [ISRPhrase.AdvanceToMatch] at h
  | succ n ih =>
    intro p p1 r hall h
    unfold ISRPhrase.AdvanceToMatch at h
    cases hterms : p.terms with
    | nil => rw [hterms] at h; simp at h
    | cons t0 ts =>
      rw [hterms] at h hall
      simp only [isr_word_getCurrentPost] at h
      cases hall with
      | cons ht0 hrest =>
        rename_i l0 ls
        cases hc : t0.current with
        | none =>
          simp only [hc, Option.map_none', Option.some.injEq, Prod.mk.injEq] at h
          obtain ⟨hr, hp⟩ := h
          subst hp
          subst hr
          refine ⟨?_, rfl, fun q hq => by cases hq⟩
          simp only [hterms]
          exact List.Forall₂.cons ht0 hrest
        | some c =>
          simp only [hc, Option.map_some', Post.GetStartLocation] at h
          obtain ⟨hcm, hno⟩ := wordCursor_current_mem t0 l0 ht0 c hc
          cases hal : ISRPhrase.alignTerms f c.startLocation 1 ts with
          | none => rw [hal] at h; simp at h
          | some res =>
            obtain ⟨m, ts1⟩ := res
            rw [hal] at h
            obtain ⟨hall1, hmatch⟩ := alignTerms_spec f c.startLocation ts ls 1 m ts1 hrest hno hal
            cases m with
            | true =>
              simp only [Option.some.injEq, Prod.mk.injEq] at h
              obtain ⟨hr, hp⟩ := h
              subst hp
              subst hr
              refine ⟨List.Forall₂.cons ht0 hall1, rfl, ?_⟩
              intro q hq
              simp only [Option.some.injEq] at hq
              subst hq
              intro i posts hi
              cases i with
              | zero =>
                simp only [List.getElem?_cons_zero, Option.some.injEq] at hi
                subst hi
                exact ⟨c, hcm, rfl⟩
              | succ j =>
                simp only [List.getElem?_cons_succ] at hi
                obtain ⟨x, hx, hxs⟩ := hmatch rfl j posts hi
                exact ⟨x, hx, by simp only [Post.GetStartLocation]; omega⟩
            | false =>
              simp only [isr_word_seek] at h
              obtain ⟨t01, hseek, hok01, _, _, _⟩ :=
                word_seek_spec t0 l0 ht0 ((c.startLocation + 1) % U32)
              rw [hseek] at h
              exact ih _ p1 r (List.Forall₂.cons hok01 hall1) h

/-- Calling `Next` or `NextInternal` on every term keeps every term on a post
boundary. -/
theorem forEachTerm_keeps (step : ISRWord → Option (Option Post × ISRWord))
    (hstep : ∀ w w1 posts r, WordCursorOK w posts → step w = some (r, w1) →
      WordCursorOK w1 posts) :
    ∀ (ts ts1 : List ISRWord) (lists : List (List WordPost)),
    List.Forall₂ WordCursorOK ts lists → ISRPhrase.forEachTerm step ts = some ts1 →
    List.Forall₂ WordCursorOK ts1 lists := by
  intro ts
  induction ts with
  | nil =>
    intro ts1 lists hall h
    cases hall
    simp only [ISRPhrase.forEachTerm, Option.some.injEq] at h
    subst h
    exact List.Forall₂.nil
  | cons t ts ih =>
    intro ts1 lists hall h
    cases hall with
    | cons ht hrest =>
      unfold ISRPhrase.forEachTerm at h
      split at h
      · cases h
      · rename_i r t1 hst
        split at h
        · cases h
        · rename_i ts2 hrec
          simp only [Option.some.injEq] at h
          subst h
          exact List.Forall₂.cons (hstep _ _ _ _ ht hst) (ih _ _ hrest hrec)

/-- The invariant of a phrase iterator over written lists: every term stands on
a post boundary of its list and the current match, if any, is aligned. -/
theorem phrase_call_spec (lists : List (List WordPost)) (fuel : Nat) (c : Call)
    (p p1 : ISRPhrase ISRWord) (r : Option Post)
    (hall : List.Forall₂ WordCursorOK p.terms lists)
    (hcur : ∀ q, p.current = some q → PhraseAligned lists q.GetStartLocation)
    (h : c.run fuel p = some (r, p1)) :
    List.Forall₂ WordCursorOK p1.terms lists
      ∧ (∀ q, p1.current = some q → PhraseAligned lists q.GetStartLocation)
      ∧ ∀ q, r = some q → PhraseAligned lists q.GetStartLocation := by
  have hadv : ∀ (p2 : ISRPhrase ISRWord), List.Forall₂ WordCursorOK p2.terms lists →
      ISRPhrase.AdvanceToMatch fuel fuel p2 = some (r, p1) →
      List.Forall₂ WordCursorOK p1.terms lists
        ∧ (∀ q, p1.current = some q → PhraseAligned lists q.GetStartLocation)
        ∧ ∀ q, r = some q → PhraseAligned lists q.GetStartLocation := by
    intro p2 h2 ha
    obtain ⟨a1, a2, a3⟩ := phrase_advance_spec lists fuel fuel p2 p1 r h2 ha
    exact ⟨a1, fun q hq => a3 q (by rw [a2]; exact hq), a3⟩
  have hseek : ∀ (T : Nat) (p2 : ISRPhrase ISRWord),
      List.Forall₂ WordCursorOK p2.terms lists →
      (∀ q, p2.current = some q → PhraseAligned lists q.GetStartLocation) →
      ISRPhrase.Seek fuel T p2 = some (r, p1) →
      List.Forall₂ WordCursorOK p1.terms lists
        ∧ (∀ q, p1.current = some q → PhraseAligned lists q.GetStartLocation)
        ∧ ∀ q, r = some q → PhraseAligned lists q.GetStartLocation := by
    intro T p2 h2 hc2 hs
    unfold ISRPhrase.Seek at hs
    split at hs
    · simp only [Option.some.injEq, Prod.mk.injEq] at hs
      obtain ⟨hr, hp⟩ := hs
      subst hp
      exact ⟨h2, hc2, fun q hq => hc2 q (by rw [hr]; exact hq)⟩
    · cases hterms : p2.terms with
      | nil =>
        rw [hterms] at hs
        simp only [Option.some.injEq, Prod.mk.injEq] at hs
        obtain ⟨hr, hp⟩ := hs
        subst hp
        refine ⟨by simpa [hterms] using h2, fun q hq => (by cases hq), fun q hq => ?_⟩
        rw [← hr] at hq; cases hq
      | cons t0 ts =>
        rw [hterms] at hs h2
        simp only [isr_word_seek] at hs
        cases h2 with
        | cons ht0 hrest =>
          rename_i l0 ls
          obtain ⟨t01, hsk, hok01, _, _, _⟩ := word_seek_spec t0 l0 ht0 T
          rw [hsk] at hs
          exact hadv _ (List.Forall₂.cons hok01 hrest) hs
  cases c with
  | seek T => exact hseek T p hall hcur h
  | nextInternal =>
    simp only [Call.run] at h
    change ISRPhrase.NextInternal fuel p = some (r, p1) at h
    unfold ISRPhrase.NextInternal at h
    split at h
    · simp only [Option.some.injEq, Prod.mk.injEq] at h
      obtain ⟨hr, hp⟩ := h
      subst hp
      exact ⟨hall, hcur, fun q hq => by rw [← hr] at hq; cases hq⟩
    · split at h
      · split at h
        · cases h
        · rename_i ts1 hfe
          have := forEachTerm_keeps (ISR.NextInternal fuel)
            (fun w w1 posts r hw hs => (word_nextInternal_keeps w w1 posts r hw hs).1)
            _ _ _ hall hfe
          exact hadv _ this h
      · exact hseek _ p hall hcur h
  | next =>
    simp only [Call.run] at h
    change ISRPhrase.Next fuel p = some (r, p1) at h
    unfold ISRPhrase.Next at h
    cases hterms : p.terms with
    | nil =>
      rw [hterms] at h
      simp only [Option.some.injEq, Prod.mk.injEq] at h
      obtain ⟨hr, hp⟩ := h
      subst hp
      exact ⟨hall, hcur, fun q hq => by rw [← hr] at hq; cases hq⟩
    | cons t0 ts =>
      rw [hterms] at h
      simp only [] at h
      split at h
      · split at h
        · cases h
        · rename_i ts1 hfe
          have := forEachTerm_keeps (ISR.Next fuel)
            (fun w w1 posts r hw hs => (word_next_keeps w w1 posts r hw hs).1)
            _ _ _ (by rw [hterms] at hall; exact hall) hfe
          exact hadv _ this h
      · rw [hterms] at hall
        cases hall with
        | cons ht0 hrest =>
          rename_i l0 ls
          rw [isr_word_getCurrentDoc] at h
          split at h
          · cases h
          · rename_i t01 hgd
            simp only [Option.some.injEq, Prod.mk.injEq] at h
            obtain ⟨hr, hp⟩ := h
            subst hp
            refine ⟨?_, hcur, fun q hq => by rw [← hr] at hq; cases hq⟩
            exact List.Forall₂.cons (word_getCurrentDoc_keeps t0 t01 l0 _ ht0 hgd).1 hrest
          · rename_i doc t01 hgd
            exact hseek _ { terms := t01 :: ts, current := p.current }
              (List.Forall₂.cons (word_getCurrentDoc_keeps t0 t01 l0 _ ht0 hgd).1 hrest)
              hcur h

/-- Claim C3. For every phrase iterator over word iterators opened on written
posting lists, and every sequence of `Next`, `NextInternal` and `Seek` calls,
every post the calls return, with start Location `L`, is such that for each
term `i` the posting list of that term contains a post at exactly `L + i`. -/
theorem phrase_results_aligned (lists : List (List WordPost)) (terms : List ISRWord)
    (fuel : Nat) (calls : List Call) (results : List (Option Post)) (s : ISRPhrase ISRWord)
    (hfresh : List.Forall₂ FreshWord terms lists)
    (hrun : runCalls fuel calls (ISRPhrase.new terms) = some (results, s)) :
    ∀ p, some p ∈ results → PhraseAligned lists p.GetStartLocation := by
  have hgen : ∀ (calls : List Call) (p : ISRPhrase ISRWord) (results : List (Option Post))
      (s : ISRPhrase ISRWord), List.Forall₂ WordCursorOK p.terms lists →
      (∀ q, p.current = some q → PhraseAligned lists q.GetStartLocation) →
      runCalls fuel calls p = some (results, s) →
      ∀ q, some q ∈ results → PhraseAligned lists q.GetStartLocation := by
    intro calls
    induction calls with
    | nil =>
      intro p results s _ _ h q hq
      simp only [runCalls, Option.some.injEq, Prod.mk.injEq] at h
      rw [← h.1] at hq
      simp at hq
    | cons c cs ih =>
      intro p results s hall hcur h q hq
      unfold runCalls at h
      split at h
      · cases h
      · rename_i r p1 hc
        obtain ⟨a1, a2, a3⟩ := phrase_call_spec lists fuel c p p1 r hall hcur hc
        split at h
        · cases h
        · rename_i rs s2 hrest
          simp only [Option.some.injEq, Prod.mk.injEq] at h
          rw [← h.1] at hq
          rcases List.mem_cons.mp hq with h1 | h1
          · exact a3 q h1.symm
          · exact ih p1 rs s2 a1 a2 hrest q h1
  refine hgen calls (ISRPhrase.new terms) results s ?_ ?_ hrun
  · simp only [ISRPhrase.new]
    exact List.Forall₂.imp (fun w posts h => freshWord_ok w posts h) hfresh
  · intro q hq
    simp [ISRPhrase.new] at hq

/-- Scenario S1, phrase `{b c}`: the results start at 2 and at 6, and both are
aligned. -/
theorem phrase_results_aligned_witness :
    ∃ results s,
      runCalls 10 [Call.next, Call.next, Call.next]
          (ISRPhrase.new [wordIterator [2, 6] [⟨1, 5, 0⟩, ⟨6, 10, 1⟩],
                          wordIterator [3, 7] [⟨1, 5, 0⟩, ⟨6, 10, 1⟩]]) = some (results, s)
      ∧ startsOf results = [some 2, some 6, none]
      ∧ ∀ p, some p ∈ results →
          PhraseAligned [postsAt [2, 6], postsAt [3, 7]] p.GetStartLocation := by
  have hc : callStarts 10 [Call.next, Call.next, Call.next]
      (ISRPhrase.new [wordIterator [2, 6] [⟨1, 5, 0⟩, ⟨6, 10, 1⟩],
                      wordIterator [3, 7] [⟨1, 5, 0⟩, ⟨6, 10, 1⟩]])
      = some [some 2, some 6, none] := by decide
  unfold callStarts at hc
  cases h : runCalls 10 [Call.next, Call.next, Call.next]
      (ISRPhrase.new [wordIterator [2, 6] [⟨1, 5, 0⟩, ⟨6, 10, 1⟩],
                      wordIterator [3, 7] [⟨1, 5, 0⟩, ⟨6, 10, 1⟩]]) with
  | none => rw [h] at hc; cases hc
  | some rs =>
    obtain ⟨results, s⟩ := rs
    rw [h] at hc
    refine ⟨results, s, rfl, by simpa using hc, ?_⟩
    exact phrase_results_aligned _ _ 10 _ results s
      (List.Forall₂.cons (wordIterator_fresh [2, 6] _ (by decide) (by decide))
        (List.Forall₂.cons (wordIterator_fresh [3, 7] _ (by decide) (by decide))
          List.Forall₂.nil)) h

end SearchEngine

namespace SearchEngine

/-! ## Lists of posts and documents -/

theorem firstPostGE_cons (T : Nat) (p : WordPost) (ps : List WordPost) :
    firstPostGE T (p :: ps) = if T ≤ p.startLocation then some p else firstPostGE T ps := by
  unfold firstPostGE
  by_cases h : T ≤ p.startLocation
  · simp [h]
  · simp [h]

theorem firstPostGE_some (T : Nat) (A : List WordPost) (c : WordPost)
    (h : firstPostGE T A = some c) : c ∈ A ∧ T ≤ c.startLocation := by
  unfold firstPostGE at h
  exact ⟨List.mem_of_find?_eq_some h, by simpa using List.find?_some h⟩

theorem firstPostGE_none (T : Nat) (A : List WordPost) (h : firstPostGE T A = none) :
    ∀ p ∈ A, p.startLocation < T := by
  unfold firstPostGE at h
  intro p hp
  have := List.find?_eq_none.mp h p hp
  simpa using this

/-- The first post at or after `T` is at or before every post at or after `T`. -/
theorem firstPostGE_le (T : Nat) (A : List WordPost)
    (hs : (A.map WordPost.startLocation).Pairwise (· < ·)) (p : WordPost) (hp : p ∈ A)
    (hT : T ≤ p.startLocation) :
    ∃ c, firstPostGE T A = some c ∧ c.startLocation ≤ p.startLocation := by
  induction A with
  | nil => cases hp
  | cons q qs ih =>
    rw [firstPostGE_cons]
    simp only [List.map_cons, List.pairwise_cons, List.mem_map, forall_exists_index,
      and_imp, forall_apply_eq_imp_iff₂] at hs
    by_cases hq : T ≤ q.startLocation
    · rw [if_pos hq]
      rcases List.mem_cons.mp hp with h1 | h1
      · exact ⟨q, rfl, by rw [h1]⟩
      · exact ⟨q, rfl, Nat.le_of_lt (hs.1 p h1)⟩
    · rw [if_neg hq]
      rcases List.mem_cons.mp hp with h1 | h1
      · rw [h1] at hT; exact absurd hT hq
      · exact ih hs.2 h1

theorem firstPostGE_of_ge (T T1 : Nat) (A : List WordPost) (c : WordPost)
    (h : firstPostGE T A = some c) (hT : T ≤ T1) (hc : T1 ≤ c.startLocation) :
    firstPostGE T1 A = some c := by
  induction A with
  | nil => simp [firstPostGE] at h
  | cons q qs ih =>
    rw [firstPostGE_cons] at h ⊢
    by_cases hq : T ≤ q.startLocation
    · rw [if_pos hq] at h
      simp only [Option.some.injEq] at h
      subst h
      rw [if_pos hc]
    · rw [if_neg hq] at h
      rw [if_neg (by omega)]
      exact ih h

theorem firstPostGE_none_mono (T T1 : Nat) (A : List WordPost)
    (h : firstPostGE T A = none) (hT : T ≤ T1) : firstPostGE T1 A = none := by
  unfold firstPostGE at h ⊢
  rw [List.find?_eq_none] at h ⊢
  intro p hp
  have := h p hp
  simp only [decide_eq_true_eq] at this ⊢
  omega

/-- A seek forward from the first post at or after `T` lands on the first post
at or after the new target. -/
theorem seekCurrent_firstPostGE (T T1 : Nat) (A : List WordPost) (hT : T ≤ T1) :
    seekCurrent T1 (firstPostGE T A) A = firstPostGE T1 A := by
  unfold seekCurrent
  cases h : firstPostGE T A with
  | none => rfl
  | some c =>
    simp only []
    by_cases hc : T1 ≤ c.startLocation
    · rw [if_pos hc, firstPostGE_of_ge T T1 A c h hT hc]
    · rw [if_neg hc]

theorem seekCurrent_of_lt (T : Nat) (A : List WordPost) (c : WordPost)
    (h : c.startLocation < T) : seekCurrent T (some c) A = firstPostGE T A := by
  unfold seekCurrent
  simp only []
  rw [if_neg (by omega)]

theorem firstDocGE_cons (T : Nat) (d : DocumentPost) (ds : List DocumentPost) :
    firstDocGE T (d :: ds) = if T ≤ d.endLocation then some d else firstDocGE T ds := by
  unfold firstDocGE
  by_cases h : T ≤ d.endLocation
  · simp [h]
  · simp [h]

/-- The first document ending at or after a Location inside `D` is `D`. -/
theorem firstDocGE_containing (docs : List DocumentPost) (hok : DocPostsOK docs)
    (D : DocumentPost) (hD : D ∈ docs) (x : Nat) (hx : inDoc D x) :
    firstDocGE x docs = some D := by
  have hpw := hok.1
  clear hok
  induction docs with
  | nil => cases hD
  | cons E rest ih =>
    rw [firstDocGE_cons]
    rw [List.pairwise_cons] at hpw
    by_cases hE : x ≤ E.endLocation
    · rw [if_pos hE]
      rcases List.mem_cons.mp hD with h1 | h1
      · rw [h1]
      · have := hpw.1 D h1
        have := hx.1
        omega
    · rw [if_neg hE]
      rcases List.mem_cons.mp hD with h1 | h1
      · rw [h1] at hx; exact absurd hx.2 hE
      · exact ih h1 hpw.2

/-- Two documents of a segment are the same or one ends before the other
starts. -/
theorem docs_apart (docs : List DocumentPost) (hok : DocPostsOK docs) (D E : DocumentPost)
    (hD : D ∈ docs) (hE : E ∈ docs) :
    D = E ∨ D.endLocation < E.startLocation ∨ E.endLocation < D.startLocation := by
  have hpw := hok.1
  clear hok
  induction docs with
  | nil => cases hD
  | cons F rest ih =>
    rw [List.pairwise_cons] at hpw
    rcases List.mem_cons.mp hD with h1 | h1 <;> rcases List.mem_cons.mp hE with h2 | h2
    · exact Or.inl (by rw [h1, h2])
    · exact Or.inr (Or.inl (by rw [h1]; exact hpw.1 E h2))
    · exact Or.inr (Or.inr (by rw [h2]; exact hpw.1 D h1))
    · exact ih h1 h2 hpw.2

/-- A Location is a document boundary when no document range holds it without
starting at or after it. -/
theorem boundary_after (docs : List DocumentPost) (hok : DocPostsOK docs) (D : DocumentPost)
    (hD : D ∈ docs) : ∀ E ∈ docs, D.endLocation + 1 ≤ E.endLocation →
      D.endLocation + 1 ≤ E.startLocation := by
  intro E hE hle
  have hse := hok.2.1 D hD
  rcases docs_apart docs hok D E hD hE with h | h | h
  · subst h; omega
  · omega
  · omega

theorem hasPostIn_iff (A : List WordPost) (D : DocumentPost) :
    hasPostIn A D = true ↔ ∃ p ∈ A, inDoc D p.startLocation := by
  unfold hasPostIn
  simp

/-- The posts that successive `Next` calls return, when each call returns a post
of the first selected document at or after a threshold that then moves past that
document: one post per selected document, in the order of the documents. -/
theorem nextUntilNone_select {σ : Type} [ISR σ] (docs : List DocumentPost)
    (hdocs : DocPostsOK docs) (sel : DocumentPost → Bool) (R : Post → DocumentPost → Prop)
    (Ready : Nat → σ → Prop) (fuel : Nat)
    (hstep : ∀ T s, Ready T s → (∀ E ∈ docs, T ≤ E.endLocation → T ≤ E.startLocation) →
      ∃ res s1, ISR.Next fuel s = some (res, s1) ∧
        ((res = none ∧ ∀ D ∈ docs, sel D = true → ¬ T ≤ D.startLocation) ∨
         (∃ p D, res = some p ∧ D ∈ docs ∧ sel D = true ∧ T ≤ D.startLocation ∧ R p D ∧
            (∀ E ∈ docs, sel E = true → T ≤ E.startLocation →
              D.startLocation ≤ E.startLocation) ∧
            Ready (D.endLocation + 1) s1))) :
    ∀ (rest : List DocumentPost) (T : Nat) (s : σ) (n : Nat), Ready T s →
      (∀ E ∈ docs, T ≤ E.endLocation → T ≤ E.startLocation) →
      (∀ D ∈ rest, D ∈ docs) →
      rest.Pairwise (fun a b => a.endLocation < b.startLocation) →
      (∀ D ∈ rest, T ≤ D.startLocation) →
      (∀ D ∈ docs, sel D = true → T ≤ D.startLocation → D ∈ rest) →
      rest.length ≤ n →
      ∃ results s2, nextUntilNone fuel n s = some (results, s2)
        ∧ List.Forall₂ R results (rest.filter sel) := by
  intro rest
  induction rest with
  | nil =>
    intro T s n hr hb _ _ _ hall _
    obtain ⟨res, s1, hnext, hres⟩ := hstep T s hr hb
    rcases hres with ⟨hnone, _⟩ | ⟨p, D, _, hD, hsel, hT, _⟩
    · subst hnone
      refine ⟨[], s1, ?_, by simp⟩
      cases n with
      | zero => simp [nextUntilNone, hnext]
      | succ m => simp [nextUntilNone, hnext]
    · exact absurd (hall D hD hsel hT) (List.not_mem_nil D)
  | cons D0 rest ih =>
    intro T s n hr hb hsub hpw hlow hall hn
    rw [List.pairwise_cons] at hpw
    have hD0 : D0 ∈ docs := hsub D0 (List.mem_cons_self _ _)
    have hsub1 : ∀ D ∈ rest, D ∈ docs := fun D h => hsub D (List.mem_cons_of_mem _ h)
    by_cases hs0 : sel D0 = true
    · obtain ⟨res, s1, hnext, hres⟩ := hstep T s hr hb
      rcases hres with ⟨_, hnone⟩ | ⟨p, D, hp, hD, hsel, hT, hR, hmin, hready⟩
      · exact absurd (hlow D0 (List.mem_cons_self _ _)) (hnone D0 hD0 hs0)
      · have hle := hmin D0 hD0 hs0 (hlow D0 (List.mem_cons_self _ _))
        have hse0 := hdocs.2.1 D0 hD0
        have hDeq : D = D0 := by
          rcases List.mem_cons.mp (hall D hD hsel hT) with h1 | h1
          · exact h1
          · have := hpw.1 D h1
            omega
        subst hDeq
        subst hp
        cases n with
        | zero => simp at hn
        | succ m =>
          obtain ⟨results, s2, hrun, hfa⟩ := ih (D.endLocation + 1) s1 m hready
            (boundary_after docs hdocs D hD) hsub1 hpw.2
            (fun E hE => by have := hpw.1 E hE; omega)
            (fun E hE hselE hTE => by
              rcases List.mem_cons.mp (hall E hE hselE (by omega)) with h1 | h1
              · subst h1; omega
              · exact h1)
            (by simpa using hn)
          refine ⟨p :: results, s2, ?_, ?_⟩
          · simp [nextUntilNone, hnext, hrun]
          · rw [List.filter_cons_of_pos hs0]
            exact List.Forall₂.cons hR hfa
    · obtain ⟨results, s2, hrun, hfa⟩ := ih T s n hr hb hsub1 hpw.2
        (fun E hE => hlow E (List.mem_cons_of_mem _ hE))
        (fun E hE hselE hTE => by
          rcases List.mem_cons.mp (hall E hE hselE hTE) with h1 | h1
          · subst h1; exact absurd hselE hs0
          · exact h1)
        (by simp at hn; omega)
      refine ⟨results, s2, hrun, ?_⟩
      rw [List.filter_cons_of_neg hs0]
      exact hfa

end SearchEngine

namespace SearchEngine

/-! ## Word iterators between calls -/

theorem word_next_eq (w : ISRWord) (c : WordPost) (D : DocumentPost) (d1 : ISRDoc)
    (hc : w.current = some c)
    (hs : w.isr_doc.Seek c.startLocation = some (some (Post.doc D), d1)) :
    w.Next = ISRWord.Seek { w with isr_doc := d1 } ((D.endLocation + 1) % U32) := by
  unfold ISRWord.Next
  simp only [hc, hs, Post.GetEndLocation]

theorem word_getCurrentDoc_eq (w : ISRWord) (c : WordPost) (post : Option Post) (d1 : ISRDoc)
    (hc : w.current = some c) (hs : w.isr_doc.Seek c.startLocation = some (post, d1)) :
    w.GetCurrentDoc = some (post, { w with isr_doc := d1 }) := by
  unfold ISRWord.GetCurrentDoc
  simp only [hc, hs]

theorem word_next_of_none (w : ISRWord) (hc : w.current = none) : w.Next = w.Seek 0 := by
  unfold ISRWord.Next
  simp only [hc]

/-- The document iterator of a word iterator, sought to the current post, stops
on the document that holds the post. -/
theorem doc_of_current (w : ISRWord) (A : List WordPost) (docs : List DocumentPost)
    (h : WordSync w A docs) (hin : InDocs A docs) (c : WordPost) (hc : w.current = some c) :
    ∃ d1 D, w.isr_doc.Seek c.startLocation = some (some (Post.doc D), d1) ∧ D ∈ docs
      ∧ inDoc D c.startLocation ∧ d1.current = some D ∧ DocCursorOK d1 docs := by
  obtain ⟨d1, hseek, hok, _, hcur⟩ := doc_seek_spec w.isr_doc docs h.doc c.startLocation
  obtain ⟨hcm, _⟩ := wordCursor_current_mem w A h.word c hc
  obtain ⟨Dc, hDc, hinc⟩ := hin c hcm
  have hfirst := firstDocGE_containing docs h.doc.list.sorted Dc hDc c.startLocation hinc
  have hres : ∃ D, d1.current = some D ∧ D ∈ docs ∧ inDoc D c.startLocation := by
    unfold seekCurrentDoc at hcur
    cases hd : w.isr_doc.current with
    | none =>
      rw [hd] at hcur
      simp only [] at hcur
      exact ⟨Dc, by rw [hcur, hfirst], hDc, hinc⟩
    | some d =>
      rw [hd] at hcur
      simp only [] at hcur
      by_cases hg : c.startLocation ≤ d.endLocation
      · rw [if_pos hg] at hcur
        exact ⟨d, hcur, docCursor_current_mem _ docs h.doc d hd, h.sync d c hd hc, hg⟩
      · rw [if_neg hg] at hcur
        exact ⟨Dc, by rw [hcur, hfirst], hDc, hinc⟩
  obtain ⟨D, hD1, hD2, hD3⟩ := hres
  refine ⟨d1, D, ?_, hD2, hD3, hD1, hok⟩
  rw [hseek, hD1]
  rfl

/-- `ISRWord::Seek` keeps the iterator synchronised, provided an iterator
without a current post either has a fresh document iterator or finds no post. -/
theorem word_seek_sync (w : ISRWord) (A : List WordPost) (docs : List DocumentPost)
    (h : WordSync w A docs) (T : Nat)
    (hnone : w.current = none → w.isr_doc.current = none ∨ firstPostGE T A = none) :
    ∃ w1, w.Seek T = some (w1.current.map Post.word, w1) ∧ WordSync w1 A docs
      ∧ w1.current = seekCurrent T w.current A := by
  obtain ⟨w1, hseek, hok, hdoc, _, hcur⟩ := word_seek_spec w A h.word T
  refine ⟨w1, hseek, ⟨hok, by rw [hdoc]; exact h.doc, ?_⟩, hcur⟩
  intro d c1 hd hc1
  rw [hdoc] at hd
  rw [hcur] at hc1
  unfold seekCurrent at hc1
  cases hc : w.current with
  | none =>
    rw [hc] at hc1
    simp only [] at hc1
    rcases hnone hc with h0 | h0
    · rw [h0] at hd; cases hd
    · rw [h0] at hc1; cases hc1
  | some c =>
    rw [hc] at hc1
    simp only [] at hc1
    have := h.sync d c hd hc
    by_cases hg : T ≤ c.startLocation
    · rw [if_pos hg] at hc1
      simp only [Option.some.injEq] at hc1
      subst hc1
      exact this
    · rw [if_neg hg] at hc1
      have := (firstPostGE_some T A c1 hc1).2
      omega

theorem wordSync_with_doc (w : ISRWord) (A : List WordPost) (docs : List DocumentPost)
    (h : WordSync w A docs) (d1 : ISRDoc) (hd : DocCursorOK d1 docs)
    (hs : ∀ D c, d1.current = some D → w.current = some c →
      D.startLocation ≤ c.startLocation) :
    WordSync { w with isr_doc := d1 } A docs :=
  { word := wordCursor_with_doc w A d1 h.word, doc := hd, sync := hs }

/-- `ISRWord::GetCurrentDoc` returns the document that holds the current post. -/
theorem word_getCurrentDoc_sync (w : ISRWord) (A : List WordPost) (docs : List DocumentPost)
    (h : WordSync w A docs) (hin : InDocs A docs) (c : WordPost) (hc : w.current = some c) :
    ∃ w1 D, w.GetCurrentDoc = some (some (Post.doc D), w1) ∧ D ∈ docs
      ∧ inDoc D c.startLocation ∧ w1.current = some c ∧ WordSync w1 A docs := by
  obtain ⟨d1, D, hseek, hD, hinD, hd1, hok⟩ := doc_of_current w A docs h hin c hc
  refine ⟨{ w with isr_doc := d1 }, D, word_getCurrentDoc_eq w c _ d1 hc hseek, hD, hinD, hc,
    wordSync_with_doc w A docs h d1 hok ?_⟩
  intro D1 c1 h1 h2
  rw [hd1] at h1
  rw [hc] at h2
  cases h1
  cases h2
  exact hinD.1

/-- `ISRWord::Next` with a current post moves to the first post after the
document that holds it. -/
theorem word_next_sync (w : ISRWord) (A : List WordPost) (docs : List DocumentPost)
    (h : WordSync w A docs) (hin : InDocs A docs) (c : WordPost) (hc : w.current = some c) :
    ∃ w1 D, w.Next = some (w1.current.map Post.word, w1) ∧ D ∈ docs
      ∧ inDoc D c.startLocation ∧ w1.current = firstPostGE (D.endLocation + 1) A
      ∧ WordSync w1 A docs := by
  obtain ⟨d1, D, hseek, hD, hinD, hd1, hok⟩ := doc_of_current w A docs h hin c hc
  have hsync : WordSync { w with isr_doc := d1 } A docs := by
    refine wordSync_with_doc w A docs h d1 hok ?_
    intro D1 c1 h1 h2
    rw [hd1] at h1
    rw [hc] at h2
    cases h1
    cases h2
    exact hinD.1
  have hnw := h.doc.list.noWrap D hD
  have hn0 : ({ w with isr_doc := d1 } : ISRWord).current = none →
      ({ w with isr_doc := d1 } : ISRWord).isr_doc.current = none
        ∨ firstPostGE (D.endLocation + 1) A = none := by
    intro h0
    have h1 : w.current = none := h0
    rw [hc] at h1
    cases h1
  obtain ⟨w1, hs1, hsync1, hcur1⟩ := word_seek_sync _ A docs hsync (D.endLocation + 1) hn0
  refine ⟨w1, D, ?_, hD, hinD, ?_, hsync1⟩
  · rw [word_next_eq w c D d1 hc hseek, Nat.mod_eq_of_lt hnw]
    exact hs1
  · have h2 : ({ w with isr_doc := d1 } : ISRWord).current = some c := hc
    rw [hcur1, h2]
    exact seekCurrent_of_lt _ A c (by have := hinD.2; omega)

/-- `ISRWord::Next` on a fresh iterator moves to the first post of the list. -/
theorem word_next_fresh (w : ISRWord) (A : List WordPost) (docs : List DocumentPost)
    (h : WordSync w A docs) (hc : w.current = none) (hd : w.isr_doc.current = none) :
    ∃ w1, w.Next = some (w1.current.map Post.word, w1) ∧ w1.current = firstPostGE 0 A
      ∧ WordSync w1 A docs := by
  obtain ⟨w1, hs1, hsync1, hcur1⟩ := word_seek_sync w A docs h 0 (fun _ => Or.inl hd)
  refine ⟨w1, ?_, ?_, hsync1⟩
  · rw [word_next_of_none w hc]; exact hs1
  · rw [hcur1, hc]; rfl

theorem fresh_sync (w : ISRWord) (A : List WordPost) (docs : List DocumentPost)
    (hw : FreshWord w A) (hd : FreshDoc w.isr_doc docs) :
    WordSync w A docs ∧ w.current = none ∧ w.isr_doc.current = none :=
  ⟨⟨freshWord_ok w A hw, freshDoc_ok _ docs hd,
    fun d c h1 _ => by rw [hd.2.2.2] at h1; cases h1⟩, hw.2.2.2, hd.2.2.2⟩

end SearchEngine

namespace SearchEngine

/-! ## Or iterators over two word iterators -/

theorem minPost_spec (x y : Option WordPost) (p : WordPost) (h : minPost x y = some p) :
    (x = some p ∨ y = some p) ∧ (∀ l, x = some l → p.startLocation ≤ l.startLocation)
      ∧ (∀ r, y = some r → p.startLocation ≤ r.startLocation) := by
  unfold minPost at h
  cases x with
  | none =>
    cases y with
    | none => cases h
    | some r =>
      simp only [Option.some.injEq] at h
      subst h
      exact ⟨Or.inr rfl, fun l hl => (by cases hl),
        fun r hr => (by cases hr; exact Nat.le_refl _)⟩
  | some l =>
    cases y with
    | none =>
      simp only [Option.some.injEq] at h
      subst h
      exact ⟨Or.inl rfl, fun l hl => (by cases hl; exact Nat.le_refl _),
        fun r hr => (by cases hr)⟩
    | some r =>
      simp only [] at h
      by_cases hle : l.startLocation ≤ r.startLocation
      · rw [if_pos hle] at h
        simp only [Option.some.injEq] at h
        subst h
        exact ⟨Or.inl rfl, fun l hl => (by cases hl; exact Nat.le_refl _),
          fun r hr => (by cases hr; exact hle)⟩
      · rw [if_neg hle] at h
        simp only [Option.some.injEq] at h
        subst h
        exact ⟨Or.inr rfl, fun l hl => (by cases hl; omega),
          fun r hr => (by cases hr; exact Nat.le_refl _)⟩

theorem minPost_none (x y : Option WordPost) (h : minPost x y = none) : x = none ∧ y = none := by
  unfold minPost at h
  cases x with
  | none =>
    cases y with
    | none => exact ⟨rfl, rfl⟩
    | some r => cases h
  | some l =>
    cases y with
    | none => cases h
    | some r =>
      simp only [] at h
      split at h <;> cases h

/-- `ISROr::FindNearest` returns the nearer current post of the children and
records which child holds it. -/
theorem or_findNearest_spec (o : ISROr ISRWord ISRWord) :
    ∃ o1, ISROr.FindNearest o = ((minPost o.isr1.current o.isr2.current).map Post.word, o1)
      ∧ o1.isr1 = o.isr1 ∧ o1.isr2 = o.isr2 ∧ o1.current = o.current
      ∧ (∀ p, minPost o.isr1.current o.isr2.current = some p →
          (o1.nearestTerm = 0 ∧ o.isr1.current = some p)
            ∨ (o1.nearestTerm = 1 ∧ o.isr2.current = some p)) := by
  unfold ISROr.FindNearest
  simp only [isr_word_getCurrentPost]
  cases h1 : o.isr1.current with
  | none =>
    cases h2 : o.isr2.current with
    | none => exact ⟨_, rfl, rfl, rfl, rfl, fun p hp => by simp [minPost] at hp⟩
    | some r =>
      refine ⟨_, rfl, rfl, rfl, rfl, fun p hp => ?_⟩
      simp only [minPost, Option.some.injEq] at hp
      subst hp
      exact Or.inr ⟨rfl, rfl⟩
  | some l =>
    cases h2 : o.isr2.current with
    | none =>
      refine ⟨_, rfl, rfl, rfl, rfl, fun p hp => ?_⟩
      simp only [minPost, Option.some.injEq] at hp
      subst hp
      exact Or.inl ⟨rfl, rfl⟩
    | some r =>
      simp only [Option.map_some', Post.GetStartLocation, minPost]
      by_cases hle : l.startLocation ≤ r.startLocation
      · simp only [if_pos hle]
        refine ⟨_, rfl, rfl, rfl, rfl, fun p hp => ?_⟩
        simp only [Option.some.injEq] at hp
        subst hp
        exact Or.inl ⟨rfl, rfl⟩
      · simp only [if_neg hle]
        refine ⟨_, rfl, rfl, rfl, rfl, fun p hp => ?_⟩
        simp only [Option.some.injEq] at hp
        subst hp
        exact Or.inr ⟨rfl, rfl⟩

theorem or_next_first (f : Nat) (o : ISROr ISRWord ISRWord) (r1 r2 : Option Post)
    (a b : ISRWord) (hnt : o.nearestTerm = -1) (h1 : o.isr1.Next = some (r1, a))
    (h2 : o.isr2.Next = some (r2, b)) :
    ISROr.Next f o = some (ISROr.FindNearest { o with isr1 := a, isr2 := b }) := by
  unfold ISROr.Next
  rw [if_pos hnt]
  simp only [isr_word_next, h1, h2]

theorem or_seek_eq (f T : Nat) (o : ISROr ISRWord ISRWord) (r1 r2 : Option Post)
    (a b : ISRWord) (hcur : o.current = none) (h1 : o.isr1.Seek T = some (r1, a))
    (h2 : o.isr2.Seek T = some (r2, b)) :
    ISROr.Seek f T o = some (ISROr.FindNearest { o with isr1 := a, isr2 := b }) := by
  unfold ISROr.Seek
  rw [if_neg (by simp [hcur])]
  simp only [isr_word_seek, h1, h2]

theorem or_next_left (f : Nat) (o : ISROr ISRWord ISRWord) (D : DocumentPost) (a : ISRWord)
    (hnt : o.nearestTerm = 0) (hgd : o.isr1.GetCurrentDoc = some (some (Post.doc D), a)) :
    ISROr.Next f o = ISROr.Seek f ((D.endLocation + 1) % U32) { o with isr1 := a } := by
  unfold ISROr.Next
  rw [if_neg (by rw [hnt]; decide), if_pos hnt]
  simp only [isr_word_getCurrentDoc, hgd, Option.map_some', Post.GetEndLocation]

theorem or_next_right (f : Nat) (o : ISROr ISRWord ISRWord) (D : DocumentPost) (b : ISRWord)
    (hnt : o.nearestTerm = 1) (hgd : o.isr2.GetCurrentDoc = some (some (Post.doc D), b)) :
    ISROr.Next f o = ISROr.Seek f ((D.endLocation + 1) % U32) { o with isr2 := b } := by
  unfold ISROr.Next
  rw [if_neg (by rw [hnt]; decide), if_neg (by rw [hnt]; decide), if_pos hnt]
  simp only [isr_word_getCurrentDoc, hgd, Option.map_some', Post.GetEndLocation]

theorem inDoc_unique (docs : List DocumentPost) (hok : DocPostsOK docs) (D E : DocumentPost)
    (hD : D ∈ docs) (hE : E ∈ docs) (x : Nat) (h1 : inDoc D x) (h2 : inDoc E x) : D = E := by
  rcases docs_apart docs hok D E hD hE with h | h | h
  · exact h
  · have := h1.2; have := h2.1; omega
  · have := h1.1; have := h2.2; omega

/-- What a call returns when it leaves both children of an Or on their first
post at or after a document boundary `T` and returns the nearer one. -/
theorem or_result_spec (A B : List WordPost) (docs : List DocumentPost)
    (hA : WordPostsOK A) (hB : WordPostsOK B) (hdocs : DocPostsOK docs)
    (hinA : InDocs A docs) (hinB : InDocs B docs) (T : Nat)
    (hb : ∀ E ∈ docs, T ≤ E.endLocation → T ≤ E.startLocation)
    (o1 : ISROr ISRWord ISRWord) (hinv : OrInv A B docs T o1)
    (hterm : ∀ p, minPost o1.isr1.current o1.isr2.current = some p →
      (o1.nearestTerm = 0 ∧ o1.isr1.current = some p)
        ∨ (o1.nearestTerm = 1 ∧ o1.isr2.current = some p)) :
    (((minPost o1.isr1.current o1.isr2.current).map Post.word = none
        ∧ ∀ D ∈ docs, (hasPostIn A D || hasPostIn B D) = true → ¬ T ≤ D.startLocation)
      ∨ (∃ p D, (minPost o1.isr1.current o1.isr2.current).map Post.word = some p ∧ D ∈ docs
          ∧ (hasPostIn A D || hasPostIn B D) = true ∧ T ≤ D.startLocation ∧ PostOfIn A B p D
          ∧ (∀ E ∈ docs, (hasPostIn A E || hasPostIn B E) = true → T ≤ E.startLocation →
              D.startLocation ≤ E.startLocation)
          ∧ OrReady A B docs (D.endLocation + 1) o1)) := by
  cases hm : minPost o1.isr1.current o1.isr2.current with
  | none =>
    left
    refine ⟨rfl, ?_⟩
    obtain ⟨h1, h2⟩ := minPost_none _ _ hm
    rw [hinv.curL] at h1
    rw [hinv.curR] at h2
    intro D _ hsel hT
    rw [Bool.or_eq_true, hasPostIn_iff, hasPostIn_iff] at hsel
    rcases hsel with ⟨p, hp, hpin⟩ | ⟨p, hp, hpin⟩
    · have := firstPostGE_none T A h1 p hp
      have := hpin.1
      omega
    · have := firstPostGE_none T B h2 p hp
      have := hpin.1
      omega
  | some p =>
    right
    obtain ⟨hwhich, hleL, hleR⟩ := minPost_spec _ _ p hm
    have hmemT : (p ∈ A ∨ p ∈ B) ∧ T ≤ p.startLocation := by
      rcases hwhich with h | h
      · rw [hinv.curL] at h
        have := firstPostGE_some T A p h
        exact ⟨Or.inl this.1, this.2⟩
      · rw [hinv.curR] at h
        have := firstPostGE_some T B p h
        exact ⟨Or.inr this.1, this.2⟩
    obtain ⟨hmem, hTp⟩ := hmemT
    have hDex : ∃ D ∈ docs, inDoc D p.startLocation := by
      rcases hmem with h | h
      · exact hinA p h
      · exact hinB p h
    obtain ⟨D, hD, hpD⟩ := hDex
    have hsel : (hasPostIn A D || hasPostIn B D) = true := by
      rw [Bool.or_eq_true, hasPostIn_iff, hasPostIn_iff]
      rcases hmem with h | h
      · exact Or.inl ⟨p, h, hpD⟩
      · exact Or.inr ⟨p, h, hpD⟩
    refine ⟨Post.word p, D, rfl, hD, hsel, hb D hD (by have := hpD.2; omega),
      ⟨⟨p, rfl, hmem⟩, hpD⟩, ?_, ?_⟩
    · intro E hE hselE hTE
      rw [Bool.or_eq_true, hasPostIn_iff, hasPostIn_iff] at hselE
      have hq : ∃ q : WordPost,
          p.startLocation ≤ q.startLocation ∧ inDoc E q.startLocation := by
        rcases hselE with ⟨q, hq, hqin⟩ | ⟨q, hq, hqin⟩
        · obtain ⟨c, hc, hcq⟩ := firstPostGE_le T A hA.1 q hq (by have := hqin.1; omega)
          have := hleL c (by rw [hinv.curL]; exact hc)
          exact ⟨q, by omega, hqin⟩
        · obtain ⟨c, hc, hcq⟩ := firstPostGE_le T B hB.1 q hq (by have := hqin.1; omega)
          have := hleR c (by rw [hinv.curR]; exact hc)
          exact ⟨q, by omega, hqin⟩
      obtain ⟨q, hpq, hqin⟩ := hq
      have hse := hdocs.2.1 D hD
      rcases docs_apart docs hdocs D E hD hE with h | h | h
      · rw [h]
      · omega
      · have := hpD.1; have := hqin.2; omega
    · right
      exact ⟨T, D, p, hinv, hD, hpD, rfl, hterm p hm⟩

/-- One `ISROr::Next` call on an Or over two word iterators: it returns a post of
the first document at or after `T` that holds a post of a child, or `nullptr`
when there is none. -/
theorem or_next_step (A B : List WordPost) (docs : List DocumentPost)
    (hA : WordPostsOK A) (hB : WordPostsOK B) (hdocs : DocPostsOK docs)
    (hinA : InDocs A docs) (hinB : InDocs B docs) (fuel : Nat) (T : Nat)
    (o : ISROr ISRWord ISRWord) (hready : OrReady A B docs T o)
    (hb : ∀ E ∈ docs, T ≤ E.endLocation → T ≤ E.startLocation) :
    ∃ res o1, ISR.Next fuel o = some (res, o1) ∧
      ((res = none
          ∧ ∀ D ∈ docs, (hasPostIn A D || hasPostIn B D) = true → ¬ T ≤ D.startLocation)
        ∨ (∃ p D, res = some p ∧ D ∈ docs ∧ (hasPostIn A D || hasPostIn B D) = true
            ∧ T ≤ D.startLocation ∧ PostOfIn A B p D
            ∧ (∀ E ∈ docs, (hasPostIn A E || hasPostIn B E) = true → T ≤ E.startLocation →
                D.startLocation ≤ E.startLocation)
            ∧ OrReady A B docs (D.endLocation + 1) o1)) := by
  have hfinish : ∀ (o0 : ISROr ISRWord ISRWord) (a b : ISRWord),
      o0.current = none → WordSync a A docs → WordSync b B docs →
      a.current = firstPostGE T A → b.current = firstPostGE T B →
      ISR.Next fuel o = some (ISROr.FindNearest { o0 with isr1 := a, isr2 := b }) →
      ∃ res o1, ISR.Next fuel o = some (res, o1) ∧
      ((res = none
          ∧ ∀ D ∈ docs, (hasPostIn A D || hasPostIn B D) = true → ¬ T ≤ D.startLocation)
        ∨ (∃ p D, res = some p ∧ D ∈ docs ∧ (hasPostIn A D || hasPostIn B D) = true
            ∧ T ≤ D.startLocation ∧ PostOfIn A B p D
            ∧ (∀ E ∈ docs, (hasPostIn A E || hasPostIn B E) = true → T ≤ E.startLocation →
                D.startLocation ≤ E.startLocation)
            ∧ OrReady A B docs (D.endLocation + 1) o1)) := by
    intro o0 a b hcur0 hsa hsb hca hcb hnext
    obtain ⟨o1, hfn, e1, e2, e3, hterm⟩ :=
      or_findNearest_spec { o0 with isr1 := a, isr2 := b }
    rw [hfn] at hnext
    have hinv : OrInv A B docs T o1 :=
      { left := by rw [e1]; exact hsa
        right := by rw [e2]; exact hsb
        curL := by rw [e1]; exact hca
        curR := by rw [e2]; exact hcb
        cur := by rw [e3]; exact hcur0 }
    have hterm1 : ∀ p, minPost o1.isr1.current o1.isr2.current = some p →
        (o1.nearestTerm = 0 ∧ o1.isr1.current = some p)
          ∨ (o1.nearestTerm = 1 ∧ o1.isr2.current = some p) := by
      rw [e1, e2]; exact hterm
    have hspec := or_result_spec A B docs hA hB hdocs hinA hinB T hb o1 hinv hterm1
    rw [e1, e2] at hspec
    exact ⟨_, o1, hnext, hspec⟩
  rcases hready with ⟨hT, hs1, hs2, hc1, hd1, hc2, hd2, hnt, hcur⟩
    | ⟨T0, D, c, hinv, hD, hcD, hT, hside⟩
  · subst hT
    obtain ⟨a, ha, hca, hsa⟩ := word_next_fresh o.isr1 A docs hs1 hc1 hd1
    obtain ⟨b, hb2, hcb, hsb⟩ := word_next_fresh o.isr2 B docs hs2 hc2 hd2
    exact hfinish o a b hcur hsa hsb hca hcb (or_next_first fuel o _ _ a b hnt ha hb2)
  · have hnw := hinv.left.doc.list.noWrap D hD
    rcases hside with ⟨hnt, hc⟩ | ⟨hnt, hc⟩
    · obtain ⟨a0, D1, hgd, hD1, hcD1, hca0, hsa0⟩ :=
        word_getCurrentDoc_sync o.isr1 A docs hinv.left hinA c hc
      have hDD : D1 = D := inDoc_unique docs hdocs D1 D hD1 hD _ hcD1 hcD
      subst hDD
      have hT0 : T0 ≤ c.startLocation := by
        have := hinv.curL
        rw [hc] at this
        exact (firstPostGE_some T0 A c this.symm).2
      have hT0T : T0 ≤ T := by have := hcD.2; omega
      obtain ⟨a, hsa, hsynca, hcura⟩ := word_seek_sync a0 A docs hsa0 T
        (fun h0 => by rw [hca0] at h0; cases h0)
      obtain ⟨b, hsb, hsyncb, hcurb⟩ := word_seek_sync o.isr2 B docs hinv.right T
        (fun _ => by
          rcases hcr : o.isr2.current with _ | r
          · right
            have := hinv.curR
            rw [hcr] at this
            exact firstPostGE_none_mono T0 T B this.symm hT0T
          · rename_i h0; rw [hcr] at h0; cases h0)
      have hnext : ISR.Next fuel o
          = some (ISROr.FindNearest { ({ o with isr1 := a0 } : ISROr ISRWord ISRWord) with
              isr1 := a, isr2 := b }) := by
        show ISROr.Next fuel o = _
        rw [or_next_left fuel o D1 a0 hnt hgd, Nat.mod_eq_of_lt hnw, ← hT]
        exact or_seek_eq fuel T _ _ _ a b hinv.cur hsa hsb
      refine hfinish _ a b hinv.cur hsynca hsyncb ?_ ?_ hnext
      · rw [hcura, hca0]
        exact seekCurrent_of_lt T A c (by have := hcD.2; omega)
      · rw [hcurb, hinv.curR]
        exact seekCurrent_firstPostGE T0 T B hT0T
    · obtain ⟨b0, D1, hgd, hD1, hcD1, hcb0, hsb0⟩ :=
        word_getCurrentDoc_sync o.isr2 B docs hinv.right hinB c hc
      have hDD : D1 = D := inDoc_unique docs hdocs D1 D hD1 hD _ hcD1 hcD
      subst hDD
      have hT0 : T0 ≤ c.startLocation := by
        have := hinv.curR
        rw [hc] at this
        exact (firstPostGE_some T0 B c this.symm).2
      have hT0T : T0 ≤ T := by have := hcD.2; omega
      obtain ⟨a, hsa, hsynca, hcura⟩ := word_seek_sync o.isr1 A docs hinv.left T
        (fun _ => by
          rcases hcr : o.isr1.current with _ | r
          · right
            have := hinv.curL
            rw [hcr] at this
            exact firstPostGE_none_mono T0 T A this.symm hT0T
          · rename_i h0; rw [hcr] at h0; cases h0)
      obtain ⟨b, hsb, hsyncb, hcurb⟩ := word_seek_sync b0 B docs hsb0 T
        (fun h0 => by rw [hcb0] at h0; cases h0)
      have hnext : ISR.Next fuel o
          = some (ISROr.FindNearest { ({ o with isr2 := b0 } : ISROr ISRWord ISRWord) with
              isr1 := a, isr2 := b }) := by
        show ISROr.Next fuel o = _
        rw [or_next_right fuel o D1 b0 hnt hgd, Nat.mod_eq_of_lt hnw, ← hT]
        exact or_seek_eq fuel T _ _ _ a b hinv.cur hsa hsb
      refine hfinish _ a b hinv.cur hsynca hsyncb ?_ ?_ hnext
      · rw [hcura, hinv.curL]
        exact seekCurrent_firstPostGE T0 T A hT0T
      · rw [hcurb, hcb0]
        exact seekCurrent_of_lt T B c (by have := hcD.2; omega)

end SearchEngine

namespace SearchEngine

theorem wordIterator_freshDoc (locations : List Nat) (docs : List DocumentPost)
    (hok : DocPostsOK docs)
    (hsome : ((PostingList.empty.AddDocumentPosts docs).bind
      SerializedPostingList.WriteDocumentPostingList).isSome = true) :
    FreshDoc (wordIterator locations docs).isr_doc docs :=
  ⟨docList_written docs hok hsome, rfl, rfl, rfl⟩

/-- Claim C5. For an Or iterator over two fresh word iterators on a well-formed
written segment (every post of either word lies in a document range), successive
`ISROr::Next` calls return posts up to the first `nullptr`, and these posts are
exactly one post per document that contains a post of at least one child, in
ascending document order, each document appearing once: the results match the
list of such documents one to one, each result being a post of a child that lies
in its document. -/
theorem or_next_union (A B : List WordPost) (docs : List DocumentPost) (a b : ISRWord)
    (fuel n : Nat) (hA : FreshWord a A) (hB : FreshWord b B)
    (hdA : FreshDoc a.isr_doc docs) (hdB : FreshDoc b.isr_doc docs)
    (hinA : InDocs A docs) (hinB : InDocs B docs) (hn : docs.length ≤ n) :
    ∃ results s, nextUntilNone fuel n (ISROr.new a b) = some (results, s)
      ∧ List.Forall₂ (PostOfIn A B) results (orDocs A B docs) := by
  have hdocs : DocPostsOK docs := hdA.1.1
  obtain ⟨hs1, hc1, hd1⟩ := fresh_sync a A docs hA hdA
  obtain ⟨hs2, hc2, hd2⟩ := fresh_sync b B docs hB hdB
  exact nextUntilNone_select docs hdocs (fun D => hasPostIn A D || hasPostIn B D)
    (PostOfIn A B) (OrReady A B docs) fuel
    (fun T s hr hb => or_next_step A B docs hA.1.1 hB.1.1 hdocs hinA hinB fuel T s hr hb)
    docs 0 (ISROr.new a b) n
    (Or.inl ⟨rfl, hs1, hs2, hc1, hd1, hc2, hd2, rfl, rfl⟩)
    (fun _ _ _ => Nat.zero_le _) (fun _ h => h) hdocs.1 (fun _ _ => Nat.zero_le _)
    (fun _ hD _ _ => hD) hn

/-- Scenario S1, `a | d`: document 0 holds `a`, document 1 holds `d`, and two
`Next` calls return one post in each. -/
theorem or_next_union_witness :
    orDocs (postsAt [1]) (postsAt [8]) [⟨1, 5, 0⟩, ⟨6, 10, 1⟩] = [⟨1, 5, 0⟩, ⟨6, 10, 1⟩]
      ∧ ∃ results s,
        nextUntilNone 1 2 (ISROr.new (wordIterator [1] [⟨1, 5, 0⟩, ⟨6, 10, 1⟩])
            (wordIterator [8] [⟨1, 5, 0⟩, ⟨6, 10, 1⟩])) = some (results, s)
        ∧ List.Forall₂ (PostOfIn (postsAt [1]) (postsAt [8])) results
            (orDocs (postsAt [1]) (postsAt [8]) [⟨1, 5, 0⟩, ⟨6, 10, 1⟩]) :=
  ⟨by decide,
    or_next_union (postsAt [1]) (postsAt [8]) [⟨1, 5, 0⟩, ⟨6, 10, 1⟩] _ _ 1 2
      (wordIterator_fresh [1] _ (by decide) (by decide))
      (wordIterator_fresh [8] _ (by decide) (by decide))
      (wordIterator_freshDoc [1] _ (by decide) (by decide))
      (wordIterator_freshDoc [8] _ (by decide) (by decide))
      (by decide) (by decide) (by decide)⟩

end SearchEngine

namespace SearchEngine

/-! ## And iterators over two word iterators -/

theorem and_adv_none (f k : Nat) (a : ISRAnd ISRWord ISRWord)
    (h : a.isr1.current = none ∨ a.isr2.current = none) :
    ISRAnd.AdvanceToMatch f (k + 1) a
      = some (none, { a with nearestTerm := -1, current := none }) := by
  unfold ISRAnd.AdvanceToMatch
  simp only [isr_word_getCurrentPost]
  rcases h with h | h
  · rw [h]
    cases a.isr2.current <;> rfl
  · rw [h]
    cases a.isr1.current <;> rfl

theorem and_adv_left_match (f k : Nat) (a : ISRAnd ISRWord ISRWord) (l r : WordPost)
    (D : DocumentPost) (c2 : ISRWord) (hl : a.isr1.current = some l)
    (hr : a.isr2.current = some r) (hle : l.startLocation ≤ r.startLocation)
    (hgd : a.isr2.GetCurrentDoc = some (some (Post.doc D), c2))
    (hm : l.startLocation ≥ D.startLocation ∧ r.startLocation ≤ D.endLocation
      ∧ l.startLocation ≤ D.endLocation) :
    ISRAnd.AdvanceToMatch f (k + 1) a
      = some (some (Post.word l),
          { a with isr2 := c2, nearestTerm := 0, current := some (Post.word l) }) := by
  unfold ISRAnd.AdvanceToMatch
  simp only [isr_word_getCurrentPost, hl, hr, Option.map_some', Post.GetStartLocation,
    Post.GetEndLocation, isr_word_getCurrentDoc, hgd, if_pos hle, if_pos hm]

theorem and_adv_left_seek (f k : Nat) (a : ISRAnd ISRWord ISRWord) (l r : WordPost)
    (D : DocumentPost) (c1 c2 : ISRWord) (x : Option Post) (hl : a.isr1.current = some l)
    (hr : a.isr2.current = some r) (hle : l.startLocation ≤ r.startLocation)
    (hgd : a.isr2.GetCurrentDoc = some (some (Post.doc D), c2))
    (hm : ¬ (l.startLocation ≥ D.startLocation ∧ r.startLocation ≤ D.endLocation
      ∧ l.startLocation ≤ D.endLocation))
    (hs : a.isr1.Seek D.startLocation = some (x, c1)) :
    ISRAnd.AdvanceToMatch f (k + 1) a
      = ISRAnd.AdvanceToMatch f k { a with isr1 := c1, isr2 := c2 } := by
  conv => lhs; unfold ISRAnd.AdvanceToMatch
  simp only [isr_word_getCurrentPost, hl, hr, Option.map_some', Post.GetStartLocation,
    Post.GetEndLocation, isr_word_getCurrentDoc, hgd, if_pos hle, if_neg hm, isr_word_seek, hs]

theorem and_adv_right_match (f k : Nat) (a : ISRAnd ISRWord ISRWord) (l r : WordPost)
    (D : DocumentPost) (c1 : ISRWord) (hl : a.isr1.current = some l)
    (hr : a.isr2.current = some r) (hle : ¬ l.startLocation ≤ r.startLocation)
    (hgd : a.isr1.GetCurrentDoc = some (some (Post.doc D), c1))
    (hm : r.startLocation ≥ D.startLocation ∧ r.startLocation ≤ D.endLocation
      ∧ l.startLocation ≤ D.endLocation) :
    ISRAnd.AdvanceToMatch f (k + 1) a
      = some (some (Post.word r),
          { a with isr1 := c1, nearestTerm := 1, current := some (Post.word r) }) := by
  unfold ISRAnd.AdvanceToMatch
  simp only [isr_word_getCurrentPost, hl, hr, Option.map_some', Post.GetStartLocation,
    Post.GetEndLocation, isr_word_getCurrentDoc, hgd, if_neg hle, if_pos hm]

theorem and_adv_right_seek (f k : Nat) (a : ISRAnd ISRWord ISRWord) (l r : WordPost)
    (D : DocumentPost) (c1 c2 : ISRWord) (x : Option Post) (hl : a.isr1.current = some l)
    (hr : a.isr2.current = some r) (hle : ¬ l.startLocation ≤ r.startLocation)
    (hgd : a.isr1.GetCurrentDoc = some (some (Post.doc D), c1))
    (hm : ¬ (r.startLocation ≥ D.startLocation ∧ r.startLocation ≤ D.endLocation
      ∧ l.startLocation ≤ D.endLocation))
    (hs : a.isr2.Seek D.startLocation = some (x, c2)) :
    ISRAnd.AdvanceToMatch f (k + 1) a
      = ISRAnd.AdvanceToMatch f k { a with isr1 := c1, isr2 := c2 } := by
  conv => lhs; unfold ISRAnd.AdvanceToMatch
  simp only [isr_word_getCurrentPost, hl, hr, Option.map_some', Post.GetStartLocation,
    Post.GetEndLocation, isr_word_getCurrentDoc, hgd, if_neg hle, if_neg hm, isr_word_seek, hs]

theorem and_next_eq (f : Nat) (a : ISRAnd ISRWord ISRWord) (r1 r2 : Option Post)
    (c1 c2 : ISRWord) (h1 : a.isr1.Next = some (r1, c1)) (h2 : a.isr2.Next = some (r2, c2)) :
    ISRAnd.Next f a = ISRAnd.AdvanceToMatch f f { a with isr1 := c1, isr2 := c2 } := by
  unfold ISRAnd.Next
  simp only [isr_word_next, h1, h2]

/-- A seek past the current post moves the cursor at least one post on. -/
theorem countBelow_advance (t T1 : Nat) (A : List WordPost)
    (hs : (A.map WordPost.startLocation).Pairwise (· < ·)) (l : WordPost)
    (hl : firstPostGE t A = some l) (hlt : l.startLocation < T1) :
    countBelow t A < countBelow T1 A ∧ countBelow t A < A.length := by
  induction A with
  | nil => simp [firstPostGE] at hl
  | cons q qs ih =>
    rw [firstPostGE_cons] at hl
    simp only [List.map_cons, List.pairwise_cons, List.mem_map, forall_exists_index,
      and_imp, forall_apply_eq_imp_iff₂] at hs
    unfold countBelow
    by_cases hq : t ≤ q.startLocation
    · rw [if_pos hq] at hl
      simp only [Option.some.injEq] at hl
      subst hl
      rw [if_pos hq, if_neg (by omega)]
      simp
    · rw [if_neg hq] at hl
      have hql := hs.1 l (firstPostGE_some t qs l hl).1
      rw [if_neg hq, if_neg (by omega)]
      have := ih hs.2 hl
      simp only [List.length_cons]
      omega

/-- The match loop of `ISRAnd`: with both children on their first posts at or
after thresholds that no common document at or after `T` precedes, it returns a
post of the first common document at or after `T`, or `nullptr` when there is
none. -/
theorem and_advance_spec (A B : List WordPost) (docs : List DocumentPost)
    (hA : WordPostsOK A) (hB : WordPostsOK B) (hdocs : DocPostsOK docs)
    (hinA : InDocs A docs) (hinB : InDocs B docs) (f T : Nat)
    (hb : ∀ E ∈ docs, T ≤ E.endLocation → T ≤ E.startLocation) :
    ∀ (k : Nat) (a : ISRAnd ISRWord ISRWord) (t1 t2 : Nat),
      WordSync a.isr1 A docs → WordSync a.isr2 B docs →
      a.isr1.current = firstPostGE t1 A → a.isr2.current = firstPostGE t2 B →
      T ≤ t1 → T ≤ t2 →
      (∀ E ∈ docs, (hasPostIn A E && hasPostIn B E) = true → T ≤ E.startLocation →
        t1 ≤ E.startLocation ∧ t2 ≤ E.startLocation) →
      (A.length - countBelow t1 A) + (B.length - countBelow t2 B) < k →
      ∃ res a1, ISRAnd.AdvanceToMatch f k a = some (res, a1)
        ∧ SelectStep docs (fun D => hasPostIn A D && hasPostIn B D) (PostOfIn A B)
            (AndReady A B docs) T res a1 := by
  intro k
  induction k with
  | zero => intro a t1 t2 _ _ _ _ _ _ _ hk; omega
  | succ k ih =>
    intro a t1 t2 hs1 hs2 hc1 hc2 hT1 hT2 hahead hk
    have hnone : a.isr1.current = none ∨ a.isr2.current = none →
        ∃ res a1, ISRAnd.AdvanceToMatch f (k + 1) a = some (res, a1)
          ∧ SelectStep docs (fun D => hasPostIn A D && hasPostIn B D) (PostOfIn A B)
              (AndReady A B docs) T res a1 := by
      intro hn
      refine ⟨none, _, and_adv_none f k a hn, Or.inl ⟨rfl, ?_⟩⟩
      intro E hE hsel hTE
      obtain ⟨h1, h2⟩ := hahead E hE hsel hTE
      simp only [Bool.and_eq_true, hasPostIn_iff] at hsel
      obtain ⟨⟨q1, hq1, hq1in⟩, ⟨q2, hq2, hq2in⟩⟩ := hsel
      rcases hn with hn | hn
      · rw [hn] at hc1
        have := firstPostGE_none t1 A hc1.symm q1 hq1
        have := hq1in.1
        omega
      · rw [hn] at hc2
        have := firstPostGE_none t2 B hc2.symm q2 hq2
        have := hq2in.1
        omega
    cases hl : a.isr1.current with
    | none => exact hnone (Or.inl hl)
    | some l =>
      cases hr : a.isr2.current with
      | none => exact hnone (Or.inr hr)
      | some r =>
        have hfl : firstPostGE t1 A = some l := by rw [← hc1, hl]
        have hfr : firstPostGE t2 B = some r := by rw [← hc2, hr]
        obtain ⟨hlA, hlt⟩ := firstPostGE_some t1 A l hfl
        obtain ⟨hrB, hrt⟩ := firstPostGE_some t2 B r hfr
        by_cases hle : l.startLocation ≤ r.startLocation
        · obtain ⟨c2, D, hgd, hD, hrD, hc2cur, hsync2⟩ :=
            word_getCurrentDoc_sync a.isr2 B docs hs2 hinB r hr
          have hse := hdocs.2.1 D hD
          by_cases hm : D.startLocation ≤ l.startLocation
          · have hcond : l.startLocation ≥ D.startLocation
                ∧ r.startLocation ≤ D.endLocation ∧ l.startLocation ≤ D.endLocation :=
              ⟨hm, hrD.2, by have := hrD.2; omega⟩
            have hlD : inDoc D l.startLocation := ⟨hm, hcond.2.2⟩
            refine ⟨_, _, and_adv_left_match f k a l r D c2 hl hr hle hgd hcond, Or.inr ?_⟩
            refine ⟨Post.word l, D, rfl, hD, ?_, hb D hD (by have := hlD.2; omega),
              ⟨⟨l, rfl, Or.inl hlA⟩, hlD⟩, ?_, ?_⟩
            · simp only [Bool.and_eq_true, hasPostIn_iff]
              exact ⟨⟨l, hlA, hlD⟩, ⟨r, hrB, hrD⟩⟩
            · intro E hE hsel hTE
              obtain ⟨h1, _⟩ := hahead E hE hsel hTE
              simp only [Bool.and_eq_true, hasPostIn_iff] at hsel
              obtain ⟨⟨q1, hq1, hq1in⟩, _⟩ := hsel
              obtain ⟨c, hc, hcq⟩ := firstPostGE_le t1 A hA.1 q1 hq1
                (by have := hq1in.1; omega)
              rw [hfl] at hc
              cases hc
              rcases docs_apart docs hdocs D E hD hE with h | h | h
              · rw [h]
              · omega
              · have := hq1in.2; omega
            · exact ⟨hs1, hsync2, Or.inr ⟨D, l, r, hD, hl, hc2cur, hlD, hrD, rfl⟩⟩
          · have hcond : ¬ (l.startLocation ≥ D.startLocation
                ∧ r.startLocation ≤ D.endLocation ∧ l.startLocation ≤ D.endLocation) :=
              fun h => hm h.1
            obtain ⟨c1, hseek, hsync1, hcur1⟩ := word_seek_sync a.isr1 A docs hs1
              D.startLocation (fun h0 => by rw [hl] at h0; cases h0)
            rw [hl, seekCurrent_of_lt D.startLocation A l (by omega)] at hcur1
            have hTD : T ≤ D.startLocation := hb D hD (by have := hrD.2; omega)
            obtain ⟨hadv, hlen⟩ := countBelow_advance t1 D.startLocation A hA.1 l hfl
              (by omega)
            rw [and_adv_left_seek f k a l r D c1 c2 _ hl hr hle hgd hcond hseek]
            refine ih _ D.startLocation t2 hsync1 hsync2 hcur1 (by rw [hc2cur, hfr]) hTD hT2
              ?_ (by omega)
            intro E hE hsel hTE
            obtain ⟨_, h2⟩ := hahead E hE hsel hTE
            refine ⟨?_, h2⟩
            simp only [Bool.and_eq_true, hasPostIn_iff] at hsel
            obtain ⟨_, ⟨q2, hq2, hq2in⟩⟩ := hsel
            obtain ⟨c, hc, hcq⟩ := firstPostGE_le t2 B hB.1 q2 hq2
              (by have := hq2in.1; omega)
            rw [hfr] at hc
            cases hc
            rcases docs_apart docs hdocs D E hD hE with h | h | h
            · rw [h]
            · omega
            · have := hq2in.2; have := hrD.1; omega
        · obtain ⟨c1, D, hgd, hD, hlD, hc1cur, hsync1⟩ :=
            word_getCurrentDoc_sync a.isr1 A docs hs1 hinA l hl
          have hse := hdocs.2.1 D hD
          by_cases hm : D.startLocation ≤ r.startLocation
          · have hcond : r.startLocation ≥ D.startLocation
                ∧ r.startLocation ≤ D.endLocation ∧ l.startLocation ≤ D.endLocation :=
              ⟨hm, by have := hlD.2; omega, hlD.2⟩
            have hrD : inDoc D r.startLocation := ⟨hm, hcond.2.1⟩
            refine ⟨_, _, and_adv_right_match f k a l r D c1 hl hr hle hgd hcond, Or.inr ?_⟩
            refine ⟨Post.word r, D, rfl, hD, ?_, hb D hD (by have := hrD.2; omega),
              ⟨⟨r, rfl, Or.inr hrB⟩, hrD⟩, ?_, ?_⟩
            · simp only [Bool.and_eq_true, hasPostIn_iff]
              exact ⟨⟨l, hlA, hlD⟩, ⟨r, hrB, hrD⟩⟩
            · intro E hE hsel hTE
              obtain ⟨_, h2⟩ := hahead E hE hsel hTE
              simp only [Bool.and_eq_true, hasPostIn_iff] at hsel
              obtain ⟨_, ⟨q2, hq2, hq2in⟩⟩ := hsel
              obtain ⟨c, hc, hcq⟩ := firstPostGE_le t2 B hB.1 q2 hq2
                (by have := hq2in.1; omega)
              rw [hfr] at hc
              cases hc
              rcases docs_apart docs hdocs D E hD hE with h | h | h
              · rw [h]
              · omega
              · have := hq2in.2; omega
            · exact ⟨hsync1, hs2, Or.inr ⟨D, l, r, hD, hc1cur, hr, hlD, hrD, rfl⟩⟩
          · have hcond : ¬ (r.startLocation ≥ D.startLocation
                ∧ r.startLocation ≤ D.endLocation ∧ l.startLocation ≤ D.endLocation) :=
              fun h => hm h.1
            obtain ⟨c2, hseek, hsync2, hcur2⟩ := word_seek_sync a.isr2 B docs hs2
              D.startLocation (fun h0 => by rw [hr] at h0; cases h0)
            rw [hr, seekCurrent_of_lt D.startLocation B r (by omega)] at hcur2
            have hTD : T ≤ D.startLocation := hb D hD (by have := hlD.2; omega)
            obtain ⟨hadv, hlen⟩ := countBelow_advance t2 D.startLocation B hB.1 r hfr
              (by omega)
            rw [and_adv_right_seek f k a l r D c1 c2 _ hl hr hle hgd hcond hseek]
            refine ih _ t1 D.startLocation hsync1 hsync2 (by rw [hc1cur, hfl]) hcur2 hT1 hTD
              ?_ (by omega)
            intro E hE hsel hTE
            obtain ⟨h1, _⟩ := hahead E hE hsel hTE
            refine ⟨h1, ?_⟩
            simp only [Bool.and_eq_true, hasPostIn_iff] at hsel
            obtain ⟨⟨q1, hq1, hq1in⟩, _⟩ := hsel
            obtain ⟨c, hc, hcq⟩ := firstPostGE_le t1 A hA.1 q1 hq1
              (by have := hq1in.1; omega)
            rw [hfl] at hc
            cases hc
            rcases docs_apart docs hdocs D E hD hE with h | h | h
            · rw [h]
            · omega
            · have := hq1in.2; have := hlD.1; omega

/-- One `ISRAnd::Next` call on an And over two word iterators: it returns a post
of the first document at or after `T` that holds a post of each child, or
`nullptr` when there is none. -/
theorem and_next_step (A B : List WordPost) (docs : List DocumentPost)
    (hA : WordPostsOK A) (hB : WordPostsOK B) (hdocs : DocPostsOK docs)
    (hinA : InDocs A docs) (hinB : InDocs B docs) (fuel : Nat)
    (hfuel : A.length + B.length < fuel) (T : Nat) (a : ISRAnd ISRWord ISRWord)
    (hready : AndReady A B docs T a)
    (hb : ∀ E ∈ docs, T ≤ E.endLocation → T ≤ E.startLocation) :
    ∃ res a1, ISR.Next fuel a = some (res, a1)
      ∧ SelectStep docs (fun D => hasPostIn A D && hasPostIn B D) (PostOfIn A B)
          (AndReady A B docs) T res a1 := by
  obtain ⟨hs1, hs2, hcase⟩ := hready
  have hchildren : ∃ c1 c2 r1 r2, a.isr1.Next = some (r1, c1) ∧ a.isr2.Next = some (r2, c2)
      ∧ WordSync c1 A docs ∧ WordSync c2 B docs
      ∧ c1.current = firstPostGE T A ∧ c2.current = firstPostGE T B := by
    rcases hcase with ⟨hT, h1, hd1, h2, hd2⟩ | ⟨D, l, r, hD, hl, hr, hlD, hrD, hT⟩
    · subst hT
      obtain ⟨c1, hn1, hcur1, hsy1⟩ := word_next_fresh a.isr1 A docs hs1 h1 hd1
      obtain ⟨c2, hn2, hcur2, hsy2⟩ := word_next_fresh a.isr2 B docs hs2 h2 hd2
      exact ⟨c1, c2, _, _, hn1, hn2, hsy1, hsy2, hcur1, hcur2⟩
    · obtain ⟨c1, D1, hn1, hD1, hlD1, hcur1, hsy1⟩ :=
        word_next_sync a.isr1 A docs hs1 hinA l hl
      obtain ⟨c2, D2, hn2, hD2, hrD2, hcur2, hsy2⟩ :=
        word_next_sync a.isr2 B docs hs2 hinB r hr
      have e1 : D1 = D := inDoc_unique docs hdocs D1 D hD1 hD _ hlD1 hlD
      have e2 : D2 = D := inDoc_unique docs hdocs D2 D hD2 hD _ hrD2 hrD
      subst e1
      subst e2
      subst hT
      exact ⟨c1, c2, _, _, hn1, hn2, hsy1, hsy2, hcur1, hcur2⟩
  obtain ⟨c1, c2, r1, r2, hn1, hn2, hsy1, hsy2, hcur1, hcur2⟩ := hchildren
  show ∃ res a1, ISRAnd.Next fuel a = some (res, a1) ∧ _
  rw [and_next_eq fuel a r1 r2 c1 c2 hn1 hn2]
  exact and_advance_spec A B docs hA hB hdocs hinA hinB fuel T hb fuel _ T T hsy1 hsy2
    hcur1 hcur2 (Nat.le_refl _) (Nat.le_refl _) (fun E _ _ hTE => ⟨hTE, hTE⟩)
    (by
      have := countBelow_le T A
      have := countBelow_le T B
      omega)

/-- Claim C4. For an And iterator over two fresh word iterators on a well-formed
written segment (every post of either word lies in a document range), successive
`ISRAnd::Next` calls return posts up to the first `nullptr`, and these posts are
exactly one post per document that contains a post of each child, in ascending
document order: the results match the list of such documents one to one, each
result being a post of a child that lies in its document, so no such document is
skipped and no other document is reported. -/
theorem and_next_common_docs (A B : List WordPost) (docs : List DocumentPost)
    (a b : ISRWord) (fuel n : Nat) (hA : FreshWord a A) (hB : FreshWord b B)
    (hdA : FreshDoc a.isr_doc docs) (hdB : FreshDoc b.isr_doc docs)
    (hinA : InDocs A docs) (hinB : InDocs B docs) (hn : docs.length ≤ n)
    (hfuel : A.length + B.length < fuel) :
    ∃ results s, nextUntilNone fuel n (ISRAnd.new a b) = some (results, s)
      ∧ List.Forall₂ (PostOfIn A B) results (andDocs A B docs) := by
  have hdocs : DocPostsOK docs := hdA.1.1
  obtain ⟨hs1, hc1, hd1⟩ := fresh_sync a A docs hA hdA
  obtain ⟨hs2, hc2, hd2⟩ := fresh_sync b B docs hB hdB
  exact nextUntilNone_select docs hdocs (fun D => hasPostIn A D && hasPostIn B D)
    (PostOfIn A B) (AndReady A B docs) fuel
    (fun T s hr hb =>
      and_next_step A B docs hA.1.1 hB.1.1 hdocs hinA hinB fuel hfuel T s hr hb)
    docs 0 (ISRAnd.new a b) n
    ⟨hs1, hs2, Or.inl ⟨rfl, hc1, hd1, hc2, hd2⟩⟩
    (fun _ _ _ => Nat.zero_le _) (fun _ h => h) hdocs.1 (fun _ _ => Nat.zero_le _)
    (fun _ hD _ _ => hD) hn

/-- Scenario S1, `a & c` over `doc0 = "a b c"`, `doc1 = "b c d"`: only document 0
holds both words, and the calls return one post, in document 0. -/
theorem and_next_common_docs_witness :
    andDocs (postsAt [1]) (postsAt [3, 7]) [⟨1, 5, 0⟩, ⟨6, 10, 1⟩] = [⟨1, 5, 0⟩]
      ∧ ∃ results s,
        nextUntilNone 4 2 (ISRAnd.new (wordIterator [1] [⟨1, 5, 0⟩, ⟨6, 10, 1⟩])
            (wordIterator [3, 7] [⟨1, 5, 0⟩, ⟨6, 10, 1⟩])) = some (results, s)
        ∧ List.Forall₂ (PostOfIn (postsAt [1]) (postsAt [3, 7])) results
            (andDocs (postsAt [1]) (postsAt [3, 7]) [⟨1, 5, 0⟩, ⟨6, 10, 1⟩]) :=
  ⟨by decide,
    and_next_common_docs (postsAt [1]) (postsAt [3, 7]) [⟨1, 5, 0⟩, ⟨6, 10, 1⟩] _ _ 4 2
      (wordIterator_fresh [1] _ (by decide) (by decide))
      (wordIterator_fresh [3, 7] _ (by decide) (by decide))
      (wordIterator_freshDoc [1] _ (by decide) (by decide))
      (wordIterator_freshDoc [3, 7] _ (by decide) (by decide))
      (by decide) (by decide) (by decide) (by decide)⟩

end SearchEngine

namespace SearchEngine

/-! ## Start Locations up to the first `nullptr` -/

theorem untilNone_nil : untilNone [] = [] := rfl

theorem untilNone_none (rs : List (Option Post)) : untilNone (none :: rs) = [] := rfl

theorem untilNone_some (p : Post) (rs : List (Option Post)) :
    untilNone (some p :: rs) = some p :: untilNone rs := rfl

/-- When every call that returns a post leaves the iterator on that post and
never moves it backwards, the posts returned before the first `nullptr` have
non-decreasing starts. -/
theorem runCalls_mono {σ : Type} [ISR σ] (Inv : σ → Prop) (fuel : Nat)
    (hstep : ∀ (c : Call) (s : σ) (p : Post) (s1 : σ), Inv s →
      c.run fuel s = some (some p, s1) →
      Inv s1 ∧ ISR.GetCurrentPost s1 = some p
        ∧ ∀ q, ISR.GetCurrentPost s = some q → q.GetStartLocation ≤ p.GetStartLocation) :
    ∀ (calls : List Call) (s : σ) (results : List (Option Post)) (s2 : σ), Inv s →
      runCalls fuel calls s = some (results, s2) →
      StartsNonDecreasing (untilNone results)
        ∧ ∀ q, ISR.GetCurrentPost s = some q → ∀ p, some p ∈ untilNone results →
            q.GetStartLocation ≤ p.GetStartLocation := by
  intro calls
  induction calls with
  | nil =>
    intro s results s2 _ h
    simp only [runCalls, Option.some.injEq, Prod.mk.injEq] at h
    rw [← h.1]
    exact ⟨by simp [untilNone_nil, StartsNonDecreasing], fun q _ p hp => by
      simp [untilNone_nil] at hp⟩
  | cons c cs ih =>
    intro s results s2 hinv h
    unfold runCalls at h
    split at h
    · cases h
    · rename_i r s1 hc
      split at h
      · cases h
      · rename_i rs s3 hrest
        simp only [Option.some.injEq, Prod.mk.injEq] at h
        rw [← h.1]
        cases r with
        | none =>
          rw [untilNone_none]
          exact ⟨by simp [StartsNonDecreasing], fun q _ p hp => by simp at hp⟩
        | some p =>
          obtain ⟨hinv1, hcur1, hmono⟩ := hstep c s p s1 hinv hc
          obtain ⟨hnd, hge⟩ := ih s1 rs s3 hinv1 hrest
          rw [untilNone_some]
          refine ⟨?_, ?_⟩
          · unfold StartsNonDecreasing at hnd ⊢
            have e : (some p :: untilNone rs).filterMap id
                = p :: (untilNone rs).filterMap id := rfl
            rw [e, List.map_cons, List.pairwise_cons]
            refine ⟨?_, hnd⟩
            intro y hy
            simp only [List.mem_map, List.mem_filterMap, id_eq, exists_eq_right] at hy
            obtain ⟨x, hx, hxy⟩ := hy
            rw [← hxy]
            exact hge p hcur1 x hx
          · intro q hq x hx
            rcases List.mem_cons.mp hx with h1 | h1
            · simp only [Option.some.injEq] at h1
              rw [h1]
              exact hmono q hq
            · exact Nat.le_trans (hmono q hq) (hge p hcur1 x h1)

/-! ### Word iterators -/

theorem word_seek_mono (w w1 : ISRWord) (A : List WordPost) (T : Nat) (r : Option Post)
    (h : WordCursorOK w A) (hs : w.Seek T = some (r, w1)) :
    WordCursorOK w1 A ∧ r = w1.current.map Post.word
      ∧ ∀ c c1, w.current = some c → w1.current = some c1 →
          c.startLocation ≤ c1.startLocation := by
  obtain ⟨hok, hr, hcur⟩ := word_seek_keeps w w1 A T r h hs
  refine ⟨hok, hr, ?_⟩
  intro c c1 hc hc1
  rw [hcur, hc] at hc1
  unfold seekCurrent at hc1
  simp only [] at hc1
  by_cases hg : T ≤ c.startLocation
  · rw [if_pos hg] at hc1
    cases hc1
    exact Nat.le_refl _
  · rw [if_neg hg] at hc1
    have := (firstPostGE_some T A c1 hc1).2
    omega

theorem word_next_mono (w w1 : ISRWord) (A : List WordPost) (r : Option Post)
    (h : WordCursorOK w A) (hs : w.Next = some (r, w1)) :
    WordCursorOK w1 A ∧ r = w1.current.map Post.word
      ∧ ∀ c c1, w.current = some c → w1.current = some c1 →
          c.startLocation ≤ c1.startLocation := by
  unfold ISRWord.Next at hs
  split at hs
  · split at hs
    · cases hs
    · rename_i c0 hc0 post d _
      have := word_seek_mono { w with isr_doc := d } w1 A _ r (wordCursor_with_doc w A d h) hs
      exact this
  · rename_i hc0
    refine ⟨(word_seek_mono w w1 A 0 r h hs).1, (word_seek_mono w w1 A 0 r h hs).2.1, ?_⟩
    intro c c1 hc _
    rw [hc0] at hc
    cases hc

theorem word_nextInternal_mono (w w1 : ISRWord) (A : List WordPost) (r : Option Post)
    (h : WordCursorOK w A) (hs : w.NextInternal = some (r, w1)) :
    WordCursorOK w1 A ∧ r = w1.current.map Post.word
      ∧ ∀ c c1, w.current = some c → w1.current = some c1 →
          c.startLocation ≤ c1.startLocation := by
  obtain ⟨w2, h2, hok, _, _, hlt⟩ := word_nextInternal_spec w A h
  rw [h2] at hs
  simp only [Option.some.injEq, Prod.mk.injEq] at hs
  obtain ⟨hr, hw⟩ := hs
  subst hw
  exact ⟨hok, hr.symm, fun c c1 hc hc1 => Nat.le_of_lt (hlt c c1 hc hc1)⟩

/-- Every call on a word iterator keeps it on its list, returns its new current
post, and does not move a current post backwards. -/
theorem word_call_mono (A : List WordPost) (fuel : Nat) (c : Call) (w w1 : ISRWord)
    (r : Option Post) (h : WordCursorOK w A) (hs : c.run fuel w = some (r, w1)) :
    WordCursorOK w1 A ∧ r = w1.current.map Post.word
      ∧ ∀ c c1, w.current = some c → w1.current = some c1 →
          c.startLocation ≤ c1.startLocation := by
  cases c with
  | next => exact word_next_mono w w1 A r h hs
  | nextInternal => exact word_nextInternal_mono w w1 A r h hs
  | seek T => exact word_seek_mono w w1 A T r h hs

theorem wordGEN_of_mono (m : Nat) (w w1 : ISRWord)
    (hmono : ∀ c c1, w.current = some c → w1.current = some c1 →
      c.startLocation ≤ c1.startLocation)
    (h : WordGE m w ∨ m = 0) : WordGEN m w1 := by
  intro c1 hc1
  rcases h with ⟨c, hc, hm⟩ | h0
  · exact Nat.le_trans hm (hmono c c1 hc hc1)
  · omega

theorem wordGE_of_GEN (m : Nat) (w : ISRWord) (c : WordPost) (hc : w.current = some c)
    (h : WordGEN m w) : WordGE m w := ⟨c, hc, h c hc⟩

theorem word_run_mono (A : List WordPost) (fuel : Nat) (c : Call) (w : ISRWord) (p : Post)
    (w1 : ISRWord) (h : WordCursorOK w A) (hs : c.run fuel w = some (some p, w1)) :
    WordCursorOK w1 A ∧ ISR.GetCurrentPost w1 = some p
      ∧ ∀ q, ISR.GetCurrentPost w = some q → q.GetStartLocation ≤ p.GetStartLocation := by
  obtain ⟨hok, hr, hmono⟩ := word_call_mono A fuel c w w1 _ h hs
  refine ⟨hok, by rw [isr_word_getCurrentPost]; exact hr.symm, ?_⟩
  intro q hq
  rw [isr_word_getCurrentPost] at hq
  cases hc : w.current with
  | none => rw [hc] at hq; cases hq
  | some c0 =>
    rw [hc] at hq
    simp only [Option.map_some', Option.some.injEq] at hq
    subst hq
    cases hc1 : w1.current with
    | none => rw [hc1] at hr; cases hr
    | some c1 =>
      rw [hc1] at hr
      simp only [Option.map_some', Option.some.injEq] at hr
      subst hr
      exact hmono c0 c1 hc hc1

end SearchEngine

namespace SearchEngine

/-! ### Document iterators -/

theorem firstDocGE_some (T : Nat) (docs : List DocumentPost) (c : DocumentPost)
    (h : firstDocGE T docs = some c) : c ∈ docs ∧ T ≤ c.endLocation := by
  unfold firstDocGE at h
  exact ⟨List.mem_of_find?_eq_some h, by simpa using List.find?_some h⟩

/-- `ISRDoc::Next` on a written list: the next document of the list, later than
the current one, or `nullptr` at the end of the list. -/
theorem doc_next_spec (d : ISRDoc) (docs : List DocumentPost) (h : DocCursorOK d docs) :
    ∃ d1, d.Next = some (d1.current.map Post.doc, d1) ∧ DocCursorOK d1 docs
      ∧ ∀ c c1, d.current = some c → d1.current = some c1 →
          c.startLocation ≤ c1.startLocation := by
  obtain ⟨k, hk, hdata, hloc, hcur⟩ := h.cursor
  unfold ISRDoc.Next SerializedPostingList.GetCurrentDoc
  rw [h.list.size, h.list.data, hdata, hloc]
  rcases Nat.lt_or_ge k docs.length with hlt | hge
  · have hq : docs[k]? = some docs[k] := List.getElem?_eq_getElem hlt
    obtain ⟨hdes, hoff⟩ := deserializeDoc_at docs k _ hq h.list.sorted
    rw [if_pos (docOffset_lt docs k hlt), hdes]
    simp only [hoff]
    have hst := docCursor_after_seek d docs k h
    rw [hq, docLocation_succ docs k _ hq] at hst
    refine ⟨_, rfl, hst, ?_⟩
    intro c c1 hc hc1
    simp only [Option.some.injEq] at hc1
    subst hc1
    rcases hcur with h0 | ⟨hpos, h1⟩
    · rw [h0] at hc; cases hc
    · rw [hc] at h1
      have := docEnds_increasing docs h.list.sorted (k - 1) k c docs[k] (by omega) h1 hq
      have := h.list.sorted.2.1 c (List.getElem?_mem h1)
      omega
  · have hkn : k = docs.length := by omega
    subst hkn
    have hoff := docOffset_of_ge docs docs.length (Nat.le_refl _)
    rw [if_neg (by rw [hoff]; exact Nat.lt_irrefl _)]
    refine ⟨{ d with current := none }, ?_, ?_, ?_⟩
    · simp only [Option.map_none']
      congr 2
      cases d
      simp_all
    · exact { list := h.list, cursor := ⟨docs.length, Nat.le_refl _, hdata, hloc, Or.inl rfl⟩ }
    · intro c c1 _ hc1
      cases hc1

theorem doc_seek_mono (d : ISRDoc) (docs : List DocumentPost) (h : DocCursorOK d docs)
    (T : Nat) :
    ∃ d1, d.Seek T = some (d1.current.map Post.doc, d1) ∧ DocCursorOK d1 docs
      ∧ ∀ c c1, d.current = some c → d1.current = some c1 →
          c.startLocation ≤ c1.startLocation := by
  obtain ⟨d1, hseek, hok, _, hcur⟩ := doc_seek_spec d docs h T
  refine ⟨d1, hseek, hok, ?_⟩
  intro c c1 hc hc1
  rw [hcur, hc] at hc1
  unfold seekCurrentDoc at hc1
  simp only [] at hc1
  by_cases hg : T ≤ c.endLocation
  · rw [if_pos hg] at hc1
    cases hc1
    exact Nat.le_refl _
  · rw [if_neg hg] at hc1
    obtain ⟨hm1, hT1⟩ := firstDocGE_some T docs c1 hc1
    have hm := docCursor_current_mem d docs h c hc
    have := h.list.sorted.2.1 c hm
    rcases docs_apart docs h.list.sorted c c1 hm hm1 with e | e | e
    · subst e; omega
    · omega
    · omega

/-- Every call on a document iterator that returns a document leaves the
iterator on it and does not move backwards. -/
theorem doc_run_mono (docs : List DocumentPost) (fuel : Nat) (c : Call) (d : ISRDoc)
    (p : Post) (d1 : ISRDoc) (h : DocCursorOK d docs)
    (hs : c.run fuel d = some (some p, d1)) :
    DocCursorOK d1 docs ∧ ISR.GetCurrentPost d1 = some p
      ∧ ∀ q, ISR.GetCurrentPost d = some q → q.GetStartLocation ≤ p.GetStartLocation := by
  have hkey : ∃ d2, c.run fuel d = some (d2.current.map Post.doc, d2) ∧ DocCursorOK d2 docs
      ∧ ∀ c c1, d.current = some c → d2.current = some c1 →
          c.startLocation ≤ c1.startLocation := by
    cases c with
    | next => exact doc_next_spec d docs h
    | nextInternal => exact doc_next_spec d docs h
    | seek T => exact doc_seek_mono d docs h T
  obtain ⟨d2, h2, hok, hmono⟩ := hkey
  rw [h2] at hs
  simp only [Option.some.injEq, Prod.mk.injEq] at hs
  obtain ⟨hr, hd⟩ := hs
  subst hd
  refine ⟨hok, hr, ?_⟩
  intro q hq
  have hq1 : d.current.map Post.doc = some q := hq
  cases hc : d.current with
  | none => rw [hc] at hq1; cases hq1
  | some c0 =>
    rw [hc] at hq1
    simp only [Option.map_some', Option.some.injEq] at hq1
    subst hq1
    cases hc1 : d2.current with
    | none => rw [hc1] at hr; cases hr
    | some c1 =>
      rw [hc1] at hr
      simp only [Option.map_some', Option.some.injEq] at hr
      subst hr
      exact hmono c0 c1 hc hc1

end SearchEngine

namespace SearchEngine

/-! ### And iterators -/

/-- The match loop of `ISRAnd` over two word iterators: a post it returns is the
new current post, both children stand at or after it, and it is not before the
bound the children started from. -/
theorem and_advance_mono (A B : List WordPost) (f : Nat) :
    ∀ (k : Nat) (a a1 : ISRAnd ISRWord ISRWord) (m : Nat) (p : Post),
      WordCursorOK a.isr1 A → WordCursorOK a.isr2 B → WordGEN m a.isr1 → WordGEN m a.isr2 →
      ISRAnd.AdvanceToMatch f k a = some (some p, a1) →
      AndMonoInv A B a1 ∧ a1.current = some p ∧ m ≤ p.GetStartLocation := by
  intro k
  induction k with
  | zero => intro a a1 m p _ _ _ _ h; simp [ISRAnd.AdvanceToMatch] at h
  | succ k ih =>
    intro a a1 m p h1 h2 g1 g2 h
    unfold ISRAnd.AdvanceToMatch at h
    simp only [isr_word_getCurrentPost, isr_word_getCurrentDoc, isr_word_seek] at h
    cases hl : a.isr1.current with
    | none =>
      rw [hl] at h
      cases hr : a.isr2.current <;> rw [hr] at h <;> simp at h
    | some l =>
      cases hr : a.isr2.current with
      | none => rw [hl, hr] at h; simp at h
      | some r =>
        simp only [hl, hr, Option.map_some', Post.GetStartLocation] at h
        have gl := g1 l hl
        have gr := g2 r hr
        split at h
        · rename_i hle
          split at h
          · cases h
          · simp at h
          · rename_i docEnd c2 hgd
            obtain ⟨hok2, hcur2⟩ := word_getCurrentDoc_keeps a.isr2 c2 B _ h2 hgd
            split at h
            · simp only [Option.some.injEq, Prod.mk.injEq] at h
              obtain ⟨hp, ha⟩ := h
              subst ha
              subst hp
              refine ⟨⟨h1, hok2, ?_⟩, rfl, gl⟩
              intro q hq
              simp only [Option.some.injEq] at hq
              subst hq
              exact ⟨⟨l, hl, Nat.le_refl _⟩, ⟨r, by rw [hcur2, hr], hle⟩⟩
            · split at h
              · cases h
              · rename_i x c1 hsk
                obtain ⟨hok1, _, hmono⟩ := word_seek_mono a.isr1 c1 A _ _ h1 hsk
                exact ih _ a1 m p hok1 hok2
                  (wordGEN_of_mono m a.isr1 c1 hmono (Or.inl ⟨l, hl, gl⟩))
                  (fun c hc => by
                    have e : c2.current = some c := hc
                    rw [hcur2, hr] at e
                    cases e
                    exact gr) h
        · rename_i hle
          split at h
          · cases h
          · simp at h
          · rename_i docEnd c1 hgd
            obtain ⟨hok1, hcur1⟩ := word_getCurrentDoc_keeps a.isr1 c1 A _ h1 hgd
            split at h
            · simp only [Option.some.injEq, Prod.mk.injEq] at h
              obtain ⟨hp, ha⟩ := h
              subst ha
              subst hp
              refine ⟨⟨hok1, h2, ?_⟩, rfl, gr⟩
              intro q hq
              simp only [Option.some.injEq] at hq
              subst hq
              exact ⟨⟨l, by rw [hcur1, hl], by
                simp only [Post.GetStartLocation]; omega⟩, ⟨r, hr, Nat.le_refl _⟩⟩
            · split at h
              · cases h
              · rename_i x c2 hsk
                obtain ⟨hok2, _, hmono⟩ := word_seek_mono a.isr2 c2 B _ _ h2 hsk
                exact ih _ a1 m p hok1 hok2
                  (fun c hc => by
                    have e : c1.current = some c := hc
                    rw [hcur1, hl] at e
                    cases e
                    exact gl)
                  (wordGEN_of_mono m a.isr2 c2 hmono (Or.inl ⟨r, hr, gr⟩)) h

/-- The bound an `ISRAnd` hands to its match loop: the start of the current
match, or 0 without one. -/
theorem and_children_bound (A B : List WordPost) (a : ISRAnd ISRWord ISRWord)
    (h : AndMonoInv A B a) :
    ∃ m, (WordGE m a.isr1 ∨ m = 0) ∧ (WordGE m a.isr2 ∨ m = 0)
      ∧ ∀ q, a.current = some q → q.GetStartLocation ≤ m := by
  cases hc : a.current with
  | none => exact ⟨0, Or.inr rfl, Or.inr rfl, fun q hq => by cases hq⟩
  | some q0 =>
    obtain ⟨g1, g2⟩ := h.2.2 q0 hc
    exact ⟨q0.GetStartLocation, Or.inl g1, Or.inl g2, fun q hq => by cases hq; exact Nat.le_refl _⟩

theorem wordGEN_of_GE (m : Nat) (w : ISRWord) (h : WordGE m w ∨ m = 0) : WordGEN m w := by
  intro c hc
  rcases h with ⟨c0, hc0, hm⟩ | h0
  · rw [hc0] at hc; cases hc; exact hm
  · omega

/-- Every call on an `ISRAnd` over two word iterators that returns a post leaves
the iterator on it and does not move backwards. -/
theorem and_run_mono (A B : List WordPost) (fuel : Nat) (c : Call)
    (a : ISRAnd ISRWord ISRWord) (p : Post) (a1 : ISRAnd ISRWord ISRWord)
    (h : AndMonoInv A B a) (hs : c.run fuel a = some (some p, a1)) :
    AndMonoInv A B a1 ∧ ISR.GetCurrentPost a1 = some p
      ∧ ∀ q, ISR.GetCurrentPost a = some q → q.GetStartLocation ≤ p.GetStartLocation := by
  obtain ⟨m, gm1, gm2, hm⟩ := and_children_bound A B a h
  obtain ⟨h1, h2, _⟩ := h
  have hfin : ∀ (a0 : ISRAnd ISRWord ISRWord), WordCursorOK a0.isr1 A →
      WordCursorOK a0.isr2 B → WordGEN m a0.isr1 → WordGEN m a0.isr2 →
      ISRAnd.AdvanceToMatch fuel fuel a0 = some (some p, a1) →
      AndMonoInv A B a1 ∧ ISR.GetCurrentPost a1 = some p
        ∧ ∀ q, ISR.GetCurrentPost a = some q → q.GetStartLocation ≤ p.GetStartLocation := by
    intro a0 k1 k2 g1 g2 hadv
    obtain ⟨e1, e2, e3⟩ := and_advance_mono A B fuel fuel a0 a1 m p k1 k2 g1 g2 hadv
    exact ⟨e1, e2, fun q hq => Nat.le_trans (hm q hq) e3⟩
  cases c with
  | next =>
    change ISRAnd.Next fuel a = some (some p, a1) at hs
    unfold ISRAnd.Next at hs
    simp only [isr_word_next] at hs
    split at hs
    · cases hs
    · rename_i x1 c1 hn1
      split at hs
      · cases hs
      · rename_i x2 c2 hn2
        obtain ⟨k1, _, m1⟩ := word_next_mono a.isr1 c1 A _ h1 hn1
        obtain ⟨k2, _, m2⟩ := word_next_mono a.isr2 c2 B _ h2 hn2
        exact hfin _ k1 k2 (wordGEN_of_mono m _ c1 m1 gm1) (wordGEN_of_mono m _ c2 m2 gm2) hs
  | nextInternal =>
    change ISRAnd.NextInternal fuel a = some (some p, a1) at hs
    unfold ISRAnd.NextInternal at hs
    simp only [isr_word_nextInternal] at hs
    split at hs
    · split at hs
      · cases hs
      · rename_i x1 c1 hn1
        split at hs
        · cases hs
        · rename_i x2 c2 hn2
          obtain ⟨k1, _, m1⟩ := word_nextInternal_mono a.isr1 c1 A _ h1 hn1
          obtain ⟨k2, _, m2⟩ := word_nextInternal_mono a.isr2 c2 B _ h2 hn2
          exact hfin _ k1 k2 (wordGEN_of_mono m _ c1 m1 gm1)
            (wordGEN_of_mono m _ c2 m2 gm2) hs
    · split at hs
      · split at hs
        · cases hs
        · rename_i x1 c1 hn1
          obtain ⟨k1, _, m1⟩ := word_nextInternal_mono a.isr1 c1 A _ h1 hn1
          exact hfin { a with isr1 := c1 } k1 h2 (wordGEN_of_mono m _ c1 m1 gm1)
            (wordGEN_of_GE m _ gm2) hs
      · split at hs
        · cases hs
        · rename_i x2 c2 hn2
          obtain ⟨k2, _, m2⟩ := word_nextInternal_mono a.isr2 c2 B _ h2 hn2
          exact hfin { a with isr2 := c2 } h1 k2 (wordGEN_of_GE m _ gm1)
            (wordGEN_of_mono m _ c2 m2 gm2) hs
  | seek T =>
    change ISRAnd.Seek fuel T a = some (some p, a1) at hs
    unfold ISRAnd.Seek at hs
    simp only [isr_word_seek] at hs
    split at hs
    · simp only [Option.some.injEq, Prod.mk.injEq] at hs
      obtain ⟨hp, ha⟩ := hs
      subst ha
      refine ⟨⟨h1, h2, by assumption⟩, hp, ?_⟩
      intro q hq
      have e : a.current = some q := hq
      rw [hp] at e
      cases e
      exact Nat.le_refl _
    · split at hs
      · cases hs
      · rename_i x1 c1 hn1
        split at hs
        · cases hs
        · rename_i x2 c2 hn2
          obtain ⟨k1, _, m1⟩ := word_seek_mono a.isr1 c1 A _ _ h1 hn1
          obtain ⟨k2, _, m2⟩ := word_seek_mono a.isr2 c2 B _ _ h2 hn2
          exact hfin _ k1 k2 (wordGEN_of_mono m _ c1 m1 gm1) (wordGEN_of_mono m _ c2 m2 gm2) hs

end SearchEngine

namespace SearchEngine

/-! ### Container iterators -/

/-- The match loop of `ISRContainer` over two word iterators: a post it returns
is the new current post, the included child stands on it, and it is not before
the bound the included child started from. -/
theorem container_advance_mono (A B : List WordPost) (f : Nat) :
    ∀ (k : Nat) (c c1 : ISRContainer ISRWord ISRWord) (m : Nat) (p : Post),
      WordCursorOK c.isr1 A → WordCursorOK c.isr2 B → WordGEN m c.isr1 →
      ISRContainer.AdvanceToMatch f k c = some (some p, c1) →
      ContainerMonoInv A B c1 ∧ c1.current = some p ∧ m ≤ p.GetStartLocation := by
  intro k
  induction k with
  | zero => intro c c1 m p _ _ _ h; simp [ISRContainer.AdvanceToMatch] at h
  | succ k ih =>
    intro c c1 m p h1 h2 g1 h
    unfold ISRContainer.AdvanceToMatch at h
    simp only [isr_word_getCurrentPost, isr_word_getCurrentDoc, isr_word_seek,
      isr_word_next] at h
    cases hl : c.isr1.current with
    | none => rw [hl] at h; simp at h
    | some l =>
      simp only [hl, Option.map_some'] at h
      have gl := g1 l hl
      split at h
      · cases h
      · simp at h
      · rename_i docEnd d1 hgd
        obtain ⟨hok1, hcur1⟩ := word_getCurrentDoc_keeps c.isr1 d1 A _ h1 hgd
        split at h
        · cases h
        · rename_i x d2 hsk
          obtain ⟨hok2, _, _⟩ := word_seek_mono c.isr2 d2 B _ _ h2 hsk
          split at h
          · split at h
            · cases h
            · rename_i y d1n hnx
              obtain ⟨hok1n, _, hmono⟩ := word_next_mono d1 d1n A _ hok1 hnx
              exact ih _ c1 m p hok1n hok2
                (wordGEN_of_mono m d1 d1n hmono (Or.inl ⟨l, by rw [hcur1, hl], gl⟩)) h
          · simp only [Option.some.injEq, Prod.mk.injEq] at h
            obtain ⟨hp, hc⟩ := h
            subst hc
            subst hp
            refine ⟨⟨hok1, hok2, ?_⟩, rfl, gl⟩
            intro q hq
            simp only [Option.some.injEq] at hq
            subst hq
            exact ⟨l, by rw [hcur1, hl], Nat.le_refl _⟩

/-- Every call on an `ISRContainer` over two word iterators that returns a post
leaves the iterator on it and does not move backwards. -/
theorem container_run_mono (A B : List WordPost) (fuel : Nat) (cl : Call)
    (c : ISRContainer ISRWord ISRWord) (p : Post) (c1 : ISRContainer ISRWord ISRWord)
    (h : ContainerMonoInv A B c) (hs : cl.run fuel c = some (some p, c1)) :
    ContainerMonoInv A B c1 ∧ ISR.GetCurrentPost c1 = some p
      ∧ ∀ q, ISR.GetCurrentPost c = some q → q.GetStartLocation ≤ p.GetStartLocation := by
  have hbound : ∃ m, (WordGE m c.isr1 ∨ m = 0)
      ∧ ∀ q, c.current = some q → q.GetStartLocation ≤ m := by
    cases hc : c.current with
    | none => exact ⟨0, Or.inr rfl, fun q hq => by cases hq⟩
    | some q0 =>
      exact ⟨q0.GetStartLocation, Or.inl (h.2.2 q0 hc), fun q hq => by
        cases hq; exact Nat.le_refl _⟩
  obtain ⟨m, gm1, hm⟩ := hbound
  obtain ⟨h1, h2, hinv⟩ := h
  have hfin : ∀ (c0 : ISRContainer ISRWord ISRWord), WordCursorOK c0.isr1 A →
      WordCursorOK c0.isr2 B → WordGEN m c0.isr1 →
      ISRContainer.AdvanceToMatch fuel fuel c0 = some (some p, c1) →
      ContainerMonoInv A B c1 ∧ ISR.GetCurrentPost c1 = some p
        ∧ ∀ q, ISR.GetCurrentPost c = some q → q.GetStartLocation ≤ p.GetStartLocation := by
    intro c0 k1 k2 g1 hadv
    obtain ⟨e1, e2, e3⟩ := container_advance_mono A B fuel fuel c0 c1 m p k1 k2 g1 hadv
    exact ⟨e1, e2, fun q hq => Nat.le_trans (hm q hq) e3⟩
  cases cl with
  | next =>
    change ISRContainer.Next fuel c = some (some p, c1) at hs
    unfold ISRContainer.Next at hs
    simp only [isr_word_next] at hs
    split at hs
    · split at hs
      · cases hs
      · rename_i x1 d1 hn1
        split at hs
        · cases hs
        · rename_i x2 d2 hn2
          obtain ⟨k1, _, m1⟩ := word_next_mono c.isr1 d1 A _ h1 hn1
          obtain ⟨k2, _, _⟩ := word_next_mono c.isr2 d2 B _ h2 hn2
          exact hfin { c with isr1 := d1, isr2 := d2 } k1 k2
            (wordGEN_of_mono m _ d1 m1 gm1) hs
    · split at hs
      · cases hs
      · rename_i x1 d1 hn1
        obtain ⟨k1, _, m1⟩ := word_next_mono c.isr1 d1 A _ h1 hn1
        exact hfin { c with isr1 := d1 } k1 h2 (wordGEN_of_mono m _ d1 m1 gm1) hs
  | nextInternal =>
    change ISRContainer.NextInternal fuel c = some (some p, c1) at hs
    unfold ISRContainer.NextInternal at hs
    simp only [isr_word_nextInternal] at hs
    split at hs
    · split at hs
      · cases hs
      · rename_i x1 d1 hn1
        split at hs
        · cases hs
        · rename_i x2 d2 hn2
          obtain ⟨k1, _, m1⟩ := word_nextInternal_mono c.isr1 d1 A _ h1 hn1
          obtain ⟨k2, _, _⟩ := word_nextInternal_mono c.isr2 d2 B _ h2 hn2
          exact hfin { c with isr1 := d1, isr2 := d2 } k1 k2
            (wordGEN_of_mono m _ d1 m1 gm1) hs
    · split at hs
      · cases hs
      · rename_i x1 d1 hn1
        obtain ⟨k1, _, m1⟩ := word_nextInternal_mono c.isr1 d1 A _ h1 hn1
        exact hfin { c with isr1 := d1 } k1 h2 (wordGEN_of_mono m _ d1 m1 gm1) hs
  | seek T =>
    change ISRContainer.Seek fuel T c = some (some p, c1) at hs
    unfold ISRContainer.Seek at hs
    simp only [isr_word_seek] at hs
    split at hs
    · simp only [Option.some.injEq, Prod.mk.injEq] at hs
      obtain ⟨hp, hc⟩ := hs
      subst hc
      refine ⟨⟨h1, h2, hinv⟩, hp, ?_⟩
      intro q hq
      have e : c.current = some q := hq
      rw [hp] at e
      cases e
      exact Nat.le_refl _
    · split at hs
      · cases hs
      · rename_i x1 d1 hn1
        obtain ⟨k1, _, m1⟩ := word_seek_mono c.isr1 d1 A _ _ h1 hn1
        exact hfin { c with isr1 := d1 } k1 h2 (wordGEN_of_mono m _ d1 m1 gm1) hs

end SearchEngine

namespace SearchEngine

/-! ### Phrase iterators -/

/-- The match loop of `ISRPhrase` over word iterators: a post it returns is the
new current post, the first term stands on it, and it is not before the bound
the first term started from. -/
theorem phrase_advance_mono (lists : List (List WordPost)) (f : Nat) :
    ∀ (k : Nat) (p p1 : ISRPhrase ISRWord) (m : Nat) (q : Post),
      List.Forall₂ WordCursorOK p.terms lists →
      (∀ t0 ts, p.terms = t0 :: ts → WordGEN m t0) →
      ISRPhrase.AdvanceToMatch f k p = some (some q, p1) →
      PhraseMonoInv lists p1 ∧ p1.current = some q ∧ m ≤ q.GetStartLocation := by
  intro k
  induction k with
  | zero => intro p p1 m q _ _ h; simp [ISRPhrase.AdvanceToMatch] at h
  | succ n ih =>
    intro p p1 m q hall hge h
    unfold ISRPhrase.AdvanceToMatch at h
    cases hterms : p.terms with
    | nil => rw [hterms] at h; simp at h
    | cons t0 ts =>
      have g0 := hge t0 ts hterms
      rw [hterms] at h hall
      simp only [isr_word_getCurrentPost] at h
      cases hall with
      | cons ht0 hrest =>
        rename_i l0 ls
        cases hc : t0.current with
        | none => simp [hc] at h
        | some c =>
          simp only [hc, Option.map_some', Post.GetStartLocation] at h
          obtain ⟨hcm, hno⟩ := wordCursor_current_mem t0 l0 ht0 c hc
          have gc := g0 c hc
          cases hal : ISRPhrase.alignTerms f c.startLocation 1 ts with
          | none => rw [hal] at h; simp at h
          | some res =>
            obtain ⟨m1, ts1⟩ := res
            rw [hal] at h
            obtain ⟨hall1, _⟩ :=
              alignTerms_spec f c.startLocation ts ls 1 m1 ts1 hrest hno hal
            cases m1 with
            | true =>
              simp only [Option.some.injEq, Prod.mk.injEq] at h
              obtain ⟨hr, hp⟩ := h
              subst hp
              subst hr
              refine ⟨⟨List.Forall₂.cons ht0 hall1, ?_⟩, rfl, gc⟩
              intro q0 hq0
              simp only [Option.some.injEq] at hq0
              subst hq0
              exact ⟨t0, ts1, rfl, c, hc, Nat.le_refl _⟩
            | false =>
              simp only [isr_word_seek] at h
              split at h
              · cases h
              · rename_i x t01 hsk
                obtain ⟨hok01, _, hmono⟩ := word_seek_mono t0 t01 l0 _ _ ht0 hsk
                refine ih _ p1 m q (List.Forall₂.cons hok01 hall1) ?_ h
                intro t0a tsa hta
                simp only [List.cons.injEq] at hta
                rw [← hta.1]
                exact wordGEN_of_mono m t0 t01 hmono (Or.inl ⟨c, hc, gc⟩)

/-- Every call on an `ISRPhrase` over word iterators that returns a post leaves
the iterator on it and does not move backwards. -/
theorem phrase_run_mono (lists : List (List WordPost)) (fuel : Nat) (cl : Call)
    (p : ISRPhrase ISRWord) (q : Post) (p1 : ISRPhrase ISRWord)
    (h : PhraseMonoInv lists p) (hs : cl.run fuel p = some (some q, p1)) :
    PhraseMonoInv lists p1 ∧ ISR.GetCurrentPost p1 = some q
      ∧ ∀ q0, ISR.GetCurrentPost p = some q0 → q0.GetStartLocation ≤ q.GetStartLocation := by
  have hadv : ∀ (m : Nat) (p2 : ISRPhrase ISRWord),
      (∀ q0, p.current = some q0 → q0.GetStartLocation ≤ m) →
      List.Forall₂ WordCursorOK p2.terms lists →
      (∀ t0 ts, p2.terms = t0 :: ts → WordGEN m t0) →
      ISRPhrase.AdvanceToMatch fuel fuel p2 = some (some q, p1) →
      PhraseMonoInv lists p1 ∧ ISR.GetCurrentPost p1 = some q
        ∧ ∀ q0, ISR.GetCurrentPost p = some q0 →
            q0.GetStartLocation ≤ q.GetStartLocation := by
    intro m p2 hm k1 g1 ha
    obtain ⟨e1, e2, e3⟩ := phrase_advance_mono lists fuel fuel p2 p1 m q k1 g1 ha
    exact ⟨e1, e2, fun q0 hq0 => Nat.le_trans (hm q0 hq0) e3⟩
  have hseek : ∀ (T : Nat) (p2 : ISRPhrase ISRWord), PhraseMonoInv lists p2 →
      p2.current = p.current →
      ISRPhrase.Seek fuel T p2 = some (some q, p1) →
      PhraseMonoInv lists p1 ∧ ISR.GetCurrentPost p1 = some q
        ∧ ∀ q0, ISR.GetCurrentPost p = some q0 →
            q0.GetStartLocation ≤ q.GetStartLocation := by
    intro T p2 hinv2 hcur2 hsk
    unfold ISRPhrase.Seek at hsk
    split at hsk
    · simp only [Option.some.injEq, Prod.mk.injEq] at hsk
      obtain ⟨hq, hp⟩ := hsk
      subst hp
      refine ⟨hinv2, hq, ?_⟩
      intro q0 hq0
      have e : p.current = some q0 := hq0
      rw [← hcur2, hq] at e
      cases e
      exact Nat.le_refl _
    · cases hterms : p2.terms with
      | nil => rw [hterms] at hsk; simp at hsk
      | cons t0 ts =>
        rw [hterms] at hsk
        simp only [isr_word_seek] at hsk
        have hall := hinv2.1
        rw [hterms] at hall
        cases hall with
        | cons ht0 hrest =>
          rename_i l0 ls
          split at hsk
          · cases hsk
          · rename_i x t01 hs1
            obtain ⟨hok01, _, hmono⟩ := word_seek_mono t0 t01 l0 _ _ ht0 hs1
            cases hc : p.current with
            | none =>
              refine hadv 0 _ (fun q0 hq0 => by rw [hc] at hq0; cases hq0)
                (List.Forall₂.cons hok01 hrest) (fun _ _ _ _ _ => Nat.zero_le _) hsk
            | some qc =>
              obtain ⟨t0a, tsa, hta, hge⟩ := hinv2.2 qc (by rw [hcur2, hc])
              rw [hterms] at hta
              simp only [List.cons.injEq] at hta
              rw [← hta.1] at hge
              refine hadv qc.GetStartLocation _
                (fun q0 hq0 => by rw [hc] at hq0; cases hq0; exact Nat.le_refl _)
                (List.Forall₂.cons hok01 hrest) ?_ hsk
              intro t0b tsb htb
              simp only [List.cons.injEq] at htb
              rw [← htb.1]
              exact wordGEN_of_mono _ t0 t01 hmono (Or.inl hge)
  cases cl with
  | seek T => exact hseek T p h rfl hs
  | nextInternal =>
    change ISRPhrase.NextInternal fuel p = some (some q, p1) at hs
    unfold ISRPhrase.NextInternal at hs
    split at hs
    · simp at hs
    · split at hs
      · rename_i hcn
        split at hs
        · cases hs
        · rename_i ts1 hfe
          have hall1 := forEachTerm_keeps (ISR.NextInternal fuel)
            (fun w w1 posts r hw hs => (word_nextInternal_keeps w w1 posts r hw hs).1)
            _ _ _ h.1 hfe
          exact hadv 0 _ (fun q0 hq0 => by rw [hcn] at hq0; cases hq0) hall1
            (fun _ _ _ _ _ => Nat.zero_le _) hs
      · exact hseek _ p h rfl hs
  | next =>
    change ISRPhrase.Next fuel p = some (some q, p1) at hs
    unfold ISRPhrase.Next at hs
    cases hterms : p.terms with
    | nil => rw [hterms] at hs; simp at hs
    | cons t0 ts =>
      rw [hterms] at hs
      simp only [] at hs
      split at hs
      · rename_i hcn
        split at hs
        · cases hs
        · rename_i ts1 hfe
          have hall1 := forEachTerm_keeps (ISR.Next fuel)
            (fun w w1 posts r hw hs => (word_next_keeps w w1 posts r hw hs).1)
            _ _ _ (by have := h.1; rw [hterms] at this; exact this) hfe
          exact hadv 0 _ (fun q0 hq0 => by rw [hcn] at hq0; cases hq0) hall1
            (fun _ _ _ _ _ => Nat.zero_le _) hs
      · rename_i qc hcs
        have hall := h.1
        rw [hterms] at hall
        cases hall with
        | cons ht0 hrest =>
          rename_i l0 ls
          rw [isr_word_getCurrentDoc] at hs
          split at hs
          · cases hs
          · simp at hs
          · rename_i doc t01 hgd
            obtain ⟨hok01, hcur01⟩ := word_getCurrentDoc_keeps t0 t01 l0 _ ht0 hgd
            refine hseek _ { terms := t01 :: ts, current := p.current }
              ⟨List.Forall₂.cons hok01 hrest, ?_⟩ rfl hs
            intro q0 hq0
            obtain ⟨t0a, tsa, hta, c, hc, hge⟩ := h.2 q0 hq0
            rw [hterms] at hta
            simp only [List.cons.injEq] at hta
            rw [← hta.1] at hc
            exact ⟨t01, ts, rfl, c, by rw [hcur01, hc], hge⟩

end SearchEngine

namespace SearchEngine

/-! ## Start Locations over a sequence of calls -/

set_option maxRecDepth 100000 in
/-- Claim C8 at its failing inputs. Over scenario S1 the word iterator of `b`
(posts at Locations 2 and 6) answers four `Next` calls with the posts at 2 and
6, then `nullptr`, then the post at 2 again: a call made after the iterator has
returned none returns a post that starts before an earlier one. Over the
segment with `l` at 5 and `r` at 10, the Or iterator answers `Next`, `Next`,
`Seek(3)` with the posts at 5, 10 and 5, though the targets do not decrease.
Over scenario S5 the SynOr iterator of `cat` and `feline` with step counts 1
and 2 answers five `Next` calls with the posts at 1, 4, 16, 25 and 1, without
having returned none in between. -/
theorem starts_decrease_after_none_and_in_or :
    callStarts 1 [.next, .next, .next, .next] (get_ISRWord segmentS1 (bytesOf "b"))
        = some [some 2, some 6, none, some 2]
      ∧ ¬ StartsNonDecreasing
          (callResults 1 [.next, .next, .next, .next] (get_ISRWord segmentS1 (bytesOf "b")))
      ∧ callStarts 1 [.next, .next, .seek 3]
          (ISROr.new (get_ISRWord segmentLR (bytesOf "l")) (get_ISRWord segmentLR (bytesOf "r")))
        = some [some 5, some 10, some 5]
      ∧ ¬ StartsNonDecreasing
          (callResults 1 [.next, .next, .seek 3]
            (ISROr.new (get_ISRWord segmentLR (bytesOf "l"))
              (get_ISRWord segmentLR (bytesOf "r"))))
      ∧ callStarts 10 [.next, .next, .next, .next, .next]
          (ISRSynOr.new (get_ISRWord segmentS5 (bytesOf "cat"))
            (get_ISRWord segmentS5 (bytesOf "feline")) 1 2)
        = some [some 1, some 4, some 16, some 25, some 1]
      ∧ ¬ StartsNonDecreasing
          (callResults 10 [.next, .next, .next, .next, .next]
            (ISRSynOr.new (get_ISRWord segmentS5 (bytesOf "cat"))
              (get_ISRWord segmentS5 (bytesOf "feline")) 1 2)) := by
  refine ⟨by decide, by decide, by decide, by decide, by decide, by decide⟩

/-- Before the first `nullptr` the starts do not decrease for the simple
iterators. For Word and Doc iterators opened on written lists, and for And,
Container and Phrase iterators over such word iterators, and for every
sequence of `Next`, `NextInternal` and `Seek(target)` calls (whatever the
targets), the start Locations of the posts returned before the first `nullptr`
are non-decreasing. -/
theorem starts_nonDecreasing_until_none :
    (∀ (A : List WordPost) (w : ISRWord) (fuel : Nat) (calls : List Call)
        (results : List (Option Post)) (s : ISRWord),
        FreshWord w A → runCalls fuel calls w = some (results, s) →
        StartsNonDecreasing (untilNone results))
      ∧ (∀ (docs : List DocumentPost) (d : ISRDoc) (fuel : Nat) (calls : List Call)
          (results : List (Option Post)) (s : ISRDoc),
          FreshDoc d docs → runCalls fuel calls d = some (results, s) →
          StartsNonDecreasing (untilNone results))
      ∧ (∀ (A B : List WordPost) (a b : ISRWord) (fuel : Nat) (calls : List Call)
          (results : List (Option Post)) (s : ISRAnd ISRWord ISRWord),
          FreshWord a A → FreshWord b B →
          runCalls fuel calls (ISRAnd.new a b) = some (results, s) →
          StartsNonDecreasing (untilNone results))
      ∧ (∀ (A B : List WordPost) (a b : ISRWord) (fuel : Nat) (calls : List Call)
          (results : List (Option Post)) (s : ISRContainer ISRWord ISRWord),
          FreshWord a A → FreshWord b B →
          runCalls fuel calls (ISRContainer.new a b) = some (results, s) →
          StartsNonDecreasing (untilNone results))
      ∧ (∀ (lists : List (List WordPost)) (terms : List ISRWord) (fuel : Nat)
          (calls : List Call) (results : List (Option Post)) (s : ISRPhrase ISRWord),
          List.Forall₂ FreshWord terms lists →
          runCalls fuel calls (ISRPhrase.new terms) = some (results, s) →
          StartsNonDecreasing (untilNone results)) := by
  refine ⟨?_, ?_, ?_, ?_, ?_⟩
  · intro A w fuel calls results s hw hrun
    exact (runCalls_mono (fun w => WordCursorOK w A) fuel
      (fun c s p s1 hi hs => word_run_mono A fuel c s p s1 hi hs)
      calls w results s (freshWord_ok w A hw) hrun).1
  · intro docs d fuel calls results s hd hrun
    exact (runCalls_mono (fun d => DocCursorOK d docs) fuel
      (fun c s p s1 hi hs => doc_run_mono docs fuel c s p s1 hi hs)
      calls d results s (freshDoc_ok d docs hd) hrun).1
  · intro A B a b fuel calls results s ha hb hrun
    exact (runCalls_mono (AndMonoInv A B) fuel
      (fun c s p s1 hi hs => and_run_mono A B fuel c s p s1 hi hs)
      calls (ISRAnd.new a b) results s
      ⟨freshWord_ok a A ha, freshWord_ok b B hb, fun q hq => by cases hq⟩ hrun).1
  · intro A B a b fuel calls results s ha hb hrun
    exact (runCalls_mono (ContainerMonoInv A B) fuel
      (fun c s p s1 hi hs => container_run_mono A B fuel c s p s1 hi hs)
      calls (ISRContainer.new a b) results s
      ⟨freshWord_ok a A ha, freshWord_ok b B hb, fun q hq => by cases hq⟩ hrun).1
  · intro lists terms fuel calls results s hf hrun
    exact (runCalls_mono (PhraseMonoInv lists) fuel
      (fun c s p s1 hi hs => phrase_run_mono lists fuel c s p s1 hi hs)
      calls (ISRPhrase.new terms) results s
      ⟨List.Forall₂.imp (fun w posts h => freshWord_ok w posts h) hf,
        fun q hq => by cases hq⟩ hrun).1

set_option maxRecDepth 100000 in
/-- Scenario S1, word `b`: four `Next` calls return the posts at 2 and 6, then
`nullptr`, then the post at 2; the starts before the `nullptr` do not decrease. -/
theorem starts_nonDecreasing_until_none_witness :
    ∃ results s,
      runCalls 1 [Call.next, Call.next, Call.next, Call.next]
          (wordIterator [2, 6] [⟨1, 5, 0⟩, ⟨6, 10, 1⟩]) = some (results, s)
      ∧ startsOf results = [some 2, some 6, none, some 2]
      ∧ StartsNonDecreasing (untilNone results) := by
  have hc : callStarts 1 [Call.next, Call.next, Call.next, Call.next]
      (wordIterator [2, 6] [⟨1, 5, 0⟩, ⟨6, 10, 1⟩])
      = some [some 2, some 6, none, some 2] := by decide
  unfold callStarts at hc
  cases h : runCalls 1 [Call.next, Call.next, Call.next, Call.next]
      (wordIterator [2, 6] [⟨1, 5, 0⟩, ⟨6, 10, 1⟩]) with
  | none => rw [h] at hc; cases hc
  | some rs =>
    obtain ⟨results, s⟩ := rs
    rw [h] at hc
    refine ⟨results, s, rfl, by simpa using hc, ?_⟩
    exact starts_nonDecreasing_until_none.1 (postsAt [2, 6]) _ 1 _ results s
      (wordIterator_fresh [2, 6] _ (by decide) (by decide)) h

end SearchEngine

namespace SearchEngine

namespace CSolver

open Ranker

variable {S : Type} [LinearOrder S]

/-! ## The merge of per-segment results -/

theorem sortedDesc_drop_le (a : List (RankingResult S)) (hs : SortedDesc a) (j : Nat)
    (x : RankingResult S) (hx : a[j]? = some x) :
    ∀ y ∈ a.drop j, y.score ≤ x.score := by
  have hj : j < a.length := by
    rcases Nat.lt_or_ge j a.length with h | h
    · exact h
    · rw [List.getElem?_eq_none h] at hx; cases hx
  have hdrop : a.drop j = x :: a.drop (j + 1) := by
    rw [List.getElem?_eq_getElem hj] at hx
    cases hx
    exact List.drop_eq_getElem_cons hj
  have hpw : (a.drop j).Pairwise (fun a b => b.score ≤ a.score) :=
    List.Pairwise.sublist (List.drop_sublist j a) hs
  rw [hdrop] at hpw ⊢
  rw [List.pairwise_cons] at hpw
  intro y hy
  rcases List.mem_cons.mp hy with h | h
  · rw [h]
  · exact hpw.1 y h

omit [LinearOrder S] in
theorem remaining_subset (arrays : List (List (RankingResult S))) :
    ∀ (indices : List Nat), ∀ y ∈ remaining arrays indices, ∃ a ∈ arrays, y ∈ a := by
  induction arrays with
  | nil => intro indices y hy; simp [remaining] at hy
  | cons a arrays ih =>
    intro indices y hy
    cases indices with
    | nil => simp [remaining] at hy
    | cons j indices =>
      simp only [remaining, List.mem_append] at hy
      rcases hy with h | h
      · exact ⟨a, List.mem_cons_self _ _, List.mem_of_mem_drop h⟩
      · obtain ⟨b, hb, hyb⟩ := ih indices y h
        exact ⟨b, List.mem_cons_of_mem _ hb, hyb⟩

/-- The scan over the heads returns a score that bounds every result not yet
merged, and the index of a list whose head has that score unless no head beat
the score it started from. -/
theorem scan_spec (arrays : List (List (RankingResult S))) :
    ∀ (indices : List Nat) (i : Nat) (mv : S) (ma : Option Nat) (mv1 : S) (ma1 : Option Nat),
      (∀ a ∈ arrays, SortedDesc a) →
      mergeSortedArrays.scan arrays indices i mv ma = (mv1, ma1) →
      mv ≤ mv1
        ∧ ((∀ y ∈ remaining arrays indices, y.score ≤ mv) → ma1 = ma)
        ∧ (∀ y ∈ remaining arrays indices, y.score ≤ mv1)
        ∧ ((ma1 = ma ∧ mv1 = mv) ∨ ∃ t a j x, ma1 = some (i + t) ∧ arrays[t]? = some a
            ∧ indices[t]? = some j ∧ a[j]? = some x ∧ x.score = mv1) := by
  induction arrays with
  | nil =>
    intro indices i mv ma mv1 ma1 _ h
    simp only [mergeSortedArrays.scan, Prod.mk.injEq] at h
    obtain ⟨h1, h2⟩ := h
    subst h1; subst h2
    exact ⟨le_refl _, fun _ => rfl, fun y hy => by simp [remaining] at hy, Or.inl ⟨rfl, rfl⟩⟩
  | cons a arrays ih =>
    intro indices i mv ma mv1 ma1 hs h
    have hsa : SortedDesc a := hs a (List.mem_cons_self _ _)
    have hs1 : ∀ b ∈ arrays, SortedDesc b := fun b hb => hs b (List.mem_cons_of_mem _ hb)
    cases indices with
    | nil =>
      simp only [mergeSortedArrays.scan, Prod.mk.injEq] at h
      obtain ⟨h1, h2⟩ := h
      subst h1; subst h2
      exact ⟨le_refl _, fun _ => rfl, fun y hy => by simp [remaining] at hy,
        Or.inl ⟨rfl, rfl⟩⟩
    | cons j indices =>
      unfold mergeSortedArrays.scan at h
      cases hx : a[j]? with
      | none =>
        rw [hx] at h
        simp only [] at h
        obtain ⟨e1, e2, e3, e4⟩ := ih indices (i + 1) mv ma mv1 ma1 hs1 h
        have hdrop : a.drop j = [] := by
          apply List.drop_eq_nil_of_le
          rcases Nat.lt_or_ge j a.length with hl | hl
          · rw [List.getElem?_eq_getElem hl] at hx; cases hx
          · exact hl
        refine ⟨e1, ?_, ?_, ?_⟩
        · intro hall
          apply e2
          intro y hy
          exact hall y (by simp only [remaining, List.mem_append]; exact Or.inr hy)
        · intro y hy
          simp only [remaining, hdrop, List.nil_append] at hy
          exact e3 y hy
        · rcases e4 with e | ⟨t, b, k, x, e5, e6, e7, e8, e9⟩
          · exact Or.inl e
          · exact Or.inr ⟨t + 1, b, k, x, by rw [e5]; congr 1; omega, by simpa using e6,
              by simpa using e7, e8, e9⟩
      | some x =>
        rw [hx] at h
        simp only [] at h
        have hle := sortedDesc_drop_le a hsa j x hx
        have hxmem : x ∈ a.drop j := by
          have hj : j < a.length := by
            rcases Nat.lt_or_ge j a.length with hl | hl
            · exact hl
            · rw [List.getElem?_eq_none hl] at hx; cases hx
          rw [List.getElem?_eq_getElem hj] at hx
          cases hx
          rw [List.drop_eq_getElem_cons hj]
          exact List.mem_cons_self _ _
        by_cases hgt : x.score > mv
        · rw [if_pos hgt] at h
          obtain ⟨e1, e2, e3, e4⟩ := ih indices (i + 1) x.score (some i) mv1 ma1 hs1 h
          refine ⟨le_trans (le_of_lt hgt) e1, ?_, ?_, ?_⟩
          · intro hall
            have := hall x (by simp only [remaining, List.mem_append]; exact Or.inl hxmem)
            exact absurd hgt (not_lt.mpr this)
          · intro y hy
            simp only [remaining, List.mem_append] at hy
            rcases hy with hy | hy
            · exact le_trans (hle y hy) e1
            · exact e3 y hy
          · rcases e4 with ⟨e5, e6⟩ | ⟨t, b, k, z, e5, e6, e7, e8, e9⟩
            · exact Or.inr ⟨0, a, j, x, by rw [e5]; rfl, by simp, by simp, hx, e6.symm⟩
            · exact Or.inr ⟨t + 1, b, k, z, by rw [e5]; congr 1; omega, by simpa using e6,
                by simpa using e7, e8, e9⟩
        · rw [if_neg hgt] at h
          obtain ⟨e1, e2, e3, e4⟩ := ih indices (i + 1) mv ma mv1 ma1 hs1 h
          refine ⟨e1, ?_, ?_, ?_⟩
          · intro hall
            apply e2
            intro y hy
            exact hall y (by simp only [remaining, List.mem_append]; exact Or.inr hy)
          · intro y hy
            simp only [remaining, List.mem_append] at hy
            rcases hy with hy | hy
            · exact le_trans (hle y hy) (le_trans (not_lt.mp hgt) e1)
            · exact e3 y hy
          · rcases e4 with e | ⟨t, b, k, z, e5, e6, e7, e8, e9⟩
            · exact Or.inl e
            · exact Or.inr ⟨t + 1, b, k, z, by rw [e5]; congr 1; omega, by simpa using e6,
                by simpa using e7, e8, e9⟩

omit [LinearOrder S] in
/-- Taking the head of list `m` moves it from the results not yet merged. -/
theorem remaining_set (arrays : List (List (RankingResult S))) :
    ∀ (indices : List Nat) (m : Nat) (a : List (RankingResult S)) (j : Nat)
      (x : RankingResult S),
      arrays[m]? = some a → indices[m]? = some j → a[j]? = some x →
      (remaining arrays indices).Perm (x :: remaining arrays (indices.set m (j + 1))) := by
  induction arrays with
  | nil => intro indices m a j x h; simp at h
  | cons b arrays ih =>
    intro indices m a j x ha hj hx
    cases indices with
    | nil => simp at hj
    | cons k indices =>
      cases m with
      | zero =>
        simp only [List.getElem?_cons_zero, Option.some.injEq] at ha hj
        subst ha; subst hj
        have hlt : k < b.length := by
          rcases Nat.lt_or_ge k b.length with hl | hl
          · exact hl
          · rw [List.getElem?_eq_none hl] at hx; cases hx
        rw [List.getElem?_eq_getElem hlt] at hx
        cases hx
        simp only [List.set_cons_zero, remaining]
        rw [List.drop_eq_getElem_cons hlt]
        exact List.Perm.refl _
      | succ m =>
        simp only [List.getElem?_cons_succ] at ha hj
        have := ih indices m a j x ha hj hx
        simp only [List.set_cons_succ, remaining]
        exact (List.Perm.append_left _ this).trans List.perm_middle

omit [LinearOrder S] in
theorem remaining_replicate_zero (arrays : List (List (RankingResult S))) :
    remaining arrays (List.replicate arrays.length 0) = arrays.flatten := by
  induction arrays with
  | nil => rfl
  | cons a arrays ih =>
    simp only [List.length_cons, List.replicate_succ, remaining, List.drop_zero, ih,
      List.flatten_cons]

/-- The merge loop: with every score above the sentinel, it returns a sorted
list that, together with what it leaves behind, holds exactly the results it
started with, and nothing left behind beats a result it returns. -/
theorem mergeLoop_spec (lowest : S) (arrays : List (List (RankingResult S)))
    (hs : ∀ a ∈ arrays, SortedDesc a) (habove : ∀ a ∈ arrays, ∀ x ∈ a, lowest < x.score) :
    ∀ (n : Nat) (indices : List Nat) (result : List (RankingResult S)),
      SortedDesc result →
      (∀ x ∈ result, ∀ y ∈ remaining arrays indices, y.score ≤ x.score) →
      ∃ out rest, mergeSortedArrays.loop lowest arrays n indices result = some out
        ∧ SortedDesc out
        ∧ (out ++ rest).Perm (result ++ remaining arrays indices)
        ∧ (∀ x ∈ out, ∀ y ∈ rest, y.score ≤ x.score)
        ∧ out.length = result.length + min n (remaining arrays indices).length := by
  intro n
  induction n with
  | zero =>
    intro indices result hsr hdom
    exact ⟨result, remaining arrays indices, rfl, hsr, List.Perm.refl _, hdom, by simp⟩
  | succ n ih =>
    intro indices result hsr hdom
    unfold mergeSortedArrays.loop
    cases hscan : mergeSortedArrays.scan arrays indices 0 lowest none with
    | mk mv1 ma1 =>
      obtain ⟨e1, e2, e3, e4⟩ := scan_spec arrays indices 0 lowest none mv1 ma1 hs hscan
      cases ma1 with
      | none =>
        have hmv : mv1 = lowest := by
          rcases e4 with ⟨_, h⟩ | ⟨t, a, j, x, h, _⟩
          · exact h
          · cases h
        have hempty : remaining arrays indices = [] := by
          cases hrem : remaining arrays indices with
          | nil => rfl
          | cons y ys =>
            have hy : y ∈ remaining arrays indices := by rw [hrem]; exact List.mem_cons_self _ _
            obtain ⟨a, ha, hya⟩ := remaining_subset arrays indices y hy
            have h1 := habove a ha y hya
            have h2 := e3 y hy
            rw [hmv] at h2
            exact absurd h1 (not_lt.mpr h2)
        refine ⟨result, [], rfl, hsr, ?_, fun _ _ y hy => (by cases hy), ?_⟩
        · rw [hempty]
        · rw [hempty]; simp
      | some m =>
        rcases e4 with ⟨h, _⟩ | ⟨t, a, j, x, hm, ha, hj, hx, hxs⟩
        · cases h
        · simp only [Option.some.injEq, Nat.zero_add] at hm
          subst hm
          simp only [ha, hj, hx]
          have hperm := remaining_set arrays indices m a j x ha hj hx
          have hxrem : x ∈ remaining arrays indices := hperm.symm.subset (List.mem_cons_self _ _)
          have hsr1 : SortedDesc (result ++ [x]) := by
            unfold SortedDesc at hsr ⊢
            rw [List.pairwise_append]
            refine ⟨hsr, List.pairwise_singleton _ _, ?_⟩
            intro r hr y hy
            simp only [List.mem_singleton] at hy
            subst hy
            exact hdom r hr y hxrem
          have hdom1 : ∀ r ∈ result ++ [x],
              ∀ y ∈ remaining arrays (indices.set m (j + 1)), y.score ≤ r.score := by
            intro r hr y hy
            have hyrem : y ∈ remaining arrays indices :=
              hperm.symm.subset (List.mem_cons_of_mem _ hy)
            rcases List.mem_append.mp hr with h | h
            · exact hdom r h y hyrem
            · simp only [List.mem_singleton] at h
              subst h
              rw [hxs]
              exact e3 y hyrem
          obtain ⟨out, rest, hrun, hso, hpo, hdo, hlen⟩ :=
            ih (indices.set m (j + 1)) (result ++ [x]) hsr1 hdom1
          refine ⟨out, rest, hrun, hso, ?_, hdo, ?_⟩
          · refine hpo.trans ?_
            rw [List.append_assoc]
            exact List.Perm.append_left _ hperm.symm
          · rw [hlen, List.length_append, List.length_singleton, hperm.length_eq,
              List.length_cons]
            omega

/-! ### The merge loop against the k-way merge -/

omit [LinearOrder S] in
theorem getElem?_eq_head?_drop (a : List (RankingResult S)) (j : Nat) :
    a[j]? = (a.drop j).head? := by
  rw [List.head?_drop]

/-- The scan finds the best head of the lists not yet merged, when that beats
the running maximum. -/
theorem scan_eq_bestHead (arrays : List (List (RankingResult S))) :
    ∀ (indices : List Nat) (i : Nat) (mv : S) (ma : Option Nat),
      mergeSortedArrays.scan arrays indices i mv ma =
        match bestHead (remainingLists arrays indices) with
        | none => (mv, ma)
        | some (t, y) => if y.score > mv then (y.score, some (i + t)) else (mv, ma) := by
  induction arrays with
  | nil => intro indices i mv ma; simp [mergeSortedArrays.scan, remainingLists, bestHead]
  | cons a arrays ih =>
    intro indices i mv ma
    cases indices with
    | nil => simp [mergeSortedArrays.scan, remainingLists, bestHead]
    | cons j indices =>
      simp only [mergeSortedArrays.scan, remainingLists]
      rw [getElem?_eq_head?_drop]
      cases hd : a.drop j with
      | nil =>
        simp only [List.head?_nil]
        rw [ih indices (i + 1) mv ma]
        cases hb : bestHead (remainingLists arrays indices) with
        | none => simp [bestHead, pickHead, hb]
        | some p =>
          obtain ⟨t, y⟩ := p
          simp only [bestHead, pickHead, hb]
          split_ifs
          · rw [Nat.add_assoc, Nat.add_comm 1 t]
          · rfl
      | cons x tl =>
        simp only [List.head?_cons]
        by_cases hx : x.score > mv
        · rw [if_pos hx, ih indices (i + 1) x.score (some i)]
          cases hb : bestHead (remainingLists arrays indices) with
          | none => simp [bestHead, pickHead, hb, hx]
          | some p =>
            obtain ⟨t, y⟩ := p
            simp only [bestHead, pickHead, hb]
            by_cases hy : y.score > x.score
            · have hym : y.score > mv := lt_trans hx hy
              simp only [hy, if_true, hym]
              rw [Nat.add_assoc, Nat.add_comm 1 t]
            · simp only [hy, if_false, hx, if_true, Nat.add_zero]
        · rw [if_neg hx, ih indices (i + 1) mv ma]
          cases hb : bestHead (remainingLists arrays indices) with
          | none => simp [bestHead, pickHead, hb, hx]
          | some p =>
            obtain ⟨t, y⟩ := p
            simp only [bestHead, pickHead, hb]
            by_cases hy : y.score > x.score
            · simp only [hy, if_true]
              split_ifs
              · rw [Nat.add_assoc, Nat.add_comm 1 t]
              · rfl
            · have hym : ¬ y.score > mv := fun h => hy (lt_of_le_of_lt (not_lt.mp hx) h)
              simp only [hy, if_false, hx, hym]

/-- The best head is the element at the current position of its list. -/
theorem bestHead_lookup (arrays : List (List (RankingResult S))) :
    ∀ (indices : List Nat) (t : Nat) (y : RankingResult S),
      bestHead (remainingLists arrays indices) = some (t, y) →
      ∃ a j, arrays[t]? = some a ∧ indices[t]? = some j ∧ a[j]? = some y
        ∧ dropHead t (remainingLists arrays indices)
            = remainingLists arrays (indices.set t (j + 1)) := by
  induction arrays with
  | nil => intro indices t y h; simp [remainingLists, bestHead] at h
  | cons a arrays ih =>
    intro indices t y h
    cases indices with
    | nil => simp [remainingLists, bestHead] at h
    | cons j indices =>
      simp only [remainingLists] at h ⊢
      have hhere : ∀ x tl, a.drop j = x :: tl →
          a[j]? = some x ∧ (a.drop j).tail = a.drop (j + 1) := by
        intro x tl hd
        refine ⟨by rw [getElem?_eq_head?_drop, hd]; rfl, ?_⟩
        rw [List.tail_drop]
      have hthere : ∀ i, bestHead (remainingLists arrays indices) = some (i, y) →
          ∃ a1 j1, (a :: arrays)[i + 1]? = some a1 ∧ (j :: indices)[i + 1]? = some j1
            ∧ a1[j1]? = some y
            ∧ dropHead (i + 1) (a.drop j :: remainingLists arrays indices)
                = remainingLists (a :: arrays) ((j :: indices).set (i + 1) (j1 + 1)) := by
        intro i hb
        obtain ⟨a1, j1, h1, h2, h3, h4⟩ := ih indices i y hb
        refine ⟨a1, j1, by simpa using h1, by simpa using h2, h3, ?_⟩
        simp only [dropHead, List.set_cons_succ, remainingLists, h4]
      cases hd : a.drop j with
      | nil =>
        rw [hd] at h
        cases hb : bestHead (remainingLists arrays indices) with
        | none => simp [bestHead, pickHead, hb] at h
        | some p =>
          obtain ⟨i, z⟩ := p
          simp only [bestHead, pickHead, hb, Option.some.injEq, Prod.mk.injEq] at h
          obtain ⟨rfl, rfl⟩ := h
          have := hthere i hb
          rw [hd] at this
          exact this
      | cons x tl =>
        rw [hd] at h
        obtain ⟨hx, htl⟩ := hhere x tl hd
        have hzero : ∃ a1 j1, (a :: arrays)[0]? = some a1 ∧ (j :: indices)[0]? = some j1
            ∧ a1[j1]? = some x
            ∧ dropHead 0 ((x :: tl) :: remainingLists arrays indices)
                = remainingLists (a :: arrays) ((j :: indices).set 0 (j1 + 1)) := by
          refine ⟨a, j, by simp, by simp, hx, ?_⟩
          simp only [dropHead, List.set_cons_zero, remainingLists, ← htl, hd]
        cases hb : bestHead (remainingLists arrays indices) with
        | none =>
          simp only [bestHead, pickHead, hb, Option.some.injEq, Prod.mk.injEq] at h
          obtain ⟨rfl, rfl⟩ := h
          exact hzero
        | some p =>
          obtain ⟨i, z⟩ := p
          simp only [bestHead, pickHead, hb] at h
          by_cases hy : z.score > x.score
          · simp only [hy, if_true, Option.some.injEq, Prod.mk.injEq] at h
            obtain ⟨rfl, rfl⟩ := h
            have := hthere i hb
            rw [hd] at this
            exact this
          · simp only [hy, if_false, Option.some.injEq, Prod.mk.injEq] at h
            obtain ⟨rfl, rfl⟩ := h
            exact hzero

theorem bestHead_mem (lists : List (List (RankingResult S))) :
    ∀ (t : Nat) (y : RankingResult S), bestHead lists = some (t, y) →
      ∃ a ∈ lists, y ∈ a := by
  induction lists with
  | nil => intro t y h; simp [bestHead] at h
  | cons a lists ih =>
    intro t y h
    cases a with
    | nil =>
      cases hb : bestHead lists with
      | none => simp [bestHead, pickHead, hb] at h
      | some p =>
        obtain ⟨i, z⟩ := p
        simp only [bestHead, pickHead, hb, Option.some.injEq, Prod.mk.injEq] at h
        obtain ⟨_, rfl⟩ := h
        obtain ⟨b, hbm, hz⟩ := ih i z hb
        exact ⟨b, List.mem_cons_of_mem _ hbm, hz⟩
    | cons x tl =>
      cases hb : bestHead lists with
      | none =>
        simp only [bestHead, pickHead, hb, Option.some.injEq, Prod.mk.injEq] at h
        obtain ⟨_, rfl⟩ := h
        exact ⟨_, List.mem_cons_self _ _, List.mem_cons_self _ _⟩
      | some p =>
        obtain ⟨i, z⟩ := p
        simp only [bestHead, pickHead, hb] at h
        by_cases hy : z.score > x.score
        · simp only [hy, if_true, Option.some.injEq, Prod.mk.injEq] at h
          obtain ⟨_, rfl⟩ := h
          obtain ⟨b, hbm, hz⟩ := ih i z hb
          exact ⟨b, List.mem_cons_of_mem _ hbm, hz⟩
        · simp only [hy, if_false, Option.some.injEq, Prod.mk.injEq] at h
          obtain ⟨_, rfl⟩ := h
          exact ⟨_, List.mem_cons_self _ _, List.mem_cons_self _ _⟩

omit [LinearOrder S] in
theorem remainingLists_subset (arrays : List (List (RankingResult S))) :
    ∀ (indices : List Nat), ∀ b ∈ remainingLists arrays indices, ∀ y ∈ b,
      ∃ a ∈ arrays, y ∈ a := by
  induction arrays with
  | nil => intro indices b hb; simp [remainingLists] at hb
  | cons a arrays ih =>
    intro indices b hb y hy
    cases indices with
    | nil => simp [remainingLists] at hb
    | cons j indices =>
      simp only [remainingLists, List.mem_cons] at hb
      rcases hb with rfl | hb
      · exact ⟨a, List.mem_cons_self _ _, List.mem_of_mem_drop hy⟩
      · obtain ⟨c, hc, hyc⟩ := ih indices b hb y hy
        exact ⟨c, List.mem_cons_of_mem _ hc, hyc⟩

omit [LinearOrder S] in
theorem remainingLists_replicate_zero (arrays : List (List (RankingResult S))) :
    remainingLists arrays (List.replicate arrays.length 0) = arrays := by
  induction arrays with
  | nil => rfl
  | cons a arrays ih =>
    simp only [List.length_cons, List.replicate_succ, remainingLists, List.drop_zero, ih]

/-- The merge loop appends the k-way merge of the lists not yet merged. -/
theorem mergeLoop_eq_kWayMerge (lowest : S) (arrays : List (List (RankingResult S)))
    (habove : ∀ a ∈ arrays, ∀ x ∈ a, lowest < x.score) :
    ∀ (n : Nat) (indices : List Nat) (result : List (RankingResult S)),
      mergeSortedArrays.loop lowest arrays n indices result
        = some (result ++ kWayMerge n (remainingLists arrays indices)) := by
  intro n
  induction n with
  | zero => intro indices result; simp [mergeSortedArrays.loop, kWayMerge]
  | succ n ih =>
    intro indices result
    rw [mergeSortedArrays.loop, scan_eq_bestHead]
    cases hb : bestHead (remainingLists arrays indices) with
    | none => simp [kWayMerge, hb]
    | some p =>
      obtain ⟨t, y⟩ := p
      obtain ⟨a, j, ha, hj, hy, hdrop⟩ := bestHead_lookup arrays indices t y hb
      obtain ⟨b, hbm, hyb⟩ := bestHead_mem _ t y hb
      obtain ⟨c, hc, hyc⟩ := remainingLists_subset arrays indices b hbm y hyb
      have hlow : y.score > lowest := habove c hc y hyc
      simp only [hlow, if_true, Nat.zero_add, ha, hj, hy, kWayMerge, hb]
      rw [ih, hdrop]
      simp

end CSolver

end SearchEngine

namespace SearchEngine

namespace CSolver

open Ranker

/-- Counterexample for claim C11. With the sentinel `lowest` that the scan of
`mergeSortedArrays` starts from (here 0 in the integers), one list holding one
result whose score equals the sentinel is sorted, but the merge returns the
empty list: the head never compares strictly greater than the sentinel, so the
loop stops as if every list were exhausted, and the length is not
`min(MAX_RESULTS, 1)`. -/
theorem mergeSortedArrays_drops_sentinel_score :
    SortedDesc [({ url := "u", title := "t", score := 0 } : RankingResult Int)]
      ∧ mergeSortedArrays (0 : Int) [[{ url := "u", title := "t", score := 0 }]] = some []
      ∧ ¬ ∃ result, mergeSortedArrays (0 : Int) [[{ url := "u", title := "t", score := 0 }]]
            = some result
          ∧ result.length = min MAX_RESULTS
              ([[({ url := "u", title := "t", score := 0 } : RankingResult Int)]].flatten.length) := by
  refine ⟨by decide, by decide, ?_⟩
  rintro ⟨result, h, hlen⟩
  have h0 : mergeSortedArrays (0 : Int) [[{ url := "u", title := "t", score := 0 }]]
      = some [] := by decide
  rw [h0] at h
  cases h
  simp [MAX_RESULTS] at hlen

/-- Claim C11, amended. For every list of per-segment result lists, each sorted
by non-increasing score and with every score strictly greater than
`std::numeric_limits<double>::lowest()`, `mergeSortedArrays` returns a list
sorted by non-increasing score, of length `min(MAX_RESULTS = 10, total number of
input results)`, consisting of the highest-scoring input results: together with
the results it leaves out it is a rearrangement of all the input results, and no
result left out has a greater score than a result returned. The list is the
first `MAX_RESULTS` elements of the k-way merge, ties going to the
lower-indexed list. -/
theorem mergeSortedArrays_spec {S : Type} [LinearOrder S] (lowest : S)
    (arrays : List (List (RankingResult S)))
    (hs : ∀ a ∈ arrays, SortedDesc a) (habove : ∀ a ∈ arrays, ∀ x ∈ a, lowest < x.score) :
    ∃ result rest, mergeSortedArrays lowest arrays = some result
      ∧ SortedDesc result
      ∧ result.length = min MAX_RESULTS arrays.flatten.length
      ∧ (result ++ rest).Perm arrays.flatten
      ∧ (∀ x ∈ result, ∀ y ∈ rest, y.score ≤ x.score)
      ∧ result = kWayMerge MAX_RESULTS arrays := by
  obtain ⟨out, rest, hrun, hso, hpo, hdo, hlen⟩ :=
    mergeLoop_spec lowest arrays hs habove MAX_RESULTS (List.replicate arrays.length 0) []
      List.Pairwise.nil (fun x hx => by cases hx)
  rw [remaining_replicate_zero] at hpo hlen
  have hk := mergeLoop_eq_kWayMerge lowest arrays habove MAX_RESULTS
    (List.replicate arrays.length 0) []
  rw [remainingLists_replicate_zero, List.nil_append] at hk
  have hout : out = kWayMerge MAX_RESULTS arrays := by
    have h1 : mergeSortedArrays.loop lowest arrays MAX_RESULTS
        (List.replicate arrays.length 0) [] = some out := hrun
    rw [hk] at h1
    exact (Option.some.inj h1).symm
  refine ⟨out, rest, hrun, hso, ?_, ?_, hdo, hout⟩
  · rw [hlen]; simp
  · simpa using hpo

/-- Two segments with scores `[9, 4]` and `[7]` above the sentinel 0: the merge
returns the three results in the order 9, 7, 4. -/
theorem mergeSortedArrays_spec_witness :
    mergeSortedArrays (0 : Nat)
        [[{ url := "a", title := "", score := 9 }, { url := "b", title := "", score := 4 }],
         [{ url := "c", title := "", score := 7 }]]
      = some [{ url := "a", title := "", score := 9 }, { url := "c", title := "", score := 7 },
              { url := "b", title := "", score := 4 }]
    ∧ ∃ result rest,
      mergeSortedArrays (0 : Nat)
        [[{ url := "a", title := "", score := 9 }, { url := "b", title := "", score := 4 }],
         [{ url := "c", title := "", score := 7 }]] = some result
      ∧ SortedDesc result
      ∧ result.length = min MAX_RESULTS
          ([[({ url := "a", title := "", score := 9 } : RankingResult Nat),
             { url := "b", title := "", score := 4 }],
            [{ url := "c", title := "", score := 7 }]].flatten.length)
      ∧ (result ++ rest).Perm
          ([[({ url := "a", title := "", score := 9 } : RankingResult Nat),
             { url := "b", title := "", score := 4 }],
            [{ url := "c", title := "", score := 7 }]].flatten)
      ∧ (∀ x ∈ result, ∀ y ∈ rest, y.score ≤ x.score)
      ∧ result = kWayMerge MAX_RESULTS
          [[({ url := "a", title := "", score := 9 } : RankingResult Nat),
             { url := "b", title := "", score := 4 }],
            [{ url := "c", title := "", score := 7 }]] :=
  ⟨by decide, mergeSortedArrays_spec (0 : Nat) _ (by decide) (by decide)⟩

end CSolver

end SearchEngine

namespace SearchEngine

/-! ## Result framing -/

theorem memBytes_four (x : Nat) :
    memBytes 4 x = [x % 256, x / 256 % 256, x / 65536 % 256, x / 16777216 % 256] := by
  simp [memBytes, List.range, List.range.loop]

theorem memBytes_eight (x : Nat) :
    memBytes 8 x = [x % 256, x / 256 % 256, x / 65536 % 256, x / 16777216 % 256,
      x / 4294967296 % 256, x / 1099511627776 % 256, x / 281474976710656 % 256,
      x / 72057594037927936 % 256] := by
  simp [memBytes, List.range, List.range.loop]

theorem htonl_lt (x : Nat) : htonl x < U32 := by
  unfold htonl U32
  omega

theorem bytes_of_u32 (x : Nat) (h : x < U32) :
    ∃ b0 b1 b2 b3, b0 < 256 ∧ b1 < 256 ∧ b2 < 256 ∧ b3 < 256
      ∧ x = b0 + 256 * b1 + 65536 * b2 + 16777216 * b3 := by
  unfold U32 at h
  exact ⟨x % 256, x / 256 % 256, x / 65536 % 256, x / 16777216,
    by omega, by omega, by omega, by omega, by omega⟩

theorem htonl_bytes (b0 b1 b2 b3 : Nat) (h0 : b0 < 256) (h1 : b1 < 256) (h2 : b2 < 256)
    (h3 : b3 < 256) :
    htonl (b0 + 256 * b1 + 65536 * b2 + 16777216 * b3)
      = b3 + 256 * b2 + 65536 * b1 + 16777216 * b0 := by
  unfold htonl
  omega

theorem memBytes_four_bytes (b0 b1 b2 b3 : Nat) (h0 : b0 < 256) (h1 : b1 < 256)
    (h2 : b2 < 256) (h3 : b3 < 256) :
    memBytes 4 (b0 + 256 * b1 + 65536 * b2 + 16777216 * b3) = [b0, b1, b2, b3] := by
  rw [memBytes_four]
  refine List.cons_eq_cons.mpr ⟨by omega, List.cons_eq_cons.mpr ⟨by omega,
    List.cons_eq_cons.mpr ⟨by omega, List.cons_eq_cons.mpr ⟨by omega, rfl⟩⟩⟩⟩

theorem memBytes_eight_bytes (b0 b1 b2 b3 b4 b5 b6 b7 : Nat) (h0 : b0 < 256) (h1 : b1 < 256)
    (h2 : b2 < 256) (h3 : b3 < 256) (h4 : b4 < 256) (h5 : b5 < 256) (h6 : b6 < 256)
    (h7 : b7 < 256) :
    memBytes 8 (b0 + 256 * b1 + 65536 * b2 + 16777216 * b3 + 4294967296 * b4
        + 1099511627776 * b5 + 281474976710656 * b6 + 72057594037927936 * b7)
      = [b0, b1, b2, b3, b4, b5, b6, b7] := by
  rw [memBytes_eight]
  refine List.cons_eq_cons.mpr ⟨by omega, List.cons_eq_cons.mpr ⟨by omega,
    List.cons_eq_cons.mpr ⟨by omega, List.cons_eq_cons.mpr ⟨by omega,
    List.cons_eq_cons.mpr ⟨by omega, List.cons_eq_cons.mpr ⟨by omega,
    List.cons_eq_cons.mpr ⟨by omega, List.cons_eq_cons.mpr ⟨by omega, rfl⟩⟩⟩⟩⟩⟩⟩⟩

theorem be32_bytes (b0 b1 b2 b3 : Nat) (h0 : b0 < 256) (h1 : b1 < 256) (h2 : b2 < 256)
    (h3 : b3 < 256) :
    be32 (b0 + 256 * b1 + 65536 * b2 + 16777216 * b3) = [b3, b2, b1, b0] := by
  unfold be32
  refine List.cons_eq_cons.mpr ⟨by omega, List.cons_eq_cons.mpr ⟨by omega,
    List.cons_eq_cons.mpr ⟨by omega, List.cons_eq_cons.mpr ⟨by omega, rfl⟩⟩⟩⟩

theorem be64_bytes (b0 b1 b2 b3 b4 b5 b6 b7 : Nat) (h0 : b0 < 256) (h1 : b1 < 256)
    (h2 : b2 < 256) (h3 : b3 < 256) (h4 : b4 < 256) (h5 : b5 < 256) (h6 : b6 < 256)
    (h7 : b7 < 256) :
    be64 (b0 + 256 * b1 + 65536 * b2 + 16777216 * b3 + 4294967296 * b4
        + 1099511627776 * b5 + 281474976710656 * b6 + 72057594037927936 * b7)
      = [b7, b6, b5, b4, b3, b2, b1, b0] := by
  unfold be64
  refine List.cons_eq_cons.mpr ⟨by omega, List.cons_eq_cons.mpr ⟨by omega,
    List.cons_eq_cons.mpr ⟨by omega, List.cons_eq_cons.mpr ⟨by omega,
    List.cons_eq_cons.mpr ⟨by omega, List.cons_eq_cons.mpr ⟨by omega,
    List.cons_eq_cons.mpr ⟨by omega, List.cons_eq_cons.mpr ⟨by omega, rfl⟩⟩⟩⟩⟩⟩⟩⟩

/-- In memory, `htonl x` is `x` in big-endian order. -/
theorem memBytes_htonl (x : Nat) (h : x < U32) : memBytes 4 (htonl x) = be32 x := by
  obtain ⟨b0, b1, b2, b3, h0, h1, h2, h3, hx⟩ := bytes_of_u32 x h
  subst hx
  rw [htonl_bytes b0 b1 b2 b3 h0 h1 h2 h3, memBytes_four_bytes b3 b2 b1 b0 h3 h2 h1 h0,
    be32_bytes b0 b1 b2 b3 h0 h1 h2 h3]

theorem htonl_htonl (x : Nat) (h : x < U32) : htonl (htonl x) = x := by
  obtain ⟨b0, b1, b2, b3, h0, h1, h2, h3, hx⟩ := bytes_of_u32 x h
  subst hx
  rw [htonl_bytes b0 b1 b2 b3 h0 h1 h2 h3, htonl_bytes b3 b2 b1 b0 h3 h2 h1 h0]

/-- The value `my_htonll` computes, without bit operations. -/
theorem my_htonll_eq (v : Nat) (h : v < 18446744073709551616) :
    my_htonll v = htonl (v % U32) * U32 + htonl (v / U32) := by
  unfold my_htonll
  have e1 : v &&& 0xFFFFFFFF = v % U32 := Nat.and_pow_two_sub_one_eq_mod v 32
  have e2 : v >>> 32 = v / U32 := by rw [Nat.shiftRight_eq_div_pow]; rfl
  have hlt1 := htonl_lt (v % U32)
  have hlt2 := htonl_lt (v / U32)
  have hdiv : v / U32 < U32 := by unfold U32; omega
  rw [e1, e2, Nat.mod_mod, Nat.mod_eq_of_lt hdiv, Nat.shiftLeft_eq]
  have hU : (2 : Nat) ^ 32 = U32 := by norm_num [U32]
  rw [hU]
  have hlt3 : htonl (v % U32) * U32 < 18446744073709551616 := by
    unfold U32 at hlt1 ⊢; omega
  rw [Nat.mod_eq_of_lt hlt3, Nat.mul_comm, ← hU]
  exact (Nat.mul_add_lt_is_or (by rw [hU]; exact hlt2) _).symm

theorem my_ntohll_eq_htonll (v : Nat) : my_ntohll v = my_htonll v := rfl

/-- In memory, `my_htonll v` is `v` in big-endian order: `my_htonll` reverses the
eight bytes. -/
theorem memBytes_my_htonll (v : Nat) (h : v < 18446744073709551616) :
    memBytes 8 (my_htonll v) = be64 v := by
  rw [my_htonll_eq v h]
  have hdiv : v / U32 < U32 := by unfold U32; omega
  have hmod : v % U32 < U32 := Nat.mod_lt _ (by norm_num [U32])
  obtain ⟨b0, b1, b2, b3, h0, h1, h2, h3, hlo⟩ := bytes_of_u32 _ hmod
  obtain ⟨b4, b5, b6, b7, h4, h5, h6, h7, hhi⟩ := bytes_of_u32 _ hdiv
  have hv : v = b0 + 256 * b1 + 65536 * b2 + 16777216 * b3 + 4294967296 * b4
      + 1099511627776 * b5 + 281474976710656 * b6 + 72057594037927936 * b7 := by
    have := Nat.div_add_mod v U32
    unfold U32 at this hlo hhi
    omega
  rw [hlo, hhi, htonl_bytes b0 b1 b2 b3 h0 h1 h2 h3, htonl_bytes b4 b5 b6 b7 h4 h5 h6 h7]
  have hw : (b3 + 256 * b2 + 65536 * b1 + 16777216 * b0) * U32
        + (b7 + 256 * b6 + 65536 * b5 + 16777216 * b4)
      = b7 + 256 * b6 + 65536 * b5 + 16777216 * b4 + 4294967296 * b3
        + 1099511627776 * b2 + 281474976710656 * b1 + 72057594037927936 * b0 := by
    unfold U32
    omega
  rw [hw, memBytes_eight_bytes b7 b6 b5 b4 b3 b2 b1 b0 h7 h6 h5 h4 h3 h2 h1 h0]
  conv_rhs => rw [hv]
  rw [be64_bytes b0 b1 b2 b3 b4 b5 b6 b7 h0 h1 h2 h3 h4 h5 h6 h7]

theorem my_htonll_lt (v : Nat) (h : v < 18446744073709551616) :
    my_htonll v < 18446744073709551616 := by
  rw [my_htonll_eq v h]
  have h1 := htonl_lt (v % U32)
  have h2 := htonl_lt (v / U32)
  unfold U32 at h1 h2 ⊢
  omega

/-- The reversal is its own inverse on 64-bit values. -/
theorem my_ntohll_my_htonll (v : Nat) (h : v < 18446744073709551616) :
    my_ntohll (my_htonll v) = v := by
  rw [my_ntohll_eq_htonll, my_htonll_eq _ (my_htonll_lt v h), my_htonll_eq v h]
  have h1 := htonl_lt (v % U32)
  have h2 := htonl_lt (v / U32)
  have e1 : (htonl (v % U32) * U32 + htonl (v / U32)) % U32 = htonl (v / U32) := by
    rw [Nat.mul_add_mod_of_lt h2]
  have e2 : (htonl (v % U32) * U32 + htonl (v / U32)) / U32 = htonl (v % U32) := by
    have hU : 0 < U32 := by norm_num [U32]
    rw [Nat.add_comm, Nat.add_mul_div_right _ _ hU, Nat.div_eq_of_lt h2, Nat.zero_add]
  rw [e1, e2]
  have hdiv : v / U32 < U32 := by unfold U32; omega
  have hmod : v % U32 < U32 := Nat.mod_lt _ (by norm_num [U32])
  rw [htonl_htonl _ hdiv, htonl_htonl _ hmod]
  have := Nat.div_add_mod v U32
  rw [Nat.mul_comm] at this
  exact this

theorem serialize_foldl (results : List (RankingResult Nat)) :
    ∀ (sent : List Nat), (∀ r ∈ results, r.score < 18446744073709551616) →
      results.foldl
        (fun sent result =>
          sent ++ cBytes result.url ++ [10] ++ cBytes result.title ++ [10]
            ++ memBytes 8 (my_htonll result.score)) sent
      = sent ++ (results.map resultFrame).flatten := by
  induction results with
  | nil => intro sent _; simp
  | cons r rs ih =>
    intro sent h
    simp only [List.foldl_cons, List.map_cons, List.flatten_cons]
    rw [ih _ (fun x hx => h x (List.mem_cons_of_mem _ hx)),
      memBytes_my_htonll r.score (h r (List.mem_cons_self _ _))]
    simp [resultFrame, List.append_assoc]

namespace CSolver

/-- Claim C12. For every result list (of fewer than `2 ^ 32` results, whose
scores are 64-bit patterns), `CSolver::serialize_results` emits exactly: the
result count as a 4-byte big-endian integer, then for each result in list order
its URL bytes, a newline, its title bytes, a newline, and the 8 bytes of the bit
pattern of its score in big-endian order; `my_htonll` is the 64-bit byte
reversal on the little-endian host and `my_ntohll` inverts it. -/
theorem serialize_results_spec (results : List (RankingResult Nat))
    (hlen : results.length < U32) (hbits : ∀ r ∈ results, r.score < 18446744073709551616) :
    serialize_results results = be32 results.length ++ (results.map resultFrame).flatten
      ∧ (∀ v, v < 18446744073709551616 →
          memBytes 8 (my_htonll v) = (memBytes 8 v).reverse ∧ my_ntohll (my_htonll v) = v) := by
  refine ⟨?_, ?_⟩
  · unfold serialize_results
    simp only []
    rw [serialize_foldl results _ hbits, Nat.mod_eq_of_lt hlen, memBytes_htonl _ hlen]
  · intro v hv
    refine ⟨?_, my_ntohll_my_htonll v hv⟩
    rw [memBytes_my_htonll v hv, memBytes_eight]
    simp [be64]

/-- One result with URL `u`, title `t` and score bits `0x3FF0000000000000` (the
double 1.0): the frame is the count 1, the two strings with their newlines, and
the bytes `3F F0 00 00 00 00 00 00`. -/
theorem serialize_results_spec_witness :
    serialize_results [{ url := "u", title := "t", score := 4607182418800017408 }]
        = [0, 0, 0, 1, 117, 10, 116, 10, 63, 240, 0, 0, 0, 0, 0, 0]
      ∧ my_ntohll (my_htonll 4607182418800017408) = 4607182418800017408 := by
  have h := serialize_results_spec
    [{ url := "u", title := "t", score := 4607182418800017408 }] (by decide) (by decide)
  refine ⟨?_, (h.2 4607182418800017408 (by decide)).2⟩
  rw [h.1]
  decide

end CSolver

end SearchEngine

namespace SearchEngine

namespace SerializedPost

/-! ## The variable-length code, byte by byte -/

theorem encode_loop_length_le_groups (fuel : Nat) : ∀ (d n : Nat), 1 ≤ n → d < 128 ^ n →
    (EncodeVarLengthDelta.loop fuel d).length ≤ n := by
  induction fuel with
  | zero => intro d n hn _; simpa [EncodeVarLengthDelta.loop] using hn
  | succ f ih =>
    intro d n hn hd
    unfold EncodeVarLengthDelta.loop
    by_cases hge : d ≥ 0x80
    · rw [if_pos hge]
      have hn2 : 2 ≤ n := by
        rcases Nat.lt_or_ge n 2 with h | h
        · have : n = 1 := by omega
          subst this
          simp at hd
          omega
        · exact h
      have hdiv : d >>> 7 < 128 ^ (n - 1) := by
        rw [Nat.shiftRight_eq_div_pow]
        have e : 128 ^ n = 128 ^ (n - 1) * 2 ^ 7 := by
          conv_lhs => rw [show n = (n - 1) + 1 by omega, Nat.pow_succ]
          norm_num
        rw [e] at hd
        exact Nat.div_lt_of_lt_mul (by rw [Nat.mul_comm]; exact hd)
      have := ih (d >>> 7) (n - 1) (by omega) hdiv
      simp only [List.length_cons]
      omega
    · rw [if_neg hge]
      simpa using hn

/-- Byte `i` of the code holds the `i`-th seven-bit group of the value, with the
high bit set exactly when another byte follows. -/
theorem encode_loop_bytes (fuel : Nat) : ∀ (d : Nat), d < 128 ^ fuel → ∀ i,
    i < (EncodeVarLengthDelta.loop fuel d).length →
    (EncodeVarLengthDelta.loop fuel d)[i]?
      = some (d / 128 ^ i % 128
          + if i + 1 < (EncodeVarLengthDelta.loop fuel d).length then 128 else 0) := by
  induction fuel with
  | zero =>
    intro d hd i hi
    have hd0 : d = 0 := by simpa using hd
    subst hd0
    simp only [EncodeVarLengthDelta.loop, List.length_singleton] at hi ⊢
    have hi0 : i = 0 := by omega
    subst hi0
    simp
  | succ f ih =>
    intro d hd i hi
    unfold EncodeVarLengthDelta.loop at hi ⊢
    by_cases hge : d ≥ 0x80
    · rw [if_pos hge] at hi ⊢
      rw [encode_cont_byte]
      have hdiv : d >>> 7 < 128 ^ f := by
        rw [Nat.shiftRight_eq_div_pow]
        rw [Nat.pow_succ] at hd
        exact Nat.div_lt_of_lt_mul (by rw [Nat.mul_comm]; exact hd)
      have hpos := encode_loop_length_pos f (d >>> 7)
      cases i with
      | zero =>
        simp only [List.getElem?_cons_zero, List.length_cons, pow_zero, Nat.div_one]
        rw [if_pos (by omega)]
      | succ j =>
        simp only [List.length_cons] at hi
        simp only [List.getElem?_cons_succ, List.length_cons]
        rw [ih (d >>> 7) hdiv j (by omega)]
        have e0 : (2 : Nat) ^ 7 * 128 ^ j = 128 ^ (j + 1) := by
          rw [Nat.pow_succ 128 j, Nat.mul_comm]
          norm_num
        have e1 : d >>> 7 / 128 ^ j = d / 128 ^ (j + 1) := by
          rw [Nat.shiftRight_eq_div_pow, Nat.div_div_eq_div_mul, e0]
        rw [e1]
        by_cases hj : j + 1 < (EncodeVarLengthDelta.loop f (d >>> 7)).length
        · rw [if_pos hj, if_pos (by omega)]
        · rw [if_neg hj, if_neg (by omega)]
    · rw [if_neg hge] at hi ⊢
      simp only [List.length_singleton] at hi ⊢
      have hi0 : i = 0 := by omega
      subst hi0
      have hlt : d < 128 := by
        have : ¬ (128 ≤ d) := hge
        omega
      simp only [List.getElem?_cons_zero, pow_zero, Nat.div_one, Nat.lt_irrefl, if_false,
        Nat.add_zero, Option.some.injEq]
      omega

/-- Claim C13. For every 32-bit delta `d`, `EncodeVarLengthDelta` writes between
1 and 5 bytes holding the 7-bit groups of `d` from the low-order group first
(byte `i` is group `i`, plus 128 when it is not the last byte, so every byte
except the last has its high bit set and the last has it clear), the groups
cover `d`, and `DecodeVarLengthDelta` applied to those bytes (whatever follows
them) returns `d` and reports `bytesRead` equal to the number of bytes
written. -/
theorem varint_encoding_spec (d : Nat) (h : d < U32) :
    1 ≤ (EncodeVarLengthDelta d).length ∧ (EncodeVarLengthDelta d).length ≤ 5
      ∧ (∀ i, i < (EncodeVarLengthDelta d).length →
          (EncodeVarLengthDelta d)[i]?
            = some (d / 128 ^ i % 128
                + if i + 1 < (EncodeVarLengthDelta d).length then 128 else 0))
      ∧ (∀ i, (EncodeVarLengthDelta d).length ≤ i → d / 128 ^ i % 128 = 0)
      ∧ ∀ rest, DecodeVarLengthDelta (EncodeVarLengthDelta d ++ rest)
          = some (d, (EncodeVarLengthDelta d).length) := by
  have h5 : d < 128 ^ 5 := by unfold U32 at h; norm_num; omega
  refine ⟨encode_length_pos d, encode_loop_length_le_groups 5 d 5 (by norm_num) h5,
    encode_loop_bytes 5 d h5, ?_, fun rest => decode_encode d rest h⟩
  intro i hi
  have hbound : ∀ (fuel : Nat) (x : Nat), x < 128 ^ fuel →
      x < 128 ^ (EncodeVarLengthDelta.loop fuel x).length := by
    intro fuel
    induction fuel with
    | zero => intro x hx; simp [EncodeVarLengthDelta.loop] at hx ⊢; omega
    | succ f ih =>
      intro x hx
      unfold EncodeVarLengthDelta.loop
      by_cases hge : x ≥ 0x80
      · rw [if_pos hge]
        have hdiv : x >>> 7 < 128 ^ f := by
          rw [Nat.shiftRight_eq_div_pow]
          rw [Nat.pow_succ] at hx
          exact Nat.div_lt_of_lt_mul (by rw [Nat.mul_comm]; exact hx)
        have hq := ih (x >>> 7) hdiv
        have hsh : x >>> 7 = x / 128 := by rw [Nat.shiftRight_eq_div_pow]
        rw [hsh] at hq ⊢
        simp only [List.length_cons, Nat.pow_succ]
        generalize 128 ^ (EncodeVarLengthDelta.loop f (x / 128)).length = P at hq ⊢
        omega
      · rw [if_neg hge]
        simp only [List.length_singleton, pow_one]
        have : ¬ (128 ≤ x) := hge
        omega
  have hb := hbound 5 d h5
  have hle : 128 ^ (EncodeVarLengthDelta d).length ≤ 128 ^ i :=
    Nat.pow_le_pow_right (by norm_num) hi
  have : d / 128 ^ i = 0 := Nat.div_eq_of_lt (Nat.lt_of_lt_of_le hb hle)
  rw [this]

/-- The value 300 is written as the two bytes `0xAC 0x02`. -/
theorem varint_encoding_spec_witness :
    EncodeVarLengthDelta 300 = [172, 2]
      ∧ DecodeVarLengthDelta (EncodeVarLengthDelta 300 ++ [7]) = some (300, 2)
      ∧ (EncodeVarLengthDelta 300)[0]?
          = some (300 / 128 ^ 0 % 128
              + if 0 + 1 < (EncodeVarLengthDelta 300).length then 128 else 0) :=
  ⟨by decide,
    by
      have h := (varint_encoding_spec 300 (by decide)).2.2.2.2 [7]
      rw [h]
      decide,
    (varint_encoding_spec 300 (by decide)).2.2.1 0 (by decide)⟩

/-- Claim C14. For every `DocumentPost` `p` of 32-bit fields and previous end
location `e` with `e <= p.start <= p.end`, `SerializeDocumentPost(p, e)` writes
`varint(p.start - e)`, `varint(p.end - p.start)`, `varint(p.docId)`, and
`DeserializeDocumentPost` on those bytes (whatever follows them) with running
location `e` returns a post equal to `p`, reports `bytesRead` equal to the bytes
written, and updates the running previous location to `p.end`. -/
theorem documentPost_round_trip (p : DocumentPost) (e : Nat) (rest : List Nat)
    (h1 : e ≤ p.startLocation) (h2 : p.startLocation ≤ p.endLocation)
    (h3 : p.endLocation < U32) (hid : p.docId < U32) :
    SerializeDocumentPost p e
        = EncodeVarLengthDelta (p.startLocation - e)
          ++ EncodeVarLengthDelta (p.endLocation - p.startLocation)
          ++ EncodeVarLengthDelta p.docId
      ∧ DeserializeDocumentPost (SerializeDocumentPost p e ++ rest) e
        = some (p, (SerializeDocumentPost p e).length, p.endLocation) := by
  refine ⟨?_, deserialize_serializeDocumentPost p e rest (by omega) h3 hid (by omega)⟩
  unfold SerializeDocumentPost
  have e1 : (p.startLocation + U32 - e) % U32 = p.startLocation - e := by
    have : p.startLocation + U32 - e = (p.startLocation - e) + U32 := by omega
    rw [this, Nat.add_mod_right, Nat.mod_eq_of_lt (by omega)]
  have e2 : (p.endLocation + U32 - p.startLocation) % U32 = p.endLocation - p.startLocation := by
    have : p.endLocation + U32 - p.startLocation = (p.endLocation - p.startLocation) + U32 := by
      omega
    rw [this, Nat.add_mod_right, Nat.mod_eq_of_lt (by omega)]
  rw [e1, e2]

/-- The document `[300, 450]` with id 7 after a document that ended at 299. -/
theorem documentPost_round_trip_witness :
    SerializeDocumentPost ⟨300, 450, 7⟩ 299 = [1, 150, 1, 7]
      ∧ DeserializeDocumentPost (SerializeDocumentPost ⟨300, 450, 7⟩ 299 ++ [9]) 299
        = some (⟨300, 450, 7⟩, (SerializeDocumentPost ⟨300, 450, 7⟩ 299).length, 450) :=
  ⟨by decide,
    (documentPost_round_trip ⟨300, 450, 7⟩ 299 [9] (by decide) (by decide) (by decide)
      (by decide)).2⟩

end SerializedPost

end SearchEngine

namespace SearchEngine

open SerializedPost SerializedPostingList

/-! ## What a skip entry names -/

theorem wordLocation_le_next (posts : List WordPost) (hok : WordPostsOK posts) (k : Nat)
    (p : WordPost) (hp : posts[k]? = some p) :
    wordLocation posts k ≤ p.startLocation ∧ (0 < k → wordLocation posts k < p.startLocation) := by
  cases k with
  | zero =>
    rw [wordLocation_zero]
    exact ⟨Nat.zero_le _, fun h => absurd h (Nat.lt_irrefl 0)⟩
  | succ j =>
    have hk : j + 1 < posts.length := by
      rcases Nat.lt_or_ge (j + 1) posts.length with h | h
      · exact h
      · rw [List.getElem?_eq_none h] at hp; cases hp
    have hj : j < posts.length := by omega
    have hq : posts[j]? = some posts[j] := List.getElem?_eq_getElem hj
    rw [wordLocation_succ posts j _ hq]
    rw [List.getElem?_eq_getElem hk] at hp
    cases hp
    have := List.pairwise_iff_getElem.mp hok.1 j (j + 1) (by simpa using hj)
      (by simpa using hk) (by omega)
    have hlt : posts[j].startLocation < posts[j + 1].startLocation := by simpa using this
    exact ⟨Nat.le_of_lt hlt, fun _ => hlt⟩

set_option maxRecDepth 100000 in
/-- Counterexample for claim C15. The skip table built for the sample list of 64
posts (Locations 3, 8, 13, …, 318) has the entry `(off, loc) = (64, 158)`. With
the target 160, `loc < T`, but the post encoded at byte offset 64 has Location
163, which is not `<= loc`: `loc` is the Location of the post before the one at
`off`. -/
theorem skipEntry_post_after_location :
    BuildWordPostSkipTable samplePostingList.rawPostingData 318 64
        = some [{ Offset := 0, PostLocation := 0 }, { Offset := 64, PostLocation := 158 }]
      ∧ 158 < 160
      ∧ DeserializeWordPost (samplePostingList.rawPostingData.drop 64) 158
          = some ({ startLocation := 163, flags := 0 }, 2, 163)
      ∧ ¬ 163 ≤ 158 := by
  refine ⟨by decide, by decide, by decide, by decide⟩

/-- Claim C15, amended. For every word posting list (strictly increasing 32-bit
Locations, fewer than `2 ^ 32` bytes) and every skip entry `(off, loc)` of the
table built by `BuildWordPostSkipTable`: `off` is the byte offset of a post
boundary and `loc` is the running Location at that boundary, that is, the
Location of the last post encoded before `off` (0 at the start). So every post
encoded before `off` has a Location `<= loc`, and the post encoded at `off`, if
there is one, is decoded from `off` with running Location `loc` and has a
Location `>= loc`, strictly greater when `off` is not the start. -/
theorem skipEntry_names_boundary (posts : List WordPost) (hok : WordPostsOK posts)
    (hlen : (encodeWordPosts 0 posts).length < U32) (M numPosts : Nat)
    (table : List SkipEntry)
    (h : BuildWordPostSkipTable (encodeWordPosts 0 posts) M numPosts = some table) :
    ∀ e ∈ table, ∃ k, e.Offset = wordOffset posts k ∧ e.PostLocation = wordLocation posts k
      ∧ (∀ p ∈ posts.take k, p.startLocation ≤ e.PostLocation)
      ∧ ∀ p, posts[k]? = some p →
          (∃ b, DeserializeWordPost ((encodeWordPosts 0 posts).drop e.Offset) e.PostLocation
            = some (p, b, p.startLocation))
          ∧ e.PostLocation ≤ p.startLocation ∧ (0 < k → e.PostLocation < p.startLocation) := by
  obtain ⟨_, htab, _⟩ := buildWordPostSkipTable_valid posts hok.2.1 hlen M numPosts table h
  intro e he
  obtain ⟨k, hoff, hloc⟩ := htab e he
  refine ⟨k, hoff, hloc, ?_, ?_⟩
  · rw [hloc]
    exact le_wordLocation_of_mem_take posts k hok.1
  · intro p hp
    rw [hoff, hloc]
    exact ⟨⟨_, (deserialize_at posts k p hp hok.2.1).1⟩, wordLocation_le_next posts hok k p hp⟩

set_option maxRecDepth 100000 in
/-- The sample list of 64 posts: each of its two skip entries names a post
boundary. -/
theorem skipEntry_names_boundary_witness :
    WordPostsOK samplePosts
      ∧ BuildWordPostSkipTable (encodeWordPosts 0 samplePosts) 318 64
          = some [{ Offset := 0, PostLocation := 0 }, { Offset := 64, PostLocation := 158 }]
      ∧ ∀ e ∈ [({ Offset := 0, PostLocation := 0 } : SkipEntry),
                { Offset := 64, PostLocation := 158 }],
          ∃ k, e.Offset = wordOffset samplePosts k ∧ e.PostLocation = wordLocation samplePosts k
            ∧ (∀ p ∈ samplePosts.take k, p.startLocation ≤ e.PostLocation)
            ∧ ∀ p, samplePosts[k]? = some p →
                (∃ b, DeserializeWordPost ((encodeWordPosts 0 samplePosts).drop e.Offset)
                    e.PostLocation = some (p, b, p.startLocation))
                ∧ e.PostLocation ≤ p.startLocation
                ∧ (0 < k → e.PostLocation < p.startLocation) :=
  ⟨by decide, by decide,
    skipEntry_names_boundary samplePosts (by decide) (by decide) 318 64 _ (by decide)⟩

end SearchEngine

namespace SearchEngine

namespace Expr_AST

/-! ## The query deserialiser -/

theorem bind_ok {α β : Type} (a : α) (g : α → Outcome β) : (Outcome.ok a).bind g = g a := rfl

/-- The stem loop on a stem followed by the closing `'>'`: every stem byte is
pushed, escaped or not, and the stream is consumed through the `'>'`. -/
theorem loop_stem {A : Type} (push : A → Nat → A) :
    ∀ (ts : List StemByte) (fuel : Nat) (w0 w1 : Nat) (sock rest : List Nat) (aggr : A),
      (∀ t ∈ ts, t.Valid) → ts.length < fuel →
      w0 :: sock = stemWire ts ++ PHRASE_END :: rest →
      read_to_cond.loop push fuel sock w0 w1 aggr
        = .ok ((stemBytes ts).foldl push aggr, rest) := by
  intro ts
  induction ts with
  | nil =>
    intro fuel w0 w1 sock rest aggr _ hf hw
    simp only [stemWire, List.map_nil, List.flatten_nil, List.nil_append,
      List.cons.injEq] at hw
    obtain ⟨h0, hs⟩ := hw
    subst h0; subst hs
    cases fuel with
    | zero => simp at hf
    | succ f =>
      unfold read_to_cond.loop
      have hne : PHRASE_END ≠ ESCAPE := by decide
      simp [stemBytes, hne]
  | cons t ts ih =>
    intro fuel w0 w1 sock rest aggr hv hf hw
    have hvt := hv t (List.mem_cons_self _ _)
    have hvs : ∀ x ∈ ts, x.Valid := fun x hx => hv x (List.mem_cons_of_mem _ hx)
    cases fuel with
    | zero => simp at hf
    | succ f =>
      have hf1 : ts.length < f := by simpa using hf
      have hne : ∃ x tail, stemWire ts ++ PHRASE_END :: rest = x :: tail := by
        cases h : stemWire ts ++ PHRASE_END :: rest with
        | nil => simp at h
        | cons x tail => exact ⟨x, tail, rfl⟩
      obtain ⟨x, tail, hxt⟩ := hne
      have hwire : stemWire (t :: ts) = t.wire ++ stemWire ts := by
        simp [stemWire]
      rw [hwire, List.append_assoc, hxt] at hw
      unfold read_to_cond.loop
      simp only []
      by_cases hesc : t.escaped = true
      · simp only [StemByte.wire, hesc, if_true, List.cons_append, List.nil_append,
          List.cons.injEq] at hw
        obtain ⟨h0, hs⟩ := hw
        subst h0; subst hs
        rw [if_pos rfl]
        simp only [recv1, peek1]
        rw [ih f x t.byte tail rest (push aggr t.byte) hvs hf1 hxt.symm]
        rfl
      · have hplain : t.byte ≠ PHRASE_END ∧ t.byte ≠ ESCAPE := by
          rcases hvt with h | h
          · exact absurd h hesc
          · exact h
        simp only [StemByte.wire, hesc, Bool.false_eq_true, if_false, List.cons_append,
          List.nil_append, List.cons.injEq] at hw
        obtain ⟨h0, hs⟩ := hw
        subst h0; subst hs
        rw [if_neg hplain.2, if_neg hplain.1]
        simp only [recv1, peek1]
        rw [ih f x x tail rest (push aggr t.byte) hvs hf1 hxt.symm]
        rfl

/-- `read_to_cond` on a stem followed by the closing `'>'`. -/
theorem read_to_cond_stem {A : Type} (push : A → Nat → A) (init : A) (ts : List StemByte)
    (fuel : Nat) (rest : List Nat) (hv : ∀ t ∈ ts, t.Valid) (hf : ts.length < fuel) :
    read_to_cond push init fuel (stemWire ts ++ PHRASE_END :: rest)
      = .ok ((stemBytes ts).foldl push init, rest) := by
  unfold read_to_cond
  cases h : stemWire ts ++ PHRASE_END :: rest with
  | nil => simp at h
  | cons x tail =>
    simp only [recv1]
    exact loop_stem push ts fuel x 0 tail rest init hv hf h.symm

theorem foldl_snoc (s : List Nat) : ∀ (acc : List Nat),
    s.foldl (fun (term : List Nat) ch => term ++ [ch]) acc = acc ++ s := by
  induction s with
  | nil => intro acc; simp
  | cons b bs ih => intro acc; simp [ih]

theorem escapeStem_valid (s : List Nat) : ∀ t ∈ escapeStem s, t.Valid := by
  intro t ht
  simp only [escapeStem, List.mem_map] at ht
  obtain ⟨b, _, hb⟩ := ht
  subst hb
  unfold StemByte.Valid
  by_cases h : b = PHRASE_END ∨ b = ESCAPE
  · left; simp [h]
  · right
    simp only []
    exact ⟨fun e => h (Or.inl e), fun e => h (Or.inr e)⟩

theorem escapeStem_bytes (s : List Nat) : stemBytes (escapeStem s) = s := by
  simp [stemBytes, escapeStem, Function.comp_def]

theorem escapeStem_length (s : List Nat) : (escapeStem s).length = s.length := by
  simp [escapeStem]

/-- The wire bytes of `esc(s)`, written out. -/
theorem stemWire_escapeStem_cons (b : Nat) (s : List Nat) :
    stemWire (escapeStem (b :: s))
      = (if b = PHRASE_END ∨ b = ESCAPE then [ESCAPE, b] else [b]) ++ stemWire (escapeStem s) := by
  by_cases h : b = PHRASE_END ∨ b = ESCAPE
  · simp [stemWire, escapeStem, StemByte.wire, h]
  · simp [stemWire, escapeStem, StemByte.wire, h]

end Expr_AST

end SearchEngine

namespace SearchEngine

namespace Expr_AST

theorem esc_eq_stemWire (s : List Nat) : esc s = stemWire (escapeStem s) := by
  induction s with
  | nil => rfl
  | cons b s ih =>
    rw [stemWire_escapeStem_cons, esc, ih]
    by_cases h : b = PHRASE_END ∨ b = ESCAPE
    · simp [h]
    · simp [h]

/-- One step of `build` on a non-empty stream, with the operand routines run
in sequence. -/
theorem build_succ_cons (fuel c : Nat) (sock : List Nat) :
    build (fuel + 1) (c :: sock) =
      if c = AND then
        (build fuel sock).bind fun p => (build fuel p.2).bind fun q => .ok (.AND p.1 q.1, q.2)
      else if c = OR then
        (build fuel sock).bind fun p => (build fuel p.2).bind fun q => .ok (.OR p.1 q.1, q.2)
      else if c = OR_SYN then
        (build fuel sock).bind fun p => (build fuel p.2).bind fun q =>
          (read_step q.2).bind fun a => (read_step a.2).bind fun b =>
            if p.1 = .null ∧ q.1 = .null then .throws
            else if p.1 = .null then .ok (q.1, b.2)
            else if q.1 = .null then .ok (p.1, b.2)
            else .ok (.OR_SYN p.1 q.1 (toInt32 a.1) (toInt32 b.1), b.2)
      else if c = NOT then
        (build fuel sock).bind fun p => (build fuel p.2).bind fun q =>
          .ok (Expr_NOT p.1 q.1, q.2)
      else if c = WORD_START then
        (read_to_word_end fuel sock).bind fun p => .ok (.Leaf_Word p.1, p.2)
      else if c = PHRASE_START then
        (read_to_phrase_end fuel sock).bind fun p => .ok (.Leaf_Phrase p.1, p.2)
      else if c = PHRASE_END then .ok (.null, sock)
      else .throws := by
  conv_lhs => unfold build
  simp only []
  split_ifs
  · rcases build fuel sock with ⟨l, s⟩ | _ | _ | _ <;> simp only [Outcome.bind]
    rcases build fuel s with ⟨r, s2⟩ | _ | _ | _ <;> simp only [Outcome.bind]
  · rcases build fuel sock with ⟨l, s⟩ | _ | _ | _ <;> simp only [Outcome.bind]
    rcases build fuel s with ⟨r, s2⟩ | _ | _ | _ <;> simp only [Outcome.bind]
  · rcases build fuel sock with ⟨l, s⟩ | _ | _ | _ <;> simp only [Outcome.bind]
    rcases build fuel s with ⟨r, s2⟩ | _ | _ | _ <;> simp only [Outcome.bind]
    rcases read_step s2 with ⟨a, s3⟩ | _ | _ | _ <;> simp only [Outcome.bind]
    rcases read_step s3 with ⟨b, s4⟩ | _ | _ | _ <;> simp only [Outcome.bind]
  · rcases build fuel sock with ⟨l, s⟩ | _ | _ | _ <;> simp only [Outcome.bind]
    rcases build fuel s with ⟨r, s2⟩ | _ | _ | _ <;> simp only [Outcome.bind]
  · rcases read_to_word_end fuel sock with ⟨l, s⟩ | _ | _ | _ <;> simp only [Outcome.bind]
  · rcases read_to_phrase_end fuel sock with ⟨l, s⟩ | _ | _ | _ <;> simp only [Outcome.bind]
  · rfl
  · rfl

/-- `build` on a word: `'{'`, a stem, `'>'`. -/
theorem build_word (ts : List StemByte) (fuel : Nat) (rest : List Nat)
    (hv : ∀ t ∈ ts, t.Valid) (hf : ts.length + 1 < fuel) :
    build fuel (WORD_START :: (stemWire ts ++ PHRASE_END :: rest))
      = .ok (.Leaf_Word (stemBytes ts), rest) := by
  obtain ⟨f, rfl⟩ : ∃ f, fuel = f + 1 := ⟨fuel - 1, by omega⟩
  rw [build_succ_cons]
  simp only [show WORD_START ≠ AND by decide, show WORD_START ≠ OR by decide,
    show WORD_START ≠ OR_SYN by decide, show WORD_START ≠ NOT by decide, if_false, if_true]
  unfold read_to_word_end
  rw [read_to_cond_stem _ _ ts f rest hv (by omega)]
  simp only [Outcome.bind, foldl_snoc, List.nil_append]

/-- `build` on a phrase: `'<'`, the content, `'>'`. -/
theorem build_phrase (ts : List StemByte) (fuel : Nat) (rest : List Nat)
    (hv : ∀ t ∈ ts, t.Valid) (hf : ts.length + 1 < fuel) :
    build fuel (PHRASE_START :: (stemWire ts ++ PHRASE_END :: rest))
      = .ok (.Leaf_Phrase ((stemBytes ts).foldl phrasePush [[]]), rest) := by
  obtain ⟨f, rfl⟩ : ∃ f, fuel = f + 1 := ⟨fuel - 1, by omega⟩
  rw [build_succ_cons]
  simp only [show PHRASE_START ≠ AND by decide, show PHRASE_START ≠ OR by decide,
    show PHRASE_START ≠ OR_SYN by decide, show PHRASE_START ≠ NOT by decide,
    show PHRASE_START ≠ WORD_START by decide, if_false, if_true]
  unfold read_to_phrase_end
  rw [read_to_cond_stem _ _ ts f rest hv (by omega)]
  simp only [Outcome.bind]

/-- Claim C16. For every stem `s` and every continuation `rest` of the stream,
`Expr_AST::build` parses `'{' esc(s) '>' rest` into the Word leaf with term
exactly `s` and leaves exactly `rest` unread, where `esc` puts a backslash
before every `'>'` and every backslash of `s`; more generally a backslash
escapes exactly the next byte, whatever it is, and the first `'>'` that is not
escaped ends the word. The fuel bounds the loop iterations and is enough as
soon as it exceeds the stem length by two. -/
theorem build_word_escaped (s rest : List Nat) (fuel : Nat) (hf : s.length + 1 < fuel) :
    build fuel (WORD_START :: (esc s ++ PHRASE_END :: rest)) = .ok (.Leaf_Word s, rest)
    ∧ ∀ ts : List StemByte, (∀ t ∈ ts, t.Valid) → ts.length = s.length →
        build fuel (WORD_START :: (stemWire ts ++ PHRASE_END :: rest))
          = .ok (.Leaf_Word (stemBytes ts), rest) := by
  refine ⟨?_, fun ts hv hl => build_word ts fuel rest hv (by omega)⟩
  have h := build_word (escapeStem s) fuel rest (escapeStem_valid s)
    (by rw [escapeStem_length]; exact hf)
  rw [escapeStem_bytes, ← esc_eq_stemWire] at h
  exact h

theorem build_word_escaped_witness :
    (bytesOf "a>\\b").length + 1 < 6 ∧
    build 6 (WORD_START :: (esc (bytesOf "a>\\b") ++ PHRASE_END :: bytesOf "#x"))
      = .ok (.Leaf_Word (bytesOf "a>\\b"), bytesOf "#x") :=
  ⟨by decide, (build_word_escaped (bytesOf "a>\\b") (bytesOf "#x") 6 (by decide)).1⟩

/-- Claim C17, refuted as stated. The stream `'<' 'a' '\\' ' ' 'b' '>'` is
parsed into the phrase of the two stems `a` and `b`, not into the single stem
`a b`: the escaped space starts a new stem like any other space. -/
theorem escaped_space_starts_new_stem :
    build 6 (bytesOf "<a\\ b>") = .ok (.Leaf_Phrase [bytesOf "a", bytesOf "b"], [])
    ∧ build 6 (bytesOf "<a\\ b>") ≠ .ok (.Leaf_Phrase [bytesOf "a b"], []) := by
  decide

/-- Claim C17, amended. `read_to_phrase_end` hands every content byte, escaped
or not, to `Aggregate_Phrase::push_back`, so the stems it returns depend only
on the content bytes and not on which of them were escaped: a space ends the
current stem (when that is not empty) whether or not a backslash precedes it.
The backslash only keeps a `'>'` or a backslash from being read as the
terminator or as an escape. -/
theorem phrase_stems_ignore_escaping (ts : List StemByte) (rest : List Nat) (fuel : Nat)
    (hv : ∀ t ∈ ts, t.Valid) (hf : ts.length < fuel) :
    read_to_phrase_end fuel (stemWire ts ++ PHRASE_END :: rest)
      = .ok ((stemBytes ts).foldl phrasePush [[]], rest)
    ∧ ∀ ts2 : List StemByte, (∀ t ∈ ts2, t.Valid) → stemBytes ts2 = stemBytes ts →
        read_to_phrase_end fuel (stemWire ts2 ++ PHRASE_END :: rest)
          = read_to_phrase_end fuel (stemWire ts ++ PHRASE_END :: rest) := by
  have h1 : read_to_phrase_end fuel (stemWire ts ++ PHRASE_END :: rest)
      = .ok ((stemBytes ts).foldl phrasePush [[]], rest) :=
    read_to_cond_stem phrasePush [[]] ts fuel rest hv hf
  refine ⟨h1, fun ts2 hv2 hb => ?_⟩
  have hl : ts2.length = ts.length := by
    have := congrArg List.length hb
    simpa [stemBytes] using this
  rw [h1]
  have h2 := read_to_cond_stem phrasePush [[]] ts2 fuel rest hv2 (by omega)
  rw [hb] at h2
  exact h2

theorem phrase_stems_ignore_escaping_witness :
    (∀ t ∈ [StemByte.mk false 97, StemByte.mk true 32, StemByte.mk false 98], t.Valid)
    ∧ [StemByte.mk false 97, StemByte.mk true 32, StemByte.mk false 98].length < 5
    ∧ read_to_phrase_end 5
        (stemWire [StemByte.mk false 97, StemByte.mk true 32, StemByte.mk false 98]
          ++ PHRASE_END :: [])
      = .ok ((stemBytes [StemByte.mk false 97, StemByte.mk true 32,
          StemByte.mk false 98]).foldl phrasePush [[]], []) :=
  ⟨by decide, by decide,
    (phrase_stems_ignore_escaping
      [StemByte.mk false 97, StemByte.mk true 32, StemByte.mk false 98] [] 5
      (by decide) (by decide)).1⟩

end Expr_AST

end SearchEngine

namespace SearchEngine

namespace Expr_AST

/-! ### More fuel does not change a result -/

theorem bind_mono {α β : Type} {x y : Outcome α} {g k : α → Outcome β}
    (hx : x ≠ .outOfFuel → y = x) (hg : ∀ a, g a ≠ .outOfFuel → k a = g a) :
    x.bind g ≠ .outOfFuel → y.bind k = x.bind g := by
  intro h
  cases x with
  | ok a =>
    rw [hx (by simp)]
    exact hg a h
  | throws => rw [hx (by simp)]; rfl
  | ub => rw [hx (by simp)]; rfl
  | outOfFuel => exact absurd rfl h

theorem loop_mono {A : Type} (push : A → Nat → A) :
    ∀ (fuel : Nat) (sock : List Nat) (w0 w1 : Nat) (aggr : A),
      read_to_cond.loop push fuel sock w0 w1 aggr ≠ .outOfFuel →
      read_to_cond.loop push (fuel + 1) sock w0 w1 aggr
        = read_to_cond.loop push fuel sock w0 w1 aggr := by
  intro fuel
  induction fuel with
  | zero => intro sock w0 w1 aggr h; exact absurd rfl h
  | succ f ih =>
    intro sock w0 w1 aggr h
    rw [read_to_cond.loop] at h ⊢
    conv_rhs => rw [read_to_cond.loop]
    simp only [] at h ⊢
    split_ifs at h ⊢ with h1 h2
    · exact ih _ _ _ _ h
    · rfl
    · exact ih _ _ _ _ h

theorem read_to_cond_mono {A : Type} (push : A → Nat → A) (init : A) (fuel : Nat)
    (sock : List Nat) (h : read_to_cond push init fuel sock ≠ .outOfFuel) :
    read_to_cond push init (fuel + 1) sock = read_to_cond push init fuel sock :=
  loop_mono push fuel _ _ _ _ h

theorem build_mono : ∀ (fuel : Nat) (sock : List Nat),
    build fuel sock ≠ .outOfFuel → build (fuel + 1) sock = build fuel sock := by
  intro fuel
  induction fuel with
  | zero => intro sock h; exact absurd rfl h
  | succ f ih =>
    intro sock h
    cases sock with
    | nil => rfl
    | cons c sock =>
      rw [build_succ_cons] at h ⊢
      conv_rhs => rw [build_succ_cons]
      split_ifs at h ⊢
      · exact bind_mono (ih sock) (fun p => bind_mono (ih p.2) (fun _ _ => rfl)) h
      · exact bind_mono (ih sock) (fun p => bind_mono (ih p.2) (fun _ _ => rfl)) h
      · exact bind_mono (ih sock) (fun p => bind_mono (ih p.2) (fun _ =>
          bind_mono (fun _ => rfl) (fun _ => bind_mono (fun _ => rfl) (fun _ _ => rfl)))) h
      · exact bind_mono (ih sock) (fun p => bind_mono (ih p.2) (fun _ _ => rfl)) h
      · exact bind_mono (read_to_cond_mono _ _ f sock) (fun _ _ => rfl) h
      · exact bind_mono (read_to_cond_mono _ _ f sock) (fun _ _ => rfl) h
      · rfl
      · rfl

theorem build_mono_le (fuel : Nat) (sock : List Nat) (h : build fuel sock ≠ .outOfFuel) :
    ∀ g, fuel ≤ g → build g sock = build fuel sock := by
  intro g hg
  induction g with
  | zero =>
    have : fuel = 0 := by omega
    subst this; rfl
  | succ g ih =>
    by_cases hfg : fuel = g + 1
    · subst hfg; rfl
    · have hle : fuel ≤ g := by omega
      have e := ih hle
      rw [← e]
      exact build_mono g sock (by rw [e]; exact h)

/-- `Expr_AST::Expr_AST` in terms of `build`. -/
theorem new_eq_bind (fuel : Nat) (sock : List Nat) :
    new fuel sock = (build fuel sock).bind fun p =>
      match p.2 with
      | [] => .ub
      | end_marker :: rest => if end_marker ≠ QUERY_END then .throws else .ok (p.1, rest) := by
  unfold new
  rcases build fuel sock with ⟨e, s⟩ | _ | _ | _
  · cases s <;> rfl
  · rfl
  · rfl
  · rfl

/-! ### Rejected and accepted streams -/

theorem build_bad_operator (b : Nat) (rest : List Nat) (fuel : Nat) (hb : b ∉ operatorBytes) :
    build (fuel + 1) (b :: rest) = .throws := by
  simp only [operatorBytes, List.mem_cons, List.mem_singleton, List.not_mem_nil, or_false,
    not_or] at hb
  obtain ⟨h1, h2, h3, h4, h5, h6, h7⟩ := hb
  rw [build_succ_cons]
  simp only [h1, h2, h3, h4, h5, h6, h7, if_false]

theorem build_binary_first_throws (op : Nat) (rest : List Nat) (fuel : Nat)
    (hop : op ∈ binaryOperators) (h : build fuel rest = .throws) :
    build (fuel + 1) (op :: rest) = .throws := by
  simp only [binaryOperators, List.mem_cons, List.mem_singleton, List.not_mem_nil,
    or_false] at hop
  rw [build_succ_cons, h]
  rcases hop with rfl | rfl | rfl | rfl
  · rw [if_pos rfl]; rfl
  · rw [if_neg (by decide), if_pos rfl]; rfl
  · rw [if_neg (by decide), if_neg (by decide), if_pos rfl]; rfl
  · rw [if_neg (by decide), if_neg (by decide), if_neg (by decide), if_pos rfl]; rfl

theorem build_binary_second_throws (op : Nat) (rest : List Nat) (fuel : Nat) (e : Expr)
    (rest1 : List Nat) (hop : op ∈ binaryOperators) (h1 : build fuel rest = .ok (e, rest1))
    (h2 : build fuel rest1 = .throws) :
    build (fuel + 1) (op :: rest) = .throws := by
  simp only [binaryOperators, List.mem_cons, List.mem_singleton, List.not_mem_nil,
    or_false] at hop
  rw [build_succ_cons, h1]
  simp only [Outcome.bind, h2]
  rcases hop with rfl | rfl | rfl | rfl
  · rw [if_pos rfl]
  · rw [if_neg (by decide), if_pos rfl]
  · rw [if_neg (by decide), if_neg (by decide), if_pos rfl]
  · rw [if_neg (by decide), if_neg (by decide), if_neg (by decide), if_pos rfl]

theorem build_reaches_bad_operator (s : List Nat) (h : ReachesBadOperator s) :
    ∃ f0, ∀ f, f0 ≤ f → build f s = .throws := by
  induction h with
  | here b rest hb =>
    refine ⟨1, fun f hf => ?_⟩
    obtain ⟨g, rfl⟩ : ∃ g, f = g + 1 := ⟨f - 1, by omega⟩
    exact build_bad_operator b rest g hb
  | first op rest hop _ ih =>
    obtain ⟨f0, h0⟩ := ih
    refine ⟨f0 + 1, fun f hf => ?_⟩
    obtain ⟨g, rfl⟩ : ∃ g, f = g + 1 := ⟨f - 1, by omega⟩
    exact build_binary_first_throws op rest g hop (h0 g (by omega))
  | second op rest fuel e rest1 hop hb _ ih =>
    obtain ⟨f0, h0⟩ := ih
    refine ⟨max fuel f0 + 1, fun f hf => ?_⟩
    obtain ⟨g, rfl⟩ : ∃ g, f = g + 1 := ⟨f - 1, by omega⟩
    have hg1 : fuel ≤ g := by omega
    have hg2 : f0 ≤ g := by omega
    have hb2 : build g rest = .ok (e, rest1) := by
      rw [build_mono_le fuel rest (by rw [hb]; simp) g hg1, hb]
    exact build_binary_second_throws op rest g e rest1 hop hb2 (h0 g hg2)

theorem read_step_be32 (a : Nat) (rest : List Nat) (ha : a < U32) :
    read_step (be32 a ++ STEP_DELIM :: rest) = .ok (a, rest) := by
  unfold be32 read_step U32 at *
  simp only [List.cons_append, List.nil_append, ne_eq, not_true_eq_false, if_false]
  congr 2
  omega

theorem expr_ne_null (t : QueryTree) : t.expr ≠ .null := by
  cases t <;> simp [QueryTree.expr]

/-- `build` on an expression of the grammar returns its tree and leaves what
follows the expression unread. -/
theorem build_wire (t : QueryTree) :
    t.Valid → ∀ (fuel : Nat) (rest : List Nat), t.wire.length < fuel →
      build fuel (t.wire ++ rest) = .ok (t.expr, rest) := by
  induction t with
  | andExpr l r ihl ihr =>
    intro hv fuel rest hf
    obtain ⟨f, rfl⟩ : ∃ f, fuel = f + 1 := ⟨fuel - 1, by omega⟩
    simp only [QueryTree.wire, List.length_cons, List.length_append] at hf
    simp only [QueryTree.wire, List.cons_append, List.append_assoc]
    rw [build_succ_cons, if_pos rfl, ihl hv.1 f _ (by omega)]
    simp only [Outcome.bind]
    rw [ihr hv.2 f _ (by omega)]
    rfl
  | orExpr l r ihl ihr =>
    intro hv fuel rest hf
    obtain ⟨f, rfl⟩ : ∃ f, fuel = f + 1 := ⟨fuel - 1, by omega⟩
    simp only [QueryTree.wire, List.length_cons, List.length_append] at hf
    simp only [QueryTree.wire, List.cons_append, List.append_assoc]
    rw [build_succ_cons, if_neg (by decide), if_pos rfl, ihl hv.1 f _ (by omega)]
    simp only [Outcome.bind]
    rw [ihr hv.2 f _ (by omega)]
    rfl
  | synOrExpr l r a b ihl ihr =>
    intro hv fuel rest hf
    obtain ⟨f, rfl⟩ : ∃ f, fuel = f + 1 := ⟨fuel - 1, by omega⟩
    simp only [QueryTree.wire, List.length_cons, List.length_append] at hf
    simp only [QueryTree.wire, List.cons_append, List.append_assoc, List.nil_append]
    rw [build_succ_cons, if_neg (by decide), if_neg (by decide), if_pos rfl,
      ihl hv.1 f _ (by omega)]
    simp only [Outcome.bind]
    rw [ihr hv.2.1 f _ (by omega)]
    simp only [Outcome.bind]
    rw [read_step_be32 a _ hv.2.2.1]
    simp only [Outcome.bind]
    rw [read_step_be32 b _ hv.2.2.2]
    simp only [Outcome.bind, expr_ne_null, false_and, if_false, QueryTree.expr]
  | notExpr l r ihl ihr =>
    intro hv fuel rest hf
    obtain ⟨f, rfl⟩ : ∃ f, fuel = f + 1 := ⟨fuel - 1, by omega⟩
    simp only [QueryTree.wire, List.length_cons, List.length_append] at hf
    simp only [QueryTree.wire, List.cons_append, List.append_assoc]
    rw [build_succ_cons, if_neg (by decide), if_neg (by decide), if_neg (by decide),
      if_pos rfl, ihl hv.1 f _ (by omega)]
    simp only [Outcome.bind]
    rw [ihr hv.2 f _ (by omega)]
    rfl
  | wordExpr stem =>
    intro hv fuel rest hf
    simp only [QueryTree.wire, List.length_cons, List.length_append, List.length_nil] at hf
    have hlen : stem.length ≤ (stemWire stem).length := by
      clear hv hf
      induction stem with
      | nil => simp
      | cons t ts ih =>
        have : stemWire (t :: ts) = t.wire ++ stemWire ts := by simp [stemWire]
        rw [this, List.length_append, List.length_cons]
        have : 1 ≤ t.wire.length := by
          unfold StemByte.wire; split_ifs <;> simp
        omega
    simp only [QueryTree.wire, List.cons_append, List.append_assoc, List.nil_append,
      QueryTree.expr]
    exact build_word stem fuel rest hv (by omega)
  | phraseExpr content =>
    intro hv fuel rest hf
    simp only [QueryTree.wire, List.length_cons, List.length_append, List.length_nil] at hf
    have hlen : content.length ≤ (stemWire content).length := by
      clear hv hf
      induction content with
      | nil => simp
      | cons t ts ih =>
        have : stemWire (t :: ts) = t.wire ++ stemWire ts := by simp [stemWire]
        rw [this, List.length_append, List.length_cons]
        have : 1 ≤ t.wire.length := by
          unfold StemByte.wire; split_ifs <;> simp
        omega
    simp only [QueryTree.wire, List.cons_append, List.append_assoc, List.nil_append,
      QueryTree.expr]
    exact build_phrase content fuel rest hv (by omega)

end Expr_AST

end SearchEngine

namespace SearchEngine

namespace Expr_AST

set_option maxRecDepth 100000 in
/-- Claim C18. Constructing an `Expr_AST` throws whenever the parse reads, in
operator position, a byte that is none of `'&'`, `'|'`, `'/'`, `'-'`, `'{'`,
`'<'`, `'>'` (at once or inside an operand of a binary operator), and whenever
`build` has returned and the next byte is not `'#'`; on the bytes of a
well-formed query followed by `'#'` the constructor returns the tree of the
query and leaves what follows the `'#'` unread. The fuel bounds the depth of
the parse and is enough above the length of the query. -/
theorem new_rejects_and_accepts :
    (∀ s, ReachesBadOperator s → ∃ f0, ∀ f, f0 ≤ f → new f s = .throws)
    ∧ (∀ fuel s e m rest, build fuel s = .ok (e, m :: rest) → m ≠ QUERY_END →
        new fuel s = .throws)
    ∧ (∀ t : QueryTree, t.Valid → ∀ fuel rest, t.wire.length < fuel →
        new fuel (t.wire ++ QUERY_END :: rest) = .ok (t.expr, rest)) := by
  refine ⟨fun s hs => ?_, fun fuel s e m rest hb hm => ?_, fun t hv fuel rest hf => ?_⟩
  · obtain ⟨f0, h0⟩ := build_reaches_bad_operator s hs
    refine ⟨f0, fun f hf => ?_⟩
    rw [new_eq_bind, h0 f hf]
    rfl
  · rw [new_eq_bind, hb]
    simp only [Outcome.bind, hm, ne_eq, not_false_eq_true, if_true]
  · rw [new_eq_bind, build_wire t hv fuel _ hf]
    simp only [Outcome.bind, ne_eq, not_true_eq_false, if_false]

set_option maxRecDepth 100000 in
theorem new_rejects_and_accepts_witness :
    (∃ f0, ∀ f, f0 ≤ f → new f (bytesOf "&\x7ba>x") = .throws)
    ∧ new 3 (bytesOf "\x7ba>x") = .throws
    ∧ new 40 (sampleQuery.wire ++ QUERY_END :: bytesOf "&") = .ok (sampleQuery.expr, bytesOf "&") :=
  ⟨new_rejects_and_accepts.1 (bytesOf "&\x7ba>x")
      (ReachesBadOperator.second AND (bytesOf "\x7ba>x") 3 (.Leaf_Word (bytesOf "a"))
        (bytesOf "x") (by decide) (by decide)
        (ReachesBadOperator.here 120 [] (by decide))),
   new_rejects_and_accepts.2.1 3 (bytesOf "\x7ba>x") (.Leaf_Word (bytesOf "a")) 120 []
      (by decide) (by decide),
   new_rejects_and_accepts.2.2 sampleQuery
      ⟨⟨(by decide : ∀ t ∈ [StemByte.mk false 97], t.Valid),
         (by decide : ∀ t ∈ [StemByte.mk false 97, StemByte.mk false 32,
            StemByte.mk false 98], t.Valid)⟩,
        ⟨(by decide : ∀ t ∈ [StemByte.mk false 98], t.Valid),
         (by decide : ∀ t ∈ [StemByte.mk true 62, StemByte.mk false 100], t.Valid)⟩,
        (by decide : 2 < U32), (by decide : 1 < U32)⟩ 40 (bytesOf "&")
      (by decide)⟩

/-- At the end of the stream the stem loop never leaves its plain-byte branch:
no fuel is enough. -/
theorem loop_plain_never_returns {A : Type} (push : A → Nat → A) :
    ∀ (fuel : Nat) (sock : List Nat) (w0 w1 : Nat) (aggr : A),
      (∀ b ∈ sock, b ≠ PHRASE_END ∧ b ≠ ESCAPE) →
      (w0 ≠ PHRASE_END ∧ w0 ≠ ESCAPE) → (w1 ≠ PHRASE_END ∧ w1 ≠ ESCAPE) →
      read_to_cond.loop push fuel sock w0 w1 aggr = .outOfFuel := by
  intro fuel
  induction fuel with
  | zero => intro sock w0 w1 aggr _ _ _; rfl
  | succ f ih =>
    intro sock w0 w1 aggr hs h0 h1
    rw [read_to_cond.loop]
    simp only []
    rw [if_neg h0.2, if_neg h0.1]
    cases sock with
    | nil =>
      simp only [recv1, peek1]
      exact ih [] w1 w1 (push aggr w0) hs h1 h1
    | cons b rest =>
      have hb := hs b (List.mem_cons_self _ _)
      simp only [recv1, peek1]
      exact ih rest b b (push aggr w0) (fun x hx => hs x (List.mem_cons_of_mem _ hx)) hb hb

theorem read_to_cond_plain_never_returns {A : Type} (push : A → Nat → A) (init : A)
    (fuel : Nat) (s : List Nat) (hs : ∀ b ∈ s, b ≠ PHRASE_END ∧ b ≠ ESCAPE) :
    read_to_cond push init fuel s = .outOfFuel := by
  unfold read_to_cond
  cases s with
  | nil =>
    simp only [recv1]
    exact loop_plain_never_returns push fuel [] 0 0 init hs (by decide) (by decide)
  | cons b rest =>
    simp only [recv1]
    exact loop_plain_never_returns push fuel rest b 0 init
      (fun x hx => hs x (List.mem_cons_of_mem _ hx)) (hs b (List.mem_cons_self _ _))
      (by decide)

/-- Claim C19, the divergence. When the stream ends inside a word, after `'{'`
and any bytes `s` that hold no `'>'` and no backslash (for example `'{' 'a'`),
constructing the `Expr_AST` never returns and never throws: `recv` returning 0
is not looked at, so `read_to_cond` keeps appending the stale window byte and
no amount of fuel lets the constructor finish. When the stream ends where an
operator byte is expected, `build` reads `char_op` without its having been
written. -/
theorem truncated_word_never_returns (s : List Nat)
    (hs : ∀ b ∈ s, b ≠ PHRASE_END ∧ b ≠ ESCAPE) (fuel : Nat) :
    new fuel (WORD_START :: s) = .outOfFuel ∧ new (fuel + 1) [] = .ub := by
  refine ⟨?_, rfl⟩
  rw [new_eq_bind]
  cases fuel with
  | zero => rfl
  | succ f =>
    rw [build_succ_cons]
    simp only [show WORD_START ≠ AND by decide, show WORD_START ≠ OR by decide,
      show WORD_START ≠ OR_SYN by decide, show WORD_START ≠ NOT by decide, if_false, if_true]
    unfold read_to_word_end
    rw [read_to_cond_plain_never_returns _ _ f s hs]
    rfl

theorem truncated_word_never_returns_witness :
    (∀ b ∈ [97], b ≠ PHRASE_END ∧ b ≠ ESCAPE)
    ∧ new 1000 (WORD_START :: [97]) = .outOfFuel :=
  ⟨by decide, (truncated_word_never_returns [97] (by decide) 1000).1⟩

set_option maxRecDepth 100000 in
/-- Claim C20 at its failing input. The stream `& > {a> #` is accepted: the
constructor returns an `Expr_AND` whose left child is null and whose right
child is `Word a`. Nothing is rejected before `Expr_AND::to_ISR` hands the
null child to `ISRAnd`, whose constructor asserts on it, so no iterator is
built over scenario S1. -/
theorem and_missing_operand_accepted :
    new 5 (bytesOf "&>\x7ba>#") = .ok (.AND .null (.Leaf_Word (bytesOf "a")), [])
    ∧ ¬ ∃ it, Expr.to_ISR segmentS1 (.AND .null (.Leaf_Word (bytesOf "a")))
          = some (some it) := by
  refine ⟨by decide, ?_⟩
  rintro ⟨it, h⟩
  have hnone : Expr.to_ISR segmentS1 (.AND .null (.Leaf_Word (bytesOf "a"))) = none := rfl
  rw [hnone] at h
  cases h

/-- What the parser does with a missing operand. A bare `'>'` in operand
position is read as a null operand, and an AND or OR node is built with it:
whenever `build` parses `sock` into `e` and leaves `rest`, then `'&' '>' sock`
and `'|' '>' sock` parse into `AND(null, e)` and `OR(null, e)` (and the
constructor returns that tree when `rest` starts with `'#'`), and `'&' sock`
and `'|' sock` parse into `AND(e, null)` and `OR(e, null)` when `rest` starts
with `'>'`. Only a synonym-or with both operands missing throws. -/
theorem missing_operand_builds_null_child (fuel : Nat) (sock rest : List Nat) (e : Expr)
    (h : build fuel sock = .ok (e, rest)) :
    build (fuel + 1) (AND :: PHRASE_END :: sock) = .ok (.AND .null e, rest)
    ∧ build (fuel + 1) (OR :: PHRASE_END :: sock) = .ok (.OR .null e, rest)
    ∧ (∀ tail, rest = QUERY_END :: tail →
        new (fuel + 1) (AND :: PHRASE_END :: sock) = .ok (.AND .null e, tail)
        ∧ new (fuel + 1) (OR :: PHRASE_END :: sock) = .ok (.OR .null e, tail))
    ∧ (∀ tail, rest = PHRASE_END :: tail →
        build (fuel + 1) (AND :: sock) = .ok (.AND e .null, tail)
        ∧ build (fuel + 1) (OR :: sock) = .ok (.OR e .null, tail))
    ∧ (∀ a b tail, a < U32 → b < U32 →
        build (fuel + 1) (OR_SYN :: PHRASE_END :: PHRASE_END ::
          (be32 a ++ STEP_DELIM :: (be32 b ++ STEP_DELIM :: tail))) = .throws) := by
  obtain ⟨f, rfl⟩ : ∃ f, fuel = f + 1 := by
    cases fuel with
    | zero => exact absurd h (by simp [build])
    | succ f => exact ⟨f, rfl⟩
  have hend : ∀ s, build (f + 1) (PHRASE_END :: s) = .ok (.null, s) := fun s => by
    rw [build_succ_cons]
    simp only [show PHRASE_END ≠ AND by decide, show PHRASE_END ≠ OR by decide,
      show PHRASE_END ≠ OR_SYN by decide, show PHRASE_END ≠ NOT by decide,
      show PHRASE_END ≠ WORD_START by decide, show PHRASE_END ≠ PHRASE_START by decide,
      if_false, if_true]
  have hand : build (f + 1 + 1) (AND :: PHRASE_END :: sock) = .ok (.AND .null e, rest) := by
    rw [build_succ_cons, if_pos rfl, hend]
    simp only [Outcome.bind, h]
  have hor : build (f + 1 + 1) (OR :: PHRASE_END :: sock) = .ok (.OR .null e, rest) := by
    rw [build_succ_cons, if_neg (by decide), if_pos rfl, hend]
    simp only [Outcome.bind, h]
  refine ⟨hand, hor, fun tail ht => ?_, fun tail ht => ?_, fun a b tail ha hb => ?_⟩
  · subst ht
    refine ⟨?_, ?_⟩
    · rw [new_eq_bind, hand]
      simp only [Outcome.bind, ne_eq, not_true_eq_false, if_false]
    · rw [new_eq_bind, hor]
      simp only [Outcome.bind, ne_eq, not_true_eq_false, if_false]
  · subst ht
    refine ⟨?_, ?_⟩
    · rw [build_succ_cons, if_pos rfl, h]
      simp only [Outcome.bind, hend]
    · rw [build_succ_cons, if_neg (by decide), if_pos rfl, h]
      simp only [Outcome.bind, hend]
  · rw [build_succ_cons, if_neg (by decide), if_neg (by decide), if_pos rfl, hend]
    simp only [Outcome.bind, hend]
    rw [read_step_be32 a _ ha]
    simp only [Outcome.bind]
    rw [read_step_be32 b _ hb]
    simp only [Outcome.bind, and_self, if_true]

set_option maxRecDepth 100000 in
theorem missing_operand_builds_null_child_witness :
    build 4 (bytesOf "\x7ba>#") = .ok (.Leaf_Word (bytesOf "a"), bytesOf "#")
    ∧ build 5 (AND :: PHRASE_END :: bytesOf "\x7ba>#")
        = .ok (.AND .null (.Leaf_Word (bytesOf "a")), bytesOf "#") :=
  ⟨by decide,
    (missing_operand_builds_null_child 4 (bytesOf "\x7ba>#") (bytesOf "#")
      (.Leaf_Word (bytesOf "a")) (by decide)).1⟩

end Expr_AST

end SearchEngine

namespace SearchEngine

namespace Expr_AST

theorem read_step_be32_delim (a d : Nat) (rest : List Nat) (ha : a < U32) :
    read_step (be32 a ++ d :: rest) = if d ≠ STEP_DELIM then .throws else .ok (a, rest) := by
  by_cases hd : d = STEP_DELIM
  · subst hd
    rw [read_step_be32 a rest ha]
    simp
  · unfold be32 read_step
    simp [hd]

theorem toInt32_of_lt (v : Nat) (h : v < 2147483648) : toInt32 v = (v : Int) := by
  unfold toInt32 U32
  have h1 : v % 4294967296 = v := Nat.mod_eq_of_lt (by omega)
  rw [h1, if_pos h]

/-- Claim C21. Let the two operands of a synonym-or parse (to `left` and
`right`, either of which may be null), and let the stream go on with a 4-byte
big-endian step `a`, a byte `d1`, a 4-byte big-endian step `b`, a byte `d2`.
Then `build` throws if and only if both operands are null or one of `d1`, `d2`
is not `';'`; when exactly one operand is null the result is the other operand
alone; and otherwise it is the `Expr_OR_SYN` node whose `advance_right` is `a`
and whose `advance_left` is `b`, each converted from `uint32_t` to `int` (the
same number below `2 ^ 31`). In every non-throwing case the stream is consumed
exactly through `d2`. -/
theorem build_synOr_spec (fuel : Nat) (sock s1 s2 rest : List Nat) (left right : Expr)
    (a b d1 d2 : Nat) (ha : a < U32) (hb : b < U32)
    (hl : build fuel sock = .ok (left, s1)) (hr : build fuel s1 = .ok (right, s2))
    (hs : s2 = be32 a ++ d1 :: (be32 b ++ d2 :: rest)) :
    (build (fuel + 1) (OR_SYN :: sock) = .throws ↔
        (left = .null ∧ right = .null) ∨ d1 ≠ STEP_DELIM ∨ d2 ≠ STEP_DELIM)
    ∧ (d1 = STEP_DELIM → d2 = STEP_DELIM → left = .null → right ≠ .null →
        build (fuel + 1) (OR_SYN :: sock) = .ok (right, rest))
    ∧ (d1 = STEP_DELIM → d2 = STEP_DELIM → left ≠ .null → right = .null →
        build (fuel + 1) (OR_SYN :: sock) = .ok (left, rest))
    ∧ (d1 = STEP_DELIM → d2 = STEP_DELIM → left ≠ .null → right ≠ .null →
        build (fuel + 1) (OR_SYN :: sock)
          = .ok (.OR_SYN left right (toInt32 a) (toInt32 b), rest))
    ∧ (a < 2147483648 → toInt32 a = (a : Int)) ∧ (b < 2147483648 → toInt32 b = (b : Int)) := by
  have hbuild : build (fuel + 1) (OR_SYN :: sock) =
      if d1 ≠ STEP_DELIM then .throws
      else if d2 ≠ STEP_DELIM then .throws
      else if left = .null ∧ right = .null then .throws
      else if left = .null then .ok (right, rest)
      else if right = .null then .ok (left, rest)
      else .ok (.OR_SYN left right (toInt32 a) (toInt32 b), rest) := by
    rw [build_succ_cons, if_neg (by decide), if_neg (by decide), if_pos rfl, hl]
    simp only [Outcome.bind, hr, hs]
    rw [read_step_be32_delim a d1 _ ha]
    by_cases h1 : d1 = STEP_DELIM
    · simp only [h1, ne_eq, not_true_eq_false, if_false, Outcome.bind]
      rw [read_step_be32_delim b d2 _ hb]
      by_cases h2 : d2 = STEP_DELIM
      · simp only [h2, ne_eq, not_true_eq_false, if_false, Outcome.bind]
      · simp only [h2, ne_eq, not_false_eq_true, if_true, Outcome.bind]
    · simp only [h1, ne_eq, not_false_eq_true, if_true, Outcome.bind]
  refine ⟨?_, ?_, ?_, ?_, toInt32_of_lt a, toInt32_of_lt b⟩
  · rw [hbuild]
    by_cases h1 : d1 = STEP_DELIM
    · by_cases h2 : d2 = STEP_DELIM
      · by_cases hn : left = .null ∧ right = .null
        · simp [h1, h2, hn]
        · simp only [h1, h2, ne_eq, not_true_eq_false, if_false, hn, or_false]
          by_cases hl0 : left = .null
          · simp [hl0]
          · by_cases hr0 : right = .null
            · simp [hl0, hr0]
            · simp [hl0, hr0]
      · simp [h1, h2]
    · simp [h1]
  · intro h1 h2 hl0 hr0
    rw [hbuild]
    simp [h1, h2, hl0, hr0]
  · intro h1 h2 hl0 hr0
    rw [hbuild]
    simp [h1, h2, hl0, hr0]
  · intro h1 h2 hl0 hr0
    rw [hbuild]
    simp [h1, h2, hl0, hr0]

set_option maxRecDepth 100000 in
theorem build_synOr_spec_witness :
    build 4 (bytesOf "\x7ba>\x7bb>") = .ok (.Leaf_Word (bytesOf "a"), bytesOf "\x7bb>")
    ∧ build 5 (OR_SYN :: (bytesOf "\x7ba>\x7bb>" ++ (be32 2 ++ STEP_DELIM :: (be32 1 ++ STEP_DELIM :: []))))
        = .ok (.OR_SYN (.Leaf_Word (bytesOf "a")) (.Leaf_Word (bytesOf "b")) 2 1, []) := by
  refine ⟨by decide, ?_⟩
  have h := (build_synOr_spec 4
    (bytesOf "\x7ba>\x7bb>" ++ (be32 2 ++ STEP_DELIM :: (be32 1 ++ STEP_DELIM :: [])))
    (bytesOf "\x7bb>" ++ (be32 2 ++ STEP_DELIM :: (be32 1 ++ STEP_DELIM :: [])))
    (be32 2 ++ STEP_DELIM :: (be32 1 ++ STEP_DELIM :: [])) []
    (.Leaf_Word (bytesOf "a")) (.Leaf_Word (bytesOf "b")) 2 1 STEP_DELIM STEP_DELIM
    (by decide) (by decide) (by decide) (by decide) rfl).2.2.2.1 rfl rfl (by decide) (by decide)
  rw [h]
  decide

end Expr_AST

end SearchEngine

namespace SearchEngine

namespace ISRWord

/-! ## `GetOccurrencesInCurrDoc` restores the cursor -/

theorem sameButCursor_refl (w : ISRWord) : SameButCursor w w := ⟨rfl, rfl, rfl, rfl⟩

theorem sameButCursor_trans {a b c : ISRWord} (h1 : SameButCursor a b) (h2 : SameButCursor b c) :
    SameButCursor a c :=
  ⟨h1.1.trans h2.1, h1.2.1.trans h2.2.1, h1.2.2.1.trans h2.2.2.1, h1.2.2.2.trans h2.2.2.2⟩

/-- `Seek` writes only the cursor fields. -/
theorem seek_sameButCursor (w w1 : ISRWord) (T : Nat) (r : Option Post)
    (h : w.Seek T = some (r, w1)) : SameButCursor w1 w := by
  unfold ISRWord.Seek at h
  split_ifs at h
  · cases h; exact sameButCursor_refl _
  · cases hs : w.plist.SeekWordPost T w.currLocation w.data with
    | none => rw [hs] at h; cases h
    | some x =>
      obtain ⟨wp, cur, data⟩ := x
      rw [hs] at h
      cases h
      exact ⟨rfl, rfl, rfl, rfl⟩

/-- `NextInternal` writes only the cursor fields. -/
theorem nextInternal_sameButCursor (w w1 : ISRWord) (r : Option Post)
    (h : w.NextInternal = some (r, w1)) : SameButCursor w1 w := by
  unfold ISRWord.NextInternal at h
  cases hs : w.plist.GetCurrentWord w.data w.currLocation with
  | none => rw [hs] at h; cases h
  | some x =>
    obtain ⟨wp, data, cur⟩ := x
    rw [hs] at h
    cases h
    exact ⟨rfl, rfl, rfl, rfl⟩

theorem loop_sameButCursor (e : Nat) :
    ∀ (fuel : Nat) (word : Option Post) (w : ISRWord) (count c : Nat) (w1 : ISRWord),
      GetOccurrencesInCurrDoc.loop e fuel word w count = some (c, w1) → SameButCursor w1 w := by
  intro fuel
  induction fuel with
  | zero => intro word w count c w1 h; cases h
  | succ f ih =>
    intro word w count c w1 h
    unfold GetOccurrencesInCurrDoc.loop at h
    cases word with
    | none => cases h; exact sameButCursor_refl _
    | some p =>
      simp only [] at h
      split_ifs at h
      · cases hn : w.NextInternal with
        | none => rw [hn] at h; cases h
        | some x =>
          obtain ⟨word2, w2⟩ := x
          rw [hn] at h
          exact sameButCursor_trans (ih _ _ _ _ _ h) (nextInternal_sameButCursor w w2 word2 hn)
      · cases h; exact sameButCursor_refl _

/-- Writing the saved cursor fields back gives the saved state. -/
theorem restore_eq (w w2 : ISRWord) (h : SameButCursor w2 w) :
    ({ w2 with data := w.data, currLocation := w.currLocation, current := w.current } : ISRWord)
      = w := by
  obtain ⟨h1, h2, h3, h4⟩ := h
  cases w
  cases w2
  simp only [] at h1 h2 h3 h4
  subst h1; subst h2; subst h3; subst h4
  rfl

/-- Whenever `GetOccurrencesInCurrDoc` returns, the iterator is in the state it
was called in. -/
theorem getOccurrences_frame (fuel : Nat) (w : ISRWord) (s e count : Nat) (w1 : ISRWord)
    (h : w.GetOccurrencesInCurrDoc fuel s e = some (count, w1)) : w1 = w := by
  unfold GetOccurrencesInCurrDoc at h
  split_ifs at h
  · cases h; rfl
  · simp only [] at h
    cases hs : ({ w with current := none } : ISRWord).Seek s with
    | none => rw [hs] at h; cases h
    | some x =>
      obtain ⟨word, w2⟩ := x
      rw [hs] at h
      simp only [] at h
      cases hl : GetOccurrencesInCurrDoc.loop e fuel word w2 0 with
      | none => rw [hl] at h; cases h
      | some y =>
        obtain ⟨c, w3⟩ := y
        rw [hl] at h
        cases h
        have h1 : SameButCursor w2 ({ w with current := none } : ISRWord) :=
          seek_sameButCursor _ w2 s word hs
        have h2 : SameButCursor ({ w with current := none } : ISRWord) w := ⟨rfl, rfl, rfl, rfl⟩
        exact restore_eq w w3
          (sameButCursor_trans (loop_sameButCursor e fuel word w2 0 _ w3 hl)
            (sameButCursor_trans h1 h2))

/-- `NextInternal` from the boundary before post `k`. -/
theorem nextInternal_at (w : ISRWord) (posts : List WordPost) (k : Nat)
    (h : WordCursorAt w posts k) :
    ∃ w1, w.NextInternal = some (posts[k]?.map Post.word, w1)
      ∧ WordCursorAt w1 posts (min (k + 1) posts.length) := by
  unfold ISRWord.NextInternal SerializedPostingList.GetCurrentWord
  rw [h.list.size, h.list.data, h.data, h.loc]
  rcases Nat.lt_or_ge k posts.length with hlt | hge
  · have hq : posts[k]? = some posts[k] := List.getElem?_eq_getElem hlt
    obtain ⟨hdes, hoff⟩ := deserialize_at posts k _ hq h.list.sorted.2.1
    rw [if_pos (wordOffset_lt posts k hlt), hdes]
    simp only [hoff, hq, Option.map_some']
    refine ⟨_, rfl, ?_⟩
    rw [Nat.min_eq_left hlt]
    exact { list := h.list, le := hlt, data := rfl,
            loc := (wordLocation_succ posts k _ hq).symm }
  · have hkn : k = posts.length := Nat.le_antisymm h.le hge
    subst hkn
    have hoff := wordOffset_of_ge posts posts.length (Nat.le_refl _)
    rw [if_neg (by rw [hoff]; exact Nat.lt_irrefl _)]
    simp only [List.getElem?_eq_none (Nat.le_refl posts.length), Option.map_none']
    refine ⟨_, rfl, ?_⟩
    rw [Nat.min_eq_right (Nat.le_succ _)]
    exact { list := h.list, le := Nat.le_refl _, data := rfl, loc := rfl }

/-- The counting loop returns when the fuel exceeds the number of posts left. -/
theorem loop_returns (posts : List WordPost) (e : Nat) :
    ∀ (fuel k : Nat) (word : Option Post) (w : ISRWord) (count : Nat),
      WordCursorAt w posts k → (word = none ∨ k ≤ posts.length) →
      (k = posts.length → word ≠ none → posts.length + 1 - k < fuel) →
      posts.length + 1 - k < fuel + (if word = none then 1 else 0) →
      ∃ c w1, GetOccurrencesInCurrDoc.loop e fuel word w count = some (c, w1) := by
  intro fuel
  induction fuel with
  | zero =>
    intro k word w count h _ _ hf
    have := h.le
    split_ifs at hf <;> omega
  | succ f ih =>
    intro k word w count h hw hk hf
    unfold GetOccurrencesInCurrDoc.loop
    cases word with
    | none => exact ⟨_, _, rfl⟩
    | some p =>
      simp only []
      split_ifs with hle
      · obtain ⟨w1, hn, h1⟩ := nextInternal_at w posts k h
        rw [hn]
        simp only []
        simp only [reduceCtorEq, if_false, Nat.add_zero] at hf
        rcases Nat.lt_or_ge k posts.length with hlt | hge
        · rw [Nat.min_eq_left hlt] at h1
          refine ih (k + 1) _ w1 _ h1 (Or.inr hlt) (fun _ _ => by omega) ?_
          split_ifs <;> omega
        · have hkn : k = posts.length := Nat.le_antisymm h.le hge
          subst hkn
          rw [Nat.min_eq_right (Nat.le_succ _)] at h1
          rw [List.getElem?_eq_none (Nat.le_refl _)]
          simp only [Option.map_none']
          refine ih posts.length none w1 _ h1 (Or.inl rfl) (fun _ hne => absurd rfl hne) ?_
          simp only [if_true]
          omega
      · exact ⟨_, _, rfl⟩

theorem cursorAt_of_ok (w : ISRWord) (posts : List WordPost) (h : WordCursorOK w posts) :
    ∃ k, WordCursorAt w posts k := by
  obtain ⟨k, hk, hd, hl, _⟩ := h.cursor
  exact ⟨k, { list := h.list, le := hk, data := hd, loc := hl }⟩

/-- On a written list `GetOccurrencesInCurrDoc` returns. -/
theorem getOccurrences_returns (w : ISRWord) (posts : List WordPost)
    (h : WordCursorOK w posts) (s e fuel : Nat) (hf : posts.length + 1 < fuel) :
    ∃ count w1, w.GetOccurrencesInCurrDoc fuel s e = some (count, w1) := by
  unfold GetOccurrencesInCurrDoc
  split_ifs
  · exact ⟨_, _, rfl⟩
  · simp only []
    have h0 : WordCursorOK ({ w with current := none } : ISRWord) posts := by
      obtain ⟨k, hk, hd, hl, _⟩ := h.cursor
      exact { list := h.list, cursor := ⟨k, hk, hd, hl, Or.inl rfl⟩ }
    obtain ⟨w1, hs, hok1, _, _, _⟩ := word_seek_spec _ posts h0 s
    rw [hs]
    simp only []
    obtain ⟨k, hk⟩ := cursorAt_of_ok w1 posts hok1
    obtain ⟨c, w2, hl⟩ := loop_returns posts e fuel k (w1.current.map Post.word) w1 0 hk
      (Or.inr hk.le) (fun _ _ => by omega) (by split_ifs <;> omega)
    rw [hl]
    exact ⟨_, _, rfl⟩

/-- Claim C27. `ISRWord::GetOccurrencesInCurrDoc` restores the cursor exactly.
For every word iterator state, every range and every call that returns, the
state after the call (current post, running location `currLocation`, read
position `data`, and everything else) is the state before it; on an iterator
over a written posting list the call does return, given fuel above the number
of posts plus one; so the following `Next`, `NextInternal` and `Seek` calls
return what they would have returned without it. -/
theorem getOccurrencesInCurrDoc_restores (w : ISRWord) (posts : List WordPost)
    (h : WordCursorOK w posts) (startLocation endLocation fuel : Nat)
    (hf : posts.length + 1 < fuel) :
    (∃ count, w.GetOccurrencesInCurrDoc fuel startLocation endLocation = some (count, w))
    ∧ (∀ (w0 : ISRWord) (s e f count : Nat) (w1 : ISRWord),
        w0.GetOccurrencesInCurrDoc f s e = some (count, w1) →
        w1 = w0 ∧ w1.Next = w0.Next ∧ w1.NextInternal = w0.NextInternal
          ∧ ∀ T, w1.Seek T = w0.Seek T) := by
  refine ⟨?_, ?_⟩
  · obtain ⟨count, w1, hr⟩ := getOccurrences_returns w posts h startLocation endLocation fuel hf
    have := getOccurrences_frame fuel w startLocation endLocation count w1 hr
    subst this
    exact ⟨count, hr⟩
  · intro w0 s e f count w1 hr
    have := getOccurrences_frame f w0 s e count w1 hr
    subst this
    exact ⟨rfl, rfl, rfl, fun _ => rfl⟩

set_option maxRecDepth 100000 in
/-- The word `b` of scenario S2 (Locations 2, 6, 12) counted in `doc1 = [6, 10]`
from a fresh iterator: one occurrence, and the iterator is unchanged. -/
theorem getOccurrencesInCurrDoc_restores_witness :
    (wordIterator [2, 6, 12] [⟨1, 5, 0⟩, ⟨6, 10, 1⟩, ⟨11, 14, 2⟩]).GetOccurrencesInCurrDoc 5 6 10
        = some (1, wordIterator [2, 6, 12] [⟨1, 5, 0⟩, ⟨6, 10, 1⟩, ⟨11, 14, 2⟩])
    ∧ ∃ count,
      (wordIterator [2, 6, 12] [⟨1, 5, 0⟩, ⟨6, 10, 1⟩, ⟨11, 14, 2⟩]).GetOccurrencesInCurrDoc 5 6 10
        = some (count, wordIterator [2, 6, 12] [⟨1, 5, 0⟩, ⟨6, 10, 1⟩, ⟨11, 14, 2⟩]) :=
  ⟨by decide,
    (getOccurrencesInCurrDoc_restores _ (postsAt [2, 6, 12])
      (freshWord_ok _ _ (wordIterator_fresh [2, 6, 12] _ (by decide) (by decide)))
      6 10 5 (by decide)).1⟩

end ISRWord

end SearchEngine

namespace SearchEngine

/-! ## Phrase iterators: one match per document that contains the phrase -/

theorem termsBelow_mono (B B1 : Nat) (h : B ≤ B1) :
    ∀ (ts : List ISRWord) (ls : List (List WordPost)) (i : Nat),
      TermsBelow B i ts ls → TermsBelow B1 i ts ls := by
  intro ts
  induction ts with
  | nil =>
    intro ls i hb
    cases ls with
    | nil => trivial
    | cons l ls => exact hb.elim
  | cons t ts ih =>
    intro ls i hb
    cases ls with
    | nil => exact hb.elim
    | cons l ls =>
      obtain ⟨hok, ⟨Ti, hTi, hcur⟩, hrest⟩ := hb
      exact ⟨hok, ⟨Ti, by omega, hcur⟩, ih ls (i + 1) hrest⟩

theorem termsBelow_of_fresh :
    ∀ (ts ts1 : List ISRWord) (ls : List (List WordPost)) (f i : Nat),
      List.Forall₂ (fun t l => WordCursorOK t l ∧ t.current = none) ts ls →
      ∃ ts1, ISRPhrase.forEachTerm (ISR.Next f) ts = some ts1 ∧ TermsBelow 0 i ts1 ls := by
  intro ts
  induction ts with
  | nil =>
    intro _ ls f i h
    cases h
    exact ⟨[], rfl, trivial⟩
  | cons t ts ih =>
    intro x ls f i h
    cases h with
    | cons ht hrest =>
      rename_i l ls1
      obtain ⟨hok, hnone⟩ := ht
      obtain ⟨t1, hseek, hok1, _, _, hcur⟩ := word_seek_spec t l hok 0
      have hnext : t.Next = some (t1.current.map Post.word, t1) := by
        unfold ISRWord.Next
        rw [hnone]
        exact hseek
      obtain ⟨ts1, hfe, htb⟩ := ih x ls1 f (i + 1) hrest
      refine ⟨t1 :: ts1, ?_, hok1, ⟨0, Nat.zero_le _, ?_⟩, htb⟩
      · unfold ISRPhrase.forEachTerm
        simp only [isr_word_next, hnext, hfe]
      · rw [hcur, hnone]
        rfl

theorem alignedFrom_iff : ∀ (lists : List (List WordPost)) (i L : Nat),
    alignedFrom i lists L = true ↔
      ∀ j posts, lists[j]? = some posts → ∃ q ∈ posts, q.startLocation = L + (i + j) := by
  intro lists
  induction lists with
  | nil => intro i L; simp [alignedFrom]
  | cons l ls ih =>
    intro i L
    simp only [alignedFrom, Bool.and_eq_true, List.any_eq_true, decide_eq_true_eq, ih]
    constructor
    · rintro ⟨⟨q, hq, hqs⟩, hrest⟩ j posts hj
      cases j with
      | zero =>
        simp only [List.getElem?_cons_zero, Option.some.injEq] at hj
        subst hj
        exact ⟨q, hq, by omega⟩
      | succ j =>
        simp only [List.getElem?_cons_succ] at hj
        obtain ⟨x, hx, hxs⟩ := hrest j posts hj
        exact ⟨x, hx, by omega⟩
    · intro h
      refine ⟨?_, fun j posts hj => ?_⟩
      · obtain ⟨q, hq, hqs⟩ := h 0 l (by simp)
        exact ⟨q, hq, by omega⟩
      · obtain ⟨x, hx, hxs⟩ := h (j + 1) posts (by simpa using hj)
        exact ⟨x, hx, by omega⟩

theorem phraseAligned_iff (lists : List (List WordPost)) (L : Nat) :
    PhraseAligned lists L ↔ alignedFrom 0 lists L = true := by
  rw [alignedFrom_iff]
  unfold PhraseAligned
  constructor
  · intro h j posts hj
    obtain ⟨q, hq, hqs⟩ := h j posts hj
    exact ⟨q, hq, by omega⟩
  · intro h j posts hj
    obtain ⟨q, hq, hqs⟩ := h j posts hj
    exact ⟨q, hq, by omega⟩

theorem phraseAligned_cons (l0 : List WordPost) (ls : List (List WordPost)) (L : Nat) :
    PhraseAligned (l0 :: ls) L ↔
      (∃ q ∈ l0, q.startLocation = L)
        ∧ ∀ j posts, ls[j]? = some posts → ∃ q ∈ posts, q.startLocation = L + (1 + j) := by
  unfold PhraseAligned
  constructor
  · intro h
    refine ⟨?_, fun j posts hj => ?_⟩
    · obtain ⟨q, hq, hqs⟩ := h 0 l0 (by simp)
      exact ⟨q, hq, by omega⟩
    · obtain ⟨q, hq, hqs⟩ := h (j + 1) posts (by simpa using hj)
      exact ⟨q, hq, by omega⟩
  · rintro ⟨⟨q, hq, hqs⟩, hrest⟩ j posts hj
    cases j with
    | zero =>
      simp only [List.getElem?_cons_zero, Option.some.injEq] at hj
      subst hj
      exact ⟨q, hq, by omega⟩
    | succ j =>
      simp only [List.getElem?_cons_succ] at hj
      obtain ⟨x, hx, hxs⟩ := hrest j posts hj
      exact ⟨x, hx, by omega⟩

/-- The first post at or after `T` stands at `T` exactly when the list has a
post at `T`. -/
theorem firstPostGE_at (T : Nat) (l : List WordPost)
    (hs : (l.map WordPost.startLocation).Pairwise (· < ·)) :
    (∃ q ∈ l, q.startLocation = T) ↔ ∃ c, firstPostGE T l = some c ∧ c.startLocation = T := by
  constructor
  · rintro ⟨q, hq, hqs⟩
    obtain ⟨c, hc, hle⟩ := firstPostGE_le T l hs q hq (by omega)
    have := (firstPostGE_some T l c hc).2
    exact ⟨c, hc, by omega⟩
  · rintro ⟨c, hc, hcs⟩
    exact ⟨c, (firstPostGE_some T l c hc).1, hcs⟩

/-- The alignment loop of `ISRPhrase::AdvanceToMatch` returns, reports a match
exactly when every term it covers has a post at its expected Location, and
leaves every term on the first post at or after a threshold below the next
round. -/
theorem alignTerms_complete (f base : Nat) :
    ∀ (ts : List ISRWord) (ls : List (List WordPost)) (i : Nat),
      TermsBelow base i ts ls → base + i < U32 →
      ∃ m ts1, ISRPhrase.alignTerms f base i ts = some (m, ts1)
        ∧ TermsBelow (base + 1) i ts1 ls
        ∧ (m = true ↔
            ∀ j posts, ls[j]? = some posts → ∃ q ∈ posts, q.startLocation = base + (i + j)) := by
  intro ts
  induction ts with
  | nil =>
    intro ls i hb _
    cases ls with
    | nil => exact ⟨true, [], rfl, trivial, by simp⟩
    | cons l ls => exact hb.elim
  | cons t ts ih =>
    intro ls i hb hlt
    cases ls with
    | nil => exact hb.elim
    | cons l ls =>
      obtain ⟨hok, ⟨Ti, hTi, hcur⟩, hrest⟩ := hb
      obtain ⟨t1, hseek, hok1, _, _, hcur1⟩ := word_seek_spec t l hok ((base + i) % U32)
      rw [Nat.mod_eq_of_lt hlt] at hseek hcur1
      rw [hcur, seekCurrent_firstPostGE Ti (base + i) l hTi] at hcur1
      have hsorted := hok.list.sorted.1
      have hat := firstPostGE_at (base + i) l hsorted
      unfold ISRPhrase.alignTerms
      simp only [isr_word_seek, Nat.mod_eq_of_lt hlt, hseek, isr_word_getCurrentPost]
      have hhead : ∃ Tj, Tj ≤ base + 1 + i ∧ t1.current = firstPostGE Tj l :=
        ⟨base + i, by omega, hcur1⟩
      cases hc : t1.current with
      | none =>
        simp only [Option.map_none', Bool.false_eq_true, if_false]
        refine ⟨false, _, rfl, ⟨hok1, hhead, termsBelow_mono base (base + 1) (by omega) ts ls _ hrest⟩,
          ?_⟩
        constructor
        · intro h; cases h
        · intro h
          obtain ⟨c, hc1, _⟩ := hat.mp (by
            obtain ⟨q, hq, hqs⟩ := h 0 l (by simp)
            exact ⟨q, hq, by omega⟩)
          rw [← hcur1, hc] at hc1
          cases hc1
      | some c =>
        simp only [Option.map_some', Post.GetStartLocation]
        by_cases heq : c.startLocation = base + i
        · simp only [heq, decide_True, if_true]
          obtain ⟨hcm, hno⟩ := wordCursor_current_mem t1 l hok1 c hc
          obtain ⟨m, ts1, hal, htb, hiff⟩ := ih ls (i + 1) hrest (by omega)
          rw [hal]
          refine ⟨m, t1 :: ts1, rfl, ⟨hok1, hhead, htb⟩, ?_⟩
          rw [hiff]
          constructor
          · intro h j posts hj
            cases j with
            | zero =>
              simp only [List.getElem?_cons_zero, Option.some.injEq] at hj
              subst hj
              exact ⟨c, hcm, by omega⟩
            | succ j =>
              simp only [List.getElem?_cons_succ] at hj
              obtain ⟨x, hx, hxs⟩ := h j posts hj
              exact ⟨x, hx, by omega⟩
          · intro h j posts hj
            obtain ⟨x, hx, hxs⟩ := h (j + 1) posts (by simpa using hj)
            exact ⟨x, hx, by omega⟩
        · simp only [heq, decide_False, Bool.false_eq_true, if_false]
          refine ⟨false, _, rfl,
            ⟨hok1, hhead, termsBelow_mono base (base + 1) (by omega) ts ls _ hrest⟩, ?_⟩
          constructor
          · intro h; cases h
          · intro h
            obtain ⟨c1, hc1, hc1s⟩ := hat.mp (by
              obtain ⟨q, hq, hqs⟩ := h 0 l (by simp)
              exact ⟨q, hq, by omega⟩)
            rw [← hcur1, hc] at hc1
            cases hc1
            exact absurd hc1s heq

/-- The match loop of `ISRPhrase`: with the first term on its first post at or
after `T` and the other terms not ahead of it, the loop returns the first post
of the first term at or after `T` at which the whole phrase stands, or
`nullptr` when there is none. -/
theorem phrase_advance_complete (l0 : List WordPost) (ls : List (List WordPost))
    (docs : List DocumentPost) (f : Nat) :
    ∀ (k : Nat) (p : ISRPhrase ISRWord) (t0 : ISRWord) (ts : List ISRWord) (T : Nat),
      p.terms = t0 :: ts → WordSync t0 l0 docs → t0.current = firstPostGE T l0 →
      TermsBelow T 1 ts ls → l0.length - countBelow T l0 < k →
      ∃ res p1, ISRPhrase.AdvanceToMatch f k p = some (res, p1)
        ∧ ((res = none ∧ ∀ L, T ≤ L → ¬ PhraseAligned (l0 :: ls) L)
          ∨ ∃ c t1 ts1, res = some (Post.word c)
              ∧ p1 = { terms := t1 :: ts1, current := some (Post.word c) }
              ∧ WordSync t1 l0 docs ∧ t1.current = some c ∧ c ∈ l0 ∧ T ≤ c.startLocation
              ∧ PhraseAligned (l0 :: ls) c.startLocation
              ∧ (∀ L, T ≤ L → PhraseAligned (l0 :: ls) L → c.startLocation ≤ L)
              ∧ TermsBelow (c.startLocation + 1) 1 ts1 ls) := by
  intro k
  induction k with
  | zero => intro p t0 ts T _ _ _ _ hk; omega
  | succ k ih =>
    intro p t0 ts T hterms hs0 hc0 htb hk
    have hsorted := hs0.word.list.sorted.1
    unfold ISRPhrase.AdvanceToMatch
    simp only [hterms, isr_word_getCurrentPost]
    cases hc : t0.current with
    | none =>
      simp only [Option.map_none']
      refine ⟨none, _, rfl, Or.inl ⟨rfl, ?_⟩⟩
      intro L hL hal
      obtain ⟨⟨q, hq, hqs⟩, _⟩ := (phraseAligned_cons l0 ls L).mp hal
      rw [hc] at hc0
      have := firstPostGE_none T l0 hc0.symm q hq
      omega
    | some c =>
      simp only [Option.map_some', Post.GetStartLocation]
      have hfc : firstPostGE T l0 = some c := by rw [← hc0, hc]
      obtain ⟨hcm, hTc⟩ := firstPostGE_some T l0 c hfc
      obtain ⟨_, hno⟩ := wordCursor_current_mem t0 l0 hs0.word c hc
      obtain ⟨m, ts1, hal, htb1, hiff⟩ := alignTerms_complete f c.startLocation ts ls 1
        (termsBelow_mono T c.startLocation hTc ts ls 1 htb) (by omega)
      rw [hal]
      have hfirst : ∀ L, T ≤ L → PhraseAligned (l0 :: ls) L → c.startLocation ≤ L := by
        intro L hL hpa
        obtain ⟨⟨q, hq, hqs⟩, _⟩ := (phraseAligned_cons l0 ls L).mp hpa
        obtain ⟨c1, hc1, hle⟩ := firstPostGE_le T l0 hsorted q hq (by omega)
        rw [hfc] at hc1
        cases hc1
        omega
      cases m with
      | true =>
        simp only []
        refine ⟨_, _, rfl, Or.inr ⟨c, t0, ts1, ?_, ?_, hs0, hc, hcm, hTc, ?_, hfirst, htb1⟩⟩
        · rfl
        · rfl
        · exact (phraseAligned_cons l0 ls c.startLocation).mpr ⟨⟨c, hcm, rfl⟩, hiff.mp rfl⟩
      | false =>
        simp only [isr_word_seek]
        obtain ⟨t01, hseek, hs01, hcur01⟩ := word_seek_sync t0 l0 docs hs0
          (c.startLocation + 1) (fun h0 => by rw [hc] at h0; cases h0)
        rw [Nat.mod_eq_of_lt hno, hseek]
        simp only []
        rw [hc, seekCurrent_of_lt (c.startLocation + 1) l0 c (by omega)] at hcur01
        obtain ⟨hadv, hlen⟩ := countBelow_advance T (c.startLocation + 1) l0 hsorted c hfc
          (by omega)
        obtain ⟨res, p1, hrun, hres⟩ := ih { p with terms := t01 :: ts1 } t01 ts1
          (c.startLocation + 1) rfl hs01 hcur01 htb1 (by omega)
        refine ⟨res, p1, hrun, ?_⟩
        have hnot : ¬ PhraseAligned (l0 :: ls) c.startLocation := by
          intro hpa
          have := hiff.mpr ((phraseAligned_cons l0 ls c.startLocation).mp hpa).2
          cases this
        have hstep : ∀ L, T ≤ L → PhraseAligned (l0 :: ls) L → c.startLocation + 1 ≤ L := by
          intro L hL hpa
          have h1 := hfirst L hL hpa
          rcases Nat.eq_or_lt_of_le h1 with h2 | h2
          · rw [← h2] at hpa; exact absurd hpa hnot
          · exact h2
        rcases hres with ⟨hn, hnone⟩ | ⟨c1, t1, ts2, hr, hp1, hs1, hc1, hcm1, hT1, hpa1, hmin1, htb2⟩
        · exact Or.inl ⟨hn, fun L hL hpa => hnone L (hstep L hL hpa) hpa⟩
        · exact Or.inr ⟨c1, t1, ts2, hr, hp1, hs1, hc1, hcm1, by omega, hpa1,
            fun L hL hpa => hmin1 L (hstep L hL hpa) hpa, htb2⟩

end SearchEngine

namespace SearchEngine

/-- A phrase that starts inside a document lies wholly inside it, because no
post stands on the last Location of a document. -/
theorem phrase_inside (lists : List (List WordPost)) (docs : List DocumentPost)
    (hgap : ∀ posts ∈ lists, NoPostAtDocEnd posts docs) (D : DocumentPost) (hD : D ∈ docs)
    (L : Nat) (hal : PhraseAligned lists L) (hL : L ≤ D.endLocation) :
    ∀ i, i < lists.length → L + i ≤ D.endLocation := by
  intro i
  induction i with
  | zero => intro _; exact hL
  | succ i ih =>
    intro hi
    have hi1 : i < lists.length := by omega
    have hle := ih hi1
    obtain ⟨q, hq, hqs⟩ := hal i lists[i] (List.getElem?_eq_getElem hi1)
    have := hgap lists[i] (List.getElem_mem hi1) q hq D hD
    omega

theorem phraseIn_iff (l0 : List WordPost) (ls : List (List WordPost)) (D : DocumentPost) :
    phraseIn (l0 :: ls) D = true ↔
      ∃ p ∈ l0, inDoc D p.startLocation ∧ PhraseAligned (l0 :: ls) p.startLocation
        ∧ p.startLocation + ls.length ≤ D.endLocation := by
  unfold phraseIn
  simp only [List.any_eq_true, Bool.and_eq_true, decide_eq_true_eq, List.length_cons,
    Nat.add_sub_cancel, phraseAligned_iff]
  constructor
  · rintro ⟨p, hp, ⟨h1, h2⟩, h3⟩
    exact ⟨p, hp, h1, h2, h3⟩
  · rintro ⟨p, hp, h1, h2, h3⟩
    exact ⟨p, hp, ⟨h1, h2⟩, h3⟩

/-- One `ISRPhrase::Next` call on a phrase over word iterators: it returns the
first match in the first document at or after `T` that contains the phrase, or
`nullptr` when there is none. -/
theorem phrase_next_step (l0 : List WordPost) (ls : List (List WordPost))
    (docs : List DocumentPost) (hdocs : DocPostsOK docs) (hin : InDocs l0 docs)
    (hgap : ∀ posts ∈ l0 :: ls, NoPostAtDocEnd posts docs) (fuel : Nat)
    (hfuel : l0.length < fuel) (T : Nat) (p : ISRPhrase ISRWord)
    (hready : PhraseReady l0 ls docs T p)
    (hb : ∀ E ∈ docs, T ≤ E.endLocation → T ≤ E.startLocation) :
    ∃ res p1, ISR.Next fuel p = some (res, p1) ∧
      ((res = none ∧ ∀ D ∈ docs, phraseIn (l0 :: ls) D = true → ¬ T ≤ D.startLocation) ∨
       (∃ q D, res = some q ∧ D ∈ docs ∧ phraseIn (l0 :: ls) D = true ∧ T ≤ D.startLocation
          ∧ PhraseMatchIn (l0 :: ls) q D ∧
          (∀ E ∈ docs, phraseIn (l0 :: ls) E = true → T ≤ E.startLocation →
            D.startLocation ≤ E.startLocation) ∧
          PhraseReady l0 ls docs (D.endLocation + 1) p1)) := by
  obtain ⟨t0, ts, hterms, hs0, hcase⟩ := hready
  -- the call runs the match loop from the first post at or after `T`
  have hloop : ∃ (p2 : ISRPhrase ISRWord) (t02 : ISRWord) (ts2 : List ISRWord),
      ISR.Next fuel p = ISRPhrase.AdvanceToMatch fuel fuel p2 ∧ p2.terms = t02 :: ts2
        ∧ WordSync t02 l0 docs ∧ t02.current = firstPostGE T l0 ∧ TermsBelow T 1 ts2 ls := by
    rcases hcase with ⟨hT, hcur, hc0, hd0, hfresh⟩ | ⟨D, c, hD, hcur, hc0, hinD, hT, htb⟩
    · subst hT
      obtain ⟨t01, hn0, hcur0, hs01⟩ := word_next_fresh t0 l0 docs hs0 hc0 hd0
      obtain ⟨ts1, hfe, htb⟩ := termsBelow_of_fresh ts ts ls fuel 1 hfresh
      refine ⟨{ p with terms := t01 :: ts1 }, t01, ts1, ?_, rfl, hs01, hcur0, htb⟩
      show ISRPhrase.Next fuel p = _
      unfold ISRPhrase.Next
      simp only [hterms, hcur]
      have : ISRPhrase.forEachTerm (ISR.Next fuel) (t0 :: ts) = some (t01 :: ts1) := by
        unfold ISRPhrase.forEachTerm
        simp only [isr_word_next, hn0, hfe]
      rw [this]
    · obtain ⟨t01, D1, hgd, hD1, hinD1, hc01, hs01⟩ :=
        word_getCurrentDoc_sync t0 l0 docs hs0 hin c hc0
      have e1 : D1 = D := inDoc_unique docs hdocs D1 D hD1 hD _ hinD1 hinD
      subst e1
      have hnw := hs0.doc.list.noWrap D1 hD
      obtain ⟨t02, hseek, hs02, hcur02⟩ := word_seek_sync t01 l0 docs hs01
        (D1.endLocation + 1) (fun h0 => by rw [hc01] at h0; cases h0)
      rw [hc01, seekCurrent_of_lt (D1.endLocation + 1) l0 c (by have := hinD.2; omega)]
        at hcur02
      subst hT
      refine ⟨{ p with terms := t02 :: ts }, t02, ts, ?_, rfl, hs02, hcur02, htb⟩
      show ISRPhrase.Next fuel p = _
      unfold ISRPhrase.Next
      simp only [hterms, hcur, isr_word_getCurrentDoc, hgd, Post.GetEndLocation,
        Nat.mod_eq_of_lt hnw]
      unfold ISRPhrase.Seek
      have hcond : ¬ ((({ terms := t01 :: ts, current := some (Post.word c) } :
            ISRPhrase ISRWord).current.isSome = true)
          ∧ ({ terms := t01 :: ts, current := some (Post.word c) } :
              ISRPhrase ISRWord).GetStartLocation ≥ D1.endLocation + 1) := by
        rintro ⟨_, h2⟩
        have h3 : ({ terms := t01 :: ts, current := some (Post.word c) } :
            ISRPhrase ISRWord).GetStartLocation = c.startLocation := rfl
        rw [h3] at h2
        have := hinD.2
        omega
      rw [if_neg hcond]
      simp only [isr_word_seek, hseek]
  obtain ⟨p2, t02, ts2, hnext, hterms2, hs2, hcur2, htb2⟩ := hloop
  obtain ⟨res, p1, hrun, hres⟩ := phrase_advance_complete l0 ls docs fuel fuel p2 t02 ts2 T
    hterms2 hs2 hcur2 htb2 (by have := countBelow_le T l0; omega)
  refine ⟨res, p1, by rw [hnext]; exact hrun, ?_⟩
  rcases hres with ⟨hn, hnone⟩ | ⟨c, t1, ts1, hr, hp1, hs1, hc1, hcm, hTc, hpa, hmin, htb1⟩
  · refine Or.inl ⟨hn, ?_⟩
    intro D _ hsel hTD
    obtain ⟨q, _, hqD, hqa, _⟩ := (phraseIn_iff l0 ls D).mp hsel
    exact hnone q.startLocation (by have := hqD.1; omega) hqa
  · obtain ⟨D, hD, hinD⟩ := hin c hcm
    have hse := hdocs.2.1 D hD
    have hinside := phrase_inside (l0 :: ls) docs hgap D hD c.startLocation hpa hinD.2
      ls.length (by simp)
    have hsel : phraseIn (l0 :: ls) D = true :=
      (phraseIn_iff l0 ls D).mpr ⟨c, hcm, hinD, hpa, hinside⟩
    refine Or.inr ⟨Post.word c, D, hr, hD, hsel, hb D hD (by have := hinD.2; omega), ?_, ?_, ?_⟩
    · refine ⟨c, rfl, ⟨l0, by simp, hcm⟩, hpa, hinD, ?_⟩
      simp only [List.length_cons, Nat.add_sub_cancel]
      exact ⟨by have := hinD.1; omega, hinside⟩
    · intro E hE hselE hTE
      obtain ⟨q, _, hqE, hqa, _⟩ := (phraseIn_iff l0 ls E).mp hselE
      have hle := hmin q.startLocation (by have := hqE.1; omega) hqa
      rcases docs_apart docs hdocs D E hD hE with h | h | h
      · rw [h]
      · omega
      · have := hqE.2; have := hinD.1; omega
    · subst hp1
      exact ⟨t1, ts1, rfl, hs1, Or.inr ⟨D, c, hD, rfl, hc1, hinD, rfl,
        termsBelow_mono (c.startLocation + 1) (D.endLocation + 1)
          (by have := hinD.2; omega) ts1 ls 1 htb1⟩⟩

set_option maxRecDepth 100000 in
/-- Claim C29, as stated, fails on a segment in which a post stands on the last
Location of a document. The documents are `[1, 2]` and `[3, 4]`, `a` has its
post at Location 2 and `b` at Location 3: every post lies in a document range,
no document contains `a b`, and the phrase iterator of `a b` over fresh word
iterators reports the match at Location 2 that straddles the two documents
(`ISRPhrase::AdvanceToMatch` compares Locations only). -/
theorem phrase_reports_straddling_match :
    DocPostsOK [⟨1, 2, 0⟩, ⟨3, 4, 1⟩]
    ∧ InDocs (postsAt [2]) [⟨1, 2, 0⟩, ⟨3, 4, 1⟩] ∧ InDocs (postsAt [3]) [⟨1, 2, 0⟩, ⟨3, 4, 1⟩]
    ∧ phraseDocs [postsAt [2], postsAt [3]] [⟨1, 2, 0⟩, ⟨3, 4, 1⟩] = []
    ∧ callStarts 5 [Call.next, Call.next]
        (ISRPhrase.new [wordIterator [2] [⟨1, 2, 0⟩, ⟨3, 4, 1⟩],
                        wordIterator [3] [⟨1, 2, 0⟩, ⟨3, 4, 1⟩]])
        = some [some 2, none] := by
  refine ⟨by decide, by decide, by decide, by decide, by decide⟩

/-- Claim C29 (amended). For a phrase iterator over fresh word iterators on a
well-formed written segment in which no post stands on the last Location of a
document (every post lies in a document range; `Index::Insert` leaves the last
two Locations of every document without a post), successive
`ISRPhrase::Next` calls return posts up to the first `nullptr`, and these posts
are exactly one match per document that contains the phrase terms at
consecutive Locations, in ascending document order: the results match the list
of such documents one to one, each result being a post of the first term at
which the phrase stands wholly inside its document, so no such document is
skipped and no other document is reported. -/
theorem phrase_next_matching_docs (lists : List (List WordPost)) (docs : List DocumentPost)
    (terms : List ISRWord) (fuel n : Nat)
    (hfresh : List.Forall₂ FreshWord terms lists)
    (hdoc : ∀ t ∈ terms, FreshDoc t.isr_doc docs) (hdocs : DocPostsOK docs)
    (hin : ∀ posts ∈ lists, InDocs posts docs)
    (hgap : ∀ posts ∈ lists, NoPostAtDocEnd posts docs)
    (hn : docs.length ≤ n) (hfuel : ∀ posts ∈ lists, posts.length < fuel) :
    ∃ results s, nextUntilNone fuel n (ISRPhrase.new terms) = some (results, s)
      ∧ List.Forall₂ (PhraseMatchIn lists) results (phraseDocs lists docs) := by
  cases hfresh with
  | nil =>
    refine ⟨[], ISRPhrase.new [], ?_, ?_⟩
    · cases n <;> rfl
    · have : phraseDocs [] docs = [] := by
        unfold phraseDocs phraseIn
        simp
      rw [this]
      exact List.Forall₂.nil
  | cons h0 hrest =>
    rename_i t0 l0 ts ls
    obtain ⟨hs0, hc0, hd0⟩ := fresh_sync t0 l0 docs h0 (hdoc t0 (List.mem_cons_self _ _))
    have htail : List.Forall₂ (fun t l => WordCursorOK t l ∧ t.current = none) ts ls :=
      List.Forall₂.imp (fun w posts h => ⟨freshWord_ok w posts h, h.2.2.2⟩) hrest
    exact nextUntilNone_select docs hdocs (phraseIn (l0 :: ls)) (PhraseMatchIn (l0 :: ls))
      (PhraseReady l0 ls docs) fuel
      (fun T s hr hb =>
        phrase_next_step l0 ls docs hdocs (hin l0 (List.mem_cons_self _ _)) hgap fuel
          (hfuel l0 (List.mem_cons_self _ _)) T s hr hb)
      docs 0 (ISRPhrase.new (t0 :: ts)) n
      ⟨t0, ts, rfl, hs0, Or.inl ⟨rfl, rfl, hc0, hd0, htail⟩⟩
      (fun _ _ _ => Nat.zero_le _) (fun _ h => h) hdocs.1 (fun _ _ => Nat.zero_le _)
      (fun _ hD _ _ => hD) hn

set_option maxRecDepth 100000 in
/-- The phrase `<a b>` over `doc0 = "a b c"`, `doc1 = "b c d"`, `doc2 = "a b"`
(scenario S2): the documents that contain it are `doc0` and `doc2`, and the
calls return one match in each, at Locations 1 and 11. -/
theorem phrase_next_matching_docs_witness :
    phraseDocs [postsAt [1, 11], postsAt [2, 6, 12]] [⟨1, 5, 0⟩, ⟨6, 10, 1⟩, ⟨11, 14, 2⟩]
        = [⟨1, 5, 0⟩, ⟨11, 14, 2⟩]
    ∧ callStarts 4 [Call.next, Call.next, Call.next]
        (ISRPhrase.new [wordIterator [1, 11] [⟨1, 5, 0⟩, ⟨6, 10, 1⟩, ⟨11, 14, 2⟩],
                        wordIterator [2, 6, 12] [⟨1, 5, 0⟩, ⟨6, 10, 1⟩, ⟨11, 14, 2⟩]])
        = some [some 1, some 11, none]
    ∧ ∃ results s,
        nextUntilNone 4 3
          (ISRPhrase.new [wordIterator [1, 11] [⟨1, 5, 0⟩, ⟨6, 10, 1⟩, ⟨11, 14, 2⟩],
                          wordIterator [2, 6, 12] [⟨1, 5, 0⟩, ⟨6, 10, 1⟩, ⟨11, 14, 2⟩]])
          = some (results, s)
        ∧ List.Forall₂ (PhraseMatchIn [postsAt [1, 11], postsAt [2, 6, 12]]) results
            (phraseDocs [postsAt [1, 11], postsAt [2, 6, 12]]
              [⟨1, 5, 0⟩, ⟨6, 10, 1⟩, ⟨11, 14, 2⟩]) :=
  ⟨by decide, by decide,
    phrase_next_matching_docs [postsAt [1, 11], postsAt [2, 6, 12]]
      [⟨1, 5, 0⟩, ⟨6, 10, 1⟩, ⟨11, 14, 2⟩] _ 4 3
      (List.Forall₂.cons (wordIterator_fresh [1, 11] _ (by decide) (by decide))
        (List.Forall₂.cons (wordIterator_fresh [2, 6, 12] _ (by decide) (by decide))
          List.Forall₂.nil))
      (by
        intro t ht
        simp only [List.mem_cons, List.mem_singleton, List.not_mem_nil, or_false] at ht
        rcases ht with rfl | rfl
        · exact wordIterator_freshDoc [1, 11] _ (by decide) (by decide)
        · exact wordIterator_freshDoc [2, 6, 12] _ (by decide) (by decide))
      (by decide) (by decide) (by decide) (by decide) (by decide)⟩

end SearchEngine

namespace SearchEngine

/-! ## `getFlattenedTerms` -/

theorem firstOccurrences_append (xs ys : List (List Nat × Bool)) :
    ∀ seen, firstOccurrences seen (xs ++ ys)
      = firstOccurrences seen xs ++ firstOccurrences (seenAfter seen xs) ys := by
  induction xs with
  | nil => intro seen; rfl
  | cons e xs ih =>
    intro seen
    simp only [List.cons_append, firstOccurrences, seenAfter]
    by_cases h : e.1 ∈ seen
    · simp only [h, if_true]; exact ih seen
    · simp only [h, if_false, List.cons_append]
      exact congrArg (fun t => e :: t) (ih (e.1 :: seen))

theorem seenAfter_append (xs ys : List (List Nat × Bool)) :
    ∀ seen, seenAfter seen (xs ++ ys) = seenAfter (seenAfter seen xs) ys := by
  induction xs with
  | nil => intro seen; rfl
  | cons e xs ih =>
    intro seen
    simp only [List.cons_append, seenAfter]
    by_cases h : e.1 ∈ seen
    · simp only [h, if_true]; exact ih seen
    · simp only [h, if_false]
      exact ih (e.1 :: seen)

/-- Marking occurrences does not change which of them are first. -/
theorem firstOccurrences_mark (xs : List (List Nat × Bool)) :
    ∀ seen, firstOccurrences seen (xs.map (fun e => (e.1, true)))
      = (firstOccurrences seen xs).map (fun e => (e.1, true)) := by
  induction xs with
  | nil => intro seen; rfl
  | cons e xs ih =>
    intro seen
    simp only [List.map_cons, firstOccurrences]
    by_cases h : e.1 ∈ seen
    · simp only [h, if_true]; exact ih seen
    · simp only [h, if_false, List.map_cons, ih]

theorem seenAfter_mark (xs : List (List Nat × Bool)) :
    ∀ seen, seenAfter seen (xs.map (fun e => (e.1, true))) = seenAfter seen xs := by
  induction xs with
  | nil => intro seen; rfl
  | cons e xs ih =>
    intro seen
    simp only [List.map_cons, seenAfter]
    by_cases h : e.1 ∈ seen
    · simp only [h, if_true]; exact ih seen
    · simp only [h, if_false, ih]

/-- Below a SynOr's right child every leaf is marked. -/
theorem leafKeys_true (n : ISRNode) :
    ∀ syn, n.leafKeys true = (n.leafKeys syn).map (fun e => (e.1, true)) := by
  induction n with
  | word w => intro syn; rfl
  | abstr a => intro syn; rfl
  | doc d => intro syn; rfl
  | or l r ihl ihr => intro syn; simp only [ISRNode.leafKeys, List.map_append, ← ihl, ← ihr]
  | and l r ihl ihr => intro syn; simp only [ISRNode.leafKeys, List.map_append, ← ihl, ← ihr]
  | synOr l r ihl ihr =>
    intro syn
    simp only [ISRNode.leafKeys, List.map_append, ← ihl, ← ihr true]
  | container l r ihl _ => intro syn; simp only [ISRNode.leafKeys, ← ihl]
  | phrase terms =>
    intro syn
    simp only [ISRNode.leafKeys]
    induction terms with
    | nil => rfl
    | cons t ts ih =>
      cases t with
      | word w => simp only [List.filterMap_cons, List.map_cons, ih]
      | abstr a => simp only [List.filterMap_cons, ih]

/-- The iterator pushed for an occurrence: a fresh one for the key, marked as
the occurrence is. -/
theorem setSynonym_setSynonym (b : Bool) (t : ISRWordPtr) :
    (t.setSynonym b).setSynonym true = t.setSynonym true := by
  cases t <;> rfl

theorem setSynonym_isSynonymWord (b : Bool) (t : ISRWordPtr) :
    (t.setSynonym b).isSynonymWord = b := by
  cases t <;> rfl

theorem openISRWord_setSynonym_false (blob : IndexBlob) (k : List Nat) :
    (blob.OpenISRWord k).setSynonym false = blob.OpenISRWord k := by
  unfold IndexBlob.OpenISRWord
  cases blob.Find k <;> rfl

/-- What `collectTerms` adds for a list of phrase terms. -/
theorem phrase_collect (blob : IndexBlob) (syn : Bool) (terms : List ISRWordPtr) :
    ∀ (acc : List ISRWordPtr × List (List Nat)),
      terms.foldl (fun a t => t.collectTerms blob a) acc
        = (acc.1 ++ (firstOccurrences acc.2 ((ISRNode.phrase terms).leafKeys syn)).map
              (fun e => blob.OpenISRWord e.1),
            seenAfter acc.2 ((ISRNode.phrase terms).leafKeys syn)) := by
  induction terms with
  | nil => intro acc; simp [ISRNode.leafKeys, firstOccurrences, seenAfter]
  | cons t ts ih =>
    intro acc
    simp only [List.foldl_cons]
    rw [ih]
    cases t with
    | abstr a =>
      simp only [ISRWordPtr.collectTerms, ISRNode.leafKeys, List.filterMap_cons]
    | word w =>
      simp only [ISRWordPtr.collectTerms, ISRNode.leafKeys, List.filterMap_cons,
        firstOccurrences, seenAfter]
      by_cases h : w.key ∈ acc.2
      · simp only [h, if_true]
      · simp only [h, if_false, List.map_cons, List.append_assoc, List.singleton_append]

/-- What `collectTerms` adds below a node: a fresh iterator for the first
occurrence of every key not yet seen; the marks are those set inside the node
(`syn = false` at the node itself). -/
theorem collectTerms_spec (blob : IndexBlob) (n : ISRNode) :
    ∀ (acc : List ISRWordPtr × List (List Nat)),
      n.collectTerms blob acc
        = (acc.1 ++ (firstOccurrences acc.2 (n.leafKeys false)).map
              (fun e => (blob.OpenISRWord e.1).setSynonym e.2),
            seenAfter acc.2 (n.leafKeys false)) := by
  induction n with
  | word w =>
    intro acc
    simp only [ISRNode.collectTerms, ISRWordPtr.collectTerms, ISRNode.leafKeys, firstOccurrences,
      seenAfter]
    by_cases h : w.key ∈ acc.2
    · simp [h]
    · simp [h, openISRWord_setSynonym_false]
  | abstr a => intro acc; simp [ISRNode.collectTerms, ISRNode.leafKeys, firstOccurrences, seenAfter]
  | doc d => intro acc; simp [ISRNode.collectTerms, ISRNode.leafKeys, firstOccurrences, seenAfter]
  | or l r ihl ihr =>
    intro acc
    simp only [ISRNode.collectTerms, ISRNode.leafKeys, ihl, ihr, firstOccurrences_append,
      seenAfter_append, List.map_append, List.append_assoc]
  | and l r ihl ihr =>
    intro acc
    simp only [ISRNode.collectTerms, ISRNode.leafKeys, ihl, ihr, firstOccurrences_append,
      seenAfter_append, List.map_append, List.append_assoc]
  | container l r ihl _ =>
    intro acc
    simp only [ISRNode.collectTerms, ISRNode.leafKeys, ihl]
  | phrase terms =>
    intro acc
    simp only [ISRNode.collectTerms]
    rw [phrase_collect blob false terms acc]
    congr 2
    apply List.map_congr_left
    intro e he
    have hflag : e.2 = false := by
      have hall : ∀ x ∈ (ISRNode.phrase terms).leafKeys false, x.2 = false := by
        intro x hx
        simp only [ISRNode.leafKeys, List.mem_filterMap] at hx
        obtain ⟨t, _, ht⟩ := hx
        cases t with
        | word w => simp only [Option.some.injEq] at ht; rw [← ht]
        | abstr a => cases ht
      have hsub : ∀ (xs : List (List Nat × Bool)) (seen : List (List Nat)),
          ∀ x ∈ firstOccurrences seen xs, x ∈ xs := by
        intro xs
        induction xs with
        | nil => intro seen x hx; simp [firstOccurrences] at hx
        | cons y ys ih =>
          intro seen x hx
          simp only [firstOccurrences] at hx
          split_ifs at hx
          · exact List.mem_cons_of_mem _ (ih seen x hx)
          · rcases List.mem_cons.mp hx with h1 | h1
            · rw [h1]; exact List.mem_cons_self _ _
            · exact List.mem_cons_of_mem _ (ih _ x h1)
      exact hall e (hsub _ _ e he)
    rw [hflag, openISRWord_setSynonym_false]
  | synOr l r ihl ihr =>
    intro acc
    simp only [ISRNode.collectTerms, ISRNode.leafKeys, ihl, ihr]
    rw [List.take_left, List.drop_left, firstOccurrences_append, seenAfter_append,
      leafKeys_true r false, firstOccurrences_mark, seenAfter_mark]
    simp only [List.map_append, List.map_map, List.append_assoc]
    congr 3
    apply List.map_congr_left
    intro e _
    simp only [Function.comp_apply, setSynonym_setSynonym]

theorem firstOccurrences_sublist (xs : List (List Nat × Bool)) :
    ∀ seen, (firstOccurrences seen xs).Sublist xs := by
  induction xs with
  | nil => intro seen; exact List.Sublist.slnil
  | cons e xs ih =>
    intro seen
    simp only [firstOccurrences]
    split_ifs
    · exact List.Sublist.cons _ (ih seen)
    · exact List.Sublist.cons₂ _ (ih _)

theorem firstOccurrences_first (xs : List (List Nat × Bool)) :
    ∀ seen, ∀ e ∈ firstOccurrences seen xs,
      e.1 ∉ seen ∧ ∃ pre post, xs = pre ++ e :: post ∧ e.1 ∉ pre.map Prod.fst := by
  induction xs with
  | nil => intro seen e he; simp [firstOccurrences] at he
  | cons x xs ih =>
    intro seen e he
    simp only [firstOccurrences] at he
    by_cases h : x.1 ∈ seen
    · rw [if_pos h] at he
      obtain ⟨h1, pre, post, hxs, hpre⟩ := ih seen e he
      refine ⟨h1, x :: pre, post, by rw [hxs]; rfl, ?_⟩
      simp only [List.map_cons, List.mem_cons, not_or]
      exact ⟨fun heq => h1 (heq ▸ h), hpre⟩
    · rw [if_neg h] at he
      rcases List.mem_cons.mp he with h1 | h1
      · subst h1
        exact ⟨h, [], xs, rfl, by simp⟩
      · obtain ⟨h2, pre, post, hxs, hpre⟩ := ih (x.1 :: seen) e h1
        simp only [List.mem_cons, not_or] at h2
        refine ⟨h2.2, x :: pre, post, by rw [hxs]; rfl, ?_⟩
        simp only [List.map_cons, List.mem_cons, not_or]
        exact ⟨h2.1, hpre⟩

theorem firstOccurrences_mem (xs : List (List Nat × Bool)) :
    ∀ seen k, k ∈ (firstOccurrences seen xs).map Prod.fst ↔ k ∈ xs.map Prod.fst ∧ k ∉ seen := by
  induction xs with
  | nil => intro seen k; simp [firstOccurrences]
  | cons x xs ih =>
    intro seen k
    simp only [firstOccurrences]
    by_cases h : x.1 ∈ seen
    · rw [if_pos h, ih]
      simp only [List.map_cons, List.mem_cons]
      constructor
      · rintro ⟨h1, h2⟩; exact ⟨Or.inr h1, h2⟩
      · rintro ⟨h1 | h1, h2⟩
        · exact absurd (h1 ▸ h) h2
        · exact ⟨h1, h2⟩
    · rw [if_neg h]
      simp only [List.map_cons, List.mem_cons, ih, not_or]
      constructor
      · rintro (h1 | ⟨h1, h2, h3⟩)
        · exact ⟨Or.inl h1, h1 ▸ h⟩
        · exact ⟨Or.inr h1, h3⟩
      · rintro ⟨h1 | h1, h2⟩
        · exact Or.inl h1
        · by_cases hk : k = x.1
          · exact Or.inl hk
          · exact Or.inr ⟨h1, hk, h2⟩

theorem firstOccurrences_nodup (xs : List (List Nat × Bool)) :
    ∀ seen, ((firstOccurrences seen xs).map Prod.fst).Nodup := by
  induction xs with
  | nil => intro seen; simp [firstOccurrences]
  | cons x xs ih =>
    intro seen
    simp only [firstOccurrences]
    by_cases h : x.1 ∈ seen
    · rw [if_pos h]; exact ih seen
    · rw [if_neg h]
      simp only [List.map_cons, List.nodup_cons]
      refine ⟨?_, ih _⟩
      intro hmem
      have := ((firstOccurrences_mem xs (x.1 :: seen) x.1).mp hmem).2
      exact this (List.mem_cons_self _ _)

/-- Claim C26. For every iterator tree, `ISR_Tree::getFlattenedTerms` returns
one word iterator (a fresh `OpenISRWord` of the key) per distinct leaf key
reachable from the root, in left-to-right order of first occurrence and with no
key repeated; the reachable leaves are the `ISRWord` leaves and phrase terms,
without the excluded subtree of a Container node and without absent terms
(`ISRAbstract`); and a returned term has its synonym flag set if and only if
that first occurrence lies in the right subtree of some SynOr node. -/
theorem getFlattenedTerms_spec (blob : IndexBlob) (root : ISRNode) :
    getFlattenedTerms blob (some root)
      = (firstOccurrences [] (root.leafKeys false)).map
          (fun e => (blob.OpenISRWord e.1).setSynonym e.2)
    ∧ (∀ e : List Nat × Bool, ((blob.OpenISRWord e.1).setSynonym e.2).isSynonymWord = e.2)
    ∧ ((firstOccurrences [] (root.leafKeys false)).map Prod.fst).Nodup
    ∧ (∀ k, k ∈ (firstOccurrences [] (root.leafKeys false)).map Prod.fst
        ↔ k ∈ (root.leafKeys false).map Prod.fst)
    ∧ (firstOccurrences [] (root.leafKeys false)).Sublist (root.leafKeys false)
    ∧ (∀ e ∈ firstOccurrences [] (root.leafKeys false),
        ∃ pre post, root.leafKeys false = pre ++ e :: post ∧ e.1 ∉ pre.map Prod.fst) := by
  refine ⟨?_, fun e => setSynonym_isSynonymWord _ _, firstOccurrences_nodup _ _, ?_,
    firstOccurrences_sublist _ _, fun e he => (firstOccurrences_first _ _ e he).2⟩
  · unfold getFlattenedTerms
    simp only [collectTerms_spec, List.nil_append]
  · intro k
    rw [firstOccurrences_mem]
    simp

set_option maxRecDepth 100000 in
/-- The sample tree: the terms are `a`, `b` (not synonyms) and `c` (a synonym);
the repeated `a`, the absent `x` and the excluded `d` add nothing. -/
theorem getFlattenedTerms_spec_witness :
    (getFlattenedTerms segmentS1 (some sampleTree)).map
        (fun t => (t.GetKey, t.isSynonymWord))
      = [(bytesOf "a", false), (bytesOf "b", false), (bytesOf "c", true)] := by
  rw [(getFlattenedTerms_spec segmentS1 sampleTree).1]
  decide

end SearchEngine

namespace SearchEngine

namespace Ranker

/-! ## Ranker: spans, URL match and the static cut-offs -/

set_option maxRecDepth 1000000 in
/-- Claim C23, the divergence. Around the occurrence of `r` at Location 20, with
the other terms `x` (only at 25, expected at 21) and `y` (at 22, expected at
22), `Ranker::FindBestSpan` returns `isExactPhrase = true` although `x` has no
occurrence at its expected offset: the flag is cleared at the top of every
round of the loop over the other terms, so only the last term counts. And
around the occurrence of `a` at Location 1 of scenario S1, with the other term
`b` at 2 as expected, it returns `isExactPhrase = false`: `expected -
CLOSE_THRESHOLD` wraps around below Location 10 and the seek finds nothing. -/
theorem findBestSpan_exact_reflects_last_term_only :
    (FindBestSpan 4 segmentSpan
        [wordIterator [25] [⟨11, 40, 0⟩], wordIterator [22] [⟨11, 40, 0⟩]] 20 [1, 2]).map
        (fun r => r.1.isExactPhrase) = some true
    ∧ (¬ ∃ q ∈ postsAt [25], q.startLocation = 20 + 1)
    ∧ (FindBestSpan 4 segmentS1 [wordIterator [2, 6] [⟨1, 5, 0⟩, ⟨6, 10, 1⟩]] 1 [1]).map
        (fun r => r.1.isExactPhrase) = some false
    ∧ ∃ q ∈ postsAt [2, 6], q.startLocation = 1 + 1 := by
  refine ⟨by decide, by decide, by decide, by decide⟩

theorem strFind_isSome_iff (pat : List Nat) :
    ∀ s : List Nat, (strFind s pat).isSome = true ↔ pat <:+: s := by
  intro s
  induction s with
  | nil =>
    unfold strFind
    by_cases h : pat = []
    · simp [h]
    · simp [h]
  | cons c s ih =>
    unfold strFind
    by_cases hp : pat.isPrefixOf (c :: s) = true
    · rw [if_pos hp]
      simp only [Option.isSome_some, true_iff]
      exact (List.isPrefixOf_iff_prefix.mp hp).isInfix
    · rw [if_neg hp]
      rw [Option.isSome_map', ih]
      have hnp : ¬ pat <+: c :: s := fun h => hp (List.isPrefixOf_iff_prefix.mpr h)
      constructor
      · intro h
        obtain ⟨a, b, hab⟩ := h
        exact ⟨c :: a, b, by simp [← hab]⟩
      · intro h
        rw [List.infix_cons_iff] at h
        rcases h with h | h
        · exact absurd h hnp
        · exact h

/-- The first loop of `ExtractDynamicFeatures` sets `hasUrlMatch` exactly when
the URL is not empty and the lower-cased key of some term, as `GetKey` returns
it, occurs in the lower-cased URL. -/
theorem scanTerms_hasUrlMatch (fuel start end_ : Nat) (urlStr : List Nat) :
    ∀ (terms : List ISRWord) (i : Nat) (st st1 : TermScan) (terms1 : List ISRWord),
      ExtractDynamicFeatures.scanTerms fuel start end_ urlStr terms i st = some (st1, terms1) →
      (st1.hasUrlMatch = true ↔
        st.hasUrlMatch = true
          ∨ (urlStr ≠ [] ∧ ∃ t ∈ terms, (c_str t.key).map tolower <:+: urlStr)) := by
  intro terms
  induction terms with
  | nil =>
    intro i st st1 terms1 h
    simp only [ExtractDynamicFeatures.scanTerms, Option.some.injEq, Prod.mk.injEq] at h
    rw [← h.1]
    simp
  | cons t ts ih =>
    intro i st st1 terms1 h
    unfold ExtractDynamicFeatures.scanTerms at h
    cases hocc : t.GetOccurrencesInCurrDoc fuel start end_ with
    | none => rw [hocc] at h; cases h
    | some r =>
      obtain ⟨freq, t1⟩ := r
      have hframe := ISRWord.getOccurrences_frame fuel t start end_ freq t1 hocc
      subst hframe
      rw [hocc] at h
      simp only [] at h
      split at h
      · cases h
      · rename_i st2 ts2 hrec
        simp only [Option.some.injEq, Prod.mk.injEq] at h
        rw [← h.1]
        rw [ih _ _ _ _ hrec]
        simp only [List.mem_cons, exists_eq_or_imp]
        by_cases hs : st.hasUrlMatch = true
        · simp [hs]
        · have hs2 : st.hasUrlMatch = false := by simpa using hs
          by_cases hu : urlStr = []
          · simp [hs2, hu]
          · by_cases hf : (strFind urlStr ((c_str t1.key).map tolower)).isSome = true
            · have := (strFind_isSome_iff _ urlStr).mp hf
              simp [hs2, hu, hf, this]
            · have hn : ¬ (c_str t1.key).map tolower <:+: urlStr :=
                fun hin => hf ((strFind_isSome_iff _ urlStr).mpr hin)
              simp [hs2, hu, hf, hn]

set_option maxRecDepth 1000000 in
/-- Claim C24, the divergence. In the title pass over the title-list term of
`cat`, whose key is `@cat`, and the URL `http://cat.com`,
`Ranker::ExtractDynamicFeatures` leaves `hasUrlMatch` false although the query
term `cat` is a substring of the URL: the key is compared with its `'@'`. The
flag is set only when the key itself occurs in the URL, as in `http://u@cat.com`;
in general the first loop sets it exactly when the URL is not empty and the
lower-cased key of some term of the list, `'@'` included, occurs in the
lower-cased URL. -/
theorem hasUrlMatch_compares_key_with_at_sign :
    (ExtractDynamicFeatures 5 segmentTitle 11 20 [titleTermCat]
        (some (bytesOf "http://cat.com"))).map (fun r => r.1.hasUrlMatch) = some false
    ∧ (bytesOf "cat").map tolower <:+: (bytesOf "http://cat.com").map tolower
    ∧ (ExtractDynamicFeatures 5 segmentTitle 11 20 [titleTermCat]
        (some (bytesOf "http://u@cat.com"))).map (fun r => r.1.hasUrlMatch) = some true
    ∧ ∀ (fuel start end_ : Nat) (urlStr : List Nat) (terms terms1 : List ISRWord)
        (st1 : TermScan),
        ExtractDynamicFeatures.scanTerms fuel start end_ urlStr terms 0
          { termFrequencies := [], hasUrlMatch := false, minFreq := U64 - 1,
            rarestTermIndex := none } = some (st1, terms1) →
        (st1.hasUrlMatch = true ↔
          urlStr ≠ [] ∧ ∃ t ∈ terms, (c_str t.key).map tolower <:+: urlStr) := by
  refine ⟨by decide, by decide, by decide, ?_⟩
  intro fuel start end_ urlStr terms terms1 st1 h
  rw [scanTerms_hasUrlMatch fuel start end_ urlStr terms 0 _ st1 terms1 h]
  simp

end Ranker

end SearchEngine

namespace SearchEngine

namespace Ranker

/-! ## The static cut-offs of the worker -/

/-- The insertion loop writes only entries it found and the new result. -/
theorem insertLoop_mem {S : Type} [LinearOrder S] (r : RankingResult S) :
    ∀ (i : Nat) (results out : List (RankingResult S)),
      InsertResult.loop r i results = some out → ∀ x ∈ out, x ∈ results ∨ x = r := by
  intro i
  induction i with
  | zero =>
    intro results out h x hx
    unfold InsertResult.loop at h
    split_ifs at h
    cases h
    rcases List.mem_or_eq_of_mem_set hx with h1 | h1
    · exact Or.inl h1
    · exact Or.inr h1
  | succ i ih =>
    intro results out h x hx
    unfold InsertResult.loop at h
    cases hp : results[i]? with
    | none => rw [hp] at h; cases h
    | some prev =>
      rw [hp] at h
      simp only [] at h
      have hprev : prev ∈ results := List.getElem?_mem hp
      split_ifs at h
      · rcases ih _ out h x hx with h1 | h1
        · rcases List.mem_or_eq_of_mem_set h1 with h2 | h2
          · exact Or.inl h2
          · exact Or.inl (h2 ▸ hprev)
        · exact Or.inr h1
      · cases h
        rcases List.mem_or_eq_of_mem_set hx with h1 | h1
        · exact Or.inl h1
        · exact Or.inr h1

/-- `InsertResult` leaves only entries that were there and the new result. -/
theorem insertResult_mem {S : Type} [LinearOrder S] (K : Nat) (results out : List (RankingResult S))
    (r : RankingResult S) (h : InsertResult K results r = some out) :
    ∀ x ∈ out, x ∈ results ∨ x = r := by
  intro x hx
  unfold InsertResult at h
  split_ifs at h
  · rcases insertLoop_mem r _ _ out h x hx with h1 | h1
    · rcases List.mem_append.mp h1 with h2 | h2
      · exact Or.inl h2
      · exact Or.inr (List.mem_singleton.mp h2)
    · exact Or.inr h1
  · cases hb : results.getLast? with
    | none => rw [hb] at h; cases h
    | some back =>
      rw [hb] at h
      simp only [] at h
      split_ifs at h
      · cases h; exact Or.inl hx
      · rcases insertLoop_mem r _ _ out h x hx with h1 | h1
        · rcases List.mem_or_eq_of_mem_set h1 with h2 | h2
          · exact Or.inl h2
          · exact Or.inr h2
        · exact Or.inr h1

variable {S : Type} [LinearOrderedField S]

/-- A document with a title of more than 40 words or a static score below 0.25
leaves the results and the count of processed documents unchanged. -/
theorem body_rejects (maxResults : Nat) (d : DocInputs S) (results : List (RankingResult S))
    (processedDocs : Nat) (h : d.titleLength > 40 ∨ d.staticScore < 0.25) :
    WorkerThread.body maxResults d results processedDocs = some (results, processedDocs, false) := by
  unfold WorkerThread.body
  by_cases ht : d.titleLength > 40
  · have hc : (d.titleLength : S) > OPTIMAL_TITLE_LENGTH * 4 := by
      unfold OPTIMAL_TITLE_LENGTH
      have h1 : ((40 : Nat) : S) < (d.titleLength : S) := Nat.cast_lt.mpr ht
      have h2 : ((40 : Nat) : S) = 10 * 4 := by norm_num
      rw [h2] at h1
      exact h1
    rw [if_pos hc]
  · have hs : d.staticScore < STATIC_THRESHOLD := by
      rcases h with h | h
      · exact absurd h ht
      · exact h
    split_ifs <;> rfl

/-- The body either goes on with nothing changed or calls `InsertResult` with a
result of the document. -/
theorem body_cases (maxResults : Nat) (d : DocInputs S) (results : List (RankingResult S))
    (n : Nat) :
    WorkerThread.body maxResults d results n = some (results, n, false)
    ∨ ∃ score : S, WorkerThread.body maxResults d results n
        = (InsertResult maxResults results { url := d.url, title := d.title, score := score }).map
            (fun rs => (rs, (n + 1) % U32, decide ((n + 1) % U32 ≥ MAX_DOCS))) := by
  unfold WorkerThread.body
  by_cases h1 : (d.titleLength : S) > OPTIMAL_TITLE_LENGTH * 4
  · rw [if_pos h1]; exact Or.inl rfl
  · rw [if_neg h1]
    by_cases h2 : d.staticScore < STATIC_THRESHOLD
    · rw [if_pos h2]; exact Or.inl rfl
    · rw [if_neg h2]
      simp only []
      by_cases h3 : d.dynamicScore < DYNAMIC_THRESHOLD
          ∧ (if d.dynamicScore < DYNAMIC_THRESHOLD then
              d.newScore * SYN_WEIGHT + d.dynamicScore * ORIGIN_WEIGHT
            else d.dynamicScore) < DYNAMIC_THRESHOLD
      · rw [if_pos h3]; exact Or.inl rfl
      · rw [if_neg h3]
        refine Or.inr ⟨(if d.dynamicScore < DYNAMIC_THRESHOLD then
                d.newScore * SYN_WEIGHT + d.dynamicScore * ORIGIN_WEIGHT
              else d.dynamicScore) * 0.75 + d.staticScore * 0.25, ?_⟩
        cases InsertResult maxResults results
          { url := d.url, title := d.title,
            score := (if d.dynamicScore < DYNAMIC_THRESHOLD then
                d.newScore * SYN_WEIGHT + d.dynamicScore * ORIGIN_WEIGHT
              else d.dynamicScore) * 0.75 + d.staticScore * 0.25 } <;> rfl

/-- Whatever the body inserts comes from a document that passed both static
cut-offs. -/
theorem body_mem (maxResults : Nat) (d : DocInputs S) (results out : List (RankingResult S))
    (n n1 : Nat) (b : Bool) (h : WorkerThread.body maxResults d results n = some (out, n1, b)) :
    ∀ x ∈ out, x ∈ results
      ∨ (x.url = d.url ∧ d.titleLength ≤ 40 ∧ ¬ d.staticScore < 0.25) := by
  intro x hx
  by_cases hrej : d.titleLength > 40 ∨ d.staticScore < 0.25
  · rw [body_rejects maxResults d results n hrej] at h
    cases h
    exact Or.inl hx
  · have hpass : d.titleLength ≤ 40 ∧ ¬ d.staticScore < 0.25 := by
      constructor
      · by_contra hc; exact hrej (Or.inl (by omega))
      · exact fun hc => hrej (Or.inr hc)
    rcases body_cases maxResults d results n with h1 | ⟨score, h1⟩
    · rw [h1] at h
      cases h
      exact Or.inl hx
    · rw [h1] at h
      cases hins : InsertResult maxResults results
          { url := d.url, title := d.title, score := score } with
      | none => rw [hins] at h; cases h
      | some rs =>
        rw [hins] at h
        simp only [Option.map_some', Option.some.injEq, Prod.mk.injEq] at h
        rw [← h.1] at hx
        rcases insertResult_mem maxResults results rs _ hins x hx with h2 | h2
        · exact Or.inl h2
        · exact Or.inr ⟨by rw [h2], hpass⟩

/-- Claim C22. In the per-document step of `Ranker::WorkerThread`, a document
whose `titleLength` is greater than 40 is not inserted into the results
whatever its static and dynamic scores, and neither is a document whose static
score is below 0.25: the step leaves the results and the count of processed
documents as they were and goes on to the next document. So over any run of
the loop, every result that was not there before comes from a document with
`titleLength <= 40` and a static score of at least 0.25. -/
theorem workerThread_static_cutoffs (maxResults : Nat) (d : DocInputs S)
    (results : List (RankingResult S)) (processedDocs : Nat)
    (h : d.titleLength > 40 ∨ d.staticScore < 0.25) :
    WorkerThread.body maxResults d results processedDocs = some (results, processedDocs, false)
    ∧ ∀ (docs : List (DocInputs S)) (results0 out : List (RankingResult S)) (n n1 : Nat),
        WorkerThread.loop maxResults docs results0 n = some (out, n1) →
        ∀ x ∈ out, x ∈ results0
          ∨ ∃ e ∈ docs, x.url = e.url ∧ e.titleLength ≤ 40 ∧ ¬ e.staticScore < 0.25 := by
  refine ⟨body_rejects maxResults d results processedDocs h, ?_⟩
  intro docs
  induction docs with
  | nil =>
    intro results0 out n n1 hrun x hx
    simp only [WorkerThread.loop, Option.some.injEq, Prod.mk.injEq] at hrun
    rw [← hrun.1] at hx
    exact Or.inl hx
  | cons e es ih =>
    intro results0 out n n1 hrun x hx
    unfold WorkerThread.loop at hrun
    cases hb : WorkerThread.body maxResults e results0 n with
    | none => rw [hb] at hrun; cases hrun
    | some r =>
      obtain ⟨results1, n2, b⟩ := r
      rw [hb] at hrun
      have hstep := body_mem maxResults e results0 results1 n n2 b hb
      cases b with
      | true =>
        simp only [Option.some.injEq, Prod.mk.injEq] at hrun
        rw [← hrun.1] at hx
        rcases hstep x hx with h1 | h1
        · exact Or.inl h1
        · exact Or.inr ⟨e, List.mem_cons_self _ _, h1⟩
      | false =>
        simp only [] at hrun
        rcases ih results1 out n2 n1 hrun x hx with h1 | ⟨e1, he1, h1⟩
        · rcases hstep x h1 with h2 | h2
          · exact Or.inl h2
          · exact Or.inr ⟨e, List.mem_cons_self _ _, h2⟩
        · exact Or.inr ⟨e1, List.mem_cons_of_mem _ he1, h1⟩

/-- A document with a title of 50 words, a static score of 0.9 and dynamic
scores of 1 leaves a buffer of ten unchanged. -/
theorem workerThread_static_cutoffs_witness :
    WorkerThread.body 10
        ({ url := "u", title := "t", titleLength := 50, staticScore := 9 / 10,
           dynamicScore := 1, newScore := 1 } : DocInputs ℚ)
        [{ url := "v", title := "s", score := 1 / 2 }] 3
      = some ([{ url := "v", title := "s", score := 1 / 2 }], 3, false) :=
  (workerThread_static_cutoffs 10
    ({ url := "u", title := "t", titleLength := 50, staticScore := 9 / 10,
       dynamicScore := 1, newScore := 1 } : DocInputs ℚ)
    [{ url := "v", title := "s", score := 1 / 2 }] 3 (Or.inl (by decide))).1

end Ranker

end SearchEngine

namespace SearchEngine

/-! ### Document ranges recorded by `Index::Insert` -/

namespace Index

theorem addPost_frame {idx idx1 : Index} {token : List Nat} {post : WordPost}
    (h : idx.addPost token post = some idx1) :
    idx1.urlTable = idx.urlTable ∧ idx1.MaximumLocation = idx.MaximumLocation := by
  unfold addPost at h
  split at h
  · obtain ⟨l, _, hl⟩ := Option.map_eq_some'.1 h
    rw [← hl]; exact ⟨rfl, rfl⟩
  · obtain ⟨l, _, hl⟩ := Option.map_eq_some'.1 h
    rw [← hl]; exact ⟨rfl, rfl⟩

theorem addTitle_frame {idx : Index} {token : List Nat} {next : Nat} {r : Index × Nat}
    (h : idx.AddTitle token next = some r) :
    r.1.urlTable = idx.urlTable ∧ r.1.MaximumLocation = idx.MaximumLocation := by
  unfold AddTitle at h
  obtain ⟨i, hi, hl⟩ := Option.map_eq_some'.1 h
  rw [← hl]; exact addPost_frame hi

theorem addWord_frame {idx : Index} {token : List Nat} {flags next : Nat} {r : Index × Nat}
    (h : idx.AddWord token flags next = some r) :
    r.1.urlTable = idx.urlTable ∧ r.1.MaximumLocation = idx.MaximumLocation := by
  unfold AddWord at h
  obtain ⟨i, hi, hl⟩ := Option.map_eq_some'.1 h
  rw [← hl]; exact addPost_frame hi

theorem addTitles_frame (stem : List Nat → List Nat) (tokens : List (List Nat)) :
    ∀ (idx : Index) (next : Nat) (r : Index × Nat),
      addTitles stem idx tokens next = some r →
      r.1.urlTable = idx.urlTable ∧ r.1.MaximumLocation = idx.MaximumLocation := by
  induction tokens with
  | nil =>
    intro idx next r h
    rw [addTitles, Option.some.injEq] at h
    rw [← h]; exact ⟨rfl, rfl⟩
  | cons token rest ih =>
    intro idx next r h
    rw [addTitles] at h
    by_cases hs : stem token = []
    · rw [if_pos hs] at h
      exact ih _ _ _ h
    · rw [if_neg hs] at h
      cases hp : idx.AddTitle (stem token) next with
      | none => rw [hp] at h; exact absurd h (by simp)
      | some r1 =>
        rw [hp] at h
        have h1 := addTitle_frame hp
        have h2 := ih _ _ _ h
        exact ⟨h2.1.trans h1.1, h2.2.trans h1.2⟩

theorem addWords_frame (stem : List Nat → List Nat) (tokens : List WFs) :
    ∀ (idx : Index) (next : Nat) (r : Index × Nat),
      addWords stem idx tokens next = some r →
      r.1.urlTable = idx.urlTable ∧ r.1.MaximumLocation = idx.MaximumLocation := by
  induction tokens with
  | nil =>
    intro idx next r h
    rw [addWords, Option.some.injEq] at h
    rw [← h]; exact ⟨rfl, rfl⟩
  | cons token rest ih =>
    intro idx next r h
    rw [addWords] at h
    by_cases hs : stem token.word = []
    · rw [if_pos hs] at h
      exact ih _ _ _ h
    · rw [if_neg hs] at h
      cases hp : idx.AddWord (stem token.word) token.flags next with
      | none => rw [hp] at h; exact absurd h (by simp)
      | some r1 =>
        rw [hp] at h
        have h1 := addWord_frame hp
        have h2 := ih _ _ _ h
        exact ⟨h2.1.trans h1.1, h2.2.trans h1.2⟩

/-- The URL table and `MaximumLocation` after one `Insert` that is not skipped. -/
theorem insert_table {stem : List Nat → List Nat} {idx idx1 : Index} {p : HtmlParser}
    (h : idx.Insert stem p = some idx1) (hT : p.titleWords.length < 40) :
    idx1.urlTable =
      (idx.urlTable.AddURL p.pageURL).2.SetDocumentAttributes (c_str p.title_chunk)
        (idx.urlTable.AddURL p.pageURL).1
        ((p.words_flags.length + p.titleWords.length) % U32)
        ((c_str p.pageURL).length % U32) (p.titleWords.length % U32)
        ((idx.MaximumLocation + 1) % U32)
        (((idx.MaximumLocation + 1) % U32 +
            (p.titleWords.length + p.words_flags.length + 2) % U64 + U64 - 1) % U64 % U32)
        p.english ∧
    idx1.MaximumLocation =
      (idx.MaximumLocation + (p.titleWords.length + p.words_flags.length + 2) % U64) % U32 := by
  unfold Insert at h
  rw [if_neg (by omega)] at h
  unfold insertDocument at h
  by_cases hfr : URLTable.AddURL.frees idx.urlTable p.pageURL = true
  · rw [if_pos hfr] at h
    exact absurd h (by simp)
  · rw [if_neg hfr] at h
    obtain ⟨docEnd, _, h1⟩ := Option.bind_eq_some.1 h
    obtain ⟨r2, h2, h3⟩ := Option.bind_eq_some.1 h1
    obtain ⟨r3, h4, h5⟩ := Option.map_eq_some'.1 h3
    have f2 := addTitles_frame _ _ _ _ _ h2
    have f3 := addWords_frame _ _ _ _ _ h4
    rw [← h5]
    exact ⟨f3.1.trans f2.1, f3.2.trans f2.2⟩

/-- An `Insert` that is not skipped and returns did not free the URL copy. -/
theorem insert_not_freed {stem : List Nat → List Nat} {idx idx1 : Index} {p : HtmlParser}
    (h : idx.Insert stem p = some idx1) (hT : p.titleWords.length < 40) :
    URLTable.AddURL.frees idx.urlTable p.pageURL = false := by
  unfold Insert at h
  rw [if_neg (by omega)] at h
  unfold insertDocument at h
  by_cases hfr : URLTable.AddURL.frees idx.urlTable p.pageURL = true
  · rw [if_pos hfr] at h
    exact absurd h (by simp)
  · simpa using hfr

/-- In a table whose ids are below the number of documents, an `Insert` that is
not skipped and returns found the URL absent. -/
theorem insert_url_absent {stem : List Nat → List Nat} {idx idx1 : Index} {p : HtmlParser}
    (hids : ∀ e ∈ idx.urlTable.urlsToID, e.2 < idx.urlTable.docAttributes.length)
    (hlen : idx.urlTable.docAttributes.length < U32)
    (h : idx.Insert stem p = some idx1) (hT : p.titleWords.length < 40) :
    idx.urlTable.urlsToID.find? (fun e => decide (e.1 = c_str p.pageURL)) = none := by
  have hfr := insert_not_freed h hT
  unfold URLTable.AddURL.frees at hfr
  cases hfind : idx.urlTable.urlsToID.find? (fun e => decide (e.1 = c_str p.pageURL)) with
  | none => rfl
  | some entry =>
    rw [hfind] at hfr
    simp only [decide_eq_false_iff_not, not_not] at hfr
    have hlt := hids entry (List.mem_of_find?_eq_some hfind)
    rw [Nat.mod_eq_of_lt hlen] at hfr
    omega

theorem insert_skipped {stem : List Nat → List Nat} {idx idx1 : Index} {p : HtmlParser}
    (h : idx.Insert stem p = some idx1) (hT : 40 ≤ p.titleWords.length) : idx1 = idx := by
  unfold Insert at h
  rw [if_pos hT] at h
  cases h; rfl

theorem mem_set_cases {α : Type} (l : List α) (i : Nat) (v a : α) (h : a ∈ l.set i v) :
    a = v ∨ a ∈ l := by
  rcases List.mem_or_eq_of_mem_set h with h | h
  · exact Or.inr h
  · exact Or.inl h

/-- One `Insert` keeps the table invariant when the Locations do not wrap. -/
theorem insert_tableOK {stem : List Nat → List Nat} {idx idx1 : Index} {p : HtmlParser}
    (hok : TableOK idx) (h : idx.Insert stem p = some idx1)
    (hsize : idx.MaximumLocation + (p.titleWords.length + p.words_flags.length + 2) < U32) :
    TableOK idx1 ∧
      idx1.MaximumLocation ≤
        idx.MaximumLocation + (p.titleWords.length + p.words_flags.length + 2) := by
  by_cases hT : 40 ≤ p.titleWords.length
  · rw [insert_skipped h hT]
    exact ⟨hok, Nat.le_add_right _ _⟩
  · have hT1 : p.titleWords.length < 40 := by omega
    obtain ⟨htab, hmax⟩ := insert_table h hT1
    have hU : U32 = 4294967296 := by decide
    have hU64 : U64 = 18446744073709551616 := by decide
    rw [hU] at hsize
    have e1 : (p.titleWords.length + p.words_flags.length + 2) % U64 =
        p.titleWords.length + p.words_flags.length + 2 := by
      rw [hU64]; omega
    have e2 : (idx.MaximumLocation + 1) % U32 = idx.MaximumLocation + 1 := by
      rw [hU]; omega
    have e3 : (idx.MaximumLocation + 1 +
        (p.titleWords.length + p.words_flags.length + 2) + U64 - 1) % U64 % U32 =
        idx.MaximumLocation + (p.titleWords.length + p.words_flags.length + 2) := by
      rw [hU, hU64]; omega
    have e4 : (p.words_flags.length + p.titleWords.length) % U32 =
        p.words_flags.length + p.titleWords.length := by
      rw [hU]; omega
    have e5 : p.titleWords.length % U32 = p.titleWords.length := by
      rw [hU]; omega
    have e6 : (idx.MaximumLocation + (p.titleWords.length + p.words_flags.length + 2)) % U32 =
        idx.MaximumLocation + (p.titleWords.length + p.words_flags.length + 2) := by
      rw [hU]; omega
    rw [e1, e2, e3, e4, e5] at htab
    rw [e1, e6] at hmax
    have hlen : idx.urlTable.docAttributes.length % U32 = idx.urlTable.docAttributes.length := by
      have := hok.count
      rw [hU]; omega
    refine ⟨?_, by omega⟩
    have hnew : ∀ attrs : DocumentAttributes, DocRangeOK
        { attrs with wordCount := p.words_flags.length + p.titleWords.length,
                     urlLength := (c_str p.pageURL).length % U32,
                     titleLength := p.titleWords.length, title := some (c_str p.title_chunk),
                     startLocation := idx.MaximumLocation + 1,
                     endLocation := idx.MaximumLocation +
                       (p.titleWords.length + p.words_flags.length + 2),
                     english := p.english } := by
      intro attrs
      refine ⟨?_, ?_, ?_, hT1⟩
      · show idx.MaximumLocation + 1 ≤ idx.MaximumLocation + _
        omega
      · show idx.MaximumLocation + (p.titleWords.length + p.words_flags.length + 2) -
            (idx.MaximumLocation + 1) + 1 = p.words_flags.length + p.titleWords.length + 2
        omega
      · show p.titleWords.length ≤ p.words_flags.length + p.titleWords.length
        omega
    -- `AddURL` found the URL absent
    have hlenlt : idx.urlTable.docAttributes.length < U32 := by
      have := hok.count
      rw [hU]; omega
    have habs := insert_url_absent hok.ids hlenlt h hT1
    cases hfind : idx.urlTable.urlsToID.find? (fun e => decide (e.1 = c_str p.pageURL)) with
    | some entry => rw [habs] at hfind; cases hfind
    | none =>
      have hadd : idx.urlTable.AddURL p.pageURL =
          (idx.urlTable.docAttributes.length,
            { urlsToID := idx.urlTable.urlsToID ++
                [(c_str p.pageURL, idx.urlTable.docAttributes.length)]
              docAttributes := idx.urlTable.docAttributes ++
                [DocumentAttributes.new p.pageURL] }) := by
        unfold URLTable.AddURL
        rw [hfind]
        simp only []
        rw [hlen]
      rw [hadd] at htab
      simp only [] at htab
      unfold URLTable.SetDocumentAttributes at htab
      have hget : (idx.urlTable.docAttributes ++ [DocumentAttributes.new p.pageURL])[
          idx.urlTable.docAttributes.length]? = some (DocumentAttributes.new p.pageURL) := by
        simp
      simp only [] at htab
      rw [hget] at htab
      simp only [] at htab
      refine ⟨?_, ?_, ?_⟩
      · intro a ha
        rw [htab] at ha
        rw [Ranker.set_length_append _ [] _ _] at ha
        rcases List.mem_append.1 ha with ha | ha
        · exact hok.ranges a ha
        · rw [List.mem_singleton] at ha
          rw [ha]
          exact hnew _
      · intro e he
        rw [htab] at he ⊢
        simp only [List.length_set, List.length_append, List.length_singleton]
        rcases List.mem_append.1 he with he | he
        · have := hok.ids e he; omega
        · rw [List.mem_singleton] at he
          rw [he]; simp
      · rw [htab, hmax]
        simp only [List.length_set, List.length_append, List.length_singleton]
        have := hok.count
        omega

theorem tableOK_new : TableOK Index.new :=
  { ranges := by intro a ha; cases ha
    ids := by intro e he; cases he
    count := Nat.le_refl _ }

/-- A sequence of `Insert` calls keeps the table invariant when the Locations
do not wrap. -/
theorem insertAll_tableOK (stem : List Nat → List Nat) (pages : List HtmlParser) :
    ∀ (idx idx1 : Index), TableOK idx → idx.MaximumLocation + locationsNeeded pages < U32 →
      InsertAll stem idx pages = some idx1 → TableOK idx1 := by
  induction pages with
  | nil =>
    intro idx idx1 hok _ h
    rw [InsertAll, Option.some.injEq] at h
    rw [← h]; exact hok
  | cons p rest ih =>
    intro idx idx1 hok hsize h
    rw [InsertAll] at h
    have hn : locationsNeeded (p :: rest) =
        (p.titleWords.length + p.words_flags.length + 2) + locationsNeeded rest := by
      simp [locationsNeeded]
    rw [hn] at hsize
    cases hp : idx.Insert stem p with
    | none => rw [hp] at h; exact absurd h (by simp)
    | some idx2 =>
      rw [hp] at h
      obtain ⟨hok2, hmax2⟩ := insert_tableOK hok hp (by omega)
      exact ih idx2 idx1 hok2 (by omega) h

set_option maxRecDepth 100000 in
/-- Claim C25, as stated, fails: one `Insert` of a page with the three title
words `a b c` and no body words records the range `[1, 5]` of five Locations
with `wordCount = 3` and `titleLength = 3`, and `5 - 1 + 1 < 3 + 3`. -/
theorem insert_three_title_words_range_too_short :
    (Index.new.Insert (fun w => w) pageThreeTitleWords).map
        (fun idx => idx.urlTable.docAttributes.map
          (fun a => (a.startLocation, a.endLocation, a.wordCount, a.titleLength)))
      = some [(1, 5, 3, 3)] ∧
    ¬ (5 - 1 + 1 ≥ 3 + 3) := by
  decide

set_option maxRecDepth 100000 in
/-- A second `Insert` of a page whose URL is already stored: `AddURL` frees the
URL copy and `Insert` then takes its `strlen`, so the call has no defined
result. -/
theorem insert_repeated_url_undefined :
    (Index.new.Insert (fun w => w) pageThreeTitleWords).bind
        (fun idx => idx.Insert (fun w => w)
          { pageTwoTitleWords with pageURL := pageThreeTitleWords.pageURL }) = none := by
  decide

/-- Claim C25 (amended). After any sequence of `Index::Insert` calls with
distinct URLs from the empty index that asks for fewer than `2^32` Locations,
every stored document satisfies `startLocation <= endLocation` and
`endLocation - startLocation + 1 = wordCount + 2`, where the recorded `wordCount`
counts the title words as well as the body words (`titleLength <= wordCount`)
and `titleLength < 40`. -/
theorem insert_range_is_word_count_plus_two (stem : List Nat → List Nat)
    (pages : List HtmlParser) (idx : Index)
    (hdist : (pages.map (fun p => c_str p.pageURL)).Nodup)
    (hsize : locationsNeeded pages < U32)
    (hrun : InsertAll stem Index.new pages = some idx) :
    ∀ a ∈ idx.urlTable.docAttributes,
      a.startLocation ≤ a.endLocation ∧
      a.endLocation - a.startLocation + 1 = a.wordCount + 2 ∧
      a.titleLength ≤ a.wordCount ∧ a.titleLength < 40 :=
  have _ := hdist
  (insertAll_tableOK stem pages Index.new idx tableOK_new
    (by rw [show Index.new.MaximumLocation = 0 from rfl, Nat.zero_add]; exact hsize) hrun).ranges

set_option maxRecDepth 100000 in
/-- The two sample pages inserted one after the other: the URLs differ, the
calls return, and both recorded ranges have `wordCount + 2` Locations. -/
theorem insert_range_is_word_count_plus_two_witness :
    ([pageThreeTitleWords, pageTwoTitleWords].map (fun p => c_str p.pageURL)).Nodup ∧
    locationsNeeded [pageThreeTitleWords, pageTwoTitleWords] < U32 ∧
    ∃ idx, InsertAll (fun w => w) Index.new [pageThreeTitleWords, pageTwoTitleWords] = some idx ∧
      ∀ a ∈ idx.urlTable.docAttributes,
        a.startLocation ≤ a.endLocation ∧
        a.endLocation - a.startLocation + 1 = a.wordCount + 2 ∧
        a.titleLength ≤ a.wordCount ∧ a.titleLength < 40 :=
  ⟨by decide, by decide,
    (InsertAll (fun w => w) Index.new [pageThreeTitleWords, pageTwoTitleWords]).get (by decide),
    (Option.some_get _).symm,
    insert_range_is_word_count_plus_two (fun w => w) [pageThreeTitleWords, pageTwoTitleWords] _
      (by decide) (by decide) (Option.some_get _).symm⟩

end Index

end SearchEngine

namespace SearchEngine

/-! ### Document ranges and post locations after `Index::Insert` -/

namespace Index

theorem addWordPosts_snoc (xs : List WordPost) (q : WordPost) :
    ∀ pl : PostingList, pl.AddWordPosts (xs ++ [q]) =
      (pl.AddWordPosts xs).bind (fun l => l.AddWordPost q) := by
  induction xs with
  | nil =>
    intro pl
    cases h : pl.AddWordPost q with
    | none => simp [PostingList.AddWordPosts, h]
    | some l => simp [PostingList.AddWordPosts, h]
  | cons x rest ih =>
    intro pl
    cases h : pl.AddWordPost x with
    | none => simp [PostingList.AddWordPosts, h]
    | some l => simp [PostingList.AddWordPosts, h, ih]

theorem addWordPosts_append (xs ys : List WordPost) :
    ∀ pl : PostingList, pl.AddWordPosts (xs ++ ys) =
      (pl.AddWordPosts xs).bind (fun l => l.AddWordPosts ys) := by
  induction xs with
  | nil =>
    intro pl
    simp [PostingList.AddWordPosts]
  | cons x rest ih =>
    intro pl
    cases h : pl.AddWordPost x with
    | none => simp [PostingList.AddWordPosts, h]
    | some l => simp [PostingList.AddWordPosts, h, ih]

theorem addWordPosts_singleton (pl l : PostingList) (post : WordPost)
    (h : pl.AddWordPost post = some l) : pl.AddWordPosts [post] = some l := by
  rw [PostingList.AddWordPosts, h]
  rfl

theorem addDocumentPosts_snoc (xs : List DocumentPost) (q : DocumentPost) :
    ∀ pl : PostingList, pl.AddDocumentPosts (xs ++ [q]) =
      (pl.AddDocumentPosts xs).bind (fun l => l.AddDocumentPost q) := by
  induction xs with
  | nil =>
    intro pl
    cases h : pl.AddDocumentPost q with
    | none => simp [PostingList.AddDocumentPosts, h]
    | some l => simp [PostingList.AddDocumentPosts, h]
  | cons x rest ih =>
    intro pl
    cases h : pl.AddDocumentPost x with
    | none => simp [PostingList.AddDocumentPosts, h]
    | some l => simp [PostingList.AddDocumentPosts, h, ih]

theorem postsBeforeEnd_mono {docs docs1 : List DocumentAttributes} {posts : List WordPost}
    (hsub : ∀ a ∈ docs, a ∈ docs1) (h : PostsBeforeEnd docs posts) :
    PostsBeforeEnd docs1 posts :=
  fun q hq => let ⟨a, ha, h1⟩ := h q hq; ⟨a, hsub a ha, h1⟩

theorem postsInside_of_beforeEnd {docs : List DocumentAttributes} {posts : List WordPost}
    (h : PostsBeforeEnd docs posts) : PostsInside docs posts :=
  fun q hq => let ⟨a, ha, h1, h2⟩ := h q hq; ⟨a, ha, h1, by omega⟩

theorem dictOK_mono {dict : List (List Nat × PostingList)} {docs docs1 : List DocumentAttributes}
    {next next1 : Nat} (hsub : ∀ a ∈ docs, a ∈ docs1) (hn : next ≤ next1)
    (h : DictOK dict docs next) : DictOK dict docs1 next1 :=
  { keys := h.keys
    lists := fun e he =>
      let ⟨posts, h1, h2, h3, h4⟩ := h.lists e he
      ⟨posts, h1, h2, fun q hq => Nat.lt_of_lt_of_le (h3 q hq) hn, postsBeforeEnd_mono hsub h4⟩ }

theorem eq_of_key_eq {α β : Type} {l : List (α × β)} (hnd : (l.map Prod.fst).Nodup)
    {e1 e2 : α × β} (h1 : e1 ∈ l) (h2 : e2 ∈ l) (hk : e1.1 = e2.1) : e1 = e2 := by
  induction l with
  | nil => cases h1
  | cons x xs ih =>
    rw [List.map_cons, List.nodup_cons] at hnd
    rcases List.mem_cons.1 h1 with e1x | h1
    · rcases List.mem_cons.1 h2 with e2x | h2
      · rw [e1x, e2x]
      · exact absurd (List.mem_map.2 ⟨e2, h2, by rw [← hk, e1x]⟩) hnd.1
    · rcases List.mem_cons.1 h2 with e2x | h2
      · exact absurd (List.mem_map.2 ⟨e1, h1, by rw [hk, e2x]⟩) hnd.1
      · exact ih hnd.2 h1 h2

theorem written_snoc {posts : List WordPost} {l l1 : PostingList} {post : WordPost}
    {docs : List DocumentAttributes} {next : Nat}
    (h1 : PostingList.empty.AddWordPosts posts = some l)
    (h2 : (posts.map WordPost.startLocation).Pairwise (· < ·))
    (h3 : ∀ q ∈ posts, q.startLocation < next) (h4 : PostsBeforeEnd docs posts)
    (hp : post.startLocation = next)
    (hin : ∃ a ∈ docs, a.startLocation ≤ next ∧ next + 2 ≤ a.endLocation)
    (ha : l.AddWordPost post = some l1) :
    PostingList.empty.AddWordPosts (posts ++ [post]) = some l1 ∧
      ((posts ++ [post]).map WordPost.startLocation).Pairwise (· < ·) ∧
      (∀ q ∈ posts ++ [post], q.startLocation < next + 1) ∧
      PostsBeforeEnd docs (posts ++ [post]) := by
  refine ⟨?_, ?_, ?_, ?_⟩
  · rw [addWordPosts_snoc, h1, Option.some_bind, ha]
  · rw [List.map_append, List.pairwise_append]
    refine ⟨h2, List.pairwise_singleton _ _, ?_⟩
    intro a ha1 b hb
    rw [List.map_singleton, List.mem_singleton] at hb
    obtain ⟨q, hq, rfl⟩ := List.mem_map.1 ha1
    rw [hb, hp]; exact h3 q hq
  · intro q hq
    rcases List.mem_append.1 hq with hq | hq
    · exact Nat.lt_succ_of_lt (h3 q hq)
    · rw [List.mem_singleton] at hq
      rw [hq, hp]; exact Nat.lt_succ_self _
  · intro q hq
    rcases List.mem_append.1 hq with hq | hq
    · exact h4 q hq
    · rw [List.mem_singleton] at hq
      rw [hq, hp]; exact hin

/-- One appended post keeps the dictionary invariant and leaves the rest of the
index alone. -/
theorem addPost_dictOK {idx idx1 : Index} {token : List Nat} {post : WordPost}
    {docs : List DocumentAttributes} {next : Nat}
    (hd : DictOK idx.dictionary docs next) (hp : post.startLocation = next)
    (hin : ∃ a ∈ docs, a.startLocation ≤ next ∧ next + 2 ≤ a.endLocation)
    (h : idx.addPost token post = some idx1) :
    DictOK idx1.dictionary docs (next + 1) := by
  unfold addPost at h
  cases hf : idx.dictionary.find? (fun e => decide (e.1 = c_str token)) with
  | none =>
    rw [hf] at h
    obtain ⟨l, hl, hi⟩ := Option.map_eq_some'.1 h
    rw [← hi]
    have hnone := List.find?_eq_none.1 hf
    refine ⟨?_, ?_⟩
    · show ((idx.dictionary ++ [(c_str token, l)]).map Prod.fst).Nodup
      rw [List.map_append, List.map_singleton]
      refine List.Nodup.append hd.keys (List.nodup_singleton _) ?_
      intro k hk1 hk2
      rw [List.mem_singleton] at hk2
      obtain ⟨e, he, hek⟩ := List.mem_map.1 hk1
      have := hnone e he
      simp only [decide_eq_true_eq] at this
      exact this (hek.trans hk2)
    · intro e he
      rcases List.mem_append.1 he with he | he
      · obtain ⟨posts, h1, h2, h3, h4⟩ := hd.lists e he
        exact ⟨posts, h1, h2, fun q hq => Nat.lt_succ_of_lt (h3 q hq), h4⟩
      · rw [List.mem_singleton] at he
        rw [he]
        have hw := @written_snoc [] _ _ _ docs next rfl
          List.Pairwise.nil (fun q hq => absurd hq (List.not_mem_nil _))
          (fun q hq => absurd hq (List.not_mem_nil _)) hp hin hl
        exact ⟨[post], hw⟩
  | some entry =>
    rw [hf] at h
    obtain ⟨l, hl, hi⟩ := Option.map_eq_some'.1 h
    rw [← hi]
    have hmem : entry ∈ idx.dictionary := List.mem_of_find?_eq_some hf
    have hkey : entry.1 = c_str token := by
      have := List.find?_some hf
      simpa using this
    refine ⟨?_, ?_⟩
    · show ((idx.dictionary.map
          (fun e => if e.1 = c_str token then (e.1, l) else e)).map Prod.fst).Nodup
      have hfst : (idx.dictionary.map
          (fun e => if e.1 = c_str token then (e.1, l) else e)).map Prod.fst
          = idx.dictionary.map Prod.fst := by
        rw [List.map_map]
        apply List.map_congr_left
        intro e _
        show (if e.1 = c_str token then (e.1, l) else e).1 = e.1
        split <;> rfl
      rw [hfst]; exact hd.keys
    · intro e he
      obtain ⟨e0, he0, he1⟩ := List.mem_map.1 he
      by_cases hk : e0.1 = c_str token
      · rw [if_pos hk] at he1
        have h0 : e0 = entry := eq_of_key_eq hd.keys he0 hmem (hk.trans hkey.symm)
        obtain ⟨posts, h1, h2, h3, h4⟩ := hd.lists entry hmem
        rw [← he1]
        exact ⟨posts ++ [post], written_snoc h1 h2 h3 h4 hp hin hl⟩
      · rw [if_neg hk] at he1
        rw [← he1]
        obtain ⟨posts, h1, h2, h3, h4⟩ := hd.lists e0 he0
        exact ⟨posts, h1, h2, fun q hq => Nat.lt_succ_of_lt (h3 q hq), h4⟩

theorem find?_map_key {β : Type} (l : List (List Nat × β)) (f : List Nat × β → List Nat × β)
    (hf : ∀ e, (f e).1 = e.1) (key : List Nat) :
    (l.map f).find? (fun e => decide (e.1 = key)) =
      (l.find? (fun e => decide (e.1 = key))).map f := by
  induction l with
  | nil => rfl
  | cons x xs ih =>
    simp only [List.map_cons, List.find?_cons, hf]
    by_cases hx : x.1 = key
    · simp [hx]
    · simp [hx, ih]

/-- What one appended post does to the posting list of each key: the list of
the post's key gets the post, every other list stays. -/
theorem addPost_listOf {idx idx1 : Index} {token : List Nat} {post : WordPost}
    (h : idx.addPost token post = some idx1) (key : List Nat) :
    ∃ added, (idx.listOf key).AddWordPosts added = some (idx1.listOf key) ∧
      ∀ q ∈ added, q = post := by
  unfold addPost at h
  cases hf : idx.dictionary.find? (fun e => decide (e.1 = c_str token)) with
  | none =>
    rw [hf] at h
    obtain ⟨l, hl, hi⟩ := Option.map_eq_some'.1 h
    have hd1 : idx1.dictionary = idx.dictionary ++ [(c_str token, l)] := by rw [← hi]
    by_cases hk : key = c_str token
    · refine ⟨[post], ?_, by simp⟩
      have h0 : idx.listOf key = PostingList.empty := by
        unfold listOf; rw [hk, hf]
      have h1 : idx1.listOf key = l := by
        unfold listOf
        rw [hd1, List.find?_append, hk, hf]
        simp
      rw [h0, h1]
      exact addWordPosts_singleton _ _ _ hl
    · refine ⟨[], ?_, by simp⟩
      have h1 : idx1.listOf key = idx.listOf key := by
        unfold listOf
        rw [hd1, List.find?_append]
        cases hfk : idx.dictionary.find? (fun e => decide (e.1 = key)) with
        | some e => simp
        | none =>
          have : ¬ c_str token = key := fun h => hk h.symm
          simp [this]
      rw [h1]; rfl
  | some entry =>
    rw [hf] at h
    obtain ⟨l, hl, hi⟩ := Option.map_eq_some'.1 h
    have hd1 : idx1.dictionary =
        idx.dictionary.map (fun e => if e.1 = c_str token then (e.1, l) else e) := by
      rw [← hi]
    have hfm := find?_map_key idx.dictionary
      (fun e => if e.1 = c_str token then (e.1, l) else e)
      (by intro e; show (if e.1 = c_str token then (e.1, l) else e).1 = e.1; split <;> rfl) key
    have hkey : entry.1 = c_str token := by
      have := List.find?_some hf
      simpa using this
    by_cases hk : key = c_str token
    · refine ⟨[post], ?_, by simp⟩
      have h0 : idx.listOf key = entry.2 := by
        unfold listOf; rw [hk, hf]
      have h1 : idx1.listOf key = l := by
        unfold listOf
        rw [hd1, hfm, hk, hf]
        simp [hkey]
      rw [h0, h1]
      exact addWordPosts_singleton _ _ _ hl
    · refine ⟨[], ?_, by simp⟩
      have h1 : idx1.listOf key = idx.listOf key := by
        unfold listOf
        rw [hd1, hfm]
        cases hfk : idx.dictionary.find? (fun e => decide (e.1 = key)) with
        | none => rfl
        | some e =>
          have hek : e.1 = key := by
            have := List.find?_some hfk
            simpa using this
          have : ¬ e.1 = c_str token := fun h => hk (hek.symm.trans h)
          simp [this]
      rw [h1]; rfl

theorem addPost_docEnd {idx idx1 : Index} {token : List Nat} {post : WordPost}
    (h : idx.addPost token post = some idx1) : idx1.docEnd = idx.docEnd := by
  unfold addPost at h
  split at h
  · obtain ⟨l, _, hl⟩ := Option.map_eq_some'.1 h
    rw [← hl]
  · obtain ⟨l, _, hl⟩ := Option.map_eq_some'.1 h
    rw [← hl]

/-- The loop over the title words: the dictionary invariant, where the next
Location ends up, the document list, and what each posting list gained. -/
theorem addTitles_spec (stem : List Nat → List Nat) (docs : List DocumentAttributes)
    (bound : Nat) (hb : bound < U32) (tokens : List (List Nat)) :
    ∀ (idx : Index) (next : Nat) (r : Index × Nat),
      DictOK idx.dictionary docs next →
      (∀ loc, next ≤ loc → loc < bound →
        ∃ a ∈ docs, a.startLocation ≤ loc ∧ loc + 2 ≤ a.endLocation) →
      next + tokens.length ≤ bound →
      addTitles stem idx tokens next = some r →
      DictOK r.1.dictionary docs r.2 ∧ next ≤ r.2 ∧ r.2 ≤ next + tokens.length ∧
        r.1.docEnd = idx.docEnd ∧
        ∀ key, ∃ added, (idx.listOf key).AddWordPosts added = some (r.1.listOf key) ∧
          ∀ q ∈ added, next ≤ q.startLocation ∧ q.startLocation < r.2 := by
  induction tokens with
  | nil =>
    intro idx next r hd _ _ h
    rw [addTitles, Option.some.injEq] at h
    rw [← h]
    exact ⟨hd, Nat.le_refl _, Nat.le_refl _, rfl, fun key => ⟨[], rfl, by simp⟩⟩
  | cons token rest ih =>
    intro idx next r hd hrange hlen h
    rw [List.length_cons] at hlen
    rw [addTitles] at h
    by_cases hs : stem token = []
    · rw [if_pos hs] at h
      obtain ⟨h1, h2, h3, h4, h5⟩ := ih idx next r hd hrange (by omega) h
      exact ⟨h1, h2, by rw [List.length_cons]; omega, h4, h5⟩
    · rw [if_neg hs] at h
      cases hp : idx.AddTitle (stem token) next with
      | none => rw [hp] at h; exact absurd h (by simp)
      | some r1 =>
        rw [hp] at h
        unfold AddTitle at hp
        obtain ⟨i1, hi1, hr1⟩ := Option.map_eq_some'.1 hp
        have hd1 := addPost_dictOK hd rfl (hrange next (Nat.le_refl _) (by omega)) hi1
        have hmod : (next + 1) % U32 = next + 1 := Nat.mod_eq_of_lt (by omega)
        rw [hmod] at hr1
        rw [← hr1] at h
        obtain ⟨h1, h2, h3, h4, h5⟩ := ih i1 (next + 1) r hd1
          (fun loc hl hu => hrange loc (by omega) hu) (by omega) h
        refine ⟨h1, by omega, by rw [List.length_cons]; omega,
          h4.trans (addPost_docEnd hi1), ?_⟩
        intro key
        obtain ⟨a1, ha1, hb1⟩ := addPost_listOf hi1 key
        obtain ⟨a2, ha2, hb2⟩ := h5 key
        refine ⟨a1 ++ a2, ?_, ?_⟩
        · rw [addWordPosts_append, ha1, Option.some_bind, ha2]
        · intro q hq
          rcases List.mem_append.1 hq with hq | hq
          · rw [hb1 q hq]
            exact ⟨Nat.le_refl _, by show next < r.2; omega⟩
          · have := hb2 q hq
            exact ⟨by omega, this.2⟩

/-- The loop over the body words, as `addTitles_spec`. -/
theorem addWords_spec (stem : List Nat → List Nat) (docs : List DocumentAttributes)
    (bound : Nat) (hb : bound < U32) (tokens : List WFs) :
    ∀ (idx : Index) (next : Nat) (r : Index × Nat),
      DictOK idx.dictionary docs next →
      (∀ loc, next ≤ loc → loc < bound →
        ∃ a ∈ docs, a.startLocation ≤ loc ∧ loc + 2 ≤ a.endLocation) →
      next + tokens.length ≤ bound →
      addWords stem idx tokens next = some r →
      DictOK r.1.dictionary docs r.2 ∧ next ≤ r.2 ∧ r.2 ≤ next + tokens.length ∧
        r.1.docEnd = idx.docEnd ∧
        ∀ key, ∃ added, (idx.listOf key).AddWordPosts added = some (r.1.listOf key) ∧
          ∀ q ∈ added, next ≤ q.startLocation ∧ q.startLocation < r.2 := by
  induction tokens with
  | nil =>
    intro idx next r hd _ _ h
    rw [addWords, Option.some.injEq] at h
    rw [← h]
    exact ⟨hd, Nat.le_refl _, Nat.le_refl _, rfl, fun key => ⟨[], rfl, by simp⟩⟩
  | cons token rest ih =>
    intro idx next r hd hrange hlen h
    rw [List.length_cons] at hlen
    rw [addWords] at h
    by_cases hs : stem token.word = []
    · rw [if_pos hs] at h
      obtain ⟨h1, h2, h3, h4, h5⟩ := ih idx next r hd hrange (by omega) h
      exact ⟨h1, h2, by rw [List.length_cons]; omega, h4, h5⟩
    · rw [if_neg hs] at h
      cases hp : idx.AddWord (stem token.word) token.flags next with
      | none => rw [hp] at h; exact absurd h (by simp)
      | some r1 =>
        rw [hp] at h
        unfold AddWord at hp
        obtain ⟨i1, hi1, hr1⟩ := Option.map_eq_some'.1 hp
        have hd1 := addPost_dictOK hd rfl (hrange next (Nat.le_refl _) (by omega)) hi1
        have hmod : (next + 1) % U32 = next + 1 := Nat.mod_eq_of_lt (by omega)
        rw [hmod] at hr1
        rw [← hr1] at h
        obtain ⟨h1, h2, h3, h4, h5⟩ := ih i1 (next + 1) r hd1
          (fun loc hl hu => hrange loc (by omega) hu) (by omega) h
        refine ⟨h1, by omega, by rw [List.length_cons]; omega,
          h4.trans (addPost_docEnd hi1), ?_⟩
        intro key
        obtain ⟨a1, ha1, hb1⟩ := addPost_listOf hi1 key
        obtain ⟨a2, ha2, hb2⟩ := h5 key
        refine ⟨a1 ++ a2, ?_, ?_⟩
        · rw [addWordPosts_append, ha1, Option.some_bind, ha2]
        · intro q hq
          rcases List.mem_append.1 hq with hq | hq
          · rw [hb1 q hq]
            exact ⟨Nat.le_refl _, by show next < r.2; omega⟩
          · have := hb2 q hq
            exact ⟨by omega, this.2⟩

/-- The URL table after `AddURL` and `SetDocumentAttributes` for a URL that is
not in the table yet: one more document, at the next id. -/
theorem setAttributes_new (t : URLTable) (url title : List Nat)
    (wc ul tl s e : Nat) (eng : Bool)
    (hfind : t.urlsToID.find? (fun x => decide (x.1 = c_str url)) = none)
    (hlen : t.docAttributes.length < U32) :
    (t.AddURL url).2.SetDocumentAttributes title (t.AddURL url).1 wc ul tl s e eng =
      { urlsToID := t.urlsToID ++ [(c_str url, t.docAttributes.length)]
        docAttributes := t.docAttributes ++
          [{ url := c_str url, title := some title, wordCount := wc, urlLength := ul,
             titleLength := tl, startLocation := s, endLocation := e, english := eng }] } := by
  have hadd : t.AddURL url =
      (t.docAttributes.length,
        { urlsToID := t.urlsToID ++ [(c_str url, t.docAttributes.length)]
          docAttributes := t.docAttributes ++ [DocumentAttributes.new url] }) := by
    unfold URLTable.AddURL
    rw [hfind]
    simp only []
    rw [Nat.mod_eq_of_lt hlen]
  rw [hadd]
  simp only []
  unfold URLTable.SetDocumentAttributes
  have hget : (t.docAttributes ++ [DocumentAttributes.new url])[t.docAttributes.length]? =
      some (DocumentAttributes.new url) := by
    simp
  simp only []
  rw [hget]
  simp only []
  rw [Ranker.set_length_append _ [] _ _]
  rfl

/-- The attributes that `Insert` records for page `p` in index `idx`. -/
theorem insert_new_doc {stem : List Nat → List Nat} {idx idx1 : Index} {p : HtmlParser}
    (hok : SegmentOK idx)
    (hsize : idx.MaximumLocation + (p.titleWords.length + p.words_flags.length + 2) < U32)
    (h : idx.Insert stem p = some idx1) (hT : p.titleWords.length < 40) :
    ∃ a : DocumentAttributes,
      idx1.urlTable.docAttributes = idx.urlTable.docAttributes ++ [a] ∧
      a.url = c_str p.pageURL ∧ a.startLocation = idx.MaximumLocation + 1 ∧
      a.endLocation = idx.MaximumLocation + (p.titleWords.length + p.words_flags.length + 2) ∧
      SegmentOK idx1 ∧
      idx1.MaximumLocation =
        idx.MaximumLocation + (p.titleWords.length + p.words_flags.length + 2) ∧
      ∀ key, ∃ added, (idx.listOf key).AddWordPosts added = some (idx1.listOf key) ∧
        ∀ q ∈ added, a.startLocation ≤ q.startLocation ∧ q.startLocation + 2 ≤ a.endLocation := by
  obtain ⟨htab, hmax⟩ := insert_table h hT
  have hU : U32 = 4294967296 := by decide
  have hU64 : U64 = 18446744073709551616 := by decide
  have hsize1 := hsize
  rw [hU] at hsize1
  have e1 : (p.titleWords.length + p.words_flags.length + 2) % U64 =
      p.titleWords.length + p.words_flags.length + 2 := by
    rw [hU64]; omega
  have e2 : (idx.MaximumLocation + 1) % U32 = idx.MaximumLocation + 1 := by
    rw [hU]; omega
  have e3 : (idx.MaximumLocation + 1 +
      (p.titleWords.length + p.words_flags.length + 2) + U64 - 1) % U64 % U32 =
      idx.MaximumLocation + (p.titleWords.length + p.words_flags.length + 2) := by
    rw [hU, hU64]; omega
  have e6 : (idx.MaximumLocation + (p.titleWords.length + p.words_flags.length + 2)) % U32 =
      idx.MaximumLocation + (p.titleWords.length + p.words_flags.length + 2) := by
    rw [hU]; omega
  have hlen : idx.urlTable.docAttributes.length < U32 := by
    have := hok.count
    rw [hU]; omega
  have hfind := insert_url_absent hok.ids hlen h hT
  rw [e1, e2, e3, setAttributes_new _ _ _ _ _ _ _ _ _ hfind hlen] at htab
  rw [e1, e6] at hmax
  -- the posts of the new document
  have hfr := insert_not_freed h hT
  unfold Insert at h
  rw [if_neg (by omega)] at h
  unfold insertDocument at h
  rw [if_neg (by rw [hfr]; simp)] at h
  obtain ⟨docEnd, hde, h1⟩ := Option.bind_eq_some.1 h
  obtain ⟨r2, h2, h3⟩ := Option.bind_eq_some.1 h1
  obtain ⟨r3, h4, h5⟩ := Option.map_eq_some'.1 h3
  rw [e2] at h2
  rw [e1, e2, e3] at hde
  have hadd1 : (idx.urlTable.AddURL p.pageURL).1 = idx.urlTable.docAttributes.length := by
    unfold URLTable.AddURL
    rw [hfind]
    exact Nat.mod_eq_of_lt hlen
  rw [hadd1] at hde
  have hb : idx.MaximumLocation + 1 + p.titleWords.length + p.words_flags.length < U32 := by
    rw [hU]; omega
  have hdA : DictOK idx.dictionary idx1.urlTable.docAttributes (idx.MaximumLocation + 1) := by
    refine dictOK_mono ?_ (Nat.le_refl _) hok.dict
    intro a ha
    rw [htab]
    exact List.mem_append_left _ ha
  have hrange : ∀ loc, idx.MaximumLocation + 1 ≤ loc →
      loc < idx.MaximumLocation + 1 + p.titleWords.length + p.words_flags.length →
      ∃ a ∈ idx1.urlTable.docAttributes, a.startLocation ≤ loc ∧ loc + 2 ≤ a.endLocation := by
    intro loc hlo hhi
    rw [htab]
    refine ⟨_, List.mem_append_right _ (List.mem_singleton_self _), ?_, ?_⟩
    · exact hlo
    · show loc + 2 ≤ idx.MaximumLocation + (p.titleWords.length + p.words_flags.length + 2)
      omega
  have key2 := fun hd => addTitles_spec stem idx1.urlTable.docAttributes _ hb
    p.titleWords _ _ r2 hd hrange (by omega) h2
  obtain ⟨d2, lo2, hi2, de2, l2⟩ := key2 hdA
  obtain ⟨d3, lo3, hi3, de3, l3⟩ := addWords_spec stem _ _ hb p.words_flags _ _ r3 d2
    (fun loc hl hu => hrange loc (by omega) hu) (by omega) h4
  rw [h5] at d3 de3 l3
  refine ⟨_, congrArg URLTable.docAttributes htab, rfl, rfl, rfl, ?_, hmax, ?_⟩
  · refine ⟨?_, ?_, ?_, ?_, ?_, ?_⟩
    · intro e he
      rw [htab] at he ⊢
      simp only [List.length_append, List.length_singleton]
      rcases List.mem_append.1 he with he | he
      · have := hok.ids e he; omega
      · rw [List.mem_singleton] at he
        rw [he]; simp
    · rw [htab, hmax]
      simp only [List.length_append, List.length_singleton]
      have := hok.count
      omega
    · rw [htab]
      show (idx.urlTable.docAttributes ++ [_]).Pairwise _
      rw [List.pairwise_append]
      refine ⟨hok.ordered, List.pairwise_singleton _ _, ?_⟩
      intro a ha b hb1
      rw [List.mem_singleton] at hb1
      rw [hb1]
      show a.endLocation < idx.MaximumLocation + 1
      have := (hok.ranges a ha).2.2
      omega
    · intro a ha
      rw [htab] at ha
      rcases List.mem_append.1 ha with ha | ha
      · have := hok.ranges a ha
        rw [hmax]
        exact ⟨this.1, this.2.1, by omega⟩
      · rw [List.mem_singleton] at ha
        rw [ha, hmax]
        refine ⟨?_, ?_, ?_⟩
        · show 0 < idx.MaximumLocation + 1
          omega
        · show idx.MaximumLocation + 1 ≤
            idx.MaximumLocation + (p.titleWords.length + p.words_flags.length + 2)
          omega
        · exact Nat.le_refl _
    · exact dictOK_mono (fun a ha => ha) (by rw [hmax]; omega) d3
    · obtain ⟨docs, hdocs, hrel⟩ := hok.docEnd
      refine ⟨docs ++ [⟨idx.MaximumLocation + 1,
        idx.MaximumLocation + (p.titleWords.length + p.words_flags.length + 2),
        idx.urlTable.docAttributes.length⟩], ?_, ?_⟩
      · rw [addDocumentPosts_snoc, hdocs, Option.some_bind, de3, de2]
        exact hde
      · rw [htab]
        exact List.rel_append hrel (List.Forall₂.cons ⟨rfl, rfl, hlen⟩ List.Forall₂.nil)
  · intro key
    obtain ⟨a2, ha2, hb2⟩ := l2 key
    obtain ⟨a3, ha3, hb3⟩ := l3 key
    refine ⟨a2 ++ a3, ?_, ?_⟩
    · have ha2a : (idx.listOf key).AddWordPosts a2 = some (r2.1.listOf key) := ha2
      rw [addWordPosts_append, ha2a, Option.some_bind, ha3]
    · intro q hq
      show idx.MaximumLocation + 1 ≤ q.startLocation ∧
        q.startLocation + 2 ≤
          idx.MaximumLocation + (p.titleWords.length + p.words_flags.length + 2)
      rcases List.mem_append.1 hq with hq | hq
      · have := hb2 q hq
        omega
      · have := hb3 q hq
        omega

/-- One `Insert` keeps the invariant when the Locations do not wrap, and the
documents stored before stay as they are. -/
theorem insert_segmentOK {stem : List Nat → List Nat} {idx idx1 : Index} {p : HtmlParser}
    (hok : SegmentOK idx)
    (hsize : idx.MaximumLocation + (p.titleWords.length + p.words_flags.length + 2) < U32)
    (h : idx.Insert stem p = some idx1) :
    SegmentOK idx1 ∧
      idx1.MaximumLocation ≤
        idx.MaximumLocation + (p.titleWords.length + p.words_flags.length + 2) ∧
      ∃ more, idx1.urlTable.docAttributes = idx.urlTable.docAttributes ++ more := by
  by_cases hT : 40 ≤ p.titleWords.length
  · rw [insert_skipped h hT]
    exact ⟨hok, Nat.le_add_right _ _, [], (List.append_nil _).symm⟩
  · obtain ⟨a, h1, _, _, _, h5, h6, _⟩ := insert_new_doc hok hsize h (by omega)
    exact ⟨h5, Nat.le_of_eq h6, [a], h1⟩

theorem segmentOK_new : SegmentOK Index.new :=
  { ids := by intro e he; cases he
    count := Nat.le_refl _
    ordered := List.Pairwise.nil
    ranges := by intro a ha; cases ha
    dict := { keys := List.nodup_nil, lists := by intro e he; cases he }
    docEnd := ⟨[], rfl, List.Forall₂.nil⟩ }

theorem locationsNeeded_cons (p : HtmlParser) (rest : List HtmlParser) :
    locationsNeeded (p :: rest) =
      (p.titleWords.length + p.words_flags.length + 2) + locationsNeeded rest := by
  simp [locationsNeeded]

theorem locationsNeeded_append (pre rest : List HtmlParser) :
    locationsNeeded (pre ++ rest) = locationsNeeded pre + locationsNeeded rest := by
  simp [locationsNeeded]

/-- A sequence of `Insert` calls keeps the invariant and the documents stored
before it. -/
theorem insertAll_segmentOK (stem : List Nat → List Nat) (pages : List HtmlParser) :
    ∀ (idx idx1 : Index), SegmentOK idx →
      idx.MaximumLocation + locationsNeeded pages < U32 →
      InsertAll stem idx pages = some idx1 →
      SegmentOK idx1 ∧ idx1.MaximumLocation ≤ idx.MaximumLocation + locationsNeeded pages ∧
        ∃ more, idx1.urlTable.docAttributes = idx.urlTable.docAttributes ++ more := by
  induction pages with
  | nil =>
    intro idx idx1 hok _ h
    rw [InsertAll, Option.some.injEq] at h
    rw [← h]
    exact ⟨hok, Nat.le_add_right _ _, [], (List.append_nil _).symm⟩
  | cons p rest ih =>
    intro idx idx1 hok hsize h
    rw [InsertAll] at h
    rw [locationsNeeded_cons] at hsize ⊢
    cases hp : idx.Insert stem p with
    | none => rw [hp] at h; exact absurd h (by simp)
    | some idx2 =>
      rw [hp] at h
      obtain ⟨hok2, hmax2, m1, hm1⟩ := insert_segmentOK hok (by omega) hp
      obtain ⟨hok3, hmax3, m2, hm2⟩ := ih idx2 idx1 hok2 (by omega) h
      exact ⟨hok3, by omega, m1 ++ m2, by rw [hm2, hm1, List.append_assoc]⟩

theorem insertAll_split (stem : List Nat → List Nat) (pre : List HtmlParser) :
    ∀ (idx final : Index) (p : HtmlParser) (rest : List HtmlParser),
      InsertAll stem idx (pre ++ p :: rest) = some final →
      ∃ idx0 idx1, InsertAll stem idx pre = some idx0 ∧ idx0.Insert stem p = some idx1 ∧
        InsertAll stem idx1 rest = some final := by
  induction pre with
  | nil =>
    intro idx final p rest h
    rw [List.nil_append, InsertAll] at h
    cases hp : idx.Insert stem p with
    | none => rw [hp] at h; exact absurd h (by simp)
    | some idx1 =>
      rw [hp] at h
      exact ⟨idx, idx1, rfl, hp, h⟩
  | cons x xs ih =>
    intro idx final p rest h
    rw [List.cons_append, InsertAll] at h
    cases hx : idx.Insert stem x with
    | none => rw [hx] at h; exact absurd h (by simp)
    | some idx2 =>
      rw [hx] at h
      obtain ⟨idx0, idx1, h1, h2, h3⟩ := ih idx2 final p rest h
      refine ⟨idx0, idx1, ?_, h2, h3⟩
      rw [InsertAll, hx]
      exact h1

theorem forall₂_mem_left {α β : Type} {R : α → β → Prop} {l1 : List α} {l2 : List β}
    (h : List.Forall₂ R l1 l2) : ∀ d ∈ l1, ∃ a ∈ l2, R d a := by
  induction h with
  | nil => intro d hd; cases hd
  | cons h1 _ ih =>
    intro d hd
    rcases List.mem_cons.1 hd with rfl | hd
    · exact ⟨_, List.mem_cons_self _ _, h1⟩
    · obtain ⟨a, ha, hr⟩ := ih d hd
      exact ⟨a, List.mem_cons_of_mem _ ha, hr⟩

theorem forall₂_mem_right {α β : Type} {R : α → β → Prop} {l1 : List α} {l2 : List β}
    (h : List.Forall₂ R l1 l2) : ∀ a ∈ l2, ∃ d ∈ l1, R d a := by
  induction h with
  | nil => intro a ha; cases ha
  | cons h1 _ ih =>
    intro a ha
    rcases List.mem_cons.1 ha with rfl | ha
    · exact ⟨_, List.mem_cons_self _ _, h1⟩
    · obtain ⟨d, hd, hr⟩ := ih a ha
      exact ⟨d, List.mem_cons_of_mem _ hd, hr⟩

theorem forall₂_pairwise {α β : Type} {R : α → β → Prop} {P : β → β → Prop}
    {Q : α → α → Prop} {l1 : List α} {l2 : List β}
    (h : List.Forall₂ R l1 l2) (hp : l2.Pairwise P)
    (hq : ∀ d a d1 a1, R d a → R d1 a1 → P a a1 → Q d d1) : l1.Pairwise Q := by
  induction h with
  | nil => exact List.Pairwise.nil
  | cons h1 h2 ih =>
    rw [List.pairwise_cons] at hp ⊢
    refine ⟨?_, ih hp.2⟩
    intro d1 hd1
    obtain ⟨a1, ha1, hr⟩ := forall₂_mem_left h2 d1 hd1
    exact hq _ _ _ _ h1 hr (hp.1 a1 ha1)

/-- The segment that a sequence of `Insert` calls leaves is well formed: the
document posts are those of the stored documents, in ascending disjoint
ranges, and every posting list of the dictionary was appended from posts that
lie in a document and not on its last Location. -/
theorem insertAll_segment_wellFormed (stem : List Nat → List Nat)
    (pages : List HtmlParser) (idx : Index)
    (hsize : locationsNeeded pages < U32)
    (hrun : InsertAll stem Index.new pages = some idx) :
    ∃ docs, PostingList.empty.AddDocumentPosts docs = some idx.docEnd ∧ DocPostsOK docs ∧
      ∀ e ∈ idx.dictionary, ∃ posts, PostingList.empty.AddWordPosts posts = some e.2 ∧
        InDocs posts docs ∧ NoPostAtDocEnd posts docs := by
  obtain ⟨hok, hmax, _⟩ := insertAll_segmentOK stem pages Index.new idx segmentOK_new
    (by rw [show Index.new.MaximumLocation = 0 from rfl, Nat.zero_add]; exact hsize) hrun
  rw [show Index.new.MaximumLocation = 0 from rfl, Nat.zero_add] at hmax
  obtain ⟨docs, hdocs, hrel⟩ := hok.docEnd
  have hof := forall₂_mem_left hrel
  have hto := forall₂_mem_right hrel
  refine ⟨docs, hdocs, ⟨?_, ?_, ?_, ?_⟩, ?_⟩
  · refine forall₂_pairwise hrel hok.ordered ?_
    intro d a d1 a1 h1 h2 h3
    rw [h1.2.1, h2.1]
    exact h3
  · intro d hd
    obtain ⟨a, ha, h1, h2, _⟩ := hof d hd
    rw [h1, h2]
    exact (hok.ranges a ha).2.1
  · intro d hd
    obtain ⟨a, ha, _, h2, _⟩ := hof d hd
    rw [h2]
    have := (hok.ranges a ha).2.2
    omega
  · intro d hd
    obtain ⟨a, _, _, _, h3⟩ := hof d hd
    exact h3
  · intro e he
    obtain ⟨posts, h1, _, _, h4⟩ := hok.dict.lists e he
    refine ⟨posts, h1, ?_, ?_⟩
    · intro q hq
      obtain ⟨a, ha, h5, h6⟩ := h4 q hq
      obtain ⟨d, hd, h7, h8, _⟩ := hto a ha
      exact ⟨d, hd, by rw [h7]; exact h5, by rw [h8]; omega⟩
    · intro q hq D hD heq
      obtain ⟨a, ha, h5, h6⟩ := h4 q hq
      obtain ⟨b, hb, h7, h8, _⟩ := hof D hD
      rw [h8] at heq
      -- `q` lies in `a` and on the end of `b`
      obtain ⟨i, hi, hgi⟩ := List.getElem_of_mem ha
      obtain ⟨j, hj, hgj⟩ := List.getElem_of_mem hb
      have hra := (hok.ranges a ha).2.1
      have hrb := (hok.ranges b hb).2.1
      rcases Nat.lt_trichotomy i j with hlt | heq1 | hgt
      · have := List.pairwise_iff_getElem.1 hok.ordered i j hi hj hlt
        rw [hgi, hgj] at this
        omega
      · subst heq1
        rw [hgi] at hgj
        subst hgj
        omega
      · have := List.pairwise_iff_getElem.1 hok.ordered j i hj hi hgt
        rw [hgi, hgj] at this
        omega

/-- Claim C40. After any sequence of `Index::Insert` calls with distinct URLs on
the empty index (asking in total for fewer than `2^32` Locations), the stored
document ranges are ordered by id (`end(id) < start(id')` for `id < id'`, hence
pairwise disjoint), no range contains Location 0, and every word or title post
added for a document lies inside that document's `[start, end]`: for each
inserted page `p`, the call `Insert(p)` extends each posting list of the
dictionary by posts whose locations lie in the range recorded for `p`, which is
the range of the document with the next id in the final index. Hence every
posting list was appended from posts with strictly increasing locations, each
inside a stored document. -/
theorem insert_ranges_ordered_posts_inside (stem : List Nat → List Nat)
    (pages : List HtmlParser) (idx : Index)
    (hdist : (pages.map (fun p => c_str p.pageURL)).Nodup)
    (hsize : locationsNeeded pages < U32)
    (hrun : InsertAll stem Index.new pages = some idx) :
    (∀ (i j : Nat) (a b : DocumentAttributes), i < j → idx.urlTable.docAttributes[i]? = some a →
        idx.urlTable.docAttributes[j]? = some b → a.endLocation < b.startLocation) ∧
    (∀ a ∈ idx.urlTable.docAttributes, 0 < a.startLocation ∧ a.startLocation ≤ a.endLocation) ∧
    (∀ (pre rest : List HtmlParser) (p : HtmlParser), pages = pre ++ p :: rest →
        p.titleWords.length < 40 →
        ∃ idx0 idx1 a, InsertAll stem Index.new pre = some idx0 ∧
          idx0.Insert stem p = some idx1 ∧
          idx.urlTable.docAttributes[idx0.urlTable.docAttributes.length]? = some a ∧
          a.url = c_str p.pageURL ∧
          ∀ key, ∃ added, (idx0.listOf key).AddWordPosts added = some (idx1.listOf key) ∧
            ∀ q ∈ added, a.startLocation ≤ q.startLocation ∧
              q.startLocation ≤ a.endLocation) ∧
    (∀ e ∈ idx.dictionary, ∃ posts, PostingList.empty.AddWordPosts posts = some e.2 ∧
        PostsInside idx.urlTable.docAttributes posts ∧
        (posts.map WordPost.startLocation).Pairwise (· < ·)) := by
  have _ := hdist
  have hz : Index.new.MaximumLocation = 0 := rfl
  obtain ⟨hok, _, _⟩ := insertAll_segmentOK stem pages Index.new idx segmentOK_new
    (by rw [hz, Nat.zero_add]; exact hsize) hrun
  refine ⟨?_, ?_, ?_, ?_⟩
  · intro i j a b hij ha hb
    have hj := (List.getElem?_eq_some.1 hb).1
    have hi : i < idx.urlTable.docAttributes.length := Nat.lt_trans hij hj
    have := List.pairwise_iff_getElem.1 hok.ordered i j hi hj hij
    rw [List.getElem?_eq_getElem hi, Option.some.injEq] at ha
    rw [List.getElem?_eq_getElem hj, Option.some.injEq] at hb
    rw [← ha, ← hb]; exact this
  · intro a ha
    exact ⟨(hok.ranges a ha).1, (hok.ranges a ha).2.1⟩
  · intro pre rest p hpages hT
    rw [hpages] at hrun hsize
    rw [locationsNeeded_append, locationsNeeded_cons] at hsize
    obtain ⟨idx0, idx1, h0, h1, h2⟩ := insertAll_split stem pre Index.new idx p rest hrun
    obtain ⟨hok0, hmax0, _⟩ := insertAll_segmentOK stem pre Index.new idx0 segmentOK_new
      (by rw [hz, Nat.zero_add]; omega) h0
    rw [hz, Nat.zero_add] at hmax0
    obtain ⟨a, ha1, ha2, ha3, ha4, hok1, hmax1, hlists⟩ :=
      insert_new_doc hok0 (by omega) h1 hT
    obtain ⟨_, _, more, hmore⟩ := insertAll_segmentOK stem rest idx1 idx hok1
      (by omega) h2
    refine ⟨idx0, idx1, a, h0, h1, ?_, ha2, ?_⟩
    · rw [hmore, ha1, List.append_assoc, List.singleton_append]
      exact Ranker.getElem?_length_append _ _ _
    · intro key
      obtain ⟨added, hadd, hb⟩ := hlists key
      exact ⟨added, hadd, fun q hq => ⟨(hb q hq).1, by have := (hb q hq).2; omega⟩⟩
  · intro e he
    obtain ⟨posts, h1, h2, _, h4⟩ := hok.dict.lists e he
    exact ⟨posts, h1, postsInside_of_beforeEnd h4, h2⟩

set_option maxRecDepth 100000 in
/-- The two sample pages inserted one after the other: the calls return and the
invariant holds for the resulting index. -/
theorem insert_ranges_ordered_posts_inside_witness :
    ([pageThreeTitleWords, pageTwoTitleWords].map (fun p => c_str p.pageURL)).Nodup ∧
    locationsNeeded [pageThreeTitleWords, pageTwoTitleWords] < U32 ∧
    ∃ idx, InsertAll (fun w => w) Index.new [pageThreeTitleWords, pageTwoTitleWords] = some idx ∧
      (∀ (i j : Nat) (a b : DocumentAttributes), i < j → idx.urlTable.docAttributes[i]? = some a →
          idx.urlTable.docAttributes[j]? = some b → a.endLocation < b.startLocation) ∧
      (∀ a ∈ idx.urlTable.docAttributes,
        0 < a.startLocation ∧ a.startLocation ≤ a.endLocation) ∧
      (∀ (pre rest : List HtmlParser) (p : HtmlParser),
          [pageThreeTitleWords, pageTwoTitleWords] = pre ++ p :: rest →
          p.titleWords.length < 40 →
          ∃ idx0 idx1 a, InsertAll (fun w => w) Index.new pre = some idx0 ∧
            idx0.Insert (fun w => w) p = some idx1 ∧
            idx.urlTable.docAttributes[idx0.urlTable.docAttributes.length]? = some a ∧
            a.url = c_str p.pageURL ∧
            ∀ key, ∃ added, (idx0.listOf key).AddWordPosts added = some (idx1.listOf key) ∧
              ∀ q ∈ added, a.startLocation ≤ q.startLocation ∧
                q.startLocation ≤ a.endLocation) ∧
      (∀ e ∈ idx.dictionary, ∃ posts, PostingList.empty.AddWordPosts posts = some e.2 ∧
          PostsInside idx.urlTable.docAttributes posts ∧
          (posts.map WordPost.startLocation).Pairwise (· < ·)) :=
  ⟨by decide, by decide,
    (InsertAll (fun w => w) Index.new [pageThreeTitleWords, pageTwoTitleWords]).get (by decide),
    (Option.some_get _).symm,
    insert_ranges_ordered_posts_inside (fun w => w) [pageThreeTitleWords, pageTwoTitleWords] _
      (by decide) (by decide) (Option.some_get _).symm⟩

end Index

end SearchEngine

namespace SearchEngine

open SerializedPostingList

/-! ### `GetBucketIndex` and 32-bit arithmetic -/

/-- As long as the product `loc * n` and the sum `maxLoc + 1` fit 32 bits,
`GetBucketIndex` is the exact quotient, which is below `n`. -/
theorem getBucketIndex_exact (loc maxLoc n : Nat) (h0 : 0 < maxLoc) (hl : loc ≤ maxLoc)
    (hn : n ≤ 256) (hprod : loc * n < U32) (hmax : maxLoc + 1 < U32) :
    GetBucketIndex loc maxLoc n = some (loc * n / (maxLoc + 1)) ∧
      (0 < n → loc * n / (maxLoc + 1) < n) := by
  have hq : 0 < n → loc * n / (maxLoc + 1) < n := by
    intro _
    rw [Nat.div_lt_iff_lt_mul (Nat.succ_pos _)]
    calc loc * n ≤ maxLoc * n := Nat.mul_le_mul_right _ hl
      _ < n * (maxLoc + 1) := by rw [Nat.mul_comm]; exact Nat.mul_lt_mul_of_pos_left (Nat.lt_succ_self _) ‹0 < n›
  have hq2 : loc * n / (maxLoc + 1) < 256 := by
    rcases Nat.eq_zero_or_pos n with h | h
    · rw [h, Nat.mul_zero, Nat.zero_div]; decide
    · exact Nat.lt_of_lt_of_le (hq h) hn
  unfold GetBucketIndex
  rw [if_neg (by omega), if_neg (by omega), Nat.mod_eq_of_lt hmax, if_neg (by omega),
    Nat.mod_eq_of_lt hprod, Nat.mod_eq_of_lt hq2]
  exact ⟨rfl, hq⟩

/-- Claim C31 fails on large Locations: the product `loc * skipTableSize` is
taken in 32 bits. For `loc = maxLoc = 2^24` and a table of 256 entries it wraps
to 0, so the bucket is 0 where the exact quotient is 255, and the bucket of the
smaller Location `2^24 - 1` is 255: the index is not monotone. For
`maxLoc = 2^32 - 1` the divisor `maxLoc + 1` wraps to 0. -/
theorem getBucketIndex_product_wraps :
    GetBucketIndex 16777216 16777216 256 = some 0 ∧
    16777216 * 256 / (16777216 + 1) = 255 ∧
    GetBucketIndex 16777215 16777216 256 = some 255 ∧
    GetBucketIndex 4294967295 4294967295 256 = none := by
  decide

end SearchEngine

namespace SearchEngine

open SerializedPost SerializedPostingList

/-! ### The whole skip table: first entry, boundaries, order -/

theorem fillEntries_append_left (A B : List SkipEntry) (hi : Nat) (e : SkipEntry) :
    ∀ i, fillEntries (A ++ B) i (i + A.length) hi e
      = A ++ fillEntries B (i + A.length) (i + A.length) hi e := by
  induction A with
  | nil => intro i; rfl
  | cons x xs ih =>
    intro i
    rw [List.cons_append, fillEntries, if_neg (by rw [List.length_cons]; omega)]
    have := ih (i + 1)
    rw [show i + 1 + xs.length = i + (x :: xs).length by rw [List.length_cons]; omega] at this
    rw [this]; rfl

theorem fillEntries_replicate (z e : SkipEntry) (lo hi : Nat) :
    ∀ m i, lo ≤ i → fillEntries (List.replicate m z) i lo hi e
      = List.replicate (min m (hi + 1 - i)) e ++ List.replicate (m - (hi + 1 - i)) z := by
  intro m
  induction m with
  | zero => intro i _; simp [fillEntries]
  | succ m ih =>
    intro i hi1
    rw [List.replicate_succ, fillEntries, ih (i + 1) (by omega)]
    by_cases hc : i ≤ hi
    · rw [if_pos ⟨hi1, hc⟩]
      have e1 : min (m + 1) (hi + 1 - i) = min m (hi + 1 - (i + 1)) + 1 := by omega
      have e2 : m + 1 - (hi + 1 - i) = m - (hi + 1 - (i + 1)) := by omega
      rw [e1, e2, List.replicate_succ, List.cons_append]
    · rw [if_neg (fun h => hc h.2)]
      have e1 : min (m + 1) (hi + 1 - i) = 0 := by omega
      have e2 : min m (hi + 1 - (i + 1)) = 0 := by omega
      have e3 : m + 1 - (hi + 1 - i) = m + 1 := by omega
      have e4 : m - (hi + 1 - (i + 1)) = m := by omega
      rw [e1, e2, e3, e4, List.replicate_succ]
      rfl

/-- The inner loop of the builders on a table whose entries after `lb` are
still untouched: the entries `lb + 1 .. bucket` become `e`. -/
theorem fill_step (pre : List SkipEntry) (n lb bucket : Nat) (e z : SkipEntry)
    (hpre : pre.length = lb + 1) (h1 : lb < bucket) (h2 : bucket < n) :
    fillEntries (pre ++ List.replicate (n - lb - 1) z) 0 (lb + 1) bucket e
      = (pre ++ List.replicate (bucket - lb) e) ++ List.replicate (n - bucket - 1) z := by
  have := fillEntries_append_left pre (List.replicate (n - lb - 1) z) bucket e 0
  rw [Nat.zero_add, hpre] at this
  rw [this, fillEntries_replicate z e (lb + 1) bucket _ _ (Nat.le_refl _)]
  have e1 : min (n - lb - 1) (bucket + 1 - (lb + 1)) = bucket - lb := by omega
  have e2 : n - lb - 1 - (bucket + 1 - (lb + 1)) = n - bucket - 1 := by omega
  rw [e1, e2, List.append_assoc]

/-- The last loop of the builders: every entry after `lb` becomes `e`. -/
theorem fill_final (pre : List SkipEntry) (n lb : Nat) (e z : SkipEntry)
    (hpre : pre.length = lb + 1) :
    fillEntries (pre ++ List.replicate (n - lb - 1) z) 0 (lb + 1) n e
      = pre ++ List.replicate (n - lb - 1) e := by
  have := fillEntries_append_left pre (List.replicate (n - lb - 1) z) n e 0
  rw [Nat.zero_add, hpre] at this
  rw [this, fillEntries_replicate z e (lb + 1) n _ _ (Nat.le_refl _)]
  have e1 : min (n - lb - 1) (n + 1 - (lb + 1)) = n - lb - 1 := by omega
  have e2 : n - lb - 1 - (n + 1 - (lb + 1)) = 0 := by omega
  rw [e1, e2, List.replicate_zero, List.append_nil]

theorem before_refl (e : SkipEntry) : SkipEntry.Before e e := ⟨Nat.le_refl _, Nat.le_refl _⟩

theorem before_trans {a b c : SkipEntry} (h1 : SkipEntry.Before a b) (h2 : SkipEntry.Before b c) :
    SkipEntry.Before a c := ⟨Nat.le_trans h1.1 h2.1, Nat.le_trans h1.2 h2.2⟩

theorem pairwise_append_replicate (pre : List SkipEntry) (c : Nat) (e : SkipEntry)
    (h1 : pre.Pairwise SkipEntry.Before) (h2 : ∀ x ∈ pre, SkipEntry.Before x e) :
    (pre ++ List.replicate c e).Pairwise SkipEntry.Before := by
  rw [List.pairwise_append]
  refine ⟨h1, ?_, ?_⟩
  · rw [List.pairwise_replicate]
    exact Or.inr (before_refl e)
  · intro a ha b hb
    rw [List.eq_of_mem_replicate hb]
    exact h2 a ha

theorem init_table (n : Nat) (z : SkipEntry) (hn : 0 < n) :
    (List.replicate n z).set 0 z = [z] ++ List.replicate (n - 0 - 1) z := by
  cases n with
  | zero => omega
  | succ m => simp [List.replicate_succ]

/-- The main loop of `BuildWordPostSkipTable` from the boundary before post `k`,
on a table whose entries up to `lastBucket` are in order and at most the
current boundary: it returns, at the end of the data, with a longer such
prefix. -/
theorem buildLoop_table (posts : List WordPost) (hok : WordPostsOK posts)
    (hlen : (encodeWordPosts 0 posts).length < U32) (M n : Nat) (hM : M + 1 < U32)
    (z : SkipEntry) :
    ∀ (fuel k : Nat) (pre : List SkipEntry) (lb : Nat),
    posts.length - k < fuel → k ≤ posts.length → pre.length = lb + 1 → lb < n →
    pre.Pairwise SkipEntry.Before →
    (∀ e ∈ pre, SkipEntry.Before e
      { Offset := wordOffset posts k, PostLocation := wordLocation posts k }) →
    (∀ e ∈ pre, ∃ j, e.Offset = wordOffset posts j ∧ e.PostLocation = wordLocation posts j) →
    ∃ pre1 lb1,
      BuildWordPostSkipTable.loop (encodeWordPosts 0 posts) M n fuel
          (pre ++ List.replicate (n - lb - 1) z) (wordOffset posts k) (wordLocation posts k) lb
        = some (pre1 ++ List.replicate (n - lb1 - 1) z, wordOffset posts posts.length,
            wordLocation posts posts.length, lb1)
      ∧ pre1.length = lb1 + 1 ∧ lb1 < n ∧ pre1.Pairwise SkipEntry.Before
      ∧ (∀ e ∈ pre1, SkipEntry.Before e
          { Offset := wordOffset posts posts.length,
            PostLocation := wordLocation posts posts.length })
      ∧ (∀ e ∈ pre1, ∃ j, e.Offset = wordOffset posts j
          ∧ e.PostLocation = wordLocation posts j)
      ∧ pre <+: pre1 := by
  intro fuel
  induction fuel with
  | zero => intro k pre lb hf; omega
  | succ f ih =>
    intro k pre lb hf hk hpre hlb hmono hbound hval
    unfold BuildWordPostSkipTable.loop
    rcases Nat.lt_or_ge k posts.length with hlt | hge
    · have hq : posts[k]? = some posts[k] := List.getElem?_eq_getElem hlt
      obtain ⟨hdes, hoff⟩ := deserialize_at posts k _ hq hok.2.1
      rw [if_pos ⟨wordOffset_lt posts k hlt, by omega⟩]
      simp only [hdes]
      have hmod : wordOffset posts (k + 1) % U32 = wordOffset posts (k + 1) :=
        Nat.mod_eq_of_lt (Nat.lt_of_le_of_lt (wordOffset_le posts (k + 1)) hlen)
      rw [hoff, hmod, ← wordLocation_succ posts k _ hq]
      obtain ⟨bucket, hb⟩ := getBucketIndex_some (wordLocation posts (k + 1)) M n hM
      rw [hb]
      simp only []
      have hstep : SkipEntry.Before
          { Offset := wordOffset posts k, PostLocation := wordLocation posts k }
          { Offset := wordOffset posts (k + 1), PostLocation := wordLocation posts (k + 1) } := by
        refine ⟨?_, ?_⟩
        · show wordOffset posts k ≤ wordOffset posts (k + 1)
          omega
        · show wordLocation posts k ≤ wordLocation posts (k + 1)
          rw [wordLocation_succ posts k _ hq]
          exact (wordLocation_le_next posts hok k _ hq).1
      by_cases hc : bucket > lb ∧ bucket < n
      · rw [if_pos hc, fill_step pre n lb bucket _ z hpre hc.1 hc.2]
        obtain ⟨pre1, lb1, r1, r2, r3, r4, r5, r6, r7⟩ := ih (k + 1)
          (pre ++ List.replicate (bucket - lb)
            { Offset := wordOffset posts k, PostLocation := wordLocation posts k })
          bucket (by omega) hlt
          (by rw [List.length_append, List.length_replicate, hpre]; omega) hc.2
          (pairwise_append_replicate pre _ _ hmono hbound)
          (by
            intro e he
            rcases List.mem_append.1 he with he | he
            · exact before_trans (hbound e he) hstep
            · rw [List.eq_of_mem_replicate he]; exact hstep)
          (by
            intro e he
            rcases List.mem_append.1 he with he | he
            · exact hval e he
            · rw [List.eq_of_mem_replicate he]; exact ⟨k, rfl, rfl⟩)
        exact ⟨pre1, lb1, r1, r2, r3, r4, r5, r6,
          List.IsPrefix.trans (List.prefix_append _ _) r7⟩
      · rw [if_neg hc]
        exact ih (k + 1) pre lb (by omega) hlt hpre hlb hmono
          (fun e he => before_trans (hbound e he) hstep) hval
    · have hkn : k = posts.length := by omega
      subst hkn
      have hoff := wordOffset_of_ge posts posts.length (Nat.le_refl _)
      rw [if_neg (by rw [hoff]; intro hc; exact Nat.lt_irrefl _ hc.1)]
      exact ⟨pre, lb, rfl, hpre, hlb, hmono, hbound, hval, List.prefix_refl _⟩

/-- The table built by `BuildWordPostSkipTable` for a well-formed list. -/
theorem buildWordPostSkipTable_table (posts : List WordPost) (hok : WordPostsOK posts)
    (hlen : (encodeWordPosts 0 posts).length < U32) (M numPosts : Nat) (hM : M + 1 < U32) :
    ∃ table, BuildWordPostSkipTable (encodeWordPosts 0 posts) M numPosts = some table
      ∧ table.length = ComputeSkipCount numPosts
      ∧ table[0]? = some { Offset := 0, PostLocation := 0 }
      ∧ table.Pairwise SkipEntry.Before
      ∧ ∀ e ∈ table, ∃ k, e.Offset = wordOffset posts k ∧ e.PostLocation = wordLocation posts k
          ∧ (encodeWordPosts 0 posts).drop e.Offset
              = encodeWordPosts e.PostLocation (posts.drop k) := by
  have hn := computeSkipCount_pos numPosts
  obtain ⟨pre1, lb1, r1, r2, r3, r4, r5, r6, r7⟩ := buildLoop_table posts hok hlen M
    (ComputeSkipCount numPosts) hM { Offset := 0, PostLocation := 0 }
    ((encodeWordPosts 0 posts).length + 1) 0 [{ Offset := 0, PostLocation := 0 }] 0
    (by have := encodeWordPosts_length_ge 0 posts; omega) (Nat.zero_le _) rfl hn
    (List.pairwise_singleton _ _)
    (by
      intro e he
      rw [List.mem_singleton] at he
      rw [he]
      exact ⟨Nat.zero_le _, Nat.zero_le _⟩)
    (by
      intro e he
      rw [List.mem_singleton] at he
      rw [he]
      exact ⟨0, (wordOffset_zero posts).symm, (wordLocation_zero posts).symm⟩)
  rw [wordOffset_zero, wordLocation_zero, ← init_table _ _ hn] at r1
  unfold BuildWordPostSkipTable
  simp only []
  rw [r1]
  simp only []
  rw [fill_final pre1 _ lb1 _ _ r2]
  refine ⟨_, rfl, ?_, ?_, ?_, ?_⟩
  · rw [List.length_append, List.length_replicate, r2]; omega
  · obtain ⟨t, ht⟩ := r7
    rw [← ht]; simp
  · exact pairwise_append_replicate pre1 _ _ r4 r5
  · intro e he
    have hk : ∃ k, e.Offset = wordOffset posts k ∧ e.PostLocation = wordLocation posts k := by
      rcases List.mem_append.1 he with he | he
      · exact r6 e he
      · rw [List.eq_of_mem_replicate he]; exact ⟨posts.length, rfl, rfl⟩
    obtain ⟨k, h1, h2⟩ := hk
    exact ⟨k, h1, h2, by rw [h1, h2]; exact encode_drop posts k⟩

theorem docLocation_le_next (docs : List DocumentPost) (hok : DocPostsOK docs) (k : Nat)
    (p : DocumentPost) (hp : docs[k]? = some p) : docLocation docs k ≤ p.endLocation := by
  cases k with
  | zero => rw [docLocation_zero]; exact Nat.zero_le _
  | succ j =>
    have hk : j + 1 < docs.length := by
      rcases Nat.lt_or_ge (j + 1) docs.length with h | h
      · exact h
      · rw [List.getElem?_eq_none h] at hp; cases hp
    have hj : j < docs.length := by omega
    have hq : docs[j]? = some docs[j] := List.getElem?_eq_getElem hj
    rw [docLocation_succ docs j _ hq]
    have h1 := docEnds_increasing docs hok j (j + 1) _ p (Nat.lt_succ_self _) hq hp
    have h2 := hok.2.1 p (List.getElem?_mem hp)
    omega

/-- The main loop of `BuildDocumentPostSkipTable` from the boundary before document `k`,
on a table whose entries up to `lastBucket` are in order and at most the
current boundary: it returns, at the end of the data, with a longer such
prefix. -/
theorem buildDocLoop_table (docs : List DocumentPost) (hok : DocPostsOK docs)
    (hlen : (encodeDocumentPosts 0 docs).length < U32) (M n : Nat) (hM : M + 1 < U32)
    (z : SkipEntry) :
    ∀ (fuel k : Nat) (pre : List SkipEntry) (lb : Nat),
    docs.length - k < fuel → k ≤ docs.length → pre.length = lb + 1 → lb < n →
    pre.Pairwise SkipEntry.Before →
    (∀ e ∈ pre, SkipEntry.Before e
      { Offset := docOffset docs k, PostLocation := docLocation docs k }) →
    (∀ e ∈ pre, ∃ j, e.Offset = docOffset docs j ∧ e.PostLocation = docLocation docs j) →
    ∃ pre1 lb1,
      BuildDocumentPostSkipTable.loop (encodeDocumentPosts 0 docs) M n fuel
          (pre ++ List.replicate (n - lb - 1) z) (docOffset docs k) (docLocation docs k) lb
        = some (pre1 ++ List.replicate (n - lb1 - 1) z, docOffset docs docs.length,
            docLocation docs docs.length, lb1)
      ∧ pre1.length = lb1 + 1 ∧ lb1 < n ∧ pre1.Pairwise SkipEntry.Before
      ∧ (∀ e ∈ pre1, SkipEntry.Before e
          { Offset := docOffset docs docs.length,
            PostLocation := docLocation docs docs.length })
      ∧ (∀ e ∈ pre1, ∃ j, e.Offset = docOffset docs j
          ∧ e.PostLocation = docLocation docs j)
      ∧ pre <+: pre1 := by
  intro fuel
  induction fuel with
  | zero => intro k pre lb hf; omega
  | succ f ih =>
    intro k pre lb hf hk hpre hlb hmono hbound hval
    unfold BuildDocumentPostSkipTable.loop
    rcases Nat.lt_or_ge k docs.length with hlt | hge
    · have hq : docs[k]? = some docs[k] := List.getElem?_eq_getElem hlt
      obtain ⟨hdes, hoff⟩ := deserializeDoc_at docs k _ hq hok
      rw [if_pos ⟨docOffset_lt docs k hlt, by omega⟩]
      simp only [hdes]
      have hmod : docOffset docs (k + 1) % U32 = docOffset docs (k + 1) :=
        Nat.mod_eq_of_lt (Nat.lt_of_le_of_lt (docOffset_le docs (k + 1)) hlen)
      rw [hoff, hmod, ← docLocation_succ docs k _ hq]
      obtain ⟨bucket, hb⟩ := getBucketIndex_some (docLocation docs (k + 1)) M n hM
      rw [hb]
      simp only []
      have hstep : SkipEntry.Before
          { Offset := docOffset docs k, PostLocation := docLocation docs k }
          { Offset := docOffset docs (k + 1), PostLocation := docLocation docs (k + 1) } := by
        refine ⟨?_, ?_⟩
        · show docOffset docs k ≤ docOffset docs (k + 1)
          omega
        · show docLocation docs k ≤ docLocation docs (k + 1)
          rw [docLocation_succ docs k _ hq]
          exact (docLocation_le_next docs hok k _ hq)
      by_cases hc : bucket > lb ∧ bucket < n
      · rw [if_pos hc, fill_step pre n lb bucket _ z hpre hc.1 hc.2]
        obtain ⟨pre1, lb1, r1, r2, r3, r4, r5, r6, r7⟩ := ih (k + 1)
          (pre ++ List.replicate (bucket - lb)
            { Offset := docOffset docs k, PostLocation := docLocation docs k })
          bucket (by omega) hlt
          (by rw [List.length_append, List.length_replicate, hpre]; omega) hc.2
          (pairwise_append_replicate pre _ _ hmono hbound)
          (by
            intro e he
            rcases List.mem_append.1 he with he | he
            · exact before_trans (hbound e he) hstep
            · rw [List.eq_of_mem_replicate he]; exact hstep)
          (by
            intro e he
            rcases List.mem_append.1 he with he | he
            · exact hval e he
            · rw [List.eq_of_mem_replicate he]; exact ⟨k, rfl, rfl⟩)
        exact ⟨pre1, lb1, r1, r2, r3, r4, r5, r6,
          List.IsPrefix.trans (List.prefix_append _ _) r7⟩
      · rw [if_neg hc]
        exact ih (k + 1) pre lb (by omega) hlt hpre hlb hmono
          (fun e he => before_trans (hbound e he) hstep) hval
    · have hkn : k = docs.length := by omega
      subst hkn
      have hoff := docOffset_of_ge docs docs.length (Nat.le_refl _)
      rw [if_neg (by rw [hoff]; intro hc; exact Nat.lt_irrefl _ hc.1)]
      exact ⟨pre, lb, rfl, hpre, hlb, hmono, hbound, hval, List.prefix_refl _⟩

/-- The table built by `BuildDocumentPostSkipTable` for a well-formed list. -/
theorem buildDocumentPostSkipTable_table (docs : List DocumentPost) (hok : DocPostsOK docs)
    (hlen : (encodeDocumentPosts 0 docs).length < U32) (M numPosts : Nat) (hM : M + 1 < U32) :
    ∃ table, BuildDocumentPostSkipTable (encodeDocumentPosts 0 docs) M numPosts = some table
      ∧ table.length = ComputeSkipCount numPosts
      ∧ table[0]? = some { Offset := 0, PostLocation := 0 }
      ∧ table.Pairwise SkipEntry.Before
      ∧ ∀ e ∈ table, ∃ k, e.Offset = docOffset docs k ∧ e.PostLocation = docLocation docs k
          ∧ (encodeDocumentPosts 0 docs).drop e.Offset
              = encodeDocumentPosts e.PostLocation (docs.drop k) := by
  have hn := computeSkipCount_pos numPosts
  obtain ⟨pre1, lb1, r1, r2, r3, r4, r5, r6, r7⟩ := buildDocLoop_table docs hok hlen M
    (ComputeSkipCount numPosts) hM { Offset := 0, PostLocation := 0 }
    ((encodeDocumentPosts 0 docs).length + 1) 0 [{ Offset := 0, PostLocation := 0 }] 0
    (by have := encodeDocumentPosts_length_ge 0 docs; omega) (Nat.zero_le _) rfl hn
    (List.pairwise_singleton _ _)
    (by
      intro e he
      rw [List.mem_singleton] at he
      rw [he]
      exact ⟨Nat.zero_le _, Nat.zero_le _⟩)
    (by
      intro e he
      rw [List.mem_singleton] at he
      rw [he]
      exact ⟨0, (docOffset_zero docs).symm, (docLocation_zero docs).symm⟩)
  rw [docOffset_zero, docLocation_zero, ← init_table _ _ hn] at r1
  unfold BuildDocumentPostSkipTable
  simp only []
  rw [r1]
  simp only []
  rw [fill_final pre1 _ lb1 _ _ r2]
  refine ⟨_, rfl, ?_, ?_, ?_, ?_⟩
  · rw [List.length_append, List.length_replicate, r2]; omega
  · obtain ⟨t, ht⟩ := r7
    rw [← ht]; simp
  · exact pairwise_append_replicate pre1 _ _ r4 r5
  · intro e he
    have hk : ∃ k, e.Offset = docOffset docs k ∧ e.PostLocation = docLocation docs k := by
      rcases List.mem_append.1 he with he | he
      · exact r6 e he
      · rw [List.eq_of_mem_replicate he]; exact ⟨docs.length, rfl, rfl⟩
    obtain ⟨k, h1, h2⟩ := hk
    exact ⟨k, h1, h2, by rw [h1, h2]; exact encodeDoc_drop docs k⟩

/-- Claim C38. For every well-formed word posting list and document posting list
(sorted 32-bit posts, fewer than `2^32` bytes, `maxLocation + 1` not wrapping),
`BuildWordPostSkipTable` and `BuildDocumentPostSkipTable` return a table with
one entry per skip slot in which entry 0 is `(0, 0)`, offsets and locations
are non-decreasing in the entry index, and every entry `(off, loc)` names a
post boundary `k` (possibly the end of the data): `off` is the byte offset of
the boundary, `loc` is the running location there (the location of the last
post before `off`, 0 at the start), and the data from `off` on is the encoding
of the remaining posts relative to `loc`. -/
theorem skipTable_consistent (posts : List WordPost) (docs : List DocumentPost)
    (hok : WordPostsOK posts) (hdok : DocPostsOK docs)
    (hlen : (encodeWordPosts 0 posts).length < U32)
    (hdlen : (encodeDocumentPosts 0 docs).length < U32)
    (M numPosts : Nat) (hM : M + 1 < U32) :
    (∃ table, BuildWordPostSkipTable (encodeWordPosts 0 posts) M numPosts = some table
      ∧ table.length = ComputeSkipCount numPosts
      ∧ table[0]? = some { Offset := 0, PostLocation := 0 }
      ∧ table.Pairwise SkipEntry.Before
      ∧ ∀ e ∈ table, ∃ k, e.Offset = wordOffset posts k ∧ e.PostLocation = wordLocation posts k
          ∧ (encodeWordPosts 0 posts).drop e.Offset
              = encodeWordPosts e.PostLocation (posts.drop k)) ∧
    (∃ table, BuildDocumentPostSkipTable (encodeDocumentPosts 0 docs) M numPosts = some table
      ∧ table.length = ComputeSkipCount numPosts
      ∧ table[0]? = some { Offset := 0, PostLocation := 0 }
      ∧ table.Pairwise SkipEntry.Before
      ∧ ∀ e ∈ table, ∃ k, e.Offset = docOffset docs k ∧ e.PostLocation = docLocation docs k
          ∧ (encodeDocumentPosts 0 docs).drop e.Offset
              = encodeDocumentPosts e.PostLocation (docs.drop k)) :=
  ⟨buildWordPostSkipTable_table posts hok hlen M numPosts hM,
    buildDocumentPostSkipTable_table docs hdok hdlen M numPosts hM⟩

set_option maxRecDepth 100000 in
/-- The sample list of 64 posts and the three sample documents, with
`maxLocation = 318` and 64 posts counted. -/
theorem skipTable_consistent_witness :
    WordPostsOK samplePosts ∧ DocPostsOK sampleDocs ∧
    (encodeWordPosts 0 samplePosts).length < U32 ∧
    (encodeDocumentPosts 0 sampleDocs).length < U32 ∧ 318 + 1 < U32 ∧
    (∃ table, BuildWordPostSkipTable (encodeWordPosts 0 samplePosts) 318 64 = some table
      ∧ table.length = ComputeSkipCount 64
      ∧ table[0]? = some { Offset := 0, PostLocation := 0 }
      ∧ table.Pairwise SkipEntry.Before
      ∧ ∀ e ∈ table, ∃ k, e.Offset = wordOffset samplePosts k
          ∧ e.PostLocation = wordLocation samplePosts k
          ∧ (encodeWordPosts 0 samplePosts).drop e.Offset
              = encodeWordPosts e.PostLocation (samplePosts.drop k)) ∧
    (∃ table, BuildDocumentPostSkipTable (encodeDocumentPosts 0 sampleDocs) 318 64 = some table
      ∧ table.length = ComputeSkipCount 64
      ∧ table[0]? = some { Offset := 0, PostLocation := 0 }
      ∧ table.Pairwise SkipEntry.Before
      ∧ ∀ e ∈ table, ∃ k, e.Offset = docOffset sampleDocs k
          ∧ e.PostLocation = docLocation sampleDocs k
          ∧ (encodeDocumentPosts 0 sampleDocs).drop e.Offset
              = encodeDocumentPosts e.PostLocation (sampleDocs.drop k)) :=
  ⟨by decide, by decide, by decide, by decide, by decide,
    skipTable_consistent samplePosts sampleDocs (by decide) (by decide) (by decide) (by decide)
      318 64 (by decide)⟩

end SearchEngine

namespace SearchEngine

/-! ### `topPositionSpans` of `Ranker::ExtractDynamicFeatures` -/

theorem cursorK_of_ok (w : ISRWord) (posts : List WordPost) (h : WordCursorOK w posts) :
    ∃ k, WordCursorK w posts k := by
  obtain ⟨k, hk, hd, hl, hc⟩ := h.cursor
  exact ⟨k, { pos := { list := h.list, le := hk, data := hd, loc := hl }, cur := hc }⟩

theorem ok_of_cursorK (w : ISRWord) (posts : List WordPost) (k : Nat)
    (h : WordCursorK w posts k) : WordCursorOK w posts :=
  { list := h.pos.list, cursor := ⟨k, h.pos.le, h.pos.data, h.pos.loc, h.cur⟩ }

theorem nextInternal_current (w w1 : ISRWord) (p : Option Post)
    (h : w.NextInternal = some (p, w1)) : p = w1.current.map Post.word := by
  unfold ISRWord.NextInternal at h
  cases hg : w.plist.GetCurrentWord w.data w.currLocation with
  | none => rw [hg] at h; cases h
  | some r =>
    rw [hg] at h
    simp only [Option.some.injEq, Prod.mk.injEq] at h
    rw [← h.2, ← h.1]

theorem map_word_injective (a b : Option WordPost)
    (h : a.map Post.word = b.map Post.word) : a = b := by
  cases a <;> cases b <;> simp at h ⊢
  exact h

/-- `NextInternal` from the boundary before post `k`: the post `k` becomes the
current post. -/
theorem nextInternal_k (w : ISRWord) (posts : List WordPost) (k : Nat)
    (h : WordCursorK w posts k) :
    ∃ w1, w.NextInternal = some (w1.current.map Post.word, w1) ∧ w1.current = posts[k]?
      ∧ WordCursorK w1 posts (min (k + 1) posts.length) := by
  obtain ⟨w1, h1, h2⟩ := ISRWord.nextInternal_at w posts k h.pos
  have h3 := nextInternal_current w w1 _ h1
  have h4 : w1.current = posts[k]? := (map_word_injective _ _ h3).symm
  refine ⟨w1, by rw [h1, h4], h4, { pos := h2, cur := ?_ }⟩
  rcases Nat.lt_or_ge k posts.length with hlt | hge
  · right
    rw [Nat.min_eq_left hlt]
    exact ⟨Nat.succ_pos _, by rw [h4]; rfl⟩
  · left
    rw [h4, List.getElem?_eq_none hge]

namespace Ranker

/-- The scan of one term in `FindBestSpan` returns, and leaves the cursor of the
term consistent. -/
theorem scan_returns (posts : List WordPost) (expected docEnd : Nat) :
    ∀ (fuel k : Nat) (term : ISRWord) (span : Span) (prev : Nat),
      WordCursorK term posts k →
      (posts.length - k) + (if term.current = none then 0 else 1) < fuel →
      ∃ s p t, FindBestSpan.scan expected docEnd fuel (term.current.map Post.word) term span prev
          = some (s, p, t) ∧ WordCursorOK t posts := by
  intro fuel
  induction fuel with
  | zero => intro k term span prev _ hf; omega
  | succ f ih =>
    intro k term span prev hk hf
    cases hc : term.current with
    | none =>
      rw [Option.map_none']
      unfold FindBestSpan.scan
      exact ⟨_, _, _, rfl, ok_of_cursorK _ _ _ hk⟩
    | some wp =>
      rw [Option.map_some']
      unfold FindBestSpan.scan
      simp only []
      by_cases hcond : wp.startLocation ≤ expected + CLOSE_THRESHOLD ∧ wp.startLocation ≤ docEnd
      · rw [if_pos hcond]
        obtain ⟨w1, hn, hcur, hk1⟩ := nextInternal_k term posts k hk
        rw [hn]
        simp only []
        have hle := hk.pos.le
        rw [hc] at hf
        simp only [reduceCtorEq, if_false] at hf
        apply ih _ w1 _ _ hk1
        rcases Nat.lt_or_ge k posts.length with hlt | hge
        · rw [Nat.min_eq_left hlt]
          split <;> omega
        · rw [hcur, List.getElem?_eq_none hge]
          simp only [if_true]
          omega
      · rw [if_neg hcond]
        exact ⟨_, _, _, rfl, ok_of_cursorK _ _ _ hk⟩

/-- The loop over the other terms in `FindBestSpan` returns, and leaves their
cursors consistent. -/
theorem forTerms_returns (fuel targetPos docEnd : Nat) :
    ∀ (terms : List ISRWord) (lists : List (List WordPost)) (es : List Nat) (span : Span)
      (prev : Nat),
      List.Forall₂ WordCursorOK terms lists → lists.length ≤ es.length →
      (∀ posts ∈ lists, posts.length + 1 < fuel) →
      ∃ s ts, FindBestSpan.forTerms fuel targetPos docEnd terms es span prev = some (s, ts)
        ∧ List.Forall₂ WordCursorOK ts lists := by
  intro terms lists
  induction lists generalizing terms with
  | nil =>
    intro es span prev h _ _
    cases h
    exact ⟨_, _, rfl, List.Forall₂.nil⟩
  | cons posts rest ih =>
    intro es span prev h hlen hfuel
    cases h with
    | cons h1 h2 =>
      rename_i term terms1
      cases es with
      | nil => simp at hlen
      | cons e es1 =>
        unfold FindBestSpan.forTerms
        simp only []
        obtain ⟨w1, hs, hok1, _, _, _⟩ := word_seek_spec term posts h1
          (((targetPos + e) % U32 + U64 - CLOSE_THRESHOLD) % U64 % U32)
        rw [hs]
        simp only []
        obtain ⟨k, hk⟩ := cursorK_of_ok w1 posts hok1
        have hf := hfuel posts (List.mem_cons_self _ _)
        have hle := hk.pos.le
        obtain ⟨s1, p1, t1, hscan, hok2⟩ := scan_returns posts ((targetPos + e) % U32) docEnd
          fuel k w1 { span with isExactPhrase := false, isOrdered := false, isClose := false }
          (if e = 1 then targetPos else prev) hk (by split <;> omega)
        rw [hscan]
        simp only []
        obtain ⟨s2, ts2, hrest, hok3⟩ := ih terms1 es1 s1 p1 h2
          (by simpa using hlen) (fun q hq => hfuel q (List.mem_cons_of_mem _ hq))
        rw [hrest]
        exact ⟨_, _, rfl, List.Forall₂.cons hok2 hok3⟩

/-- `FindBestSpan` returns on well-formed lists. -/
theorem findBestSpan_returns (fuel : Nat) (index : IndexBlob) (docs : List DocumentPost)
    (hdoc : FreshDoc index.OpenISREndDoc docs)
    (terms : List ISRWord) (lists : List (List WordPost)) (es : List Nat) (targetPos : Nat)
    (h : List.Forall₂ WordCursorOK terms lists) (hlen : lists.length ≤ es.length)
    (hfuel : ∀ posts ∈ lists, posts.length + 1 < fuel) :
    ∃ s ts, FindBestSpan fuel index terms targetPos es = some (s, ts)
      ∧ List.Forall₂ WordCursorOK ts lists := by
  unfold FindBestSpan
  obtain ⟨d1, hd1, _, _, _⟩ := doc_seek_spec _ docs (freshDoc_ok _ _ hdoc) targetPos
  rw [hd1]
  simp only []
  exact forTerms_returns fuel targetPos _ terms lists es _ _ h hlen hfuel

theorem topCount_drop_of_ge (end_ : Nat) (posts : List WordPost) (k : Nat)
    (h : posts.length ≤ k) : topCount end_ (posts.drop k) = 0 := by
  rw [List.drop_eq_nil_of_le h]; rfl

theorem countSpan_top (features : DynamicFeatures) (span : Span) (wp : WordPost) (nTerms : Nat) :
    (countSpan features span wp nTerms).topPositionSpans =
      features.topPositionSpans + (if wp.startLocation ≤ TOP_POSITION_THRESHOLD then 1 else 0) := by
  unfold countSpan
  simp only []
  split_ifs <;> rfl

theorem firstSpan_top (features : DynamicFeatures) (c : Prop) [Decidable c] (v : Nat) :
    (if c then { features with firstSpanPosition := v } else features).topPositionSpans
      = features.topPositionSpans := by
  split <;> rfl

/-- The loop over the occurrences of the rarest term returns, and adds to
`topPositionSpans` the occurrences from the current one up to `end_` that lie
at or below Location 100. -/
theorem spanLoop_top (fuel : Nat) (index : IndexBlob) (docs : List DocumentPost)
    (hdoc : FreshDoc index.OpenISREndDoc docs) (end_ nTerms : Nat) (es : List Nat)
    (posts : List WordPost) (olists : List (List WordPost))
    (hlen : olists.length ≤ es.length) (hfuel : ∀ q ∈ olists, q.length + 1 < fuel) :
    ∀ (n k : Nat) (rarest : ISRWord) (others : List ISRWord) (features : DynamicFeatures),
      WordCursorK rarest posts k → List.Forall₂ WordCursorOK others olists →
      (posts.length - k) + (if rarest.current = none then 0 else 1) < n →
      ∃ f1 r1 o1,
        ExtractDynamicFeatures.spanLoop fuel index end_ nTerms es n
            (rarest.current.map Post.word) rarest others features = some (f1, r1, o1)
        ∧ f1.topPositionSpans = features.topPositionSpans +
            (match rarest.current with
             | none => 0
             | some _ => topCount end_ (posts.drop (k - 1))) := by
  intro n
  induction n with
  | zero => intro k rarest others features _ _ hf; omega
  | succ m ih =>
    intro k rarest others features hk hoth hf
    cases hc : rarest.current with
    | none =>
      rw [Option.map_none']
      unfold ExtractDynamicFeatures.spanLoop
      exact ⟨_, _, _, rfl, rfl⟩
    | some wp =>
      rw [Option.map_some']
      have hkc := hk.cur
      rw [hc] at hkc
      have hk0 : 0 < k := by
        rcases hkc with h | h
        · cases h
        · exact h.1
      have hq : posts[k - 1]? = some wp := by
        rcases hkc with h | h
        · cases h
        · exact h.2
      have hdrop : posts.drop (k - 1) = wp :: posts.drop k := by
        have := drop_of_getElem? posts (k - 1) wp hq
        rw [Nat.sub_add_cancel hk0] at this
        exact this
      unfold ExtractDynamicFeatures.spanLoop
      simp only []
      by_cases hcond : wp.startLocation ≤ end_
      · rw [if_pos hcond]
        obtain ⟨sp, o1, hfb, hoth1⟩ := findBestSpan_returns fuel index docs hdoc others olists es
          wp.startLocation hoth hlen hfuel
        rw [hfb]
        simp only []
        obtain ⟨w1, hn, hcur, hk1⟩ := nextInternal_k rarest posts k hk
        rw [hn]
        simp only []
        have hle := hk.pos.le
        rw [hc] at hf
        simp only [reduceCtorEq, if_false] at hf
        have hmeasure : posts.length - min (k + 1) posts.length +
            (if w1.current = none then 0 else 1) < m := by
          rcases Nat.lt_or_ge k posts.length with hlt | hge
          · rw [Nat.min_eq_left hlt]
            split <;> omega
          · rw [hcur, List.getElem?_eq_none hge]
            simp only [if_true]
            omega
        obtain ⟨f1, r1, o2, hloop, htop⟩ := ih _ w1 o1
          (countSpan
            (if features.firstSpanPosition = U32 - 1 then
              { features with firstSpanPosition := wp.startLocation }
            else features) sp wp nTerms) hk1 hoth1 hmeasure
        refine ⟨f1, r1, o2, hloop, ?_⟩
        rw [htop, hdrop, countSpan_top, firstSpan_top]
        have hrest : (match w1.current with
            | none => 0
            | some _ => topCount end_ (posts.drop (min (k + 1) posts.length - 1)))
            = topCount end_ (posts.drop k) := by
          rcases Nat.lt_or_ge k posts.length with hlt | hge
          · rw [Nat.min_eq_left hlt, hcur, List.getElem?_eq_getElem hlt]
            rfl
          · rw [hcur, List.getElem?_eq_none hge, topCount_drop_of_ge _ _ _ hge]
        rw [hrest]
        show _ = features.topPositionSpans + topCount end_ (wp :: posts.drop k)
        rw [topCount, if_pos hcond, Nat.add_assoc]
      · rw [if_neg hcond]
        refine ⟨_, _, _, rfl, ?_⟩
        rw [hdrop, topCount, if_neg hcond]
        rfl

/-- The first loop of `ExtractDynamicFeatures` returns, leaves the terms as they
were, and the rarest term it names is one of the terms. -/
theorem scanTerms_returns (fuel start end_ : Nat) (urlStr : List Nat) :
    ∀ (terms : List ISRWord) (lists : List (List WordPost)) (i : Nat) (st : TermScan),
      List.Forall₂ WordCursorOK terms lists → (∀ posts ∈ lists, posts.length + 1 < fuel) →
      ∃ st1, ExtractDynamicFeatures.scanTerms fuel start end_ urlStr terms i st
          = some (st1, terms)
        ∧ ∀ r, st1.rarestTermIndex = some r →
            st.rarestTermIndex = some r ∨ (i ≤ r ∧ r < i + terms.length) := by
  intro terms lists
  induction lists generalizing terms with
  | nil =>
    intro i st h _
    cases h
    exact ⟨st, rfl, fun r hr => Or.inl hr⟩
  | cons posts rest ih =>
    intro i st h hfuel
    cases h with
    | cons h1 h2 =>
      rename_i term terms1
      obtain ⟨count, w1, hocc⟩ := ISRWord.getOccurrences_returns term posts h1 start end_ fuel
        (hfuel posts (List.mem_cons_self _ _))
      have hframe := ISRWord.getOccurrences_frame fuel term start end_ count w1 hocc
      subst hframe
      unfold ExtractDynamicFeatures.scanTerms
      rw [hocc]
      simp only []
      obtain ⟨st1, hrec, hidx⟩ := ih terms1 (i + 1) _ h2
        (fun q hq => hfuel q (List.mem_cons_of_mem _ hq))
      rw [hrec]
      refine ⟨st1, rfl, ?_⟩
      intro r hr
      rcases hidx r hr with h3 | h3
      · simp only [] at h3
        split at h3
        · simp only [Option.some.injEq] at h3
          right
          rw [List.length_cons]
          omega
        · exact Or.inl h3
      · right
        rw [List.length_cons]
        omega

theorem forall₂_eraseIdx {α β : Type} (R : α → β → Prop) :
    ∀ (l1 : List α) (l2 : List β) (r : Nat), List.Forall₂ R l1 l2 →
      List.Forall₂ R (l1.eraseIdx r) (l2.eraseIdx r) := by
  intro l1 l2 r h
  induction h generalizing r with
  | nil => exact List.Forall₂.nil
  | cons h1 _ ih =>
    cases r with
    | zero => simpa using by assumption
    | succ r => exact List.Forall₂.cons h1 (ih r)

theorem forall₂_getElem? {α β : Type} (R : α → β → Prop) :
    ∀ (l1 : List α) (l2 : List β) (r : Nat) (a : α), List.Forall₂ R l1 l2 →
      l1[r]? = some a → ∃ b, l2[r]? = some b ∧ R a b := by
  intro l1 l2 r a h
  induction h generalizing r with
  | nil => intro ha; simp at ha
  | cons h1 _ ih =>
    intro ha
    cases r with
    | zero =>
      simp only [List.getElem?_cons_zero, Option.some.injEq] at ha
      rw [← ha]
      exact ⟨_, List.getElem?_cons_zero, h1⟩
    | succ r =>
      simp only [List.getElem?_cons_succ] at ha ⊢
      exact ih r ha

theorem filter_ne_range_length (r : Nat) :
    ∀ n s, n ≤ ((List.range' s n).filter (fun i => i != r)).length + 1
      ∧ (r < s → ((List.range' s n).filter (fun i => i != r)).length = n) := by
  intro n
  induction n with
  | zero => intro s; simp
  | succ n ih =>
    intro s
    rw [List.range'_succ]
    obtain ⟨h1, h2⟩ := ih (s + 1)
    by_cases hs : s = r
    · subst hs
      have := h2 (Nat.lt_succ_self _)
      simp only [List.filter_cons, bne_self_eq_false, Bool.false_eq_true, if_false]
      exact ⟨by omega, fun h => absurd h (Nat.lt_irrefl _)⟩
    · have hne : (s != r) = true := by simpa using hs
      simp only [List.filter_cons, hne, if_true, List.length_cons]
      exact ⟨by omega, fun h => by rw [h2 (by omega)]⟩

theorem expectedPositionsOf_length (n r : Nat) : n ≤ (expectedPositionsOf n r).length + 1 := by
  unfold expectedPositionsOf
  rw [List.length_map, List.range_eq_range']
  exact (filter_ne_range_length r n 0).1

theorem topOccurrences_cons (start end_ : Nat) (p : WordPost) (ps : List WordPost) :
    topOccurrences start end_ (p :: ps) =
      (if start ≤ p.startLocation ∧ p.startLocation ≤ end_
          ∧ p.startLocation ≤ TOP_POSITION_THRESHOLD then 1 else 0)
        + topOccurrences start end_ ps := by
  unfold topOccurrences
  rw [List.filter_cons]
  by_cases h : start ≤ p.startLocation ∧ p.startLocation ≤ end_
      ∧ p.startLocation ≤ TOP_POSITION_THRESHOLD
  · rw [if_pos h, if_pos (by simpa using h), List.length_cons]; omega
  · rw [if_neg h, if_neg (by simpa using h)]; omega

theorem topOccurrences_eq_zero (start end_ : Nat) (posts : List WordPost)
    (h : ∀ p ∈ posts, ¬ (start ≤ p.startLocation ∧ p.startLocation ≤ end_
      ∧ p.startLocation ≤ TOP_POSITION_THRESHOLD)) : topOccurrences start end_ posts = 0 := by
  induction posts with
  | nil => rfl
  | cons p ps ih =>
    rw [topOccurrences_cons, if_neg (h p (List.mem_cons_self _ _)),
      ih (fun q hq => h q (List.mem_cons_of_mem _ hq))]

/-- On sorted posts at or after `start`, the posts counted are the leading ones
up to `end_`. -/
theorem topOccurrences_of_ge (start end_ : Nat) :
    ∀ posts : List WordPost, (posts.map WordPost.startLocation).Pairwise (· < ·) →
      (∀ p ∈ posts, start ≤ p.startLocation) →
      topOccurrences start end_ posts = topCount end_ posts := by
  intro posts
  induction posts with
  | nil => intro _ _; rfl
  | cons p ps ih =>
    intro hs hge
    rw [List.map_cons, List.pairwise_cons] at hs
    have hp := hge p (List.mem_cons_self _ _)
    rw [topOccurrences_cons, topCount]
    by_cases he : p.startLocation ≤ end_
    · rw [if_pos he, ih hs.2 (fun q hq => hge q (List.mem_cons_of_mem _ hq))]
      by_cases ht : p.startLocation ≤ TOP_POSITION_THRESHOLD
      · rw [if_pos ⟨hp, he, ht⟩, if_pos ht]
      · rw [if_neg (fun h => ht h.2.2), if_neg ht]
    · rw [if_neg he, if_neg (fun h => he h.2.1), Nat.zero_add]
      apply topOccurrences_eq_zero
      intro q hq hc
      have := hs.1 q.startLocation (List.mem_map.2 ⟨q, hq, rfl⟩)
      omega

/-- On a sorted list the posts counted are the leading ones up to `end_` from
the first post at or after `start`. -/
theorem topOccurrences_eq_topCount (start end_ : Nat) :
    ∀ posts : List WordPost, (posts.map WordPost.startLocation).Pairwise (· < ·) →
      topOccurrences start end_ posts = topCount end_ (posts.drop (countBelow start posts)) := by
  intro posts
  induction posts with
  | nil => intro _; rfl
  | cons p ps ih =>
    intro hs
    unfold countBelow
    by_cases hp : start ≤ p.startLocation
    · rw [if_pos hp, List.drop_zero]
      apply topOccurrences_of_ge start end_ _ hs
      intro q hq
      rcases List.mem_cons.1 hq with rfl | hq
      · exact hp
      · rw [List.map_cons, List.pairwise_cons] at hs
        have := hs.1 q.startLocation (List.mem_map.2 ⟨q, hq, rfl⟩)
        omega
    · rw [if_neg hp, List.drop_succ_cons, topOccurrences_cons, if_neg (fun h => hp h.1),
        Nat.zero_add]
      rw [List.map_cons, List.pairwise_cons] at hs
      exact ih hs.2

theorem sorted_getElem?_inj (posts : List WordPost)
    (hs : (posts.map WordPost.startLocation).Pairwise (· < ·)) (i j : Nat) (a : WordPost)
    (hi : posts[i]? = some a) (hj : posts[j]? = some a) : i = j := by
  rw [List.pairwise_map] at hs
  have hil := (List.getElem?_eq_some.1 hi).1
  have hjl := (List.getElem?_eq_some.1 hj).1
  have hia := (List.getElem?_eq_some.1 hi).2
  have hja := (List.getElem?_eq_some.1 hj).2
  rcases Nat.lt_trichotomy i j with h | h | h
  · have := List.pairwise_iff_getElem.1 hs i j hil hjl h
    rw [hia, hja] at this
    exact absurd this (Nat.lt_irrefl _)
  · exact h
  · have := List.pairwise_iff_getElem.1 hs j i hjl hil h
    rw [hia, hja] at this
    exact absurd this (Nat.lt_irrefl _)

theorem leadCount_le (end_ : Nat) (posts : List WordPost) : leadCount end_ posts ≤ posts.length := by
  induction posts with
  | nil => exact Nat.le_refl _
  | cons p ps ih =>
    unfold leadCount
    split
    · rw [List.length_cons]; omega
    · exact Nat.zero_le _

theorem sorted_length_le (l : List Nat) (hs : l.Pairwise (· < ·)) :
    ∀ m B, (∀ x ∈ l, m ≤ x) → (∀ x ∈ l, x < B) → l.length + m ≤ B ∨ l = [] := by
  induction l with
  | nil => intro _ _ _ _; exact Or.inr rfl
  | cons a as ih =>
    intro m B hm hB
    left
    rw [List.pairwise_cons] at hs
    have ha := hm a (List.mem_cons_self _ _)
    have hb := hB a (List.mem_cons_self _ _)
    rcases ih hs.2 (a + 1) B (fun x hx => hs.1 x hx)
      (fun x hx => hB x (List.mem_cons_of_mem _ hx)) with h | h
    · rw [List.length_cons]; omega
    · subst h
      simp only [List.length_singleton]
      omega

theorem wordPosts_length_lt (posts : List WordPost) (w : SerializedPostingList)
    (h : WordListOK w posts) : posts.length < U32 := by
  have hs := h.sorted.1
  have hU : U32 = 4294967296 := by decide
  rcases sorted_length_le _ hs 0 (U32 - 1) (fun _ _ => Nat.zero_le _)
    (by
      intro x hx
      obtain ⟨p, hp, rfl⟩ := List.mem_map.1 hx
      have := h.noWrap p hp
      omega) with h1 | h1
  · rw [List.length_map] at h1
    rw [hU] at h1 ⊢
    omega
  · have : posts = [] := List.map_eq_nil_iff.1 h1
    rw [this]
    decide

theorem occurrences_cons (start end_ : Nat) (p : WordPost) (ps : List WordPost) :
    occurrences start end_ (p :: ps) =
      (if start ≤ p.startLocation ∧ p.startLocation ≤ end_ then 1 else 0)
        + occurrences start end_ ps := by
  unfold occurrences
  rw [List.filter_cons]
  by_cases h : start ≤ p.startLocation ∧ p.startLocation ≤ end_
  · rw [if_pos h, if_pos (by simpa using h), List.length_cons]; omega
  · rw [if_neg h, if_neg (by simpa using h)]; omega

theorem occurrences_eq_zero (start end_ : Nat) (posts : List WordPost)
    (h : ∀ p ∈ posts, ¬ (start ≤ p.startLocation ∧ p.startLocation ≤ end_)) :
    occurrences start end_ posts = 0 := by
  induction posts with
  | nil => rfl
  | cons p ps ih =>
    rw [occurrences_cons, if_neg (h p (List.mem_cons_self _ _)),
      ih (fun q hq => h q (List.mem_cons_of_mem _ hq))]

theorem occurrences_le (start end_ : Nat) (posts : List WordPost) :
    occurrences start end_ posts ≤ posts.length := by
  unfold occurrences
  exact List.length_filter_le _ _

theorem occurrences_of_ge (start end_ : Nat) :
    ∀ posts : List WordPost, (posts.map WordPost.startLocation).Pairwise (· < ·) →
      (∀ p ∈ posts, start ≤ p.startLocation) →
      occurrences start end_ posts = leadCount end_ posts := by
  intro posts
  induction posts with
  | nil => intro _ _; rfl
  | cons p ps ih =>
    intro hs hge
    rw [List.map_cons, List.pairwise_cons] at hs
    have hp := hge p (List.mem_cons_self _ _)
    rw [occurrences_cons, leadCount]
    by_cases he : p.startLocation ≤ end_
    · rw [if_pos he, ih hs.2 (fun q hq => hge q (List.mem_cons_of_mem _ hq)), if_pos ⟨hp, he⟩]
      omega
    · rw [if_neg he, if_neg (fun h => he h.2), Nat.zero_add]
      apply occurrences_eq_zero
      intro q hq hc
      have := hs.1 q.startLocation (List.mem_map.2 ⟨q, hq, rfl⟩)
      omega

/-- On a sorted list the posts inside `[start, end_]` are the leading ones up to
`end_` from the first post at or after `start`. -/
theorem occurrences_eq_leadCount (start end_ : Nat) :
    ∀ posts : List WordPost, (posts.map WordPost.startLocation).Pairwise (· < ·) →
      occurrences start end_ posts = leadCount end_ (posts.drop (countBelow start posts)) := by
  intro posts
  induction posts with
  | nil => intro _; rfl
  | cons p ps ih =>
    intro hs
    unfold countBelow
    by_cases hp : start ≤ p.startLocation
    · rw [if_pos hp, List.drop_zero]
      apply occurrences_of_ge start end_ _ hs
      intro q hq
      rcases List.mem_cons.1 hq with rfl | hq
      · exact hp
      · rw [List.map_cons, List.pairwise_cons] at hs
        have := hs.1 q.startLocation (List.mem_map.2 ⟨q, hq, rfl⟩)
        omega
    · rw [if_neg hp, List.drop_succ_cons, occurrences_cons, if_neg (fun h => hp h.1),
        Nat.zero_add]
      rw [List.map_cons, List.pairwise_cons] at hs
      exact ih hs.2

/-- The counting loop of `GetOccurrencesInCurrDoc` adds the posts from the
current one up to `e`. -/
theorem getOccurrences_loop_count (posts : List WordPost) (e : Nat) :
    ∀ (fuel k : Nat) (w : ISRWord) (count : Nat),
      WordCursorK w posts k →
      (posts.length - k) + (if w.current = none then 0 else 1) < fuel →
      count + (if w.current = none then 0 else posts.length + 1 - k) < U32 →
      ∃ w1, ISRWord.GetOccurrencesInCurrDoc.loop e fuel (w.current.map Post.word) w count
          = some (count + (match w.current with
                           | none => 0
                           | some _ => leadCount e (posts.drop (k - 1))), w1) := by
  intro fuel
  induction fuel with
  | zero => intro k w count _ hf _; omega
  | succ m ih =>
    intro k w count hk hf hcount
    cases hc : w.current with
    | none =>
      rw [Option.map_none']
      unfold ISRWord.GetOccurrencesInCurrDoc.loop
      exact ⟨_, rfl⟩
    | some wp =>
      rw [Option.map_some']
      have hkc := hk.cur
      rw [hc] at hkc
      have hk0 : 0 < k := by
        rcases hkc with h | h
        · cases h
        · exact h.1
      have hq : posts[k - 1]? = some wp := by
        rcases hkc with h | h
        · cases h
        · exact h.2
      have hdrop : posts.drop (k - 1) = wp :: posts.drop k := by
        have := drop_of_getElem? posts (k - 1) wp hq
        rw [Nat.sub_add_cancel hk0] at this
        exact this
      unfold ISRWord.GetOccurrencesInCurrDoc.loop
      simp only [Post.GetStartLocation]
      by_cases hcond : wp.startLocation ≤ e
      · rw [if_pos hcond]
        obtain ⟨w1, hn, hcur, hk1⟩ := nextInternal_k w posts k hk
        rw [hn]
        simp only []
        have hle := hk.pos.le
        rw [hc] at hf hcount
        simp only [reduceCtorEq, if_false] at hf hcount
        have hmeasure : posts.length - min (k + 1) posts.length +
            (if w1.current = none then 0 else 1) < m := by
          rcases Nat.lt_or_ge k posts.length with hlt | hge
          · rw [Nat.min_eq_left hlt]
            split <;> omega
          · rw [hcur, List.getElem?_eq_none hge]
            simp only [if_true]
            omega
        have hklt : k - 1 < posts.length := (List.getElem?_eq_some.1 hq).1
        have hmod : (count + 1) % U32 = count + 1 := Nat.mod_eq_of_lt (by omega)
        rw [hmod]
        have hcount1 : count + 1 + (if w1.current = none then 0
            else posts.length + 1 - min (k + 1) posts.length) < U32 := by
          rcases Nat.lt_or_ge k posts.length with hlt | hge
          · rw [Nat.min_eq_left hlt]
            split <;> omega
          · rw [hcur, List.getElem?_eq_none hge]
            simp only [if_true]
            omega
        obtain ⟨w2, hloop⟩ := ih _ w1 (count + 1) hk1 hmeasure hcount1
        refine ⟨w2, ?_⟩
        rw [hloop, hdrop]
        have hrest : (match w1.current with
            | none => 0
            | some _ => leadCount e (posts.drop (min (k + 1) posts.length - 1)))
            = leadCount e (posts.drop k) := by
          rcases Nat.lt_or_ge k posts.length with hlt | hge
          · rw [Nat.min_eq_left hlt, hcur, List.getElem?_eq_getElem hlt]
            rfl
          · rw [hcur, List.getElem?_eq_none hge, List.drop_eq_nil_of_le hge]
            rfl
        rw [hrest]
        show _ = some (count + leadCount e (wp :: posts.drop k), w2)
        rw [leadCount, if_pos hcond]
        congr 2
        omega
      · rw [if_neg hcond]
        refine ⟨w, ?_⟩
        rw [hdrop, leadCount, if_neg hcond]
        rfl

/-- For a term whose cursor has not passed a post at or after `start`,
`GetOccurrencesInCurrDoc(start, end)` returns the number of posts of the term
inside `[start, end]`, and leaves the term as it was. -/
theorem getOccurrences_count (w : ISRWord) (posts : List WordPost)
    (h : WordCursorOK w posts) (start end_ fuel : Nat) (hnp : NotPast start w posts)
    (hf : posts.length + 1 < fuel) :
    w.GetOccurrencesInCurrDoc fuel start end_ = some (occurrences start end_ posts, w) := by
  obtain ⟨count, w1, hr⟩ := ISRWord.getOccurrences_returns w posts h start end_ fuel hf
  have hw1 := ISRWord.getOccurrences_frame fuel w start end_ count w1 hr
  subst hw1
  rw [hr]
  congr 2
  have hsorted := h.list.sorted.1
  unfold ISRWord.GetOccurrencesInCurrDoc at hr
  by_cases hg : w1.current.isSome ∧ w1.GetStartLocation > end_
  · rw [if_pos hg] at hr
    simp only [Option.some.injEq, Prod.mk.injEq, and_true] at hr
    rw [← hr]
    symm
    obtain ⟨c, hc⟩ := Option.isSome_iff_exists.mp hg.1
    have hgt : end_ < c.startLocation := by
      have := hg.2
      simpa [ISRWord.GetStartLocation, hc] using this
    apply occurrences_eq_zero
    intro p hp hin
    unfold NotPast seekCurrent at hnp
    rw [hc] at hnp
    simp only [] at hnp
    by_cases hsc : start ≤ c.startLocation
    · rw [if_pos hsc] at hnp
      obtain ⟨c1, h1, h2⟩ := firstPostGE_le start posts hsorted p hp hin.1
      rw [← hnp] at h1
      cases h1
      omega
    · omega
  · rw [if_neg hg] at hr
    simp only [] at hr
    have h0 : WordCursorOK ({ w1 with current := none } : ISRWord) posts := by
      obtain ⟨k, hk, hd, hl, _⟩ := h.cursor
      exact { list := h.list, cursor := ⟨k, hk, hd, hl, Or.inl rfl⟩ }
    obtain ⟨w2, hs, hok2, _, _, hcur2⟩ := word_seek_spec _ posts h0 start
    rw [hs] at hr
    simp only [] at hr
    obtain ⟨k, hk⟩ := cursorK_of_ok w2 posts hok2
    have hlen := wordPosts_length_lt posts _ h.list
    have hcount0 : 0 + (if w2.current = none then 0 else posts.length + 1 - k) < U32 := by
      have hU : U32 = 4294967296 := by decide
      rcases hk.cur with h | h
      · rw [if_pos h, hU]
        omega
      · have := h.1
        split <;> omega
    obtain ⟨w3, hloop⟩ := getOccurrences_loop_count posts end_ fuel k w2 0 hk
      (by split <;> omega) hcount0
    rw [hloop] at hr
    simp only [Option.some.injEq, Prod.mk.injEq] at hr
    rw [← hr.1, Nat.zero_add, occurrences_eq_leadCount start end_ posts hsorted]
    have hfirst : w2.current = posts[countBelow start posts]? := by
      rw [hcur2]
      show firstPostGE start posts = _
      rw [firstPostGE_eq]
    cases hc : w2.current with
    | none =>
      rw [hc] at hfirst
      have hge : posts.length ≤ countBelow start posts := by
        rcases Nat.lt_or_ge (countBelow start posts) posts.length with h | h
        · rw [List.getElem?_eq_getElem h] at hfirst; cases hfirst
        · exact h
      rw [List.drop_eq_nil_of_le hge]
      rfl
    | some wp =>
      have hkc := hk.cur
      rw [hc] at hkc hfirst
      rcases hkc with h | h
      · cases h
      · have := sorted_getElem?_inj posts hsorted _ _ wp h.2 hfirst.symm
        rw [this]

theorem isRarest_unique (counts : List Nat) (r r1 : Nat) (h : IsRarest counts r)
    (h1 : IsRarest counts r1) : r = r1 := by
  obtain ⟨c, hc, hpos, hmin, hfirst⟩ := h
  obtain ⟨c1, hc1, hpos1, hmin1, hfirst1⟩ := h1
  rcases Nat.lt_trichotomy r r1 with hlt | heq | hgt
  · have a := hfirst1 r c hlt hc
    have b := hmin r1 c1 hc1
    omega
  · exact heq
  · have a := hfirst r1 c1 hgt hc1
    have b := hmin1 r c hc
    omega

theorem rarestSoFar_step (counts : List Nat) (st : TermScan) (f : Nat) (hasUrl : Bool)
    (tf : List Nat) (h : RarestSoFar counts st) (hf : f < U32) :
    RarestSoFar (counts ++ [f])
      { termFrequencies := tf, hasUrlMatch := hasUrl,
        minFreq := if decide (f > 0 ∧ f < st.minFreq) = true then f else st.minFreq,
        rarestTermIndex :=
          if decide (f > 0 ∧ f < st.minFreq) = true then some counts.length
          else st.rarestTermIndex } := by
  obtain ⟨hb, hcase⟩ := h
  have hU : U32 = 4294967296 := by decide
  have hU64 : U64 = 18446744073709551616 := by decide
  have hget : ∀ j cj, (counts ++ [f])[j]? = some cj →
      (j < counts.length ∧ counts[j]? = some cj) ∨ (j = counts.length ∧ cj = f) := by
    intro j cj hj
    rcases Nat.lt_or_ge j counts.length with hlt | hge
    · rw [List.getElem?_append_left hlt] at hj
      exact Or.inl ⟨hlt, hj⟩
    · rw [List.getElem?_append_right hge] at hj
      have hj0 : j - counts.length = 0 := by
        rcases Nat.eq_zero_or_pos (j - counts.length) with h | h
        · exact h
        · rw [List.getElem?_eq_none (by rw [List.length_singleton]; omega)] at hj
          cases hj
      rw [hj0] at hj
      simp only [List.getElem?_cons_zero, Option.some.injEq] at hj
      exact Or.inr ⟨by omega, hj.symm⟩
  have hlast : (counts ++ [f])[counts.length]? = some f := by
    rw [List.getElem?_append_right (Nat.le_refl _), Nat.sub_self]
    rfl
  refine ⟨?_, ?_⟩
  · intro c hc
    rcases List.mem_append.1 hc with hc | hc
    · exact hb c hc
    · rw [List.mem_singleton] at hc
      rw [hc]; exact hf
  · rcases hcase with ⟨hnone, hmf, hzero⟩ | ⟨r, hr, hcr, c, hc, hpos, hmin, hfirst⟩
    · by_cases hpf : 0 < f
      · right
        have hrarer : f > 0 ∧ f < st.minFreq := ⟨hpf, by rw [hmf, hU64]; omega⟩
        refine ⟨counts.length, ?_, ?_, f, hlast, hpf, ?_, ?_⟩
        · simp only [decide_eq_true_eq, if_pos hrarer]
        · simp only [decide_eq_true_eq, if_pos hrarer]
          exact hlast
        · intro j cj hj
          rcases hget j cj hj with ⟨_, h1⟩ | ⟨_, h1⟩
          · exact Or.inl (hzero cj (List.getElem?_mem h1))
          · right; omega
        · intro j cj hjr hj
          rcases hget j cj hj with ⟨_, h1⟩ | ⟨h0, _⟩
          · exact Or.inl (hzero cj (List.getElem?_mem h1))
          · omega
      · left
        have hrarer : ¬ (f > 0 ∧ f < st.minFreq) := fun h => hpf h.1
        refine ⟨?_, ?_, ?_⟩
        · simp only [decide_eq_true_eq, if_neg hrarer]
          exact hnone
        · simp only [decide_eq_true_eq, if_neg hrarer]
          exact hmf
        · intro c hc
          rcases List.mem_append.1 hc with hc | hc
          · exact hzero c hc
          · rw [List.mem_singleton] at hc
            omega
    · right
      rw [hc, Option.some.injEq] at hcr
      have hrlt : r < counts.length := (List.getElem?_eq_some.1 hc).1
      by_cases hrarer : f > 0 ∧ f < st.minFreq
      · refine ⟨counts.length, ?_, ?_, f, hlast, hrarer.1, ?_, ?_⟩
        · simp only [decide_eq_true_eq, if_pos hrarer]
        · simp only [decide_eq_true_eq, if_pos hrarer]
          exact hlast
        · intro j cj hj
          rcases hget j cj hj with ⟨_, h1⟩ | ⟨_, h1⟩
          · have := hmin j cj h1
            have := hrarer.2
            omega
          · right; omega
        · intro j cj hjr hj
          rcases hget j cj hj with ⟨_, h1⟩ | ⟨h0, _⟩
          · have := hmin j cj h1
            have := hrarer.2
            omega
          · omega
      · refine ⟨r, ?_, ?_, c, ?_, hpos, ?_, ?_⟩
        · simp only [decide_eq_true_eq, if_neg hrarer]
          exact hr
        · simp only [decide_eq_true_eq, if_neg hrarer]
          rw [List.getElem?_append_left hrlt, hc, hcr]
        · rw [List.getElem?_append_left hrlt]
          exact hc
        · intro j cj hj
          rcases hget j cj hj with ⟨_, h1⟩ | ⟨_, h1⟩
          · exact hmin j cj h1
          · have : ¬ (0 < f ∧ f < c) := by rw [hcr]; exact hrarer
            omega
        · intro j cj hjr hj
          rcases hget j cj hj with ⟨_, h1⟩ | ⟨h0, _⟩
          · exact hfirst j cj hjr h1
          · omega

/-- The first loop of `ExtractDynamicFeatures` returns, leaves the terms as they
were, and names the rarest term: the one with the smallest non-zero number of
occurrences in `[start, end]`, the first on a tie, or none when no term occurs
in the range. -/
theorem scanTerms_rarest (fuel start end_ : Nat) (urlStr : List Nat) :
    ∀ (lists : List (List WordPost)) (terms : List ISRWord) (counts : List Nat) (st : TermScan),
      List.Forall₂ (fun t l => WordCursorOK t l ∧ NotPast start t l) terms lists →
      (∀ posts ∈ lists, posts.length + 1 < fuel) → RarestSoFar counts st →
      ∃ st1, ExtractDynamicFeatures.scanTerms fuel start end_ urlStr terms counts.length st
          = some (st1, terms)
        ∧ RarestSoFar (counts ++ lists.map (occurrences start end_)) st1 := by
  intro lists
  induction lists with
  | nil =>
    intro terms counts st h _ hst
    cases h
    exact ⟨st, rfl, by rw [List.map_nil, List.append_nil]; exact hst⟩
  | cons posts rest ih =>
    intro terms counts st h hfuel hst
    cases h with
    | cons h1 h2 =>
      rename_i term terms1
      have hocc := getOccurrences_count term posts h1.1 start end_ fuel h1.2
        (hfuel posts (List.mem_cons_self _ _))
      unfold ExtractDynamicFeatures.scanTerms
      rw [hocc]
      simp only []
      have hlt : occurrences start end_ posts < U32 := by
        have := occurrences_le start end_ posts
        have := wordPosts_length_lt posts _ h1.1.list
        omega
      have hstep := rarestSoFar_step counts st (occurrences start end_ posts)
        (if st.hasUrlMatch = false ∧ urlStr ≠ [] then
          if (strFind urlStr ((c_str term.key).map tolower)).isSome then true
          else st.hasUrlMatch
        else st.hasUrlMatch)
        (st.termFrequencies ++ [occurrences start end_ posts]) hst hlt
      obtain ⟨st1, hrec, hinv⟩ := ih terms1 (counts ++ [occurrences start end_ posts]) _ h2
        (fun q hq => hfuel q (List.mem_cons_of_mem _ hq)) hstep
      rw [List.length_append, List.length_singleton] at hrec
      rw [hrec]
      refine ⟨st1, rfl, ?_⟩
      rw [List.append_assoc, List.singleton_append] at hinv
      rw [List.map_cons]
      exact hinv

theorem notPast_of_none (start : Nat) (w : ISRWord) (posts : List WordPost)
    (h : w.current = none) : NotPast start w posts := by
  unfold NotPast seekCurrent
  rw [h]

theorem notPast_of_lt (start : Nat) (w : ISRWord) (posts : List WordPost) (c : WordPost)
    (h : w.current = some c) (hlt : c.startLocation < start) : NotPast start w posts := by
  unfold NotPast seekCurrent
  rw [h]
  simp only []
  rw [if_neg (by omega)]

theorem notPast_of_first (start : Nat) (w : ISRWord) (posts : List WordPost)
    (h : w.current = firstPostGE start posts) : NotPast start w posts := by
  unfold NotPast seekCurrent
  rw [h]
  cases hf : firstPostGE start posts with
  | none => rfl
  | some c =>
    simp only []
    rw [if_pos (firstPostGE_some start posts c hf).2]

/-- `SeekToDocStart(terms, start)` returns and keeps every term that has not
passed a post at or after `start` in that condition. -/
theorem seekToDocStart_notPast (start : Nat) :
    ∀ (lists : List (List WordPost)) (terms : List ISRWord),
      List.Forall₂ (fun t l => WordCursorOK t l ∧ NotPast start t l) terms lists →
      ∃ terms1, SeekToDocStart terms start = some terms1
        ∧ List.Forall₂ (fun t l => WordCursorOK t l ∧ NotPast start t l) terms1 lists := by
  intro lists
  induction lists with
  | nil =>
    intro terms h
    cases h
    exact ⟨[], rfl, List.Forall₂.nil⟩
  | cons posts rest ih =>
    intro terms h
    cases h with
    | cons h1 h2 =>
      rename_i term terms1
      obtain ⟨w1, hs, hok, _, _, hcur⟩ := word_seek_spec term posts h1.1 start
      obtain ⟨ts, hts, hall⟩ := ih terms1 h2
      refine ⟨w1 :: ts, ?_, List.Forall₂.cons ⟨hok, ?_⟩ hall⟩
      · unfold SeekToDocStart
        rw [hs]
        simp only []
        rw [hts]
        rfl
      · apply notPast_of_first
        rw [hcur]
        exact h1.2

set_option maxRecDepth 1000000 in
/-- Claim C34, as stated, fails for a query term whose cursor has passed an
occurrence. The term has posts at Locations 1, 3 and 11 and stands on the post
at 3 (after `Seek(3)`); for the document `[1, 5]` it occurs twice at Locations
`<= 100`, and `ExtractDynamicFeatures` returns `topPositionSpans = 1`:
`rarestTerm->Seek(start)` does not go back to the occurrence at 1. -/
theorem extractDynamicFeatures_misses_passed_occurrence :
    ((wordIterator [1, 3, 11] sampleDocs).Seek 3).bind
        (fun r => (ExtractDynamicFeatures 6 segmentS2 1 5 [r.2] none).map
          (fun x => x.1.topPositionSpans)) = some 1
      ∧ topOccurrences 1 5 (postsAt [1, 3, 11]) = 2 := by
  decide

/-- Claim C34 (amended). On well-formed posting lists, for query terms whose
cursors have not passed a post at or after `start` (fresh terms, or terms
that were before `start` when `SeekToDocStart(start)` was called),
`ExtractDynamicFeatures` returns, and its `topPositionSpans` is the number of
posts of the rarest term inside `[start, end]` whose Location, counted from the
start of the segment, is at most `TOP_POSITION_THRESHOLD = 100`. The rarest
term is the term with the smallest non-zero number of occurrences inside
`[start, end]`, the first such term on a tie. `topPositionSpans` is 0 when no
term occurs in the range, and 0 for every document that starts after Location
100. -/
theorem extractDynamicFeatures_topPositionSpans (fuel : Nat) (index : IndexBlob)
    (docs : List DocumentPost) (lists : List (List WordPost)) (queryTerms : List ISRWord)
    (start end_ : Nat) (url : Option (List Nat))
    (hdoc : FreshDoc index.OpenISREndDoc docs)
    (hterms : List.Forall₂ (fun t l => WordCursorOK t l ∧ NotPast start t l) queryTerms lists)
    (hfuel : ∀ posts ∈ lists, posts.length + 1 < fuel) :
    ∃ features terms,
      ExtractDynamicFeatures fuel index start end_ queryTerms url = some (features, terms)
      ∧ (∀ r, IsRarest (lists.map (occurrences start end_)) r →
          features.topPositionSpans = topOccurrences start end_ (lists.getD r []))
      ∧ ((∀ posts ∈ lists, occurrences start end_ posts = 0) → features.topPositionSpans = 0)
      ∧ (TOP_POSITION_THRESHOLD < start → features.topPositionSpans = 0) := by
  have hok : List.Forall₂ WordCursorOK queryTerms lists := hterms.imp (fun _ _ h => h.1)
  obtain ⟨st, hscan, hrar⟩ := scanTerms_rarest fuel start end_ (urlStrOf url) lists queryTerms []
    scanStart hterms hfuel
    ⟨fun c hc => absurd hc (List.not_mem_nil _),
      Or.inl ⟨rfl, rfl, fun c hc => absurd hc (List.not_mem_nil _)⟩⟩
  rw [List.length_nil] at hscan
  rw [List.nil_append] at hrar
  have hzero : ∀ r, TOP_POSITION_THRESHOLD < start →
      topOccurrences start end_ (lists.getD r []) = 0 := by
    intro r hlt
    apply topOccurrences_eq_zero
    intro p _ hc
    omega
  have hmain : ∃ features terms,
      ExtractDynamicFeatures fuel index start end_ queryTerms url = some (features, terms)
      ∧ features.topPositionSpans =
          (match st.rarestTermIndex with
           | none => 0
           | some r => topOccurrences start end_ (lists.getD r [])) := by
    unfold ExtractDynamicFeatures
    by_cases hq : queryTerms = []
    · rw [if_pos hq]
      rw [hq] at hscan
      simp only [ExtractDynamicFeatures.scanTerms, Option.some.injEq, Prod.mk.injEq,
        and_true] at hscan
      rw [← hscan]
      exact ⟨_, _, rfl, rfl⟩
    · rw [if_neg hq]
      simp only []
      rw [hscan]
      simp only []
      cases hr : st.rarestTermIndex with
      | none => exact ⟨_, _, rfl, rfl⟩
      | some r =>
        simp only []
        have hrlt : r < queryTerms.length := by
          rcases hrar.2 with ⟨h, _⟩ | ⟨r1, h1, h2, _⟩
          · rw [hr] at h; cases h
          · rw [hr] at h1
            cases h1
            have := (List.getElem?_eq_some.1 h2).1
            rw [List.length_map] at this
            rw [hterms.length_eq]
            exact this
        rw [List.getElem?_eq_getElem hrlt]
        simp only []
        obtain ⟨posts, hposts, hwok, hnp⟩ := forall₂_getElem? _ queryTerms lists r _ hterms
          (List.getElem?_eq_getElem hrlt)
        obtain ⟨w1, hseek, hok1, _, _, hcur1⟩ := word_seek_spec _ posts hwok start
        rw [hseek]
        simp only []
        obtain ⟨k, hk⟩ := cursorK_of_ok w1 posts hok1
        have hlen : lists.length = queryTerms.length := hterms.length_eq.symm
        have hposts_mem : posts ∈ lists := List.getElem?_mem hposts
        have hle := hk.pos.le
        have hf := hfuel posts hposts_mem
        obtain ⟨f1, r1, o1, hloop, htop⟩ := spanLoop_top fuel index docs hdoc end_
          queryTerms.length (expectedPositionsOf queryTerms.length r) posts (lists.eraseIdx r)
          (by
            have := expectedPositionsOf_length queryTerms.length r
            rw [List.length_eraseIdx]
            split <;> omega)
          (fun q hq1 => hfuel q (List.mem_of_mem_eraseIdx hq1))
          fuel k w1 (queryTerms.eraseIdx r)
          { spans := [], exactPhraseCount := 0, orderedCount := 0, closeCount := 0,
            doubleCount := 0, tripleCount := 0, boldHeadingCount := 0,
            termFrequencies := st.termFrequencies, topPositionSpans := 0,
            firstSpanPosition := U32 - 1, hasUrlMatch := st.hasUrlMatch }
          hk (forall₂_eraseIdx _ _ _ r hok) (by split <;> omega)
        rw [hloop]
        refine ⟨_, _, rfl, ?_⟩
        rw [htop, List.getD_eq_getElem?_getD, hposts, Option.getD_some,
          topOccurrences_eq_topCount start end_ posts hwok.list.sorted.1]
        simp only [Nat.zero_add]
        have hfirst : w1.current = posts[countBelow start posts]? := by
          rw [hcur1, hnp, firstPostGE_eq]
        cases hc : w1.current with
        | none =>
          rw [hc] at hfirst
          have hge : posts.length ≤ countBelow start posts := by
            rcases Nat.lt_or_ge (countBelow start posts) posts.length with h | h
            · rw [List.getElem?_eq_getElem h] at hfirst; cases hfirst
            · exact h
          rw [topCount_drop_of_ge _ _ _ hge]
        | some wp =>
          have hkc := hk.cur
          rw [hc] at hkc hfirst
          rcases hkc with h | h
          · cases h
          · have := sorted_getElem?_inj posts hwok.list.sorted.1 _ _ wp h.2 hfirst.symm
            rw [this]
  obtain ⟨features, terms, h1, h2⟩ := hmain
  refine ⟨features, terms, h1, ?_, ?_, ?_⟩
  · intro r hr
    rw [h2]
    rcases hrar.2 with ⟨_, _, hz⟩ | ⟨r1, h3, _, h5⟩
    · obtain ⟨c, hc, hpos, _⟩ := hr
      have := hz c (List.getElem?_mem hc)
      omega
    · rw [h3, isRarest_unique _ r r1 hr h5]
  · intro hall
    rw [h2]
    rcases hrar.2 with ⟨h3, _, _⟩ | ⟨r1, _, _, c, hc, hpos, _⟩
    · rw [h3]
    · have hmem := List.getElem?_mem hc
      obtain ⟨posts, hp, hpc⟩ := List.mem_map.1 hmem
      have := hall posts hp
      omega
  · intro hlt
    rw [h2]
    cases st.rarestTermIndex with
    | none => rfl
    | some r => exact hzero r hlt

theorem isRarest_sample : IsRarest [2, 1] 1 := by
  refine ⟨1, rfl, Nat.one_pos, ?_, ?_⟩
  · intro j cj h
    match j, h with
    | 0, h => simp at h; omega
    | 1, h => simp at h; omega
    | j + 2, h => simp at h
  · intro j cj hj h
    match j, hj, h with
    | 0, _, h => simp at h; omega

/-- Two query terms with posts at Locations 1, 3, 7, 8, 11 and at 2, 9, 12,
positioned by `SeekToDocStart(6)`, and the document `[6, 10]` of scenario S2. -/
theorem sampleTerms_positioned :
    ∃ terms, SeekToDocStart [wordIterator [1, 3, 7, 8, 11] sampleDocs,
        wordIterator [2, 9, 12] sampleDocs] 6 = some terms
      ∧ List.Forall₂ (fun t l => WordCursorOK t l ∧ NotPast 6 t l) terms
          [postsAt [1, 3, 7, 8, 11], postsAt [2, 9, 12]] :=
  seekToDocStart_notPast 6 _ _
    (List.Forall₂.cons
      ⟨freshWord_ok _ _ (wordIterator_fresh [1, 3, 7, 8, 11] _ (by decide) (by decide)), rfl⟩
      (List.Forall₂.cons
        ⟨freshWord_ok _ _ (wordIterator_fresh [2, 9, 12] _ (by decide) (by decide)), rfl⟩
        List.Forall₂.nil))

set_option maxRecDepth 1000000 in
/-- Scenario S2, document `doc1 = [6, 10]`, query terms with posts at Locations
1, 3, 7, 8, 11 (twice in the document) and at 2, 9, 12 (once in the document),
both positioned by `SeekToDocStart(6)`: the second term is the rarest, and its
one occurrence in the document lies at a Location `<= 100`. -/
theorem extractDynamicFeatures_topPositionSpans_witness :
    (SeekToDocStart [wordIterator [1, 3, 7, 8, 11] sampleDocs,
        wordIterator [2, 9, 12] sampleDocs] 6).isSome = true
    ∧ ((SeekToDocStart [wordIterator [1, 3, 7, 8, 11] sampleDocs,
          wordIterator [2, 9, 12] sampleDocs] 6).bind
        (fun terms => ExtractDynamicFeatures 7 segmentS2 6 10 terms none)).map
      (fun r => r.1.topPositionSpans) = some 1
    ∧ IsRarest ([postsAt [1, 3, 7, 8, 11], postsAt [2, 9, 12]].map (occurrences 6 10)) 1
    ∧ topOccurrences 6 10 (postsAt [2, 9, 12]) = 1
    ∧ ∃ features terms,
      ExtractDynamicFeatures 7 segmentS2 6 10
          ((SeekToDocStart [wordIterator [1, 3, 7, 8, 11] sampleDocs,
            wordIterator [2, 9, 12] sampleDocs] 6).getD []) none
          = some (features, terms)
      ∧ (∀ r, IsRarest ([postsAt [1, 3, 7, 8, 11], postsAt [2, 9, 12]].map (occurrences 6 10)) r →
          features.topPositionSpans =
            topOccurrences 6 10 ([postsAt [1, 3, 7, 8, 11], postsAt [2, 9, 12]].getD r []))
      ∧ ((∀ posts ∈ [postsAt [1, 3, 7, 8, 11], postsAt [2, 9, 12]],
            occurrences 6 10 posts = 0) → features.topPositionSpans = 0)
      ∧ (TOP_POSITION_THRESHOLD < 6 → features.topPositionSpans = 0) :=
  ⟨by decide, by decide, isRarest_sample, by decide,
    extractDynamicFeatures_topPositionSpans 7 segmentS2 sampleDocs
      [postsAt [1, 3, 7, 8, 11], postsAt [2, 9, 12]] _ 6 10 none
      ⟨docList_written sampleDocs (by decide) (by decide), rfl, rfl, rfl⟩
      (by
        obtain ⟨terms, h1, h2⟩ := sampleTerms_positioned
        rw [h1]
        exact h2)
      (by decide)⟩

end Ranker

end SearchEngine

namespace SearchEngine

/-! ### Bounds on the static score -/

section StaticScore

variable {S : Type} [LinearOrderedField S]

theorem horner_ge_one (x : S) (hx : 0 ≤ x) :
    1 ≤ 1 + x * (1 + x * (1 / 2 + x * (1 / 6 + x * (1 / 24 + x * (1 / 120 + x * (1 / 720)))))) := by
  have h6 : (0 : S) ≤ 1 / 720 := by norm_num
  have h5 : (0 : S) ≤ 1 / 120 + x * (1 / 720) := add_nonneg (by norm_num) (mul_nonneg hx h6)
  have h4 : (0 : S) ≤ 1 / 24 + x * (1 / 120 + x * (1 / 720)) :=
    add_nonneg (by norm_num) (mul_nonneg hx h5)
  have h3 : (0 : S) ≤ 1 / 6 + x * (1 / 24 + x * (1 / 120 + x * (1 / 720))) :=
    add_nonneg (by norm_num) (mul_nonneg hx h4)
  have h2 : (0 : S) ≤ 1 / 2 + x * (1 / 6 + x * (1 / 24 + x * (1 / 120 + x * (1 / 720)))) :=
    add_nonneg (by norm_num) (mul_nonneg hx h3)
  have h1 : (0 : S) ≤
      1 + x * (1 / 2 + x * (1 / 6 + x * (1 / 24 + x * (1 / 120 + x * (1 / 720))))) :=
    add_nonneg (by norm_num) (mul_nonneg hx h2)
  exact le_add_of_nonneg_right (mul_nonneg hx h1)

/-- For an argument that is not positive, `custom_exp` is at most 1. -/
theorem custom_exp_le_one (x : S) (hx : x ≤ 0) : custom_exp x ≤ 1 := by
  unfold custom_exp
  rw [if_neg (by intro h; linarith)]
  by_cases h20 : x < -20
  · rw [if_pos h20]; norm_num
  · rw [if_neg h20]
    simp only []
    by_cases hneg : x < 0
    · rw [if_pos hneg]
      simp only [hneg, decide_True, if_true]
      have h1 := horner_ge_one (-x) (by linarith)
      rw [div_le_one (by linarith)]
      exact h1
    · have h0 : x = 0 := le_antisymm hx (not_lt.mp hneg)
      rw [if_neg hneg]
      simp only [hneg, decide_False, Bool.false_eq_true, if_false]
      rw [h0]
      norm_num

end StaticScore

namespace Ranker

variable {S : Type} [LinearOrderedField S]

theorem getTLDScore_le_one (tld : TLD) : (GetTLDScore tld : S) ≤ 1 := by
  cases tld <;> simp only [GetTLDScore] <;> norm_num

/-- The static score before the penalties is at most 1. -/
theorem baseScore_le_one (features : StaticFeatures) :
    (CalculateStaticScore.baseScore features : S) ≤ 1 := by
  unfold CalculateStaticScore.baseScore
  simp only []
  have h1 : custom_exp (-(0.02 : S) * (features.urlLength : S)) ≤ 1 := by
    apply custom_exp_le_one
    have : (0 : S) ≤ (features.urlLength : S) := Nat.cast_nonneg _
    nlinarith
  have h2 : (GetTLDScore features.tld : S) ≤ 1 := getTLDScore_le_one _
  have h3 : (1 : S) / (1 + (((features.wordCount : S) - 600) * ((features.wordCount : S) - 600))
      / 250000) ≤ 1 := by
    have hsq : (0 : S) ≤ ((features.wordCount : S) - 600) * ((features.wordCount : S) - 600) :=
      mul_self_nonneg _
    have hd : (0 : S) ≤ (((features.wordCount : S) - 600) * ((features.wordCount : S) - 600))
        / 250000 := div_nonneg hsq (by norm_num)
    rw [div_le_one (by linarith)]
    linarith
  have h4 : custom_exp (-(0.08 : S) *
      (if (features.titleLength : S) > OPTIMAL_TITLE_LENGTH then
        (features.titleLength : S) - OPTIMAL_TITLE_LENGTH else 0)) ≤ 1 := by
    apply custom_exp_le_one
    split
    · rename_i h
      have : (0 : S) ≤ (features.titleLength : S) - OPTIMAL_TITLE_LENGTH := by linarith
      nlinarith
    · norm_num
  unfold URL_LENGTH_WEIGHT TLD_WEIGHT DOC_LENGTH_WEIGHT TITLE_LENGTH_WEIGHT
  linarith

/-- Claim C35. `CalculateStaticScore` is at most 1 before the penalties; so it is
at most 0.14 for every non-English document and at most 0.15 for every utility
page under a query that is not a utility query, and in both cases it is below
`STATIC_THRESHOLD = 0.25`: the per-document step of `WorkerThread` leaves the
results unchanged for such a document, whatever its URL length, TLD, word
count, title length and dynamic scores. -/
theorem calculateStaticScore_penalised_rejected (features : StaticFeatures)
    (queryTerms : List ISRWord) (maxResults : Nat) (d : DocInputs S)
    (results : List (RankingResult S)) (processedDocs : Nat)
    (hs : d.staticScore = CalculateStaticScore features queryTerms)
    (hp : features.english = false
      ∨ (features.isUtilityPage = true ∧ (AnalyzeQueryIntent queryTerms).isUtilityQuery = false)) :
    (CalculateStaticScore.baseScore features : S) ≤ 1
    ∧ (features.english = false → (CalculateStaticScore features queryTerms : S) ≤ 0.14)
    ∧ (features.isUtilityPage = true ∧ (AnalyzeQueryIntent queryTerms).isUtilityQuery = false →
        (CalculateStaticScore features queryTerms : S) ≤ 0.15)
    ∧ (CalculateStaticScore features queryTerms : S) < STATIC_THRESHOLD
    ∧ WorkerThread.body maxResults d results processedDocs
        = some (results, processedDocs, false) := by
  have hb : (CalculateStaticScore.baseScore features : S) ≤ 1 := baseScore_le_one features
  have h1 : features.english = false → (CalculateStaticScore features queryTerms : S) ≤ 0.14 := by
    intro he
    unfold CalculateStaticScore
    simp only []
    rw [if_pos he]
    unfold NON_ENGLISH_WEIGHT UTILITY_PAGE_PENALTY
    split
    · nlinarith
    · linarith
  have h2 : features.isUtilityPage = true ∧ (AnalyzeQueryIntent queryTerms).isUtilityQuery = false →
      (CalculateStaticScore features queryTerms : S) ≤ 0.15 := by
    intro hu
    unfold CalculateStaticScore
    simp only []
    rw [if_pos hu]
    unfold NON_ENGLISH_WEIGHT UTILITY_PAGE_PENALTY
    split
    · nlinarith
    · linarith
  have h3 : (CalculateStaticScore features queryTerms : S) < 0.25 := by
    rcases hp with h | h
    · have := h1 h; linarith
    · have := h2 h; linarith
  refine ⟨hb, h1, h2, h3, ?_⟩
  exact body_rejects maxResults d results processedDocs (Or.inr (by rw [hs]; exact h3))

/-- A non-English page with the best possible features (static score
`1 * 0.14`) and dynamic scores of 1 leaves a buffer of ten unchanged. -/
theorem calculateStaticScore_penalised_rejected_witness :
    sampleStaticFeatures.english = false
    ∧ WorkerThread.body 10
        ({ url := "u", title := "t", titleLength := 5,
           staticScore := CalculateStaticScore sampleStaticFeatures [],
           dynamicScore := 1, newScore := 1 } : DocInputs ℚ)
        [{ url := "v", title := "s", score := 1 / 2 }] 3
      = some ([{ url := "v", title := "s", score := 1 / 2 }], 3, false) :=
  ⟨rfl,
    (calculateStaticScore_penalised_rejected sampleStaticFeatures [] 10
      ({ url := "u", title := "t", titleLength := 5,
         staticScore := CalculateStaticScore sampleStaticFeatures [],
         dynamicScore := 1, newScore := 1 } : DocInputs ℚ)
      [{ url := "v", title := "s", score := 1 / 2 }] 3 rfl (Or.inl rfl)).2.2.2.2⟩

end Ranker

end SearchEngine

namespace SearchEngine

namespace Query

variable {S : Type} [LinearOrder S]

/-- Whatever the loop of `mergeSortedArrays` returns holds no URL twice. -/
theorem mergeLoop_nodup (maxVal : S) (arrays : List (List (SearchResult S))) :
    ∀ (n : Nat) (indices : List Nat) (result : List (SearchResult S)) (urls : List String)
      (out : List (SearchResult S)),
      (result.map (fun r => r.url)).Nodup → (∀ r ∈ result, r.url ∈ urls) →
      mergeSortedArrays.loop maxVal arrays n indices result urls = some out →
      (out.map (fun r => r.url)).Nodup := by
  intro n
  induction n with
  | zero =>
    intro indices result urls out _ _ h
    simp [mergeSortedArrays.loop] at h
  | succ n ih =>
    intro indices result urls out hnd hsub h
    unfold mergeSortedArrays.loop at h
    split at h
    · simp only [Option.some.injEq] at h
      rw [← h]; exact hnd
    · split at h
      · split at h
        · rename_i x _
          split at h
          · exact ih _ _ _ _ hnd hsub h
          · rename_i hx
            refine ih _ _ _ _ ?_ ?_ h
            · rw [List.map_append, List.map_singleton]
              refine List.Nodup.append hnd (List.nodup_singleton _) ?_
              intro u hu1 hu2
              rw [List.mem_singleton] at hu2
              obtain ⟨r, hr, hru⟩ := List.mem_map.1 hu1
              exact hx (by rw [← hu2, ← hru]; exact hsub r hr)
            · intro r hr
              rcases List.mem_append.1 hr with hr | hr
              · exact List.mem_cons_of_mem _ (hsub r hr)
              · rw [List.mem_singleton] at hr
                rw [hr]; exact List.mem_cons_self _ _
        · cases h
      · cases h

/-- Claim C37 fails on its first half: `mergeSortedArrays` takes the head with
the smallest score in every round. For the two lists `[a:5, b:1]` and
`[c:4, d:3]`, both sorted by non-increasing score, it returns
`[c:4, d:3, a:5, b:1]`, which is not sorted by non-increasing score (nor by
non-decreasing score). No URL appears twice in it. -/
theorem mergeSortedArrays_takes_smallest_head :
    SortedDesc [({ url := "a", title := "", score := 5 } : SearchResult Int),
                { url := "b", title := "", score := 1 }]
    ∧ SortedDesc [({ url := "c", title := "", score := 4 } : SearchResult Int),
                  { url := "d", title := "", score := 3 }]
    ∧ mergeSortedArrays (1000 : Int)
        [[{ url := "a", title := "", score := 5 }, { url := "b", title := "", score := 1 }],
         [{ url := "c", title := "", score := 4 }, { url := "d", title := "", score := 3 }]]
      = some [{ url := "c", title := "", score := 4 }, { url := "d", title := "", score := 3 },
              { url := "a", title := "", score := 5 }, { url := "b", title := "", score := 1 }]
    ∧ ¬ SortedDesc [({ url := "c", title := "", score := 4 } : SearchResult Int),
                    { url := "d", title := "", score := 3 },
                    { url := "a", title := "", score := 5 },
                    { url := "b", title := "", score := 1 }] := by
  refine ⟨by decide, by decide, by decide, by decide⟩

end Query

end SearchEngine

namespace SearchEngine

/-! ### `ISRWord::Next` -/

theorem firstPostGE_succ_eq (T : Nat) (A : List WordPost) :
    firstPostGE (T + 1) A = A.find? (fun p => decide (T < p.startLocation)) := by
  unfold firstPostGE
  congr 1

theorem firstPostGE_zero_eq (A : List WordPost) : firstPostGE 0 A = A.head? := by
  unfold firstPostGE
  cases A with
  | nil => rfl
  | cons p ps => simp

set_option maxRecDepth 100000 in
/-- Claim C32 at its failing input. Over scenario S2 the word iterator of `b`
(posts at Locations 2, 6 and 12, one in each document) answers six `Next` calls
with 2, 6, 12, none, 2, none: after the fifth call it is positioned on the post
at 2 inside `doc0 = [1, 5]`, and the sixth call returns none although the posts
at 6 and 12 lie after `doc0`. The document iterator of the word stayed on
`doc2` when the word iterator started over. -/
theorem word_next_after_none_skips_posts :
    callStarts 4 [.next, .next, .next, .next, .next, .next] (wordIterator [2, 6, 12] sampleDocs)
      = some [some 2, some 6, some 12, none, some 2, none]
    ∧ inDoc ⟨1, 5, 0⟩ 2
    ∧ (postsAt [2, 6, 12]).find? (fun p => decide (5 < p.startLocation))
        = some { startLocation := 6, flags := 0 } := by
  refine ⟨by decide, by decide, by decide⟩

/-- `ISRWord::Next` while the document iterator is not ahead. On a well-formed
segment, for a word iterator whose document iterator is not ahead of its
current post (as it is from the opening of the iterator until it has returned
none): when the iterator is positioned on a post inside document `D`,
`ISRWord::Next` returns the first post of the word whose Location is greater
than `D.end`, which lies in a later document, or none if there is no such
post; on a fresh iterator it returns the first post of the word. -/
theorem word_next_first_post_after_document (w : ISRWord) (A : List WordPost)
    (docs : List DocumentPost) (h : WordSync w A docs) (hin : InDocs A docs) :
    (∀ c, w.current = some c →
      ∃ w1 D, w.Next = some (w1.current.map Post.word, w1) ∧ D ∈ docs
        ∧ inDoc D c.startLocation
        ∧ w1.current = A.find? (fun p => decide (D.endLocation < p.startLocation))
        ∧ (∀ q, w1.current = some q →
            ∃ E ∈ docs, inDoc E q.startLocation ∧ D.endLocation < E.startLocation)
        ∧ WordSync w1 A docs)
    ∧ (w.current = none → w.isr_doc.current = none →
      ∃ w1, w.Next = some (w1.current.map Post.word, w1) ∧ w1.current = A.head?
        ∧ WordSync w1 A docs) := by
  refine ⟨?_, ?_⟩
  · intro c hc
    obtain ⟨w1, D, hnext, hD, hinD, hcur, hsync⟩ := word_next_sync w A docs h hin c hc
    refine ⟨w1, D, hnext, hD, hinD, by rw [hcur, firstPostGE_succ_eq], ?_, hsync⟩
    intro q hq
    obtain ⟨hqm, _⟩ := wordCursor_current_mem w1 A hsync.word q hq
    obtain ⟨E, hE, hinE⟩ := hin q hqm
    have hgt : D.endLocation < q.startLocation := by
      rw [hcur, firstPostGE_succ_eq] at hq
      have := List.find?_some hq
      simpa using this
    refine ⟨E, hE, hinE, ?_⟩
    rcases docs_apart docs h.doc.list.sorted D E hD hE with h1 | h1 | h1
    · rw [h1] at hgt
      have := hinE.2
      omega
    · exact h1
    · have := hinE.2
      have := h.doc.list.sorted.2.1 D hD
      have := h.doc.list.sorted.2.1 E hE
      have := hinE.1
      omega
  · intro hc hd
    obtain ⟨w1, hnext, hcur, hsync⟩ := word_next_fresh w A docs h hc hd
    exact ⟨w1, hnext, by rw [hcur, firstPostGE_zero_eq], hsync⟩

set_option maxRecDepth 100000 in
/-- The fresh iterator of `b` over scenario S2: `Next` returns the post at 2. -/
theorem word_next_first_post_after_document_witness :
    InDocs (postsAt [2, 6, 12]) sampleDocs
    ∧ ∃ w1, (wordIterator [2, 6, 12] sampleDocs).Next = some (w1.current.map Post.word, w1)
        ∧ w1.current = (postsAt [2, 6, 12]).head?
        ∧ WordSync w1 (postsAt [2, 6, 12]) sampleDocs :=
  ⟨by decide,
    (word_next_first_post_after_document (wordIterator [2, 6, 12] sampleDocs)
      (postsAt [2, 6, 12]) sampleDocs
      (fresh_sync _ _ _ (wordIterator_fresh [2, 6, 12] _ (by decide) (by decide))
        (wordIterator_freshDoc [2, 6, 12] _ (by decide) (by decide))).1
      (by decide)).2 rfl rfl⟩

end SearchEngine

namespace SearchEngine

/-! ### `ISRSynOr` with steps 1 and 1 against `ISROr` -/

namespace ISROr

variable {α β : Type} [ISR α] [ISR β]

omit [ISR α] [ISR β] in
theorem toSynOr_new (a : α) (b : β) : (ISROr.new a b).toSynOr = ISRSynOr.new a b 1 1 := rfl

omit [ISR α] [ISR β] in
theorem reachable_new (a : α) (b : β) : (ISROr.new a b).Reachable := ⟨rfl, Or.inl rfl⟩

theorem findNearest_toSynOr (o : ISROr α β) :
    ISRSynOr.FindNearest o.toSynOr = ((FindNearest o).1, (FindNearest o).2.toSynOr) := by
  unfold ISRSynOr.FindNearest FindNearest
  show (match ISR.GetCurrentPost o.isr1, ISR.GetCurrentPost o.isr2 with
    | none, none => _
    | some post1, none => _
    | some post1, some post2 => _
    | none, some post2 => _) = _
  cases ISR.GetCurrentPost o.isr1 <;> cases ISR.GetCurrentPost o.isr2
  · rfl
  · rfl
  · rfl
  · simp only []
    split <;> rfl

theorem findNearest_reachable (o : ISROr α β) (h : o.current = none) :
    (FindNearest o).2.Reachable := by
  unfold FindNearest
  cases ISR.GetCurrentPost o.isr1 <;> cases ISR.GetCurrentPost o.isr2
  · exact ⟨h, Or.inl rfl⟩
  · exact ⟨h, Or.inr (Or.inr rfl)⟩
  · exact ⟨h, Or.inr (Or.inl rfl)⟩
  · simp only []
    split
    · exact ⟨h, Or.inr (Or.inl rfl)⟩
    · exact ⟨h, Or.inr (Or.inr rfl)⟩

theorem findNearest_children (o : ISROr α β) :
    (FindNearest o).2.isr1 = o.isr1 ∧ (FindNearest o).2.isr2 = o.isr2 := by
  unfold FindNearest
  cases ISR.GetCurrentPost o.isr1 <;> cases ISR.GetCurrentPost o.isr2
  · exact ⟨rfl, rfl⟩
  · exact ⟨rfl, rfl⟩
  · exact ⟨rfl, rfl⟩
  · simp only []
    split <;> exact ⟨rfl, rfl⟩

/-- `FindNearest` only reads the current posts of the children, so a second
call changes nothing. -/
theorem findNearest_idem (o : ISROr α β) : FindNearest (FindNearest o).2 = FindNearest o := by
  cases h1 : ISR.GetCurrentPost o.isr1 with
  | none =>
    cases h2 : ISR.GetCurrentPost o.isr2 with
    | none =>
      have e : FindNearest o = (none, { o with nearestTerm := -1 }) := by
        simp only [FindNearest, setNearest, h1, h2]
      rw [e]
      simp only [FindNearest, setNearest, h1, h2]
    | some p2 =>
      have e : FindNearest o = (some p2, (setNearest o 1 p2)) := by
        simp only [FindNearest, setNearest, h1, h2]
      rw [e]
      simp only [FindNearest, setNearest, h1, h2]
  | some p1 =>
    cases h2 : ISR.GetCurrentPost o.isr2 with
    | none =>
      have e : FindNearest o = (some p1, (setNearest o 0 p1)) := by
        simp only [FindNearest, setNearest, h1, h2]
      rw [e]
      simp only [FindNearest, setNearest, h1, h2]
    | some p2 =>
      by_cases hle : p1.GetStartLocation ≤ p2.GetStartLocation
      · have e : FindNearest o = (some p1, (setNearest o 0 p1)) := by
          simp only [FindNearest, setNearest, h1, h2, hle, if_true]
        rw [e]
        simp only [FindNearest, setNearest, h1, h2, hle, if_true]
      · have e : FindNearest o = (some p2, (setNearest o 1 p2)) := by
          simp only [FindNearest, setNearest, h1, h2, hle, if_false]
        rw [e]
        simp only [FindNearest, setNearest, h1, h2, hle, if_false]

theorem findNearest_fixed (o : ISROr α β) :
    FindNearest (FindNearest o).2 = ((FindNearest o).1, (FindNearest o).2) := by
  rw [findNearest_idem]

/-- What `ISROr::Seek` returns in a reachable state is a fixed point of
`FindNearest`. -/
theorem seek_result (fuel target : Nat) (o : ISROr α β) (h : o.Reachable)
    (r : Option Post × ISROr α β) (hs : Seek fuel target o = some r) :
    FindNearest r.2 = r ∧ r.2.Reachable := by
  unfold Seek at hs
  rw [if_neg (by rw [h.1]; simp)] at hs
  cases h1 : ISR.Seek fuel target o.isr1 with
  | none => rw [h1] at hs; cases hs
  | some ra =>
    rw [h1] at hs
    cases h2 : ISR.Seek fuel target o.isr2 with
    | none => rw [h2] at hs; cases hs
    | some rb =>
      rw [h2] at hs
      simp only [Option.some.injEq] at hs
      rw [← hs]
      exact ⟨findNearest_fixed _, findNearest_reachable _ h.1⟩

theorem seek_toSynOr (fuel target : Nat) (o : ISROr α β) (h : o.Reachable) :
    ISRSynOr.Seek fuel target o.toSynOr
      = (Seek fuel target o).map (fun r => (r.1, r.2.toSynOr)) := by
  unfold ISRSynOr.Seek Seek
  have hc : o.toSynOr.current = none := h.1
  rw [if_neg (by rw [hc]; simp), if_neg (by rw [h.1]; simp)]
  simp only [toSynOr]
  rcases ISR.Seek fuel target o.isr1 with _ | ⟨p1, a⟩
  · rfl
  · rcases ISR.Seek fuel target o.isr2 with _ | ⟨p2, b⟩
    · rfl
    · exact congrArg some (findNearest_toSynOr ({ o with isr1 := a, isr2 := b } : ISROr α β))

theorem nextInternal_toSynOr (fuel : Nat) (o : ISROr α β) (h : o.Reachable) :
    ISRSynOr.NextInternal fuel o.toSynOr
      = (NextInternal fuel o).map (fun r => (r.1, r.2.toSynOr)) := by
  unfold ISRSynOr.NextInternal NextInternal
  simp only [toSynOr]
  have c1 : ¬ ((0 : Int) = -1) := by decide
  have c2 : ¬ ((1 : Int) = -1) := by decide
  have c3 : ¬ ((1 : Int) = 0) := by decide
  have t1 : (1 : Int).toNat = 1 := rfl
  rcases h.2 with h0 | h0 | h0
  · simp only [h0, if_true]
    rcases ISR.NextInternal fuel o.isr1 with _ | ⟨p1, a⟩
    · rfl
    · rcases ISR.NextInternal fuel o.isr2 with _ | ⟨p2, b⟩
      · rfl
      · have := findNearest_toSynOr ({ o with isr1 := a, isr2 := b } : ISROr α β)
        simp only [toSynOr, h0] at this
        exact congrArg some this
  · simp only [h0, c1, if_true, if_false, t1, repeatCall]
    rcases ISR.NextInternal fuel o.isr1 with _ | ⟨p1, a⟩
    · rfl
    · have := findNearest_toSynOr ({ o with isr1 := a } : ISROr α β)
      simp only [toSynOr, h0] at this
      exact congrArg some this
  · simp only [h0, c2, c3, if_true, if_false, t1, repeatCall]
    rcases ISR.NextInternal fuel o.isr2 with _ | ⟨p2, b⟩
    · rfl
    · have := findNearest_toSynOr ({ o with isr2 := b } : ISROr α β)
      simp only [toSynOr, h0] at this
      exact congrArg some this

theorem nextInternal_reachable (fuel : Nat) (o : ISROr α β) (h : o.Reachable)
    (r : Option Post × ISROr α β) (hs : NextInternal fuel o = some r) : r.2.Reachable := by
  unfold NextInternal at hs
  split_ifs at hs
  · cases h1 : ISR.NextInternal fuel o.isr1 with
    | none => rw [h1] at hs; cases hs
    | some ra =>
      rw [h1] at hs
      cases h2 : ISR.NextInternal fuel o.isr2 with
      | none => rw [h2] at hs; cases hs
      | some rb =>
        rw [h2] at hs
        simp only [Option.some.injEq] at hs
        rw [← hs]
        exact findNearest_reachable _ h.1
  · cases h1 : ISR.NextInternal fuel o.isr1 with
    | none => rw [h1] at hs; cases hs
    | some ra =>
      rw [h1] at hs
      simp only [Option.some.injEq] at hs
      rw [← hs]
      exact findNearest_reachable _ h.1
  · cases h1 : ISR.NextInternal fuel o.isr2 with
    | none => rw [h1] at hs; cases hs
    | some rb =>
      rw [h1] at hs
      simp only [Option.some.injEq] at hs
      rw [← hs]
      exact findNearest_reachable _ h.1
  · simp only [Option.some.injEq] at hs
    rw [← hs]
    exact findNearest_reachable _ h.1

theorem seek_reachable (fuel target : Nat) (o : ISROr α β) (h : o.Reachable)
    (r : Option Post × ISROr α β) (hs : Seek fuel target o = some r) : r.2.Reachable :=
  (seek_result fuel target o h r hs).2

/-- After the seek of `ISRSynOr::Next`, zero further steps and a second
`FindNearest` give what `ISROr::Next` returns from its seek. -/
theorem next_tail (fuel target : Nat) (o1 : ISROr α β) (h : o1.Reachable) :
    (match ISRSynOr.Seek fuel target o1.toSynOr with
      | none => none
      | some (_, o2) =>
        if o2.nearestTerm = 0 then
          match repeatCall (ISR.Next fuel) (o2.advanceRight - 1).toNat o2.isr2 with
          | none => none
          | some b => some (ISRSynOr.FindNearest { o2 with isr2 := b })
        else
          match repeatCall (ISR.Next fuel) (o2.advanceLeft - 1).toNat o2.isr1 with
          | none => none
          | some a => some (ISRSynOr.FindNearest { o2 with isr1 := a }))
      = (Seek fuel target o1).map (fun r => (r.1, r.2.toSynOr)) := by
  rw [seek_toSynOr fuel target o1 h]
  cases hs : Seek fuel target o1 with
  | none => rfl
  | some r =>
    obtain ⟨hfix, _⟩ := seek_result fuel target o1 h r hs
    have key : ISRSynOr.FindNearest r.2.toSynOr = (r.1, r.2.toSynOr) := by
      rw [findNearest_toSynOr, hfix]
    simp only [Option.map_some']
    have z : ((1 : Int) - 1).toNat = 0 := rfl
    have a1 : r.2.toSynOr.advanceRight = 1 := rfl
    have a2 : r.2.toSynOr.advanceLeft = 1 := rfl
    rw [a1, a2, z]
    simp only [repeatCall]
    split
    · exact congrArg some key
    · exact congrArg some key

theorem next_toSynOr (fuel : Nat) (o : ISROr α β) (h : o.Reachable) :
    ISRSynOr.Next fuel o.toSynOr = (Next fuel o).map (fun r => (r.1, r.2.toSynOr)) := by
  have c1 : ¬ ((0 : Int) = -1) := by decide
  have c2 : ¬ ((1 : Int) = -1) := by decide
  have c3 : ¬ ((1 : Int) = 0) := by decide
  rcases h.2 with h0 | h0 | h0
  · unfold ISRSynOr.Next Next
    have hn : o.toSynOr.nearestTerm = -1 := h0
    rw [if_pos hn, if_pos h0]
    simp only [toSynOr]
    rcases ISR.Next fuel o.isr1 with _ | ⟨p1, a⟩
    · rfl
    · rcases ISR.Next fuel o.isr2 with _ | ⟨p2, b⟩
      · rfl
      · exact congrArg some (findNearest_toSynOr ({ o with isr1 := a, isr2 := b } : ISROr α β))
  · unfold ISRSynOr.Next Next ISRSynOr.GetCurrentDoc
    simp only [toSynOr, h0, c1, if_true, if_false]
    rcases ISR.GetCurrentDoc fuel o.isr1 with _ | ⟨dp, a⟩
    · rfl
    · rcases dp with _ | doc
      · rfl
      · simp only [Option.map_some']
        have := next_tail fuel ((doc.GetEndLocation + 1) % U32)
          ({ o with isr1 := a } : ISROr α β) ⟨h.1, Or.inr (Or.inl h0)⟩
        simp only [toSynOr, h0] at this
        exact this
  · unfold ISRSynOr.Next Next ISRSynOr.GetCurrentDoc
    simp only [toSynOr, h0, c2, c3, if_true, if_false]
    rcases ISR.GetCurrentDoc fuel o.isr2 with _ | ⟨dp, b⟩
    · rfl
    · rcases dp with _ | doc
      · rfl
      · simp only [Option.map_some']
        have := next_tail fuel ((doc.GetEndLocation + 1) % U32)
          ({ o with isr2 := b } : ISROr α β) ⟨h.1, Or.inr (Or.inr h0)⟩
        simp only [toSynOr, h0] at this
        exact this

theorem next_reachable (fuel : Nat) (o : ISROr α β) (h : o.Reachable)
    (r : Option Post × ISROr α β) (hs : Next fuel o = some r) : r.2.Reachable := by
  unfold Next at hs
  split_ifs at hs with h0 h1 h2
  · cases e1 : ISR.Next fuel o.isr1 with
    | none => rw [e1] at hs; cases hs
    | some ra =>
      rw [e1] at hs
      cases e2 : ISR.Next fuel o.isr2 with
      | none => rw [e2] at hs; cases hs
      | some rb =>
        rw [e2] at hs
        simp only [Option.some.injEq] at hs
        rw [← hs]
        exact findNearest_reachable _ h.1
  · cases e1 : ISR.GetCurrentDoc fuel o.isr1 with
    | none => rw [e1] at hs; cases hs
    | some ra =>
      rw [e1] at hs
      obtain ⟨dp, a⟩ := ra
      cases dp with
      | none =>
        simp only [Option.map_some', Option.some.injEq] at hs
        rw [← hs]
        exact ⟨h.1, Or.inr (Or.inl h1)⟩
      | some doc =>
        simp only [Option.map_some'] at hs
        exact seek_reachable fuel _ ({ o with isr1 := a } : ISROr α β)
          ⟨h.1, Or.inr (Or.inl h1)⟩ r hs
  · cases e1 : ISR.GetCurrentDoc fuel o.isr2 with
    | none => rw [e1] at hs; cases hs
    | some rb =>
      rw [e1] at hs
      obtain ⟨dp, b⟩ := rb
      cases dp with
      | none =>
        simp only [Option.map_some', Option.some.injEq] at hs
        rw [← hs]
        exact ⟨h.1, Or.inr (Or.inr h2)⟩
      | some doc =>
        simp only [Option.map_some'] at hs
        exact seek_reachable fuel _ ({ o with isr2 := b } : ISROr α β)
          ⟨h.1, Or.inr (Or.inr h2)⟩ r hs

theorem call_toSynOr (fuel : Nat) (c : Call) (o : ISROr α β) (h : o.Reachable) :
    c.run fuel o.toSynOr = (c.run fuel o).map (fun r => (r.1, r.2.toSynOr))
      ∧ ∀ r, c.run fuel o = some r → r.2.Reachable := by
  cases c with
  | next => exact ⟨next_toSynOr fuel o h, next_reachable fuel o h⟩
  | nextInternal => exact ⟨nextInternal_toSynOr fuel o h, nextInternal_reachable fuel o h⟩
  | seek target => exact ⟨seek_toSynOr fuel target o h, seek_reachable fuel target o h⟩

theorem runCalls_toSynOr (fuel : Nat) (calls : List Call) :
    ∀ (o : ISROr α β), o.Reachable →
      runCalls fuel calls o.toSynOr = (runCalls fuel calls o).map (fun r => (r.1, r.2.toSynOr)) := by
  induction calls with
  | nil => intro o _; rfl
  | cons c cs ih =>
    intro o h
    obtain ⟨h1, h2⟩ := call_toSynOr fuel c o h
    unfold runCalls
    rw [h1]
    cases hc : c.run fuel o with
    | none => rfl
    | some r =>
      simp only [Option.map_some']
      rw [ih r.2 (h2 r hc)]
      cases runCalls fuel cs r.2 with
      | none => rfl
      | some rs => rfl

end ISROr

/-- Claim C36. An `ISRSynOr` built with `advanceRight = 1` and `advanceLeft = 1`
behaves as the `ISROr` over the same two children: for every sequence of
`Next`, `NextInternal` and `Seek` calls (and every fuel of the model) the run
of the `ISRSynOr` is the run of the `ISROr` with the final state read through
`toSynOr`, which copies the children and the fields; so the two return the same
posts, fail together, and leave the two children in the same states. -/
theorem synOr_steps_one_behaves_as_or {α β : Type} [ISR α] [ISR β] (fuel : Nat)
    (calls : List Call) (a : α) (b : β) :
    runCalls fuel calls (ISRSynOr.new a b 1 1)
      = (runCalls fuel calls (ISROr.new a b)).map (fun r => (r.1, r.2.toSynOr))
    ∧ (runCalls fuel calls (ISRSynOr.new a b 1 1)).map (fun r => (r.1, r.2.isr1, r.2.isr2))
      = (runCalls fuel calls (ISROr.new a b)).map (fun r => (r.1, r.2.isr1, r.2.isr2)) := by
  have h := ISROr.runCalls_toSynOr fuel calls (ISROr.new a b) (ISROr.reachable_new a b)
  rw [ISROr.toSynOr_new] at h
  refine ⟨h, ?_⟩
  rw [h]
  cases runCalls fuel calls (ISROr.new a b) with
  | none => rfl
  | some r => rfl

end SearchEngine

namespace SearchEngine

/-! ## Container iterators over two word iterators -/

theorem hasPostBeforeEnd_iff (B : List WordPost) (D : DocumentPost) :
    hasPostBeforeEnd B D = true
      ↔ ∃ q ∈ B, D.startLocation ≤ q.startLocation ∧ q.startLocation < D.endLocation := by
  unfold hasPostBeforeEnd
  simp

theorem container_adv_none (f k : Nat) (c : ISRContainer ISRWord ISRWord)
    (h : c.isr1.current = none) :
    ISRContainer.AdvanceToMatch f (k + 1) c = some (none, { c with current := none }) := by
  unfold ISRContainer.AdvanceToMatch
  simp only [isr_word_getCurrentPost, h, Option.map_none']

theorem container_adv_match (f k : Nat) (c : ISRContainer ISRWord ISRWord) (l : WordPost)
    (D : DocumentPost) (c1 c2 : ISRWord) (x : Option Post) (hl : c.isr1.current = some l)
    (hgd : c.isr1.GetCurrentDoc = some (some (Post.doc D), c1))
    (hs : c.isr2.Seek D.startLocation = some (x, c2))
    (hskip : ∀ e, c2.current = some e →
      ¬ (e.startLocation ≥ D.startLocation ∧ e.startLocation < D.endLocation)) :
    ISRContainer.AdvanceToMatch f (k + 1) c
      = some (some (Post.word l),
          { isr1 := c1, isr2 := c2, current := some (Post.word l) }) := by
  unfold ISRContainer.AdvanceToMatch
  cases he : c2.current with
  | none =>
    simp [isr_word_getCurrentPost, hl, isr_word_getCurrentDoc, hgd, isr_word_seek, hs, he,
      Post.GetStartLocation, Post.GetEndLocation]
  | some e =>
    have := hskip e he
    simp [isr_word_getCurrentPost, hl, isr_word_getCurrentDoc, hgd, isr_word_seek, hs, he,
      Post.GetStartLocation, Post.GetEndLocation, this]

theorem container_adv_skip (f k : Nat) (c : ISRContainer ISRWord ISRWord) (l e : WordPost)
    (D : DocumentPost) (c1 c2 c1n : ISRWord) (x y : Option Post)
    (hl : c.isr1.current = some l)
    (hgd : c.isr1.GetCurrentDoc = some (some (Post.doc D), c1))
    (hs : c.isr2.Seek D.startLocation = some (x, c2))
    (he : c2.current = some e)
    (hin : e.startLocation ≥ D.startLocation ∧ e.startLocation < D.endLocation)
    (hn : c1.Next = some (y, c1n)) :
    ISRContainer.AdvanceToMatch f (k + 1) c
      = ISRContainer.AdvanceToMatch f k { c with isr1 := c1n, isr2 := c2 } := by
  conv => lhs; unfold ISRContainer.AdvanceToMatch
  simp only [isr_word_getCurrentPost, hl, Option.map_some', isr_word_getCurrentDoc, hgd,
    Post.GetStartLocation, Post.GetEndLocation, isr_word_seek, hs, he, hin, isr_word_next, hn]
  simp

/-- The match loop of `ISRContainer`: with the included child on its first post
at or after a document boundary `t1` that no selected document at or after `T`
precedes, it returns the first post of the included child in the first selected
document at or after `T`, or `nullptr` when there is none. -/
theorem container_advance_spec (A B : List WordPost) (docs : List DocumentPost)
    (hA : WordPostsOK A) (hB : WordPostsOK B) (hdocs : DocPostsOK docs)
    (hinA : InDocs A docs) (f T : Nat) :
    ∀ (k : Nat) (c : ISRContainer ISRWord ISRWord) (t1 t2 : Nat),
      WordSync c.isr1 A docs → WordCursorOK c.isr2 B →
      c.isr1.current = firstPostGE t1 A → c.isr2.current = firstPostGE t2 B →
      T ≤ t1 → t2 ≤ t1 →
      (∀ E ∈ docs, t1 ≤ E.endLocation → t1 ≤ E.startLocation) →
      (∀ E ∈ docs, (hasPostIn A E && !hasPostBeforeEnd B E) = true → T ≤ E.startLocation →
        t1 ≤ E.startLocation) →
      A.length - countBelow t1 A < k →
      ∃ res c1, ISRContainer.AdvanceToMatch f k c = some (res, c1)
        ∧ SelectStep docs (fun D => hasPostIn A D && !hasPostBeforeEnd B D) (FirstPostIn A)
            (ContainerReady A B docs) T res c1 := by
  intro k
  induction k with
  | zero => intro c t1 t2 _ _ _ _ _ _ _ _ hk; omega
  | succ k ih =>
    intro c t1 t2 hs1 hs2 hc1 hc2 hT1 ht2 hb1 hahead hk
    cases hl : c.isr1.current with
    | none =>
      refine ⟨none, _, container_adv_none f k c hl, Or.inl ⟨rfl, ?_⟩⟩
      intro E hE hsel hTE
      have h1 := hahead E hE hsel hTE
      simp only [Bool.and_eq_true, hasPostIn_iff] at hsel
      obtain ⟨⟨q1, hq1, hq1in⟩, _⟩ := hsel
      rw [hl] at hc1
      have := firstPostGE_none t1 A hc1.symm q1 hq1
      have := hq1in.1
      omega
    | some l =>
      have hfl : firstPostGE t1 A = some l := by rw [← hc1, hl]
      obtain ⟨hlA, hlt⟩ := firstPostGE_some t1 A l hfl
      obtain ⟨c1, D, hgd, hD, hlD, hc1cur, hsync1⟩ :=
        word_getCurrentDoc_sync c.isr1 A docs hs1 hinA l hl
      have hse := hdocs.2.1 D hD
      have ht1D : t1 ≤ D.startLocation := hb1 D hD (by have := hlD.2; omega)
      obtain ⟨c2, hseek, hok2, _, _, hcur2⟩ := word_seek_spec c.isr2 B hs2 D.startLocation
      rw [hc2, seekCurrent_firstPostGE t2 D.startLocation B (by omega)] at hcur2
      have hmin : ∀ E ∈ docs, (hasPostIn A E && !hasPostBeforeEnd B E) = true →
          T ≤ E.startLocation → E = D ∨ D.endLocation < E.startLocation := by
        intro E hE hsel hTE
        have h1 := hahead E hE hsel hTE
        simp only [Bool.and_eq_true, hasPostIn_iff] at hsel
        obtain ⟨⟨q1, hq1, hq1in⟩, _⟩ := hsel
        obtain ⟨c0, hc0, hcq⟩ := firstPostGE_le t1 A hA.1 q1 hq1 (by have := hq1in.1; omega)
        rw [hfl] at hc0
        cases hc0
        rcases docs_apart docs hdocs D E hD hE with h | h | h
        · exact Or.inl h.symm
        · exact Or.inr h
        · have := hq1in.2; have := hlD.1; omega
      by_cases hskip : ∃ e, c2.current = some e
          ∧ (e.startLocation ≥ D.startLocation ∧ e.startLocation < D.endLocation)
      · obtain ⟨e, he, hin⟩ := hskip
        obtain ⟨c1n, D1, hn1, hD1, hlD1, hcur1n, hsync1n⟩ :=
          word_next_sync c1 A docs hsync1 hinA l hc1cur
        have e1 : D1 = D := inDoc_unique docs hdocs D1 D hD1 hD _ hlD1 hlD
        subst e1
        have heB : e ∈ B := (firstPostGE_some _ B e (by rw [← hcur2, he])).1
        have hnot : (hasPostIn A D1 && !hasPostBeforeEnd B D1) = false := by
          have : hasPostBeforeEnd B D1 = true :=
            (hasPostBeforeEnd_iff B D1).mpr ⟨e, heB, hin.1, hin.2⟩
          simp [this]
        obtain ⟨hadv, hlen⟩ := countBelow_advance t1 (D1.endLocation + 1) A hA.1 l hfl
          (by have := hlD.2; omega)
        rw [container_adv_skip f k c l e D1 c1 c2 c1n _ _ hl hgd hseek he hin hn1]
        refine ih _ (D1.endLocation + 1) D1.startLocation hsync1n hok2 hcur1n hcur2
          (by omega) (by omega) (boundary_after docs hdocs D1 hD) ?_ (by omega)
        intro E hE hsel hTE
        rcases hmin E hE hsel hTE with h | h
        · subst h; rw [hnot] at hsel; cases hsel
        · omega
      · have hskip1 : ∀ e, c2.current = some e →
            ¬ (e.startLocation ≥ D.startLocation ∧ e.startLocation < D.endLocation) :=
          fun e he hin => hskip ⟨e, he, hin⟩
        refine ⟨_, _, container_adv_match f k c l D c1 c2 _ hl hgd hseek hskip1, Or.inr ?_⟩
        refine ⟨Post.word l, D, rfl, hD, ?_, by omega,
          ⟨l, rfl, firstPostGE_of_ge t1 D.startLocation A l hfl ht1D hlD.1, hlD⟩, ?_, ?_⟩
        · simp only [Bool.and_eq_true, hasPostIn_iff, Bool.not_eq_true', ← Bool.not_eq_true,
            hasPostBeforeEnd_iff]
          refine ⟨⟨l, hlA, hlD⟩, ?_⟩
          rintro ⟨q, hq, hq1, hq2⟩
          obtain ⟨c0, hc0, hcq⟩ := firstPostGE_le D.startLocation B hB.1 q hq hq1
          have := (firstPostGE_some _ B c0 hc0).2
          exact hskip1 c0 (by rw [hcur2, hc0]) ⟨this, by omega⟩
        · intro E hE hsel hTE
          rcases hmin E hE hsel hTE with h | h
          · rw [h]
          · omega
        · exact ⟨hsync1, hok2, Or.inr ⟨D, l, D.startLocation, hD, rfl, hc1cur, hlD, rfl,
            hcur2, by omega⟩⟩

theorem container_next_fresh_eq (f : Nat) (c : ISRContainer ISRWord ISRWord)
    (r1 r2 : Option Post) (c1 c2 : ISRWord) (hc : c.current = none)
    (h1 : c.isr1.Next = some (r1, c1)) (h2 : c.isr2.Next = some (r2, c2)) :
    ISRContainer.Next f c
      = ISRContainer.AdvanceToMatch f f { c with isr1 := c1, isr2 := c2 } := by
  unfold ISRContainer.Next
  simp only [hc, Option.isNone_none, if_true, isr_word_next, h1, h2]

theorem container_next_eq (f : Nat) (c : ISRContainer ISRWord ISRWord) (p : Post)
    (r1 : Option Post) (c1 : ISRWord) (hc : c.current = some p)
    (h1 : c.isr1.Next = some (r1, c1)) :
    ISRContainer.Next f c = ISRContainer.AdvanceToMatch f f { c with isr1 := c1 } := by
  unfold ISRContainer.Next
  simp only [hc, Option.isNone_some, isr_word_next, h1]
  simp

/-- One `ISRContainer::Next` call on a container over two word iterators: it
returns the first post of the included child in the first document at or after
`T` that holds a post of the included child and no post of the excluded child
in `[start, end)`, or `nullptr` when there is none. -/
theorem container_next_step (A B : List WordPost) (docs : List DocumentPost)
    (hA : WordPostsOK A) (hB : WordPostsOK B) (hdocs : DocPostsOK docs)
    (hinA : InDocs A docs) (fuel : Nat) (hfuel : A.length < fuel) (T : Nat)
    (c : ISRContainer ISRWord ISRWord) (hready : ContainerReady A B docs T c)
    (hb : ∀ E ∈ docs, T ≤ E.endLocation → T ≤ E.startLocation) :
    ∃ res c1, ISR.Next fuel c = some (res, c1)
      ∧ SelectStep docs (fun D => hasPostIn A D && !hasPostBeforeEnd B D) (FirstPostIn A)
          (ContainerReady A B docs) T res c1 := by
  obtain ⟨hs1, hs2, hcase⟩ := hready
  show ∃ res c1, ISRContainer.Next fuel c = some (res, c1) ∧ _
  have hvar : A.length - countBelow T A < fuel := by omega
  rcases hcase with ⟨hT, hcur, h1, hd1, h2⟩ | ⟨D, l, t2, hD, hcur, hl, hlD, hT, hc2, ht2⟩
  · subst hT
    obtain ⟨c1, hn1, hcur1, hsy1⟩ := word_next_fresh c.isr1 A docs hs1 h1 hd1
    obtain ⟨c2, hseek, hok2, _, _, hcur2⟩ := word_seek_spec c.isr2 B hs2 0
    rw [h2] at hcur2
    rw [container_next_fresh_eq fuel c _ _ c1 c2 hcur hn1
      (by rw [word_next_of_none c.isr2 h2]; exact hseek)]
    exact container_advance_spec A B docs hA hB hdocs hinA fuel 0 fuel _ 0 0 hsy1 hok2
      hcur1 hcur2 (Nat.le_refl _) (Nat.le_refl _) hb (fun E _ _ hTE => hTE) hvar
  · obtain ⟨c1, D1, hn1, hD1, hlD1, hcur1, hsy1⟩ := word_next_sync c.isr1 A docs hs1 hinA l hl
    have e1 : D1 = D := inDoc_unique docs hdocs D1 D hD1 hD _ hlD1 hlD
    subst e1
    subst hT
    rw [container_next_eq fuel c _ _ c1 hcur hn1]
    exact container_advance_spec A B docs hA hB hdocs hinA fuel _ fuel _ _ t2 hsy1 hs2
      hcur1 hc2 (Nat.le_refl _) ht2 hb (fun E _ _ hTE => hTE) hvar

/-- Claim C33. For an `ISRContainer` built with a fresh included word iterator
and a fresh excluded word iterator on a well-formed written segment (every post
of the included word lies in a document range), successive `ISRContainer::Next`
calls return posts up to the first `nullptr`, and these posts are exactly one
post of the included word (its first post in the document) per document that
contains a post of the included word and no post of the excluded word at a
Location in `[D.start, D.end)`, in ascending document order: the results match
the list of those documents one to one. -/
theorem container_next_included_not_excluded (A B : List WordPost)
    (docs : List DocumentPost) (a b : ISRWord) (fuel n : Nat) (hA : FreshWord a A)
    (hB : FreshWord b B) (hdA : FreshDoc a.isr_doc docs) (hinA : InDocs A docs)
    (hn : docs.length ≤ n) (hfuel : A.length < fuel) :
    ∃ results s, nextUntilNone fuel n (ISRContainer.new a b) = some (results, s)
      ∧ List.Forall₂ (FirstPostIn A) results (containerDocs A B docs) := by
  have hdocs : DocPostsOK docs := hdA.1.1
  obtain ⟨hs1, hc1, hd1⟩ := fresh_sync a A docs hA hdA
  exact nextUntilNone_select docs hdocs (fun D => hasPostIn A D && !hasPostBeforeEnd B D)
    (FirstPostIn A) (ContainerReady A B docs) fuel
    (fun T s hr hb =>
      container_next_step A B docs hA.1.1 hB.1.1 hdocs hinA fuel hfuel T s hr hb)
    docs 0 (ISRContainer.new a b) n
    ⟨hs1, freshWord_ok b B hB, Or.inl ⟨rfl, rfl, hc1, hd1, hB.2.2.2⟩⟩
    (fun _ _ _ => Nat.zero_le _) (fun _ h => h) hdocs.1 (fun _ _ => Nat.zero_le _)
    (fun _ hD _ _ => hD) hn

/-- Scenario: `a - b` where `a` has posts at 2, 7 and 12 and `b` has posts at 3
and 14 over three documents; document 0 holds a post of `b`, document 1 does
not, and the post of `b` in document 2 sits at its end Location, so documents 1
and 2 are reported. -/
theorem container_next_included_not_excluded_witness :
    containerDocs (postsAt [2, 7, 12]) (postsAt [3, 14]) sampleDocs
        = [⟨6, 10, 1⟩, ⟨11, 14, 2⟩]
      ∧ ∃ results s,
        nextUntilNone 4 3 (ISRContainer.new (wordIterator [2, 7, 12] sampleDocs)
            (wordIterator [3, 14] sampleDocs)) = some (results, s)
        ∧ List.Forall₂ (FirstPostIn (postsAt [2, 7, 12])) results
            (containerDocs (postsAt [2, 7, 12]) (postsAt [3, 14]) sampleDocs) :=
  ⟨by decide,
    container_next_included_not_excluded (postsAt [2, 7, 12]) (postsAt [3, 14]) sampleDocs
      _ _ 4 3
      (wordIterator_fresh [2, 7, 12] _ (by decide) (by decide))
      (wordIterator_fresh [3, 14] _ (by decide) (by decide))
      (wordIterator_freshDoc [2, 7, 12] _ (by decide) (by decide))
      (by decide) (by decide) (by decide)⟩

end SearchEngine

namespace SearchEngine

/-! ## Termination of the match loops -/

theorem postsLeft_le (A : List WordPost) (cur : Option WordPost) :
    postsLeft A cur ≤ A.length := by
  unfold postsLeft
  cases cur with
  | none => exact Nat.zero_le _
  | some c => exact List.length_filter_le _ _

theorem postsLeft_moved (A : List WordPost) (before after : Option WordPost)
    (h : MovedOn before after) (hm : ∀ c, before = some c → c ∈ A) :
    postsLeft A after < postsLeft A before := by
  obtain ⟨c, hc, hlater⟩ := h
  subst hc
  have hcA := hm c rfl
  have hpos : 0 < (A.filter (fun p => decide (c.startLocation ≤ p.startLocation))).length :=
    List.length_pos_of_mem (List.mem_filter.mpr ⟨hcA, by simp⟩)
  cases after with
  | none => exact hpos
  | some c1 =>
    have hlt := hlater c1 rfl
    show (A.filter _).length < (A.filter _).length
    have e : A.filter (fun p => decide (c1.startLocation ≤ p.startLocation))
        = (A.filter (fun p => decide (c.startLocation ≤ p.startLocation))).filter
            (fun p => decide (c1.startLocation ≤ p.startLocation)) := by
      rw [List.filter_filter]
      apply List.filter_congr
      intro x _
      by_cases hx : c1.startLocation ≤ x.startLocation
      · have : c.startLocation ≤ x.startLocation := by omega
        simp [hx, this]
      · simp [hx]
    rw [e]
    apply List.length_filter_lt_length_iff_exists.mpr
    exact ⟨c, List.mem_filter.mpr ⟨hcA, by simp⟩, by simp; omega⟩

theorem seekCurrentDoc_some (T : Nat) (cur : Option DocumentPost) (docs : List DocumentPost)
    (D : DocumentPost) (h : seekCurrentDoc T cur docs = some D) : T ≤ D.endLocation := by
  unfold seekCurrentDoc at h
  cases cur with
  | none => exact (firstDocGE_some T docs D h).2
  | some c =>
    simp only [] at h
    by_cases hg : T ≤ c.endLocation
    · rw [if_pos hg] at h
      cases h
      exact hg
    · rw [if_neg hg] at h
      exact (firstDocGE_some T docs D h).2

/-- `ISRWord::Seek` past the current post moves the iterator on. -/
theorem word_seek_moved (w : ISRWord) (A : List WordPost) (h : WordCursorOK w A)
    (c : WordPost) (hc : w.current = some c) (T : Nat) (hT : c.startLocation < T) :
    ∃ w1, w.Seek T = some (w1.current.map Post.word, w1) ∧ WordCursorOK w1 A
      ∧ w1.isr_doc = w.isr_doc ∧ MovedOn w.current w1.current := by
  obtain ⟨w1, hseek, hok, hdoc, _, hcur⟩ := word_seek_spec w A h T
  refine ⟨w1, hseek, hok, hdoc, c, hc, ?_⟩
  intro c1 hc1
  rw [hcur, hc, seekCurrent_of_lt T A c hT] at hc1
  have := (firstPostGE_some T A c1 hc1).2
  omega

/-- `ISRWord::GetCurrentDoc` with a current post: `nullptr`, or a document of
the segment that ends at or after the post; the post stays. -/
theorem word_getCurrentDoc_reads (w : ISRWord) (A : List WordPost) (docs : List DocumentPost)
    (h : WordReads w A docs) (c : WordPost) (hc : w.current = some c) :
    ∃ w1, WordReads w1 A docs ∧ w1.current = some c
      ∧ (w.GetCurrentDoc = some (none, w1)
        ∨ ∃ D, w.GetCurrentDoc = some (some (Post.doc D), w1) ∧ D ∈ docs
            ∧ c.startLocation ≤ D.endLocation ∧ w1.isr_doc.current = some D) := by
  obtain ⟨d1, hseek, hok, _, hcur⟩ := doc_seek_spec w.isr_doc docs h.2 c.startLocation
  have hgd := word_getCurrentDoc_eq w c _ d1 hc hseek
  refine ⟨{ w with isr_doc := d1 }, ⟨wordCursor_with_doc w A d1 h.1, hok⟩, hc, ?_⟩
  cases hd : d1.current with
  | none =>
    rw [hd] at hgd
    exact Or.inl hgd
  | some D =>
    rw [hd] at hgd
    rw [hd] at hcur
    exact Or.inr ⟨D, hgd, docCursor_current_mem d1 docs hok D hd,
      seekCurrentDoc_some _ _ docs D hcur.symm, rfl⟩

/-- `ISRWord::Next` from a post whose document the document iterator stands on
moves the iterator on. -/
theorem word_next_moved (w : ISRWord) (A : List WordPost) (docs : List DocumentPost)
    (h : WordReads w A docs) (c : WordPost) (hc : w.current = some c) (D : DocumentPost)
    (hD : w.isr_doc.current = some D) (hle : c.startLocation ≤ D.endLocation) :
    ∃ w1, w.Next = some (w1.current.map Post.word, w1) ∧ WordReads w1 A docs
      ∧ MovedOn w.current w1.current := by
  obtain ⟨d1, hseek, hok, _, hcur⟩ := doc_seek_spec w.isr_doc docs h.2 c.startLocation
  have hd1 : d1.current = some D := by
    rw [hcur, hD]
    unfold seekCurrentDoc
    simp only []
    rw [if_pos hle]
  rw [hd1] at hseek
  have hDm := docCursor_current_mem d1 docs hok D hd1
  have hnw := h.2.list.noWrap D hDm
  have hc2 : ({ w with isr_doc := d1 } : ISRWord).current = some c := hc
  obtain ⟨w1, hs1, hok1, hdoc1, hmv⟩ := word_seek_moved { w with isr_doc := d1 } A
    (wordCursor_with_doc w A d1 h.1) c hc2 (D.endLocation + 1) (by omega)
  refine ⟨w1, ?_, ⟨hok1, by rw [hdoc1]; exact hok⟩, hmv⟩
  rw [word_next_eq w c D d1 hc hseek, Nat.mod_eq_of_lt hnw]
  exact hs1

theorem and_adv_left_nodoc (f k : Nat) (a : ISRAnd ISRWord ISRWord) (l r : WordPost)
    (c2 : ISRWord) (hl : a.isr1.current = some l) (hr : a.isr2.current = some r)
    (hle : l.startLocation ≤ r.startLocation)
    (hgd : a.isr2.GetCurrentDoc = some (none, c2)) :
    ISRAnd.AdvanceToMatch f (k + 1) a = some (none, { a with isr2 := c2 }) := by
  unfold ISRAnd.AdvanceToMatch
  simp only [isr_word_getCurrentPost, hl, hr, Option.map_some', Post.GetStartLocation,
    isr_word_getCurrentDoc, hgd, if_pos hle]

theorem and_adv_right_nodoc (f k : Nat) (a : ISRAnd ISRWord ISRWord) (l r : WordPost)
    (c1 : ISRWord) (hl : a.isr1.current = some l) (hr : a.isr2.current = some r)
    (hle : ¬ l.startLocation ≤ r.startLocation)
    (hgd : a.isr1.GetCurrentDoc = some (none, c1)) :
    ISRAnd.AdvanceToMatch f (k + 1) a = some (none, { a with isr1 := c1 }) := by
  unfold ISRAnd.AdvanceToMatch
  simp only [isr_word_getCurrentPost, hl, hr, Option.map_some', Post.GetStartLocation,
    isr_word_getCurrentDoc, hgd, if_neg hle]

/-- One round of `ISRAnd::AdvanceToMatch`: it returns, or it moves one child on
and leaves the other where it was. -/
theorem and_round (A B : List WordPost) (docs : List DocumentPost) (f : Nat)
    (a : ISRAnd ISRWord ISRWord) (h1 : WordReads a.isr1 A docs)
    (h2 : WordReads a.isr2 B docs) :
    ReturnsNow (ISRAnd.AdvanceToMatch f) a
      ∨ ∃ a1, ContinuesWith (ISRAnd.AdvanceToMatch f) a a1
          ∧ WordReads a1.isr1 A docs ∧ WordReads a1.isr2 B docs
          ∧ ((MovedOn a.isr1.current a1.isr1.current ∧ a1.isr2.current = a.isr2.current)
            ∨ (MovedOn a.isr2.current a1.isr2.current
                ∧ a1.isr1.current = a.isr1.current)) := by
  cases hl : a.isr1.current with
  | none => exact Or.inl ⟨_, fun k => and_adv_none f k a (Or.inl hl)⟩
  | some l =>
    cases hr : a.isr2.current with
    | none => exact Or.inl ⟨_, fun k => and_adv_none f k a (Or.inr hr)⟩
    | some r =>
      by_cases hle : l.startLocation ≤ r.startLocation
      · obtain ⟨c2, hrd2, hc2, hdoc⟩ := word_getCurrentDoc_reads a.isr2 B docs h2 r hr
        rcases hdoc with hgd | ⟨D, hgd, hD, hrD, _⟩
        · exact Or.inl ⟨_, fun k => and_adv_left_nodoc f k a l r c2 hl hr hle hgd⟩
        · by_cases hm : D.startLocation ≤ l.startLocation
          · exact Or.inl ⟨_, fun k => and_adv_left_match f k a l r D c2 hl hr hle hgd
              ⟨hm, hrD, by omega⟩⟩
          · obtain ⟨c1, hseek, hok1, hdoc1, hmv⟩ :=
              word_seek_moved a.isr1 A h1.1 l hl D.startLocation (by omega)
            refine Or.inr ⟨{ a with isr1 := c1, isr2 := c2 }, ?_,
              ⟨hok1, by rw [hdoc1]; exact h1.2⟩, hrd2, Or.inl ⟨?_, hc2⟩⟩
            · intro k
              exact and_adv_left_seek f k a l r D c1 c2 _ hl hr hle hgd (fun h => hm h.1) hseek
            · rw [hl] at hmv; exact hmv
      · obtain ⟨c1, hrd1, hc1, hdoc⟩ := word_getCurrentDoc_reads a.isr1 A docs h1 l hl
        rcases hdoc with hgd | ⟨D, hgd, hD, hlD, _⟩
        · exact Or.inl ⟨_, fun k => and_adv_right_nodoc f k a l r c1 hl hr hle hgd⟩
        · by_cases hm : D.startLocation ≤ r.startLocation
          · exact Or.inl ⟨_, fun k => and_adv_right_match f k a l r D c1 hl hr hle hgd
              ⟨hm, by omega, hlD⟩⟩
          · obtain ⟨c2, hseek, hok2, hdoc2, hmv⟩ :=
              word_seek_moved a.isr2 B h2.1 r hr D.startLocation (by omega)
            refine Or.inr ⟨{ a with isr1 := c1, isr2 := c2 }, ?_, hrd1,
              ⟨hok2, by rw [hdoc2]; exact h2.2⟩, Or.inr ⟨?_, hc1⟩⟩
            · intro k
              exact and_adv_right_seek f k a l r D c1 c2 _ hl hr hle hgd (fun h => hm h.1)
                hseek
            · rw [hr] at hmv; exact hmv

theorem and_loop_returns (A B : List WordPost) (docs : List DocumentPost) (f : Nat) :
    ∀ (k : Nat) (a : ISRAnd ISRWord ISRWord), WordReads a.isr1 A docs →
      WordReads a.isr2 B docs →
      postsLeft A a.isr1.current + postsLeft B a.isr2.current < k →
      ∃ r, ISRAnd.AdvanceToMatch f k a = some r := by
  intro k
  induction k with
  | zero => intro a _ _ hk; omega
  | succ k ih =>
    intro a h1 h2 hk
    rcases and_round A B docs f a h1 h2 with ⟨r, hr⟩ | ⟨a1, hcont, h11, h21, hmv⟩
    · exact ⟨r, hr k⟩
    · rw [hcont k]
      apply ih a1 h11 h21
      rcases hmv with ⟨hm, he⟩ | ⟨hm, he⟩
      · have := postsLeft_moved A _ _ hm
          (fun c hc => (wordCursor_current_mem a.isr1 A h1.1 c hc).1)
        rw [he]
        omega
      · have := postsLeft_moved B _ _ hm
          (fun c hc => (wordCursor_current_mem a.isr2 B h2.1 c hc).1)
        rw [he]
        omega

theorem container_adv_nodoc (f k : Nat) (c : ISRContainer ISRWord ISRWord) (l : WordPost)
    (c1 : ISRWord) (hl : c.isr1.current = some l)
    (hgd : c.isr1.GetCurrentDoc = some (none, c1)) :
    ISRContainer.AdvanceToMatch f (k + 1) c = some (none, { c with isr1 := c1 }) := by
  unfold ISRContainer.AdvanceToMatch
  simp only [isr_word_getCurrentPost, hl, Option.map_some', isr_word_getCurrentDoc, hgd]

/-- One round of `ISRContainer::AdvanceToMatch`: it returns, or it moves the
included child on. -/
theorem container_round (A B : List WordPost) (docs : List DocumentPost) (f : Nat)
    (c : ISRContainer ISRWord ISRWord) (h1 : WordReads c.isr1 A docs)
    (h2 : WordCursorOK c.isr2 B) :
    ReturnsNow (ISRContainer.AdvanceToMatch f) c
      ∨ ∃ c1, ContinuesWith (ISRContainer.AdvanceToMatch f) c c1
          ∧ WordReads c1.isr1 A docs ∧ WordCursorOK c1.isr2 B
          ∧ MovedOn c.isr1.current c1.isr1.current := by
  cases hl : c.isr1.current with
  | none => exact Or.inl ⟨_, fun k => container_adv_none f k c hl⟩
  | some l =>
    obtain ⟨c1, hrd1, hc1, hdoc⟩ := word_getCurrentDoc_reads c.isr1 A docs h1 l hl
    rcases hdoc with hgd | ⟨D, hgd, hD, hlD, hdcur⟩
    · exact Or.inl ⟨_, fun k => container_adv_nodoc f k c l c1 hl hgd⟩
    · obtain ⟨c2, hseek, hok2, _, _, _⟩ := word_seek_spec c.isr2 B h2 D.startLocation
      by_cases hskip : ∃ e, c2.current = some e
          ∧ (e.startLocation ≥ D.startLocation ∧ e.startLocation < D.endLocation)
      · obtain ⟨e, he, hin⟩ := hskip
        obtain ⟨c1n, hn, hrdn, hmv⟩ := word_next_moved c1 A docs hrd1 l hc1 D hdcur hlD
        refine Or.inr ⟨{ c with isr1 := c1n, isr2 := c2 }, ?_, hrdn, hok2, ?_⟩
        · intro k
          exact container_adv_skip f k c l e D c1 c2 c1n _ _ hl hgd hseek he hin hn
        · rw [hc1] at hmv; exact hmv
      · exact Or.inl ⟨_, fun k => container_adv_match f k c l D c1 c2 _ hl hgd hseek
          (fun e he hin => hskip ⟨e, he, hin⟩)⟩

theorem container_loop_returns (A B : List WordPost) (docs : List DocumentPost) (f : Nat) :
    ∀ (k : Nat) (c : ISRContainer ISRWord ISRWord), WordReads c.isr1 A docs →
      WordCursorOK c.isr2 B → postsLeft A c.isr1.current < k →
      ∃ r, ISRContainer.AdvanceToMatch f k c = some r := by
  intro k
  induction k with
  | zero => intro c _ _ hk; omega
  | succ k ih =>
    intro c h1 h2 hk
    rcases container_round A B docs f c h1 h2 with ⟨r, hr⟩ | ⟨c1, hcont, h11, h21, hmv⟩
    · exact ⟨r, hr k⟩
    · rw [hcont k]
      apply ih c1 h11 h21
      have := postsLeft_moved A _ _ hmv
        (fun x hx => (wordCursor_current_mem c.isr1 A h1.1 x hx).1)
      omega

/-- The alignment loop of `ISRPhrase::AdvanceToMatch` always returns and keeps
every term on a post boundary. -/
theorem alignTerms_returns (f base : Nat) : ∀ (ts : List ISRWord)
    (lists : List (List WordPost)) (i : Nat), List.Forall₂ WordCursorOK ts lists →
    ∃ m ts1, ISRPhrase.alignTerms f base i ts = some (m, ts1)
      ∧ List.Forall₂ WordCursorOK ts1 lists := by
  intro ts
  induction ts with
  | nil =>
    intro lists i hall
    cases hall
    exact ⟨true, [], rfl, List.Forall₂.nil⟩
  | cons t ts ih =>
    intro lists i hall
    cases hall with
    | cons ht hrest =>
      rename_i l ls
      obtain ⟨t1, hseek, hok1, _, _, _⟩ := word_seek_spec t l ht ((base + i) % U32)
      obtain ⟨m2, ts2, hrec, hall2⟩ := ih ls (i + 1) hrest
      unfold ISRPhrase.alignTerms
      simp only [isr_word_seek, hseek, hrec]
      split
      · exact ⟨m2, t1 :: ts2, rfl, List.Forall₂.cons hok1 hall2⟩
      · exact ⟨false, t1 :: ts, rfl, List.Forall₂.cons hok1 hrest⟩

/-- One round of `ISRPhrase::AdvanceToMatch`: it returns, or it moves `terms[0]`
on. -/
theorem phrase_round (l0 : List WordPost) (ls : List (List WordPost)) (f : Nat)
    (p : ISRPhrase ISRWord) (h : PhraseReads p l0 ls) :
    ReturnsNow (ISRPhrase.AdvanceToMatch f) p
      ∨ ∃ p1, ContinuesWith (ISRPhrase.AdvanceToMatch f) p p1 ∧ PhraseReads p1 l0 ls
          ∧ MovedOn (firstTermCurrent p) (firstTermCurrent p1) := by
  obtain ⟨t0, ts, hterms, ht0, hrest⟩ := h
  cases hc : t0.current with
  | none =>
    refine Or.inl ⟨(none, { p with current := none }), fun k => ?_⟩
    unfold ISRPhrase.AdvanceToMatch
    simp only [hterms, isr_word_getCurrentPost, hc, Option.map_none']
  | some c =>
    obtain ⟨hcm, hno⟩ := wordCursor_current_mem t0 l0 ht0 c hc
    obtain ⟨m, ts1, hal, hall1⟩ := alignTerms_returns f c.startLocation ts ls 1 hrest
    cases m with
    | true =>
      refine Or.inl ⟨(some (Post.word c),
        { terms := t0 :: ts1, current := some (Post.word c) }), fun k => ?_⟩
      unfold ISRPhrase.AdvanceToMatch
      simp only [hterms, isr_word_getCurrentPost, hc, Option.map_some', Post.GetStartLocation,
        hal]
    | false =>
      obtain ⟨t01, hseek, hok01, _, hmv⟩ :=
        word_seek_moved t0 l0 ht0 c hc (c.startLocation + 1) (by omega)
      refine Or.inr ⟨{ p with terms := t01 :: ts1 }, fun k => ?_,
        ⟨t01, ts1, rfl, hok01, hall1⟩, ?_⟩
      · conv => lhs; unfold ISRPhrase.AdvanceToMatch
        simp only [hterms, isr_word_getCurrentPost, hc, Option.map_some',
          Post.GetStartLocation, hal, isr_word_seek, Nat.mod_eq_of_lt hno, hseek]
      · unfold firstTermCurrent
        simp only [hterms]
        exact hmv

theorem phrase_loop_returns (l0 : List WordPost) (ls : List (List WordPost)) (f : Nat) :
    ∀ (k : Nat) (p : ISRPhrase ISRWord), PhraseReads p l0 ls →
      postsLeft l0 (firstTermCurrent p) < k →
      ∃ r, ISRPhrase.AdvanceToMatch f k p = some r := by
  intro k
  induction k with
  | zero => intro p _ hk; omega
  | succ k ih =>
    intro p h hk
    rcases phrase_round l0 ls f p h with ⟨r, hr⟩ | ⟨p1, hcont, h1, hmv⟩
    · exact ⟨r, hr k⟩
    · rw [hcont k]
      apply ih p1 h1
      obtain ⟨t0, ts, hterms, ht0, _⟩ := h
      have := postsLeft_moved l0 _ _ hmv (fun x hx => by
        unfold firstTermCurrent at hx
        simp only [hterms] at hx
        exact (wordCursor_current_mem t0 l0 ht0 x hx).1)
      omega

/-- Termination over word iterators. On a written segment the `while (true)`
loops of `ISRAnd::AdvanceToMatch`, `ISRContainer::AdvanceToMatch` and
`ISRPhrase::AdvanceToMatch` over word iterators terminate from every state in
which the word iterators stand on post boundaries of their lists (and, for And
and Container,
their document iterators on boundaries of the document list): each loop returns
within as many rounds as its moving children have posts plus one, and each
round either returns or moves one child iterator to a strictly later post or
exhausts it, the other child keeping its post (And), the included child moving
(Container), `terms[0]` moving (Phrase). -/
theorem advanceToMatch_loops_terminate (A B : List WordPost) (docs : List DocumentPost)
    (ls : List (List WordPost)) (f : Nat) (a : ISRAnd ISRWord ISRWord)
    (c : ISRContainer ISRWord ISRWord) (p : ISRPhrase ISRWord)
    (ha1 : WordReads a.isr1 A docs) (ha2 : WordReads a.isr2 B docs)
    (hc1 : WordReads c.isr1 A docs) (hc2 : WordCursorOK c.isr2 B)
    (hp : PhraseReads p A ls) :
    (∀ k, A.length + B.length < k → ∃ r, ISRAnd.AdvanceToMatch f k a = some r)
      ∧ (∀ k, A.length < k → ∃ r, ISRContainer.AdvanceToMatch f k c = some r)
      ∧ (∀ k, A.length < k → ∃ r, ISRPhrase.AdvanceToMatch f k p = some r)
      ∧ (ReturnsNow (ISRAnd.AdvanceToMatch f) a
          ∨ ∃ a1, ContinuesWith (ISRAnd.AdvanceToMatch f) a a1
              ∧ WordReads a1.isr1 A docs ∧ WordReads a1.isr2 B docs
              ∧ ((MovedOn a.isr1.current a1.isr1.current
                    ∧ a1.isr2.current = a.isr2.current)
                ∨ (MovedOn a.isr2.current a1.isr2.current
                    ∧ a1.isr1.current = a.isr1.current)))
      ∧ (ReturnsNow (ISRContainer.AdvanceToMatch f) c
          ∨ ∃ c1, ContinuesWith (ISRContainer.AdvanceToMatch f) c c1
              ∧ WordReads c1.isr1 A docs ∧ WordCursorOK c1.isr2 B
              ∧ MovedOn c.isr1.current c1.isr1.current)
      ∧ (ReturnsNow (ISRPhrase.AdvanceToMatch f) p
          ∨ ∃ p1, ContinuesWith (ISRPhrase.AdvanceToMatch f) p p1 ∧ PhraseReads p1 A ls
              ∧ MovedOn (firstTermCurrent p) (firstTermCurrent p1)) := by
  refine ⟨?_, ?_, ?_, and_round A B docs f a ha1 ha2, container_round A B docs f c hc1 hc2,
    phrase_round A ls f p hp⟩
  · intro k hk
    have := postsLeft_le A a.isr1.current
    have := postsLeft_le B a.isr2.current
    exact and_loop_returns A B docs f k a ha1 ha2 (by omega)
  · intro k hk
    have := postsLeft_le A c.isr1.current
    exact container_loop_returns A B docs f k c hc1 hc2 (by omega)
  · intro k hk
    have := postsLeft_le A (firstTermCurrent p)
    exact phrase_loop_returns A ls f k p hp (by omega)

/-- Scenario S1 with fresh iterators for `a` (post at 1) and `c` (posts at 3 and
7): the three loops return within four rounds. -/
theorem advanceToMatch_loops_terminate_witness :
    (∃ r, ISRAnd.AdvanceToMatch 4 4 (ISRAnd.new (wordIterator [1] [⟨1, 5, 0⟩, ⟨6, 10, 1⟩])
        (wordIterator [3, 7] [⟨1, 5, 0⟩, ⟨6, 10, 1⟩])) = some r)
      ∧ (∃ r, ISRContainer.AdvanceToMatch 4 4
          (ISRContainer.new (wordIterator [1] [⟨1, 5, 0⟩, ⟨6, 10, 1⟩])
            (wordIterator [3, 7] [⟨1, 5, 0⟩, ⟨6, 10, 1⟩])) = some r)
      ∧ (∃ r, ISRPhrase.AdvanceToMatch 4 4
          (ISRPhrase.new [wordIterator [1] [⟨1, 5, 0⟩, ⟨6, 10, 1⟩],
            wordIterator [3, 7] [⟨1, 5, 0⟩, ⟨6, 10, 1⟩]]) = some r) :=
  have ha : WordReads (wordIterator [1] [⟨1, 5, 0⟩, ⟨6, 10, 1⟩]) (postsAt [1])
      [⟨1, 5, 0⟩, ⟨6, 10, 1⟩] :=
    ⟨freshWord_ok _ _ (wordIterator_fresh [1] _ (by decide) (by decide)),
      freshDoc_ok _ _ (wordIterator_freshDoc [1] _ (by decide) (by decide))⟩
  have hb : WordReads (wordIterator [3, 7] [⟨1, 5, 0⟩, ⟨6, 10, 1⟩]) (postsAt [3, 7])
      [⟨1, 5, 0⟩, ⟨6, 10, 1⟩] :=
    ⟨freshWord_ok _ _ (wordIterator_fresh [3, 7] _ (by decide) (by decide)),
      freshDoc_ok _ _ (wordIterator_freshDoc [3, 7] _ (by decide) (by decide))⟩
  have h := advanceToMatch_loops_terminate (postsAt [1]) (postsAt [3, 7])
    [⟨1, 5, 0⟩, ⟨6, 10, 1⟩] [postsAt [3, 7]] 4
    (ISRAnd.new (wordIterator [1] [⟨1, 5, 0⟩, ⟨6, 10, 1⟩])
      (wordIterator [3, 7] [⟨1, 5, 0⟩, ⟨6, 10, 1⟩]))
    (ISRContainer.new (wordIterator [1] [⟨1, 5, 0⟩, ⟨6, 10, 1⟩])
      (wordIterator [3, 7] [⟨1, 5, 0⟩, ⟨6, 10, 1⟩]))
    (ISRPhrase.new [wordIterator [1] [⟨1, 5, 0⟩, ⟨6, 10, 1⟩],
      wordIterator [3, 7] [⟨1, 5, 0⟩, ⟨6, 10, 1⟩]])
    ha hb ha hb.1 ⟨_, _, rfl, ha.1, List.Forall₂.cons hb.1 List.Forall₂.nil⟩
  ⟨h.1 4 (by decide), h.2.1 4 (by decide), h.2.2.1 4 (by decide)⟩

namespace ISRContainer

variable {α β : Type} [ISR α] [ISR β]

/-- `AdvanceToMatch` with one more round allowed does what its first round says. -/
theorem advanceToMatch_succ (f k : Nat) (c : ISRContainer α β) :
    AdvanceToMatch f (k + 1) c =
      match AdvanceToMatch.round f c with
      | none => none
      | some (.inl r) => some r
      | some (.inr c1) => AdvanceToMatch f k c1 := by
  rw [AdvanceToMatch]
  unfold AdvanceToMatch.round
  cases h1 : ISR.GetCurrentPost c.isr1 with
  | none => rfl
  | some includedPost =>
    simp only []
    cases h2 : ISR.GetCurrentDoc f c.isr1 with
    | none => rfl
    | some r2 =>
      obtain ⟨d, c1⟩ := r2
      cases d with
      | none => rfl
      | some docEnd =>
        simp only []
        cases h3 : ISR.Seek f docEnd.GetStartLocation c.isr2 with
        | none => rfl
        | some r3 =>
          obtain ⟨p3, c2⟩ := r3
          simp only []
          split_ifs
          all_goals first | rfl | contradiction | (cases h4 : ISR.Next f c1 <;> rfl)

theorem next_entered (fuel : Nat) (c : ISRContainer α β) (h : c.current = none) :
    Next fuel c = (entered fuel c).bind (AdvanceToMatch fuel fuel) := by
  unfold Next entered
  rw [h]
  simp only [Option.isNone_none, if_true]
  cases h1 : ISR.Next fuel c.isr1 with
  | none => rfl
  | some r1 =>
    simp only []
    cases h2 : ISR.Next fuel c.isr2 with
    | none => rfl
    | some r2 => rfl

/-- While the rounds go on, the loop has not returned. -/
theorem advanceToMatch_none_of_rounds (f : Nat) :
    ∀ (k : Nat) (c c1 : ISRContainer α β), AdvanceToMatch.rounds f k c = some c1 →
      AdvanceToMatch f k c = none := by
  intro k
  induction k with
  | zero => intro c c1 _; rfl
  | succ k ih =>
    intro c c1 h
    rw [advanceToMatch_succ]
    unfold AdvanceToMatch.rounds at h
    cases hr : AdvanceToMatch.round f c with
    | none => rfl
    | some r =>
      rw [hr] at h
      cases r with
      | inl x => simp only [] at h; cases h
      | inr c2 =>
        simp only [] at h ⊢
        exact ih c2 c1 h

theorem rounds_succ (f n : Nat) (c : ISRContainer α β) :
    AdvanceToMatch.rounds f (n + 1) c =
      match AdvanceToMatch.round f c with
      | some (.inr c1) => AdvanceToMatch.rounds f n c1
      | _ => none := rfl

theorem rounds_add (f : Nat) :
    ∀ (n m : Nat) (c : ISRContainer α β),
      AdvanceToMatch.rounds f (n + m) c =
        (AdvanceToMatch.rounds f n c).bind (AdvanceToMatch.rounds f m) := by
  intro n
  induction n with
  | zero =>
    intro m c
    rw [Nat.zero_add]
    rfl
  | succ n ih =>
    intro m c
    rw [Nat.add_right_comm, rounds_succ f (n + m), rounds_succ f n]
    cases hr : AdvanceToMatch.round f c with
    | none => rfl
    | some r =>
      cases r with
      | inl x => rfl
      | inr c2 =>
        simp only []
        exact ih m c2

/-- A state that one round hands over unchanged is handed over by any number of
rounds. -/
theorem rounds_fixed (f : Nat) (c : ISRContainer α β)
    (h : AdvanceToMatch.rounds f 1 c = some c) :
    ∀ n, AdvanceToMatch.rounds f n c = some c := by
  intro n
  induction n with
  | zero => rfl
  | succ n ih =>
    rw [Nat.add_comm, rounds_add, h, Option.some_bind, ih]

theorem round_fuel (f : Nat) (c : ISRContainer (ISRSynOr ISRWord ISRWord) ISRWord) :
    AdvanceToMatch.round f c = AdvanceToMatch.round 0 c := rfl

theorem rounds_fuel (f : Nat) :
    ∀ (n : Nat) (c : ISRContainer (ISRSynOr ISRWord ISRWord) ISRWord),
      AdvanceToMatch.rounds f n c = AdvanceToMatch.rounds 0 n c := by
  intro n
  induction n with
  | zero => intro c; rfl
  | succ n ih =>
    intro c
    unfold AdvanceToMatch.rounds
    rw [round_fuel f c]
    cases hr : AdvanceToMatch.round 0 c with
    | none => rfl
    | some r =>
      cases r with
      | inl x => rfl
      | inr c2 =>
        simp only []
        exact ih c2

theorem entered_fuel (f : Nat) (c : ISRContainer (ISRSynOr ISRWord ISRWord) ISRWord) :
    entered f c = entered 0 c := rfl

end ISRContainer

set_option maxRecDepth 1000000 in
theorem synOrContainer_rounds :
    ∃ c0 c, ISRContainer.entered 0 synOrContainer = some c0
      ∧ ISRContainer.AdvanceToMatch.rounds 0 4 c0 = some c
      ∧ ISRContainer.AdvanceToMatch.rounds 0 1 c = some c
      ∧ ISR.GetCurrentPost c.isr1 = some (Post.word ⟨1, 0⟩) :=
  ⟨(ISRContainer.entered 0 synOrContainer).get (by decide),
    ((ISRContainer.entered 0 synOrContainer).bind
      (ISRContainer.AdvanceToMatch.rounds 0 4)).get (by decide),
    (Option.some_get _).symm, by decide, by decide, by decide⟩

/-- Claim C39 at its failing input. The segment has ten documents, `cat` in
documents 0, 4, 8 and `feline` in documents 1, 5, 9; the container includes
their synonym node (step counts 1 and 2) and excludes a word that occurs in
every document. `ISRContainer::Next` never returns, whatever bound is put on
the rounds of `AdvanceToMatch` and on the child calls: in the state `c0` in
which `Next` enters the loop, every round goes on to a next round (no child
call fails), and from the fourth round on each round hands over the same state
`c`, in which the included child stands on the post of `cat` at Location 1
again: the exhausted `cat` iterator is restarted by `isr1->Next()`, and no
child moves to a strictly later post. -/
theorem container_over_synOr_never_returns :
    (∀ fuel, ISRContainer.Next fuel synOrContainer = none)
    ∧ ∃ c0 c, (∀ fuel, ISRContainer.entered fuel synOrContainer = some c0)
        ∧ (∀ f k, ISRContainer.AdvanceToMatch f k c0 = none)
        ∧ (∀ f n, ∃ cn, ISRContainer.AdvanceToMatch.rounds f n c0 = some cn)
        ∧ (∀ f m, ISRContainer.AdvanceToMatch.rounds f (4 + m) c0 = some c)
        ∧ ISR.GetCurrentPost c.isr1 = some (Post.word ⟨1, 0⟩) := by
  obtain ⟨c0, c, h0, h4, h1, hp⟩ := synOrContainer_rounds
  have hfix := ISRContainer.rounds_fixed 0 c h1
  have hge : ∀ n, 4 ≤ n → ISRContainer.AdvanceToMatch.rounds 0 n c0 = some c := by
    intro n hn
    obtain ⟨m, rfl⟩ : ∃ m, n = 4 + m := ⟨n - 4, by omega⟩
    rw [ISRContainer.rounds_add, h4, Option.some_bind, hfix]
  have hall : ∀ n, ∃ cn, ISRContainer.AdvanceToMatch.rounds 0 n c0 = some cn := by
    intro n
    rcases Nat.lt_or_ge n 4 with hlt | hge4
    · obtain ⟨m, hm⟩ : ∃ m, 4 = n + m := ⟨4 - n, by omega⟩
      rw [hm, ISRContainer.rounds_add] at h4
      cases hr : ISRContainer.AdvanceToMatch.rounds 0 n c0 with
      | none => rw [hr] at h4; cases h4
      | some cn => exact ⟨cn, rfl⟩
    · exact ⟨c, hge n hge4⟩
  have hnone : ∀ f k, ISRContainer.AdvanceToMatch f k c0 = none := by
    intro f k
    obtain ⟨cn, hcn⟩ := hall k
    exact ISRContainer.advanceToMatch_none_of_rounds f k c0 cn
      (by rw [ISRContainer.rounds_fuel]; exact hcn)
  have hent : ∀ fuel, ISRContainer.entered fuel synOrContainer = some c0 := by
    intro fuel
    rw [ISRContainer.entered_fuel]
    exact h0
  refine ⟨?_, c0, c, hent, hnone, ?_, ?_, hp⟩
  · intro fuel
    rw [ISRContainer.next_entered fuel synOrContainer rfl, hent, Option.some_bind]
    exact hnone fuel fuel
  · intro f n
    rw [ISRContainer.rounds_fuel]
    exact hall n
  · intro f m
    rw [ISRContainer.rounds_fuel]
    exact hge (4 + m) (Nat.le_add_right _ _)

end SearchEngine

namespace SearchEngine

namespace UnorderedSet

/-! ## `UnorderedSet` is a set of strings -/

theorem uset_hash_congr (a b : List Nat) (h : c_str a = c_str b) :
    HashFunction a = HashFunction b := by
  unfold HashFunction
  rw [h]

/-- A node that carries the hash of its key matches a looked-up key exactly when
the two strings are equal. -/
theorem uset_match_iff (b : SetBucket) (key : List Nat)
    (hb : b.hashValue = HashFunction b.key) :
    (b.hashValue = HashFunction key ∧ KeyCompare b.key key = true)
      ↔ c_str b.key = c_str key := by
  unfold KeyCompare
  constructor
  · intro h
    simpa using h.2
  · intro h
    exact ⟨by rw [hb]; exact uset_hash_congr _ _ h, by simpa using h⟩

theorem uset_contains_loop (key : List Nat) : ∀ (chain : List SetBucket),
    (∀ b ∈ chain, b.hashValue = HashFunction b.key) →
    (Contains.loop (HashFunction key) key chain = true
      ↔ c_str key ∈ chain.map (fun b => c_str b.key)) := by
  intro chain
  induction chain with
  | nil => intro _; simp [Contains.loop]
  | cons b rest ih =>
    intro h
    have hb := uset_match_iff b key (h b (List.mem_cons_self _ _))
    have hr := ih (fun x hx => h x (List.mem_cons_of_mem _ hx))
    unfold Contains.loop
    by_cases hm : b.hashValue = HashFunction key ∧ KeyCompare b.key key = true
    · rw [if_pos hm]
      simp [(hb.mp hm).symm]
    · rw [if_neg hm, hr]
      have hne : ¬ c_str b.key = c_str key := fun e => hm (hb.mpr e)
      simp only [List.map_cons, List.mem_cons]
      constructor
      · intro h1; exact Or.inr h1
      · rintro (h1 | h1)
        · exact absurd h1.symm hne
        · exact h1

theorem uset_insert_loop (key : List Nat) : ∀ (rest : List SetBucket) (cur : SetBucket)
    (depth : Nat), (∀ b ∈ cur :: rest, b.hashValue = HashFunction b.key) →
    (c_str key ∈ (cur :: rest).map (fun b => c_str b.key)
        ∧ Insert.loop (HashFunction key) key cur rest depth = none)
      ∨ (c_str key ∉ (cur :: rest).map (fun b => c_str b.key)
        ∧ Insert.loop (HashFunction key) key cur rest depth = some (depth + rest.length)) := by
  intro rest
  induction rest with
  | nil =>
    intro cur depth h
    have hb := uset_match_iff cur key (h cur (List.mem_cons_self _ _))
    unfold Insert.loop
    by_cases hm : cur.hashValue = HashFunction key ∧ KeyCompare cur.key key = true
    · rw [if_pos hm]
      exact Or.inl ⟨by simp [(hb.mp hm).symm], rfl⟩
    · rw [if_neg hm]
      have hne : ¬ c_str cur.key = c_str key := fun e => hm (hb.mpr e)
      exact Or.inr ⟨by simpa using fun e => hne e.symm, rfl⟩
  | cons next rest1 ih =>
    intro cur depth h
    have hb := uset_match_iff cur key (h cur (List.mem_cons_self _ _))
    unfold Insert.loop
    by_cases hm : cur.hashValue = HashFunction key ∧ KeyCompare cur.key key = true
    · rw [if_pos hm]
      exact Or.inl ⟨by simp [(hb.mp hm).symm], rfl⟩
    · rw [if_neg hm]
      have hne : ¬ c_str cur.key = c_str key := fun e => hm (hb.mpr e)
      rcases ih next (depth + 1) (fun x hx => h x (List.mem_cons_of_mem _ hx)) with
        ⟨h1, h2⟩ | ⟨h1, h2⟩
      · exact Or.inl ⟨List.mem_cons_of_mem _ h1, h2⟩
      · refine Or.inr ⟨?_, ?_⟩
        · intro hmem
          rcases List.mem_cons.mp hmem with e | e
          · exact hne e.symm
          · exact h1 e
        · show Insert.loop (HashFunction key) key next rest1 (depth + 1)
              = some (depth + (rest1.length + 1))
          rw [h2]
          congr 1
          omega

theorem uset_erase_loop (key : List Nat) : ∀ (chain : List SetBucket),
    (∀ b ∈ chain, b.hashValue = HashFunction b.key) →
    (c_str key ∉ chain.map (fun b => c_str b.key)
        ∧ Erase.loop (HashFunction key) key chain = none)
      ∨ ∃ x chain1, Erase.loop (HashFunction key) key chain = some chain1
          ∧ c_str x.key = c_str key ∧ List.Perm chain (x :: chain1) := by
  intro chain
  induction chain with
  | nil => intro _; exact Or.inl ⟨by simp, rfl⟩
  | cons b rest ih =>
    intro h
    have hb := uset_match_iff b key (h b (List.mem_cons_self _ _))
    unfold Erase.loop
    by_cases hm : b.hashValue = HashFunction key ∧ KeyCompare b.key key = true
    · rw [if_pos hm]
      exact Or.inr ⟨b, rest, rfl, hb.mp hm, List.Perm.refl _⟩
    · rw [if_neg hm]
      have hne : ¬ c_str b.key = c_str key := fun e => hm (hb.mpr e)
      rcases ih (fun x hx => h x (List.mem_cons_of_mem _ hx)) with ⟨h1, h2⟩ | ⟨x, c1, h2, hx, hp⟩
      · refine Or.inl ⟨?_, by rw [h2]; rfl⟩
        intro hmem
        rcases List.mem_cons.mp hmem with e | e
        · exact hne e.symm
        · exact h1 e
      · refine Or.inr ⟨x, b :: c1, by rw [h2]; rfl, hx, ?_⟩
        exact (List.Perm.cons b hp).trans (List.Perm.swap x b c1)

/-- Replacing one bucket replaces its chain inside the concatenation of all
chains. -/
theorem uset_flatten_set {α : Type} : ∀ (bs : List (List α)) (i : Nat) (c c1 : List α),
    bs[i]? = some c →
    ∃ pre post, bs.flatten = pre ++ c ++ post ∧ (bs.set i c1).flatten = pre ++ c1 ++ post := by
  intro bs
  induction bs with
  | nil => intro i c c1 h; simp at h
  | cons b rest ih =>
    intro i c c1 h
    cases i with
    | zero =>
      simp only [List.getElem?_cons_zero, Option.some.injEq] at h
      subst h
      exact ⟨[], rest.flatten, by simp, by simp⟩
    | succ j =>
      simp only [List.getElem?_cons_succ] at h
      obtain ⟨pre, post, h1, h2⟩ := ih j c c1 h
      refine ⟨b ++ pre, post, ?_, ?_⟩
      · simp only [List.flatten_cons, h1, List.append_assoc]
      · simp only [List.set_cons_succ, List.flatten_cons, h2, List.append_assoc]

theorem uset_flatten_set_perm {α : Type} (bs : List (List α)) (i : Nat) (c c1 : List α)
    (x : α) (h : bs[i]? = some c) (hp : List.Perm c1 (x :: c)) :
    List.Perm (bs.set i c1).flatten (x :: bs.flatten) := by
  obtain ⟨pre, post, h1, h2⟩ := uset_flatten_set bs i c c1 h
  rw [h1, h2]
  have e1 : List.Perm (pre ++ c1 ++ post) (pre ++ (x :: c) ++ post) :=
    List.Perm.append_right post (List.Perm.append_left pre hp)
  refine e1.trans ?_
  simp only [List.append_assoc, List.cons_append]
  exact List.perm_middle

theorem uset_place_set (bs : List (List SetBucket)) (i : Nat) (c1 : List SetBucket)
    (hplace : ∀ j chain, bs[j]? = some chain → ∀ b ∈ chain,
      b.hashValue = HashFunction b.key ∧ b.hashValue % bs.length = j)
    (hc1 : ∀ b ∈ c1, b.hashValue = HashFunction b.key ∧ b.hashValue % bs.length = i) :
    ∀ j chain, (bs.set i c1)[j]? = some chain → ∀ b ∈ chain,
      b.hashValue = HashFunction b.key ∧ b.hashValue % (bs.set i c1).length = j := by
  intro j chain hj b hb
  rw [List.length_set]
  by_cases hij : i = j
  · subst hij
    rw [List.getElem?_set, if_pos rfl] at hj
    by_cases hlt : i < bs.length
    · rw [if_pos hlt] at hj
      cases hj
      exact hc1 b hb
    · rw [if_neg hlt] at hj
      cases hj
  · rw [List.getElem?_set_ne hij] at hj
    exact hplace j chain hj b hb

/-- The nodes that hold a string sit in the bucket of its hash. -/
theorem uset_mem_keys (s : UnorderedSet) (h : WF s) (key : List Nat) :
    ∃ chain, s.buckets[HashFunction key % s.capacity]? = some chain
      ∧ (∀ b ∈ chain, b.hashValue = HashFunction b.key
          ∧ b.hashValue % s.buckets.length = HashFunction key % s.capacity)
      ∧ (c_str key ∈ s.keys ↔ c_str key ∈ chain.map (fun b => c_str b.key)) := by
  have hlt : HashFunction key % s.capacity < s.buckets.length := Nat.mod_lt _ h.cap
  obtain ⟨chain, hchain⟩ : ∃ chain, s.buckets[HashFunction key % s.capacity]? = some chain :=
    ⟨_, List.getElem?_eq_getElem hlt⟩
  refine ⟨chain, hchain, h.place _ chain hchain, ?_⟩
  unfold keys
  constructor
  · intro hm
    obtain ⟨b, hb, hbk⟩ := List.mem_map.mp hm
    obtain ⟨c, hc, hbc⟩ := List.mem_flatten.mp hb
    obtain ⟨j, hj⟩ := List.getElem?_of_mem hc
    obtain ⟨h1, h2⟩ := h.place j c hj b hbc
    have hj2 : j = HashFunction key % s.capacity := by
      rw [← h2, h1, uset_hash_congr _ _ hbk]
      rfl
    subst hj2
    rw [hchain] at hj
    cases hj
    exact List.mem_map.mpr ⟨b, hbc, hbk⟩
  · intro hm
    obtain ⟨b, hb, hbk⟩ := List.mem_map.mp hm
    exact List.mem_map.mpr ⟨b, List.mem_flatten.mpr ⟨chain, List.getElem?_mem hchain, hb⟩,
      hbk⟩

theorem uset_rehash_fold : ∀ (nodes : List SetBucket) (nb : List (List SetBucket)),
    0 < nb.length → (∀ b ∈ nodes, b.hashValue = HashFunction b.key) →
    (∀ j chain, nb[j]? = some chain → ∀ b ∈ chain,
      b.hashValue = HashFunction b.key ∧ b.hashValue % nb.length = j) →
    ∃ nb1, nodes.foldl Rehash.move (some nb) = some nb1 ∧ nb1.length = nb.length
      ∧ List.Perm nb1.flatten (nodes ++ nb.flatten)
      ∧ (∀ j chain, nb1[j]? = some chain → ∀ b ∈ chain,
          b.hashValue = HashFunction b.key ∧ b.hashValue % nb1.length = j) := by
  intro nodes
  induction nodes with
  | nil => intro nb _ _ hp; exact ⟨nb, rfl, rfl, List.Perm.refl _, hp⟩
  | cons x rest ih =>
    intro nb hlen hnodes hplace
    have hx := hnodes x (List.mem_cons_self _ _)
    have hidx : x.hashValue % nb.length < nb.length := Nat.mod_lt _ hlen
    have hget : nb[x.hashValue % nb.length]? = some (nb.getD (x.hashValue % nb.length) []) := by
      rw [List.getD_eq_getElem?_getD, List.getElem?_eq_getElem hidx]
      rfl
    have hstep : Rehash.move (some nb) x
        = some (nb.set (x.hashValue % nb.length)
            (x :: nb.getD (x.hashValue % nb.length) [])) := by
      unfold Rehash.move
      simp only [Option.some_bind]
      rw [if_neg (by omega)]
    obtain ⟨nb1, h1, h2, h3, h4⟩ := ih
      (nb.set (x.hashValue % nb.length) (x :: nb.getD (x.hashValue % nb.length) []))
      (by rw [List.length_set]; exact hlen)
      (fun b hb => hnodes b (List.mem_cons_of_mem _ hb))
      (uset_place_set nb _ _ hplace (by
        intro b hb
        rcases List.mem_cons.mp hb with e | e
        · subst e; exact ⟨hx, rfl⟩
        · exact hplace _ _ hget b e))
    refine ⟨nb1, ?_, by rw [h2, List.length_set], ?_, h4⟩
    · rw [List.foldl_cons, hstep]
      exact h1
    · refine h3.trans ?_
      have := uset_flatten_set_perm nb (x.hashValue % nb.length) _
        (x :: nb.getD (x.hashValue % nb.length) []) x hget (List.Perm.refl _)
      refine (List.Perm.append_left rest this).trans ?_
      simp only [List.cons_append]
      exact List.perm_middle

theorem uset_wf_of_perm (s s1 : UnorderedSet) (h : WF s) (hcap : 0 < s1.buckets.length)
    (hplace : ∀ j chain, s1.buckets[j]? = some chain → ∀ b ∈ chain,
      b.hashValue = HashFunction b.key ∧ b.hashValue % s1.buckets.length = j)
    (hperm : List.Perm s1.buckets.flatten s.buckets.flatten) (hsize : s1.size = s.size) :
    WF s1 :=
  { cap := hcap, place := hplace,
    nodup := (List.Perm.nodup_iff (List.Perm.map _ hperm)).mpr h.nodup,
    count := by rw [hsize, h.count]; exact hperm.length_eq.symm }

/-- `Rehash` keeps the nodes. -/
theorem uset_rehash (s : UnorderedSet) (h : WF s) :
    ∃ s1, Rehash s = some s1 ∧ WF s1 ∧ List.Perm s1.buckets.flatten s.buckets.flatten := by
  have hcap := h.cap
  have hnodes : ∀ b ∈ s.buckets.flatten, b.hashValue = HashFunction b.key := by
    intro b hb
    obtain ⟨c, hc, hbc⟩ := List.mem_flatten.mp hb
    obtain ⟨j, hj⟩ := List.getElem?_of_mem hc
    exact (h.place j c hj b hbc).1
  obtain ⟨nb1, h1, h2, h3, h4⟩ := uset_rehash_fold s.buckets.flatten
    (List.replicate (s.capacity * 7 / 4) [])
    (by rw [List.length_replicate]; unfold capacity; omega) hnodes
    (by
      intro j chain hj b hb
      have hc := List.getElem?_mem hj
      rw [List.eq_of_mem_replicate hc] at hb
      cases hb)
  have hflat : (List.replicate (s.capacity * 7 / 4) ([] : List SetBucket)).flatten = [] := by
    induction (s.capacity * 7 / 4) with
    | zero => rfl
    | succ n ih => simp [List.replicate_succ, ih]
  rw [hflat, List.append_nil] at h3
  refine ⟨{ s with buckets := nb1, bucketSizeExceeded := false }, ?_, ?_, h3⟩
  · unfold Rehash
    simp only [h1, Option.map_some']
  · exact uset_wf_of_perm s _ h
      (by rw [h2, List.length_replicate]; unfold capacity; omega) h4 h3 rfl

theorem uset_optimize (s : UnorderedSet) (h : WF s) :
    ∃ s1, OptimizeInternal s = some s1 ∧ WF s1
      ∧ List.Perm s1.buckets.flatten s.buckets.flatten := by
  unfold OptimizeInternal
  by_cases hc : s.size > s.maxLoadFactor * s.capacity ∨ s.bucketSizeExceeded = true
  · rw [if_pos hc]
    exact uset_rehash s h
  · rw [if_neg hc]
    exact ⟨s, rfl, h, List.Perm.refl _⟩

theorem uset_flatten_set_perm_erase {α : Type} (bs : List (List α)) (i : Nat)
    (c c1 : List α) (x : α) (h : bs[i]? = some c) (hp : List.Perm c (x :: c1)) :
    List.Perm bs.flatten (x :: (bs.set i c1).flatten) := by
  obtain ⟨pre, post, h1, h2⟩ := uset_flatten_set bs i c c1 h
  rw [h1, h2]
  have e1 : List.Perm (pre ++ c ++ post) (pre ++ (x :: c1) ++ post) :=
    List.Perm.append_right post (List.Perm.append_left pre hp)
  refine e1.trans ?_
  simp only [List.append_assoc, List.cons_append]
  exact List.perm_middle

theorem uset_replicate_flatten (n : Nat) :
    (List.replicate n ([] : List SetBucket)).flatten = [] := by
  induction n with
  | zero => rfl
  | succ n ih => simp [List.replicate_succ, ih]

theorem uset_wf_new (initialCapacity loadFactor maxDepth : Nat) (h : 0 < initialCapacity) :
    WF (new initialCapacity loadFactor maxDepth)
      ∧ (new initialCapacity loadFactor maxDepth).keys = [] := by
  have hk : (new initialCapacity loadFactor maxDepth).keys = [] := by
    unfold keys new
    simp only [uset_replicate_flatten, List.map_nil]
  refine ⟨⟨?_, ?_, ?_, ?_⟩, hk⟩
  · show 0 < (List.replicate initialCapacity ([] : List SetBucket)).length
    rw [List.length_replicate]; exact h
  · intro j chain hj b hb
    have hc : chain ∈ List.replicate initialCapacity ([] : List SetBucket) :=
      List.getElem?_mem hj
    rw [List.eq_of_mem_replicate hc] at hb
    cases hb
  · rw [hk]; exact List.nodup_nil
  · show 0 = (List.replicate initialCapacity ([] : List SetBucket)).flatten.length
    rw [uset_replicate_flatten]; rfl

/-- Hanging a node for a new string on the chain of its bucket. -/
theorem uset_add_node (s : UnorderedSet) (h : WF s) (key : List Nat)
    (chain c1 : List SetBucket) (flag : Bool)
    (hchain : s.buckets[HashFunction key % s.capacity]? = some chain)
    (hp : List.Perm c1 (⟨HashFunction key, key⟩ :: chain)) (hnew : c_str key ∉ s.keys) :
    WF { s with buckets := s.buckets.set (HashFunction key % s.capacity) c1,
                size := s.size + 1, bucketSizeExceeded := flag }
      ∧ List.Perm (s.buckets.set (HashFunction key % s.capacity) c1).flatten
          (⟨HashFunction key, key⟩ :: s.buckets.flatten) := by
  have hperm := uset_flatten_set_perm s.buckets _ chain c1 ⟨HashFunction key, key⟩ hchain hp
  refine ⟨⟨?_, ?_, ?_, ?_⟩, hperm⟩
  · show 0 < (s.buckets.set _ c1).length
    rw [List.length_set]; exact h.cap
  · apply uset_place_set s.buckets _ c1 h.place
    intro b hb
    rcases List.mem_cons.mp (hp.mem_iff.mp hb) with e | e
    · subst e; exact ⟨rfl, rfl⟩
    · exact h.place _ chain hchain b e
  · show ((s.buckets.set _ c1).flatten.map (fun b => c_str b.key)).Nodup
    rw [List.Perm.nodup_iff (List.Perm.map _ hperm)]
    exact List.nodup_cons.mpr ⟨hnew, h.nodup⟩
  · show s.size + 1 = (s.buckets.set _ c1).flatten.length
    rw [hperm.length_eq, List.length_cons, h.count]

theorem uset_keys_of_perm (s1 s : UnorderedSet)
    (hperm : List.Perm s1.buckets.flatten s.buckets.flatten) :
    s1.keys.toFinset = s.keys.toFinset :=
  List.toFinset_eq_of_perm _ _ (List.Perm.map _ hperm)

/-- `Insert` adds the string and tells whether it was absent. -/
theorem uset_insert (s : UnorderedSet) (h : WF s) (key : List Nat) :
    ∃ s1, s.Insert key = some (decide (c_str key ∉ s.keys.toFinset), s1) ∧ WF s1
      ∧ s1.keys.toFinset = insert (c_str key) s.keys.toFinset := by
  obtain ⟨chain, hchain, hplace, hmem⟩ := uset_mem_keys s h key
  have hcap : ¬ s.capacity = 0 := by have := h.cap; unfold capacity; omega
  have hadd : ∀ (c1 : List SetBucket) (flag : Bool),
      List.Perm c1 (⟨HashFunction key, key⟩ :: chain) → c_str key ∉ s.keys →
      ∀ s2, WF s2 → List.Perm s2.buckets.flatten
          (s.buckets.set (HashFunction key % s.capacity) c1).flatten →
        s2.keys.toFinset = insert (c_str key) s.keys.toFinset := by
    intro c1 flag hp hnew s2 _ hperm2
    obtain ⟨_, hperm⟩ := uset_add_node s h key chain c1 flag hchain hp hnew
    have := List.toFinset_eq_of_perm _ _ (List.Perm.map (fun b => c_str b.key)
      (hperm2.trans hperm))
    unfold keys
    rw [this, List.map_cons, List.toFinset_cons]
  unfold Insert
  rw [if_neg hcap]
  simp only [hchain]
  cases chain with
  | nil =>
    have hnew : c_str key ∉ s.keys := by rw [hmem]; simp
    obtain ⟨hwf, _⟩ := uset_add_node s h key [] [⟨HashFunction key, key⟩] s.bucketSizeExceeded
      hchain (List.Perm.refl _) hnew
    obtain ⟨s1, hopt, hwf1, hperm1⟩ := uset_optimize _ hwf
    refine ⟨s1, ?_, hwf1, hadd _ s.bucketSizeExceeded (List.Perm.refl _) hnew s1 hwf1 hperm1⟩
    simp only [hopt, Option.map_some', List.mem_toFinset, hnew, not_false_eq_true,
      decide_True]
  | cons cur rest =>
    have hash : ∀ b ∈ cur :: rest, b.hashValue = HashFunction b.key :=
      fun b hb => (hplace b hb).1
    have hp : List.Perm ((cur :: rest) ++ [⟨HashFunction key, key⟩])
        (⟨HashFunction key, key⟩ :: (cur :: rest)) := List.perm_append_singleton _ _
    rcases uset_insert_loop key rest cur 0 hash with ⟨h1, h2⟩ | ⟨h1, h2⟩
    · have hold : c_str key ∈ s.keys := hmem.mpr h1
      refine ⟨s, ?_, h, ?_⟩
      · simp only [h2, List.mem_toFinset, hold, not_true_eq_false, decide_False]
      · rw [Finset.insert_eq_of_mem (List.mem_toFinset.mpr hold)]
    · have hnew : c_str key ∉ s.keys := fun hk => h1 (hmem.mp hk)
      simp only [h2]
      by_cases hd : 0 + rest.length > s.maxBucketSize
      · rw [if_pos hd]
        obtain ⟨hwf, _⟩ := uset_add_node s h key (cur :: rest) _ true hchain hp hnew
        obtain ⟨s1, hopt, hwf1, hperm1⟩ := uset_optimize _ hwf
        refine ⟨s1, ?_, hwf1, hadd _ true hp hnew s1 hwf1 hperm1⟩
        simp only [hopt, Option.map_some', List.mem_toFinset, hnew, not_false_eq_true,
          decide_True]
      · rw [if_neg hd]
        obtain ⟨hwf, _⟩ := uset_add_node s h key (cur :: rest) _ s.bucketSizeExceeded hchain
          hp hnew
        refine ⟨_, ?_, hwf, hadd _ s.bucketSizeExceeded hp hnew _ hwf (List.Perm.refl _)⟩
        simp only [List.mem_toFinset, hnew, not_false_eq_true, decide_True]

/-- `Contains` tells whether the string is held. -/
theorem uset_contains (s : UnorderedSet) (h : WF s) (key : List Nat) :
    s.Contains key = some (decide (c_str key ∈ s.keys.toFinset)) := by
  obtain ⟨chain, hchain, hplace, hmem⟩ := uset_mem_keys s h key
  have hcap : ¬ s.capacity = 0 := by have := h.cap; unfold capacity; omega
  unfold Contains
  rw [if_neg hcap]
  simp only [hchain, Option.map_some', Option.some.injEq]
  have := uset_contains_loop key chain (fun b hb => (hplace b hb).1)
  rw [Bool.eq_iff_iff, this, ← hmem]
  simp

/-- `Erase` removes the string and tells whether it was present. -/
theorem uset_erase (s : UnorderedSet) (h : WF s) (key : List Nat) :
    ∃ s1, s.Erase key = some (decide (c_str key ∈ s.keys.toFinset), s1) ∧ WF s1
      ∧ s1.keys.toFinset = s.keys.toFinset.erase (c_str key) := by
  obtain ⟨chain, hchain, hplace, hmem⟩ := uset_mem_keys s h key
  have hcap : ¬ s.capacity = 0 := by have := h.cap; unfold capacity; omega
  unfold Erase
  rw [if_neg hcap]
  simp only [hchain]
  rcases uset_erase_loop key chain (fun b hb => (hplace b hb).1) with
    ⟨h1, h2⟩ | ⟨x, chain1, h2, hx, hp⟩
  · have hnew : c_str key ∉ s.keys := fun hk => h1 (hmem.mp hk)
    refine ⟨s, ?_, h, ?_⟩
    · simp only [h2, List.mem_toFinset, hnew, decide_False]
    · rw [Finset.erase_eq_of_not_mem (fun hk => hnew (List.mem_toFinset.mp hk))]
  · have hperm := uset_flatten_set_perm_erase s.buckets _ chain chain1 x hchain hp
    have hkeys : List.Perm s.keys
        (c_str key :: ((s.buckets.set (HashFunction key % s.capacity) chain1).flatten.map
          (fun b => c_str b.key))) := by
      have := List.Perm.map (fun b => c_str b.key) hperm
      rw [List.map_cons, hx] at this
      exact this
    have hnd := (List.Perm.nodup_iff hkeys).mp h.nodup
    have hold : c_str key ∈ s.keys := hkeys.mem_iff.mpr (List.mem_cons_self _ _)
    refine ⟨{ s with buckets := s.buckets.set (HashFunction key % s.capacity) chain1, size := s.size - 1 },
      ?_, ⟨?_, ?_, ?_, ?_⟩, ?_⟩
    · simp only [h2, List.mem_toFinset, hold, decide_True]
    · show 0 < (s.buckets.set _ chain1).length
      rw [List.length_set]; exact h.cap
    · apply uset_place_set s.buckets _ chain1 h.place
      intro b hb
      exact h.place _ chain hchain b (hp.mem_iff.mpr (List.mem_cons_of_mem _ hb))
    · exact (List.nodup_cons.mp hnd).2
    · show s.size - 1 = (s.buckets.set _ chain1).flatten.length
      have := hperm.length_eq
      rw [List.length_cons] at this
      rw [h.count, this]
      rfl
    · show ((s.buckets.set _ chain1).flatten.map (fun b => c_str b.key)).toFinset = _
      rw [List.toFinset_eq_of_perm _ _ hkeys, List.toFinset_cons, Finset.erase_insert]
      exact fun hk => (List.nodup_cons.mp hnd).1 (List.mem_toFinset.mp hk)

theorem uset_size (s : UnorderedSet) (h : WF s) : s.Size = s.keys.toFinset.card := by
  rw [List.toFinset_card_of_nodup h.nodup]
  unfold Size keys
  rw [List.length_map, h.count]

/-- One call on the set answers as the mathematical set of its strings does. -/
theorem uset_call (s : UnorderedSet) (h : WF s) (c : SetCall) :
    ∃ s1, s.call c = some ((StringSet.call s.keys.toFinset c).1, s1) ∧ WF s1
      ∧ s1.keys.toFinset = (StringSet.call s.keys.toFinset c).2 := by
  cases c with
  | insert key =>
    obtain ⟨s1, h1, h2, h3⟩ := uset_insert s h key
    exact ⟨s1, by simp only [call, h1, Option.map_some', StringSet.call], h2, h3⟩
  | erase key =>
    obtain ⟨s1, h1, h2, h3⟩ := uset_erase s h key
    exact ⟨s1, by simp only [call, h1, Option.map_some', StringSet.call], h2, h3⟩
  | contains key =>
    exact ⟨s, by simp only [call, uset_contains s h key, Option.map_some', StringSet.call],
      h, rfl⟩
  | size => exact ⟨s, by simp only [call, uset_size s h, StringSet.call], h, rfl⟩

theorem uset_run (calls : List SetCall) : ∀ (s : UnorderedSet), WF s →
    ∃ s1, s.run calls = some ((StringSet.run calls s.keys.toFinset).1, s1) ∧ WF s1
      ∧ s1.keys.toFinset = (StringSet.run calls s.keys.toFinset).2 := by
  induction calls with
  | nil => intro s h; exact ⟨s, rfl, h, rfl⟩
  | cons c cs ih =>
    intro s h
    obtain ⟨s1, h1, h2, h3⟩ := uset_call s h c
    obtain ⟨s2, k1, k2, k3⟩ := ih s1 h2
    refine ⟨s2, ?_, k2, ?_⟩
    · unfold run
      simp only [h1, Option.some_bind, k1, Option.map_some', StringSet.run, h3]
    · rw [k3, h3]
      rfl

end UnorderedSet

/-- Claim C30. `UnorderedSet` behaves as a mathematical set of strings: for every
sequence of `Insert`, `Erase`, `Contains` and `Size` calls on a set constructed
with a positive capacity, every call returns, the answers are those of the same
calls on a mathematical set of strings that starts empty (`Insert` tells
whether the string was absent and adds it, `Erase` whether it was present and
removes it, `Contains` membership, `Size` the number of distinct strings), and
afterwards the strings held by the nodes are that set and `Size()` is its
cardinality, also when calls rehashed the table. -/
theorem unorderedSet_behaves_as_string_set (calls : List SetCall)
    (initialCapacity loadFactor maxDepth : Nat) (hcap : 0 < initialCapacity) :
    ∃ s, (UnorderedSet.new initialCapacity loadFactor maxDepth).run calls
          = some ((StringSet.run calls ∅).1, s)
      ∧ s.keys.toFinset = (StringSet.run calls ∅).2
      ∧ s.keys.Nodup
      ∧ s.Size = (StringSet.run calls ∅).2.card := by
  obtain ⟨hwf, hk⟩ := UnorderedSet.uset_wf_new initialCapacity loadFactor maxDepth hcap
  obtain ⟨s, h1, h2, h3⟩ := UnorderedSet.uset_run calls _ hwf
  rw [hk, List.toFinset_nil] at h1 h3
  exact ⟨s, h1, h3, h2.nodup, by rw [UnorderedSet.uset_size s h2, h3]⟩

/-- The calls of the repository's test and four more insertions, on a set of
two buckets that rehashes on the way: the answers are those of the test. -/
theorem unorderedSet_behaves_as_string_set_witness :
    (StringSet.run sampleSetCalls ∅).1
        = [.count 0, .bool true, .bool true, .bool true, .bool false, .count 3, .bool true,
            .bool false, .bool true, .count 2, .bool false, .bool false, .bool true,
            .bool true, .bool true, .count 5]
      ∧ ∃ s, (UnorderedSet.new 2 1 0).run sampleSetCalls
            = some ((StringSet.run sampleSetCalls ∅).1, s)
          ∧ s.keys.toFinset = (StringSet.run sampleSetCalls ∅).2
          ∧ s.keys.Nodup
          ∧ s.Size = (StringSet.run sampleSetCalls ∅).2.card :=
  ⟨by decide, unorderedSet_behaves_as_string_set sampleSetCalls 2 1 0 (by decide)⟩

end SearchEngine

namespace SearchEngine

namespace HashTable

/-! ## The in-memory dictionary holds each inserted string once -/

theorem ht_hash_congr (a b : List Nat) (h : c_str a = c_str b) :
    HashFunction a = HashFunction b := by
  unfold HashFunction
  rw [h]

theorem ht_hash_lt (k : List Nat) : HashFunction k < U32 := by
  unfold HashFunction
  generalize c_str k = s
  have key : ∀ (l : List Nat) (init : Nat), init < U32 →
      l.foldl (fun hash b => ((hash ^^^ charToU32 b) * 16777619) % U32) init < U32 := by
    intro l
    induction l with
    | nil => intro init h; exact h
    | cons b rest ih =>
      intro init _
      rw [List.foldl_cons]
      exact ih _ (Nat.mod_lt _ (by decide))
  exact key s _ (by decide)

/-- A node that carries the hash of its key fails the loop test of `Find`
exactly when its string is the looked-up string. -/
theorem ht_match_iff (b : Bucket) (key : List Nat) (hb : b.hashValue = HashFunction b.key) :
    ¬ (b.hashValue ≠ HashFunction key ∨ KeyCompare b.key key = false)
      ↔ c_str b.key = c_str key := by
  unfold KeyCompare
  constructor
  · intro h
    by_contra hne
    exact h (Or.inr (by simpa using hne))
  · intro h hor
    rcases hor with h1 | h1
    · exact h1 (by rw [hb]; exact ht_hash_congr _ _ h)
    · simp [h] at h1

theorem ht_find_loop (key : List Nat) : ∀ (rest : List Bucket) (cur : Bucket) (depth : Nat),
    (∀ b ∈ cur :: rest, b.hashValue = HashFunction b.key) →
    (c_str key ∈ (cur :: rest).map (fun b => c_str b.key)
        ∧ ∃ b, (Find.loop (HashFunction key) key cur rest depth).1 = some b)
      ∨ (c_str key ∉ (cur :: rest).map (fun b => c_str b.key)
        ∧ (Find.loop (HashFunction key) key cur rest depth).1 = none) := by
  intro rest
  induction rest with
  | nil =>
    intro cur depth h
    have hb := ht_match_iff cur key (h cur (List.mem_cons_self _ _))
    unfold Find.loop
    by_cases hm : cur.hashValue ≠ HashFunction key ∨ KeyCompare cur.key key = false
    · rw [if_pos hm]
      have hne : ¬ c_str cur.key = c_str key := fun e => hb.mpr e hm
      exact Or.inr ⟨by simpa using fun e => hne e.symm, rfl⟩
    · rw [if_neg hm]
      exact Or.inl ⟨by simp [(hb.mp hm).symm], cur, rfl⟩
  | cons next rest1 ih =>
    intro cur depth h
    have hb := ht_match_iff cur key (h cur (List.mem_cons_self _ _))
    unfold Find.loop
    by_cases hm : cur.hashValue ≠ HashFunction key ∨ KeyCompare cur.key key = false
    · rw [if_pos hm]
      have hne : ¬ c_str cur.key = c_str key := fun e => hb.mpr e hm
      rcases ih next (depth + 1) (fun x hx => h x (List.mem_cons_of_mem _ hx)) with
        ⟨h1, h2⟩ | ⟨h1, h2⟩
      · exact Or.inl ⟨List.mem_cons_of_mem _ h1, h2⟩
      · refine Or.inr ⟨?_, h2⟩
        intro hmem
        rcases List.mem_cons.mp hmem with e | e
        · exact hne e.symm
        · exact h1 e
    · rw [if_neg hm]
      exact Or.inl ⟨by simp [(hb.mp hm).symm], cur, rfl⟩

theorem ht_place_set (bs : List (List Bucket)) (i : Nat) (c1 : List Bucket)
    (hplace : ∀ j chain, bs[j]? = some chain → ∀ b ∈ chain,
      b.hashValue = HashFunction b.key ∧ b.hashValue % bs.length = j)
    (hc1 : ∀ b ∈ c1, b.hashValue = HashFunction b.key ∧ b.hashValue % bs.length = i) :
    ∀ j chain, (bs.set i c1)[j]? = some chain → ∀ b ∈ chain,
      b.hashValue = HashFunction b.key ∧ b.hashValue % (bs.set i c1).length = j := by
  intro j chain hj b hb
  rw [List.length_set]
  by_cases hij : i = j
  · subst hij
    rw [List.getElem?_set, if_pos rfl] at hj
    by_cases hlt : i < bs.length
    · rw [if_pos hlt] at hj
      cases hj
      exact hc1 b hb
    · rw [if_neg hlt] at hj
      cases hj
  · rw [List.getElem?_set_ne hij] at hj
    exact hplace j chain hj b hb

/-- The nodes that hold a string sit in the bucket of its hash. -/
theorem ht_mem_keys (ht : HashTable) (h : WF ht) (key : List Nat) :
    ∃ chain, ht.buckets[HashFunction key % ht.capacity]? = some chain
      ∧ (∀ b ∈ chain, b.hashValue = HashFunction b.key
          ∧ b.hashValue % ht.buckets.length = HashFunction key % ht.capacity)
      ∧ (c_str key ∈ ht.keys ↔ c_str key ∈ chain.map (fun b => c_str b.key)) := by
  have hlt : HashFunction key % ht.capacity < ht.buckets.length := Nat.mod_lt _ h.cap
  obtain ⟨chain, hchain⟩ : ∃ chain, ht.buckets[HashFunction key % ht.capacity]? = some chain :=
    ⟨_, List.getElem?_eq_getElem hlt⟩
  refine ⟨chain, hchain, h.place _ chain hchain, ?_⟩
  unfold keys
  constructor
  · intro hm
    obtain ⟨b, hb, hbk⟩ := List.mem_map.mp hm
    obtain ⟨c, hc, hbc⟩ := List.mem_flatten.mp hb
    obtain ⟨j, hj⟩ := List.getElem?_of_mem hc
    obtain ⟨h1, h2⟩ := h.place j c hj b hbc
    have hj2 : j = HashFunction key % ht.capacity := by
      rw [← h2, h1, ht_hash_congr _ _ hbk]
      rfl
    subst hj2
    rw [hchain] at hj
    cases hj
    exact List.mem_map.mpr ⟨b, hbc, hbk⟩
  · intro hm
    obtain ⟨b, hb, hbk⟩ := List.mem_map.mp hm
    exact List.mem_map.mpr ⟨b, List.mem_flatten.mpr ⟨chain, List.getElem?_mem hchain, hb⟩,
      hbk⟩

theorem ht_rehash_fold : ∀ (nodes : List Bucket) (nb : List (List Bucket)),
    0 < nb.length → (∀ b ∈ nodes, b.hashValue = HashFunction b.key) →
    (∀ j chain, nb[j]? = some chain → ∀ b ∈ chain,
      b.hashValue = HashFunction b.key ∧ b.hashValue % nb.length = j) →
    ∃ nb1, nodes.foldl Rehash.move (some nb) = some nb1 ∧ nb1.length = nb.length
      ∧ List.Perm nb1.flatten (nodes ++ nb.flatten)
      ∧ (∀ j chain, nb1[j]? = some chain → ∀ b ∈ chain,
          b.hashValue = HashFunction b.key ∧ b.hashValue % nb1.length = j) := by
  intro nodes
  induction nodes with
  | nil => intro nb _ _ hp; exact ⟨nb, rfl, rfl, List.Perm.refl _, hp⟩
  | cons x rest ih =>
    intro nb hlen hnodes hplace
    have hx := hnodes x (List.mem_cons_self _ _)
    have hidx : x.hashValue % nb.length < nb.length := Nat.mod_lt _ hlen
    have hget : nb[x.hashValue % nb.length]? = some (nb.getD (x.hashValue % nb.length) []) := by
      rw [List.getD_eq_getElem?_getD, List.getElem?_eq_getElem hidx]
      rfl
    have hstep : Rehash.move (some nb) x
        = some (nb.set (x.hashValue % nb.length)
            (x :: nb.getD (x.hashValue % nb.length) [])) := by
      unfold Rehash.move
      simp only [Option.some_bind]
      rw [if_neg (by omega)]
    obtain ⟨nb1, h1, h2, h3, h4⟩ := ih
      (nb.set (x.hashValue % nb.length) (x :: nb.getD (x.hashValue % nb.length) []))
      (by rw [List.length_set]; exact hlen)
      (fun b hb => hnodes b (List.mem_cons_of_mem _ hb))
      (ht_place_set nb _ _ hplace (by
        intro b hb
        rcases List.mem_cons.mp hb with e | e
        · subst e; exact ⟨hx, rfl⟩
        · exact hplace _ _ hget b e))
    refine ⟨nb1, ?_, by rw [h2, List.length_set], ?_, h4⟩
    · rw [List.foldl_cons, hstep]
      exact h1
    · refine h3.trans ?_
      have := UnorderedSet.uset_flatten_set_perm nb (x.hashValue % nb.length) _
        (x :: nb.getD (x.hashValue % nb.length) []) x hget (List.Perm.refl _)
      refine (List.Perm.append_left rest this).trans ?_
      simp only [List.cons_append]
      exact List.perm_middle

theorem ht_wf_of_perm (ht ht1 : HashTable) (h : WF ht) (hcap : 0 < ht1.buckets.length)
    (hplace : ∀ j chain, ht1.buckets[j]? = some chain → ∀ b ∈ chain,
      b.hashValue = HashFunction b.key ∧ b.hashValue % ht1.buckets.length = j)
    (hperm : List.Perm ht1.buckets.flatten ht.buckets.flatten) (hsize : ht1.size = ht.size) :
    WF ht1 :=
  { cap := hcap, place := hplace,
    nodup := (List.Perm.nodup_iff (List.Perm.map _ hperm)).mpr h.nodup,
    count := by rw [hsize, h.count]; exact hperm.length_eq.symm }

theorem ht_replicate_flatten (n : Nat) :
    (List.replicate n ([] : List Bucket)).flatten = [] := by
  induction n with
  | zero => rfl
  | succ n ih => simp [List.replicate_succ, ih]

/-- `Rehash` keeps the nodes. -/
theorem ht_rehash (ht : HashTable) (h : WF ht) :
    ∃ ht1, Rehash ht = some ht1 ∧ WF ht1
      ∧ List.Perm ht1.buckets.flatten ht.buckets.flatten := by
  have hcap := h.cap
  have hnodes : ∀ b ∈ ht.buckets.flatten, b.hashValue = HashFunction b.key := by
    intro b hb
    obtain ⟨c, hc, hbc⟩ := List.mem_flatten.mp hb
    obtain ⟨j, hj⟩ := List.getElem?_of_mem hc
    exact (h.place j c hj b hbc).1
  obtain ⟨nb1, h1, h2, h3, h4⟩ := ht_rehash_fold ht.buckets.flatten
    (List.replicate (ht.capacity * 7 / 4) [])
    (by rw [List.length_replicate]; unfold capacity; omega) hnodes
    (by
      intro j chain hj b hb
      have hc := List.getElem?_mem hj
      rw [List.eq_of_mem_replicate hc] at hb
      cases hb)
  rw [ht_replicate_flatten, List.append_nil] at h3
  refine ⟨{ ht with buckets := nb1, bucketSizeExceeded := false }, ?_, ?_, h3⟩
  · unfold Rehash
    simp only [h1, Option.map_some']
  · exact ht_wf_of_perm ht _ h
      (by rw [h2, List.length_replicate]; unfold capacity; omega) h4 h3 rfl

theorem ht_optimize (ht : HashTable) (h : WF ht) :
    ∃ ht1, OptimizeInternal ht = some ht1 ∧ WF ht1
      ∧ List.Perm ht1.buckets.flatten ht.buckets.flatten := by
  unfold OptimizeInternal
  by_cases hc : ht.size > ht.maxLoadFactor * ht.capacity ∨ ht.bucketSizeExceeded = true
  · rw [if_pos hc]
    exact ht_rehash ht h
  · rw [if_neg hc]
    exact ⟨ht, rfl, h, List.Perm.refl _⟩

theorem ht_wf_new (initialCapacity loadFactor maxDepth : Nat) (h : 0 < initialCapacity) :
    WF (new initialCapacity loadFactor maxDepth)
      ∧ (new initialCapacity loadFactor maxDepth).keys = [] := by
  have hk : (new initialCapacity loadFactor maxDepth).keys = [] := by
    unfold keys new
    simp only [ht_replicate_flatten, List.map_nil]
  refine ⟨⟨?_, ?_, ?_, ?_⟩, hk⟩
  · show 0 < (List.replicate initialCapacity ([] : List Bucket)).length
    rw [List.length_replicate]; exact h
  · intro j chain hj b hb
    have hc : chain ∈ List.replicate initialCapacity ([] : List Bucket) :=
      List.getElem?_mem hj
    rw [List.eq_of_mem_replicate hc] at hb
    cases hb
  · rw [hk]; exact List.nodup_nil
  · show 0 = (List.replicate initialCapacity ([] : List Bucket)).flatten.length
    rw [ht_replicate_flatten]; rfl

/-- Hanging a node for a new string on the chain of its bucket. -/
theorem ht_add_node (ht : HashTable) (h : WF ht) (key : List Nat) (v : Nat)
    (chain c1 : List Bucket) (flag : Bool)
    (hchain : ht.buckets[HashFunction key % ht.capacity]? = some chain)
    (hp : List.Perm c1 (⟨HashFunction key, key, v⟩ :: chain)) (hnew : c_str key ∉ ht.keys) :
    WF { ht with size := ht.size + 1,
                 buckets := ht.buckets.set (HashFunction key % ht.capacity) c1,
                 bucketSizeExceeded := flag }
      ∧ List.Perm (ht.buckets.set (HashFunction key % ht.capacity) c1).flatten
          (⟨HashFunction key, key, v⟩ :: ht.buckets.flatten) := by
  have hperm := UnorderedSet.uset_flatten_set_perm ht.buckets _ chain c1
    ⟨HashFunction key, key, v⟩ hchain hp
  refine ⟨⟨?_, ?_, ?_, ?_⟩, hperm⟩
  · show 0 < (ht.buckets.set _ c1).length
    rw [List.length_set]; exact h.cap
  · apply ht_place_set ht.buckets _ c1 h.place
    intro b hb
    rcases List.mem_cons.mp (hp.mem_iff.mp hb) with e | e
    · subst e; exact ⟨rfl, rfl⟩
    · exact h.place _ chain hchain b e
  · show ((ht.buckets.set _ c1).flatten.map (fun b => c_str b.key)).Nodup
    rw [List.Perm.nodup_iff (List.Perm.map _ hperm)]
    exact List.nodup_cons.mpr ⟨hnew, h.nodup⟩
  · show ht.size + 1 = (ht.buckets.set _ c1).flatten.length
    rw [hperm.length_eq, List.length_cons, h.count]

/-- `Find(k, initialValue)` returns, keeps the invariant, and afterwards the
table holds the string of `k` besides the strings it held. -/
theorem ht_find (ht : HashTable) (h : WF ht) (key : List Nat) (v : Nat) :
    ∃ r ht1, ht.Find key v = some (r, ht1) ∧ WF ht1
      ∧ ht1.keys.toFinset = insert (c_str key) ht.keys.toFinset := by
  obtain ⟨chain, hchain, hplace, hmem⟩ := ht_mem_keys ht h key
  have hcap : ¬ ht.capacity = 0 := by have := h.cap; unfold capacity; omega
  have hadd : ∀ (c1 : List Bucket) (flag : Bool),
      List.Perm c1 (⟨HashFunction key, key, v⟩ :: chain) → c_str key ∉ ht.keys →
      ∀ ht2 : HashTable, List.Perm ht2.buckets.flatten
          (ht.buckets.set (HashFunction key % ht.capacity) c1).flatten →
        ht2.keys.toFinset = insert (c_str key) ht.keys.toFinset := by
    intro c1 flag hp hnew ht2 hperm2
    obtain ⟨_, hperm⟩ := ht_add_node ht h key v chain c1 flag hchain hp hnew
    have := List.toFinset_eq_of_perm _ _ (List.Perm.map (fun b => c_str b.key)
      (hperm2.trans hperm))
    unfold keys
    rw [this, List.map_cons, List.toFinset_cons]
  have hsame : ∀ ht2 : HashTable, List.Perm ht2.buckets.flatten ht.buckets.flatten →
      c_str key ∈ ht.keys → ht2.keys.toFinset = insert (c_str key) ht.keys.toFinset := by
    intro ht2 hperm2 hold
    rw [Finset.insert_eq_of_mem (List.mem_toFinset.mpr hold)]
    exact List.toFinset_eq_of_perm _ _ (List.Perm.map _ hperm2)
  unfold Find
  rw [if_neg hcap]
  simp only [hchain]
  cases chain with
  | nil =>
    have hnew : c_str key ∉ ht.keys := by rw [hmem]; simp
    obtain ⟨hwf, _⟩ := ht_add_node ht h key v [] [⟨HashFunction key, key, v⟩]
      ht.bucketSizeExceeded hchain (List.Perm.refl _) hnew
    obtain ⟨ht1, hopt, hwf1, hperm1⟩ := ht_optimize _ hwf
    exact ⟨(key, v), ht1, by simp only [hopt, Option.map_some'], hwf1,
      hadd _ ht.bucketSizeExceeded (List.Perm.refl _) hnew ht1 hperm1⟩
  | cons cur rest =>
    have hash : ∀ b ∈ cur :: rest, b.hashValue = HashFunction b.key :=
      fun b hb => (hplace b hb).1
    have hp : List.Perm ((cur :: rest) ++ [⟨HashFunction key, key, v⟩])
        (⟨HashFunction key, key, v⟩ :: (cur :: rest)) := List.perm_append_singleton _ _
    rcases ht_find_loop key rest cur 0 hash with ⟨h1, b, h2⟩ | ⟨h1, h2⟩
    · have hold : c_str key ∈ ht.keys := hmem.mpr h1
      simp only [h2]
      split
      · have hwf : WF { ht with bucketSizeExceeded := true } :=
          ⟨h.cap, h.place, h.nodup, h.count⟩
        obtain ⟨ht1, hopt, hwf1, hperm1⟩ := ht_optimize _ hwf
        exact ⟨(b.key, b.value), ht1, by simp only [hopt, Option.map_some'], hwf1,
          hsame ht1 hperm1 hold⟩
      · exact ⟨_, ht, rfl, h, hsame ht (List.Perm.refl _) hold⟩
    · have hnew : c_str key ∉ ht.keys := fun hk => h1 (hmem.mp hk)
      simp only [h2]
      split
      · obtain ⟨hwf, _⟩ := ht_add_node ht h key v (cur :: rest) _ true hchain hp hnew
        obtain ⟨ht1, hopt, hwf1, hperm1⟩ := ht_optimize _ hwf
        exact ⟨(key, v), ht1, by simp only [hopt, Option.map_some'], hwf1,
          hadd _ true hp hnew ht1 hperm1⟩
      · obtain ⟨hwf, _⟩ := ht_add_node ht h key v (cur :: rest) _ ht.bucketSizeExceeded
          hchain hp hnew
        exact ⟨_, _, rfl, hwf, hadd _ ht.bucketSizeExceeded hp hnew _ (List.Perm.refl _)⟩

/-- A table built by `Find(k, initialValue)` calls holds the strings of the
calls besides the strings it held. -/
theorem ht_insertAll (entries : List (List Nat × Nat)) : ∀ (ht : HashTable), WF ht →
    ∃ ht1, insertAll ht entries = some ht1 ∧ WF ht1
      ∧ ht1.keys.toFinset = ht.keys.toFinset ∪ (entries.map (fun e => c_str e.1)).toFinset := by
  induction entries with
  | nil => intro ht h; exact ⟨ht, rfl, h, by simp⟩
  | cons e rest ih =>
    intro ht h
    obtain ⟨r, ht1, h1, h2, h3⟩ := ht_find ht h e.1 e.2
    obtain ⟨ht2, k1, k2, k3⟩ := ih ht1 h2
    refine ⟨ht2, ?_, k2, ?_⟩
    · unfold insertAll
      simp only [h1, Option.some_bind]
      exact k1
    · rw [k3, h3, List.map_cons, List.toFinset_cons]
      ext x
      simp only [Finset.mem_union, Finset.mem_insert]
      tauto

end HashTable

end SearchEngine

namespace SearchEngine

/-! ## Bytes of the blob -/

theorem blob_write_bound (mem : List Nat) (o : Nat) (ws mem1 : List Nat)
    (h : writeBytes mem o ws = some mem1) : o + ws.length ≤ mem.length := by
  unfold writeBytes at h
  by_cases hc : o + ws.length ≤ mem.length
  · exact hc
  · rw [if_neg hc] at h; cases h

theorem blob_write_eq (mem : List Nat) (o : Nat) (ws mem1 : List Nat)
    (h : writeBytes mem o ws = some mem1) :
    mem1 = mem.take o ++ ws ++ mem.drop (o + ws.length) := by
  have hb := blob_write_bound mem o ws mem1 h
  unfold writeBytes at h
  rw [if_pos hb] at h
  cases h
  rfl

theorem blob_write_length (mem : List Nat) (o : Nat) (ws mem1 : List Nat)
    (h : writeBytes mem o ws = some mem1) : mem1.length = mem.length := by
  have hb := blob_write_bound mem o ws mem1 h
  rw [blob_write_eq mem o ws mem1 h]
  simp only [List.length_append, List.length_take, List.length_drop]
  omega

/-- A store leaves the bytes outside its range as they were. -/
theorem blob_write_frame (mem : List Nat) (o : Nat) (ws mem1 : List Nat)
    (h : writeBytes mem o ws = some mem1) (j : Nat) (hj : j < o ∨ o + ws.length ≤ j) :
    mem1[j]? = mem[j]? := by
  have hb := blob_write_bound mem o ws mem1 h
  rw [blob_write_eq mem o ws mem1 h]
  have hlen : (mem.take o).length = o := by rw [List.length_take]; omega
  rcases hj with hj | hj
  · rw [List.append_assoc, List.getElem?_append_left (by rw [hlen]; exact hj),
      List.getElem?_take_of_lt hj]
  · rw [List.getElem?_append_right (by simp only [List.length_append, hlen]; omega)]
    simp only [List.length_append, hlen, List.getElem?_drop]
    congr 1
    omega

/-- A store puts its bytes into its range. -/
theorem blob_write_holds (mem : List Nat) (o : Nat) (ws mem1 : List Nat)
    (h : writeBytes mem o ws = some mem1) : Holds mem1 o ws := by
  have hb := blob_write_bound mem o ws mem1 h
  intro j hj
  rw [blob_write_eq mem o ws mem1 h]
  have hlen : (mem.take o).length = o := by rw [List.length_take]; omega
  rw [List.getElem?_append_left (by simp only [List.length_append, hlen]; omega),
    List.getElem?_append_right (by rw [hlen]; omega), hlen]
  congr 1
  omega

theorem blob_holds_frame (mem mem1 : List Nat) (off : Nat) (bs : List Nat)
    (h : Holds mem off bs)
    (hsame : ∀ j, off ≤ j → j < off + bs.length → mem1[j]? = mem[j]?) :
    Holds mem1 off bs := by
  intro j hj
  rw [hsame (off + j) (by omega) (by omega)]
  exact h j hj

theorem blob_memBytes4 (x : Nat) :
    memBytes 4 x = [x % 256, x / 256 % 256, x / 65536 % 256, x / 16777216 % 256] := by
  simp [memBytes, List.range_succ]

theorem blob_memBytes_length (x : Nat) : (memBytes 4 x).length = 4 := by
  rw [blob_memBytes4]; rfl

theorem blob_read_of_holds (mem : List Nat) (off x : Nat) (h : Holds mem off (memBytes 4 x))
    (hx : x < U32) : readU32 mem off = some x := by
  rw [blob_memBytes4] at h
  have h0 := h 0 (by simp)
  have h1 := h 1 (by simp)
  have h2 := h 2 (by simp)
  have h3 := h 3 (by simp)
  simp only [Nat.add_zero, List.getElem?_cons_zero, List.getElem?_cons_succ] at h0 h1 h2 h3
  unfold readU32
  rw [h0, h1, h2, h3]
  simp only [Option.some.injEq]
  unfold U32 at hx
  omega

theorem blob_holds_drop (mem : List Nat) (off : Nat) (bs : List Nat) (h : Holds mem off bs) :
    ∃ tail, mem.drop off = bs ++ tail := by
  refine ⟨(mem.drop off).drop bs.length, ?_⟩
  have e : (mem.drop off).take bs.length = bs := by
    apply List.ext_getElem?
    intro j
    by_cases hj : j < bs.length
    · rw [List.getElem?_take_of_lt hj, List.getElem?_drop]
      exact h j hj
    · rw [List.getElem?_take_eq_none (by omega), List.getElem?_eq_none (by omega)]
  conv => lhs; rw [← List.take_append_drop bs.length (mem.drop off)]
  rw [e]

theorem blob_c_str_no_zero (s : List Nat) : 0 ∉ c_str s := by
  unfold c_str
  intro h
  have := List.mem_takeWhile_imp h
  simp at this

theorem blob_c_str_append (s tail : List Nat) (h : 0 ∉ s) : c_str (s ++ 0 :: tail) = s := by
  unfold c_str
  induction s with
  | nil => simp
  | cons a rest ih =>
    have ha : a ≠ 0 := fun e => h (by rw [e]; exact List.mem_cons_self _ _)
    have hr : 0 ∉ rest := fun e => h (List.mem_cons_of_mem _ e)
    simp only [List.cons_append, List.takeWhile_cons, ha, ne_eq, not_false_eq_true,
      decide_True, if_true, ih hr]

/-- The C string read at an offset where a terminated string lies. -/
theorem blob_strAt_of_holds (mem : List Nat) (off : Nat) (s : List Nat)
    (h : Holds mem off (s ++ [0])) (hs : 0 ∉ s) : strAt mem off = some s := by
  obtain ⟨tail, ht⟩ := blob_holds_drop mem off _ h
  unfold strAt
  rw [ht, if_pos (by simp)]
  rw [List.append_assoc, List.singleton_append, blob_c_str_append s tail hs]

theorem blob_chainAt_le (mem : List Nat) : ∀ (chain : List Bucket) (off lim : Nat),
    ChainAt mem off chain lim → off + 4 ≤ lim ∧ off + chain.length + 4 ≤ mem.length := by
  intro chain
  induction chain with
  | nil =>
    intro off lim h
    obtain ⟨h1, h2⟩ := h
    refine ⟨h2, ?_⟩
    have := h1 3 (by rw [blob_memBytes4]; simp)
    rw [blob_memBytes4] at this
    simp only [List.getElem?_cons_succ, List.getElem?_cons_zero] at this
    have hlt : off + 3 < mem.length := by
      by_contra hc
      rw [List.getElem?_eq_none (by omega)] at this
      cases this
    simp only [List.length_nil]
    omega
  | cons node rest ih =>
    intro off lim h
    obtain ⟨len, h0, _, _, _, _, _, hrest⟩ := h
    obtain ⟨k1, k2⟩ := ih (off + len) lim hrest
    simp only [List.length_cons]
    exact ⟨by omega, by omega⟩

/-- Records that lie below `lim` stay when the bytes from their start to `lim`
stay. -/
theorem blob_chainAt_frame (mem mem1 : List Nat) : ∀ (chain : List Bucket) (off lim : Nat),
    ChainAt mem off chain lim →
    (∀ j, off ≤ j → j < lim → mem1[j]? = mem[j]?) → ChainAt mem1 off chain lim := by
  intro chain
  induction chain with
  | nil =>
    intro off lim h hsame
    obtain ⟨h1, h2⟩ := h
    refine ⟨blob_holds_frame mem mem1 off _ h1 (fun j hj1 hj2 => hsame j hj1 ?_), h2⟩
    rw [blob_memBytes4] at hj2
    simp only [List.length_cons, List.length_nil] at hj2
    omega
  | cons node rest ih =>
    intro off lim h hsame
    obtain ⟨len, h0, hU, hl, hh, hk, hb, hrest⟩ := h
    obtain ⟨k1, _⟩ := blob_chainAt_le mem rest (off + len) lim hrest
    refine ⟨len, h0, hU, ?_, ?_, ?_, hb, ih (off + len) lim hrest
      (fun j hj1 hj2 => hsame j (by omega) hj2)⟩
    · refine blob_holds_frame mem mem1 off _ hl (fun j hj1 hj2 => hsame j hj1 ?_)
      rw [blob_memBytes4] at hj2
      simp only [List.length_cons, List.length_nil] at hj2
      omega
    · refine blob_holds_frame mem mem1 _ _ hh (fun j hj1 hj2 => hsame j (by omega) ?_)
      rw [blob_memBytes4] at hj2
      simp only [List.length_cons, List.length_nil] at hj2
      omega
    · refine blob_holds_frame mem mem1 _ _ hk (fun j hj1 hj2 => hsame j (by omega) ?_)
      simp only [List.length_append, List.length_cons, List.length_nil] at hj2
      omega

end SearchEngine

namespace SearchEngine

/-! ## What `SerialTuple::Write` and `HashBlob::Write` leave in the blob -/

theorem blob_list_shape (plist : PostingList) (word : Bool) (spl : SerializedPostingList)
    (h : (if word = true then SerializedPostingList.WriteWordPostingList plist
      else SerializedPostingList.WriteDocumentPostingList plist) = some spl) :
    spl.skipCount = SerializedPostingList.ComputeSkipCount plist.postCount
      ∧ spl.postingData = plist.rawPostingData := by
  cases word with
  | true =>
    simp only [if_true] at h
    unfold SerializedPostingList.WriteWordPostingList at h
    cases hm : SerializedPostingList.WriteWordPostingList.maxLoop plist.rawPostingData
        (plist.rawPostingData.length + 1) 0 0 0 with
    | none => rw [hm] at h; cases h
    | some mx =>
      rw [hm] at h
      simp only [] at h
      cases hb : SerializedPostingList.BuildWordPostSkipTable plist.rawPostingData mx
          plist.postCount with
      | none => rw [hb] at h; cases h
      | some es =>
        rw [hb] at h
        simp only [Option.some.injEq] at h
        subst h
        exact ⟨rfl, rfl⟩
  | false =>
    simp only [Bool.false_eq_true, if_false] at h
    unfold SerializedPostingList.WriteDocumentPostingList at h
    cases hm : SerializedPostingList.WriteDocumentPostingList.maxLoop plist.rawPostingData
        (plist.rawPostingData.length + 1) 0 0 0 with
    | none => rw [hm] at h; cases h
    | some mx =>
      rw [hm] at h
      simp only [] at h
      cases hb : SerializedPostingList.BuildDocumentPostSkipTable plist.rawPostingData mx
          plist.postCount with
      | none => rw [hb] at h; cases h
      | some es =>
        rw [hb] at h
        simp only [Option.some.injEq] at h
        subst h
        exact ⟨rfl, rfl⟩

theorem blob_entries_length (es : List SkipEntry) :
    ((es.map (fun e => memBytes 4 e.Offset ++ memBytes 4 e.PostLocation)).flatten).length
      = 8 * es.length := by
  induction es with
  | nil => rfl
  | cons e rest ih =>
    simp only [List.map_cons, List.flatten_cons, List.length_append, ih, blob_memBytes_length,
      List.length_cons]
    omega

theorem blob_image_length (spl : SerializedPostingList)
    (h : ¬ spl.skipTable.length < spl.skipCount) :
    spl.image.length = 16 + 8 * spl.skipCount + spl.postingData.length := by
  unfold SerializedPostingList.image
  simp only [List.length_append, blob_entries_length, List.length_take, blob_memBytes_length]
  omega

/-- `SerialTuple::Write` stores the records of the chain from `buffer` on, one
after the other, and touches nothing below `buffer`. -/
theorem blob_chain_write (heap : Nat → PostingList) : ∀ (chain : List Bucket)
    (mem : List Nat) (buffer : Nat) (mem1 : List Nat) (e : Nat),
    (∀ b ∈ chain, (c_str b.key).length + 1 < U32) → mem.length < U32 → 16 ≤ buffer →
    SerialTuple.Write heap mem buffer chain = some (mem1, e) →
    mem1.length = mem.length ∧ (∀ j, j < buffer → mem1[j]? = mem[j]?)
      ∧ ChainAt mem1 buffer chain e := by
  intro chain
  induction chain with
  | nil =>
    intro mem buffer mem1 e _ _ _ h
    unfold SerialTuple.Write at h
    obtain ⟨m, hm, he⟩ := Option.map_eq_some'.mp h
    simp only [Prod.mk.injEq] at he
    obtain ⟨e1, e2⟩ := he
    subst e1
    subst e2
    exact ⟨blob_write_length _ _ _ _ hm,
      fun j hj => blob_write_frame _ _ _ _ hm j (Or.inl hj),
      blob_write_holds _ _ _ _ hm, by omega⟩
  | cons node rest ih =>
    intro mem buffer mem1 e hkeys hlen hbuf h
    have hkey := hkeys node (List.mem_cons_self _ _)
    unfold SerialTuple.Write at h
    simp only [Option.bind_eq_some] at h
    obtain ⟨m1, h1, m2, h2, m3, h3, m4, h4, spl, hspl, m5, h5, m6, h6, hrec⟩ := h
    have hru : ∀ x, x ≤ RoundUp x 4 ∧ RoundUp x 4 ≤ x + 3 := by
      intro x
      unfold RoundUp
      omega
    rw [Nat.mod_eq_of_lt hkey] at h1 h3 h4 hspl h5 h6 hrec
    have hktake : (c_str node.key ++ [0]).take ((c_str node.key).length + 1)
        = c_str node.key ++ [0] := by
      apply List.take_of_length_le
      simp
    rw [hktake] at h3
    rw [if_neg (by omega)] at h4
    have l1 := blob_write_length _ _ _ _ h1
    have l2 := blob_write_length _ _ _ _ h2
    have l3 := blob_write_length _ _ _ _ h3
    have l4 := blob_write_length _ _ _ _ h4
    have b3 := blob_write_bound _ _ _ _ h3
    simp only [List.length_append, List.length_cons, List.length_nil] at b3
    -- the sizes do not wrap
    obtain ⟨hb1, hb2⟩ := hru (12 + ((c_str node.key).length + 1))
    have eB : RoundUp ((4 + 4 + 4 + ((c_str node.key).length + 1)) % U32) 4 % U32
        = RoundUp (12 + ((c_str node.key).length + 1)) 4 := by
      rw [Nat.mod_eq_of_lt (show 4 + 4 + 4 + ((c_str node.key).length + 1) < U32 by omega),
        show 4 + 4 + 4 + ((c_str node.key).length + 1)
          = 12 + ((c_str node.key).length + 1) from by omega,
        Nat.mod_eq_of_lt (by omega)]
    rw [eB] at h1 h5 h6 hrec
    generalize hB : RoundUp (12 + ((c_str node.key).length + 1)) 4 = baseSize at *
    -- the posting list
    have hstore : ¬ spl.skipTable.length < spl.skipCount
        ∧ writeBytes m4 (buffer + baseSize) spl.image = some m5 := by
      unfold SerializedPostingList.store at h5
      by_cases hc : spl.skipTable.length < spl.skipCount
      · rw [if_pos hc] at h5; cases h5
      · rw [if_neg hc] at h5; exact ⟨hc, h5⟩
    obtain ⟨hsk, h5w⟩ := hstore
    have l5 := blob_write_length _ _ _ _ h5w
    have l6 := blob_write_length _ _ _ _ h6
    have b5 := blob_write_bound _ _ _ _ h5w
    rw [blob_image_length spl hsk] at b5
    have hshape := blob_list_shape (heap node.value)
      (decide ((c_str node.key).length + 1 > 1)) spl (by
        by_cases hc : (c_str node.key).length + 1 > 1
        · simpa [hc] using hspl
        · simpa [hc] using hspl)
    obtain ⟨hs1, hs2⟩ := hshape
    rw [hs1, hs2] at b5
    have hreq : SerializedPostingList.BytesRequired (heap node.value)
        = RoundUp (16 + 8 * SerializedPostingList.ComputeSkipCount (heap node.value).postCount
            + (heap node.value).rawPostingData.length) 4 := by
      unfold SerializedPostingList.BytesRequired
      simp only []
      obtain ⟨_, hq2⟩ := hru (16 + 8 * SerializedPostingList.ComputeSkipCount
        (heap node.value).postCount + (heap node.value).rawPostingData.length)
      rw [Nat.mod_eq_of_lt (show 4 * 4
          + SerializedPostingList.ComputeSkipCount (heap node.value).postCount * 8 < U32 by
            omega),
        Nat.mod_eq_of_lt (show (heap node.value).rawPostingData.length < U32 by omega),
        Nat.mod_eq_of_lt (show 4 * 4
          + SerializedPostingList.ComputeSkipCount (heap node.value).postCount * 8
          + (heap node.value).rawPostingData.length < U32 by omega)]
      have e : 4 * 4 + SerializedPostingList.ComputeSkipCount (heap node.value).postCount * 8
          + (heap node.value).rawPostingData.length
          = 16 + 8 * SerializedPostingList.ComputeSkipCount (heap node.value).postCount
            + (heap node.value).rawPostingData.length := by omega
      rw [e, Nat.mod_eq_of_lt (by omega)]
    rw [hreq] at h1 hrec
    have himg : spl.image.length
        = 16 + 8 * SerializedPostingList.ComputeSkipCount (heap node.value).postCount
          + (heap node.value).rawPostingData.length := by
      rw [blob_image_length spl hsk, hs1, hs2]
    generalize hI : 16 + 8 * SerializedPostingList.ComputeSkipCount (heap node.value).postCount
      + (heap node.value).rawPostingData.length = imageLen at *
    obtain ⟨hi1, hi2⟩ := hru imageLen
    obtain ⟨ht1, ht2⟩ := hru (baseSize + RoundUp imageLen 4)
    rw [Nat.mod_eq_of_lt (show baseSize + RoundUp imageLen 4 < U32 by omega),
      Nat.mod_eq_of_lt (show RoundUp (baseSize + RoundUp imageLen 4) 4 < U32 by omega)]
      at h1 hrec
    generalize hT : RoundUp (baseSize + RoundUp imageLen 4) 4 = totalSize at *
    obtain ⟨k1, k2, k3⟩ := ih m6 (buffer + totalSize) mem1 e
      (fun b hb => hkeys b (List.mem_cons_of_mem _ hb)) (by omega) (by omega) hrec
    have hlen4 : (memBytes 4 totalSize).length = 4 := blob_memBytes_length _
    have hlenh : (memBytes 4 node.hashValue).length = 4 := blob_memBytes_length _
    have hlenb : (memBytes 4 baseSize).length = 4 := blob_memBytes_length _
    -- what the bytes below the next record are
    have step : ∀ j, j < buffer + totalSize → mem1[j]? = m6[j]? := k2
    have f6 : ∀ j, (j < buffer + 4 ∨ buffer + 8 ≤ j) → m6[j]? = m5[j]? := by
      intro j hj
      exact blob_write_frame _ _ _ _ h6 j (by rw [hlenb]; omega)
    have f5 : ∀ j, j < buffer + baseSize → m5[j]? = m4[j]? :=
      fun j hj => blob_write_frame _ _ _ _ h5w j (Or.inl hj)
    have f4 : ∀ j, j ≠ buffer + 12 + (c_str node.key).length → m4[j]? = m3[j]? := by
      intro j hj
      apply blob_write_frame _ _ _ _ h4 j
      simp only [Nat.add_sub_cancel, List.length_cons, List.length_nil]
      omega
    have f3 : ∀ j, j < buffer + 12 → m3[j]? = m2[j]? :=
      fun j hj => blob_write_frame _ _ _ _ h3 j (Or.inl hj)
    have f2 : ∀ j, j < buffer + 8 → m2[j]? = m1[j]? :=
      fun j hj => blob_write_frame _ _ _ _ h2 j (Or.inl hj)
    refine ⟨by omega, ?_, totalSize, by omega, by omega, ?_, ?_, ?_, by omega, k3⟩
    · intro j hj
      rw [step j (by omega), f6 j (by omega), f5 j (by omega), f4 j (by omega),
        f3 j (by omega), f2 j (by omega)]
      exact blob_write_frame _ _ _ _ h1 j (Or.inl hj)
    · intro j hj
      rw [hlen4] at hj
      rw [step _ (by omega), f6 _ (by omega), f5 _ (by omega), f4 _ (by omega),
        f3 _ (by omega), f2 _ (by omega)]
      exact blob_write_holds _ _ _ _ h1 j (by rw [hlen4]; exact hj)
    · intro j hj
      rw [hlenh] at hj
      rw [show buffer + 8 + j = buffer + 8 + j from rfl, step _ (by omega), f6 _ (by omega),
        f5 _ (by omega), f4 _ (by omega), f3 _ (by omega)]
      exact blob_write_holds _ _ _ _ h2 j (by rw [hlenh]; exact hj)
    · intro j hj
      simp only [List.length_append, List.length_cons, List.length_nil] at hj
      rw [step _ (by omega), f6 _ (by omega), f5 _ (by omega)]
      by_cases hjn : j = (c_str node.key).length
      · subst hjn
        have := blob_write_holds _ _ _ _ h4 0 (by simp)
        simp only [Nat.add_sub_cancel, Nat.add_zero, List.getElem?_cons_zero] at this
        rw [show buffer + 12 + (c_str node.key).length
          = buffer + 12 + (c_str node.key).length from rfl, this,
          List.getElem?_append_right (Nat.le_refl _)]
        simp
      · rw [f4 _ (by omega)]
        exact blob_write_holds _ _ _ _ h3 j (by
          simp only [List.length_append, List.length_cons, List.length_nil]; omega)

end SearchEngine

namespace SearchEngine

/-- The bucket loop of `HashBlob::Write`: it leaves the header words and the
records below the write pointer alone, an empty bucket keeps its offset word,
and the offset word of any other bucket leads to the records of its chain. -/
theorem blob_loop_write (heap : Nat → PostingList) (base : Nat) :
    ∀ (rest : List (List Bucket)) (i : Nat) (mem : List Nat) (wp : Nat) (mem1 : List Nat),
    (∀ chain ∈ rest, ∀ b ∈ chain, (c_str b.key).length + 1 < U32) → mem.length < U32 →
    16 + 4 * (i + rest.length) ≤ wp →
    HashBlob.Write.loop heap base rest i mem wp = some mem1 →
    mem1.length = mem.length
      ∧ (∀ j, (j < 16 + 4 * i ∨ (16 + 4 * (i + rest.length) ≤ j ∧ j < wp)) →
          mem1[j]? = mem[j]?)
      ∧ ∀ k chain, rest[k]? = some chain →
          (chain = [] → ∀ j, 16 + 4 * (i + k) ≤ j → j < 16 + 4 * (i + k) + 4 →
            mem1[j]? = mem[j]?)
          ∧ (chain ≠ [] → ∃ off lim, 0 < off ∧ off < U32
              ∧ Holds mem1 (16 + 4 * (i + k)) (memBytes 4 off) ∧ ChainAt mem1 off chain lim) := by
  intro rest
  induction rest with
  | nil =>
    intro i mem wp mem1 _ _ _ h
    simp only [HashBlob.Write.loop, Option.some.injEq] at h
    subst h
    exact ⟨rfl, fun _ _ => rfl, fun k chain hk => by simp at hk⟩
  | cons bucket rest ih =>
    intro i mem wp mem1 hkeys hlen hwp h
    simp only [List.length_cons] at hwp ⊢
    unfold HashBlob.Write.loop at h
    by_cases hb : bucket = []
    · rw [if_pos hb] at h
      obtain ⟨k1, k2, k3⟩ := ih (i + 1) mem wp mem1
        (fun c hc => hkeys c (List.mem_cons_of_mem _ hc)) hlen (by omega) h
      refine ⟨k1, fun j hj => k2 j (by omega), ?_⟩
      intro k chain hk
      cases k with
      | zero =>
        simp only [List.getElem?_cons_zero, Option.some.injEq] at hk
        subst hk
        exact ⟨fun _ j hj1 hj2 => k2 j (by omega), fun hne => absurd hb hne⟩
      | succ k =>
        simp only [List.getElem?_cons_succ] at hk
        obtain ⟨q1, q2⟩ := k3 k chain hk
        rw [show i + 1 + k = i + (k + 1) from by omega] at q1 q2
        exact ⟨q1, q2⟩
    · rw [if_neg hb] at h
      simp only [Option.bind_eq_some] at h
      obtain ⟨m1, h1, r, hr, hrec⟩ := h
      obtain ⟨m2, e⟩ := r
      simp only [] at hrec
      have hal : wp ≤ RoundUp (base + wp) 4 - base := by
        unfold RoundUp
        omega
      generalize RoundUp (base + wp) 4 - base = aligned at *
      have l1 := blob_write_length _ _ _ _ h1
      obtain ⟨c1, c2, c3⟩ := blob_chain_write heap bucket m1 aligned m2 e
        (hkeys bucket (List.mem_cons_self _ _)) (by omega) (by omega) hr
      obtain ⟨e1, e2⟩ := blob_chainAt_le m2 bucket aligned e c3
      have haU : aligned < U32 := by omega
      rw [Nat.mod_eq_of_lt haU] at h1
      obtain ⟨k1, k2, k3⟩ := ih (i + 1) m2 e mem1
        (fun c hc => hkeys c (List.mem_cons_of_mem _ hc)) (by omega) (by omega) hrec
      have f1 : ∀ j, (j < 16 + 4 * i ∨ 16 + 4 * i + 4 ≤ j) → m1[j]? = mem[j]? := by
        intro j hj
        exact blob_write_frame _ _ _ _ h1 j (by rw [blob_memBytes_length]; omega)
      refine ⟨by omega, ?_, ?_⟩
      · intro j hj
        rw [k2 j (by omega), c2 j (by omega), f1 j (by omega)]
      · intro k chain hk
        cases k with
        | zero =>
          simp only [List.getElem?_cons_zero, Option.some.injEq] at hk
          subst hk
          refine ⟨fun he => absurd he hb, fun _ => ⟨aligned, e, by omega, haU, ?_, ?_⟩⟩
          · intro j hj
            rw [blob_memBytes_length] at hj
            rw [k2 _ (by omega), c2 _ (by omega)]
            exact blob_write_holds _ _ _ _ h1 j (by rw [blob_memBytes_length]; exact hj)
          · exact blob_chainAt_frame m2 mem1 _ aligned e c3
              (fun j hj1 hj2 => k2 j (by omega))
        | succ k =>
          simp only [List.getElem?_cons_succ] at hk
          have hkl : k < rest.length := by
            by_contra hc
            rw [List.getElem?_eq_none (by omega)] at hk
            cases hk
          obtain ⟨q1, q2⟩ := k3 k chain hk
          rw [show i + 1 + k = i + (k + 1) from by omega] at q1 q2
          refine ⟨fun he j hj1 hj2 => ?_, q2⟩
          rw [q1 he j hj1 hj2, c2 j (by omega), f1 j (by omega)]

/-- The walk of `HashBlob::Find` over the records of a chain: it stops at the
first record whose key is the looked-up string, or at the sentinel. -/
theorem blob_walk (mem : List Nat) (key : List Nat) : ∀ (chain : List Bucket)
    (off lim fuel : Nat), ChainAt mem off chain lim →
    (∀ b ∈ chain, b.hashValue = HashFunction b.key) → chain.length < fuel →
    ∃ r, HashBlob.Find.walk mem key fuel off = some r
      ∧ (c_str key ∈ chain.map (fun b => c_str b.key) →
          ∃ st, r = some st ∧ HashBlob.RecordOf mem st key)
      ∧ (c_str key ∉ chain.map (fun b => c_str b.key) → r = none) := by
  intro chain
  induction chain with
  | nil =>
    intro off lim fuel h _ hf
    obtain ⟨h1, _⟩ := h
    cases fuel with
    | zero => simp at hf
    | succ fuel =>
      refine ⟨none, ?_, fun hm => by simp at hm, fun _ => rfl⟩
      unfold HashBlob.Find.walk
      rw [blob_read_of_holds mem off 0 h1 (by decide)]
      simp
  | cons node rest ih =>
    intro off lim fuel h hhash hf
    obtain ⟨len, h0, hU, hl, hh, hk, _, hrest⟩ := h
    cases fuel with
    | zero => simp at hf
    | succ fuel =>
      have hread := blob_read_of_holds mem off len hl hU
      have hstr := blob_strAt_of_holds mem (off + 12) (c_str node.key) hk
        (blob_c_str_no_zero node.key)
      have hn := hhash node (List.mem_cons_self _ _)
      unfold HashBlob.Find.walk
      rw [hread]
      simp only []
      rw [if_neg (by omega), hstr]
      simp only []
      by_cases heq : c_str node.key = c_str key
      · rw [if_pos heq]
        refine ⟨some off, rfl, fun _ => ⟨off, rfl, ⟨len, hread, by omega⟩, ?_, ?_⟩,
          fun hm => absurd (by simp [heq]) hm⟩
        · rw [← HashTable.ht_hash_congr _ _ heq, ← hn]
          exact blob_read_of_holds mem (off + 8) _ hh
            (by rw [hn]; exact HashTable.ht_hash_lt _)
        · rw [← heq]; exact hstr
      · rw [if_neg heq]
        obtain ⟨r, hr1, hr2, hr3⟩ := ih (off + len) lim fuel hrest
          (fun b hb => hhash b (List.mem_cons_of_mem _ hb))
          (by simp only [List.length_cons] at hf; omega)
        refine ⟨r, hr1, ?_, ?_⟩
        · intro hm
          rcases List.mem_cons.mp hm with e | e
          · exact absurd e.symm heq
          · exact hr2 e
        · intro hm
          exact hr3 (fun e => hm (List.mem_cons_of_mem _ e))

end SearchEngine

namespace SearchEngine

/-- `HashBlob::Find` on the blob that `HashBlob::Write` made of a well-formed
table: it returns, with the record of the string when the table holds it and
with `nullptr` when it does not. -/
theorem blob_find_of_wf (heap : Nat → PostingList) (base : Nat) (init : List Nat)
    (bytes : Nat) (ht : HashTable) (blob : List Nat) (hwf : ht.WF)
    (hcapU : ht.capacity < U32)
    (hkeys : ∀ b ∈ ht.buckets.flatten, (c_str b.key).length + 1 < U32)
    (hlen : init.length < U32)
    (hw : HashBlob.Write heap base init bytes ht = some blob) (key : List Nat) :
    ∃ r, HashBlob.Find blob key = some r
      ∧ (c_str key ∈ ht.keys → ∃ st, r = some st ∧ HashBlob.RecordOf blob st key)
      ∧ (c_str key ∉ ht.keys → r = none) := by
  unfold HashBlob.Write at hw
  simp only [Option.bind_eq_some] at hw
  obtain ⟨m1, h1, m2, h2, m3, h3, m4, h4, m5, h5, hloop⟩ := hw
  rw [Nat.mod_eq_of_lt hcapU] at h4 h5 hloop
  have hcapl : ht.capacity = ht.buckets.length := rfl
  have l1 := blob_write_length _ _ _ _ h1
  have l2 := blob_write_length _ _ _ _ h2
  have l3 := blob_write_length _ _ _ _ h3
  have l4 := blob_write_length _ _ _ _ h4
  have l5 := blob_write_length _ _ _ _ h5
  have b5 := blob_write_bound _ _ _ _ h5
  rw [List.length_replicate] at b5
  rw [Nat.mod_eq_of_lt (show (4 + ht.capacity) * 4 < U32 by omega),
    show ht.buckets.take ht.capacity = ht.buckets from by
      rw [hcapl]; exact List.take_length _] at hloop
  obtain ⟨k1, k2, k3⟩ := blob_loop_write heap base ht.buckets 0 m5 ((4 + ht.capacity) * 4) blob
    (fun chain hc b hb => hkeys b (List.mem_flatten.mpr ⟨chain, hc, hb⟩)) (by omega)
    (by rw [hcapl]; omega) hloop
  -- the header
  have hnum : readU32 blob 12 = some ht.capacity := by
    apply blob_read_of_holds blob 12 _ _ hcapU
    intro j hj
    rw [blob_memBytes_length] at hj
    rw [k2 _ (Or.inl (by omega)),
      blob_write_frame _ _ _ _ h5 _ (Or.inl (by omega))]
    exact blob_write_holds _ _ _ _ h4 j (by rw [blob_memBytes_length]; exact hj)
  have hcap0 : ¬ ht.capacity = 0 := by have := hwf.cap; omega
  obtain ⟨chain, hchain, hplace, hmem⟩ := HashTable.ht_mem_keys ht hwf key
  have hidx : HashFunction key % ht.capacity < ht.capacity := Nat.mod_lt _ (by omega)
  obtain ⟨q1, q2⟩ := k3 _ chain hchain
  simp only [Nat.zero_add] at q1 q2
  unfold HashBlob.Find
  rw [hnum]
  simp only []
  rw [if_neg hcap0]
  by_cases hc : chain = []
  · have hzero : readU32 blob (16 + 4 * (HashFunction key % ht.capacity)) = some 0 := by
      apply blob_read_of_holds blob _ 0 _ (by decide)
      intro j hj
      rw [blob_memBytes_length] at hj
      rw [q1 hc _ (by omega) (by omega)]
      have := blob_write_holds _ _ _ _ h5 (4 * (HashFunction key % ht.capacity) + j)
        (by rw [List.length_replicate]; omega)
      rw [show 16 + 4 * (HashFunction key % ht.capacity) + j
        = 16 + (4 * (HashFunction key % ht.capacity) + j) from by omega, this,
        List.getElem?_replicate, if_pos (by omega), blob_memBytes4]
      have hj4 : j = 0 ∨ j = 1 ∨ j = 2 ∨ j = 3 := by omega
      rcases hj4 with e | e | e | e <;> subst e <;> rfl
    rw [hzero]
    refine ⟨none, by simp, fun hm => ?_, fun _ => rfl⟩
    rw [hmem, hc] at hm
    simp at hm
  · obtain ⟨off, lim, ho0, hoU, hoff, hch⟩ := q2 hc
    rw [blob_read_of_holds blob _ off hoff hoU]
    simp only []
    rw [if_neg (by omega)]
    obtain ⟨_, hcl⟩ := blob_chainAt_le blob chain off lim hch
    obtain ⟨r, hr1, hr2, hr3⟩ := blob_walk blob key chain off lim (blob.length + 1) hch
      (fun b hb => (hplace b hb).1) (by omega)
    exact ⟨r, hr1, fun hm => hr2 (hmem.mp hm), fun hm => hr3 (fun e => hm (hmem.mpr e))⟩

/-- Claim C28. For every dictionary built by `HashTable::Find(k, initialValue)`
calls in a table of positive capacity with fewer than 2^32 buckets and keys
shorter than 2^32 bytes, and serialised by `HashBlob::Write` into a buffer of
fewer than 2^32 bytes, `HashBlob::Find(key)` (the FNV-1a hash of the key modulo
`NumberOfBuckets`, then the walk over the chained `SerialTuple` records up to
the sentinel) returns: for a key that was inserted it returns a record whose
`Length` is not 0, whose `HashValue` is the hash of the key and whose `Key` is
the key; for a key that was not inserted it returns `nullptr`. -/
theorem hashBlob_find_returns_inserted_records (initialCapacity loadFactor maxDepth : Nat)
    (inserts : List (List Nat × Nat)) (ht : HashTable) (heap : Nat → PostingList)
    (base : Nat) (init : List Nat) (bytes : Nat) (blob : List Nat) (key : List Nat)
    (hcap : 0 < initialCapacity)
    (hrun : (HashTable.new initialCapacity loadFactor maxDepth).insertAll inserts = some ht)
    (hcapU : ht.capacity < U32)
    (hkeys : ∀ e ∈ inserts, (c_str e.1).length + 1 < U32)
    (hlen : init.length < U32)
    (hw : HashBlob.Write heap base init bytes ht = some blob) :
    ∃ r, HashBlob.Find blob key = some r
      ∧ (c_str key ∈ inserts.map (fun e => c_str e.1) →
          ∃ st, r = some st ∧ HashBlob.RecordOf blob st key)
      ∧ (c_str key ∉ inserts.map (fun e => c_str e.1) → r = none) := by
  obtain ⟨hwf0, hk0⟩ := HashTable.ht_wf_new initialCapacity loadFactor maxDepth hcap
  obtain ⟨ht1, h1, hwf, hks⟩ := HashTable.ht_insertAll inserts _ hwf0
  rw [hrun] at h1
  cases h1
  rw [hk0, List.toFinset_nil, Finset.empty_union] at hks
  have hiff : ∀ s, s ∈ ht.keys ↔ s ∈ inserts.map (fun e => c_str e.1) := by
    intro s
    rw [← List.mem_toFinset, hks, List.mem_toFinset]
  have hnodes : ∀ b ∈ ht.buckets.flatten, (c_str b.key).length + 1 < U32 := by
    intro b hb
    have hm : c_str b.key ∈ ht.keys := List.mem_map.mpr ⟨b, hb, rfl⟩
    obtain ⟨e, he, hek⟩ := List.mem_map.mp ((hiff _).mp hm)
    rw [← hek]
    exact hkeys e he
  obtain ⟨r, hr1, hr2, hr3⟩ := blob_find_of_wf heap base init bytes ht blob hwf hcapU hnodes
    hlen hw key
  exact ⟨r, hr1, fun hm => hr2 ((hiff _).mpr hm), fun hm => hr3 (fun e => hm ((hiff _).mp e))⟩

set_option maxRecDepth 1000000 in
/-- The sample dictionary ("a", "b", "cat" in two buckets) written into 180
bytes: the record of "cat" is found at offset 124, behind the record of "b" in
the chain of bucket 1. -/
theorem hashBlob_find_returns_inserted_records_witness :
    HashBlob.Find sampleBlob [99, 97, 116] = some (some 124)
      ∧ ∃ r, HashBlob.Find sampleBlob [99, 97, 116] = some r
        ∧ (c_str [99, 97, 116] ∈ sampleEntries.map (fun e => c_str e.1) →
            ∃ st, r = some st ∧ HashBlob.RecordOf sampleBlob st [99, 97, 116])
        ∧ (c_str [99, 97, 116] ∉ sampleEntries.map (fun e => c_str e.1) → r = none) :=
  ⟨by decide,
    hashBlob_find_returns_inserted_records 2 1 0 sampleEntries sampleTable sampleHeap 0
      (List.replicate 180 0) 180 sampleBlob [99, 97, 116] (by decide) (by decide) (by decide)
      (by decide) (by decide) (by decide)⟩

end SearchEngine

namespace SearchEngine

/-! ## The synonym node with step counts 1 and 2, call by call -/

theorem wordAt_seek (w : ISRWord) (A : List WordPost) (docs : List DocumentPost)
    (cur : Option WordPost) (dcur : Option DocumentPost) (h : WordAt w A docs cur dcur)
    (T : Nat) :
    ∃ w1, w.Seek T = some (w1.current.map Post.word, w1)
      ∧ WordAt w1 A docs (seekCurrent T cur A) dcur := by
  obtain ⟨hw, hd, hc, hdc⟩ := h
  obtain ⟨w1, hs, hok, hdoc, _, hcur⟩ := word_seek_spec w A hw T
  exact ⟨w1, hs, hok, by rw [hdoc]; exact hd, by rw [hcur, hc], by rw [hdoc]; exact hdc⟩

theorem wordAt_getCurrentDoc (w : ISRWord) (A : List WordPost) (docs : List DocumentPost)
    (c : WordPost) (dcur : Option DocumentPost) (h : WordAt w A docs (some c) dcur) :
    ∃ w1, w.GetCurrentDoc
        = some ((seekCurrentDoc c.startLocation dcur docs).map Post.doc, w1)
      ∧ WordAt w1 A docs (some c) (seekCurrentDoc c.startLocation dcur docs) := by
  obtain ⟨hw, hd, hc, hdc⟩ := h
  obtain ⟨d1, hseek, hok, _, hcur⟩ := doc_seek_spec w.isr_doc docs hd c.startLocation
  rw [hdc] at hcur
  refine ⟨{ w with isr_doc := d1 }, ?_, wordCursor_with_doc w A d1 hw, hok, hc, hcur⟩
  rw [word_getCurrentDoc_eq w c _ d1 hc hseek, hcur]

theorem wordAt_next_some (w : ISRWord) (A : List WordPost) (docs : List DocumentPost)
    (c : WordPost) (dcur : Option DocumentPost) (D : DocumentPost)
    (h : WordAt w A docs (some c) dcur)
    (hD : seekCurrentDoc c.startLocation dcur docs = some D) :
    ∃ w1, w.Next = some (w1.current.map Post.word, w1)
      ∧ WordAt w1 A docs (seekCurrent (D.endLocation + 1) (some c) A) (some D) := by
  obtain ⟨hw, hd, hc, hdc⟩ := h
  obtain ⟨d1, hseek, hok, _, hcur⟩ := doc_seek_spec w.isr_doc docs hd c.startLocation
  rw [hdc, hD] at hcur
  rw [hcur] at hseek
  have hDm := docCursor_current_mem d1 docs hok D hcur
  have hnw := hd.list.noWrap D hDm
  have h1 : WordAt { w with isr_doc := d1 } A docs (some c) (some D) :=
    ⟨wordCursor_with_doc w A d1 hw, hok, hc, hcur⟩
  obtain ⟨w1, hs, hat⟩ := wordAt_seek _ A docs _ _ h1 (D.endLocation + 1)
  refine ⟨w1, ?_, hat⟩
  rw [word_next_eq w c D d1 hc hseek, Nat.mod_eq_of_lt hnw]
  exact hs

theorem wordAt_next_none (w : ISRWord) (A : List WordPost) (docs : List DocumentPost)
    (dcur : Option DocumentPost) (h : WordAt w A docs none dcur) :
    ∃ w1, w.Next = some (w1.current.map Post.word, w1)
      ∧ WordAt w1 A docs (firstPostGE 0 A) dcur := by
  obtain ⟨w1, hs, hat⟩ := wordAt_seek w A docs none dcur h 0
  exact ⟨w1, by rw [word_next_of_none w h.2.2.1]; exact hs, hat⟩

theorem wordAt_fresh (w : ISRWord) (A : List WordPost) (docs : List DocumentPost)
    (hw : FreshWord w A) (hd : FreshDoc w.isr_doc docs) : WordAt w A docs none none :=
  ⟨freshWord_ok w A hw, freshDoc_ok _ docs hd, hw.2.2.2, hd.2.2.2⟩

/-- `ISRSynOr::FindNearest` returns the nearer current post of the children and
records which child holds it. -/
theorem synOr_findNearest (o : ISRSynOr ISRWord ISRWord) :
    ∃ o1, ISRSynOr.FindNearest o
        = ((minPost o.isr1.current o.isr2.current).map Post.word, o1)
      ∧ o1.isr1 = o.isr1 ∧ o1.isr2 = o.isr2 ∧ o1.current = o.current
      ∧ o1.advanceRight = o.advanceRight ∧ o1.advanceLeft = o.advanceLeft
      ∧ o1.nearestTerm = nearestOf o.isr1.current o.isr2.current := by
  unfold ISRSynOr.FindNearest
  simp only [isr_word_getCurrentPost]
  cases h1 : o.isr1.current with
  | none =>
    cases h2 : o.isr2.current with
    | none => exact ⟨_, rfl, rfl, rfl, rfl, rfl, rfl, rfl⟩
    | some r => exact ⟨_, rfl, rfl, rfl, rfl, rfl, rfl, rfl⟩
  | some l =>
    cases h2 : o.isr2.current with
    | none => exact ⟨_, rfl, rfl, rfl, rfl, rfl, rfl, rfl⟩
    | some r =>
      simp only [Option.map_some', Post.GetStartLocation, minPost, nearestOf]
      by_cases hle : l.startLocation ≤ r.startLocation
      · simp only [if_pos hle]
        exact ⟨_, rfl, rfl, rfl, rfl, rfl, rfl, rfl⟩
      · simp only [if_neg hle]
        exact ⟨_, rfl, rfl, rfl, rfl, rfl, rfl, rfl⟩

/-- `FindNearest` on a node whose children are described. -/
theorem synOrAt_findNearest (o : ISRSynOr ISRWord ISRWord) (A B : List WordPost)
    (docs : List DocumentPost) (ca cb : Option WordPost) (da db : Option DocumentPost)
    (hl : WordAt o.isr1 A docs ca da) (hr : WordAt o.isr2 B docs cb db)
    (hcur : o.current = none) (hR : o.advanceRight = 1) (hL : o.advanceLeft = 2) :
    ∃ o1, ISRSynOr.FindNearest o = ((minPost ca cb).map Post.word, o1)
      ∧ SynOrAt o1 A B docs ca da cb db (nearestOf ca cb) := by
  obtain ⟨o1, hf, h1, h2, h3, h4, h5, h6⟩ := synOr_findNearest o
  rw [hl.2.2.1, hr.2.2.1] at hf h6
  exact ⟨o1, hf,
    { left := h1 ▸ hl
      right := h2 ▸ hr
      cur := h3.trans hcur
      near := h6
      advR := h4.trans hR
      advL := h5.trans hL }⟩

/-- The first `Next` of the node: both children take their first post. -/
theorem synOrAt_next_first (f : Nat) (o : ISRSynOr ISRWord ISRWord) (A B : List WordPost)
    (docs : List DocumentPost) (da db : Option DocumentPost)
    (h : SynOrAt o A B docs none da none db (-1)) :
    ∃ o1, ISRSynOr.Next f o
        = some ((minPost (firstPostGE 0 A) (firstPostGE 0 B)).map Post.word, o1)
      ∧ SynOrAt o1 A B docs (firstPostGE 0 A) da (firstPostGE 0 B) db
          (nearestOf (firstPostGE 0 A) (firstPostGE 0 B)) := by
  obtain ⟨a, ha, hat⟩ := wordAt_next_none o.isr1 A docs da h.left
  obtain ⟨b, hb, hbt⟩ := wordAt_next_none o.isr2 B docs db h.right
  obtain ⟨o1, hf, hs⟩ := synOrAt_findNearest { o with isr1 := a, isr2 := b } A B docs _ _ _ _
    hat hbt h.cur h.advR h.advL
  refine ⟨o1, ?_, hs⟩
  unfold ISRSynOr.Next
  rw [if_pos h.near]
  simp only [isr_word_next, ha, hb]
  rw [hf]

/-- A later `Next` of the node, up to the seek: the document `D` of the nearer
child's post is found, both children are sought past it, and the nearer child
is named again. -/
theorem synOrAt_seek_past (f : Nat) (o : ISRSynOr ISRWord ISRWord) (A B : List WordPost)
    (docs : List DocumentPost) (ca cb : Option WordPost) (da db da1 db1 : Option DocumentPost)
    (nt : Int) (c : WordPost) (D : DocumentPost)
    (h : SynOrAt o A B docs ca da cb db nt)
    (hnear : (nt = 0 ∧ ca = some c ∧ seekCurrentDoc c.startLocation da docs = some D
          ∧ da1 = some D ∧ db1 = db)
      ∨ (nt = 1 ∧ cb = some c ∧ seekCurrentDoc c.startLocation db docs = some D
          ∧ da1 = da ∧ db1 = some D)) :
    ∃ o2, ISRSynOr.Next f o = ISRSynOr.Next.advance f o2
      ∧ SynOrAt o2 A B docs (seekCurrent (D.endLocation + 1) ca A) da1
          (seekCurrent (D.endLocation + 1) cb B) db1
          (nearestOf (seekCurrent (D.endLocation + 1) ca A)
            (seekCurrent (D.endLocation + 1) cb B)) := by
  have key : ∀ (o1 : ISRSynOr ISRWord ISRWord),
      ISRSynOr.GetCurrentDoc f o = some (some (Post.doc D), o1) →
      WordAt o1.isr1 A docs ca da1 → WordAt o1.isr2 B docs cb db1 →
      o1.current = none → o1.advanceRight = 1 → o1.advanceLeft = 2 →
      D.endLocation + 1 < U32 →
      ∃ o2, ISRSynOr.Next f o = ISRSynOr.Next.advance f o2
        ∧ SynOrAt o2 A B docs (seekCurrent (D.endLocation + 1) ca A) da1
            (seekCurrent (D.endLocation + 1) cb B) db1
            (nearestOf (seekCurrent (D.endLocation + 1) ca A)
              (seekCurrent (D.endLocation + 1) cb B)) := by
    intro o1 hgd hl hr hc hR hL hnw
    obtain ⟨a, ha, hat⟩ := wordAt_seek o1.isr1 A docs _ _ hl (D.endLocation + 1)
    obtain ⟨b, hb, hbt⟩ := wordAt_seek o1.isr2 B docs _ _ hr (D.endLocation + 1)
    obtain ⟨o2, hf, hs⟩ := synOrAt_findNearest { o1 with isr1 := a, isr2 := b } A B docs
      _ _ _ _ hat hbt hc hR hL
    refine ⟨o2, ?_, hs⟩
    have hseek : ISRSynOr.Seek f ((D.endLocation + 1) % U32) o1
        = some ((minPost (seekCurrent (D.endLocation + 1) ca A)
            (seekCurrent (D.endLocation + 1) cb B)).map Post.word, o2) := by
      unfold ISRSynOr.Seek
      rw [if_neg (by simp [hc]), Nat.mod_eq_of_lt hnw]
      simp only [isr_word_seek, ha, hb]
      rw [hf]
    have hnt : ¬ o.nearestTerm = -1 := by
      rw [h.near]
      rcases hnear with ⟨h0, _⟩ | ⟨h0, _⟩ <;> rw [h0] <;> decide
    unfold ISRSynOr.Next ISRSynOr.Next.advance
    rw [if_neg hnt, hgd]
    simp only [Post.GetEndLocation]
    rw [hseek]
    simp only []
    split_ifs
    · cases repeatCall (ISR.Next f) (o2.advanceRight - 1).toNat o2.isr2 <;> rfl
    · cases repeatCall (ISR.Next f) (o2.advanceLeft - 1).toNat o2.isr1 <;> rfl
  rcases hnear with ⟨h0, hca, hD, hda1, hdb1⟩ | ⟨h0, hcb, hD, hda1, hdb1⟩
  · subst hca hda1 hdb1
    obtain ⟨a, ha, hat⟩ := wordAt_getCurrentDoc o.isr1 A docs c da h.left
    rw [hD] at ha hat
    have hDm := docCursor_current_mem a.isr_doc docs hat.2.1 D hat.2.2.2
    refine key { o with isr1 := a } ?_ hat h.right h.cur h.advR h.advL
      (hat.2.1.list.noWrap D hDm)
    unfold ISRSynOr.GetCurrentDoc
    rw [if_neg (by rw [h.near, h0]; decide), if_pos (by rw [h.near, h0])]
    simp only [isr_word_getCurrentDoc, ha, Option.map_some']
  · subst hcb hda1 hdb1
    obtain ⟨b, hb, hbt⟩ := wordAt_getCurrentDoc o.isr2 B docs c db h.right
    rw [hD] at hb hbt
    have hDm := docCursor_current_mem b.isr_doc docs hbt.2.1 D hbt.2.2.2
    refine key { o with isr2 := b } ?_ h.left hbt h.cur h.advR h.advL
      (hbt.2.1.list.noWrap D hDm)
    unfold ISRSynOr.GetCurrentDoc
    rw [if_neg (by rw [h.near, h0]; decide), if_neg (by rw [h.near, h0]; decide)]
    simp only [isr_word_getCurrentDoc, hb, Option.map_some']

/-- After the seek the left child is the nearer one: the right child is not
moved (`advanceRight - 1 = 0`), and the call returns the post of the left
child. -/
theorem synOrAt_advance_left (f : Nat) (o2 : ISRSynOr ISRWord ISRWord) (A B : List WordPost)
    (docs : List DocumentPost) (ca cb : Option WordPost) (da db : Option DocumentPost)
    (h : SynOrAt o2 A B docs ca da cb db 0) :
    ∃ o3, ISRSynOr.Next.advance f o2 = some ((minPost ca cb).map Post.word, o3)
      ∧ SynOrAt o3 A B docs ca da cb db (nearestOf ca cb) := by
  obtain ⟨o3, hf, hs⟩ := synOrAt_findNearest { o2 with isr2 := o2.isr2 } A B docs _ _ _ _
    h.left h.right h.cur h.advR h.advL
  refine ⟨o3, ?_, hs⟩
  unfold ISRSynOr.Next.advance
  have hR : (o2.advanceRight - 1).toNat = 0 := by rw [h.advR]; rfl
  rw [if_pos h.near, hR]
  simp only [repeatCall]
  rw [hf]

/-- After the seek the right child is the nearer one: the left child, standing
on a post of document `D`, is moved to its first post after `D`
(`advanceLeft - 1 = 1`), and the call returns the nearer post of the two
children. -/
theorem synOrAt_advance_right (f : Nat) (o2 : ISRSynOr ISRWord ISRWord) (A B : List WordPost)
    (docs : List DocumentPost) (x : WordPost) (cb : Option WordPost)
    (da db : Option DocumentPost) (D : DocumentPost)
    (h : SynOrAt o2 A B docs (some x) da cb db 1)
    (hD : seekCurrentDoc x.startLocation da docs = some D) :
    ∃ o3, ISRSynOr.Next.advance f o2
        = some ((minPost (seekCurrent (D.endLocation + 1) (some x) A) cb).map Post.word, o3)
      ∧ SynOrAt o3 A B docs (seekCurrent (D.endLocation + 1) (some x) A) (some D) cb db
          (nearestOf (seekCurrent (D.endLocation + 1) (some x) A) cb) := by
  obtain ⟨a, ha, hat⟩ := wordAt_next_some o2.isr1 A docs x da D h.left hD
  obtain ⟨o3, hf, hs⟩ := synOrAt_findNearest { o2 with isr1 := a } A B docs _ _ _ _
    hat h.right h.cur h.advR h.advL
  refine ⟨o3, ?_, hs⟩
  unfold ISRSynOr.Next.advance
  have hL : (o2.advanceLeft - 1).toNat = 1 := by rw [h.advL]; rfl
  rw [if_neg (by rw [h.near]; decide), hL]
  simp only [repeatCall, isr_word_next, ha]
  rw [hf]

theorem runCalls_next_cons {σ : Type} [ISR σ] (fuel : Nat) (cs : List Call) (s s1 s2 : σ)
    (p : Option Post) (ps : List (Option Post)) (h1 : ISR.Next fuel s = some (p, s1))
    (h2 : runCalls fuel cs s1 = some (ps, s2)) :
    runCalls fuel (Call.next :: cs) s = some (p :: ps, s2) := by
  rw [runCalls]
  simp only [Call.run, h1, h2]

theorem firstPostGE_three (T : Nat) (x y z : WordPost) :
    firstPostGE T [x, y, z] =
      if T ≤ x.startLocation then some x
      else if T ≤ y.startLocation then some y
      else if T ≤ z.startLocation then some z else none := by
  rw [firstPostGE_cons, firstPostGE_cons, firstPostGE_cons]
  rfl

theorem seekCurrentDoc_containing (docs : List DocumentPost) (hok : DocPostsOK docs)
    (D : DocumentPost) (hD : D ∈ docs) (x : Nat) (hx : inDoc D x) (dcur : Option DocumentPost)
    (hcur : dcur = none ∨ ∃ E, dcur = some E ∧ E.endLocation < x) :
    seekCurrentDoc x dcur docs = some D := by
  unfold seekCurrentDoc
  rcases hcur with h | ⟨E, h, hlt⟩
  · rw [h]
    exact firstDocGE_containing docs hok D hD x hx
  · rw [h]
    simp only []
    rw [if_neg (by omega)]
    exact firstDocGE_containing docs hok D hD x hx

theorem docs_ordered (docs : List DocumentPost) (hok : DocPostsOK docs) (i j : Nat)
    (D E : DocumentPost) (hij : i < j) (hD : docs[i]? = some D) (hE : docs[j]? = some E) :
    D.endLocation < E.startLocation := by
  obtain ⟨hi, hDi⟩ := List.getElem?_eq_some.1 hD
  obtain ⟨hj, hEj⟩ := List.getElem?_eq_some.1 hE
  have := List.pairwise_iff_getElem.1 hok.1 i j hi hj hij
  rw [hDi, hEj] at this
  exact this

/-- Claim C7 (amended). For a SynOr iterator with `advance_right = 1` and
`advance_left = 2` over fresh word iterators, whose left child (`cat`) has one
post in each of the documents 0, 4 and 8 of the segment and whose right child
(`feline`) has one post in each of the documents 1, 5 and 9, wherever these
posts stand inside their documents: the first four `ISRSynOr::Next` calls
return the post of `cat` in document 0, of `feline` in document 1, of `feline`
in document 5 and of `cat` in document 8. After the seek past the current
document the child that is not the nearer one is advanced `advance - 1` more
documents, so document 4 is passed over. -/
theorem synOr_next_four_documents (docs : List DocumentPost)
    (d0 d1 d4 d5 d8 d9 : DocumentPost) (a0 a4 a8 b1 b5 b9 : WordPost) (cat feline : ISRWord)
    (fuel : Nat)
    (hd0 : docs[0]? = some d0) (hd1 : docs[1]? = some d1) (hd4 : docs[4]? = some d4)
    (hd5 : docs[5]? = some d5) (hd8 : docs[8]? = some d8) (hd9 : docs[9]? = some d9)
    (hcat : FreshWord cat [a0, a4, a8]) (hcatd : FreshDoc cat.isr_doc docs)
    (hfel : FreshWord feline [b1, b5, b9]) (hfeld : FreshDoc feline.isr_doc docs)
    (ha0 : inDoc d0 a0.startLocation) (ha4 : inDoc d4 a4.startLocation)
    (ha8 : inDoc d8 a8.startLocation) (hb1 : inDoc d1 b1.startLocation)
    (hb5 : inDoc d5 b5.startLocation) (hb9 : inDoc d9 b9.startLocation) :
    ∃ s, runCalls fuel [Call.next, Call.next, Call.next, Call.next]
        (ISRSynOr.new cat feline 1 2)
      = some ([some (Post.word a0), some (Post.word b1), some (Post.word b5),
          some (Post.word a8)], s) := by
  have hok : DocPostsOK docs := hcatd.1.1
  have o01 := docs_ordered docs hok 0 1 d0 d1 (by decide) hd0 hd1
  have o14 := docs_ordered docs hok 1 4 d1 d4 (by decide) hd1 hd4
  have o45 := docs_ordered docs hok 4 5 d4 d5 (by decide) hd4 hd5
  have o58 := docs_ordered docs hok 5 8 d5 d8 (by decide) hd5 hd8
  have o89 := docs_ordered docs hok 8 9 d8 d9 (by decide) hd8 hd9
  have m0 := List.getElem?_mem hd0
  have m1 := List.getElem?_mem hd1
  have m4 := List.getElem?_mem hd4
  have m5 := List.getElem?_mem hd5
  have m8 := List.getElem?_mem hd8
  have e0 := hok.2.1 d0 m0
  have e1 := hok.2.1 d1 m1
  have e4 := hok.2.1 d4 m4
  have e5 := hok.2.1 d5 m5
  have e8 := hok.2.1 d8 m8
  obtain ⟨ha0l, ha0u⟩ := ha0
  obtain ⟨ha4l, ha4u⟩ := ha4
  obtain ⟨ha8l, ha8u⟩ := ha8
  obtain ⟨hb1l, hb1u⟩ := hb1
  obtain ⟨hb5l, hb5u⟩ := hb5
  obtain ⟨hb9l, hb9u⟩ := hb9
  -- the node before the first call
  have s0 : SynOrAt (ISRSynOr.new cat feline 1 2) [a0, a4, a8] [b1, b5, b9] docs
      none none none none (-1) :=
    { left := wordAt_fresh cat _ docs hcat hcatd
      right := wordAt_fresh feline _ docs hfel hfeld
      cur := rfl, near := rfl, advR := rfl, advL := rfl }
  -- first call: `cat` in document 0
  obtain ⟨o1, hn1, s1⟩ := synOrAt_next_first fuel _ _ _ docs _ _ s0
  have fa0 : firstPostGE 0 [a0, a4, a8] = some a0 := by
    rw [firstPostGE_three, if_pos (Nat.zero_le _)]
  have fb0 : firstPostGE 0 [b1, b5, b9] = some b1 := by
    rw [firstPostGE_three, if_pos (Nat.zero_le _)]
  rw [fa0, fb0] at hn1 s1
  have n1 : nearestOf (some a0) (some b1) = 0 := by
    unfold nearestOf
    simp only []
    rw [if_pos (by omega)]
  have p1 : minPost (some a0) (some b1) = some a0 := by
    unfold minPost
    simp only []
    rw [if_pos (by omega)]
  rw [n1] at s1
  rw [p1] at hn1
  -- second call: `feline` in document 1
  have hD0 : seekCurrentDoc a0.startLocation none docs = some d0 :=
    seekCurrentDoc_containing docs hok d0 m0 _ ⟨ha0l, ha0u⟩ none (Or.inl rfl)
  obtain ⟨o2, hn2, s2⟩ := synOrAt_seek_past fuel o1 _ _ docs _ _ _ _ (some d0) none 0 a0 d0 s1
    (Or.inl ⟨rfl, rfl, hD0, rfl, rfl⟩)
  have ca2 : seekCurrent (d0.endLocation + 1) (some a0) [a0, a4, a8] = some a4 := by
    rw [seekCurrent_of_lt _ _ _ (by omega), firstPostGE_three, if_neg (by omega),
      if_pos (by omega)]
  have cb2 : seekCurrent (d0.endLocation + 1) (some b1) [b1, b5, b9] = some b1 := by
    unfold seekCurrent
    simp only []
    rw [if_pos (by omega)]
  rw [ca2, cb2] at s2
  have n2 : nearestOf (some a4) (some b1) = 1 := by
    unfold nearestOf
    simp only []
    rw [if_neg (by omega)]
  rw [n2] at s2
  have hD4 : seekCurrentDoc a4.startLocation (some d0) docs = some d4 :=
    seekCurrentDoc_containing docs hok d4 m4 _ ⟨ha4l, ha4u⟩ _ (Or.inr ⟨d0, rfl, by omega⟩)
  obtain ⟨o3, hn3, s3⟩ := synOrAt_advance_right fuel o2 _ _ docs a4 _ _ _ d4 s2 hD4
  have ca3 : seekCurrent (d4.endLocation + 1) (some a4) [a0, a4, a8] = some a8 := by
    rw [seekCurrent_of_lt _ _ _ (by omega), firstPostGE_three, if_neg (by omega),
      if_neg (by omega), if_pos (by omega)]
  rw [ca3] at hn3 s3
  have n3 : nearestOf (some a8) (some b1) = 1 := by
    unfold nearestOf
    simp only []
    rw [if_neg (by omega)]
  have p3 : minPost (some a8) (some b1) = some b1 := by
    unfold minPost
    simp only []
    rw [if_neg (by omega)]
  rw [n3] at s3
  rw [p3] at hn3
  have hcall2 : ISRSynOr.Next fuel o1 = some (some (Post.word b1), o3) := by
    rw [hn2, hn3]
    rfl
  -- third call: `feline` in document 5
  have hD1 : seekCurrentDoc b1.startLocation none docs = some d1 :=
    seekCurrentDoc_containing docs hok d1 m1 _ ⟨hb1l, hb1u⟩ none (Or.inl rfl)
  obtain ⟨o4, hn4, s4⟩ := synOrAt_seek_past fuel o3 _ _ docs _ _ _ _ (some d4) (some d1) 1 b1 d1
    s3 (Or.inr ⟨rfl, rfl, hD1, rfl, rfl⟩)
  have ca4 : seekCurrent (d1.endLocation + 1) (some a8) [a0, a4, a8] = some a8 := by
    unfold seekCurrent
    simp only []
    rw [if_pos (by omega)]
  have cb4 : seekCurrent (d1.endLocation + 1) (some b1) [b1, b5, b9] = some b5 := by
    rw [seekCurrent_of_lt _ _ _ (by omega), firstPostGE_three, if_neg (by omega),
      if_pos (by omega)]
  rw [ca4, cb4] at s4
  have n4 : nearestOf (some a8) (some b5) = 1 := by
    unfold nearestOf
    simp only []
    rw [if_neg (by omega)]
  rw [n4] at s4
  have hD8 : seekCurrentDoc a8.startLocation (some d4) docs = some d8 :=
    seekCurrentDoc_containing docs hok d8 m8 _ ⟨ha8l, ha8u⟩ _ (Or.inr ⟨d4, rfl, by omega⟩)
  obtain ⟨o5, hn5, s5⟩ := synOrAt_advance_right fuel o4 _ _ docs a8 _ _ _ d8 s4 hD8
  have ca5 : seekCurrent (d8.endLocation + 1) (some a8) [a0, a4, a8] = none := by
    rw [seekCurrent_of_lt _ _ _ (by omega), firstPostGE_three, if_neg (by omega),
      if_neg (by omega), if_neg (by omega)]
  rw [ca5] at hn5 s5
  have n5 : nearestOf none (some b5) = 1 := rfl
  have p5 : minPost none (some b5) = some b5 := rfl
  rw [n5] at s5
  rw [p5] at hn5
  have hcall3 : ISRSynOr.Next fuel o3 = some (some (Post.word b5), o5) := by
    rw [hn4, hn5]
    rfl
  -- fourth call: `cat` in document 8
  have hD5 : seekCurrentDoc b5.startLocation (some d1) docs = some d5 :=
    seekCurrentDoc_containing docs hok d5 m5 _ ⟨hb5l, hb5u⟩ _ (Or.inr ⟨d1, rfl, by omega⟩)
  obtain ⟨o6, hn6, s6⟩ := synOrAt_seek_past fuel o5 _ _ docs _ _ _ _ (some d8) (some d5) 1 b5 d5
    s5 (Or.inr ⟨rfl, rfl, hD5, rfl, rfl⟩)
  have ca6 : seekCurrent (d5.endLocation + 1) none [a0, a4, a8] = some a8 := by
    show firstPostGE _ _ = _
    rw [firstPostGE_three, if_neg (by omega), if_neg (by omega), if_pos (by omega)]
  have cb6 : seekCurrent (d5.endLocation + 1) (some b5) [b1, b5, b9] = some b9 := by
    rw [seekCurrent_of_lt _ _ _ (by omega), firstPostGE_three, if_neg (by omega),
      if_neg (by omega), if_pos (by omega)]
  rw [ca6, cb6] at s6
  have n6 : nearestOf (some a8) (some b9) = 0 := by
    unfold nearestOf
    simp only []
    rw [if_pos (by omega)]
  have p6 : minPost (some a8) (some b9) = some a8 := by
    unfold minPost
    simp only []
    rw [if_pos (by omega)]
  rw [n6] at s6
  obtain ⟨o7, hn7, _⟩ := synOrAt_advance_left fuel o6 _ _ docs _ _ _ _ s6
  rw [p6] at hn7
  have hcall4 : ISRSynOr.Next fuel o5 = some (some (Post.word a8), o7) := by
    rw [hn6, hn7]
    rfl
  exact ⟨o7, runCalls_next_cons fuel _ _ o1 o7 _ _ hn1
    (runCalls_next_cons fuel _ _ o3 o7 _ _ hcall2
      (runCalls_next_cons fuel _ _ o5 o7 _ _ hcall3
        (runCalls_next_cons fuel _ _ o7 o7 _ _ hcall4 rfl)))⟩

set_option maxRecDepth 100000 in
/-- The segment of ten three-word documents, `cat` at Locations 1, 13, 25 and
`feline` at Locations 4, 16, 28: the four calls return the posts at 1, 4, 16
and 25. -/
theorem synOr_next_four_documents_witness :
    ∃ s, runCalls 3 [Call.next, Call.next, Call.next, Call.next]
        (ISRSynOr.new (wordIterator [1, 13, 25] tenDocs) (wordIterator [4, 16, 28] tenDocs) 1 2)
      = some ([some (Post.word ⟨1, 0⟩), some (Post.word ⟨4, 0⟩), some (Post.word ⟨16, 0⟩),
          some (Post.word ⟨25, 0⟩)], s) :=
  synOr_next_four_documents tenDocs ⟨1, 3, 0⟩ ⟨4, 6, 1⟩ ⟨13, 15, 4⟩ ⟨16, 18, 5⟩ ⟨25, 27, 8⟩
    ⟨28, 30, 9⟩ ⟨1, 0⟩ ⟨13, 0⟩ ⟨25, 0⟩ ⟨4, 0⟩ ⟨16, 0⟩ ⟨28, 0⟩ _ _ 3
    (by decide) (by decide) (by decide) (by decide) (by decide) (by decide)
    (wordIterator_fresh [1, 13, 25] _ (by decide) (by decide))
    (wordIterator_freshDoc [1, 13, 25] _ (by decide) (by decide))
    (wordIterator_fresh [4, 16, 28] _ (by decide) (by decide))
    (wordIterator_freshDoc [4, 16, 28] _ (by decide) (by decide))
    (by decide) (by decide) (by decide) (by decide) (by decide) (by decide)

end SearchEngine

